import Mathlib

/-!
DataCompressor: a shallow embedding of the bit-stream I/O substrate and the stage codecs

The C sources are embedded function by function.  State is passed explicitly:
a C function `T f(S * const s, ...)` becomes `f : S → ... → T × S`.
Machine integers are `Nat`/`Int` with explicit reductions where a C value can wrap.
Loops are recursions on a fuel argument; the theorems show that the fuel given suffices.
-/

namespace DataCompressor

/-! ## common/inc/err_codes.h, common/inc/io.h -/

def NO_ERROR : Int := 0
def ERROR_INVALID_VALUE : Int := -1
def ERROR_VALUE_LARGER_THAN_USABLE_SIZE : Int := -2
def ERROR_INVALID_FORMAT : Int := -3
def ERROR_INVALID_MODE : Int := -4
def ERROR_FILE_IO : Int := -5
def ERROR_MEMORY : Int := -6
def ERROR_LIBRARY_INIT : Int := -10
def ERROR_LIBRARY_CALL : Int := -11

/-- Result of a loop of the embedding whose fuel ran out; no C function returns it. -/
def OUT_OF_FUEL : Int := -1000

def IO_SIZE_BITS : Nat := 64
def SIZE_MAX : Nat := 2 ^ 64 - 1
/-- C `MAX_USABLE_SIZE` is `SIZE_MAX / 2` when `io_uint_t` and `size_t` have the same width. -/
def MAX_USABLE_SIZE : Nat := SIZE_MAX / 2

/-- Conversion of a signed `io_int_t` to the unsigned 64-bit type. -/
def toU64 (x : Int) : Nat := (x % (2 ^ 64 : Int)).toNat

/-- Conversion of an unsigned 64-bit value to the signed `io_int_t` (two's complement). -/
def toI64 (x : Nat) : Int :=
  if x % 2 ^ 64 < 2 ^ 63 then ((x % 2 ^ 64 : Nat) : Int) else ((x % 2 ^ 64 : Nat) : Int) - 2 ^ 64

/-! ## DCIOLib/src/buffer.c -/

/-- The `buffer_t` object.  `buffer` is the data region (`buffer_size` bytes).
`stray` stands for the memory that starts at the address of the `buffer_t` object itself,
which the compaction branch of `WriteBuffer` reads through `&buffer[buffer->buffer_start]`. -/
structure buffer_t where
  buffer : List Nat
  buffer_size : Nat
  buffer_start : Int
  buffer_end : Int
  stray : List Nat
  deriving DecidableEq, Repr

/-- Size in bytes of the `buffer_t` object (a pointer, a `size_t` and two `io_int_t`). -/
def SIZEOF_BUFFER_T : Nat := 32

/-- Effect of `memcpy(&dst[off], src, |src|)` on the region `dst`. -/
def memcpy (dst : List Nat) (off : Nat) (src : List Nat) : List Nat :=
  dst.take off ++ src ++ dst.drop (off + src.length)

def ClearBuffer (buffer : buffer_t) : buffer_t :=
  { buffer with buffer_start := 0, buffer_end := -1 }

/-- C `InitBuffer`: the data region is allocated (contents modelled as zero bytes). -/
def InitBuffer (stray : List Nat) (buffer_size : Nat) : Except Int buffer_t :=
  if buffer_size ≤ 0 then .error ERROR_INVALID_VALUE
  else if buffer_size > MAX_USABLE_SIZE then .error ERROR_VALUE_LARGER_THAN_USABLE_SIZE
  else .ok (ClearBuffer
    { buffer := List.replicate buffer_size 0, buffer_size := buffer_size,
      buffer_start := 0, buffer_end := 0, stray := stray })

def GetBufferSize (buffer : buffer_t) : Nat := buffer.buffer_size

def GetUsedBufferSize (buffer : buffer_t) : Int :=
  buffer.buffer_end - buffer.buffer_start + 1

def ResizeBuffer (buffer : buffer_t) (new_buffer_size : Nat) : Int × buffer_t :=
  let old_used_size := buffer.buffer_end - buffer.buffer_start + 1
  if new_buffer_size ≤ 0 then (ERROR_INVALID_VALUE, buffer)
  else if new_buffer_size > MAX_USABLE_SIZE then (ERROR_VALUE_LARGER_THAN_USABLE_SIZE, buffer)
  else
    let new_buf := memcpy (List.replicate new_buffer_size 0) 0
      ((buffer.buffer.drop buffer.buffer_start.toNat).take old_used_size.toNat)
    (NO_ERROR, { buffer with buffer := new_buf, buffer_size := new_buffer_size,
                             buffer_start := 0, buffer_end := old_used_size - 1 })

/-- A refill callback: given `max_bytes` and the caller's state it returns its result and the
bytes it stored at `buffer_addr`. -/
abbrev refill_function_t (σ : Type) := Nat → σ → (Int × List Nat) × σ

/-- A flush callback: given the bytes at `buffer_addr` and the caller's state. -/
abbrev flush_function_t (σ : Type) := List Nat → σ → Int × σ

/-- The loop `for (i = 0; i < old_size; i++) buffer[i] = buffer[buffer_start + i]`. -/
def moveToFront (buffer : List Nat) (buffer_start old_size : Nat) : List Nat :=
  (List.range old_size).foldl (fun buf i => buf.set i (buf.getD (buffer_start + i) 0)) buffer

def RefillBuffer {σ : Type} (buffer : buffer_t) (refill_func : Option (refill_function_t σ))
    (caller_info : σ) : Int × buffer_t × σ :=
  let old_size := GetUsedBufferSize buffer
  let b1 : buffer_t :=
    { buffer with buffer := moveToFront buffer.buffer buffer.buffer_start.toNat old_size.toNat,
                  buffer_start := 0, buffer_end := old_size - 1 }
  match refill_func with
  | some f =>
    let r := f (buffer.buffer_size - old_size.toNat) caller_info
    let size := r.1.1
    if size > 0 then
      (NO_ERROR, { b1 with buffer := memcpy b1.buffer (b1.buffer_end + 1).toNat (r.1.2.take size.toNat),
                           buffer_end := b1.buffer_end + size }, r.2)
    else (size, b1, r.2)
  | none => (NO_ERROR, b1, caller_info)

/-- C `PeekBuffer`: the result and the bytes copied to `output`. -/
def PeekBuffer (buffer : buffer_t) (output_size : Nat) : Int × List Nat :=
  let size : Int := if GetUsedBufferSize buffer < (output_size : Int) then GetUsedBufferSize buffer
                    else (output_size : Int)
  if output_size > MAX_USABLE_SIZE then (ERROR_VALUE_LARGER_THAN_USABLE_SIZE, [])
  else (size, (buffer.buffer.drop buffer.buffer_start.toNat).take size.toNat)

def ReadBuffer (buffer : buffer_t) (output_size : Nat) : (Int × List Nat) × buffer_t :=
  let r := PeekBuffer buffer output_size
  if r.1 > 0 then (r, { buffer with buffer_start := buffer.buffer_start + r.1 })
  else (r, buffer)

def FlushBuffer {σ : Type} (buffer : buffer_t) (flush_func : Option (flush_function_t σ))
    (caller_info : σ) : Int × buffer_t × σ :=
  match flush_func with
  | some f =>
    let old_size := GetUsedBufferSize buffer
    if old_size > 0 then
      let r := f ((buffer.buffer.drop buffer.buffer_start.toNat).take old_size.toNat) caller_info
      if r.1 > 0 then (NO_ERROR, { buffer with buffer_start := buffer.buffer_start + r.1 }, r.2)
      else (NO_ERROR, buffer, r.2)
    else (NO_ERROR, buffer, caller_info)
  | none => (NO_ERROR, buffer, caller_info)

/-- The bytes that `memcpy(&buffer->buffer[0], &buffer[buffer->buffer_start], old_size)` reads:
they lie `buffer_start * sizeof(buffer_t)` bytes after the address of the object. -/
def strayBytes (buffer : buffer_t) (old_size : Nat) : List Nat :=
  (List.range old_size).map
    (fun i => buffer.stray.getD (SIZEOF_BUFFER_T * buffer.buffer_start.toNat + i) 0)

def WriteBuffer (buffer : buffer_t) (input : List Nat) (input_size : Nat) : Int × buffer_t :=
  let old_size := GetUsedBufferSize buffer
  let free_size : Int := (GetBufferSize buffer : Int) - old_size
  let size : Nat := toU64 (if free_size < (input_size : Int) then free_size else (input_size : Int))
  if input_size > MAX_USABLE_SIZE then (ERROR_VALUE_LARGER_THAN_USABLE_SIZE, buffer)
  else
    let b1 : buffer_t :=
      if (toU64 buffer.buffer_end + size) % 2 ^ 64 ≥ buffer.buffer_size then
        { buffer with
            buffer := if old_size > 0 then memcpy buffer.buffer 0 (strayBytes buffer old_size.toNat)
                      else buffer.buffer,
            buffer_start := 0, buffer_end := old_size - 1 }
      else buffer
    ((size : Int), { b1 with buffer := memcpy b1.buffer (b1.buffer_end + 1).toNat (input.take size),
                             buffer_end := b1.buffer_end + size })

/-! ## DCIOLib/src/file_buffer.c -/

inductive file_buffer_type_t where
  | FBT_FILE
  | FBT_MEMORY
  deriving DecidableEq, Repr

inductive file_buffer_mode_t where
  | FBM_INVALID
  | FBM_READING
  | FBM_WRITING
  deriving DecidableEq, Repr

open file_buffer_type_t file_buffer_mode_t

/-- A `FILE *` handle: the bytes `fread` has not delivered yet and the bytes `fwrite` has
stored so far.  `fread` delivers as many bytes as asked for while bytes remain, `fwrite`
stores every byte it is given. -/
structure FILE where
  input : List Nat
  output : List Nat
  deriving DecidableEq, Repr

structure file_buffer_t where
  base_file : FILE
  io_buffer : buffer_t
  mode : file_buffer_mode_t
  type : file_buffer_type_t
  deriving DecidableEq, Repr

def RefillFromFile : refill_function_t FILE := fun max_bytes base_file =>
  if max_bytes > MAX_USABLE_SIZE then ((ERROR_VALUE_LARGER_THAN_USABLE_SIZE, []), base_file)
  else (((base_file.input.take max_bytes).length, base_file.input.take max_bytes),
        { base_file with input := base_file.input.drop max_bytes })

def RefillBufferFromFile (file_buffer : file_buffer_t) : Int × file_buffer_t :=
  let r := RefillBuffer file_buffer.io_buffer
    (if file_buffer.type = FBT_FILE then some RefillFromFile else none) file_buffer.base_file
  (r.1, { file_buffer with io_buffer := r.2.1, base_file := r.2.2 })

def FlushToFile : flush_function_t FILE := fun bytes base_file =>
  if bytes.length > MAX_USABLE_SIZE then (ERROR_VALUE_LARGER_THAN_USABLE_SIZE, base_file)
  else ((bytes.length : Int), { base_file with output := base_file.output ++ bytes })

def FlushBufferToFile (file_buffer : file_buffer_t) : Int × file_buffer_t :=
  let r := FlushBuffer file_buffer.io_buffer
    (if file_buffer.type = FBT_FILE then some FlushToFile else none) file_buffer.base_file
  (r.1, { file_buffer with io_buffer := r.2.1, base_file := r.2.2 })

def InitFileBuffer (stray : List Nat) (input_file : FILE) (mode : file_buffer_mode_t)
    (buffer_size : Nat) : Except Int file_buffer_t :=
  match InitBuffer stray buffer_size with
  | .error ret => .error ret
  | .ok io =>
    let fb : file_buffer_t := { base_file := input_file, io_buffer := io, mode := mode, type := FBT_FILE }
    if mode = FBM_READING then
      let r := RefillBufferFromFile fb
      if r.1 ≠ NO_ERROR then .error r.1 else .ok r.2
    else .ok fb

def InitFileBufferInMemory (stray : List Nat) (mode : file_buffer_mode_t) (buffer_size : Nat) :
    Except Int file_buffer_t :=
  match InitBuffer stray buffer_size with
  | .error ret => .error ret
  | .ok io => .ok { base_file := { input := [], output := [] }, io_buffer := io, mode := mode,
                    type := FBT_MEMORY }

/-- C `UninitFileBuffer`: what is left after the call is the file handle. -/
def UninitFileBuffer (file_buffer : file_buffer_t) : FILE :=
  if file_buffer.mode = FBM_WRITING then (FlushBufferToFile file_buffer).2.base_file
  else file_buffer.base_file

def GetFileBufferMode (file_buffer : file_buffer_t) : file_buffer_mode_t := file_buffer.mode

def SetFileBufferMode (file_buffer : file_buffer_t) (mode : file_buffer_mode_t) :
    Int × file_buffer_t :=
  if file_buffer.mode = mode then (NO_ERROR, file_buffer)
  else if (file_buffer.mode = FBM_WRITING ∧ mode = FBM_READING) ∨
          (file_buffer.mode = FBM_READING ∧ mode = FBM_WRITING) then
    (NO_ERROR, { file_buffer with mode := mode })
  else (ERROR_INVALID_MODE, file_buffer)

def GetFileBufferSize (file_buffer : file_buffer_t) : Nat := GetBufferSize file_buffer.io_buffer

def EndOfFileBuffer (file_buffer : file_buffer_t) : Int × file_buffer_t :=
  if file_buffer.mode ≠ FBM_READING then (ERROR_INVALID_MODE, file_buffer)
  else if GetUsedBufferSize file_buffer.io_buffer = 0 then
    let r := RefillBufferFromFile file_buffer
    if r.1 ≠ NO_ERROR then r
    else ((if GetUsedBufferSize r.2.io_buffer = 0 then 1 else 0), r.2)
  else ((if GetUsedBufferSize file_buffer.io_buffer = 0 then 1 else 0), file_buffer)

/-- The `while` loop of `ReadFileBuffer`; `out` holds the bytes stored in `output` so far. -/
def ReadFileBufferLoop : Nat → file_buffer_t → Nat → Nat → Int → List Nat →
    (Int × List Nat) × file_buffer_t
  | 0, file_buffer, _, _, _, out => ((OUT_OF_FUEL, out), file_buffer)
  | fuel + 1, file_buffer, output_size, read, ret, out =>
    if output_size - read > 0 then
      let r := ReadBuffer file_buffer.io_buffer (output_size - read)
      let fb1 : file_buffer_t := { file_buffer with io_buffer := r.2 }
      let out1 := out.take read ++ r.1.2
      if r.1.1 ≠ ((output_size - read : Nat) : Int) then
        let e := if r.1.1 = 0 then EndOfFileBuffer fb1 else (0, fb1)
        if r.1.1 = 0 ∧ e.1 ≠ 0 then ((((read : Int) + r.1.1), out1), e.2)
        else
          let read1 : Nat := if r.1.1 > 0 then read + r.1.1.toNat else read
          let f := RefillBufferFromFile e.2
          if f.1 ≠ NO_ERROR then ((f.1, out1), f.2)
          else ReadFileBufferLoop fuel f.2 output_size read1 f.1 out1
      else ((((read : Int) + r.1.1), out1), fb1)
    else ((((read : Int) + ret), out), file_buffer)

/-- C `ReadFileBuffer`: the result and the bytes stored in `output`. -/
def ReadFileBuffer (file_buffer : file_buffer_t) (output_size : Nat) :
    (Int × List Nat) × file_buffer_t :=
  if file_buffer.mode ≠ FBM_READING then ((ERROR_INVALID_MODE, []), file_buffer)
  else if output_size > MAX_USABLE_SIZE then ((ERROR_VALUE_LARGER_THAN_USABLE_SIZE, []), file_buffer)
  else ReadFileBufferLoop (2 * output_size + 2) file_buffer output_size 0 0 []

/-- The macro `RESIZE_BUFFER()`. -/
def RESIZE_BUFFER (file_buffer : file_buffer_t) : Int × file_buffer_t :=
  let r := ResizeBuffer file_buffer.io_buffer (2 * GetBufferSize file_buffer.io_buffer)
  (r.1, { file_buffer with io_buffer := r.2 })

/-- The `while` loop of `WriteFileBuffer`. -/
def WriteFileBufferLoop : Nat → file_buffer_t → List Nat → Nat → Nat → Int → Int × file_buffer_t
  | 0, file_buffer, _, _, _, _ => (OUT_OF_FUEL, file_buffer)
  | fuel + 1, file_buffer, input, input_size, written, ret =>
    if input_size - written > 0 then
      let w := WriteBuffer file_buffer.io_buffer (input.drop written) (input_size - written)
      let fb1 : file_buffer_t := { file_buffer with io_buffer := w.2 }
      if w.1 ≠ ((input_size - written : Nat) : Int) ∧ w.1 > 0 then
        let written1 := written + w.1.toNat
        if fb1.type = FBT_FILE then
          let old_size := GetUsedBufferSize fb1.io_buffer
          let f := FlushBufferToFile fb1
          if f.1 ≠ old_size then ((written1 : Int) - (old_size - f.1), f.2)
          else WriteFileBufferLoop fuel f.2 input input_size written1 f.1
        else
          let z := RESIZE_BUFFER fb1
          if z.1 ≠ NO_ERROR then z
          else WriteFileBufferLoop fuel z.2 input input_size written1 w.1
      else ((written : Int) + w.1, fb1)
    else ((written : Int) + ret, file_buffer)

def WriteFileBuffer (file_buffer : file_buffer_t) (input : List Nat) (input_size : Nat) :
    Int × file_buffer_t :=
  if file_buffer.mode ≠ FBM_WRITING then (ERROR_INVALID_MODE, file_buffer)
  else if input_size > MAX_USABLE_SIZE then (ERROR_VALUE_LARGER_THAN_USABLE_SIZE, file_buffer)
  else if GetUsedBufferSize file_buffer.io_buffer = (GetBufferSize file_buffer.io_buffer : Int) then
    if file_buffer.type = FBT_FILE then
      let f := FlushBufferToFile file_buffer
      if f.1 ≠ NO_ERROR then ( ERROR_FILE_IO, f.2)
      else WriteFileBufferLoop (input_size + 1) f.2 input input_size 0 0
    else
      let z := RESIZE_BUFFER file_buffer
      if z.1 ≠ NO_ERROR then z
      else WriteFileBufferLoop (input_size + 1) z.2 input input_size 0 0
  else WriteFileBufferLoop (input_size + 1) file_buffer input input_size 0 0

def FlushFileBuffer (file_buffer : file_buffer_t) : Int × file_buffer_t :=
  let old_size := GetUsedBufferSize file_buffer.io_buffer
  if file_buffer.type ≠ FBT_FILE then ( ERROR_FILE_IO, file_buffer)
  else
    let f := FlushBufferToFile file_buffer
    ((if f.1 = old_size then 1 else 0), f.2)

def ClearFileBuffer (file_buffer : file_buffer_t) : Int × file_buffer_t :=
  if file_buffer.type ≠ FBT_MEMORY then ( ERROR_FILE_IO, file_buffer)
  else (NO_ERROR, { file_buffer with io_buffer := ClearBuffer file_buffer.io_buffer })

def ResetFileBuffer (file_buffer : file_buffer_t) (mode : file_buffer_mode_t) :
    Int × file_buffer_t :=
  let r := ClearFileBuffer { file_buffer with mode := mode }
  if r.1 ≠ NO_ERROR then r else (NO_ERROR, r.2)

/-! ## DCIOLib/src/bit_file_buffer.c -/

def MAX_USED_BITS : Nat := 8

structure bit_file_buffer_t where
  file_buffer : file_buffer_t
  byte_buffer : Nat
  used_bits : Nat
  extra_byte_buffer : Nat
  extra_used_bits : Nat
  deriving DecidableEq, Repr

def ResetBufferByte (bit_file_buffer : bit_file_buffer_t) : bit_file_buffer_t :=
  { bit_file_buffer with
      byte_buffer := 0
      used_bits := (match GetFileBufferMode bit_file_buffer.file_buffer with
        | FBM_READING => MAX_USED_BITS
        | _ => 0)
      extra_byte_buffer := 0
      extra_used_bits := 0 }

def InitBitFileBuffer (file_buffer : file_buffer_t) : bit_file_buffer_t :=
  ResetBufferByte { file_buffer := file_buffer, byte_buffer := 0, used_bits := 0,
                    extra_byte_buffer := 0, extra_used_bits := 0 }

def EndOfBitFileBuffer (bit_file_buffer : bit_file_buffer_t) : Int × bit_file_buffer_t :=
  let e := EndOfFileBuffer bit_file_buffer.file_buffer
  let b1 : bit_file_buffer_t := { bit_file_buffer with file_buffer := e.2 }
  if e.1 < 0 then (e.1, b1)
  else if GetFileBufferMode b1.file_buffer = FBM_READING ∧ e.1 ≠ 0 then
    ((if bit_file_buffer.extra_used_bits = 0 ∧ bit_file_buffer.used_bits = MAX_USED_BITS then 1 else 0), b1)
  else (0, b1)

def SetBitFileBufferMode (bit_file_buffer : bit_file_buffer_t) (mode : file_buffer_mode_t) :
    Int × bit_file_buffer_t :=
  let old_mode := GetFileBufferMode bit_file_buffer.file_buffer
  let s := SetFileBufferMode bit_file_buffer.file_buffer mode
  let b1 : bit_file_buffer_t := { bit_file_buffer with file_buffer := s.2 }
  if s.1 ≠ NO_ERROR then (s.1, b1)
  else if old_mode = mode then (NO_ERROR, b1)
  else if old_mode = FBM_WRITING ∧ mode = FBM_READING then
    (NO_ERROR, { b1 with extra_byte_buffer := b1.byte_buffer, extra_used_bits := b1.used_bits,
                         used_bits := MAX_USED_BITS })
  else (ERROR_INVALID_MODE, b1)

/-- The last three statements of `ReadBitFileBufferBytewise` (the bits taken from the
primary byte), with the values of `*output`, `read` and `new_bits` reached before them. -/
def ReadBitFileBufferBytewiseTail (bit_file_buffer : bit_file_buffer_t) (output : Nat) (read : Int)
    (new_bits : Nat) : (Int × Nat) × bit_file_buffer_t :=
  let output1 := output |||
    ((bit_file_buffer.byte_buffer &&& (1 <<< (MAX_USED_BITS - bit_file_buffer.used_bits) - 1)) >>>
      (MAX_USED_BITS - new_bits - bit_file_buffer.used_bits))
  ((read + new_bits, output1),
   { bit_file_buffer with used_bits := (bit_file_buffer.used_bits + new_bits) % 256 })

/-- C `ReadBitFileBufferBytewise`: the result and the byte stored in `*output`
(`*output` is reported as 0 when the function returns before assigning it). -/
def ReadBitFileBufferBytewise (bit_file_buffer : bit_file_buffer_t) (output_bit_size : Nat) :
    (Int × Nat) × bit_file_buffer_t :=
  let old_bits : Nat := (MAX_USED_BITS + 256 - bit_file_buffer.used_bits) % 256
  if output_bit_size > MAX_USED_BITS then ((ERROR_INVALID_VALUE, 0), bit_file_buffer)
  else if output_bit_size > old_bits then
    let output1 : Nat :=
      if old_bits > 0 then 0 ||| (bit_file_buffer.byte_buffer &&& (1 <<< old_bits - 1)) else 0
    let read1 : Nat := if old_bits > 0 then old_bits else 0
    let used1 : Nat := if old_bits > 0 then MAX_USED_BITS else bit_file_buffer.used_bits
    let new_bits1 : Nat := (output_bit_size + 256 - read1) % 256
    let r := ReadFileBuffer bit_file_buffer.file_buffer 1
    let b1 : bit_file_buffer_t :=
      { bit_file_buffer with file_buffer := r.2, used_bits := used1,
                             byte_buffer := r.1.2.headD bit_file_buffer.byte_buffer }
    let shifted (o : Nat) : Nat :=
      if old_bits > 0 then (o <<< (output_bit_size - old_bits)) % 256 else o
    if r.1.1 = 1 then
      ReadBitFileBufferBytewiseTail { b1 with used_bits := 0 } (shifted output1) read1 new_bits1
    else if b1.extra_used_bits > 0 then
      let new_bits2 : Nat := if new_bits1 > b1.extra_used_bits then b1.extra_used_bits else new_bits1
      ReadBitFileBufferBytewiseTail
        { b1 with byte_buffer := (b1.extra_byte_buffer >>> (MAX_USED_BITS - b1.extra_used_bits)) % 256
                  used_bits := (MAX_USED_BITS + 256 - b1.extra_used_bits) % 256
                  extra_used_bits := 0 }
        (shifted output1) read1 new_bits2
    else (((read1 : Int), output1), b1)
  else ReadBitFileBufferBytewiseTail bit_file_buffer 0 0 output_bit_size

/-- The loop over the full bytes in `ReadBitFileBuffer`; `some ret` is an early `return ret`.
`out` holds the bytes stored in `output` so far. -/
def ReadBitFileBufferFull : Nat → Nat → bit_file_buffer_t → List Nat →
    (Option Int × List Nat) × bit_file_buffer_t
  | 0, _, bit_file_buffer, out => ((none, out), bit_file_buffer)
  | k + 1, i, bit_file_buffer, out =>
    let r := ReadBitFileBufferBytewise bit_file_buffer MAX_USED_BITS
    if r.1.1 ≠ (MAX_USED_BITS : Int) then
      ((some ((i * MAX_USED_BITS : Nat) + r.1.1),
        out ++ [(r.1.2 <<< ((MAX_USED_BITS : Int) - r.1.1).toNat) % 256]), r.2)
    else ReadBitFileBufferFull k (i + 1) r.2 (out ++ [r.1.2])

/-- C `ReadBitFileBuffer`: the result and the bytes stored in `output`. -/
def ReadBitFileBuffer (bit_file_buffer : bit_file_buffer_t) (output_bit_size : Nat) :
    (Int × List Nat) × bit_file_buffer_t :=
  let num_full_reads := output_bit_size / MAX_USED_BITS
  let remaining_bits := output_bit_size % MAX_USED_BITS
  if GetFileBufferMode bit_file_buffer.file_buffer ≠ FBM_READING then
    ((ERROR_INVALID_MODE, []), bit_file_buffer)
  else
    let f := ReadBitFileBufferFull num_full_reads 0 bit_file_buffer []
    match f.1.1 with
    | some ret => ((ret, f.1.2), f.2)
    | none =>
      if remaining_bits > 0 then
        let r := ReadBitFileBufferBytewise f.2 remaining_bits
        if r.1.1 ≠ (remaining_bits : Int) then
          ((((num_full_reads * MAX_USED_BITS : Nat) : Int) + (if r.1.1 ≥ 0 then r.1.1 else 0), f.1.2), r.2)
        else (((output_bit_size : Int), f.1.2 ++ [(r.1.2 <<< (MAX_USED_BITS - remaining_bits)) % 256]), r.2)
      else (((output_bit_size : Int), f.1.2), f.2)

def WriteBitFileBufferBytewise (bit_file_buffer : bit_file_buffer_t) (input : Nat)
    (input_bit_size : Nat) : Int × bit_file_buffer_t :=
  let free_bits : Int := (MAX_USED_BITS : Int) - bit_file_buffer.used_bits
  if input_bit_size > MAX_USED_BITS then (ERROR_INVALID_VALUE, bit_file_buffer)
  else
    let tail (b : bit_file_buffer_t) (written : Int) : Int × bit_file_buffer_t :=
      let new_bits : Nat := ((input_bit_size : Int) - written).toNat
      (written + new_bits,
       { b with byte_buffer := (b.byte_buffer |||
                  ((input &&& (1 <<< new_bits - 1)) <<< (MAX_USED_BITS - new_bits - b.used_bits))) % 256
                used_bits := (b.used_bits + new_bits) % 256 })
    if (input_bit_size : Int) > free_bits then
      let b1 : bit_file_buffer_t :=
        if free_bits > 0 then
          { bit_file_buffer with byte_buffer := bit_file_buffer.byte_buffer |||
              ((input &&& (1 <<< input_bit_size - 1)) >>> ((input_bit_size : Int) - free_bits).toNat) }
        else bit_file_buffer
      let written : Int := if free_bits > 0 then free_bits else 0
      let w := WriteFileBuffer b1.file_buffer [b1.byte_buffer] 1
      if w.1 = 1 then
        tail { b1 with file_buffer := w.2, used_bits := 0, byte_buffer := 0 } written
      else (written, { b1 with file_buffer := w.2, used_bits := ((b1.used_bits : Int) + written).toNat % 256 })
    else tail bit_file_buffer 0

/-- The loop over the full bytes in `WriteBitFileBuffer`; `some ret` is an early `return ret`. -/
def WriteBitFileBufferFull : Nat → Nat → bit_file_buffer_t → List Nat →
    Option Int × bit_file_buffer_t
  | 0, _, bit_file_buffer, _ => (none, bit_file_buffer)
  | k + 1, i, bit_file_buffer, input =>
    let w := WriteBitFileBufferBytewise bit_file_buffer (input.getD i 0) MAX_USED_BITS
    if w.1 ≠ (MAX_USED_BITS : Int) then (some ((i * MAX_USED_BITS : Nat) + w.1), w.2)
    else WriteBitFileBufferFull k (i + 1) w.2 input

def WriteBitFileBuffer (bit_file_buffer : bit_file_buffer_t) (input : List Nat)
    (input_bit_size : Nat) : Int × bit_file_buffer_t :=
  let num_full_writes := input_bit_size / MAX_USED_BITS
  let remaining_bits := input_bit_size % MAX_USED_BITS
  if GetFileBufferMode bit_file_buffer.file_buffer ≠ FBM_WRITING then
    (ERROR_INVALID_MODE, bit_file_buffer)
  else
    let f := WriteBitFileBufferFull num_full_writes 0 bit_file_buffer input
    match f.1 with
    | some ret => (ret, f.2)
    | none =>
      if remaining_bits > 0 then
        let temp_byte := input.getD num_full_writes 0 >>> (MAX_USED_BITS - remaining_bits)
        let w := WriteBitFileBufferBytewise f.2 temp_byte remaining_bits
        if w.1 ≠ (remaining_bits : Int) then (((num_full_writes * MAX_USED_BITS : Nat) : Int), w.2)
        else ((input_bit_size : Int), w.2)
      else ((input_bit_size : Int), f.2)

def MAX_SIZE : Nat := 8
def MAX_BIT_SIZE : Nat := 8 * MAX_SIZE

/-- C `ReadSingleValueFromBitFileBuffer`: the result and `*value`
(reported as 0 when the function returns without assigning it). -/
def ReadSingleValueFromBitFileBuffer (bit_file_buffer : bit_file_buffer_t) (value_bit_size : Nat) :
    (Int × Nat) × bit_file_buffer_t :=
  if value_bit_size > MAX_BIT_SIZE then ((ERROR_INVALID_VALUE, 0), bit_file_buffer)
  else
    let r := ReadBitFileBuffer bit_file_buffer value_bit_size
    if r.1.1 ≠ (value_bit_size : Int) then ((r.1.1, 0), r.2)
    else
      let value := (List.range ((value_bit_size + 7) / 8)).foldl
        (fun v i => v ||| ((r.1.2.getD i 0 <<< (MAX_BIT_SIZE - 8 - 8 * i)) % 2 ^ 64)) 0
      (((value_bit_size : Int), value >>> (MAX_BIT_SIZE - value_bit_size)), r.2)

def WriteSingleValueToBitFileBuffer (bit_file_buffer : bit_file_buffer_t) (value : Nat)
    (value_bit_size : Nat) : Int × bit_file_buffer_t :=
  let temp_value := (value <<< (MAX_BIT_SIZE - value_bit_size)) % 2 ^ 64
  if value_bit_size > MAX_BIT_SIZE then (ERROR_INVALID_VALUE, bit_file_buffer)
  else
    let bytes : List Nat := (List.range ((value_bit_size + 7) / 8)).map (fun i =>
      if i = 0 then (temp_value >>> (MAX_BIT_SIZE - 8)) % 256
      else ((temp_value &&& (1 <<< (MAX_BIT_SIZE - 8 * i) - 1)) >>> (MAX_BIT_SIZE - 8 - 8 * i)) % 256)
    WriteBitFileBuffer bit_file_buffer bytes value_bit_size

def FlushBitFileBufferInternal (bit_file_buffer : bit_file_buffer_t) (WriteFractionalBytes : Bool) :
    Int × bit_file_buffer_t :=
  if (!WriteFractionalBytes && bit_file_buffer.used_bits = MAX_USED_BITS) || WriteFractionalBytes then
    let w := WriteFileBuffer bit_file_buffer.file_buffer [bit_file_buffer.byte_buffer] 1
    if w.1 = 1 then
      let f := FlushFileBuffer w.2
      (f.1, { bit_file_buffer with file_buffer := f.2, used_bits := 0 })
    else ( ERROR_FILE_IO, { bit_file_buffer with file_buffer := w.2 })
  else
    let f := FlushFileBuffer bit_file_buffer.file_buffer
    (f.1, { bit_file_buffer with file_buffer := f.2 })

def FlushBitFileBuffer (bit_file_buffer : bit_file_buffer_t) : Int × bit_file_buffer_t :=
  if GetFileBufferMode bit_file_buffer.file_buffer ≠ FBM_WRITING then
    (ERROR_INVALID_MODE, bit_file_buffer)
  else FlushBitFileBufferInternal bit_file_buffer false

def UninitBitFileBuffer (bit_file_buffer : bit_file_buffer_t) : bit_file_buffer_t :=
  if GetFileBufferMode bit_file_buffer.file_buffer = FBM_WRITING then
    (FlushBitFileBufferInternal bit_file_buffer true).2
  else bit_file_buffer

def ClearBitFileBuffer (bit_file_buffer : bit_file_buffer_t) : Int × bit_file_buffer_t :=
  let c := ClearFileBuffer bit_file_buffer.file_buffer
  if c.1 ≠ NO_ERROR then (c.1, { bit_file_buffer with file_buffer := c.2 })
  else (NO_ERROR, ResetBufferByte { bit_file_buffer with file_buffer := c.2 })

def ResetBitFileBuffer (bit_file_buffer : bit_file_buffer_t) (mode : file_buffer_mode_t) :
    Int × bit_file_buffer_t :=
  let r := ResetFileBuffer bit_file_buffer.file_buffer mode
  if r.1 ≠ NO_ERROR then (r.1, { bit_file_buffer with file_buffer := r.2 })
  else
    let c := ClearBitFileBuffer { bit_file_buffer with file_buffer := r.2 }
    if c.1 ≠ NO_ERROR then c else (NO_ERROR, c.2)

/-- Teardown of a bit buffer and of its file buffer, as `UninitBuffers` of the driver does it:
`UninitBitFileBuffer` followed by `UninitFileBuffer`. -/
def teardown (bit_file_buffer : bit_file_buffer_t) : FILE :=
  UninitFileBuffer (UninitBitFileBuffer bit_file_buffer).file_buffer

/-! ## Vocabulary of the statements -/

/-- The live window of a byte buffer: the bytes at `buffer_start .. buffer_end`. -/
def buffer_t.live (b : buffer_t) : List Nat :=
  (b.buffer.drop b.buffer_start.toNat).take (GetUsedBufferSize b).toNat

/-- The invariant of the byte buffer: `0 ≤ start ≤ end + 1 ≤ capacity`, a data region of
`capacity` bytes, and a capacity that `InitBuffer` and `ResizeBuffer` accept. -/
def buffer_t.WF (b : buffer_t) : Prop :=
  b.buffer.length = b.buffer_size ∧ 0 < b.buffer_size ∧ b.buffer_size ≤ MAX_USABLE_SIZE ∧
  0 ≤ b.buffer_start ∧ b.buffer_start ≤ b.buffer_end + 1 ∧ b.buffer_end + 1 ≤ b.buffer_size

instance (b : buffer_t) : Decidable b.WF := by
  unfold buffer_t.WF; infer_instance

/-- The remaining content of a file buffer in reading mode: the buffered bytes followed by
the unread bytes of the handle (the buffered bytes only for a memory-only buffer). -/
def file_buffer_t.remaining (fb : file_buffer_t) : List Nat :=
  fb.io_buffer.live ++ (if fb.type = FBT_FILE then fb.base_file.input else [])

/-- The content of a file buffer in writing mode: the bytes passed to the handle followed by
the live window (the live window only for a memory-only buffer). -/
def file_buffer_t.written (fb : file_buffer_t) : List Nat :=
  (if fb.type = FBT_FILE then fb.base_file.output else []) ++ fb.io_buffer.live

/-- The `n` low-order bits of `v`, most significant first. -/
def toBits : Nat → Nat → List Bool
  | 0, _ => []
  | n + 1, v => v.testBit n :: toBits n v

/-- The number whose binary digits, most significant first, are `l`. -/
def valBits (l : List Bool) : Nat :=
  l.foldl (fun acc b => 2 * acc + (if b then 1 else 0)) 0

/-- The bits of a byte sequence: eight bits per byte, most significant first. -/
def bytesBits : List Nat → List Bool
  | [] => []
  | x :: xs => toBits 8 x ++ bytesBits xs

/-- The unread bit stream of a bit buffer in reading mode: the unread low bits of the primary
byte, then the bytes of the file buffer that remain, then the carryover. -/
def bit_file_buffer_t.rdBits (b : bit_file_buffer_t) : List Bool :=
  toBits (8 - b.used_bits) b.byte_buffer ++ bytesBits b.file_buffer.remaining ++
    toBits b.extra_used_bits (b.extra_byte_buffer / 2 ^ (8 - b.extra_used_bits))

/-- The bit stream written to a bit buffer in writing mode: the bytes that reached the file
buffer, then the `used_bits` high bits of the primary byte. -/
def bit_file_buffer_t.wrBits (b : bit_file_buffer_t) : List Bool :=
  bytesBits b.file_buffer.written ++ toBits b.used_bits (b.byte_buffer / 2 ^ (8 - b.used_bits))

/-- Well-formed bit buffer in reading mode. -/
def bit_file_buffer_t.RdWF (b : bit_file_buffer_t) : Prop :=
  b.file_buffer.mode = FBM_READING ∧ b.file_buffer.io_buffer.WF ∧
  b.used_bits ≤ 8 ∧ b.extra_used_bits ≤ 8

instance (b : bit_file_buffer_t) : Decidable b.RdWF := by
  unfold bit_file_buffer_t.RdWF; infer_instance

/-- Well-formed bit buffer in writing mode: the live window of the byte buffer starts at
offset 0 and the unused low bits of the primary byte are zero. -/
def bit_file_buffer_t.WrWF (b : bit_file_buffer_t) : Prop :=
  b.file_buffer.mode = FBM_WRITING ∧ b.file_buffer.io_buffer.WF ∧
  b.file_buffer.io_buffer.buffer_start = 0 ∧
  b.used_bits ≤ 8 ∧ b.byte_buffer < 256 ∧ b.byte_buffer % 2 ^ (8 - b.used_bits) = 0

instance (b : bit_file_buffer_t) : Decidable b.WrWF := by
  unfold bit_file_buffer_t.WrWF; infer_instance

/-- A memory-only bit buffer in writing mode can take `n` more bits without its capacity
having to grow beyond `MAX_USABLE_SIZE` (a file-backed buffer always can). -/
def bit_file_buffer_t.Room (b : bit_file_buffer_t) (n : Nat) : Prop :=
  b.file_buffer.type = FBT_MEMORY →
    8 * b.file_buffer.io_buffer.live.length + b.used_bits + n ≤ 4 * MAX_USABLE_SIZE

instance (b : bit_file_buffer_t) (n : Nat) : Decidable (b.Room n) := by
  unfold bit_file_buffer_t.Room; infer_instance

/-! ## DCLib/inc/enc_dec.h, DCLib/inc/io_macros.h -/

/-- The fields of `options_t` that the stages embedded here read (the log file, the stage
handle and the `float` normalization factor are left out). -/
structure options_t where
  block_size_bits : Nat
  value_size_bits : Nat
  adaptive : Int
  column : Nat
  separator_char : Nat
  num_decimal_places : Nat
  num_values : Nat
  deriving DecidableEq, Repr

/-- The values that `SetDefaultOptions` assigns. -/
def SetDefaultOptions : options_t :=
  { adaptive := 0, block_size_bits := 8, column := 1, num_decimal_places := 2,
    separator_char := 44, value_size_bits := 32, num_values := 2 }

/-- The macro `LOG_ON_ERROR_AND_RETURN`: `some r` when the enclosing function returns `r`,
`none` when control continues after the macro. -/
def LOG_ON_ERROR_AND_RETURN (ret : Int) (num_bits : Nat) : Option Int :=
  if ret ≠ toI64 (num_bits % 2 ^ 64) then
    (if ret ≥ 0 then some ERROR_LIBRARY_CALL else some ret)
  else none

/-- Two's-complement wrap-around of a mathematical integer to `io_int_t`. -/
def wrapI64 (x : Int) : Int := toI64 (toU64 x)

/-- The macro `EXTEND_IO_INT_SIGN`: shift left as unsigned pattern, arithmetic shift right. -/
def EXTEND_IO_INT_SIGN (value : Int) (value_bits : Nat) : Int :=
  if value_bits = IO_SIZE_BITS then value
  else toI64 ((toU64 value <<< (IO_SIZE_BITS - value_bits)) % 2 ^ 64) / 2 ^ (IO_SIZE_BITS - value_bits)

/-! ## DCLib/src/copy.c -/

/-- The `while` loop of `Copy`; the first argument bounds its iterations.
Result: return value, input buffer, output buffer. -/
def CopyLoop : Nat → bit_file_buffer_t → bit_file_buffer_t → options_t →
    Int × bit_file_buffer_t × bit_file_buffer_t
  | 0, in_bit_buf, out_bit_buf, _ => (OUT_OF_FUEL, in_bit_buf, out_bit_buf)
  | fuel + 1, in_bit_buf, out_bit_buf, options =>
    let num_bits := options.block_size_bits
    let e := EndOfBitFileBuffer in_bit_buf
    if e.1 ≠ 0 then (NO_ERROR, e.2, out_bit_buf)
    else
      let r := ReadBitFileBuffer e.2 num_bits
      match LOG_ON_ERROR_AND_RETURN r.1.1 num_bits with
      | some ret => (ret, r.2, out_bit_buf)
      | none =>
        let w := WriteBitFileBuffer out_bit_buf r.1.2 num_bits
        match LOG_ON_ERROR_AND_RETURN w.1 num_bits with
        | some ret => (ret, r.2, w.2)
        | none => CopyLoop fuel r.2 w.2 options

/-- C `Copy`. The block buffer of `(block_size_bits + 7) / 8` bytes (computed in `size_t`) is
allocated first: `malloc` tells for a size in bytes whether the allocation succeeds, and
`Copy` returns `ERROR_MEMORY` when it does not. The second argument bounds the iterations of
the `while` loop. Result: return value, input buffer, output buffer. -/
def Copy (malloc : Nat → Bool) (fuel : Nat) (in_bit_buf out_bit_buf : bit_file_buffer_t)
    (options : options_t) : Int × bit_file_buffer_t × bit_file_buffer_t :=
  let num_bytes := ((options.block_size_bits + 7) % 2 ^ 64) / 8
  let buf_size := (1 * num_bytes) % 2 ^ 64
  if malloc buf_size = false then (ERROR_MEMORY, in_bit_buf, out_bit_buf)
  else CopyLoop fuel in_bit_buf out_bit_buf options

/-! ## DCLib/src/diff.c -/

/-- The `while` loop of `EncodeDifferential` with the current `last_value`. -/
def EncodeDifferentialLoop : Nat → bit_file_buffer_t → bit_file_buffer_t → options_t → Int →
    Int × bit_file_buffer_t × bit_file_buffer_t
  | 0, in_bit_buf, out_bit_buf, _, _ => (OUT_OF_FUEL, in_bit_buf, out_bit_buf)
  | fuel + 1, in_bit_buf, out_bit_buf, options, last_value =>
    let e := EndOfBitFileBuffer in_bit_buf
    if e.1 ≠ 0 then (NO_ERROR, e.2, out_bit_buf)
    else
      let r := ReadSingleValueFromBitFileBuffer e.2 options.value_size_bits
      match LOG_ON_ERROR_AND_RETURN r.1.1 options.value_size_bits with
      | some ret => (ret, r.2, out_bit_buf)
      | none =>
        let value : Int := toI64 r.1.2
        let diff_value : Int := wrapI64 (value - last_value)
        if options.value_size_bits ≠ IO_SIZE_BITS ∧
            (diff_value < -(toI64 ((1 <<< (options.value_size_bits - 1)) % 2 ^ 64)) ∨
             diff_value > wrapI64 (toI64 ((1 <<< (options.value_size_bits - 1)) % 2 ^ 64) - 1)) then
          (ERROR_INVALID_VALUE, r.2, out_bit_buf)
        else
          let w := WriteSingleValueToBitFileBuffer out_bit_buf (toU64 diff_value) options.value_size_bits
          match LOG_ON_ERROR_AND_RETURN w.1 options.value_size_bits with
          | some ret => (ret, r.2, w.2)
          | none => EncodeDifferentialLoop fuel r.2 w.2 options value

def EncodeDifferential (fuel : Nat) (in_bit_buf out_bit_buf : bit_file_buffer_t)
    (options : options_t) : Int × bit_file_buffer_t × bit_file_buffer_t :=
  EncodeDifferentialLoop fuel in_bit_buf out_bit_buf options 0

/-- The `while` loop of `DecodeDifferential` with the current `last_value`. -/
def DecodeDifferentialLoop : Nat → bit_file_buffer_t → bit_file_buffer_t → options_t → Int →
    Int × bit_file_buffer_t × bit_file_buffer_t
  | 0, in_bit_buf, out_bit_buf, _, _ => (OUT_OF_FUEL, in_bit_buf, out_bit_buf)
  | fuel + 1, in_bit_buf, out_bit_buf, options, last_value =>
    let e := EndOfBitFileBuffer in_bit_buf
    if e.1 ≠ 0 then (NO_ERROR, e.2, out_bit_buf)
    else
      let r := ReadSingleValueFromBitFileBuffer e.2 options.value_size_bits
      match LOG_ON_ERROR_AND_RETURN r.1.1 options.value_size_bits with
      | some ret => (ret, r.2, out_bit_buf)
      | none =>
        let value0 : Int := EXTEND_IO_INT_SIGN (toI64 r.1.2) options.value_size_bits
        let value : Int := wrapI64 (value0 + last_value)
        let w := WriteSingleValueToBitFileBuffer out_bit_buf (toU64 value) options.value_size_bits
        match LOG_ON_ERROR_AND_RETURN w.1 options.value_size_bits with
        | some ret => (ret, r.2, w.2)
        | none => DecodeDifferentialLoop fuel r.2 w.2 options value

def DecodeDifferential (fuel : Nat) (in_bit_buf out_bit_buf : bit_file_buffer_t)
    (options : options_t) : Int × bit_file_buffer_t × bit_file_buffer_t :=
  DecodeDifferentialLoop fuel in_bit_buf out_bit_buf options 0

/-! ## DCLib/src/seg.c -/

/-- The loop `while ((temp_value >>= 1) != 0) prefix_length++` (at most 64 iterations on a
64-bit value). -/
def prefixLengthLoop : Nat → Nat → Nat → Nat
  | 0, _, prefix_length => prefix_length
  | fuel + 1, temp_value, prefix_length =>
    if temp_value >>> 1 ≠ 0 then prefixLengthLoop fuel (temp_value >>> 1) (prefix_length + 1)
    else prefix_length

def EncodeUEGCodeword (value : Nat) (out_bit_buf : bit_file_buffer_t) : Int × bit_file_buffer_t :=
  let value_plus_one := (value + 1) % 2 ^ 64
  let prefix_length := prefixLengthLoop 64 value_plus_one 0
  let w1 := WriteSingleValueToBitFileBuffer out_bit_buf 0 prefix_length
  match LOG_ON_ERROR_AND_RETURN w1.1 prefix_length with
  | some ret => (ret, w1.2)
  | none =>
    let w2 := WriteSingleValueToBitFileBuffer w1.2 value_plus_one (1 + prefix_length)
    match LOG_ON_ERROR_AND_RETURN w2.1 (1 + prefix_length) with
    | some ret => (ret, w2.2)
    | none => (NO_ERROR, w2.2)

/-- C `(io_uint_t)IO_ABS(value)`: the magnitude as a 64-bit pattern (`llabs` of the most negative
value is taken to wrap to itself). -/
def IO_ABS (value : Int) : Nat := value.natAbs % 2 ^ 64

def EncodeSEGCodeword (value : Int) (out_bit_buf : bit_file_buffer_t) : Int × bit_file_buffer_t :=
  if value > 0 then EncodeUEGCodeword ((2 * IO_ABS value + 2 ^ 64 - 1) % 2 ^ 64) out_bit_buf
  else EncodeUEGCodeword ((2 * IO_ABS value) % 2 ^ 64) out_bit_buf

/-- C `EncodeSEG`; the first argument bounds the iterations of the `while` loop. -/
def EncodeSEG : Nat → bit_file_buffer_t → bit_file_buffer_t → options_t →
    Int × bit_file_buffer_t × bit_file_buffer_t
  | 0, in_bit_buf, out_bit_buf, _ => (OUT_OF_FUEL, in_bit_buf, out_bit_buf)
  | fuel + 1, in_bit_buf, out_bit_buf, options =>
    let e := EndOfBitFileBuffer in_bit_buf
    if e.1 ≠ 0 then (NO_ERROR, e.2, out_bit_buf)
    else
      let r := ReadSingleValueFromBitFileBuffer e.2 options.value_size_bits
      match LOG_ON_ERROR_AND_RETURN r.1.1 options.value_size_bits with
      | some ret => (ret, r.2, out_bit_buf)
      | none =>
        let current_value := EXTEND_IO_INT_SIGN (toI64 r.1.2) options.value_size_bits
        let c := EncodeSEGCodeword current_value out_bit_buf
        if c.1 ≠ NO_ERROR then (c.1, r.2, c.2)
        else EncodeSEG fuel r.2 c.2 options

/-- The prefix loop of `DecodeUEGCodeword`. Result: `some ret` for an early `return ret`,
then `prefix_length`, `current_bit` and the input buffer. -/
def DecodeUEGPrefixLoop : Nat → Nat → bit_file_buffer_t → Nat → Nat →
    Option Int × Nat × Nat × bit_file_buffer_t
  | 0, _, in_bit_buf, prefix_length, current_bit =>
    (some OUT_OF_FUEL, prefix_length, current_bit, in_bit_buf)
  | fuel + 1, max_value_size_bits, in_bit_buf, prefix_length, current_bit =>
    if current_bit = 0 then
      let e := EndOfBitFileBuffer in_bit_buf
      if e.1 ≠ 0 then (none, prefix_length, current_bit, e.2)
      else
        let r := ReadSingleValueFromBitFileBuffer e.2 1
        match LOG_ON_ERROR_AND_RETURN r.1.1 1 with
        | some ret => (some ret, prefix_length, current_bit, r.2)
        | none =>
          let prefix_length1 := if r.1.2 = 0 then prefix_length + 1 else prefix_length
          if prefix_length1 ≥ max_value_size_bits then
            (some ERROR_INVALID_FORMAT, prefix_length1, r.1.2, r.2)
          else DecodeUEGPrefixLoop fuel max_value_size_bits r.2 prefix_length1 r.1.2
    else (none, prefix_length, current_bit, in_bit_buf)

/-- C `DecodeUEGCodeword`. Result: return value, `*value`, `*eos`, input buffer. -/
def DecodeUEGCodeword (max_value_size_bits : Nat) (in_bit_buf : bit_file_buffer_t) :
    Int × Nat × Int × bit_file_buffer_t :=
  let p := DecodeUEGPrefixLoop (max_value_size_bits + 1) max_value_size_bits in_bit_buf 0 0
  match p.1 with
  | some ret => (ret, 0, 0, p.2.2.2)
  | none =>
    let prefix_length := p.2.1
    let e := EndOfBitFileBuffer p.2.2.2
    if e.1 ≠ 0 ∧ prefix_length ≠ 0 then (NO_ERROR, 0, 1, e.2)
    else
      let r := ReadSingleValueFromBitFileBuffer e.2 prefix_length
      match LOG_ON_ERROR_AND_RETURN r.1.1 prefix_length with
      | some ret => (ret, 0, 0, r.2)
      | none =>
        let value1 := r.1.2 ||| ((1 <<< prefix_length) % 2 ^ 64)
        (NO_ERROR, (value1 + 2 ^ 64 - 1) % 2 ^ 64, 0, r.2)

/-- C `DecodeSEGCodeword`. Result: return value, `*value`, `*eos`, input buffer. -/
def DecodeSEGCodeword (max_value_size_bits : Nat) (in_bit_buf : bit_file_buffer_t) :
    Int × Int × Int × bit_file_buffer_t :=
  let d := DecodeUEGCodeword
    (if max_value_size_bits + 1 > IO_SIZE_BITS then IO_SIZE_BITS else max_value_size_bits + 1)
    in_bit_buf
  if d.1 ≠ NO_ERROR ∨ d.2.2.1 ≠ 0 then (d.1, 0, d.2.2.1, d.2.2.2)
  else
    let abs_value := d.2.1
    let value : Int := toI64 (((abs_value + 1) % 2 ^ 64) / 2)
    if abs_value &&& 1 = 0 then (NO_ERROR, wrapI64 (-value), 0, d.2.2.2)
    else (NO_ERROR, value, 0, d.2.2.2)

/-- C `DecodeSEG`; the first argument bounds the iterations of the `while` loop. -/
def DecodeSEG : Nat → bit_file_buffer_t → bit_file_buffer_t → options_t →
    Int × bit_file_buffer_t × bit_file_buffer_t
  | 0, in_bit_buf, out_bit_buf, _ => (OUT_OF_FUEL, in_bit_buf, out_bit_buf)
  | fuel + 1, in_bit_buf, out_bit_buf, options =>
    let e := EndOfBitFileBuffer in_bit_buf
    if e.1 ≠ 0 then (NO_ERROR, e.2, out_bit_buf)
    else
      let d := DecodeSEGCodeword options.value_size_bits e.2
      if d.1 ≠ NO_ERROR then (d.1, d.2.2.2, out_bit_buf)
      else if d.2.2.1 ≠ 0 then (NO_ERROR, d.2.2.2, out_bit_buf)
      else
        let w := WriteSingleValueToBitFileBuffer out_bit_buf (toU64 d.2.1) options.value_size_bits
        match LOG_ON_ERROR_AND_RETURN w.1 options.value_size_bits with
        | some ret => (ret, d.2.2.2, w.2)
        | none => DecodeSEG fuel d.2.2.2 w.2 options

/-! ## DCLib/src/lzmh.c -/

def LZ_MAX_OFFSET : Nat := 128
def LZ_MAX_LENGTH : Nat := 274
def HUFF_BYTE_LENGTH : Nat := 8
def HUFF_LIST_LENGTH : Nat := 48
def INTERN_BUFFER_LENGTH : Nat := LZ_MAX_OFFSET + LZ_MAX_LENGTH + 1
def CODE_BUFFER : Nat := 32
def HUFF_SYMBOL_NOT_FOUND : Nat := 0xFFFF

structure HUFFLIST where
  symbol : Nat
  count : Int
  deriving DecidableEq, Repr, Inhabited

structure CODE_ELEMENT where
  code : Nat
  length : Nat
  deriving DecidableEq, Repr, Inhabited

def TREE_LENGHT : Nat := 19

def tree : List CODE_ELEMENT :=
  [⟨0x0F, 4⟩, ⟨0x0E, 4⟩, ⟨0x0D, 4⟩, ⟨0x0C, 4⟩, ⟨0x17, 5⟩, ⟨0x16, 5⟩, ⟨0x15, 5⟩, ⟨0x14, 5⟩,
   ⟨0x13, 5⟩, ⟨0x25, 6⟩, ⟨0x24, 6⟩, ⟨0x23, 6⟩, ⟨0x22, 6⟩, ⟨0x43, 7⟩, ⟨0x42, 7⟩, ⟨0x83, 8⟩,
   ⟨0x82, 8⟩, ⟨0x81, 8⟩, ⟨0x80, 8⟩]

/-- Conversion to `int8_t` (the type of `code_length`). -/
def toI8 (x : Int) : Int := (x + 128) % 256 - 128

/-- Conversion of a 32-bit pattern to `int`. -/
def toI32 (x : Nat) : Int :=
  if x % 2 ^ 32 < 2 ^ 31 then ((x % 2 ^ 32 : Nat) : Int) else ((x % 2 ^ 32 : Nat) : Int) - 2 ^ 32

/-- The `int` expression `v << k` on a non-negative `v`, with the result wrapped to 32 bits. -/
def shlInt (v : Int) (k : Int) : Int := toI32 ((v.toNat <<< k.toNat) % 2 ^ 32)

/-- The first loop of `getPosInBuffer`: `while (pos < 0) pos += size`. -/
def getPosInBufferUp : Nat → Int → Nat → Int
  | 0, pos, _ => pos
  | fuel + 1, pos, size => if pos < 0 then getPosInBufferUp fuel (pos + size) size else pos

/-- The second loop of `getPosInBuffer`: `while (pos >= size) pos -= size`. -/
def getPosInBufferDown : Nat → Int → Nat → Int
  | 0, pos, _ => pos
  | fuel + 1, pos, size => if pos ≥ size then getPosInBufferDown fuel (pos - size) size else pos

def getPosInBuffer (pos : Int) (size : Nat) : Nat :=
  (getPosInBufferDown (pos.natAbs + 1) (getPosInBufferUp (pos.natAbs + 1) pos size) size).toNat

/-- The variables of `EncodeLZMH` that live across the iterations of its loops. -/
structure lzmh_encoder_t where
  in_bit_buf : bit_file_buffer_t
  out_bit_buf : bit_file_buffer_t
  offsets : List Int
  list : List HUFFLIST
  internBuffer : List Nat
  internBufferWrite : Nat
  internBufferRead : Nat
  internBufferHistory : Nat
  deriving Repr

/-- The first `Fill Buffer` loop of `EncodeLZMH`; `some ret` is an early `return ret`. -/
def fillBufferFirst : Nat → lzmh_encoder_t → Option Int × lzmh_encoder_t
  | 0, s => (some OUT_OF_FUEL, s)
  | fuel + 1, s =>
    let e := EndOfBitFileBuffer s.in_bit_buf
    if e.1 = 0 ∧ s.internBufferWrite < INTERN_BUFFER_LENGTH then
      let r := ReadSingleValueFromBitFileBuffer e.2 8
      match LOG_ON_ERROR_AND_RETURN r.1.1 8 with
      | some ret => (some ret, { s with in_bit_buf := r.2 })
      | none =>
        fillBufferFirst fuel
          { s with in_bit_buf := r.2
                   internBuffer := s.internBuffer.set s.internBufferWrite (r.1.2 % 256)
                   internBufferWrite := s.internBufferWrite + 1 }
    else (none, { s with in_bit_buf := e.2 })

/-- The `Fill Buffer` loop at the end of an iteration of the main loop of `EncodeLZMH`. -/
def fillBufferNext : Nat → lzmh_encoder_t → Option Int × lzmh_encoder_t
  | 0, s => (some OUT_OF_FUEL, s)
  | fuel + 1, s =>
    let e := EndOfBitFileBuffer s.in_bit_buf
    if e.1 = 0 ∧ s.internBufferWrite ≠ s.internBufferHistory then
      let r := ReadSingleValueFromBitFileBuffer e.2 8
      match LOG_ON_ERROR_AND_RETURN r.1.1 8 with
      | some ret => (some ret, { s with in_bit_buf := r.2 })
      | none =>
        fillBufferNext fuel
          { s with in_bit_buf := r.2
                   internBuffer := s.internBuffer.set s.internBufferWrite (r.1.2 % 256)
                   internBufferWrite :=
                     if s.internBufferWrite + 1 ≥ INTERN_BUFFER_LENGTH
                     then s.internBufferWrite + 1 - INTERN_BUFFER_LENGTH
                     else s.internBufferWrite + 1 }
    else (none, { s with in_bit_buf := e.2 })

/-- The inner `for` loop of the history search: the length of the match at `offset`. -/
def matchLength : Nat → List Nat → Nat → Int → Int → Int → Int
  | 0, _, _, _, _, length => length
  | fuel + 1, internBuffer, internBufferRead, offset, maxlength, length =>
    if length < maxlength ∧
        internBuffer.getD (getPosInBuffer ((internBufferRead : Int) - offset + length)
          INTERN_BUFFER_LENGTH) 0
        = internBuffer.getD (getPosInBuffer ((internBufferRead : Int) + length)
          INTERN_BUFFER_LENGTH) 0 then
      matchLength fuel internBuffer internBufferRead offset maxlength (length + 1)
    else length

/-- The outer `for` loop of the history search. Result: `bestlength`, `bestoffset`. -/
def searchHistory : Nat → List Nat → Nat → Int → Int → Int → Int → Int → Int × Int
  | 0, _, _, _, _, _, bestlength, bestoffset => (bestlength, bestoffset)
  | fuel + 1, internBuffer, internBufferRead, maxoffset, maxlength, offset, bestlength,
      bestoffset =>
    if offset ≤ maxoffset ∧ bestlength < maxlength then
      if internBuffer.getD (getPosInBuffer ((internBufferRead : Int) - offset)
            INTERN_BUFFER_LENGTH) 0 = internBuffer.getD internBufferRead 0 ∧
          internBuffer.getD (getPosInBuffer ((internBufferRead : Int) - offset + bestlength)
            INTERN_BUFFER_LENGTH) 0
          = internBuffer.getD (getPosInBuffer ((internBufferRead : Int) + bestlength)
            INTERN_BUFFER_LENGTH) 0 then
        let length := matchLength (LZ_MAX_LENGTH + 1) internBuffer internBufferRead offset
          maxlength 1
        if length > bestlength then
          searchHistory fuel internBuffer internBufferRead maxoffset maxlength (offset + 1)
            length offset
        else
          searchHistory fuel internBuffer internBufferRead maxoffset maxlength (offset + 1)
            bestlength bestoffset
      else
        searchHistory fuel internBuffer internBufferRead maxoffset maxlength (offset + 1)
          bestlength bestoffset
    else (bestlength, bestoffset)

/-- The offset part of a back-reference in `EncodeLZMH`. Result: `offsets`, `code_length`,
`code_sym`. -/
def encodeOffset (offsets : List Int) (bestoffset : Int) (code_length : Int) (code_sym : Nat) :
    List Int × Int × Nat :=
  let o0 := offsets.getD 0 0
  let o1 := offsets.getD 1 0
  let o2 := offsets.getD 2 0
  let o3 := offsets.getD 3 0
  if o0 = bestoffset then
    let code_length := toI8 (code_length + 4)
    (offsets, code_length, code_sym ||| toU64 (shlInt 0x06 (CODE_BUFFER - code_length)))
  else if o1 = bestoffset then
    let code_length := toI8 (code_length + 5)
    ([bestoffset, o0, o2, o3], code_length,
      code_sym ||| toU64 (shlInt 0x0E (CODE_BUFFER - code_length)))
  else if o2 = bestoffset then
    let code_length := toI8 (code_length + 6)
    ([bestoffset, o0, o1, o3], code_length,
      code_sym ||| toU64 (shlInt 0x1E (CODE_BUFFER - code_length)))
  else if o3 = bestoffset then
    let code_length := toI8 (code_length + 6)
    ([bestoffset, o0, o1, o2], code_length,
      code_sym ||| toU64 (shlInt 0x1F (CODE_BUFFER - code_length)))
  else
    let code_length := toI8 (code_length + 10)
    ([bestoffset, o0, o1, o2], code_length,
      code_sym ||| toU64 (shlInt (((0x100 ||| (bestoffset - 1).toNat : Nat) : Int))
        (CODE_BUFFER - code_length)))

/-- The length part of a back-reference in `EncodeLZMH`. Result: `code_length`, `code_sym`. -/
def encodeLength (bestlength : Int) (code_length : Int) (code_sym : Nat) : Int × Nat :=
  if bestlength < 11 then
    let code_length := toI8 (code_length + 4)
    (code_length, code_sym ||| toU64 (shlInt (bestlength - 3) (CODE_BUFFER - code_length)))
  else if bestlength < 19 then
    let code_length := toI8 (code_length + 5)
    (code_length, code_sym ||| toU64 (shlInt (((0x10 ||| (bestlength - 11).toNat : Nat) : Int))
      (CODE_BUFFER - code_length)))
  else
    let code_length := toI8 (code_length + 10)
    (code_length, code_sym ||| toU64 (shlInt (((0x300 ||| (bestlength - 19).toNat : Nat) : Int))
      (CODE_BUFFER - code_length)))

/-- The `Bubble Sort` loop of `EncodeLZMH`, which moves symbols only. Result: the list and
`length`. -/
def bubbleSymbols : Nat → List HUFFLIST → Nat → Int → List HUFFLIST × Nat
  | 0, list, length, _ => (list, length)
  | fuel + 1, list, length, bestlength =>
    if length > 0 ∧ bestlength > (list.getD (length - 1) default).count then
      bubbleSymbols fuel
        (list.set length { list.getD length default with
          symbol := (list.getD (length - 1) default).symbol })
        (length - 1) bestlength
    else (list, length)

/-- The symbol search of `EncodeLZMH`. Result: the list, `maxlength`, `length`. -/
def searchSymbol : Nat → List HUFFLIST → Nat → Nat → List HUFFLIST × Nat × Nat
  | 0, list, _, length => (list, HUFF_SYMBOL_NOT_FOUND, length)
  | fuel + 1, list, i, length =>
    if length < HUFF_LIST_LENGTH ∧ (list.getD length default).count > 0 then
      if (list.getD length default).symbol = i then
        if (list.getD length default).count < ((1 <<< 16 : Nat) : Int) - 1 then
          let bestlength := (list.getD length default).count + 1
          let b := bubbleSymbols (HUFF_LIST_LENGTH + 1) list length bestlength
          let entry : HUFFLIST := { symbol := i, count := bestlength }
          (b.1.set b.2 entry, length, b.2)
        else (list, length, length)
      else searchSymbol fuel list i (length + 1)
    else (list, HUFF_SYMBOL_NOT_FOUND, length)

/-- The main loop of `EncodeLZMH`. -/
def EncodeLZMHLoop : Nat → lzmh_encoder_t → Int × lzmh_encoder_t
  | 0, s => (OUT_OF_FUEL, s)
  | fuel + 1, s =>
    let e := EndOfBitFileBuffer s.in_bit_buf
    let s : lzmh_encoder_t := { s with in_bit_buf := e.2 }
    if e.1 = 0 ∨ s.internBufferWrite ≠ s.internBufferRead then
      let maxoffset : Int :=
        if s.internBufferHistory ≠ 0 then LZ_MAX_OFFSET else ((s.internBufferRead % 256 : Nat) : Int)
      let maxlength : Int :=
        if s.internBufferWrite > s.internBufferRead then
          (((if s.internBufferWrite - s.internBufferRead > LZ_MAX_LENGTH then LZ_MAX_LENGTH
             else s.internBufferWrite - s.internBufferRead) % 2 ^ 16 : Nat) : Int)
        else if s.internBufferWrite < s.internBufferRead then
          (((if s.internBufferWrite + INTERN_BUFFER_LENGTH - s.internBufferRead > LZ_MAX_LENGTH
             then LZ_MAX_LENGTH
             else s.internBufferWrite + INTERN_BUFFER_LENGTH - s.internBufferRead) % 2 ^ 16
              : Nat) : Int)
        else LZ_MAX_LENGTH
      let best := searchHistory (LZ_MAX_OFFSET + 1) s.internBuffer s.internBufferRead maxoffset
        maxlength 1 2 0
      let bestlength := best.1
      let bestoffset := best.2
      -- the three results of the branch: state, code_length, code_sym
      let coded : lzmh_encoder_t × Int × Nat :=
        if bestlength ≥ 3 then
          let o := encodeOffset s.offsets bestoffset 0 0
          let l := encodeLength bestlength o.2.1 o.2.2
          let read := s.internBufferRead + bestlength.toNat
          ({ s with offsets := o.1
                    internBufferRead :=
                      if read ≥ INTERN_BUFFER_LENGTH then read - INTERN_BUFFER_LENGTH else read },
           l.1, l.2)
        else
          let i := s.internBuffer.getD s.internBufferRead 0
          let read := s.internBufferRead + 1
          let read := if read ≥ INTERN_BUFFER_LENGTH then read - INTERN_BUFFER_LENGTH else read
          let found := searchSymbol (HUFF_LIST_LENGTH + 1) s.list i 0
          let maxlength := found.2.1
          let length := found.2.2
          let list :=
            if maxlength = HUFF_SYMBOL_NOT_FOUND ∧ length < HUFF_LIST_LENGTH then
              found.1.set length ({ symbol := i, count := 1 } : HUFFLIST)
            else found.1
          if maxlength < TREE_LENGHT then
            let code_length := toI8 (0 + (tree.getD maxlength default).length)
            ({ s with list := list, internBufferRead := read }, code_length,
              toU64 (shlInt (tree.getD maxlength default).code (CODE_BUFFER - code_length)))
          else
            let code_length := toI8 (0 + (HUFF_BYTE_LENGTH + 2 : Nat))
            ({ s with list := list, internBufferRead := read }, code_length,
              toU64 (shlInt i (CODE_BUFFER - code_length)))
      let s : lzmh_encoder_t := coded.1
      let code_length := coded.2.1
      let code_sym := coded.2.2 >>> (CODE_BUFFER - code_length).toNat
      let w := WriteSingleValueToBitFileBuffer s.out_bit_buf code_sym (toU64 code_length)
      match LOG_ON_ERROR_AND_RETURN w.1 (toU64 code_length) with
      | some ret => (ret, { s with out_bit_buf := w.2 })
      | none =>
        let s : lzmh_encoder_t := { s with out_bit_buf := w.2 }
        let history :=
          if s.internBufferRead > s.internBufferHistory then
            if s.internBufferRead - s.internBufferHistory > LZ_MAX_OFFSET then
              s.internBufferRead - LZ_MAX_OFFSET
            else s.internBufferHistory
          else
            if s.internBufferRead + INTERN_BUFFER_LENGTH - s.internBufferHistory > LZ_MAX_OFFSET
            then (s.internBufferRead + INTERN_BUFFER_LENGTH - LZ_MAX_OFFSET) % INTERN_BUFFER_LENGTH
            else s.internBufferHistory
        let f := fillBufferNext (INTERN_BUFFER_LENGTH + 1) { s with internBufferHistory := history }
        match f.1 with
        | some ret => (ret, f.2)
        | none => EncodeLZMHLoop fuel f.2
    else (NO_ERROR, s)

/-- C `EncodeLZMH`. `internBuffer` and `list` are the contents of the two `static` arrays at
entry (all zero at the first call; the counts of `list` are reset, the rest is kept); the
first argument bounds the iterations of the main loop. Result: return value, input buffer,
output buffer. -/
def EncodeLZMH (fuel : Nat) (internBuffer : List Nat) (list : List HUFFLIST)
    (in_bit_buf out_bit_buf : bit_file_buffer_t) :
    Int × bit_file_buffer_t × bit_file_buffer_t :=
  let s : lzmh_encoder_t :=
    { in_bit_buf := in_bit_buf, out_bit_buf := out_bit_buf,
      offsets := [0, 0, 0, 0],
      list := list.map (fun h => { h with count := 0 }),
      internBuffer := internBuffer,
      internBufferWrite := 0, internBufferRead := 0, internBufferHistory := 0 }
  let f := fillBufferFirst (INTERN_BUFFER_LENGTH + 1) s
  match f.1 with
  | some ret => (ret, f.2.in_bit_buf, f.2.out_bit_buf)
  | none =>
    let s : lzmh_encoder_t := { f.2 with internBufferWrite :=
      if f.2.internBufferWrite ≥ INTERN_BUFFER_LENGTH
      then f.2.internBufferWrite - INTERN_BUFFER_LENGTH else f.2.internBufferWrite }
    let r := EncodeLZMHLoop fuel s
    (r.1, r.2.in_bit_buf, r.2.out_bit_buf)

/-- The variables of `DecodeLZMH` that live across the iterations of its loops. -/
structure lzmh_decoder_t where
  in_bit_buf : bit_file_buffer_t
  out_bit_buf : bit_file_buffer_t
  offsets : List Int
  list : List HUFFLIST
  code_sym : Nat
  code_length : Int
  internBuffer : List Nat
  internBufferPos : Nat
  deriving Repr

/-- The loop of `DecodeLZMH` that fills `code_sym` bit by bit; `some ret` is an early
`return ret`. A shift of the 64-bit `tmp` by 64 or more positions is taken to give 0. -/
def fillCode : Nat → lzmh_decoder_t → Option Int × lzmh_decoder_t
  | 0, s => (some OUT_OF_FUEL, s)
  | fuel + 1, s =>
    let e := EndOfBitFileBuffer s.in_bit_buf
    if e.1 = 0 ∧ (CODE_BUFFER : Int) - s.code_length ≥ 8 then
      let code_length := toI8 (s.code_length + 1)
      let r := ReadSingleValueFromBitFileBuffer e.2 1
      match LOG_ON_ERROR_AND_RETURN r.1.1 1 with
      | some ret => (some ret, { s with in_bit_buf := r.2, code_length := code_length })
      | none =>
        fillCode fuel
          { s with in_bit_buf := r.2
                   code_length := code_length
                   code_sym := (s.code_sym |||
                     (r.1.2 <<< ((CODE_BUFFER : Int) - code_length).toNat) % 2 ^ 64) % 2 ^ 32 }
    else (none, { s with in_bit_buf := e.2 })

/-- The `for` loop over `tree` in the Huffman branch of `DecodeLZMH`: the first index whose
code matches, or `TREE_LENGHT`. -/
def findTreeCode : Nat → Nat → Nat → Int → Nat
  | 0, i, _, _ => i
  | fuel + 1, i, code_sym, code_length =>
    if i < TREE_LENGHT then
      if code_length ≥ (tree.getD i default).length ∧
          code_sym >>> (32 - (tree.getD i default).length) = (tree.getD i default).code then i
      else findTreeCode fuel (i + 1) code_sym code_length
    else i

/-- The `Bubble Sort` loop of the Huffman branch of `DecodeLZMH`, which moves symbols only. -/
def bubbleSymbolsDecoder : Nat → List HUFFLIST → Nat → Int → List HUFFLIST × Nat
  | 0, list, i, _ => (list, i)
  | fuel + 1, list, i, length =>
    if i > 0 ∧ length > (list.getD (i - 1) default).count then
      bubbleSymbolsDecoder fuel
        (list.set i { list.getD i default with symbol := (list.getD (i - 1) default).symbol })
        (i - 1) length
    else (list, i)

/-- The search loop of the prefix-code branch of `DecodeLZMH`. -/
def findSymbol : Nat → List HUFFLIST → Nat → Nat → Nat
  | 0, _, _, length => length
  | fuel + 1, list, i, length =>
    if length < HUFF_LIST_LENGTH ∧ (list.getD length default).count > 0 ∧
        (list.getD length default).symbol ≠ i then
      findSymbol fuel list i (length + 1)
    else length

/-- The `Bubble Sort` loop of the prefix-code branch of `DecodeLZMH`, which moves entries. -/
def bubbleEntries : Nat → List HUFFLIST → Nat → Int → List HUFFLIST × Nat
  | 0, list, length, _ => (list, length)
  | fuel + 1, list, length, offset =>
    if length > 0 ∧ offset > (list.getD (length - 1) default).count then
      bubbleEntries fuel (list.set length (list.getD (length - 1) default)) (length - 1) offset
    else (list, length)

/-- The copy loop of the back-reference branch of `DecodeLZMH`; `some ret` is an early
`return ret`. -/
def copyMatch : Nat → lzmh_decoder_t → Int → Option Int × lzmh_decoder_t
  | 0, s, _ => (none, s)
  | n + 1, s, offset =>
    let tmp := s.internBuffer.getD
      (getPosInBuffer ((s.internBufferPos : Int) - offset) LZ_MAX_OFFSET) 0
    let w := WriteSingleValueToBitFileBuffer s.out_bit_buf tmp 8
    match LOG_ON_ERROR_AND_RETURN w.1 8 with
    | some ret => (some ret, { s with out_bit_buf := w.2 })
    | none =>
      copyMatch n
        { s with out_bit_buf := w.2
                 internBuffer := s.internBuffer.set s.internBufferPos tmp
                 internBufferPos :=
                   if s.internBufferPos + 1 ≥ LZ_MAX_OFFSET
                   then s.internBufferPos + 1 - LZ_MAX_OFFSET else s.internBufferPos + 1 }
        offset

/-- Removal of `n` bits from the head of `code_sym`: `code_length -= n; code_sym <<= n`. -/
def dropCode (s : lzmh_decoder_t) (n : Nat) : lzmh_decoder_t :=
  { s with code_length := toI8 (s.code_length - n), code_sym := (s.code_sym <<< n) % 2 ^ 32 }

/-- One iteration of the body of the `do` loop of `DecodeLZMH`, after `code_sym` was filled;
`some ret` is an early `return ret`. -/
def decodeItem (s : lzmh_decoder_t) : Option Int × lzmh_decoder_t :=
  if s.code_sym &&& 0x80000000 ≠ 0 then
    let i := findTreeCode (TREE_LENGHT + 1) 0 s.code_sym s.code_length
    if i = TREE_LENGHT then (some 0, s)
    else
      let s1 := dropCode s (tree.getD i default).length
      let tmp := (s1.list.getD i default).symbol
      let w := WriteSingleValueToBitFileBuffer s1.out_bit_buf tmp 8
      match LOG_ON_ERROR_AND_RETURN w.1 8 with
      | some ret => (some ret, { s1 with out_bit_buf := w.2 })
      | none =>
        let pos := s1.internBufferPos + 1
        let s2 : lzmh_decoder_t :=
          { s1 with out_bit_buf := w.2
                    internBuffer := s1.internBuffer.set s1.internBufferPos tmp
                    internBufferPos := if pos ≥ LZ_MAX_OFFSET then pos - LZ_MAX_OFFSET else pos }
        if (s2.list.getD i default).count < ((1 <<< 16 : Nat) : Int) - 1 then
          let length := (s2.list.getD i default).count + 1
          let b := bubbleSymbolsDecoder (HUFF_LIST_LENGTH + 1) s2.list i length
          let entry : HUFFLIST :=
            { symbol := tmp % 256, count := ((length.toNat % 2 ^ 16 : Nat) : Int) }
          (none, { s2 with list := b.1.set b.2 entry })
        else (none, s2)
  else if s.code_sym &&& 0x40000000 = 0 then
    let i := (s.code_sym >>> (CODE_BUFFER - (HUFF_BYTE_LENGTH + 2))) &&&
      ((1 <<< HUFF_BYTE_LENGTH) - 1)
    let s1 := dropCode s (HUFF_BYTE_LENGTH + 2)
    let w := WriteSingleValueToBitFileBuffer s1.out_bit_buf i 8
    match LOG_ON_ERROR_AND_RETURN w.1 8 with
    | some ret => (some ret, { s1 with out_bit_buf := w.2 })
    | none =>
      let pos := s1.internBufferPos + 1
      let s2 : lzmh_decoder_t :=
        { s1 with out_bit_buf := w.2
                  internBuffer := s1.internBuffer.set s1.internBufferPos (i % 256)
                  internBufferPos := if pos ≥ LZ_MAX_OFFSET then pos - LZ_MAX_OFFSET else pos }
      let length := findSymbol (HUFF_LIST_LENGTH + 1) s2.list i 0
      if length < HUFF_LIST_LENGTH ∧
          (s2.list.getD length default).count < ((1 <<< 16 : Nat) : Int) - 1 then
        let offset := (s2.list.getD length default).count + 1
        let b := bubbleEntries (HUFF_LIST_LENGTH + 1) s2.list length offset
        let entry : HUFFLIST := { symbol := i % 256, count := offset }
        (none, { s2 with list := b.1.set b.2 entry })
      else (none, s2)
  else
    let s1 := dropCode s 2
    -- the offset: state and `offset`
    let o : lzmh_decoder_t × Int :=
      let o0 := s1.offsets.getD 0 0
      let o1 := s1.offsets.getD 1 0
      let o2 := s1.offsets.getD 2 0
      let o3 := s1.offsets.getD 3 0
      if s1.code_sym &&& 0x80000000 = 0 then
        let offset : Int := (((s1.code_sym >>> 24) &&& 0x7F) + 1 : Nat)
        ({ dropCode s1 8 with offsets := [offset, o0, o1, o2] }, offset)
      else
        let s2 := dropCode s1 1
        if s2.code_sym &&& 0x80000000 = 0 then (dropCode s2 1, o0)
        else
          let s3 := dropCode s2 1
          if s3.code_sym &&& 0x80000000 = 0 then
            (dropCode { s3 with offsets := [o1, o0, o2, o3] } 1, o1)
          else
            let s4 := dropCode s3 1
            if s4.code_sym &&& 0x80000000 = 0 then
              (dropCode { s4 with offsets := [o2, o0, o1, o3] } 1, o2)
            else (dropCode { s4 with offsets := [o3, o0, o1, o2] } 1, o3)
    let s5 := o.1
    let offset := o.2
    -- the length: state and `length`
    let l : lzmh_decoder_t × Nat :=
      if s5.code_sym &&& 0x80000000 = 0 then
        (dropCode s5 4, ((s5.code_sym >>> 28) &&& 0x07) + 3)
      else
        let s6 := dropCode s5 1
        if s6.code_sym &&& 0x80000000 = 0 then
          (dropCode s6 4, ((s6.code_sym >>> 28) &&& 0x7) + 11)
        else (dropCode s6 9, ((s6.code_sym >>> 23) &&& 0xFF) + 19)
    copyMatch l.2 l.1 offset

/-- The `do` loop of `DecodeLZMH`. -/
def DecodeLZMHLoop : Nat → lzmh_decoder_t → Int × lzmh_decoder_t
  | 0, s => (OUT_OF_FUEL, s)
  | fuel + 1, s =>
    let f := fillCode 256 s
    match f.1 with
    | some ret => (ret, f.2)
    | none =>
      let d := decodeItem f.2
      match d.1 with
      | some ret => (ret, d.2)
      | none =>
        let e := EndOfBitFileBuffer d.2.in_bit_buf
        let s1 : lzmh_decoder_t := { d.2 with in_bit_buf := e.2 }
        if e.1 = 0 ∨ s1.code_sym > 0 then DecodeLZMHLoop fuel s1
        else (NO_ERROR, s1)

/-- C `DecodeLZMH`. `internBuffer` is the content of the `static` array at entry (all zero at
the first call) and `list` the content of the uninitialised local array (its counts are set to
0); the first argument bounds the iterations of the `do` loop. Result: return value, input
buffer, output buffer. -/
def DecodeLZMH (fuel : Nat) (internBuffer : List Nat) (list : List HUFFLIST)
    (in_bit_buf out_bit_buf : bit_file_buffer_t) :
    Int × bit_file_buffer_t × bit_file_buffer_t :=
  let r := DecodeLZMHLoop fuel
    { in_bit_buf := in_bit_buf, out_bit_buf := out_bit_buf,
      offsets := [0, 0, 0, 0],
      list := list.map (fun h => { h with count := 0 }),
      code_sym := 0, code_length := 0,
      internBuffer := internBuffer, internBufferPos := 0 }
  (r.1, r.2.in_bit_buf, r.2.out_bit_buf)

/-! ## DCLib/src/bac.c -/

def RANGE_BITS : Nat := 16
def MAX_RANGE : Nat := 2 ^ RANGE_BITS - 1
def QUARTER_RANGE_BORDER : Nat := MAX_RANGE / 4 + 1
def HALF_RANGE_BORDER : Nat := 2 * QUARTER_RANGE_BORDER
def THREE_QUARTERS_RANGE_BORDER : Nat := 3 * QUARTER_RANGE_BORDER
def MAX_FREQUENCY : Nat := MAX_RANGE >>> 2
def NUMBER_OF_SYMBOLS : Nat := 2
def EOF_SYMBOL_INDEX : Nat := NUMBER_OF_SYMBOLS + 1
def TOTAL_NUMBER_OF_SYMBOLS : Nat := NUMBER_OF_SYMBOLS + 1

/-- Conversion to `range_t` (`uint16_t`). -/
def toRange (x : Int) : Nat := (x % (2 ^ 16 : Int)).toNat

/-- The `static` arrays of `bac.c`: the model. -/
structure bac_model_t where
  symbol_to_index : List Nat
  index_to_symbol : List Int
  symbol_frequencies : List Nat
  cumulative_symbol_frequencies : List Nat
  deriving DecidableEq, Repr

/-- The `static` scalar variables of `bac.c`: the state of the coder. -/
structure bac_coder_t where
  start_range : Nat
  end_range : Nat
  next_bits : Nat
  current_value : Nat
  after_eof_bits : Nat
  deriving DecidableEq, Repr

/-- The first loop of `InitModel`, from index `i` on. -/
def InitModelSymbols : Nat → Nat → bac_model_t → bac_model_t
  | 0, _, m => m
  | fuel + 1, i, m =>
    if i < NUMBER_OF_SYMBOLS then
      InitModelSymbols fuel (i + 1)
        { m with symbol_to_index := m.symbol_to_index.set i (i + 1)
                 index_to_symbol := m.index_to_symbol.set (i + 1) (i : Int) }
    else m

/-- The second loop of `InitModel`, from index `i` on. -/
def InitModelFrequencies : Nat → Nat → bac_model_t → bac_model_t
  | 0, _, m => m
  | fuel + 1, i, m =>
    if i ≤ TOTAL_NUMBER_OF_SYMBOLS then
      InitModelFrequencies fuel (i + 1)
        { m with symbol_frequencies := m.symbol_frequencies.set i (if i = 0 then 0 else 1)
                 cumulative_symbol_frequencies :=
                   m.cumulative_symbol_frequencies.set i
                     (toRange ((TOTAL_NUMBER_OF_SYMBOLS : Int) - i)) }
    else m

def InitModel (m : bac_model_t) : bac_model_t :=
  InitModelFrequencies (TOTAL_NUMBER_OF_SYMBOLS + 2) 0
    (InitModelSymbols (NUMBER_OF_SYMBOLS + 1) 0 m)

/-- The halving loop of `UpdateModel`: `while (i-- != 0)` with the index before the test. -/
def halveFrequencies : Nat → bac_model_t → Nat → bac_model_t
  | 0, m, _ => m
  | i + 1, m, cumulative_frequency =>
    let f := toRange ((((m.symbol_frequencies.getD i 0 : Nat) : Int) + 1) / 2)
    halveFrequencies i
      { m with symbol_frequencies := m.symbol_frequencies.set i f
               cumulative_symbol_frequencies :=
                 m.cumulative_symbol_frequencies.set i cumulative_frequency }
      ((cumulative_frequency + f) % 2 ^ 16)

/-- The loop of `UpdateModel` that finds the position of the last symbol. An access to
`symbol_frequencies[i - 1]` at `i = 0` is out of bounds and reads 0 here. -/
def findPosition : Nat → List Nat → Nat → Nat
  | 0, _, i => i
  | fuel + 1, symbol_frequencies, i =>
    if symbol_frequencies.getD i 0
        = (if i = 0 then 0 else symbol_frequencies.getD (i - 1) 0) then
      findPosition fuel symbol_frequencies ((i + 2 ^ 64 - 1) % 2 ^ 64)
    else i

/-- The last loop of `UpdateModel`: `while (i-- > 0) cumulative_symbol_frequencies[i]++`. -/
def incrementCumulative : Nat → List Nat → List Nat
  | 0, cumulative_symbol_frequencies => cumulative_symbol_frequencies
  | i + 1, cumulative_symbol_frequencies =>
    incrementCumulative i
      (cumulative_symbol_frequencies.set i ((cumulative_symbol_frequencies.getD i 0 + 1) % 2 ^ 16))

/-- The part of `UpdateModel` after the halving of the frequencies. -/
def UpdateModelPosition (m1 : bac_model_t) (last_symbol_index : Nat) : bac_model_t :=
  let i := findPosition (TOTAL_NUMBER_OF_SYMBOLS + 2) m1.symbol_frequencies last_symbol_index
  let m2 : bac_model_t :=
    if i < last_symbol_index then
      let current_symbol := m1.index_to_symbol.getD i 0
      let last_symbol := m1.index_to_symbol.getD last_symbol_index 0
      let i2s := (m1.index_to_symbol.set i last_symbol).set last_symbol_index current_symbol
      let s2i := (m1.symbol_to_index.set current_symbol.toNat last_symbol_index).set
        last_symbol.toNat i
      { m1 with index_to_symbol := i2s, symbol_to_index := s2i }
    else m1
  { m2 with
    symbol_frequencies := m2.symbol_frequencies.set i ((m2.symbol_frequencies.getD i 0 + 1) % 2 ^ 16)
    cumulative_symbol_frequencies := incrementCumulative i m2.cumulative_symbol_frequencies }

def UpdateModel (m : bac_model_t) (last_symbol_index : Nat) : bac_model_t :=
  UpdateModelPosition
    (if m.cumulative_symbol_frequencies.getD 0 0 = MAX_FREQUENCY then
      halveFrequencies (TOTAL_NUMBER_OF_SYMBOLS + 1) m 0
    else m)
    last_symbol_index

def StartEncoding (c : bac_coder_t) : bac_coder_t :=
  { c with start_range := 0, end_range := MAX_RANGE, next_bits := 0 }

/-- The `while (next_bits != 0)` loop of `OutputNextBits`; `some ret` is an early return. -/
def OutputPendingBits : Nat → Nat → bac_coder_t → bit_file_buffer_t →
    Option Int × bac_coder_t × bit_file_buffer_t
  | 0, _, c, out_bit_buf => (some OUT_OF_FUEL, c, out_bit_buf)
  | fuel + 1, current_bit_pattern, c, out_bit_buf =>
    if c.next_bits ≠ 0 then
      let inverse_current_bit_pattern := 2 ^ 64 - 1 - current_bit_pattern
      let bits_to_write := if c.next_bits > IO_SIZE_BITS then IO_SIZE_BITS else c.next_bits
      let w := WriteSingleValueToBitFileBuffer out_bit_buf inverse_current_bit_pattern bits_to_write
      match LOG_ON_ERROR_AND_RETURN w.1 bits_to_write with
      | some ret => (some ret, c, w.2)
      | none =>
        OutputPendingBits fuel current_bit_pattern { c with next_bits := c.next_bits - bits_to_write }
          w.2
    else (none, c, out_bit_buf)

def OutputNextBits (current_bit : Int) (c : bac_coder_t) (out_bit_buf : bit_file_buffer_t) :
    Int × bac_coder_t × bit_file_buffer_t :=
  let current_bit_pattern : Nat := if current_bit ≠ 0 then toU64 (-1) else 0
  let w := WriteSingleValueToBitFileBuffer out_bit_buf current_bit_pattern 1
  match LOG_ON_ERROR_AND_RETURN w.1 1 with
  | some ret => (ret, c, w.2)
  | none =>
    let p := OutputPendingBits (c.next_bits / IO_SIZE_BITS + 2) current_bit_pattern c w.2
    match p.1 with
    | some ret => (ret, p.2.1, p.2.2)
    | none => (NO_ERROR, p.2.1, p.2.2)

/-- The update of `start_range` and `end_range` for the symbol at `index`, the same two
statements in `EncodeSymbol` and `DecodeSymbol`. -/
def narrowRange (m : bac_model_t) (c : bac_coder_t) (index : Nat) : bac_coder_t :=
  let range : Nat := (toU64 ((c.end_range : Int) - c.start_range) + 1) % 2 ^ 64
  let total := m.cumulative_symbol_frequencies.getD 0 0
  let hi := ((range * m.cumulative_symbol_frequencies.getD (index - 1) 0) % 2 ^ 64) / total
  let lo := ((range * m.cumulative_symbol_frequencies.getD index 0) % 2 ^ 64) / total
  { c with end_range := toRange ((c.start_range : Int) + ((hi % 2 ^ 16 : Nat) : Int) - 1)
           start_range := toRange ((c.start_range : Int) + ((lo % 2 ^ 16 : Nat) : Int)) }

/-- The last two statements of an iteration of the renormalisation loops. -/
def doubleRange (c : bac_coder_t) : bac_coder_t :=
  { c with start_range := toRange (2 * (c.start_range : Int))
           end_range := toRange (2 * (c.end_range : Int) + 1) }

/-- The renormalisation loop of `EncodeSymbol`. -/
def EncodeRenormalize : Nat → bac_coder_t → bit_file_buffer_t →
    Int × bac_coder_t × bit_file_buffer_t
  | 0, c, out_bit_buf => (OUT_OF_FUEL, c, out_bit_buf)
  | fuel + 1, c, out_bit_buf =>
    if c.end_range < HALF_RANGE_BORDER then
      let o := OutputNextBits 0 c out_bit_buf
      if o.1 ≠ NO_ERROR then o
      else EncodeRenormalize fuel (doubleRange o.2.1) o.2.2
    else if c.start_range ≥ HALF_RANGE_BORDER then
      let o := OutputNextBits 1 c out_bit_buf
      if o.1 ≠ NO_ERROR then o
      else
        EncodeRenormalize fuel
          (doubleRange
            { o.2.1 with start_range := toRange ((o.2.1.start_range : Int) - HALF_RANGE_BORDER)
                         end_range := toRange ((o.2.1.end_range : Int) - HALF_RANGE_BORDER) })
          o.2.2
    else if c.start_range ≥ QUARTER_RANGE_BORDER ∧ c.end_range < THREE_QUARTERS_RANGE_BORDER then
      EncodeRenormalize fuel
        (doubleRange
          { c with next_bits := (c.next_bits + 1) % 2 ^ 64
                   start_range := toRange ((c.start_range : Int) - QUARTER_RANGE_BORDER)
                   end_range := toRange ((c.end_range : Int) - QUARTER_RANGE_BORDER) })
        out_bit_buf
    else (NO_ERROR, c, out_bit_buf)

/-- C `EncodeSymbol`. The renormalisation loop doubles the width of the range in every iteration
and goes on only while the width is at most half of the full range, so `RANGE_BITS + 1`
iterations are enough for a non-empty range. -/
def EncodeSymbol (input_symbol_index : Nat) (m : bac_model_t) (c : bac_coder_t)
    (out_bit_buf : bit_file_buffer_t) : Int × bac_coder_t × bit_file_buffer_t :=
  EncodeRenormalize (RANGE_BITS + 1) (narrowRange m c input_symbol_index) out_bit_buf

def FinishEncoding (c : bac_coder_t) (out_bit_buf : bit_file_buffer_t) :
    Int × bac_coder_t × bit_file_buffer_t :=
  OutputNextBits (if c.start_range < QUARTER_RANGE_BORDER then 0 else 1)
    { c with next_bits := (c.next_bits + 1) % 2 ^ 64 } out_bit_buf

/-- The `while` loop of `EncodeBAC` and what follows it. Result: return value, input buffer,
output buffer. -/
def EncodeBACLoop : Nat → bac_model_t → bac_coder_t → bit_file_buffer_t → bit_file_buffer_t →
    options_t → Int × bit_file_buffer_t × bit_file_buffer_t
  | 0, _, _, in_bit_buf, out_bit_buf, _ => (OUT_OF_FUEL, in_bit_buf, out_bit_buf)
  | fuel + 1, m, c, in_bit_buf, out_bit_buf, options =>
    let e := EndOfBitFileBuffer in_bit_buf
    if e.1 = 0 then
      let r := ReadSingleValueFromBitFileBuffer e.2 1
      match LOG_ON_ERROR_AND_RETURN r.1.1 1 with
      | some ret => (ret, r.2, out_bit_buf)
      | none =>
        let input_symbol_index := m.symbol_to_index.getD r.1.2 0
        let s := EncodeSymbol input_symbol_index m c out_bit_buf
        if s.1 ≠ NO_ERROR then (s.1, r.2, s.2.2)
        else
          EncodeBACLoop fuel (if options.adaptive ≠ 0 then UpdateModel m input_symbol_index else m)
            s.2.1 r.2 s.2.2 options
    else
      let s := EncodeSymbol EOF_SYMBOL_INDEX m c out_bit_buf
      if s.1 ≠ NO_ERROR then (s.1, e.2, s.2.2)
      else
        let f := FinishEncoding s.2.1 s.2.2
        (f.1, e.2, f.2.2)

/-- C `EncodeBAC`; `model` and `coder` hold the `static` variables at entry, the first argument
bounds the iterations of the `while` loop. -/
def EncodeBAC (fuel : Nat) (model : bac_model_t) (coder : bac_coder_t)
    (in_bit_buf out_bit_buf : bit_file_buffer_t) (options : options_t) :
    Int × bit_file_buffer_t × bit_file_buffer_t :=
  EncodeBACLoop fuel (InitModel model) (StartEncoding coder) in_bit_buf out_bit_buf options

/-- C `ReadBitSpecial`. Result: return value, `*input_bit`, coder state, input buffer. -/
def ReadBitSpecial (c : bac_coder_t) (in_bit_buf : bit_file_buffer_t) :
    Int × Nat × bac_coder_t × bit_file_buffer_t :=
  let e := EndOfBitFileBuffer in_bit_buf
  if e.1 ≠ 0 then
    if c.after_eof_bits > 0 then
      (NO_ERROR, 0, { c with after_eof_bits := c.after_eof_bits - 1 }, e.2)
    else (ERROR_INVALID_FORMAT, 0, c, e.2)
  else
    let r := ReadSingleValueFromBitFileBuffer e.2 1
    match LOG_ON_ERROR_AND_RETURN r.1.1 1 with
    | some ret => (ret, r.1.2, c, r.2)
    | none => (NO_ERROR, r.1.2, c, r.2)

/-- The statement `current_value = 2 * current_value + (range_t)input_bit`. -/
def shiftInBit (c : bac_coder_t) (input_bit : Nat) : bac_coder_t :=
  { c with current_value :=
      toRange (2 * (c.current_value : Int) + ((input_bit % 2 ^ 16 : Nat) : Int)) }

/-- The `for` loop of `StartDecoding`, with the number of iterations left. -/
def StartDecodingLoop : Nat → bac_coder_t → bit_file_buffer_t →
    Int × bac_coder_t × bit_file_buffer_t
  | 0, c, in_bit_buf => (NO_ERROR, c, in_bit_buf)
  | n + 1, c, in_bit_buf =>
    let r := ReadBitSpecial c in_bit_buf
    if r.1 ≠ NO_ERROR then (r.1, r.2.2.1, r.2.2.2)
    else StartDecodingLoop n (shiftInBit r.2.2.1 r.2.1) r.2.2.2

def StartDecoding (c : bac_coder_t) (in_bit_buf : bit_file_buffer_t) :
    Int × bac_coder_t × bit_file_buffer_t :=
  let l := StartDecodingLoop RANGE_BITS
    { c with current_value := 0, after_eof_bits := RANGE_BITS - 2 } in_bit_buf
  if l.1 ≠ NO_ERROR then l
  else (NO_ERROR, { l.2.1 with start_range := 0, end_range := MAX_RANGE }, l.2.2)

/-- The symbol search of `DecodeSymbol`. An access beyond the end of the array reads 0 here. -/
def findSymbolIndex : Nat → List Nat → Nat → Nat → Nat
  | 0, _, _, index => index
  | fuel + 1, cumulative_symbol_frequencies, current_cumulative_frequency, index =>
    if cumulative_symbol_frequencies.getD index 0 > current_cumulative_frequency then
      findSymbolIndex fuel cumulative_symbol_frequencies current_cumulative_frequency (index + 1)
    else index

/-- The renormalisation loop of `DecodeSymbol`. -/
def DecodeRenormalize : Nat → bac_coder_t → bit_file_buffer_t →
    Int × bac_coder_t × bit_file_buffer_t
  | 0, c, in_bit_buf => (OUT_OF_FUEL, c, in_bit_buf)
  | fuel + 1, c, in_bit_buf =>
    let shifted : Option bac_coder_t :=
      if c.end_range < HALF_RANGE_BORDER then some c
      else if c.start_range ≥ HALF_RANGE_BORDER then
        some { c with current_value := toRange ((c.current_value : Int) - HALF_RANGE_BORDER)
                      start_range := toRange ((c.start_range : Int) - HALF_RANGE_BORDER)
                      end_range := toRange ((c.end_range : Int) - HALF_RANGE_BORDER) }
      else if c.start_range ≥ QUARTER_RANGE_BORDER ∧ c.end_range < THREE_QUARTERS_RANGE_BORDER then
        some { c with current_value := toRange ((c.current_value : Int) - QUARTER_RANGE_BORDER)
                      start_range := toRange ((c.start_range : Int) - QUARTER_RANGE_BORDER)
                      end_range := toRange ((c.end_range : Int) - QUARTER_RANGE_BORDER) }
      else none
    match shifted with
    | none => (NO_ERROR, c, in_bit_buf)
    | some c1 =>
      let r := ReadBitSpecial (doubleRange c1) in_bit_buf
      if r.1 ≠ NO_ERROR then (r.1, r.2.2.1, r.2.2.2)
      else DecodeRenormalize fuel (shiftInBit r.2.2.1 r.2.1) r.2.2.2

/-- C `DecodeSymbol`. Result: return value, `*decoded_symbol_index`, coder state, input
buffer. -/
def DecodeSymbol (m : bac_model_t) (c : bac_coder_t) (in_bit_buf : bit_file_buffer_t) :
    Int × Nat × bac_coder_t × bit_file_buffer_t :=
  let range : Nat := (toU64 ((c.end_range : Int) - c.start_range) + 1) % 2 ^ 64
  let current_cumulative_frequency : Nat :=
    ((((toU64 ((c.current_value : Int) - c.start_range) + 1) % 2 ^ 64 *
        m.cumulative_symbol_frequencies.getD 0 0) % 2 ^ 64 + 2 ^ 64 - 1) % 2 ^ 64 / range) % 2 ^ 16
  let decoded_symbol_index := findSymbolIndex (TOTAL_NUMBER_OF_SYMBOLS + 1)
    m.cumulative_symbol_frequencies current_cumulative_frequency 1
  let d := DecodeRenormalize (RANGE_BITS + 1) (narrowRange m c decoded_symbol_index) in_bit_buf
  (d.1, decoded_symbol_index, d.2.1, d.2.2)

/-- The `for (;;)` loop of `DecodeBAC`. -/
def DecodeBACLoop : Nat → bac_model_t → bac_coder_t → bit_file_buffer_t → bit_file_buffer_t →
    options_t → Int × bit_file_buffer_t × bit_file_buffer_t
  | 0, _, _, in_bit_buf, out_bit_buf, _ => (OUT_OF_FUEL, in_bit_buf, out_bit_buf)
  | fuel + 1, m, c, in_bit_buf, out_bit_buf, options =>
    let d := DecodeSymbol m c in_bit_buf
    if d.1 ≠ NO_ERROR then (d.1, d.2.2.2, out_bit_buf)
    else if d.2.1 = EOF_SYMBOL_INDEX then (NO_ERROR, d.2.2.2, out_bit_buf)
    else
      let output_bit := toU64 (m.index_to_symbol.getD d.2.1 0)
      let w := WriteSingleValueToBitFileBuffer out_bit_buf output_bit 1
      match LOG_ON_ERROR_AND_RETURN w.1 1 with
      | some ret => (ret, d.2.2.2, w.2)
      | none =>
        DecodeBACLoop fuel (if options.adaptive ≠ 0 then UpdateModel m d.2.1 else m)
          d.2.2.1 d.2.2.2 w.2 options

/-- C `DecodeBAC`; `model` and `coder` hold the `static` variables at entry, the first argument
bounds the iterations of the `for (;;)` loop. -/
def DecodeBAC (fuel : Nat) (model : bac_model_t) (coder : bac_coder_t)
    (in_bit_buf out_bit_buf : bit_file_buffer_t) (options : options_t) :
    Int × bit_file_buffer_t × bit_file_buffer_t :=
  let s := StartDecoding coder in_bit_buf
  if s.1 ≠ NO_ERROR then (s.1, s.2.2, out_bit_buf)
  else DecodeBACLoop fuel (InitModel model) s.2.1 s.2.2 out_bit_buf options

/-! ## Call sequences used in the statements -/

/-- Successive `WriteSingleValueToBitFileBuffer` calls for a list of (value, width) pairs;
the results are the return values and the final buffer. -/
def writeValues : bit_file_buffer_t → List (Nat × Nat) → List Int × bit_file_buffer_t
  | b, [] => ([], b)
  | b, p :: rest =>
    let w := WriteSingleValueToBitFileBuffer b p.1 p.2
    let r := writeValues w.2 rest
    (w.1 :: r.1, r.2)

/-- Successive `ReadSingleValueFromBitFileBuffer` calls for a list of widths; the results are
the (return value, value) pairs and the final buffer. -/
def readValues : bit_file_buffer_t → List Nat → List (Int × Nat) × bit_file_buffer_t
  | b, [] => ([], b)
  | b, n :: rest =>
    let r := ReadSingleValueFromBitFileBuffer b n
    let q := readValues r.2 rest
    (r.1 :: q.1, q.2)

/-- The bit stream of a list of (value, width) pairs: each value at its width, most
significant bit first. -/
def valuesBits (vs : List (Nat × Nat)) : List Bool :=
  (vs.map (fun p => toBits p.2 p.1)).flatten

/-- The total width of a list of (value, width) pairs. -/
def totalBits (vs : List (Nat × Nat)) : Nat := (vs.map Prod.snd).sum

/-- The value list of a sequence of `n`-bit patterns. -/
def atWidth (n : Nat) (xs : List Nat) : List (Nat × Nat) := xs.map (fun x => (x, n))

/-- The two's-complement value of the `n`-bit pattern `x`. -/
def sval (n x : Nat) : Int := if x < 2 ^ (n - 1) then (x : Int) else (x : Int) - 2 ^ n

/-! ### Differential coder -/

/-- Every difference between an `n`-bit pattern (read as an unsigned number) and its
predecessor (`last` for the first) lies in the range of an `n`-bit two's-complement number. -/
def diffsInRange (n : Nat) : Int → List Nat → Prop
  | _, [] => True
  | last, x :: rest =>
    (-(2 ^ (n - 1) : Int) ≤ (x : Int) - last ∧ (x : Int) - last ≤ 2 ^ (n - 1) - 1) ∧
      diffsInRange n (x : Int) rest

instance diffsInRangeDecidable (n : Nat) : ∀ (last : Int) (xs : List Nat),
    Decidable (diffsInRange n last xs)
  | _, [] => isTrue trivial
  | last, x :: rest =>
    have := diffsInRangeDecidable n (x : Int) rest
    by unfold diffsInRange; infer_instance

/-- The differences of a sequence of 64-bit patterns as (pattern, width) pairs. -/
def diffCode (n : Nat) : Int → List Nat → List (Nat × Nat)
  | _, [] => []
  | last, x :: rest => (toU64 (wrapI64 (toI64 x - last)), n) :: diffCode n (toI64 x) rest

/-! ### Signed exponential-Golomb code -/

/-- The unsigned index of a signed value: `2|v| - 1` for `v > 0`, else `2|v|`. -/
def segIndex (v : Int) : Nat := if v > 0 then 2 * v.natAbs - 1 else 2 * v.natAbs

/-- The unsigned exponential-Golomb codeword of `u`: `p` zero bits, then `u + 1` at width
`p + 1`, where `2 ^ p ≤ u + 1 < 2 ^ (p + 1)`. -/
def uegBits (u : Nat) : List Bool :=
  List.replicate (Nat.log2 (u + 1)) false ++ toBits (Nat.log2 (u + 1) + 1) (u + 1)

/-- The signed exponential-Golomb code of a sequence of `n`-bit patterns. -/
def segCode (n : Nat) : List Nat → List Bool
  | [] => []
  | x :: rest => uegBits (segIndex (sval n x)) ++ segCode n rest

/-! ### Binary arithmetic coder -/

/-- The three cases of an iteration of the renormalisation loops: the range lies in the lower
half, in the upper half, or in the middle half around the centre. -/
inductive bac_shift_t where
  | lower
  | upper
  | middle
  deriving DecidableEq, Repr

/-- The case that the renormalisation loops take at the range `lo .. hi`, if any. -/
def shiftOf (lo hi : Nat) : Option bac_shift_t :=
  if hi < HALF_RANGE_BORDER then some .lower
  else if lo ≥ HALF_RANGE_BORDER then some .upper
  else if lo ≥ QUARTER_RANGE_BORDER ∧ hi < THREE_QUARTERS_RANGE_BORDER then some .middle
  else none

/-- The amount that a case subtracts from the bounds before they are doubled. -/
def shiftBase : bac_shift_t → Nat
  | .lower => 0
  | .upper => HALF_RANGE_BORDER
  | .middle => QUARTER_RANGE_BORDER

/-- The cases that renormalisation takes from the range `lo .. hi` on, and the final range. -/
def renormTrace : Nat → Nat → Nat → List bac_shift_t × Nat × Nat
  | 0, lo, hi => ([], lo, hi)
  | fuel + 1, lo, hi =>
    match shiftOf lo hi with
    | none => ([], lo, hi)
    | some sh =>
      let r := renormTrace fuel (2 * (lo - shiftBase sh)) (2 * (hi - shiftBase sh) + 1)
      (sh :: r.1, r.2)

/-- Insertion of `p` copies of the opposite bit after the first bit of a stream. -/
def insertAfterFirst (p : Nat) : List Bool → List Bool
  | [] => []
  | c :: rest => c :: (List.replicate p (!c) ++ rest)

/-- The stream that a decoder must see before a sequence of renormalisation cases, given the
stream `X` that it must see after them. -/
def applyShifts : List bac_shift_t → List Bool → List Bool
  | [], X => X
  | .lower :: r, X => false :: applyShifts r X
  | .upper :: r, X => true :: applyShifts r X
  | .middle :: r, X => insertAfterFirst 1 (applyShifts r X)

/-- The bits that the encoder writes during a sequence of renormalisation cases that starts
with `p` pending bits, and the number of pending bits at the end. -/
def emitShifts : List bac_shift_t → Nat → List Bool × Nat
  | [], p => ([], p)
  | .lower :: r, p => (false :: (List.replicate p true ++ (emitShifts r 0).1), (emitShifts r 0).2)
  | .upper :: r, p => (true :: (List.replicate p false ++ (emitShifts r 0).1), (emitShifts r 0).2)
  | .middle :: r, p => emitShifts r (p + 1)

/-- The range of the symbol at `index` within `lo .. hi`, without wrap-around. -/
def narrowPure (cum : List Nat) (lo hi index : Nat) : Nat × Nat :=
  (lo + (hi - lo + 1) * cum.getD index 0 / cum.getD 0 0,
   lo + (hi - lo + 1) * cum.getD (index - 1) 0 / cum.getD 0 0 - 1)

/-- The two bits of `FinishEncoding` when no bit is pending. -/
def finishBits (lo : Nat) : List Bool :=
  if lo < QUARTER_RANGE_BORDER then [false, true] else [true, false]

/-- The code of a bit sequence from a model and a range on, as the encoder writes it when no
bit is pending. -/
def bacStream (adaptive : Int) : bac_model_t → Nat → Nat → List Bool → List Bool
  | m, lo, hi, [] =>
    let n := narrowPure m.cumulative_symbol_frequencies lo hi EOF_SYMBOL_INDEX
    let t := renormTrace (RANGE_BITS + 1) n.1 n.2
    applyShifts t.1 (finishBits t.2.1)
  | m, lo, hi, b :: rest =>
    let index := m.symbol_to_index.getD (if b then 1 else 0) 0
    let n := narrowPure m.cumulative_symbol_frequencies lo hi index
    let t := renormTrace (RANGE_BITS + 1) n.1 n.2
    applyShifts t.1
      (bacStream adaptive (if adaptive ≠ 0 then UpdateModel m index else m) t.2.1 t.2.2 rest)

/-- The index of the first symbol that the encoder codes for a bit sequence: the index of the
first bit, or the end-of-message index for the empty sequence. -/
def firstIndex (m : bac_model_t) : List Bool → Nat
  | [] => EOF_SYMBOL_INDEX
  | b :: _ => m.symbol_to_index.getD (if b then 1 else 0) 0

/-- The first `n` bits of a stream, padded with zero bits, as a number. -/
def window (n : Nat) (W : List Bool) : Nat := valBits ((W ++ List.replicate n false).take n)

/-- The model arrays have the sizes of their declarations. -/
def bac_model_t.Shaped (m : bac_model_t) : Prop :=
  m.symbol_to_index.length = 2 ∧ m.index_to_symbol.length = 4 ∧
  m.symbol_frequencies.length = 4 ∧ m.cumulative_symbol_frequencies.length = 4

instance (m : bac_model_t) : Decidable m.Shaped := by
  unfold bac_model_t.Shaped; infer_instance

/-- Well-formed model: positive frequencies at the indices 1 to 3 with a total of at most
`MAX_FREQUENCY`, cumulative frequencies that are the sums of the frequencies at the higher
indices, and index tables that are inverse to each other on the two source symbols. -/
def bac_model_t.WF (m : bac_model_t) : Prop :=
  ∃ f1 f2 f3 : Nat, ∃ u v : Int, 1 ≤ f1 ∧ 1 ≤ f2 ∧ 1 ≤ f3 ∧ f1 + f2 + f3 ≤ MAX_FREQUENCY ∧
    m.symbol_frequencies = [0, f1, f2, f3] ∧
    m.cumulative_symbol_frequencies = [f1 + f2 + f3, f2 + f3, f3, 0] ∧
    ((m.symbol_to_index = [1, 2] ∧ m.index_to_symbol = [u, 0, 1, v]) ∨
     (m.symbol_to_index = [2, 1] ∧ m.index_to_symbol = [u, 1, 0, v]))

/-- The range of the coder between two symbols: it straddles the centre and is not contained
in the middle half. -/
def RangeOK (lo hi : Nat) : Prop :=
  lo < HALF_RANGE_BORDER ∧ HALF_RANGE_BORDER ≤ hi ∧ hi ≤ MAX_RANGE ∧
  (lo < QUARTER_RANGE_BORDER ∨ THREE_QUARTERS_RANGE_BORDER ≤ hi)

/-! ### Example buffers -/

/-- The file buffer that `InitFileBuffer` returns for a handle, a mode and a capacity (an
unusable buffer in the error case). -/
def exampleFileBuffer (file : FILE) (mode : file_buffer_mode_t) (cap : Nat) : file_buffer_t :=
  match InitFileBuffer [] file mode cap with
  | .ok fb => fb
  | .error _ =>
    { base_file := file,
      io_buffer := { buffer := [], buffer_size := 0, buffer_start := 0, buffer_end := -1,
                     stray := [] },
      mode := FBM_INVALID, type := FBT_FILE }

/-- A bit buffer for reading the bytes `bytes` from a file through a byte buffer of capacity
`cap`. -/
def exampleInput (bytes : List Nat) (cap : Nat) : bit_file_buffer_t :=
  InitBitFileBuffer (exampleFileBuffer { input := bytes, output := [] } FBM_READING cap)

/-- A bit buffer for writing to an empty file through a byte buffer of capacity `cap`. -/
def exampleOutput (cap : Nat) : bit_file_buffer_t :=
  InitBitFileBuffer (exampleFileBuffer { input := [], output := [] } FBM_WRITING cap)

/-- A memory-only bit buffer of capacity `cap` in writing mode (a temporary buffer between two
stages). -/
def exampleTemp (cap : Nat) : bit_file_buffer_t :=
  match InitFileBufferInMemory [] FBM_WRITING cap with
  | .ok fb => InitBitFileBuffer fb
  | .error _ => exampleOutput cap

/-- The hand-over of a temporary buffer from the stage that wrote it to the stage that reads
it: the flip to reading mode of `SwitchTempBuffers`. -/
def handOver (b : bit_file_buffer_t) : bit_file_buffer_t := (SetBitFileBufferMode b FBM_READING).2

/-- A zero-initialised byte array of `n` elements (a `static` array at program start). -/
def zeroBytes (n : Nat) : List Nat := List.replicate n 0

/-- A zero-initialised symbol list of `HUFF_LIST_LENGTH` entries. -/
def zeroList : List HUFFLIST := List.replicate HUFF_LIST_LENGTH { symbol := 0, count := 0 }

/-- C `EncodeLZMH` as the first call in a process, with `fuel` iterations of the main loop. -/
def encodeLZMH (fuel : Nat) (in_bit_buf out_bit_buf : bit_file_buffer_t) :
    Int × bit_file_buffer_t × bit_file_buffer_t :=
  EncodeLZMH fuel (zeroBytes INTERN_BUFFER_LENGTH) zeroList in_bit_buf out_bit_buf

/-- C `DecodeLZMH` as the first call in a process, with `fuel` iterations of the `do` loop. -/
def decodeLZMH (fuel : Nat) (in_bit_buf out_bit_buf : bit_file_buffer_t) :
    Int × bit_file_buffer_t × bit_file_buffer_t :=
  DecodeLZMH fuel (zeroBytes LZ_MAX_OFFSET) zeroList in_bit_buf out_bit_buf

/-- The model arrays of `bac.c` at program start (zero-initialised `static` storage). -/
def zeroModel : bac_model_t :=
  { symbol_to_index := [0, 0], index_to_symbol := [0, 0, 0, 0],
    symbol_frequencies := [0, 0, 0, 0], cumulative_symbol_frequencies := [0, 0, 0, 0] }

/-- The scalar variables of `bac.c` at program start. -/
def zeroCoder : bac_coder_t :=
  { start_range := 0, end_range := 0, next_bits := 0, current_value := 0, after_eof_bits := 0 }

/-- The bounds of the byte buffer: `0 ≤ start ≤ end + 1 ≤ capacity`. -/
def buffer_t.Bounds (b : buffer_t) : Prop :=
  0 ≤ b.buffer_start ∧ b.buffer_start ≤ b.buffer_end + 1 ∧
  b.buffer_end + 1 ≤ (b.buffer_size : Int)

instance (b : buffer_t) : Decidable b.Bounds := by
  unfold buffer_t.Bounds; infer_instance

/-- A call on the byte buffer: `WriteBuffer` with an input and a size, or `ReadBuffer` with a
size. -/
inductive buffer_op where
  | write (input : List Nat) (input_size : Nat)
  | read (output_size : Nat)
  deriving DecidableEq, Repr

/-- The size argument of a call. -/
def buffer_op.size : buffer_op → Nat
  | .write _ input_size => input_size
  | .read output_size => output_size

/-- A sequence of `WriteBuffer` and `ReadBuffer` calls. Result: the sum of the counts that the
writes returned, the sum of the counts that the reads returned, the final buffer. -/
def runOps : buffer_t → List buffer_op → Int × Int × buffer_t
  | b, [] => (0, 0, b)
  | b, .write input input_size :: rest =>
    let w := WriteBuffer b input input_size
    let r := runOps w.2 rest
    (w.1 + r.1, r.2.1, r.2.2)
  | b, .read output_size :: rest =>
    let w := ReadBuffer b output_size
    let r := runOps w.2 rest
    (r.1, w.1.1 + r.2.1, r.2.2)

/-- A byte buffer as `InitBuffer` returns it for a capacity (an unusable buffer in the error
case). -/
def exampleBuffer (stray : List Nat) (cap : Nat) : buffer_t :=
  match InitBuffer stray cap with
  | .ok b => b
  | .error _ => { buffer := [], buffer_size := 0, buffer_start := 0, buffer_end := -1,
                  stray := stray }

/-- A memory-only file buffer as `InitFileBufferInMemory` returns it (an unusable buffer in
the error case). -/
def exampleMemoryBuffer (mode : file_buffer_mode_t) (cap : Nat) : file_buffer_t :=
  match InitFileBufferInMemory [] mode cap with
  | .ok fb => fb
  | .error _ => exampleFileBuffer { input := [], output := [] } FBM_INVALID cap

/-! ### Differential coder -/

/-- The differences of a sequence of values: each value less its predecessor (`last` for the
first). -/
def deltas : Int → List Nat → List Int
  | _, [] => []
  | last, x :: rest => ((x : Int) - last) :: deltas (x : Int) rest

/-- The `n`-bit two's-complement pattern of an integer. -/
def twosComplement (n : Nat) (d : Int) : Nat := (d % 2 ^ n).toNat

/-! ### Signed exponential-Golomb code -/

/-- The signed value of the unsigned index `u`: `(u + 1) / 2`, negated for an even index. -/
def segValue (u : Nat) : Int :=
  if u % 2 = 0 then -(((u + 1) / 2 : Nat) : Int) else (((u + 1) / 2 : Nat) : Int)

/-- A stream of unsigned exponential-Golomb codewords. -/
def uegStream (us : List Nat) : List Bool := (us.map uegBits).flatten

/-- The number of leading zero bits at which a codeword is rejected: the bound that
`DecodeSEGCodeword` passes to `DecodeUEGCodeword` at the width `n`. -/
def segZeroLimit (n : Nat) : Nat := if n + 1 > IO_SIZE_BITS then IO_SIZE_BITS else n + 1

/-- A buffer in writing mode is switched to reading mode, `k` bytes are read from it, and it
is switched back to writing mode. -/
def readBetweenWrites (fb : file_buffer_t) (k : Nat) : file_buffer_t :=
  (SetFileBufferMode (ReadFileBuffer (SetFileBufferMode fb FBM_READING).2 k).2 FBM_WRITING).2

/-! ## DCLib/src/enc_dec.c -/

/-- A C string literal as the list of its characters (as `unsigned char`) before the
terminating NUL. -/
def cstr (s : String) : List Nat := s.toList.map Char.toNat

/-- C library `strlen` on a string given by its characters before the terminating NUL (the
list ends at the first NUL it holds, if any). -/
def strlen : List Nat → Nat
  | [] => 0
  | c :: s => if c = 0 then 0 else strlen s + 1

/-- C library `strncmp`: the characters are compared as `unsigned char` up to the first
difference, the first NUL or `n` characters; the result is the difference of the two
characters that end the comparison (callers use its sign only). -/
def strncmp : List Nat → List Nat → Nat → Int
  | _, _, 0 => 0
  | s1, s2, n + 1 =>
    if s1.headD 0 ≠ s2.headD 0 then ((s1.headD 0 : Nat) : Int) - ((s2.headD 0 : Nat) : Int)
    else if s1.headD 0 = 0 then 0
    else strncmp s1.tail s2.tail n

/-- C library `bsearch` as a binary search over the index range `l .. u - 1` (the loop of the
GNU C library); `none` is the null pointer. -/
def bsearchLoop {α : Type} (compar : List Nat → α → Int) (key : List Nat) (base : List α) :
    Nat → Nat → Nat → Option α
  | 0, _, _ => none
  | fuel + 1, l, u =>
    if l < u then
      let idx := (l + u) / 2
      match base.get? idx with
      | none => none
      | some p =>
        let comparison := compar key p
        if comparison < 0 then bsearchLoop compar key base fuel l idx
        else if comparison > 0 then bsearchLoop compar key base fuel (idx + 1) u
        else some p
    else none

/-- C library `bsearch(key, base, nmemb, size, compar)`. -/
def bsearch {α : Type} (key : List Nat) (base : List α) (nmemb : Nat)
    (compar : List Nat → α → Int) : Option α :=
  bsearchLoop compar key base (nmemb + 1) 0 nmemb

def NO_OPTIONS : Nat := 0
def OPTION_BLOCK_SIZE_BITS : Nat := 1 <<< 0
def OPTION_VALUE_SIZE_BITS : Nat := 1 <<< 1
def OPTION_ADAPTIVE : Nat := 1 <<< 2
def OPTION_COLUMN : Nat := 1 <<< 3
def OPTION_SEPARATOR_CHAR : Nat := 1 <<< 4
def OPTION_NORMALIZATION_FACTOR : Nat := 1 <<< 5
def OPTION_NUM_DECIMAL_PLACES : Nat := 1 <<< 6
def OPTION_NUM_VALUES : Nat := 1 <<< 7

/-- The functions that the stage table points to. -/
inductive enc_dec_function_t where
  | Aggregate
  | EncodeBAC
  | DecodeBAC
  | Copy
  | WriteCSV
  | ReadCSV
  | EncodeDifferential
  | DecodeDifferential
  | EncodeLZMH
  | DecodeLZMH
  | Normalize
  | Denormalize
  | EncodeSEG
  | DecodeSEG
  deriving DecidableEq, Repr

/-- C `enc_dec_t`; `none` is a null function pointer. -/
structure enc_dec_t where
  encoder : Option enc_dec_function_t
  decoder : Option enc_dec_function_t
  deriving DecidableEq, Repr

structure named_enc_dec_t where
  name : List Nat
  description : String
  encoder_decoder : enc_dec_t
  supported_options : Nat
  deriving DecidableEq, Repr

inductive option_type_t where
  | OT_INVALID
  | OT_BOOL
  | OT_SIZE
  | OT_FLOAT
  | OT_CHAR
  deriving DecidableEq, Repr

open option_type_t

def CHAR_MAX : Nat := 127

/-- C `option_description_t`; `struct_offset` holds the name of the field of `options_t`
whose offset the table stores. -/
structure option_description_t where
  name : List Nat
  option : Nat
  description : String
  type : option_type_t
  min_value : Nat
  max_value : Nat
  struct_offset : String
  deriving DecidableEq, Repr

def encoders_decoders : List named_enc_dec_t :=
  [ { name := cstr "aggregate", description := "Sums up values",
      encoder_decoder := { encoder := some .Aggregate, decoder := none },
      supported_options := OPTION_NUM_VALUES },
    { name := cstr "bac", description := "Binary arithmetic coding",
      encoder_decoder := { encoder := some .EncodeBAC, decoder := some .DecodeBAC },
      supported_options := OPTION_ADAPTIVE },
    { name := cstr "copy", description := "Copies input to output",
      encoder_decoder := { encoder := some .Copy, decoder := some .Copy },
      supported_options := OPTION_BLOCK_SIZE_BITS },
    { name := cstr "csv", description := "Comma-separated values",
      encoder_decoder := { encoder := some .WriteCSV, decoder := some .ReadCSV },
      supported_options := OPTION_COLUMN ||| OPTION_SEPARATOR_CHAR ||| OPTION_NUM_DECIMAL_PLACES },
    { name := cstr "diff", description := "Differential coding",
      encoder_decoder := { encoder := some .EncodeDifferential,
                           decoder := some .DecodeDifferential },
      supported_options := OPTION_VALUE_SIZE_BITS },
    { name := cstr "lzmh", description := "LZMH coding",
      encoder_decoder := { encoder := some .EncodeLZMH, decoder := some .DecodeLZMH },
      supported_options := NO_OPTIONS },
    { name := cstr "normalize", description := "(De-)normalization",
      encoder_decoder := { encoder := some .Normalize, decoder := some .Denormalize },
      supported_options := OPTION_NORMALIZATION_FACTOR ||| OPTION_VALUE_SIZE_BITS },
    { name := cstr "seg", description := "Signed Exponential Golomb coding",
      encoder_decoder := { encoder := some .EncodeSEG, decoder := some .DecodeSEG },
      supported_options := OPTION_VALUE_SIZE_BITS } ]

def num_encoders : Nat := encoders_decoders.length

def option_descriptions : List option_description_t :=
  [ { name := cstr "adaptive", option := OPTION_ADAPTIVE,
      description := "Perform adaptive arithmetic coding",
      type := OT_BOOL, min_value := 0, max_value := 1, struct_offset := "adaptive" },
    { name := cstr "blocksize", option := OPTION_BLOCK_SIZE_BITS,
      description := "Use blocks of <n> bits size for I/O",
      type := OT_SIZE, min_value := 1, max_value := SIZE_MAX, struct_offset := "block_size_bits" },
    { name := cstr "column", option := OPTION_COLUMN,
      description := "Use column <n>",
      type := OT_SIZE, min_value := 1, max_value := SIZE_MAX, struct_offset := "column" },
    { name := cstr "normalization_factor", option := OPTION_NORMALIZATION_FACTOR,
      description := "Use multiplier <n> for normalization and <1/n> for denormalization",
      type := OT_FLOAT, min_value := 0, max_value := SIZE_MAX,
      struct_offset := "normalization_factor" },
    { name := cstr "num_decimal_places", option := OPTION_NUM_DECIMAL_PLACES,
      description := "Use <n> decimal places to print floats into CSV files",
      type := OT_SIZE, min_value := 0, max_value := 6, struct_offset := "num_decimal_places" },
    { name := cstr "num_values", option := OPTION_NUM_VALUES,
      description := "Use <n> values for aggregation",
      type := OT_SIZE, min_value := 0, max_value := SIZE_MAX, struct_offset := "num_values" },
    { name := cstr "separator_char", option := OPTION_SEPARATOR_CHAR,
      description := "Use <n> as CSV entry separator",
      type := OT_CHAR, min_value := 0, max_value := CHAR_MAX, struct_offset := "separator_char" },
    { name := cstr "valuesize", option := OPTION_VALUE_SIZE_BITS,
      description := "Use values of <n> bits size",
      type := OT_SIZE, min_value := 1, max_value := IO_SIZE_BITS,
      struct_offset := "value_size_bits" } ]

def num_options : Nat := option_descriptions.length

def GetNumberOfEncoders : Nat := num_encoders

/-- C `GetEncoderNames`: the names stored in `encoder_names`. -/
def GetEncoderNames : List (List Nat) := encoders_decoders.map (fun e => e.name)

def CompareEncoderNames (pkey : List Nat) (pelem : named_enc_dec_t) : Int :=
  strncmp pkey pelem.name (strlen pelem.name)

def FindEncoder (name : List Nat) : Option named_enc_dec_t :=
  bsearch name encoders_decoders num_encoders CompareEncoderNames

def GetEncoder (name : List Nat) : Option enc_dec_t :=
  match FindEncoder name with
  | none => none
  | some encoder => some encoder.encoder_decoder

def GetEncoderDescription (name : List Nat) : Option String :=
  match FindEncoder name with
  | none => none
  | some encoder => some encoder.description

def GetNumberOfOptions : Nat := num_options

/-- C `GetOptionNames`: the names stored in `option_names`. -/
def GetOptionNames : List (List Nat) := option_descriptions.map (fun o => o.name)

def CompareOptionNames (pkey : List Nat) (pelem : option_description_t) : Int :=
  strncmp pkey pelem.name (strlen pelem.name)

def FindOptionDescription (name : List Nat) : Option option_description_t :=
  bsearch name option_descriptions num_options CompareOptionNames

def OptionNameExists (name : List Nat) : Int :=
  if FindOptionDescription name ≠ none then 1 else 0

def GetOptionDescription (name : List Nat) : Option String :=
  match FindOptionDescription name with
  | none => none
  | some option_desc => some option_desc.description

def GetOptionType (name : List Nat) : option_type_t :=
  match FindOptionDescription name with
  | none => OT_INVALID
  | some option_desc => option_desc.type

/-! ## DCLib/src/aggregate.c

A `float` object is given by the four bytes of its object representation; the addition of
two `float` values is a parameter `fadd` of the embedding. -/

/-- The object representation of the `float` value `0`. -/
def floatZero : List Nat := [0, 0, 0, 0]

/-- The `for` loop of `Aggregate` with the number of iterations left before `i` reaches
`num_values`. Result: `some ret` for an early `return ret`, then `sum` and the input buffer. -/
def AggregateGroup (fadd : List Nat → List Nat → List Nat) :
    Nat → bit_file_buffer_t → List Nat → Option Int × List Nat × bit_file_buffer_t
  | 0, in_bit_buf, sum => (none, sum, in_bit_buf)
  | k + 1, in_bit_buf, sum =>
    let value_size := 8 * 4
    let r := ReadBitFileBuffer in_bit_buf value_size
    match LOG_ON_ERROR_AND_RETURN r.1.1 value_size with
    | some ret => (some ret, sum, r.2)
    | none =>
      let sum1 := fadd sum r.1.2
      let e := EndOfBitFileBuffer r.2
      if e.1 ≠ 0 then (none, sum1, e.2)
      else AggregateGroup fadd k e.2 sum1

/-- C `Aggregate`; the second argument bounds the iterations of the `while` loop.
Result: return value, input buffer, output buffer. -/
def Aggregate (fadd : List Nat → List Nat → List Nat) :
    Nat → bit_file_buffer_t → bit_file_buffer_t → options_t →
    Int × bit_file_buffer_t × bit_file_buffer_t
  | 0, in_bit_buf, out_bit_buf, _ => (OUT_OF_FUEL, in_bit_buf, out_bit_buf)
  | fuel + 1, in_bit_buf, out_bit_buf, options =>
    let e := EndOfBitFileBuffer in_bit_buf
    if e.1 ≠ 0 then (NO_ERROR, e.2, out_bit_buf)
    else
      let value_size := 8 * 4
      let g := AggregateGroup fadd options.num_values e.2 floatZero
      match g.1 with
      | some ret => (ret, g.2.2, out_bit_buf)
      | none =>
        let w := WriteBitFileBuffer out_bit_buf g.2.1 value_size
        match LOG_ON_ERROR_AND_RETURN w.1 value_size with
        | some ret => (ret, g.2.2, w.2)
        | none => Aggregate fadd fuel g.2.2 w.2 options

/-! ### Aggregation -/

/-- The sums of the groups of `n` consecutive values, as the specification words them: there
are `⌈k / n⌉` groups for `k` values, and group `j` is the sum from the left, starting from 0,
of the values with the indices `j * n` to `min ((j + 1) * n) k - 1`. -/
def groupSums (fadd : List Nat → List Nat → List Nat) (n : Nat) (vs : List (List Nat)) :
    List (List Nat) :=
  (List.range ((vs.length + n - 1) / n)).map
    (fun j => ((vs.drop (j * n)).take (min ((j + 1) * n) vs.length - j * n)).foldl fadd floatZero)

/-- A stand-in for the addition of `float` values in examples: the bytewise sum modulo 256. -/
def exampleAdd (a b : List Nat) : List Nat :=
  [(a.getD 0 0 + b.getD 0 0) % 256, (a.getD 1 0 + b.getD 1 0) % 256,
   (a.getD 2 0 + b.getD 2 0) % 256, (a.getD 3 0 + b.getD 3 0) % 256]

/-! ### Binary arithmetic coder -/

/-- The frequencies of the model are non-increasing in the index: `freq[1] ≥ freq[2] ≥ freq[3]`. -/
def bac_model_t.Sorted (m : bac_model_t) : Prop :=
  m.symbol_frequencies.getD 2 0 ≤ m.symbol_frequencies.getD 1 0 ∧
  m.symbol_frequencies.getD 3 0 ≤ m.symbol_frequencies.getD 2 0

instance (m : bac_model_t) : Decidable m.Sorted := by
  unfold bac_model_t.Sorted; infer_instance

instance (lo hi : Nat) : Decidable (RangeOK lo hi) := by
  unfold RangeOK; infer_instance

/-! ### LZMH: one iteration of the main loop of the encoder

The body of the main loop of `EncodeLZMH`, cut into the parts that the statements about it
name: the two limits of the history search, the search, the coding of the item, and the whole
iteration. `EncodeLZMHLoop_step` shows that the loop of `EncodeLZMH` runs `encodeStep`. -/

/-- C `maxoffset` as the main loop of `EncodeLZMH` sets it. -/
def lzMaxOffset (s : lzmh_encoder_t) : Int :=
  if s.internBufferHistory ≠ 0 then LZ_MAX_OFFSET else ((s.internBufferRead % 256 : Nat) : Int)

/-- C `maxlength` as the main loop of `EncodeLZMH` sets it. -/
def lzMaxLength (s : lzmh_encoder_t) : Int :=
  if s.internBufferWrite > s.internBufferRead then
    (((if s.internBufferWrite - s.internBufferRead > LZ_MAX_LENGTH then LZ_MAX_LENGTH
       else s.internBufferWrite - s.internBufferRead) % 2 ^ 16 : Nat) : Int)
  else if s.internBufferWrite < s.internBufferRead then
    (((if s.internBufferWrite + INTERN_BUFFER_LENGTH - s.internBufferRead > LZ_MAX_LENGTH
       then LZ_MAX_LENGTH
       else s.internBufferWrite + INTERN_BUFFER_LENGTH - s.internBufferRead) % 2 ^ 16
        : Nat) : Int)
  else LZ_MAX_LENGTH

/-- The history search of an iteration: `bestlength` and `bestoffset` after the `for` loop. -/
def lzBest (s : lzmh_encoder_t) : Int × Int :=
  searchHistory (LZ_MAX_OFFSET + 1) s.internBuffer s.internBufferRead (lzMaxOffset s)
    (lzMaxLength s) 1 2 0

/-- The symbol list after the coding of the literal `i`: the search with the count of the
symbol incremented, and the symbol added when it was not found and the list is not full. -/
def lzLiteralList (list : List HUFFLIST) (i : Nat) : List HUFFLIST :=
  let found := searchSymbol (HUFF_LIST_LENGTH + 1) list i 0
  if found.2.1 = HUFF_SYMBOL_NOT_FOUND ∧ found.2.2 < HUFF_LIST_LENGTH then
    found.1.set found.2.2 ({ symbol := i, count := 1 } : HUFFLIST)
  else found.1

/-- The coding of the item of an iteration: the state, `code_length` and `code_sym` after the
`if (bestlength >= 3)` statement. -/
def lzCoded (s : lzmh_encoder_t) : lzmh_encoder_t × Int × Nat :=
  if (lzBest s).1 ≥ 3 then
    let o := encodeOffset s.offsets (lzBest s).2 0 0
    let l := encodeLength (lzBest s).1 o.2.1 o.2.2
    let read := s.internBufferRead + (lzBest s).1.toNat
    ({ s with offsets := o.1
              internBufferRead :=
                if read ≥ INTERN_BUFFER_LENGTH then read - INTERN_BUFFER_LENGTH else read },
     l.1, l.2)
  else
    let i := s.internBuffer.getD s.internBufferRead 0
    let read := s.internBufferRead + 1
    let read := if read ≥ INTERN_BUFFER_LENGTH then read - INTERN_BUFFER_LENGTH else read
    let maxlength := (searchSymbol (HUFF_LIST_LENGTH + 1) s.list i 0).2.1
    if maxlength < TREE_LENGHT then
      let code_length := toI8 (0 + (tree.getD maxlength default).length)
      ({ s with list := lzLiteralList s.list i, internBufferRead := read }, code_length,
        toU64 (shlInt (tree.getD maxlength default).code (CODE_BUFFER - code_length)))
    else
      let code_length := toI8 (0 + (HUFF_BYTE_LENGTH + 2 : Nat))
      ({ s with list := lzLiteralList s.list i, internBufferRead := read }, code_length,
        toU64 (shlInt i (CODE_BUFFER - code_length)))

/-- The start of the history after the item was coded. -/
def lzHistory (s : lzmh_encoder_t) : Nat :=
  if s.internBufferRead > s.internBufferHistory then
    if s.internBufferRead - s.internBufferHistory > LZ_MAX_OFFSET then
      s.internBufferRead - LZ_MAX_OFFSET
    else s.internBufferHistory
  else
    if s.internBufferRead + INTERN_BUFFER_LENGTH - s.internBufferHistory > LZ_MAX_OFFSET
    then (s.internBufferRead + INTERN_BUFFER_LENGTH - LZ_MAX_OFFSET) % INTERN_BUFFER_LENGTH
    else s.internBufferHistory

/-- One iteration of the main loop of `EncodeLZMH`, after the test of its condition; `some ret`
is an early `return ret`. -/
def encodeStep (s : lzmh_encoder_t) : Option Int × lzmh_encoder_t :=
  let coded := lzCoded s
  let code_sym := coded.2.2 >>> (CODE_BUFFER - coded.2.1).toNat
  let w := WriteSingleValueToBitFileBuffer coded.1.out_bit_buf code_sym (toU64 coded.2.1)
  match LOG_ON_ERROR_AND_RETURN w.1 (toU64 coded.2.1) with
  | some ret => (some ret, { coded.1 with out_bit_buf := w.2 })
  | none =>
    fillBufferNext (INTERN_BUFFER_LENGTH + 1)
      { coded.1 with out_bit_buf := w.2
                     internBufferHistory := lzHistory { coded.1 with out_bit_buf := w.2 } }

/-- The state in which the main loop of `EncodeLZMH` starts, when the first filling of the
ring buffer returned no error. -/
def encodeStart (internBuffer : List Nat) (list : List HUFFLIST)
    (in_bit_buf out_bit_buf : bit_file_buffer_t) : lzmh_encoder_t :=
  let f := fillBufferFirst (INTERN_BUFFER_LENGTH + 1)
    { in_bit_buf := in_bit_buf, out_bit_buf := out_bit_buf,
      offsets := [0, 0, 0, 0],
      list := list.map (fun h => { h with count := 0 }),
      internBuffer := internBuffer,
      internBufferWrite := 0, internBufferRead := 0, internBufferHistory := 0 }
  { f.2 with internBufferWrite :=
      if f.2.internBufferWrite ≥ INTERN_BUFFER_LENGTH
      then f.2.internBufferWrite - INTERN_BUFFER_LENGTH else f.2.internBufferWrite }

/-- The position in the ring buffer of the encoder that an index stands for. -/
def ringPos (p : Int) : Nat := (p % (INTERN_BUFFER_LENGTH : Int)).toNat

/-- The length of the match at the offset `o`: the number of leading bytes of the look-ahead at
`read`, at most `cap`, that are equal to the byte `o` positions before them. -/
def matchCount (internBuffer : List Nat) (read o cap : Nat) : Nat :=
  ((List.range cap).takeWhile (fun (j : Nat) =>
    decide (internBuffer.getD (ringPos ((read : Int) + (j : Int) - (o : Int))) 0
      = internBuffer.getD (ringPos ((read : Int) + (j : Int))) 0))).length

/-- The longest match over the offsets 1 to `maxoffset`, and 2 when none is longer. -/
def bestMatch (internBuffer : List Nat) (read maxoffset cap : Nat) : Nat :=
  ((List.range maxoffset).map (fun k => matchCount internBuffer read (k + 1) cap)).foldl max 2

/-- The state in which the `do` loop of `DecodeLZMH` starts. -/
def decodeStart (internBuffer : List Nat) (list : List HUFFLIST)
    (in_bit_buf out_bit_buf : bit_file_buffer_t) : lzmh_decoder_t :=
  { in_bit_buf := in_bit_buf, out_bit_buf := out_bit_buf,
    offsets := [0, 0, 0, 0],
    list := list.map (fun h => { h with count := 0 }),
    code_sym := 0, code_length := 0,
    internBuffer := internBuffer, internBufferPos := 0 }

/-- The occupied entries of a symbol list that form a prefix of it: the entries before the
first one with a count that is not positive. -/
def occupiedPrefix (list : List HUFFLIST) : List HUFFLIST :=
  list.takeWhile (fun h => decide (h.count > 0))

/-- The condition on the symbol list: it has `HUFF_LIST_LENGTH` entries, the occupied entries
form a prefix (the entries behind them have the count 0), hold pairwise distinct symbols, have
counts from 1 to `2 ^ 16 - 1` and are sorted by non-increasing count. -/
def HuffInv (list : List HUFFLIST) : Prop :=
  list.length = HUFF_LIST_LENGTH ∧
  (∀ h ∈ list.drop (occupiedPrefix list).length, h.count = 0) ∧
  ((occupiedPrefix list).map (fun h => h.symbol)).Nodup ∧
  (∀ h ∈ occupiedPrefix list, 1 ≤ h.count ∧ h.count ≤ 2 ^ 16 - 1) ∧
  ((occupiedPrefix list).map (fun h => h.count)).Pairwise (fun a b => a ≥ b)

instance (list : List HUFFLIST) : Decidable (HuffInv list) := by
  unfold HuffInv; infer_instance

/-- The condition `HuffInv` by positions, with `k` the number of occupied entries: the entries
from `k` on are free, and the entries before `k` hold distinct symbols, have counts from 1 to
`2 ^ 16 - 1` and are sorted by non-increasing count. -/
def HuffIdx (list : List HUFFLIST) (k : Nat) : Prop :=
  list.length = HUFF_LIST_LENGTH ∧ k ≤ HUFF_LIST_LENGTH ∧
  (∀ j, k ≤ j → (list.getD j default).count = 0) ∧
  (∀ a b, a < b → b < k → (list.getD a default).symbol ≠ (list.getD b default).symbol) ∧
  (∀ j, j < k → 1 ≤ (list.getD j default).count ∧ (list.getD j default).count ≤ 2 ^ 16 - 1) ∧
  (∀ a b, a < b → b < k → (list.getD a default).count ≥ (list.getD b default).count)

/-- The symbol list after the decoding of the list literal that names the entry `i`, as the
Huffman branch of `DecodeLZMH` changes it. -/
def lzTreeList (list : List HUFFLIST) (i : Nat) : List HUFFLIST :=
  if (list.getD i default).count < ((1 <<< 16 : Nat) : Int) - 1 then
    let length := (list.getD i default).count + 1
    let b := bubbleSymbolsDecoder (HUFF_LIST_LENGTH + 1) list i length
    b.1.set b.2 { symbol := (list.getD i default).symbol % 256,
                  count := ((length.toNat % 2 ^ 16 : Nat) : Int) }
  else list

/-- The symbol list after the decoding of the byte code of the symbol `i`, as the prefix-code
branch of `DecodeLZMH` changes it. -/
def lzByteList (list : List HUFFLIST) (i : Nat) : List HUFFLIST :=
  let length := findSymbol (HUFF_LIST_LENGTH + 1) list i 0
  if length < HUFF_LIST_LENGTH ∧
      (list.getD length default).count < ((1 <<< 16 : Nat) : Int) - 1 then
    let offset := (list.getD length default).count + 1
    let b := bubbleEntries (HUFF_LIST_LENGTH + 1) list length offset
    b.1.set b.2 { symbol := i % 256, count := offset }
  else list

/-- The entry that the list literal at the head of `code_sym` names. -/
def lzTreeIndex (s : lzmh_decoder_t) : Nat :=
  findTreeCode (TREE_LENGHT + 1) 0 s.code_sym s.code_length

/-- The symbol that the byte code at the head of `code_sym` holds. -/
def lzByteSymbol (s : lzmh_decoder_t) : Nat :=
  (s.code_sym >>> (CODE_BUFFER - (HUFF_BYTE_LENGTH + 2))) &&& ((1 <<< HUFF_BYTE_LENGTH) - 1)

/-! ### LZMH: the bit grammar

The codes of the items as the bit grammar of the format states them, to be compared with the
bits that an iteration of the main loop of `EncodeLZMH` writes. -/

/-- The prefix of a back-reference in the bit grammar: `0110`, `01110`, `011110` or `011111`
for an offset that is the most recent, second, third or fourth most recent one, and `010`
followed by the 7 bits of `offset - 1` for a new offset. -/
def grammarOffset (offsets : List Int) (offset : Nat) : List Bool :=
  if offsets.getD 0 0 = (offset : Int) then [false, true, true, false]
  else if offsets.getD 1 0 = (offset : Int) then [false, true, true, true, false]
  else if offsets.getD 2 0 = (offset : Int) then [false, true, true, true, true, false]
  else if offsets.getD 3 0 = (offset : Int) then [false, true, true, true, true, true]
  else [false, true, false] ++ toBits 7 (offset - 1)

/-- The length of a back-reference in the bit grammar: `0` and 3 bits for the lengths 3 to 10,
`10` and 3 bits for the lengths 11 to 18, `11` and 8 bits for the lengths 19 to 274. -/
def grammarLength (length : Nat) : List Bool :=
  if length < 11 then [false] ++ toBits 3 (length - 3)
  else if length < 19 then [true, false] ++ toBits 3 (length - 11)
  else [true, true] ++ toBits 8 (length - 19)

/-- The recent offsets after a back-reference at `offset`: the offset becomes the most recent
one; a new offset is put in front and the fourth one is dropped. -/
def grammarRecent (offsets : List Int) (offset : Nat) : List Int :=
  if offsets.getD 0 0 = (offset : Int) then offsets
  else if offsets.getD 1 0 = (offset : Int) then
    [(offset : Int), offsets.getD 0 0, offsets.getD 2 0, offsets.getD 3 0]
  else if offsets.getD 2 0 = (offset : Int) then
    [(offset : Int), offsets.getD 0 0, offsets.getD 1 0, offsets.getD 3 0]
  else [(offset : Int), offsets.getD 0 0, offsets.getD 1 0, offsets.getD 2 0]

/-- The byte code of a literal in the bit grammar: `00` and the 8 bits of the byte. -/
def grammarByte (byte : Nat) : List Bool := [false, false] ++ toBits 8 byte

/-- The list code of a literal in the bit grammar: the bits of the entry `i` of the code
table. -/
def grammarListCode (i : Nat) : List Bool :=
  toBits (tree.getD i default).length (tree.getD i default).code

/-! ## Theorems -/

set_option maxRecDepth 1000000

/-! ## Byte buffer -/

theorem moveToFront_eq (buf : List Nat) (start : Nat) :
    ∀ n, start + n ≤ buf.length →
      moveToFront buf start n = (buf.drop start).take n ++ buf.drop n := by
  intro n
  induction n with
  | zero => intro _; simp [moveToFront]
  | succ n ih =>
    intro h
    have ih' := ih (by omega)
    unfold moveToFront at ih' ⊢
    rw [List.range_succ, List.foldl_append, ih']
    simp only [List.foldl_cons, List.foldl_nil]
    have hA : ((buf.drop start).take n).length = n := by
      simp [List.length_take, List.length_drop]; omega
    have hn : n < buf.length := by omega
    rw [List.getD_append_right _ _ _ _ (by omega)]
    rw [hA]
    have e1 : start + n - n = start := by omega
    rw [e1, List.set_append_right _ _ (by omega), hA, Nat.sub_self]
    have e2 : (List.drop n buf).getD start 0 = buf.getD (start + n) 0 := by
      simp [List.getD_eq_getElem?_getD, List.getElem?_drop, Nat.add_comm]
    have e3 : List.drop n buf = buf.getD n 0 :: List.drop (n + 1) buf := by
      rw [List.getD_eq_getElem _ _ hn]
      exact List.drop_eq_getElem_cons hn
    rw [e2]
    conv_lhs => rw [e3]
    simp only [List.set_cons_zero]
    have e4 : List.take (n + 1) (List.drop start buf)
        = List.take n (List.drop start buf) ++ [buf.getD (start + n) 0] := by
      rw [List.take_succ]
      congr 1
      have : start + n < buf.length := by omega
      simp [List.getElem?_drop, List.getD_eq_getElem _ _ this, List.getElem?_eq_getElem this]
    rw [e4]
    simp

theorem live_length (b : buffer_t) (h : b.WF) :
    b.live.length = (GetUsedBufferSize b).toNat := by
  obtain ⟨h1, h2, h3, h4, h5, h6⟩ := h
  simp only [buffer_t.live, GetUsedBufferSize, List.length_take, List.length_drop]
  omega

theorem live_eq_nil_iff (b : buffer_t) (h : b.WF) :
    b.live = [] ↔ GetUsedBufferSize b = 0 := by
  rw [← List.length_eq_zero, live_length b h]
  obtain ⟨h1, h2, h3, h4, h5, h6⟩ := h
  simp only [GetUsedBufferSize]
  omega

theorem PeekBuffer_spec (b : buffer_t) (k : Nat) (h : b.WF) (hk : k ≤ MAX_USABLE_SIZE) :
    PeekBuffer b k = (((min k b.live.length : Nat) : Int), b.live.take k) := by
  have hl := live_length b h
  obtain ⟨h1, h2, h3, h4, h5, h6⟩ := h
  simp only [GetUsedBufferSize] at hl
  simp only [PeekBuffer, GetUsedBufferSize, buffer_t.live] at hl ⊢
  rw [if_neg (by omega)]
  by_cases hc : b.buffer_end - b.buffer_start + 1 < (k : Int)
  · simp only [if_pos hc]
    rw [Prod.mk.injEq]
    constructor
    · omega
    · rw [List.take_take]
      congr 1
      omega
  · simp only [if_neg hc]
    rw [Prod.mk.injEq]
    constructor
    · omega
    · rw [List.take_take]
      congr 1
      simp only [Int.toNat_ofNat]
      omega

theorem ReadBuffer_spec (b : buffer_t) (k : Nat) (h : b.WF) (hk : k ≤ MAX_USABLE_SIZE) :
    (ReadBuffer b k).1 = (((min k b.live.length : Nat) : Int), b.live.take k) ∧
    (ReadBuffer b k).2.WF ∧ (ReadBuffer b k).2.live = b.live.drop k ∧
    (ReadBuffer b k).2.buffer_size = b.buffer_size := by
  have hl := live_length b h
  have hp := PeekBuffer_spec b k h hk
  obtain ⟨h1, h2, h3, h4, h5, h6⟩ := h
  simp only [GetUsedBufferSize] at hl
  unfold ReadBuffer
  simp only [hp]
  obtain ⟨m, hm⟩ : ∃ m, m = min k b.live.length := ⟨_, rfl⟩
  have hm1 : m ≤ k := by rw [hm]; exact Nat.min_le_left _ _
  have hm2 : m ≤ b.live.length := by rw [hm]; exact Nat.min_le_right _ _
  have hm3 : m = k ∨ m = b.live.length := by
    rcases Nat.le_total k b.live.length with hkl | hkl
    · left; rw [hm]; exact Nat.min_eq_left hkl
    · right; rw [hm]; exact Nat.min_eq_right hkl
  rw [← hm]
  by_cases hc : (m : Int) > 0
  · simp only [if_pos hc]
    refine ⟨trivial, ?_, ?_, trivial⟩
    · dsimp only [buffer_t.WF]
      exact ⟨h1, h2, h3, by omega, by omega, h6⟩
    · rw [hl] at hm2 hm3
      simp only [buffer_t.live, GetUsedBufferSize]
      rw [List.drop_take, List.drop_drop]
      rcases hm3 with hm3 | hm3
      · subst hm3
        congr 1
        · omega
        · congr 1
          omega
      · have e1 : (b.buffer_end - (b.buffer_start + (m : Int)) + 1).toNat = 0 := by omega
        have e2 : (b.buffer_end - b.buffer_start + 1).toNat - k = 0 := by omega
        rw [e1, e2]
        simp
  · simp only [if_neg hc]
    refine ⟨trivial, ⟨h1, h2, h3, h4, h5, h6⟩, ?_, trivial⟩
    have : k = 0 ∨ b.live.length = 0 := by omega
    rcases this with h0 | h0
    · subst h0; simp
    · rw [List.length_eq_zero] at h0
      rw [h0]; simp

theorem memcpy_length (dst : List Nat) (off : Nat) (src : List Nat)
    (h : off + src.length ≤ dst.length) : (memcpy dst off src).length = dst.length := by
  simp only [memcpy, List.length_append, List.length_take, List.length_drop]
  omega

theorem memcpy_take (dst : List Nat) (off : Nat) (src : List Nat) (h : off ≤ dst.length) :
    (memcpy dst off src).take (off + src.length) = dst.take off ++ src := by
  have : (dst.take off ++ src).length = off + src.length := by
    simp [List.length_take]; omega
  simp only [memcpy]
  rw [← this, List.take_left']
  rfl

theorem RefillBuffer_none (b : buffer_t) (h : b.WF) (ci : FILE) :
    (RefillBuffer b (none : Option (refill_function_t FILE)) ci).1 = 0 ∧
    (RefillBuffer b (none : Option (refill_function_t FILE)) ci).2.1.WF ∧
    (RefillBuffer b (none : Option (refill_function_t FILE)) ci).2.1.live = b.live ∧
    (RefillBuffer b (none : Option (refill_function_t FILE)) ci).2.1.buffer_size = b.buffer_size ∧
    (RefillBuffer b (none : Option (refill_function_t FILE)) ci).2.1.buffer_start = 0 ∧
    (RefillBuffer b (none : Option (refill_function_t FILE)) ci).2.2 = ci := by
  obtain ⟨h1, h2, h3, h4, h5, h6⟩ := h
  have hmv := moveToFront_eq b.buffer b.buffer_start.toNat (GetUsedBufferSize b).toNat
    (by simp only [GetUsedBufferSize]; omega)
  simp only [RefillBuffer]
  refine ⟨rfl, ?_, ?_, trivial, trivial, trivial⟩
  · dsimp only [buffer_t.WF]
    refine ⟨?_, h2, h3, le_refl _, ?_, ?_⟩
    · rw [hmv]
      simp only [GetUsedBufferSize, List.length_append, List.length_take, List.length_drop]
      omega
    · simp only [GetUsedBufferSize]; omega
    · simp only [GetUsedBufferSize]; omega
  · simp only [buffer_t.live, GetUsedBufferSize] at hmv ⊢
    rw [hmv]
    simp only [Int.toNat_zero, List.drop_zero]
    have e : (b.buffer_end - b.buffer_start + 1 - 1 - 0 + 1).toNat
        = (List.take (b.buffer_end - b.buffer_start + 1).toNat
            (List.drop b.buffer_start.toNat b.buffer)).length := by
      simp only [List.length_take, List.length_drop]
      omega
    rw [e, List.take_left']
    rfl

theorem RefillBuffer_file (b : buffer_t) (h : b.WF) (ci : FILE)
    (r : Int × buffer_t × FILE) (hr : RefillBuffer b (some RefillFromFile) ci = r) :
    r.1 = 0 ∧ r.2.1.WF ∧
    r.2.1.live = b.live ++ ci.input.take (b.buffer_size - b.live.length) ∧
    r.2.1.buffer_size = b.buffer_size ∧ r.2.1.buffer_start = 0 ∧
    r.2.2.input = ci.input.drop (b.buffer_size - b.live.length) ∧
    r.2.2.output = ci.output := by
  have hn := RefillBuffer_none b h ci
  have hl := live_length b h
  obtain ⟨h1, h2, h3, h4, h5, h6⟩ := h
  simp only [RefillBuffer] at hn
  obtain ⟨-, hwf, hlive, -, -, -⟩ := hn
  obtain ⟨g1, g2, g3, g4, g5, g6⟩ := hwf
  dsimp only at g1 g2 g3 g4 g5 g6
  subst hr
  simp only [GetUsedBufferSize] at hl
  rw [hl]
  have hmax : ¬ (b.buffer_size - (b.buffer_end - b.buffer_start + 1).toNat > MAX_USABLE_SIZE) := by
    omega
  simp only [RefillBuffer, RefillFromFile, GetUsedBufferSize, if_neg hmax] at g1 hlive ⊢
  obtain ⟨T, hT⟩ : ∃ T, T = ci.input.take (b.buffer_size - (b.buffer_end - b.buffer_start + 1).toNat) :=
    ⟨_, rfl⟩
  have hTl : T.length ≤ b.buffer_size - (b.buffer_end - b.buffer_start + 1).toNat := by
    rw [hT, List.length_take]; omega
  rw [← hT]
  by_cases hc : (T.length : Int) > 0
  · simp only [if_pos hc]
    refine ⟨rfl, ?_, ?_, trivial, trivial, trivial, trivial⟩
    · dsimp only [buffer_t.WF]
      refine ⟨?_, h2, h3, le_refl _, by omega, by omega⟩
      rw [memcpy_length]
      · exact g1
      · rw [g1, List.length_take]; simp only [Int.toNat_ofNat]; omega
    · simp only [buffer_t.live, GetUsedBufferSize, Int.toNat_zero, List.drop_zero] at hlive ⊢
      simp only [Int.toNat_ofNat, List.take_length]
      have e : (b.buffer_end - b.buffer_start + 1 - 1 + (T.length : Int) - 0 + 1).toNat
          = (b.buffer_end - b.buffer_start + 1 - 1 + 1).toNat + T.length := by omega
      rw [e, memcpy_take _ _ _ (by rw [g1]; omega)]
      congr 1
      rw [← hlive]
      congr 1
      omega
  · simp only [if_neg hc]
    have hT0 : T = [] := by
      rw [← List.length_eq_zero]; omega
    refine ⟨by omega, ⟨g1, g2, g3, g4, g5, g6⟩, ?_, trivial, trivial, trivial, trivial⟩
    rw [hT0, List.append_nil]
    exact hlive

/-! ## File buffer, reading -/

theorem RefillBufferFromFile_spec (fb : file_buffer_t) (h : fb.io_buffer.WF)
    (r : Int × file_buffer_t) (hr : RefillBufferFromFile fb = r) :
    r.1 = 0 ∧ r.2.io_buffer.WF ∧ r.2.mode = fb.mode ∧ r.2.type = fb.type ∧
    r.2.remaining = fb.remaining ∧ r.2.io_buffer.buffer_size = fb.io_buffer.buffer_size ∧
    r.2.base_file.output = fb.base_file.output ∧
    r.2.io_buffer.live = fb.io_buffer.live ++
      (if fb.type = FBT_FILE
        then fb.base_file.input.take (fb.io_buffer.buffer_size - fb.io_buffer.live.length) else []) := by
  subst hr
  unfold RefillBufferFromFile
  by_cases ht : fb.type = FBT_FILE
  · rw [if_pos ht, if_pos ht]
    obtain ⟨a1, a2, a3, a4, a5, a6, a7⟩ :=
      RefillBuffer_file fb.io_buffer h fb.base_file _ rfl
    refine ⟨a1, a2, rfl, rfl, ?_, a4, a7, a3⟩
    simp only [file_buffer_t.remaining, if_pos ht]
    rw [a3, a6, List.append_assoc, List.take_append_drop]
  · rw [if_neg ht, if_neg ht]
    obtain ⟨a1, a2, a3, a4, a5, a6⟩ := RefillBuffer_none fb.io_buffer h fb.base_file
    refine ⟨a1, a2, rfl, rfl, ?_, a4, by dsimp only; rw [a6], by dsimp only; rw [a3]; simp⟩
    simp only [file_buffer_t.remaining, if_neg ht]
    rw [a3]

theorem remaining_ne_nil_of_live (fb : file_buffer_t) (h : fb.io_buffer.live ≠ []) :
    fb.remaining ≠ [] := by
  simp only [file_buffer_t.remaining]
  intro hh
  exact h (List.append_eq_nil.mp hh).1

theorem EndOfFileBuffer_spec (fb : file_buffer_t) (hm : fb.mode = FBM_READING)
    (h : fb.io_buffer.WF) (r : Int × file_buffer_t) (hr : EndOfFileBuffer fb = r) :
    r.1 = (if fb.remaining = [] then 1 else 0) ∧ r.2.io_buffer.WF ∧ r.2.mode = fb.mode ∧
    r.2.type = fb.type ∧ r.2.remaining = fb.remaining ∧
    r.2.io_buffer.buffer_size = fb.io_buffer.buffer_size ∧
    r.2.base_file.output = fb.base_file.output ∧
    (fb.remaining ≠ [] → r.2.io_buffer.live ≠ []) := by
  subst hr
  have hnil := live_eq_nil_iff fb.io_buffer h
  unfold EndOfFileBuffer
  rw [if_neg (by simp [hm])]
  by_cases hu : GetUsedBufferSize fb.io_buffer = 0
  · rw [if_pos hu]
    obtain ⟨a1, a2, a3, a4, a5, a6, a7, a8⟩ := RefillBufferFromFile_spec fb h _ rfl
    have hnil2 := live_eq_nil_iff _ a2
    have hl0 : fb.io_buffer.live = [] := hnil.mpr hu
    have hkey : (RefillBufferFromFile fb).2.io_buffer.live = [] ↔ fb.remaining = [] := by
      rw [a8, hl0]
      simp only [file_buffer_t.remaining, hl0, List.nil_append, List.length_nil, Nat.sub_zero]
      by_cases ht : fb.type = FBT_FILE
      · simp only [if_pos ht]
        have := h.2.1
        rw [List.take_eq_nil_iff]
        constructor
        · rintro (h0 | h0)
          · omega
          · exact h0
        · intro h0; exact Or.inr h0
      · simp only [if_neg ht]
    simp only [a1, NO_ERROR, ne_eq, not_true_eq_false, if_false]
    refine ⟨?_, a2, a3, a4, a5, a6, a7, ?_⟩
    · by_cases hz : GetUsedBufferSize (RefillBufferFromFile fb).2.io_buffer = 0
      · rw [if_pos hz, if_pos (hkey.mp (hnil2.mpr hz))]
      · rw [if_neg hz, if_neg (fun hh => hz (hnil2.mp (hkey.mpr hh)))]
    · intro hne hh
      exact hne (hkey.mp hh)
  · rw [if_neg hu, if_neg hu]
    have hl : fb.io_buffer.live ≠ [] := fun hh => hu (hnil.mp hh)
    rw [if_neg (remaining_ne_nil_of_live fb hl)]
    exact ⟨rfl, h, rfl, rfl, rfl, rfl, rfl, fun _ => hl⟩

theorem remaining_with_io (fb : file_buffer_t) (io : buffer_t) :
    ({ fb with io_buffer := io } : file_buffer_t).remaining
      = io.live ++ (if fb.type = FBT_FILE then fb.base_file.input else []) := rfl

theorem ReadFileBufferLoop_spec : ∀ (fuel : Nat) (fb : file_buffer_t) (n read : Nat) (out : List Nat),
    fb.mode = FBM_READING → fb.io_buffer.WF → n ≤ MAX_USABLE_SIZE → read ≤ n → out.length = read →
    2 * (n - read) + (if fb.io_buffer.live = [] then 1 else 0) < fuel →
    ∀ r, ReadFileBufferLoop fuel fb n read 0 out = r →
      r.1 = (((read + min (n - read) fb.remaining.length : Nat) : Int),
             out ++ fb.remaining.take (n - read)) ∧
      r.2.io_buffer.WF ∧ r.2.mode = fb.mode ∧ r.2.type = fb.type ∧
      r.2.remaining = fb.remaining.drop (n - read) ∧
      r.2.io_buffer.buffer_size = fb.io_buffer.buffer_size ∧
      r.2.base_file.output = fb.base_file.output := by
  intro fuel
  induction fuel with
  | zero => intro fb n read out _ _ _ _ _ hf; omega
  | succ fuel ih =>
    intro fb n read out hm hwf hn hrn hout hf r hr
    subst hr
    unfold ReadFileBufferLoop
    by_cases h0 : n - read > 0
    · rw [if_pos h0]
      obtain ⟨b1, b2, b3, b4⟩ := ReadBuffer_spec fb.io_buffer (n - read) hwf (by omega)
      have hout1 : out.take read ++ (ReadBuffer fb.io_buffer (n - read)).1.2
          = out ++ fb.io_buffer.live.take (n - read) := by
        rw [b1, ← hout, List.take_length]
      have hrem : fb.remaining = fb.io_buffer.live ++
          (if fb.type = FBT_FILE then fb.base_file.input else []) := rfl
      by_cases hfull : n - read ≤ fb.io_buffer.live.length
      · -- the buffer holds everything that is asked for
        have e1 : (ReadBuffer fb.io_buffer (n - read)).1.1 = ((n - read : Nat) : Int) := by
          rw [b1, Nat.min_eq_left hfull]
        rw [if_neg (by rw [e1]; simp)]
        refine ⟨?_, b2, rfl, rfl, ?_, b4, rfl⟩
        · rw [hout1, Prod.mk.injEq]
          constructor
          · have : n - read ≤ fb.remaining.length := by
              rw [hrem, List.length_append]; omega
            rw [Nat.min_eq_left this]
            omega
          · rw [hrem, List.take_append_of_le_length hfull]
        · rw [remaining_with_io, b3, hrem, List.drop_append_of_le_length hfull]
      · -- the buffer runs dry
        have hlt : fb.io_buffer.live.length < n - read := by omega
        have e1 : (ReadBuffer fb.io_buffer (n - read)).1.1 = ((fb.io_buffer.live.length : Nat) : Int) := by
          rw [b1, Nat.min_eq_right (by omega)]
        have e2 : fb.io_buffer.live.take (n - read) = fb.io_buffer.live :=
          List.take_of_length_le (by omega)
        have e3 : fb.io_buffer.live.drop (n - read) = [] :=
          List.drop_of_length_le (by omega)
        rw [if_pos (by rw [e1]; omega)]
        rw [hout1, e2]
        obtain ⟨fb1, hfb1⟩ : ∃ fb1 : file_buffer_t,
            fb1 = { fb with io_buffer := (ReadBuffer fb.io_buffer (n - read)).2 } := ⟨_, rfl⟩
        rw [← hfb1]
        have hfb1wf : fb1.io_buffer.WF := by rw [hfb1]; exact b2
        have hfb1m : fb1.mode = FBM_READING := by rw [hfb1]; exact hm
        have hfb1t : fb1.type = fb.type := by rw [hfb1]
        have hfb1s : fb1.io_buffer.buffer_size = fb.io_buffer.buffer_size := by rw [hfb1]; exact b4
        have hfb1o : fb1.base_file.output = fb.base_file.output := by rw [hfb1]
        have hfb1r : fb1.remaining = fb.remaining.drop fb.io_buffer.live.length := by
          rw [hfb1, remaining_with_io, b3, e3, hrem, List.drop_left]
          rfl
        by_cases hz : fb.io_buffer.live.length = 0
        · -- nothing was buffered: end-of-file test, then a refill
          have hl0 : fb.io_buffer.live = [] := List.length_eq_zero.mp hz
          rw [hz, List.drop_zero] at hfb1r
          have e1z : (ReadBuffer fb.io_buffer (n - read)).1.1 = 0 := by rw [e1, hz]; rfl
          simp only [e1z, true_and, if_true]
          obtain ⟨c1, c2, c3, c4, c5, c6, c7, c8⟩ :=
            EndOfFileBuffer_spec fb1 hfb1m hfb1wf _ rfl
          rw [hfb1r] at c1 c5 c8
          by_cases hnil : fb.remaining = []
          · rw [if_pos hnil] at c1
            rw [if_pos (by rw [c1]; simp)]
            refine ⟨?_, c2, by rw [c3, hfb1m, hm], by rw [c4, hfb1t], ?_, by rw [c6, hfb1s],
              by rw [c7, hfb1o]⟩
            · simp [hnil, hl0]
            · rw [c5, hnil]; simp
          · rw [if_neg hnil] at c1
            rw [if_neg (by rw [c1]; simp)]
            have hlt0 : ¬ ((0 : Int) > 0) := by omega
            simp only [hlt0, if_false]
            obtain ⟨d1, d2, d3, d4, d5, d6, d7, d8⟩ :=
              RefillBufferFromFile_spec (EndOfFileBuffer fb1).2 c2 _ rfl
            rw [if_neg (by rw [d1]; simp [NO_ERROR])]
            rw [d1]
            have hlive : (RefillBufferFromFile (EndOfFileBuffer fb1).2).2.io_buffer.live ≠ [] := by
              rw [d8]
              intro hh
              exact c8 hnil (List.append_eq_nil.mp hh).1
            obtain ⟨i1, i2, i3, i4, i5, i6, i7⟩ := ih (RefillBufferFromFile (EndOfFileBuffer fb1).2).2 n read
              (out ++ fb.io_buffer.live) (by rw [d3, c3, hfb1m]) d2 hn hrn (by simp [hl0, hout])
              (by rw [if_neg hlive]; rw [if_pos hl0] at hf; omega) _ rfl
            rw [d5, c5] at i1 i5
            refine ⟨?_, i2, by rw [i3, d3, c3, hfb1m, hm], by rw [i4, d4, c4, hfb1t], i5,
              by rw [i6, d6, c6, hfb1s], by rw [i7, d7, c7, hfb1o]⟩
            rw [i1, hl0, List.append_nil]
        · -- some bytes were delivered: account for them and refill
          have hne : ¬ ((fb.io_buffer.live.length : Int) = 0) := by omega
          have hpos : (fb.io_buffer.live.length : Int) > 0 := by omega
          simp only [e1, hne, false_and, if_false, hpos, if_true, Int.toNat_ofNat]
          obtain ⟨d1, d2, d3, d4, d5, d6, d7, d8⟩ :=
            RefillBufferFromFile_spec fb1 hfb1wf _ rfl
          rw [if_neg (by rw [d1]; simp [NO_ERROR])]
          rw [d1]
          obtain ⟨i1, i2, i3, i4, i5, i6, i7⟩ := ih (RefillBufferFromFile fb1).2 n
            (read + fb.io_buffer.live.length)
            (out ++ fb.io_buffer.live) (by rw [d3, hfb1m]) d2 hn (by omega)
            (by rw [List.length_append, hout])
            (by split <;> omega) _ rfl
          rw [d5, hfb1r] at i1 i5
          refine ⟨?_, i2, by rw [i3, d3, hfb1m, hm], by rw [i4, d4, hfb1t], ?_,
            by rw [i6, d6, hfb1s], by rw [i7, d7, hfb1o]⟩
          · rw [i1, Prod.mk.injEq]
            constructor
            · rw [List.length_drop]
              congr 1
              rcases Nat.le_total (n - read) fb.remaining.length with hle | hle
              · rw [Nat.min_eq_left hle, Nat.min_eq_left (by omega)]; omega
              · rw [Nat.min_eq_right hle, Nat.min_eq_right (by omega)]
                have : fb.io_buffer.live.length ≤ fb.remaining.length := by
                  rw [hrem, List.length_append]; omega
                omega
            · rw [List.append_assoc]
              congr 1
              have e5 : n - read = fb.io_buffer.live.length + (n - (read + fb.io_buffer.live.length)) := by
                omega
              conv_rhs => rw [e5, List.take_add]
              congr 1
              rw [hrem, List.take_left]
          · rw [i5, List.drop_drop]
            congr 1
            omega
    · rw [if_neg h0]
      have e : n - read = 0 := by omega
      rw [e]
      refine ⟨?_, hwf, rfl, rfl, rfl, rfl, rfl⟩
      simp

theorem ReadFileBuffer_correct (fb : file_buffer_t) (n : Nat) (hm : fb.mode = FBM_READING)
    (hwf : fb.io_buffer.WF) (hn : n ≤ MAX_USABLE_SIZE) :
    (ReadFileBuffer fb n).1 = (((min n fb.remaining.length : Nat) : Int), fb.remaining.take n) ∧
    (ReadFileBuffer fb n).2.io_buffer.WF ∧ (ReadFileBuffer fb n).2.mode = fb.mode ∧
    (ReadFileBuffer fb n).2.type = fb.type ∧
    (ReadFileBuffer fb n).2.remaining = fb.remaining.drop n ∧
    (ReadFileBuffer fb n).2.io_buffer.buffer_size = fb.io_buffer.buffer_size ∧
    (ReadFileBuffer fb n).2.base_file.output = fb.base_file.output := by
  unfold ReadFileBuffer
  rw [if_neg (by simp [hm]), if_neg (by omega)]
  have := ReadFileBufferLoop_spec (2 * n + 2) fb n 0 [] hm hwf hn (Nat.zero_le _) rfl
    (by split <;> omega) _ rfl
  simpa using this

/-! ## Byte buffer and file buffer, writing -/

theorem toU64_of_nonneg (x : Int) (h0 : 0 ≤ x) (h1 : x < 2 ^ 64) : toU64 x = x.toNat := by
  unfold toU64
  rw [Int.emod_eq_of_lt h0 h1]

theorem toU64_neg_one : toU64 (-1) = 2 ^ 64 - 1 := by decide

theorem MAX_USABLE_SIZE_eq : MAX_USABLE_SIZE = 2 ^ 63 - 1 := by decide

theorem take_drop_splice (buf X rest : List Nat) (S U : Nat) (h : S + U ≤ buf.length) :
    List.take (U + X.length) (List.drop S (List.take (S + U) buf ++ X ++ rest))
      = List.take U (List.drop S buf) ++ X := by
  have e1 : (List.take (S + U) buf).length = S + U := by
    rw [List.length_take]; omega
  rw [List.append_assoc, List.drop_append_of_le_length (by omega)]
  rw [List.drop_take, Nat.add_sub_cancel_left, ← List.append_assoc]
  have e2 : (List.take U (List.drop S buf) ++ X).length = U + X.length := by
    rw [List.length_append, List.length_take, List.length_drop]; omega
  rw [← e2, List.take_left']
  rfl

theorem WriteBuffer_spec (b : buffer_t) (input : List Nat) (n : Nat) (h : b.WF)
    (hs : b.buffer_start = 0 ∨ b.buffer_start = b.buffer_size)
    (hn : n ≤ MAX_USABLE_SIZE) (hin : n ≤ input.length) :
    (WriteBuffer b input n).1 = ((min (b.buffer_size - b.live.length) n : Nat) : Int) ∧
    (WriteBuffer b input n).2.WF ∧
    (WriteBuffer b input n).2.live = b.live ++ input.take (min (b.buffer_size - b.live.length) n) ∧
    (WriteBuffer b input n).2.buffer_size = b.buffer_size ∧
    ((b.buffer_start = 0 ∨ 0 < min (b.buffer_size - b.live.length) n) →
      (WriteBuffer b input n).2.buffer_start = 0) := by
  have hl := live_length b h
  obtain ⟨h1, h2, h3, h4, h5, h6⟩ := h
  have hM := MAX_USABLE_SIZE_eq
  simp only [GetUsedBufferSize] at hl
  obtain ⟨m, hm⟩ : ∃ m, m = min (b.buffer_size - b.live.length) n := ⟨_, rfl⟩
  have hm1 : m ≤ n := by rw [hm]; exact Nat.min_le_right _ _
  have hm2 : m ≤ b.buffer_size - b.live.length := by rw [hm]; exact Nat.min_le_left _ _
  have hm3 : m = n ∨ m = b.buffer_size - b.live.length := by
    rcases Nat.le_total (b.buffer_size - b.live.length) n with hkl | hkl
    · right; rw [hm]; exact Nat.min_eq_left hkl
    · left; rw [hm]; exact Nat.min_eq_right hkl
  rw [← hm]
  have hsize : toU64 (if ((GetBufferSize b : Nat) : Int) - GetUsedBufferSize b < (n : Int)
      then ((GetBufferSize b : Nat) : Int) - GetUsedBufferSize b else (n : Int)) = m := by
    simp only [GetBufferSize, GetUsedBufferSize]
    split
    · rw [toU64_of_nonneg _ (by omega) (by omega)]; omega
    · rw [toU64_of_nonneg _ (by omega) (by omega)]; omega
  have hlen : (input.take m).length = m := by rw [List.length_take]; omega
  -- the state after the optional compaction
  obtain ⟨b1, hb1⟩ : ∃ b1 : buffer_t, b1 =
      (if (toU64 b.buffer_end + m) % 2 ^ 64 ≥ b.buffer_size then
        { b with
            buffer := if GetUsedBufferSize b > 0
              then memcpy b.buffer 0 (strayBytes b (GetUsedBufferSize b).toNat) else b.buffer,
            buffer_start := 0, buffer_end := GetUsedBufferSize b - 1 }
      else b) := ⟨_, rfl⟩
  have hw : WriteBuffer b input n = ((m : Int),
      { b1 with buffer := memcpy b1.buffer (b1.buffer_end + 1).toNat (input.take m),
                buffer_end := b1.buffer_end + m }) := by
    unfold WriteBuffer
    simp only [hsize]
    rw [if_neg (by omega), ← hb1]
  rw [hw]
  clear hw hsize
  have key : b1.buffer = b.buffer ∧ b1.buffer_size = b.buffer_size ∧
      b1.buffer_end - b1.buffer_start = b.buffer_end - b.buffer_start ∧
      (b1.buffer_start = 0 ∨ (b1.buffer_start = b.buffer_start ∧ m = 0)) ∧
      (b.buffer_start = 0 → b1.buffer_start = 0) := by
    rw [hb1]
    simp only [GetUsedBufferSize]
    split
    · rename_i hc
      have hu : ¬ (b.buffer_end - b.buffer_start + 1 > 0) := by
        intro hpos
        rcases hs with hs | hs
        · rw [toU64_of_nonneg _ (by omega) (by omega)] at hc
          omega
        · omega
      rw [if_neg hu]
      refine ⟨rfl, rfl, ?_, Or.inl rfl, fun _ => rfl⟩
      dsimp only
      omega
    · rename_i hc
      refine ⟨rfl, rfl, rfl, ?_, fun h => h⟩
      rcases hs with hs | hs
      · exact Or.inl hs
      · right
        refine ⟨rfl, ?_⟩
        have he : b.buffer_end = (b.buffer_size : Int) - 1 := by omega
        rw [he, toU64_of_nonneg _ (by omega) (by omega)] at hc
        omega
  obtain ⟨k1, k2, k3, k4, k5⟩ := key
  clear hb1 hm hm3 hM
  have hst : b1.buffer_start.toNat + (b.buffer_end - b.buffer_start + 1).toNat + m ≤ b.buffer_size := by
    rcases k4 with k4 | ⟨k4, k4'⟩
    · rw [k4]; omega
    · rw [k4]; omega
  have hst0 : 0 ≤ b1.buffer_start := by
    rcases k4 with k4 | ⟨k4, k4'⟩
    · rw [k4]
    · rw [k4]; exact h4
  refine ⟨rfl, ?_, ?_, k2, ?_⟩
  · dsimp only [buffer_t.WF]
    refine ⟨?_, by rw [k2]; exact h2, by rw [k2]; exact h3, hst0, by omega, by rw [k2]; omega⟩
    rw [memcpy_length, k1, k2, h1]
    rw [k1, h1, hlen]
    omega
  · simp only [buffer_t.live, GetUsedBufferSize, memcpy, k1]
    have e1 : (b1.buffer_end + (m : Int) - b1.buffer_start + 1).toNat
        = (b.buffer_end - b.buffer_start + 1).toNat + m := by omega
    have e2 : (b1.buffer_end + 1).toNat
        = b1.buffer_start.toNat + (b.buffer_end - b.buffer_start + 1).toNat := by omega
    rw [e1, e2]
    have hU : b1.buffer_start = b.buffer_start ∨ (b.buffer_end - b.buffer_start + 1).toNat = 0 := by
      rcases k4 with k4 | ⟨k4, k4'⟩
      · rcases hs with hs | hs
        · left; rw [k4, hs]
        · right; omega
      · left; exact k4
    have := take_drop_splice b.buffer (input.take m) 
      (List.drop (b1.buffer_start.toNat + (b.buffer_end - b.buffer_start + 1).toNat + (input.take m).length) b.buffer)
      b1.buffer_start.toNat (b.buffer_end - b.buffer_start + 1).toNat (by omega)
    rw [hlen] at this ⊢
    rw [this]
    rcases hU with hU | hU
    · rw [hU]
    · rw [hU]; simp
  · intro hh
    rcases hh with hh | hh
    · exact k5 hh
    · rcases k4 with k4 | ⟨k4, k4'⟩
      · exact k4
      · omega

theorem ResizeBuffer_spec (b : buffer_t) (new_size : Nat) (h : b.WF)
    (h1 : b.live.length ≤ new_size) (h2 : 0 < new_size) (h3 : new_size ≤ MAX_USABLE_SIZE) :
    (ResizeBuffer b new_size).1 = 0 ∧ (ResizeBuffer b new_size).2.WF ∧
    (ResizeBuffer b new_size).2.live = b.live ∧ (ResizeBuffer b new_size).2.buffer_start = 0 ∧
    (ResizeBuffer b new_size).2.buffer_size = new_size := by
  have hl := live_length b h
  obtain ⟨g1, g2, g3, g4, g5, g6⟩ := h
  simp only [GetUsedBufferSize] at hl
  have hw : ResizeBuffer b new_size = (NO_ERROR,
      { b with buffer := memcpy (List.replicate new_size 0) 0 b.live, buffer_size := new_size,
               buffer_start := 0, buffer_end := b.buffer_end - b.buffer_start + 1 - 1 }) := by
    unfold ResizeBuffer
    rw [if_neg (by omega), if_neg (by omega)]
    rfl
  rw [hw]
  refine ⟨rfl, ?_, ?_, rfl, rfl⟩
  · dsimp only [buffer_t.WF]
    refine ⟨?_, h2, h3, le_refl _, by omega, by omega⟩
    rw [memcpy_length _ _ _ (by rw [List.length_replicate]; omega), List.length_replicate]
  · have := memcpy_take (List.replicate new_size 0) 0 b.live (Nat.zero_le _)
    simp only [Nat.zero_add, List.take_zero, List.nil_append] at this
    simp only [buffer_t.live, GetUsedBufferSize, Int.toNat_zero, List.drop_zero] at this ⊢
    have e : (b.buffer_end - b.buffer_start + 1 - 1 - 0 + 1).toNat
        = (List.take (b.buffer_end - b.buffer_start + 1).toNat
            (List.drop b.buffer_start.toNat b.buffer)).length := by
      simp only [List.length_take, List.length_drop]
      omega
    rw [e, this]

theorem FlushBufferToFile_spec (fb : file_buffer_t) (h : fb.io_buffer.WF) (ht : fb.type = FBT_FILE) :
    (FlushBufferToFile fb).1 = 0 ∧ (FlushBufferToFile fb).2.io_buffer.WF ∧
    (FlushBufferToFile fb).2.io_buffer.live = [] ∧
    (FlushBufferToFile fb).2.base_file.output = fb.base_file.output ++ fb.io_buffer.live ∧
    (FlushBufferToFile fb).2.base_file.input = fb.base_file.input ∧
    (FlushBufferToFile fb).2.mode = fb.mode ∧ (FlushBufferToFile fb).2.type = fb.type ∧
    (FlushBufferToFile fb).2.io_buffer.buffer_size = fb.io_buffer.buffer_size ∧
    (FlushBufferToFile fb).2.io_buffer.buffer_end = fb.io_buffer.buffer_end ∧
    (FlushBufferToFile fb).2.io_buffer.buffer_start = fb.io_buffer.buffer_end + 1 := by
  have hl := live_length fb.io_buffer h
  have hnil := live_eq_nil_iff fb.io_buffer h
  obtain ⟨g1, g2, g3, g4, g5, g6⟩ := h
  simp only [GetUsedBufferSize] at hl hnil
  by_cases hu : fb.io_buffer.buffer_end - fb.io_buffer.buffer_start + 1 > 0
  · have hw : FlushBufferToFile fb = (NO_ERROR,
        { fb with io_buffer := { fb.io_buffer with
                      buffer_start := fb.io_buffer.buffer_start + (fb.io_buffer.live.length : Int) },
                  base_file := { fb.base_file with output := fb.base_file.output ++ fb.io_buffer.live } }) := by
      unfold FlushBufferToFile FlushBuffer
      rw [if_pos ht]
      simp only [GetUsedBufferSize, if_pos hu, FlushToFile]
      have e : (List.take (fb.io_buffer.buffer_end - fb.io_buffer.buffer_start + 1).toNat
            (List.drop fb.io_buffer.buffer_start.toNat fb.io_buffer.buffer)) = fb.io_buffer.live := rfl
      have hmax : ¬ fb.io_buffer.live.length > MAX_USABLE_SIZE := by omega
      have hpos : (fb.io_buffer.live.length : Int) > 0 := by omega
      rw [e]
      simp only [if_neg hmax, if_pos hpos]
    rw [hw]
    refine ⟨rfl, ⟨g1, g2, g3, ?_, ?_, g6⟩, ?_, rfl, rfl, rfl, rfl, rfl, rfl, ?_⟩
    · dsimp only; omega
    · dsimp only; omega
    · have hl' := hl
      simp only [buffer_t.live, GetUsedBufferSize] at hl' ⊢
      rw [List.take_eq_nil_iff]
      left
      rw [hl']
      omega
    · dsimp only; omega
  · have hw : FlushBufferToFile fb = (NO_ERROR, fb) := by
      unfold FlushBufferToFile FlushBuffer
      rw [if_pos ht]
      simp only [GetUsedBufferSize, if_neg hu]
    have hl0 : fb.io_buffer.live = [] := hnil.mpr (by omega)
    rw [hw]
    refine ⟨rfl, ⟨g1, g2, g3, g4, g5, g6⟩, hl0, by rw [hl0]; simp, rfl, rfl, rfl, rfl, rfl, ?_⟩
    dsimp only; omega

theorem written_with_io (fb : file_buffer_t) (io : buffer_t) :
    ({ fb with io_buffer := io } : file_buffer_t).written
      = (if fb.type = FBT_FILE then fb.base_file.output else []) ++ io.live := rfl

theorem WriteFileBufferLoop_one (fb : file_buffer_t) (x : Nat) (h : fb.io_buffer.WF)
    (hs : fb.io_buffer.buffer_start = 0 ∨ fb.io_buffer.buffer_start = fb.io_buffer.buffer_size)
    (hfree : fb.io_buffer.live.length < fb.io_buffer.buffer_size) :
    (WriteFileBufferLoop 2 fb [x] 1 0 0).1 = 1 ∧
    (WriteFileBufferLoop 2 fb [x] 1 0 0).2.io_buffer.WF ∧
    (WriteFileBufferLoop 2 fb [x] 1 0 0).2.io_buffer.buffer_start = 0 ∧
    (WriteFileBufferLoop 2 fb [x] 1 0 0).2.io_buffer.live = fb.io_buffer.live ++ [x] ∧
    (WriteFileBufferLoop 2 fb [x] 1 0 0).2.io_buffer.buffer_size = fb.io_buffer.buffer_size ∧
    (WriteFileBufferLoop 2 fb [x] 1 0 0).2.base_file = fb.base_file ∧
    (WriteFileBufferLoop 2 fb [x] 1 0 0).2.mode = fb.mode ∧
    (WriteFileBufferLoop 2 fb [x] 1 0 0).2.type = fb.type := by
  have hM := MAX_USABLE_SIZE_eq
  obtain ⟨w1, w2, w3, w4, w5⟩ := WriteBuffer_spec fb.io_buffer [x] 1 h hs (by omega) (by simp)
  have hmin : min (fb.io_buffer.buffer_size - fb.io_buffer.live.length) 1 = 1 :=
    Nat.min_eq_right (by omega)
  rw [hmin] at w1 w3 w5
  have hw : WriteFileBufferLoop 2 fb [x] 1 0 0 =
      (1, { fb with io_buffer := (WriteBuffer fb.io_buffer [x] 1).2 }) := by
    unfold WriteFileBufferLoop
    simp only [Nat.sub_zero, gt_iff_lt, Nat.lt_one_iff, Nat.pos_of_ne_zero, List.drop_zero, w1]
    simp
  rw [hw]
  exact ⟨rfl, w2, w5 (Or.inr (by omega)), by rw [w3]; rfl, w4, rfl, rfl, rfl⟩

theorem WriteFileBuffer_one (fb : file_buffer_t) (x : Nat) (hm : fb.mode = FBM_WRITING)
    (h : fb.io_buffer.WF) (hs : fb.io_buffer.buffer_start = 0)
    (hroom : fb.type = FBT_MEMORY → 2 * fb.io_buffer.live.length ≤ MAX_USABLE_SIZE) :
    (WriteFileBuffer fb [x] 1).1 = 1 ∧
    (WriteFileBuffer fb [x] 1).2.io_buffer.WF ∧
    (WriteFileBuffer fb [x] 1).2.io_buffer.buffer_start = 0 ∧
    (WriteFileBuffer fb [x] 1).2.written = fb.written ++ [x] ∧
    (WriteFileBuffer fb [x] 1).2.base_file.input = fb.base_file.input ∧
    (WriteFileBuffer fb [x] 1).2.mode = fb.mode ∧
    (WriteFileBuffer fb [x] 1).2.type = fb.type ∧
    (fb.type = FBT_MEMORY → (WriteFileBuffer fb [x] 1).2.io_buffer.live = fb.io_buffer.live ++ [x]) := by
  have hM := MAX_USABLE_SIZE_eq
  have hl := live_length fb.io_buffer h
  have hwf := h
  obtain ⟨g1, g2, g3, g4, g5, g6⟩ := h
  simp only [GetUsedBufferSize] at hl
  unfold WriteFileBuffer
  rw [if_neg (by simp [hm]), if_neg (by omega)]
  by_cases hfull : GetUsedBufferSize fb.io_buffer = (GetBufferSize fb.io_buffer : Int)
  · rw [if_pos hfull]
    simp only [GetUsedBufferSize, GetBufferSize] at hfull
    by_cases ht : fb.type = FBT_FILE
    · rw [if_pos ht]
      obtain ⟨f1, f2, f3, f4, f5, f6, f7, f8, f9, f10⟩ := FlushBufferToFile_spec fb hwf ht
      rw [if_neg (by rw [f1]; simp [NO_ERROR])]
      obtain ⟨l1, l2, l3, l4, l5, l6, l7, l8⟩ := WriteFileBufferLoop_one (FlushBufferToFile fb).2 x f2
        (Or.inr (by rw [f10, f8]; omega)) (by rw [f3, f8]; simpa using g2)
      refine ⟨l1, l2, l3, ?_, by rw [l6, f5], by rw [l7, f6], by rw [l8, f7], ?_⟩
      · simp only [file_buffer_t.written]
        rw [l8, f7, if_pos ht, l6, f4, l4, f3, if_pos ht]
        simp
      · intro hh; rw [ht] at hh; cases hh
    · rw [if_neg ht]
      have htm : fb.type = FBT_MEMORY := by
        cases hft : fb.type
        · exact absurd hft ht
        · rfl
      have hr := hroom htm
      obtain ⟨r1, r2, r3, r4, r5⟩ := ResizeBuffer_spec fb.io_buffer (2 * fb.io_buffer.buffer_size) hwf
        (by omega) (by omega) (by omega)
      have hz : RESIZE_BUFFER fb = ((ResizeBuffer fb.io_buffer (2 * fb.io_buffer.buffer_size)).1,
          { fb with io_buffer := (ResizeBuffer fb.io_buffer (2 * fb.io_buffer.buffer_size)).2 }) := rfl
      rw [hz]
      dsimp only
      rw [if_neg (by rw [r1]; simp [NO_ERROR])]
      obtain ⟨l1, l2, l3, l4, l5, l6, l7, l8⟩ := WriteFileBufferLoop_one
        { fb with io_buffer := (ResizeBuffer fb.io_buffer (2 * fb.io_buffer.buffer_size)).2 } x r2
        (Or.inl r4) (by dsimp only; rw [r3, r5]; omega)
      dsimp only at l4 l5 l6 l7 l8
      refine ⟨l1, l2, l3, ?_, by rw [l6], by rw [l7], by rw [l8], ?_⟩
      · simp only [file_buffer_t.written]
        rw [l8, if_neg ht, l4, r3, if_neg ht]
        simp
      · intro _; rw [l4, r3]
  · rw [if_neg hfull]
    simp only [GetUsedBufferSize, GetBufferSize] at hfull
    obtain ⟨l1, l2, l3, l4, l5, l6, l7, l8⟩ := WriteFileBufferLoop_one fb x hwf
      (Or.inl hs) (by omega)
    refine ⟨l1, l2, l3, ?_, by rw [l6], by rw [l7], by rw [l8], ?_⟩
    · simp only [file_buffer_t.written]
      rw [l8, l6, l4, List.append_assoc]
    · intro _; exact l4

/-! ## Bit lists -/

theorem toBits_length (n v : Nat) : (toBits n v).length = n := by
  induction n with
  | zero => rfl
  | succ n ih => simp [toBits, ih]

theorem toBits_mod (n m v : Nat) (h : n ≤ m) : toBits n (v % 2 ^ m) = toBits n v := by
  induction n with
  | zero => rfl
  | succ n ih =>
    simp only [toBits]
    rw [ih (by omega), Nat.testBit_mod_two_pow]
    simp
    omega

theorem toBits_add (a b v : Nat) : toBits (a + b) v = toBits a (v / 2 ^ b) ++ toBits b v := by
  induction a with
  | zero => simp [toBits]
  | succ a ih =>
    have e : a + 1 + b = (a + b) + 1 := by omega
    rw [e]
    simp only [toBits, List.cons_append]
    rw [ih]
    congr 1
    rw [← Nat.shiftRight_eq_div_pow, Nat.testBit_shiftRight]
    congr 1
    omega

theorem toBits_mul_add (n k a y : Nat) (hy : y < 2 ^ k) :
    toBits (n + k) (a * 2 ^ k + y) = toBits n a ++ toBits k y := by
  rw [toBits_add]
  congr 1
  · congr 1
    rw [Nat.add_comm, Nat.add_mul_div_right _ _ (Nat.two_pow_pos k), Nat.div_eq_of_lt hy]
    simp
  · rw [← toBits_mod k k _ (le_refl _), Nat.add_comm, Nat.add_mul_mod_self_right,
      Nat.mod_eq_of_lt hy]

theorem valBits_append_singleton (l : List Bool) (b : Bool) :
    valBits (l ++ [b]) = 2 * valBits l + (if b then 1 else 0) := by
  simp [valBits, List.foldl_append]

theorem valBits_lt (l : List Bool) : valBits l < 2 ^ l.length := by
  induction l using List.reverseRecOn with
  | nil => simp [valBits]
  | append_singleton l b ih =>
    rw [valBits_append_singleton, List.length_append, List.length_singleton, Nat.pow_succ]
    split <;> omega

theorem valBits_append (l1 l2 : List Bool) :
    valBits (l1 ++ l2) = valBits l1 * 2 ^ l2.length + valBits l2 := by
  induction l2 using List.reverseRecOn with
  | nil => simp [valBits]
  | append_singleton l b ih =>
    rw [← List.append_assoc, valBits_append_singleton, ih, valBits_append_singleton,
      List.length_append, List.length_singleton, Nat.pow_succ]
    ring

theorem valBits_cons (b : Bool) (l : List Bool) :
    valBits (b :: l) = (if b then 1 else 0) * 2 ^ l.length + valBits l := by
  have := valBits_append [b] l
  simp only [List.singleton_append] at this
  rw [this]
  cases b <;> simp [valBits]

theorem valBits_toBits (n v : Nat) : valBits (toBits n v) = v % 2 ^ n := by
  induction n with
  | zero => simp [toBits, valBits, Nat.mod_one]
  | succ n ih =>
    simp only [toBits]
    rw [valBits_cons, ih, toBits_length]
    have h1 := Nat.testBit_to_div_mod (x := v) (i := n)
    have h2 : v % 2 ^ (n + 1) = (v / 2 ^ n % 2) * 2 ^ n + v % 2 ^ n := by
      rw [Nat.pow_succ, Nat.mod_mul, Nat.add_comm, Nat.mul_comm]
    rw [h2, h1]
    have : v / 2 ^ n % 2 = 0 ∨ v / 2 ^ n % 2 = 1 := by omega
    rcases this with h | h <;> simp [h]

theorem toBits_valBits (l : List Bool) : toBits l.length (valBits l) = l := by
  induction l with
  | nil => rfl
  | cons b l ih =>
    simp only [List.length_cons, toBits]
    have hlt := valBits_lt l
    rw [valBits_cons]
    congr 1
    · rw [Nat.testBit_to_div_mod]
      rw [Nat.add_comm, Nat.add_mul_div_right _ _ (Nat.two_pow_pos _), Nat.div_eq_of_lt hlt]
      cases b <;> simp
    · rw [← toBits_mod _ _ _ (le_refl _), Nat.add_comm, Nat.add_mul_mod_self_right,
        Nat.mod_eq_of_lt hlt]
      exact ih

theorem bytesBits_append (l1 l2 : List Nat) : bytesBits (l1 ++ l2) = bytesBits l1 ++ bytesBits l2 := by
  induction l1 with
  | nil => rfl
  | cons x xs ih => simp [bytesBits, ih]

theorem bytesBits_length (l : List Nat) : (bytesBits l).length = 8 * l.length := by
  induction l with
  | nil => rfl
  | cons x xs ih => simp [bytesBits, ih, toBits_length]; omega

/-! ## Bit buffer, writing -/

theorem and_mask (x k : Nat) : x &&& (1 <<< k - 1) = x % 2 ^ k := by
  rw [Nat.one_shiftLeft, Nat.and_pow_two_sub_one_eq_mod]

theorem or_eq_add (a b i : Nat) (ha : a % 2 ^ i = 0) (hb : b < 2 ^ i) : a ||| b = a + b := by
  have h := Nat.mul_add_lt_is_or hb (a / 2 ^ i)
  have e : 2 ^ i * (a / 2 ^ i) = a := by
    have := Nat.div_add_mod a (2 ^ i)
    omega
  rw [e] at h
  exact h.symm

theorem pow_split (a b : Nat) (h : b ≤ a) : 2 ^ a = 2 ^ (a - b) * 2 ^ b := by
  rw [← Nat.pow_add]
  congr 1
  omega

/-- Appending `k ≤ 8 - u` bits to a primary byte that holds `u` bits. -/
theorem primary_append (B u k x : Nat) (hu : u + k ≤ 8) (hB : B < 256)
    (hz : B % 2 ^ (8 - u) = 0) :
    (B ||| ((x &&& (1 <<< k - 1)) <<< (8 - k - u))) % 256 < 256 ∧
    (B ||| ((x &&& (1 <<< k - 1)) <<< (8 - k - u))) % 256 % 2 ^ (8 - (u + k)) = 0 ∧
    toBits (u + k) ((B ||| ((x &&& (1 <<< k - 1)) <<< (8 - k - u))) % 256 / 2 ^ (8 - (u + k)))
      = toBits u (B / 2 ^ (8 - u)) ++ toBits k x := by
  rw [and_mask, Nat.shiftLeft_eq]
  have hy : x % 2 ^ k < 2 ^ k := Nat.mod_lt _ (Nat.two_pow_pos k)
  have hs : 8 - (u + k) = 8 - k - u := by omega
  rw [hs]
  have hp : 2 ^ (8 - u) = 2 ^ k * 2 ^ (8 - k - u) := by
    rw [← Nat.pow_add]; congr 1; omega
  have hlt : x % 2 ^ k * 2 ^ (8 - k - u) < 2 ^ (8 - u) := by
    rw [hp]
    exact Nat.mul_lt_mul_of_pos_right hy (Nat.two_pow_pos _)
  rw [or_eq_add _ _ (8 - u) hz hlt]
  obtain ⟨B0, hB0⟩ : ∃ B0, B = B0 * 2 ^ (8 - u) := ⟨B / 2 ^ (8 - u), by
    have := Nat.div_add_mod B (2 ^ (8 - u)); rw [Nat.mul_comm] at this; omega⟩
  have hB0lt : B0 < 2 ^ u := by
    have h256 : (256 : Nat) = 2 ^ u * 2 ^ (8 - u) := by
      rw [← Nat.pow_add]
      have : u + (8 - u) = 8 := by omega
      rw [this]
    rw [hB0, h256] at hB
    exact Nat.lt_of_mul_lt_mul_right hB
  have hsum : B + x % 2 ^ k * 2 ^ (8 - k - u) = (B0 * 2 ^ k + x % 2 ^ k) * 2 ^ (8 - k - u) := by
    rw [hB0, hp]; ring
  have hsumlt : B + x % 2 ^ k * 2 ^ (8 - k - u) < 256 := by
    have h256 : (256 : Nat) = 2 ^ (u + k) * 2 ^ (8 - k - u) := by
      rw [← Nat.pow_add]
      have : u + k + (8 - k - u) = 8 := by omega
      rw [this]
    rw [hsum, h256]
    apply Nat.mul_lt_mul_of_pos_right _ (Nat.two_pow_pos _)
    rw [Nat.pow_add]
    calc B0 * 2 ^ k + x % 2 ^ k < B0 * 2 ^ k + 2 ^ k := by omega
      _ = (B0 + 1) * 2 ^ k := by ring
      _ ≤ 2 ^ u * 2 ^ k := Nat.mul_le_mul_right _ hB0lt
  rw [Nat.mod_eq_of_lt hsumlt]
  refine ⟨hsumlt, ?_, ?_⟩
  · rw [hsum]; exact Nat.mul_mod_left _ _
  · rw [hsum, Nat.mul_div_cancel _ (Nat.two_pow_pos _), toBits_mul_add _ _ _ _ hy,
      toBits_mod _ _ _ (le_refl _), hB0, Nat.mul_div_cancel _ (Nat.two_pow_pos _)]

/-- Completing a primary byte that holds `u` bits with the `f = 8 - u` high bits of a `k`-bit input. -/
theorem primary_fill (B u f k x : Nat) (hf : u + f = 8) (hk : f ≤ k) (hB : B < 256)
    (hz : B % 2 ^ f = 0) :
    toBits (u + f) (B ||| ((x &&& (1 <<< k - 1)) >>> (k - f)))
      = toBits u (B / 2 ^ f) ++ toBits f (x / 2 ^ (k - f)) := by
  rw [and_mask, Nat.shiftRight_eq_div_pow]
  have hlt : x % 2 ^ k / 2 ^ (k - f) < 2 ^ f := by
    rw [Nat.div_lt_iff_lt_mul (Nat.two_pow_pos _), ← Nat.pow_add]
    have : f + (k - f) = k := by omega
    rw [this]
    exact Nat.mod_lt _ (Nat.two_pow_pos k)
  rw [or_eq_add _ _ f hz hlt]
  obtain ⟨B0, hB0⟩ : ∃ B0, B = B0 * 2 ^ f := ⟨B / 2 ^ f, by
    have := Nat.div_add_mod B (2 ^ f); rw [Nat.mul_comm] at this; omega⟩
  rw [hB0, toBits_mul_add _ _ _ _ hlt, Nat.mul_div_cancel _ (Nat.two_pow_pos _)]
  congr 1
  -- the bits above position `k` do not matter
  have hk' : k = f + (k - f) := by omega
  have h1 := toBits_add f (k - f) (x % 2 ^ k)
  have h2 := toBits_add f (k - f) x
  rw [← hk'] at h1 h2
  rw [toBits_mod _ _ _ (le_refl _), h2] at h1
  have h3 := congrArg (List.take f) h1
  rw [List.take_left' (toBits_length _ _), List.take_left' (toBits_length _ _)] at h3
  exact h3.symm

theorem wrBits_length_memory (b : bit_file_buffer_t) (ht : b.file_buffer.type = FBT_MEMORY) :
    b.wrBits.length = 8 * b.file_buffer.io_buffer.live.length + b.used_bits := by
  simp only [bit_file_buffer_t.wrBits, file_buffer_t.written, ht, List.length_append,
    bytesBits_length, toBits_length]
  simp

theorem WriteBitFileBufferBytewise_spec (b : bit_file_buffer_t) (x k : Nat) (hwf : b.WrWF)
    (hk : k ≤ 8) (hroom : b.Room k) :
    (WriteBitFileBufferBytewise b x k).1 = k ∧
    (WriteBitFileBufferBytewise b x k).2.WrWF ∧
    (WriteBitFileBufferBytewise b x k).2.wrBits = b.wrBits ++ toBits k x ∧
    (WriteBitFileBufferBytewise b x k).2.file_buffer.type = b.file_buffer.type ∧
    (WriteBitFileBufferBytewise b x k).2.file_buffer.base_file.input = b.file_buffer.base_file.input ∧
    (WriteBitFileBufferBytewise b x k).2.extra_byte_buffer = b.extra_byte_buffer ∧
    (WriteBitFileBufferBytewise b x k).2.extra_used_bits = b.extra_used_bits := by
  obtain ⟨m1, m2, m3, m4, m5, m6⟩ := hwf
  by_cases hc : ((k : Nat) : Int) > (MAX_USED_BITS : Int) - b.used_bits
  · -- the primary byte is completed and passed on
    simp only [MAX_USED_BITS] at hc
    obtain ⟨f, hf⟩ : ∃ f, f = 8 - b.used_bits := ⟨_, rfl⟩
    have hfu : b.used_bits + f = 8 := by omega
    have hfk : f < k := by omega
    obtain ⟨B1, hB1⟩ : ∃ B1, B1 = b.byte_buffer ||| ((x &&& (1 <<< k - 1)) >>> (k - f)) := ⟨_, rfl⟩
    have hfill := primary_fill b.byte_buffer b.used_bits f k x hfu (by omega) m5 (by rw [hf]; exact m6)
    rw [← hB1] at hfill
    have hroom1 : b.file_buffer.type = FBT_MEMORY →
        2 * b.file_buffer.io_buffer.live.length ≤ MAX_USABLE_SIZE := by
      intro ht
      have := hroom ht
      omega
    obtain ⟨w1, w2, w3, w4, w5, w6, w7, w8⟩ := WriteFileBuffer_one b.file_buffer B1 m1 m2 m3 hroom1
    obtain ⟨p1, p2, p3⟩ := primary_append 0 0 (k - f) x (by omega) (by omega) (by simp)
    have hw : WriteBitFileBufferBytewise b x k = ((k : Int),
        { b with file_buffer := (WriteFileBuffer b.file_buffer [B1] 1).2
                 byte_buffer := (0 ||| ((x &&& (1 <<< (k - f) - 1)) <<< (8 - (k - f) - 0))) % 256
                 used_bits := 0 + (k - f) }) := by
      unfold WriteBitFileBufferBytewise
      rw [if_neg (by simp only [MAX_USED_BITS]; omega)]
      simp only [MAX_USED_BITS]
      rw [if_pos hc]
      by_cases hpos : ((8 : Nat) : Int) - (b.used_bits : Int) > 0
      · simp only [if_pos hpos]
        have e1 : ((k : Int) - (((8 : Nat) : Int) - (b.used_bits : Int))).toNat = k - f := by omega
        rw [e1, ← hB1]
        simp only [w1, if_true]
        rw [Nat.mod_eq_of_lt (by omega : 0 + (k - f) < 256)]
        congr 1
        omega
      · simp only [if_neg hpos]
        have hf0 : f = 0 := by omega
        have hB1' : B1 = b.byte_buffer := by
          rw [hB1, hf0, and_mask, Nat.sub_zero, Nat.shiftRight_eq_div_pow,
            Nat.div_eq_of_lt (Nat.mod_lt _ (Nat.two_pow_pos k))]
          simp
        rw [← hB1']
        simp only [w1, if_true]
        have e1 : ((k : Int) - 0).toNat = k - f := by omega
        rw [e1, Nat.mod_eq_of_lt (by omega : 0 + (k - f) < 256)]
        congr 1
        simp only [Int.zero_add, Nat.cast_inj]
        omega
    rw [hw]
    refine ⟨rfl, ⟨by rw [w6]; exact m1, w2, w3, by dsimp only; omega, p1, p2⟩, ?_, w7, w5, rfl, rfl⟩
    simp only [bit_file_buffer_t.wrBits]
    rw [show toBits 0 (0 / 2 ^ (8 - 0)) = [] from rfl, List.nil_append] at p3
    rw [p3, w4, bytesBits_append]
    simp only [bytesBits, List.append_nil]
    have e8 : toBits 8 B1 = toBits (b.used_bits + f) B1 := by rw [hfu]
    rw [e8, hfill, ← hf]
    have ek : toBits k x = toBits (f + (k - f)) x := by
      congr 1; omega
    rw [ek, toBits_add]
    simp only [List.append_assoc]
  · have hfit : b.used_bits + k ≤ 8 := by simp only [MAX_USED_BITS] at hc; omega
    obtain ⟨p1, p2, p3⟩ := primary_append b.byte_buffer b.used_bits k x hfit m5 m6
    have hw : WriteBitFileBufferBytewise b x k = ((k : Int),
        { b with byte_buffer := (b.byte_buffer |||
                   ((x &&& (1 <<< k - 1)) <<< (8 - k - b.used_bits))) % 256
                 used_bits := b.used_bits + k }) := by
      unfold WriteBitFileBufferBytewise
      rw [if_neg (by simp only [MAX_USED_BITS]; omega), if_neg hc]
      simp only [Int.sub_zero, Int.toNat_ofNat, Int.zero_add, MAX_USED_BITS]
      rw [Nat.mod_eq_of_lt (by omega : b.used_bits + k < 256)]
    rw [hw]
    refine ⟨rfl, ⟨m1, m2, m3, hfit, p1, p2⟩, ?_, rfl, rfl, rfl, rfl⟩
    simp only [bit_file_buffer_t.wrBits]
    rw [p3, List.append_assoc]

theorem toBits_take (n j v : Nat) (h : j ≤ n) :
    (toBits n v).take j = toBits j (v / 2 ^ (n - j)) := by
  have e : n = j + (n - j) := by omega
  conv_lhs => rw [e, toBits_add]
  rw [List.take_left' (toBits_length _ _)]

theorem toBits_drop (n j v : Nat) (h : j ≤ n) :
    (toBits n v).drop j = toBits (n - j) v := by
  have e : n = j + (n - j) := by omega
  conv_lhs => rw [e, toBits_add]
  rw [List.drop_left' (toBits_length _ _)]

theorem Room_of_wrBits (b b' : bit_file_buffer_t) (l : List Bool) (n : Nat)
    (ht : b'.file_buffer.type = b.file_buffer.type) (hw : b'.wrBits = b.wrBits ++ l)
    (hroom : b.Room (l.length + n)) : b'.Room n := by
  intro htm
  have htm' : b.file_buffer.type = FBT_MEMORY := by rw [← ht]; exact htm
  have h1 := wrBits_length_memory b htm'
  have h2 := wrBits_length_memory b' htm
  have h3 := hroom htm'
  rw [hw, List.length_append] at h2
  omega

theorem Room_mono (b : bit_file_buffer_t) (m n : Nat) (h : n ≤ m) (hroom : b.Room m) :
    b.Room n := by
  intro htm
  have := hroom htm
  omega

theorem WriteBitFileBufferFull_spec : ∀ (k i : Nat) (b : bit_file_buffer_t) (input : List Nat),
    b.WrWF → b.Room (8 * k) → i + k ≤ input.length →
    (WriteBitFileBufferFull k i b input).1 = none ∧
    (WriteBitFileBufferFull k i b input).2.WrWF ∧
    (WriteBitFileBufferFull k i b input).2.wrBits = b.wrBits ++ bytesBits ((input.drop i).take k) ∧
    (WriteBitFileBufferFull k i b input).2.file_buffer.type = b.file_buffer.type ∧
    (WriteBitFileBufferFull k i b input).2.file_buffer.base_file.input = b.file_buffer.base_file.input ∧
    (WriteBitFileBufferFull k i b input).2.extra_byte_buffer = b.extra_byte_buffer ∧
    (WriteBitFileBufferFull k i b input).2.extra_used_bits = b.extra_used_bits := by
  intro k
  induction k with
  | zero =>
    intro i b input hwf _ _
    simp only [WriteBitFileBufferFull, List.take_zero, bytesBits, List.append_nil]
    exact ⟨trivial, hwf, trivial, trivial, trivial, trivial, trivial⟩
  | succ k ih =>
    intro i b input hwf hroom hin
    obtain ⟨s1, s2, s3, s4, s5, s6, s7⟩ := WriteBitFileBufferBytewise_spec b (input.getD i 0) 8 hwf
      (le_refl _) (Room_mono b _ _ (by omega) hroom)
    have hroom' : (WriteBitFileBufferBytewise b (input.getD i 0) 8).2.Room (8 * k) :=
      Room_of_wrBits b _ _ _ s4 s3 (by rw [toBits_length]; exact Room_mono b _ _ (by omega) hroom)
    obtain ⟨t1, t2, t3, t4, t5, t6, t7⟩ := ih (i + 1) _ input s2 hroom' (by omega)
    have hw : WriteBitFileBufferFull (k + 1) i b input
        = WriteBitFileBufferFull k (i + 1) (WriteBitFileBufferBytewise b (input.getD i 0) 8).2 input := by
      conv_lhs => unfold WriteBitFileBufferFull
      simp only [MAX_USED_BITS, s1]
      simp
    rw [hw]
    refine ⟨t1, t2, ?_, by rw [t4, s4], by rw [t5, s5], by rw [t6, s6], by rw [t7, s7]⟩
    rw [t3, s3, List.append_assoc]
    congr 1
    have hi : i < input.length := by omega
    rw [List.drop_eq_getElem_cons hi, List.take_succ_cons, bytesBits, List.getD_eq_getElem _ _ hi]

theorem bytesBits_take : ∀ (input : List Nat) (n : Nat), (n + 7) / 8 ≤ input.length →
    (bytesBits input).take n
      = bytesBits (input.take (n / 8)) ++ (toBits 8 (input.getD (n / 8) 0)).take (n % 8) := by
  intro input
  induction input with
  | nil =>
    intro n h
    have : n = 0 := by simp at h; omega
    subst this
    simp [bytesBits]
  | cons x xs ih =>
    intro n h
    by_cases hn : n < 8
    · have e1 : n / 8 = 0 := by omega
      have e2 : n % 8 = n := by omega
      rw [e1, e2]
      simp only [List.take_zero, bytesBits, List.nil_append, List.getD_cons_zero]
      rw [List.take_append_of_le_length (by rw [toBits_length]; omega)]
    · have e1 : n / 8 = (n - 8) / 8 + 1 := by omega
      have e2 : n % 8 = (n - 8) % 8 := by omega
      have e3 : n = 8 + (n - 8) := by omega
      rw [e1, e2]
      simp only [List.take_succ_cons, bytesBits, List.getD_cons_succ]
      conv_lhs => rw [e3]
      have hl : (toBits 8 x).length = 8 := toBits_length _ _
      have ht : List.take (8 + (n - 8)) (toBits 8 x ++ bytesBits xs)
          = toBits 8 x ++ List.take (n - 8) (bytesBits xs) := by
        conv_lhs => rw [← hl]
        exact List.take_append _
      rw [ht, ih (n - 8) (by simp only [List.length_cons] at h; omega), List.append_assoc]

theorem WriteBitFileBuffer_spec (b : bit_file_buffer_t) (input : List Nat) (n : Nat)
    (hwf : b.WrWF) (hroom : b.Room n) (hin : (n + 7) / 8 ≤ input.length) :
    (WriteBitFileBuffer b input n).1 = n ∧
    (WriteBitFileBuffer b input n).2.WrWF ∧
    (WriteBitFileBuffer b input n).2.wrBits = b.wrBits ++ (bytesBits input).take n ∧
    (WriteBitFileBuffer b input n).2.file_buffer.type = b.file_buffer.type ∧
    (WriteBitFileBuffer b input n).2.file_buffer.base_file.input = b.file_buffer.base_file.input ∧
    (WriteBitFileBuffer b input n).2.extra_byte_buffer = b.extra_byte_buffer ∧
    (WriteBitFileBuffer b input n).2.extra_used_bits = b.extra_used_bits := by
  obtain ⟨f1, f2, f3, f4, f5, f6, f7⟩ := WriteBitFileBufferFull_spec (n / 8) 0 b input hwf
    (Room_mono b _ _ (by omega) hroom) (by omega)
  have hroom' : (WriteBitFileBufferFull (n / 8) 0 b input).2.Room (n % 8) := by
    apply Room_of_wrBits b _ _ _ f4 f3
    rw [bytesBits_length, List.drop_zero, List.length_take]
    apply Room_mono b _ _ _ hroom
    have : min (n / 8) input.length ≤ n / 8 := Nat.min_le_left _ _
    omega
  rw [List.drop_zero] at f3
  have hbt := bytesBits_take input n hin
  unfold WriteBitFileBuffer
  simp only [GetFileBufferMode, MAX_USED_BITS]
  rw [if_neg (by simp [hwf.1])]
  simp only [f1]
  by_cases hrem : n % 8 > 0
  · rw [if_pos hrem]
    obtain ⟨s1, s2, s3, s4, s5, s6, s7⟩ := WriteBitFileBufferBytewise_spec
      (WriteBitFileBufferFull (n / 8) 0 b input).2 (input.getD (n / 8) 0 >>> (8 - n % 8)) (n % 8)
      f2 (by omega) hroom'
    rw [if_neg (by rw [s1]; simp)]
    refine ⟨rfl, s2, ?_, by rw [s4, f4], by rw [s5, f5], by rw [s6, f6], by rw [s7, f7]⟩
    rw [s3, f3, hbt, List.append_assoc, toBits_take _ _ _ (by omega), Nat.shiftRight_eq_div_pow]
  · rw [if_neg hrem]
    have e0 : n % 8 = 0 := by omega
    refine ⟨rfl, f2, ?_, f4, f5, f6, f7⟩
    rw [f3, hbt, e0]
    simp

theorem bytesBits_range_map (temp : Nat) (g : Nat → Nat)
    (hg : ∀ i, i < 8 → toBits 8 (g i) = toBits 8 (temp / 2 ^ (56 - 8 * i))) :
    ∀ m, m ≤ 8 → bytesBits ((List.range m).map g) = toBits (8 * m) (temp / 2 ^ (64 - 8 * m)) := by
  intro m
  induction m with
  | zero => intro _; rfl
  | succ m ih =>
    intro hm
    rw [List.range_succ, List.map_append, bytesBits_append, ih (by omega)]
    simp only [List.map_cons, List.map_nil, bytesBits, List.append_nil]
    rw [hg m (by omega)]
    have e1 : 8 * (m + 1) = 8 * m + 8 := by omega
    rw [e1, toBits_add]
    congr 1
    · congr 1
      rw [Nat.div_div_eq_div_mul, ← Nat.pow_add]
      congr 2
      omega
    · congr 2
      congr 1
      omega

theorem single_value_bytes (temp v n : Nat) (hn : n ≤ 64)
    (htemp : temp = (v <<< (MAX_BIT_SIZE - n)) % 2 ^ 64) :
    (bytesBits ((List.range ((n + 7) / 8)).map (fun i =>
      if i = 0 then (temp >>> (MAX_BIT_SIZE - 8)) % 256
      else ((temp &&& (1 <<< (MAX_BIT_SIZE - 8 * i) - 1)) >>> (MAX_BIT_SIZE - 8 - 8 * i)) % 256))).take n
      = toBits n v := by
  have hg : ∀ i, i < 8 → toBits 8 ((fun i =>
      if i = 0 then (temp >>> (MAX_BIT_SIZE - 8)) % 256
      else ((temp &&& (1 <<< (MAX_BIT_SIZE - 8 * i) - 1)) >>> (MAX_BIT_SIZE - 8 - 8 * i)) % 256) i)
      = toBits 8 (temp / 2 ^ (56 - 8 * i)) := by
    intro i hi
    simp only [MAX_BIT_SIZE, MAX_SIZE]
    have h256 : (256 : Nat) = 2 ^ 8 := by norm_num
    by_cases h0 : i = 0
    · subst h0
      simp only [if_true]
      rw [h256, toBits_mod _ _ _ (le_refl _), Nat.shiftRight_eq_div_pow]
    · simp only [if_neg h0]
      rw [h256, toBits_mod _ _ _ (le_refl _), and_mask, Nat.shiftRight_eq_div_pow]
      have e0 : 8 * 8 - 8 * i = 64 - 8 * i := by omega
      have e1 : 8 * 8 - 8 - 8 * i = (64 - 8 * i) - 8 := by omega
      have e2 : 56 - 8 * i = (64 - 8 * i) - 8 := by omega
      rw [e0, e1, ← toBits_take (64 - 8 * i) 8 _ (by omega),
        ← toBits_take (64 - 8 * i) 8 _ (by omega), toBits_mod _ _ _ (le_refl _)]
  rw [bytesBits_range_map temp _ hg _ (by omega), toBits_take _ _ _ (by omega),
    Nat.div_div_eq_div_mul, ← Nat.pow_add]
  have e3 : 64 - 8 * ((n + 7) / 8) + (8 * ((n + 7) / 8) - n) = 64 - n := by omega
  rw [e3, htemp]
  simp only [MAX_BIT_SIZE, MAX_SIZE, Nat.shiftLeft_eq]
  have e4 : (2 : Nat) ^ 64 = 2 ^ n * 2 ^ (8 * 8 - n) := by
    rw [← Nat.pow_add]; congr 1; omega
  have e5 : 64 - n = 8 * 8 - n := by omega
  rw [e4, Nat.mul_mod_mul_right, e5, Nat.mul_div_cancel _ (Nat.two_pow_pos _),
    toBits_mod _ _ _ (le_refl _)]

theorem WriteSingleValueToBitFileBuffer_spec (b : bit_file_buffer_t) (v n : Nat)
    (hwf : b.WrWF) (hn : n ≤ 64) (hroom : b.Room n) :
    (WriteSingleValueToBitFileBuffer b v n).1 = n ∧
    (WriteSingleValueToBitFileBuffer b v n).2.WrWF ∧
    (WriteSingleValueToBitFileBuffer b v n).2.wrBits = b.wrBits ++ toBits n v ∧
    (WriteSingleValueToBitFileBuffer b v n).2.file_buffer.type = b.file_buffer.type ∧
    (WriteSingleValueToBitFileBuffer b v n).2.file_buffer.base_file.input
      = b.file_buffer.base_file.input ∧
    (WriteSingleValueToBitFileBuffer b v n).2.extra_byte_buffer = b.extra_byte_buffer ∧
    (WriteSingleValueToBitFileBuffer b v n).2.extra_used_bits = b.extra_used_bits := by
  have hb := single_value_bytes _ v n hn rfl
  unfold WriteSingleValueToBitFileBuffer
  rw [if_neg (by simp only [MAX_BIT_SIZE, MAX_SIZE]; omega)]
  dsimp only
  obtain ⟨s1, s2, s3, s4, s5, s6, s7⟩ := WriteBitFileBuffer_spec b
    ((List.range ((n + 7) / 8)).map (fun i =>
      if i = 0 then (((v <<< (MAX_BIT_SIZE - n)) % 2 ^ 64) >>> (MAX_BIT_SIZE - 8)) % 256
      else ((((v <<< (MAX_BIT_SIZE - n)) % 2 ^ 64) &&& (1 <<< (MAX_BIT_SIZE - 8 * i) - 1)) >>>
        (MAX_BIT_SIZE - 8 - 8 * i)) % 256)) n hwf hroom
    (by rw [List.length_map, List.length_range])
  rw [hb] at s3
  exact ⟨s1, s2, s3, s4, s5, s6, s7⟩

/-! ## Bit buffer, reading -/

/-- The bits that `ReadBitFileBufferBytewise` takes from the primary byte: with `u` bits of
`B` used, `nb` more bits are appended below the `H` already collected. -/
theorem tail_val (B u nb H : Nat) (hu : u + nb ≤ 8) :
    (H * 2 ^ nb) ||| ((B &&& (1 <<< (8 - u) - 1)) >>> (8 - nb - u))
      = H * 2 ^ nb + valBits ((toBits (8 - u) B).take nb) := by
  rw [and_mask, Nat.shiftRight_eq_div_pow]
  have e1 : 8 - nb - u = 8 - u - nb := by omega
  rw [e1]
  have hX : B % 2 ^ (8 - u) / 2 ^ (8 - u - nb) < 2 ^ nb := by
    rw [Nat.div_lt_iff_lt_mul (Nat.two_pow_pos _), ← Nat.pow_add]
    have : nb + (8 - u - nb) = 8 - u := by omega
    rw [this]
    exact Nat.mod_lt _ (Nat.two_pow_pos _)
  rw [or_eq_add _ _ nb (Nat.mul_mod_left _ _) hX]
  congr 1
  rw [toBits_take _ _ _ (by omega), valBits_toBits]
  have e2 : (2 : Nat) ^ (8 - u) = 2 ^ (8 - u - nb) * 2 ^ nb := by
    rw [← Nat.pow_add]; congr 1; omega
  rw [e2, Nat.mod_mul_right_div_self]

theorem take_append_len {α : Type} (l1 l2 : List α) (n m : Nat) (h : l1.length = n) :
    (l1 ++ l2).take (n + m) = l1 ++ l2.take m := by
  subst h
  exact List.take_append _

theorem drop_append_len {α : Type} (l1 l2 : List α) (n m : Nat) (h : l1.length = n) :
    (l1 ++ l2).drop (n + m) = l2.drop m := by
  subst h
  exact List.drop_append _

theorem shifted_val (B old k : Nat) (h1 : old < k) (hk : k ≤ 8) :
    (if old > 0 then ((if old > 0 then 0 ||| (B &&& (1 <<< old - 1)) else 0) <<< (k - old)) % 256
      else (if old > 0 then 0 ||| (B &&& (1 <<< old - 1)) else 0))
      = valBits (toBits old B) * 2 ^ (k - old) := by
  rw [valBits_toBits]
  by_cases h0 : old > 0
  · simp only [if_pos h0, Nat.zero_or]
    rw [and_mask, Nat.shiftLeft_eq]
    apply Nat.mod_eq_of_lt
    have h2 : B % 2 ^ old < 2 ^ old := Nat.mod_lt _ (Nat.two_pow_pos _)
    have h3 : (2 : Nat) ^ old * 2 ^ (k - old) = 2 ^ k := by
      rw [← Nat.pow_add]; congr 1; omega
    have h4 : (2 : Nat) ^ k ≤ 2 ^ 8 := Nat.pow_le_pow_right (by norm_num) hk
    calc B % 2 ^ old * 2 ^ (k - old) < 2 ^ old * 2 ^ (k - old) :=
          Nat.mul_lt_mul_of_pos_right h2 (Nat.two_pow_pos _)
      _ = 2 ^ k := h3
      _ ≤ 256 := h4
  · simp only [if_neg h0]
    have : old = 0 := by omega
    subst this
    simp [Nat.mod_one]

theorem rdBits_eq (b : bit_file_buffer_t) :
    b.rdBits = toBits (8 - b.used_bits) b.byte_buffer ++ (bytesBits b.file_buffer.remaining ++
      toBits b.extra_used_bits (b.extra_byte_buffer / 2 ^ (8 - b.extra_used_bits))) := by
  simp only [bit_file_buffer_t.rdBits, List.append_assoc]

theorem ReadBitFileBufferBytewise_spec (b : bit_file_buffer_t) (k : Nat) (hwf : b.RdWF)
    (hk : k ≤ 8) (hlen : k ≤ b.rdBits.length) :
    (ReadBitFileBufferBytewise b k).1 = ((k : Int), valBits (b.rdBits.take k)) ∧
    (ReadBitFileBufferBytewise b k).2.RdWF ∧
    (ReadBitFileBufferBytewise b k).2.rdBits = b.rdBits.drop k ∧
    (ReadBitFileBufferBytewise b k).2.file_buffer.type = b.file_buffer.type ∧
    (ReadBitFileBufferBytewise b k).2.file_buffer.base_file.output
      = b.file_buffer.base_file.output := by
  obtain ⟨m1, m2, m3, m4⟩ := hwf
  have hold : (MAX_USED_BITS + 256 - b.used_bits) % 256 = 8 - b.used_bits := by
    simp only [MAX_USED_BITS]; omega
  have hP : (toBits (8 - b.used_bits) b.byte_buffer).length = 8 - b.used_bits := toBits_length _ _
  by_cases hc : k > 8 - b.used_bits
  · -- the primary byte runs out: its rest, then a new byte or the carryover
    have hM := MAX_USABLE_SIZE_eq
    obtain ⟨c1, c2, c3, c4, c5, c6, c7⟩ := ReadFileBuffer_correct b.file_buffer 1 m1 m2 (by omega)
    clear hM
    obtain ⟨nb, hnb⟩ : ∃ nb, nb = k - (8 - b.used_bits) := ⟨_, rfl⟩
    have hsh := shifted_val b.byte_buffer (8 - b.used_bits) k (by omega) hk
    obtain ⟨H, hH⟩ : ∃ H, H = valBits (toBits (8 - b.used_bits) b.byte_buffer) := ⟨_, rfl⟩
    rw [← hH] at hsh
    conv at hsh => rhs; rw [← hnb]
    have hnb1 : (k + 256 - (if 8 - b.used_bits > 0 then 8 - b.used_bits else 0)) % 256 = nb := by
      split <;> omega
    have hrd1 : (((if 8 - b.used_bits > 0 then 8 - b.used_bits else 0 : Nat) : Int)) + (nb : Int)
        = (k : Int) := by
      split <;> omega
    have hlen' := hlen
    rw [rdBits_eq, List.length_append, hP, List.length_append, bytesBits_length, toBits_length] at hlen'
    cases hrem : b.file_buffer.remaining with
    | nil =>
      rw [hrem] at c1 c5 hlen'
      simp only [List.length_nil, Nat.min_zero, List.take_nil, List.drop_nil, Nat.mul_zero,
        Nat.zero_add] at c1 c5 hlen'
      have he : b.extra_used_bits > 0 := by omega
      have hv := tail_val ((b.extra_byte_buffer >>> (8 - b.extra_used_bits)) % 256)
        (8 - b.extra_used_bits) nb H (by omega)
      have hw : ReadBitFileBufferBytewise b k = (((k : Int),
          (H * 2 ^ nb) ||| ((((b.extra_byte_buffer >>> (8 - b.extra_used_bits)) % 256) &&&
            (1 <<< (8 - (8 - b.extra_used_bits)) - 1)) >>> (8 - nb - (8 - b.extra_used_bits)))),
          { b with file_buffer := (ReadFileBuffer b.file_buffer 1).2
                   byte_buffer := (b.extra_byte_buffer >>> (8 - b.extra_used_bits)) % 256
                   used_bits := 8 - b.extra_used_bits + nb
                   extra_used_bits := 0 }) := by
        unfold ReadBitFileBufferBytewise
        rw [hold, if_neg (by simp only [MAX_USED_BITS]; omega), if_pos hc]
        simp only [c1, hnb1, hsh, MAX_USED_BITS, ReadBitFileBufferBytewiseTail]
        have hne : ¬ (((0 : Nat) : Int) = 1) := by omega
        have hnc : ¬ (nb > b.extra_used_bits) := by omega
        have he8 : (8 + 256 - b.extra_used_bits) % 256 = 8 - b.extra_used_bits := by omega
        simp only [hne, if_false, he, if_true, hnc, he8]
        rw [Nat.mod_eq_of_lt (by omega : 8 - b.extra_used_bits + nb < 256), hrd1]
      have h256 : (256 : Nat) = 2 ^ 8 := by norm_num
      have hC : toBits (8 - (8 - b.extra_used_bits))
          ((b.extra_byte_buffer >>> (8 - b.extra_used_bits)) % 256)
          = toBits b.extra_used_bits (b.extra_byte_buffer / 2 ^ (8 - b.extra_used_bits)) := by
        have : 8 - (8 - b.extra_used_bits) = b.extra_used_bits := by omega
        rw [this, h256, toBits_mod _ _ _ m4, Nat.shiftRight_eq_div_pow]
      rw [hC] at hv
      rw [hw, hv, rdBits_eq, hrem]
      simp only [bytesBits, List.nil_append]
      have hk' : k = (8 - b.used_bits) + nb := by omega
      refine ⟨?_, ⟨by rw [c3]; exact m1, c2, by dsimp only; omega, by dsimp only; omega⟩, ?_, c4, c7⟩
      · rw [Prod.mk.injEq]
        refine ⟨rfl, ?_⟩
        rw [hk', take_append_len _ _ _ _ hP, valBits_append, ← hH, List.length_take,
          toBits_length, Nat.min_eq_left (by omega)]
      · rw [rdBits_eq]
        dsimp only
        rw [c5]
        simp only [bytesBits, List.nil_append, Nat.sub_zero, toBits, List.append_nil]
        rw [hk', drop_append_len _ _ _ _ hP, toBits_drop _ _ _ (by omega)]
        have e1 : 8 - (8 - b.extra_used_bits + nb) = b.extra_used_bits - nb := by omega
        rw [e1, h256, toBits_mod _ _ _ (by omega), Nat.shiftRight_eq_div_pow]
    | cons y rem' =>
      rw [hrem] at c1 c5
      simp only [List.length_cons, List.take_succ_cons, List.take_zero, List.drop_succ_cons,
        List.drop_zero] at c1 c5
      rw [Nat.min_eq_left (by omega)] at c1
      have hv := tail_val y 0 nb H (by omega)
      have hw : ReadBitFileBufferBytewise b k = (((k : Int),
          (H * 2 ^ nb) ||| ((y &&& (1 <<< (8 - 0) - 1)) >>> (8 - nb - 0))),
          { b with file_buffer := (ReadFileBuffer b.file_buffer 1).2
                   byte_buffer := y
                   used_bits := 0 + nb }) := by
        unfold ReadBitFileBufferBytewise
        rw [hold, if_neg (by simp only [MAX_USED_BITS]; omega), if_pos hc]
        simp only [c1, hnb1, hsh, MAX_USED_BITS, ReadBitFileBufferBytewiseTail]
        have hne : (((1 : Nat) : Int) = 1) := by omega
        simp only [hne, if_true, List.headD_cons]
        rw [Nat.mod_eq_of_lt (by omega : 0 + nb < 256), hrd1]
      rw [hw, hv, rdBits_eq, hrem]
      simp only [bytesBits]
      have hk' : k = (8 - b.used_bits) + nb := by omega
      have hQ : (toBits 8 y).length = 8 := toBits_length _ _
      refine ⟨?_, ⟨by rw [c3]; exact m1, c2, by dsimp only; omega, m4⟩, ?_, c4, c7⟩
      · rw [Prod.mk.injEq]
        refine ⟨rfl, ?_⟩
        rw [hk', take_append_len _ _ _ _ hP, valBits_append, ← hH, List.length_take,
          List.length_append, List.length_append, hQ, Nat.min_eq_left (by omega),
          List.append_assoc, List.take_append_of_le_length (by rw [hQ]; omega)]
      · rw [rdBits_eq]
        dsimp only
        rw [c5, hk', drop_append_len _ _ _ _ hP, List.append_assoc,
          List.drop_append_of_le_length (by rw [hQ]; omega), toBits_drop _ _ _ (by omega)]
        simp only [Nat.zero_add]
  · -- everything comes from the primary byte
    have hfit : b.used_bits + k ≤ 8 := by omega
    have hv := tail_val b.byte_buffer b.used_bits k 0 hfit
    simp only [Nat.zero_mul, Nat.zero_add] at hv
    have hw : ReadBitFileBufferBytewise b k = (((k : Int),
        0 ||| ((b.byte_buffer &&& (1 <<< (8 - b.used_bits) - 1)) >>> (8 - k - b.used_bits))),
        { b with used_bits := b.used_bits + k }) := by
      unfold ReadBitFileBufferBytewise
      rw [hold, if_neg (by simp only [MAX_USED_BITS]; omega), if_neg hc]
      simp only [ReadBitFileBufferBytewiseTail, MAX_USED_BITS, Int.zero_add]
      rw [Nat.mod_eq_of_lt (by omega : b.used_bits + k < 256)]
    rw [hw, hv, rdBits_eq]
    refine ⟨?_, ⟨m1, m2, hfit, m4⟩, ?_, rfl, rfl⟩
    · rw [List.take_append_of_le_length (by rw [hP]; omega)]
    · rw [List.drop_append_of_le_length (by rw [hP]; omega), toBits_drop _ _ _ (by omega)]
      rw [rdBits_eq]
      dsimp only
      have : 8 - (b.used_bits + k) = 8 - b.used_bits - k := by omega
      rw [this]

theorem toBits_zero_val (n : Nat) : toBits n 0 = List.replicate n false := by
  induction n with
  | zero => rfl
  | succ n ih => simp [toBits, ih, List.replicate_succ]

theorem valBits_take_lt (l : List Bool) (k : Nat) (hk : k ≤ 8) : valBits (l.take k) < 256 := by
  have h1 := valBits_lt (l.take k)
  have h2 : (l.take k).length ≤ 8 := by rw [List.length_take]; omega
  have h3 : (2 : Nat) ^ (l.take k).length ≤ 2 ^ 8 := Nat.pow_le_pow_right (by norm_num) h2
  omega

theorem ReadBitFileBufferFull_spec : ∀ (k i : Nat) (b : bit_file_buffer_t) (out : List Nat),
    b.RdWF → 8 * k ≤ b.rdBits.length →
    ∃ bytes : List Nat,
      (ReadBitFileBufferFull k i b out).1 = (none, out ++ bytes) ∧
      bytes.length = k ∧ (∀ x ∈ bytes, x < 256) ∧ bytesBits bytes = b.rdBits.take (8 * k) ∧
      (ReadBitFileBufferFull k i b out).2.RdWF ∧
      (ReadBitFileBufferFull k i b out).2.rdBits = b.rdBits.drop (8 * k) ∧
      (ReadBitFileBufferFull k i b out).2.file_buffer.type = b.file_buffer.type ∧
      (ReadBitFileBufferFull k i b out).2.file_buffer.base_file.output
        = b.file_buffer.base_file.output := by
  intro k
  induction k with
  | zero =>
    intro i b out hwf _
    refine ⟨[], ?_, rfl, by simp, by simp [bytesBits], hwf, by simp [ReadBitFileBufferFull], rfl, rfl⟩
    simp [ReadBitFileBufferFull]
  | succ k ih =>
    intro i b out hwf hlen
    obtain ⟨s1, s2, s3, s4, s5⟩ := ReadBitFileBufferBytewise_spec b 8 hwf (le_refl _) (by omega)
    obtain ⟨bytes, t1, t2, t3, t4, t5, t6, t7, t8⟩ := ih (i + 1) (ReadBitFileBufferBytewise b 8).2
      (out ++ [valBits (b.rdBits.take 8)]) s2 (by rw [s3, List.length_drop]; omega)
    have hw : ReadBitFileBufferFull (k + 1) i b out
        = ReadBitFileBufferFull k (i + 1) (ReadBitFileBufferBytewise b 8).2
            (out ++ [valBits (b.rdBits.take 8)]) := by
      conv_lhs => unfold ReadBitFileBufferFull
      simp only [MAX_USED_BITS, s1]
      simp
    rw [hw]
    refine ⟨valBits (b.rdBits.take 8) :: bytes, ?_, by simp [t2], ?_, ?_, t5, ?_, by rw [t7, s4],
      by rw [t8, s5]⟩
    · rw [t1]; simp
    · intro x hx
      rcases List.mem_cons.mp hx with hx | hx
      · rw [hx]; exact valBits_take_lt _ _ (le_refl _)
      · exact t3 x hx
    · have hl : (b.rdBits.take 8).length = 8 := by rw [List.length_take]; omega
      have e1 : toBits 8 (valBits (b.rdBits.take 8)) = b.rdBits.take 8 := by
        have := toBits_valBits (b.rdBits.take 8)
        rw [hl] at this
        exact this
      simp only [bytesBits]
      rw [e1, t4, s3]
      have e2 : 8 * (k + 1) = 8 + 8 * k := by omega
      rw [e2, List.take_add]
    · rw [t6, s3, List.drop_drop]
      congr 1
      omega

theorem toBits_shift_pad (t r : Nat) (hr : r ≤ 8) :
    toBits 8 (t * 2 ^ (8 - r) + 0) = toBits r t ++ List.replicate (8 - r) false := by
  have e : toBits 8 (t * 2 ^ (8 - r) + 0) = toBits (r + (8 - r)) (t * 2 ^ (8 - r) + 0) := by
    congr 1; omega
  rw [e, toBits_mul_add _ _ _ _ (Nat.two_pow_pos _), toBits_zero_val]

theorem ReadBitFileBuffer_spec (b : bit_file_buffer_t) (n : Nat) (hwf : b.RdWF)
    (hlen : n ≤ b.rdBits.length) :
    (ReadBitFileBuffer b n).1.1 = n ∧
    (ReadBitFileBuffer b n).1.2.length = (n + 7) / 8 ∧
    (∀ x ∈ (ReadBitFileBuffer b n).1.2, x < 256) ∧
    bytesBits (ReadBitFileBuffer b n).1.2
      = b.rdBits.take n ++ List.replicate (8 * ((n + 7) / 8) - n) false ∧
    (ReadBitFileBuffer b n).2.RdWF ∧
    (ReadBitFileBuffer b n).2.rdBits = b.rdBits.drop n ∧
    (ReadBitFileBuffer b n).2.file_buffer.type = b.file_buffer.type ∧
    (ReadBitFileBuffer b n).2.file_buffer.base_file.output = b.file_buffer.base_file.output := by
  obtain ⟨bytes, f1, f2, f3, f4, f5, f6, f7, f8⟩ := ReadBitFileBufferFull_spec (n / 8) 0 b [] hwf
    (by omega)
  rw [List.nil_append] at f1
  unfold ReadBitFileBuffer
  simp only [GetFileBufferMode, MAX_USED_BITS]
  rw [if_neg (by simp [hwf.1])]
  simp only [f1]
  by_cases hrem : n % 8 > 0
  · rw [if_pos hrem]
    have h8 : 8 * ((n + 7) / 8) - n = 8 - n % 8 := by omega
    have hlen8 : n / 8 + 1 = (n + 7) / 8 := by omega
    obtain ⟨s1, s2, s3, s4, s5⟩ := ReadBitFileBufferBytewise_spec
      (ReadBitFileBufferFull (n / 8) 0 b []).2 (n % 8) f5 (by omega)
      (by rw [f6, List.length_drop]; omega)
    simp only [s1]
    rw [if_neg (by simp)]
    rw [f6] at s3
    have hl : ((List.drop (8 * (n / 8)) b.rdBits).take (n % 8)).length = n % 8 := by
      rw [List.length_take, List.length_drop]; omega
    have hlt := valBits_lt ((List.drop (8 * (n / 8)) b.rdBits).take (n % 8))
    rw [hl] at hlt
    have hsh : (valBits ((List.drop (8 * (n / 8)) b.rdBits).take (n % 8)) <<< (8 - n % 8)) % 256
        = valBits ((List.drop (8 * (n / 8)) b.rdBits).take (n % 8)) * 2 ^ (8 - n % 8) + 0 := by
      rw [Nat.shiftLeft_eq, Nat.add_zero]
      apply Nat.mod_eq_of_lt
      have h256 : (256 : Nat) = 2 ^ (n % 8) * 2 ^ (8 - n % 8) := by
        rw [← Nat.pow_add]
        have : n % 8 + (8 - n % 8) = 8 := by omega
        rw [this]
      rw [h256]
      exact Nat.mul_lt_mul_of_pos_right hlt (Nat.two_pow_pos _)
    refine ⟨rfl, by rw [List.length_append, f2]; exact hlen8, ?_, ?_, s2, ?_, by rw [s4, f7],
      by rw [s5, f8]⟩
    · intro x hx
      rcases List.mem_append.mp hx with hx | hx
      · exact f3 x hx
      · rw [List.mem_singleton.mp hx]
        exact Nat.mod_lt _ (by norm_num)
    · rw [bytesBits_append, f4, f6, hsh]
      simp only [bytesBits, List.append_nil]
      rw [toBits_shift_pad _ _ (by omega), h8]
      have := toBits_valBits ((List.drop (8 * (n / 8)) b.rdBits).take (n % 8))
      rw [hl] at this
      rw [this, ← List.append_assoc]
      congr 1
      have en : n = 8 * (n / 8) + n % 8 := by omega
      conv_rhs => rw [en, List.take_add]
    · rw [s3, List.drop_drop]
      congr 1
      omega
  · rw [if_neg hrem]
    have e0 : n % 8 = 0 := by omega
    have e1 : 8 * (n / 8) = n := by omega
    have e2 : (n + 7) / 8 = n / 8 := by omega
    rw [e1] at f4 f6
    refine ⟨rfl, by rw [f2, e2], f3, ?_, f5, f6, f7, f8⟩
    rw [f4, e2, e1]
    simp

theorem valBits_replicate_false (n : Nat) : valBits (List.replicate n false) = 0 := by
  rw [← toBits_zero_val, valBits_toBits]
  simp

theorem fold_bytes (bytes : List Nat) (hb : ∀ x ∈ bytes, x < 256) :
    ∀ j, j ≤ bytes.length → j ≤ 8 →
      (List.range j).foldl
        (fun v i => v ||| ((bytes.getD i 0 <<< (MAX_BIT_SIZE - 8 - 8 * i)) % 2 ^ 64)) 0
        = valBits (bytesBits (bytes.take j)) * 2 ^ (64 - 8 * j) := by
  intro j
  induction j with
  | zero => intro _ _; simp [bytesBits, valBits]
  | succ j ih =>
    intro h1 h2
    rw [List.range_succ, List.foldl_append, ih (by omega) (by omega)]
    simp only [List.foldl_cons, List.foldl_nil, MAX_BIT_SIZE, MAX_SIZE]
    have hj : j < bytes.length := by omega
    rw [List.getD_eq_getElem _ _ hj]
    have hx : bytes[j] < 256 := hb _ (List.getElem_mem _)
    have e56 : 8 * 8 - 8 - 8 * j = 56 - 8 * j := by omega
    rw [e56, Nat.shiftLeft_eq]
    have hp : (2 : Nat) ^ (64 - 8 * j) = 256 * 2 ^ (56 - 8 * j) := by
      have : (256 : Nat) = 2 ^ 8 := by norm_num
      rw [this, ← Nat.pow_add]; congr 1; omega
    have hlt : bytes[j] * 2 ^ (56 - 8 * j) < 2 ^ (64 - 8 * j) := by
      rw [hp]; exact Nat.mul_lt_mul_of_pos_right hx (Nat.two_pow_pos _)
    have hle : (2 : Nat) ^ (64 - 8 * j) ≤ 2 ^ 64 := Nat.pow_le_pow_right (by norm_num) (by omega)
    rw [Nat.mod_eq_of_lt (by omega), or_eq_add _ _ (64 - 8 * j) (Nat.mul_mod_left _ _) hlt]
    have ht : bytes.take (j + 1) = bytes.take j ++ [bytes[j]] := by
      rw [List.take_succ, List.getElem?_eq_getElem hj]; rfl
    rw [ht, bytesBits_append, valBits_append]
    simp only [bytesBits, List.append_nil]
    rw [toBits_length, valBits_toBits, hp]
    have e64 : 64 - 8 * (j + 1) = 56 - 8 * j := by omega
    have : bytes[j] % 2 ^ 8 = bytes[j] := Nat.mod_eq_of_lt (by norm_num; exact hx)
    rw [e64, this]
    ring

theorem ReadSingleValueFromBitFileBuffer_spec (b : bit_file_buffer_t) (n : Nat) (hwf : b.RdWF)
    (hn : n ≤ 64) (hlen : n ≤ b.rdBits.length) :
    (ReadSingleValueFromBitFileBuffer b n).1 = ((n : Int), valBits (b.rdBits.take n)) ∧
    (ReadSingleValueFromBitFileBuffer b n).2.RdWF ∧
    (ReadSingleValueFromBitFileBuffer b n).2.rdBits = b.rdBits.drop n ∧
    (ReadSingleValueFromBitFileBuffer b n).2.file_buffer.type = b.file_buffer.type ∧
    (ReadSingleValueFromBitFileBuffer b n).2.file_buffer.base_file.output
      = b.file_buffer.base_file.output := by
  obtain ⟨r1, r2, r3, r4, r5, r6, r7, r8⟩ := ReadBitFileBuffer_spec b n hwf hlen
  have hf := fold_bytes (ReadBitFileBuffer b n).1.2 r3 ((n + 7) / 8) (by rw [r2]) (by omega)
  rw [← r2, List.take_length, r4, valBits_append, valBits_replicate_false, List.length_replicate,
    r2, Nat.add_zero] at hf
  unfold ReadSingleValueFromBitFileBuffer
  rw [if_neg (by simp only [MAX_BIT_SIZE, MAX_SIZE]; omega)]
  simp only [r1, ne_eq, not_true_eq_false, if_false]
  refine ⟨?_, r5, r6, r7, r8⟩
  rw [hf, Nat.shiftRight_eq_div_pow, Nat.add_zero, Nat.mul_assoc, ← Nat.pow_add]
  simp only [MAX_BIT_SIZE, MAX_SIZE]
  have e : 8 * ((n + 7) / 8) - n + (64 - 8 * ((n + 7) / 8)) = 8 * 8 - n := by omega
  rw [e, Nat.mul_div_cancel _ (Nat.two_pow_pos _)]

/-! ## End of stream, mode switch, fresh buffers -/

theorem bytesBits_eq_nil (l : List Nat) : bytesBits l = [] ↔ l = [] := by
  constructor
  · intro h
    have := congrArg List.length h
    rw [bytesBits_length] at this
    simp at this
    exact this
  · intro h; rw [h]; rfl

theorem toBits_eq_nil (n v : Nat) : toBits n v = [] ↔ n = 0 := by
  constructor
  · intro h
    have := congrArg List.length h
    rw [toBits_length] at this
    simpa using this
  · intro h; rw [h]; rfl

theorem rdBits_eq_nil (b : bit_file_buffer_t) (hu : b.used_bits ≤ 8) :
    b.rdBits = [] ↔
      (b.file_buffer.remaining = [] ∧ b.used_bits = 8 ∧ b.extra_used_bits = 0) := by
  simp only [bit_file_buffer_t.rdBits, List.append_eq_nil, toBits_eq_nil, bytesBits_eq_nil]
  constructor
  · rintro ⟨⟨h1, h2⟩, h3⟩
    exact ⟨h2, by omega, h3⟩
  · rintro ⟨h1, h2, h3⟩
    exact ⟨⟨by omega, h1⟩, h3⟩

theorem EndOfBitFileBuffer_spec (b : bit_file_buffer_t) (hwf : b.RdWF) :
    (EndOfBitFileBuffer b).1 = (if b.rdBits = [] then 1 else 0) ∧
    (EndOfBitFileBuffer b).2.RdWF ∧
    (EndOfBitFileBuffer b).2.rdBits = b.rdBits ∧
    (EndOfBitFileBuffer b).2.file_buffer.type = b.file_buffer.type ∧
    (EndOfBitFileBuffer b).2.file_buffer.base_file.output = b.file_buffer.base_file.output := by
  obtain ⟨m1, m2, m3, m4⟩ := hwf
  obtain ⟨e1, e2, e3, e4, e5, e6, e7, e8⟩ := EndOfFileBuffer_spec b.file_buffer m1 m2 _ rfl
  have hnil := rdBits_eq_nil b m3
  unfold EndOfBitFileBuffer
  simp only [GetFileBufferMode, MAX_USED_BITS]
  have hrd : ({ b with file_buffer := (EndOfFileBuffer b.file_buffer).2 } : bit_file_buffer_t).rdBits
      = b.rdBits := by
    simp only [bit_file_buffer_t.rdBits, e5]
  by_cases hr : b.file_buffer.remaining = []
  · rw [if_pos hr] at e1
    rw [if_neg (by rw [e1]; simp), if_pos ⟨by rw [e3]; exact m1, by rw [e1]; simp⟩]
    refine ⟨?_, ⟨by rw [e3]; exact m1, e2, m3, m4⟩, hrd, e4, e7⟩
    by_cases hh : b.extra_used_bits = 0 ∧ b.used_bits = 8
    · rw [if_pos hh, if_pos (hnil.mpr ⟨hr, hh.2, hh.1⟩)]
    · rw [if_neg hh, if_neg (fun h => hh ⟨(hnil.mp h).2.2, (hnil.mp h).2.1⟩)]
  · rw [if_neg hr] at e1
    rw [if_neg (by rw [e1]; simp), if_neg (by rw [e1]; simp)]
    refine ⟨?_, ⟨by rw [e3]; exact m1, e2, m3, m4⟩, hrd, e4, e7⟩
    rw [if_neg (fun h => hr (hnil.mp h).1)]

theorem SetBitFileBufferMode_reading_spec (b : bit_file_buffer_t) (hwf : b.WrWF)
    (ht : b.file_buffer.type = FBT_MEMORY) :
    (SetBitFileBufferMode b FBM_READING).1 = NO_ERROR ∧
    (SetBitFileBufferMode b FBM_READING).2.RdWF ∧
    (SetBitFileBufferMode b FBM_READING).2.rdBits = b.wrBits ∧
    (SetBitFileBufferMode b FBM_READING).2.file_buffer.type = b.file_buffer.type := by
  obtain ⟨m1, m2, m3, m4, m5, m6⟩ := hwf
  have hw : SetBitFileBufferMode b FBM_READING = (NO_ERROR,
      { b with file_buffer := { b.file_buffer with mode := FBM_READING }
               extra_byte_buffer := b.byte_buffer
               extra_used_bits := b.used_bits
               used_bits := 8 }) := by
    unfold SetBitFileBufferMode SetFileBufferMode
    simp [GetFileBufferMode, m1, MAX_USED_BITS, NO_ERROR]
  rw [hw]
  refine ⟨rfl, ⟨rfl, m2, le_refl _, m4⟩, ?_, rfl⟩
  simp only [bit_file_buffer_t.rdBits, bit_file_buffer_t.wrBits, file_buffer_t.remaining,
    file_buffer_t.written, ht]
  simp [toBits]

theorem InitFileBufferInMemory_ok (stray : List Nat) (mode : file_buffer_mode_t) (cap : Nat)
    (fb : file_buffer_t) (h : InitFileBufferInMemory stray mode cap = .ok fb) :
    fb.io_buffer.WF ∧ fb.io_buffer.buffer_start = 0 ∧ fb.io_buffer.live = [] ∧
    fb.mode = mode ∧ fb.type = FBT_MEMORY ∧ fb.io_buffer.buffer_size = cap := by
  unfold InitFileBufferInMemory InitBuffer at h
  by_cases h1 : cap ≤ 0
  · simp [h1] at h
  · by_cases h2 : cap > MAX_USABLE_SIZE
    · simp [h1, h2] at h
    · simp only [if_neg h1, if_neg h2, Except.ok.injEq] at h
      subst h
      simp only [ClearBuffer, buffer_t.WF, buffer_t.live, GetUsedBufferSize, List.length_replicate]
      refine ⟨⟨trivial, by omega, by omega, by omega, by omega, by omega⟩, trivial, ?_, trivial,
        trivial, trivial⟩
      simp

theorem InitFileBuffer_ok (stray : List Nat) (file : FILE) (mode : file_buffer_mode_t) (cap : Nat)
    (fb : file_buffer_t) (h : InitFileBuffer stray file mode cap = .ok fb) :
    fb.io_buffer.WF ∧ fb.io_buffer.buffer_start = 0 ∧ fb.mode = mode ∧ fb.type = FBT_FILE ∧
    fb.remaining = file.input ∧ fb.base_file.output = file.output ∧
    (mode = FBM_WRITING → fb.io_buffer.live = [] ∧ fb.base_file = file) := by
  unfold InitFileBuffer InitBuffer at h
  by_cases h1 : cap ≤ 0
  · simp [h1] at h
  · by_cases h2 : cap > MAX_USABLE_SIZE
    · simp [h1, h2] at h
    · simp only [if_neg h1, if_neg h2] at h
      obtain ⟨fb0, hfb0⟩ : ∃ fb0 : file_buffer_t, fb0 =
          { base_file := file,
            io_buffer := ClearBuffer { buffer := List.replicate cap 0, buffer_size := cap,
                                       buffer_start := 0, buffer_end := 0, stray := stray },
            mode := mode, type := FBT_FILE } := ⟨_, rfl⟩
      rw [← hfb0] at h
      have hwf0 : fb0.io_buffer.WF := by
        rw [hfb0]
        simp only [ClearBuffer, buffer_t.WF, List.length_replicate]
        exact ⟨trivial, by omega, by omega, by omega, by omega, by omega⟩
      have hl0 : fb0.io_buffer.live = [] := by
        rw [hfb0]; simp [ClearBuffer, buffer_t.live, GetUsedBufferSize]
      have hr0 : fb0.remaining = file.input := by
        simp only [file_buffer_t.remaining, hl0]
        rw [hfb0]; simp
      by_cases hm : mode = FBM_READING
      · obtain ⟨a1, a2, a3, a4, a5, a6, a7, a8⟩ := RefillBufferFromFile_spec fb0 hwf0 _ rfl
        have hst : (RefillBufferFromFile fb0).2.io_buffer.buffer_start = 0 := by
          unfold RefillBufferFromFile
          have ht0 : fb0.type = FBT_FILE := by rw [hfb0]
          rw [if_pos ht0]
          exact (RefillBuffer_file fb0.io_buffer hwf0 fb0.base_file _ rfl).2.2.2.2.1
        simp only [if_pos hm, a1, NO_ERROR, ne_eq, not_true_eq_false, if_false,
          Except.ok.injEq] at h
        subst h
        refine ⟨a2, hst, by rw [a3, hfb0], by rw [a4, hfb0], by rw [a5, hr0], by rw [a7, hfb0], ?_⟩
        intro hh; rw [hm] at hh; cases hh
      · simp only [if_neg hm, Except.ok.injEq] at h
        subst h
        refine ⟨hwf0, by rw [hfb0]; rfl, by rw [hfb0], by rw [hfb0], hr0, by rw [hfb0], ?_⟩
        intro _
        exact ⟨hl0, by rw [hfb0]⟩

theorem InitBitFileBuffer_writing (fb : file_buffer_t) (hm : fb.mode = FBM_WRITING)
    (hwf : fb.io_buffer.WF) (hs : fb.io_buffer.buffer_start = 0) :
    (InitBitFileBuffer fb).WrWF ∧ (InitBitFileBuffer fb).wrBits = bytesBits fb.written ∧
    (InitBitFileBuffer fb).file_buffer = fb ∧ (InitBitFileBuffer fb).used_bits = 0 := by
  simp only [InitBitFileBuffer, ResetBufferByte, GetFileBufferMode, hm,
    bit_file_buffer_t.WrWF, bit_file_buffer_t.wrBits, toBits, List.append_nil]
  exact ⟨⟨trivial, hwf, hs, by omega, by omega, by simp⟩, trivial, trivial, trivial⟩

theorem InitBitFileBuffer_reading (fb : file_buffer_t) (hm : fb.mode = FBM_READING)
    (hwf : fb.io_buffer.WF) :
    (InitBitFileBuffer fb).RdWF ∧ (InitBitFileBuffer fb).rdBits = bytesBits fb.remaining ∧
    (InitBitFileBuffer fb).file_buffer = fb := by
  simp only [InitBitFileBuffer, ResetBufferByte, GetFileBufferMode, hm,
    bit_file_buffer_t.RdWF, bit_file_buffer_t.rdBits, MAX_USED_BITS, toBits, List.append_nil,
    Nat.sub_self, List.nil_append]
  exact ⟨⟨trivial, hwf, by omega, by omega⟩, trivial, trivial⟩

theorem valuesBits_length (vs : List (Nat × Nat)) : (valuesBits vs).length = totalBits vs := by
  induction vs with
  | nil => rfl
  | cons p rest ih =>
    simp only [valuesBits, totalBits, List.map_cons, List.flatten_cons, List.length_append,
      toBits_length, List.sum_cons] at ih ⊢
    rw [ih]

theorem valuesBits_cons (p : Nat × Nat) (rest : List (Nat × Nat)) :
    valuesBits (p :: rest) = toBits p.2 p.1 ++ valuesBits rest := by
  simp [valuesBits]

theorem totalBits_cons (p : Nat × Nat) (rest : List (Nat × Nat)) :
    totalBits (p :: rest) = p.2 + totalBits rest := by
  simp [totalBits]

theorem writeValues_spec : ∀ (vs : List (Nat × Nat)) (b : bit_file_buffer_t),
    b.WrWF → (∀ p ∈ vs, p.2 ≤ 64) → b.Room (totalBits vs) →
    (writeValues b vs).1 = vs.map (fun p => (p.2 : Int)) ∧
    (writeValues b vs).2.WrWF ∧
    (writeValues b vs).2.wrBits = b.wrBits ++ valuesBits vs ∧
    (writeValues b vs).2.file_buffer.type = b.file_buffer.type := by
  intro vs
  induction vs with
  | nil =>
    intro b hwf _ _
    simp [writeValues, valuesBits, hwf]
  | cons p rest ih =>
    intro b hwf hw hroom
    rw [totalBits_cons] at hroom
    obtain ⟨w1, w2, w3, w4, -, -, -⟩ := WriteSingleValueToBitFileBuffer_spec b p.1 p.2 hwf
      (hw p (List.mem_cons_self _ _)) (Room_mono b _ _ (by omega) hroom)
    have hroom' : (WriteSingleValueToBitFileBuffer b p.1 p.2).2.Room (totalBits rest) := by
      apply Room_of_wrBits b _ _ _ w4 w3
      rw [toBits_length]; exact hroom
    obtain ⟨i1, i2, i3, i4⟩ := ih _ w2 (fun q hq => hw q (List.mem_cons_of_mem _ hq)) hroom'
    simp only [writeValues, List.map_cons]
    refine ⟨by rw [w1, i1], i2, ?_, by rw [i4, w4]⟩
    rw [i3, w3, valuesBits_cons, List.append_assoc]

theorem readValues_spec : ∀ (vs : List (Nat × Nat)) (b : bit_file_buffer_t) (tail : List Bool),
    b.RdWF → (∀ p ∈ vs, p.2 ≤ 64) → b.rdBits = valuesBits vs ++ tail →
    (readValues b (vs.map Prod.snd)).1 = vs.map (fun p => ((p.2 : Int), p.1 % 2 ^ p.2)) ∧
    (readValues b (vs.map Prod.snd)).2.RdWF ∧
    (readValues b (vs.map Prod.snd)).2.rdBits = tail := by
  intro vs
  induction vs with
  | nil =>
    intro b tail hwf _ hb
    simp only [valuesBits, List.map_nil, List.flatten_nil, List.nil_append] at hb
    simp [readValues, hwf, hb]
  | cons p rest ih =>
    intro b tail hwf hw hb
    rw [valuesBits_cons, List.append_assoc] at hb
    have hlen : p.2 ≤ b.rdBits.length := by
      rw [hb, List.length_append, toBits_length]; omega
    obtain ⟨r1, r2, r3, -, -⟩ := ReadSingleValueFromBitFileBuffer_spec b p.2 hwf
      (hw p (List.mem_cons_self _ _)) hlen
    have ht := take_append_len (toBits p.2 p.1) (valuesBits rest ++ tail) p.2 0 (toBits_length _ _)
    have hd := drop_append_len (toBits p.2 p.1) (valuesBits rest ++ tail) p.2 0 (toBits_length _ _)
    rw [Nat.add_zero, List.take_zero, List.append_nil] at ht
    rw [Nat.add_zero, List.drop_zero] at hd
    rw [hb, ht, valBits_toBits] at r1
    rw [hb, hd] at r3
    obtain ⟨i1, i2, i3⟩ := ih _ tail r2 (fun q hq => hw q (List.mem_cons_of_mem _ hq)) r3
    simp only [readValues, List.map_cons]
    exact ⟨by rw [r1, i1], i2, i3⟩

theorem readValues_drop : ∀ (ws : List Nat) (b : bit_file_buffer_t),
    b.RdWF → (∀ n ∈ ws, n ≤ 64) → ws.sum ≤ b.rdBits.length →
    (readValues b ws).1.map Prod.fst = ws.map Int.ofNat ∧
    (readValues b ws).2.RdWF ∧
    (readValues b ws).2.rdBits = b.rdBits.drop ws.sum := by
  intro ws
  induction ws with
  | nil =>
    intro b hwf _ _
    simp [readValues, hwf]
  | cons n rest ih =>
    intro b hwf hw hlen
    rw [List.sum_cons] at hlen
    obtain ⟨r1, r2, r3, -, -⟩ := ReadSingleValueFromBitFileBuffer_spec b n hwf
      (hw n (List.mem_cons_self _ _)) (by omega)
    obtain ⟨i1, i2, i3⟩ := ih _ r2 (fun q hq => hw q (List.mem_cons_of_mem _ hq))
      (by rw [r3, List.length_drop]; omega)
    simp only [readValues, List.map_cons, List.sum_cons]
    refine ⟨by rw [r1, i1]; rfl, i2, ?_⟩
    rw [i3, r3, List.drop_drop, Nat.add_comm]

theorem toBits_getElem? (n v i : Nat) (h : i < n) :
    (toBits n v)[i]? = some (v.testBit (n - 1 - i)) := by
  induction n generalizing i with
  | zero => omega
  | succ n ih =>
    simp only [toBits]
    cases i with
    | zero => simp
    | succ i =>
      rw [List.getElem?_cons_succ, ih i (by omega)]
      congr 2
      omega

theorem fresh_memory_writing (stray : List Nat) (cap : Nat) (fb : file_buffer_t)
    (hinit : InitFileBufferInMemory stray FBM_WRITING cap = .ok fb) :
    (InitBitFileBuffer fb).WrWF ∧ (InitBitFileBuffer fb).wrBits = [] ∧
    (InitBitFileBuffer fb).file_buffer.type = FBT_MEMORY ∧
    ∀ n, n ≤ 4 * MAX_USABLE_SIZE → (InitBitFileBuffer fb).Room n := by
  obtain ⟨a1, a2, a3, a4, a5, -⟩ := InitFileBufferInMemory_ok stray FBM_WRITING cap fb hinit
  obtain ⟨b1, b2, b3, b4⟩ := InitBitFileBuffer_writing fb a4 a1 a2
  refine ⟨b1, ?_, by rw [b3, a5], ?_⟩
  · rw [b2]; simp [file_buffer_t.written, a5, a3, bytesBits]
  · intro n hn _
    rw [b3, a3, b4]
    simp only [List.length_nil]
    omega

/-- Writing a list of values to a fresh memory-only bit buffer and flipping it to reading. -/
theorem write_flip_spec (stray : List Nat) (cap : Nat) (fb : file_buffer_t)
    (vs : List (Nat × Nat))
    (hinit : InitFileBufferInMemory stray FBM_WRITING cap = .ok fb)
    (hw : ∀ p ∈ vs, p.2 ≤ 64) (hroom : totalBits vs ≤ 4 * MAX_USABLE_SIZE) :
    (writeValues (InitBitFileBuffer fb) vs).1 = vs.map (fun p => (p.2 : Int)) ∧
    (SetBitFileBufferMode (writeValues (InitBitFileBuffer fb) vs).2 FBM_READING).1 = NO_ERROR ∧
    (SetBitFileBufferMode (writeValues (InitBitFileBuffer fb) vs).2 FBM_READING).2.RdWF ∧
    (SetBitFileBufferMode (writeValues (InitBitFileBuffer fb) vs).2 FBM_READING).2.rdBits
      = valuesBits vs := by
  obtain ⟨f1, f2, f3, f4⟩ := fresh_memory_writing stray cap fb hinit
  obtain ⟨w1, w2, w3, w4⟩ := writeValues_spec vs _ f1 hw (f4 _ hroom)
  obtain ⟨s1, s2, s3, -⟩ := SetBitFileBufferMode_reading_spec _ w2 (by rw [w4, f3])
  refine ⟨w1, s1, s2, ?_⟩
  rw [s3, w3, f2, List.nil_append]

theorem toI64_small (n : Nat) (h : n < 2 ^ 63) : toI64 n = (n : Int) := by
  unfold toI64
  have h1 : n % 2 ^ 64 = n := Nat.mod_eq_of_lt (by omega)
  rw [h1, if_pos h]

theorem LOG_ON_ERROR_AND_RETURN_ok (n : Nat) (h : n < 2 ^ 63) :
    LOG_ON_ERROR_AND_RETURN (n : Int) n = none := by
  unfold LOG_ON_ERROR_AND_RETURN
  have h1 : n % 2 ^ 64 = n := Nat.mod_eq_of_lt (by omega)
  rw [h1, toI64_small n h]
  simp

theorem toU64_toI64 (x : Nat) (h : x < 2 ^ 64) : toU64 (toI64 x) = x := by
  unfold toU64 toI64
  have h1 : x % 2 ^ 64 = x := Nat.mod_eq_of_lt h
  rw [h1]
  split <;> omega

theorem toI64_range (x : Nat) : -(2 ^ 63 : Int) ≤ toI64 x ∧ toI64 x < 2 ^ 63 := by
  unfold toI64
  have := Nat.mod_lt x (show 0 < 2 ^ 64 by decide)
  split <;> omega

theorem toU64_lt (v : Int) : toU64 v < 2 ^ 64 := by
  unfold toU64
  omega

theorem wrapI64_of_range (v : Int) (h0 : -(2 ^ 63 : Int) ≤ v) (h1 : v < 2 ^ 63) :
    wrapI64 v = v := by
  unfold wrapI64 toU64 toI64
  split <;> omega

theorem wrapI64_range (v : Int) : -(2 ^ 63 : Int) ≤ wrapI64 v ∧ wrapI64 v < 2 ^ 63 :=
  toI64_range _

theorem wrapI64_add_sub (a b : Int) (ha0 : -(2 ^ 63 : Int) ≤ a) (ha1 : a < 2 ^ 63) :
    wrapI64 (wrapI64 (a - b) + b) = a := by
  unfold wrapI64 toU64 toI64
  split <;> split <;> omega

theorem toI64_toU64 (v : Int) (h0 : -(2 ^ 63 : Int) ≤ v) (h1 : v < 2 ^ 63) :
    toI64 (toU64 v) = v := wrapI64_of_range v h0 h1

/-- The low `n` bits of the 64-bit pattern of `D` are `D mod 2 ^ n`. -/
theorem toU64_mod (D : Int) (n : Nat) (hn : n ≤ 64) :
    ((toU64 D % 2 ^ n : Nat) : Int) = D % 2 ^ n := by
  unfold toU64
  have hd : ((2 : Int) ^ n) ∣ 2 ^ 64 := pow_dvd_pow 2 hn
  have h0 : 0 ≤ D % (2 ^ 64 : Int) := Int.emod_nonneg _ (by decide)
  rw [Int.natCast_mod, Int.toNat_of_nonneg h0]
  push_cast
  exact Int.emod_emod_of_dvd D hd

theorem sval_of_mod (D : Int) (n : Nat) (hn1 : 1 ≤ n) (hn : n ≤ 64)
    (h0 : -(2 ^ (n - 1) : Int) ≤ D) (h1 : D < 2 ^ (n - 1)) :
    sval n (toU64 D % 2 ^ n) = D := by
  have hm := toU64_mod D n hn
  have hN : (2 : Int) ^ n = 2 * 2 ^ (n - 1) := by
    have : n = (n - 1) + 1 := by omega
    conv_lhs => rw [this, pow_succ]
    ring
  have hP : (0 : Int) < 2 ^ (n - 1) := by positivity
  unfold sval
  have hcast : ((2 ^ (n - 1) : Nat) : Int) = 2 ^ (n - 1) := by push_cast; rfl
  by_cases hD : 0 ≤ D
  · have e : D % 2 ^ n = D := Int.emod_eq_of_lt hD (by omega)
    rw [e] at hm
    have hlt : toU64 D % 2 ^ n < 2 ^ (n - 1) := by
      have : ((toU64 D % 2 ^ n : Nat) : Int) < ((2 ^ (n - 1) : Nat) : Int) := by
        rw [hm, hcast]; exact h1
      exact Int.ofNat_lt.mp this
    rw [if_pos hlt, hm]
  · have e : D % 2 ^ n = D + 2 ^ n := by
      have : (D + 2 ^ n) % 2 ^ n = D + 2 ^ n := Int.emod_eq_of_lt (by omega) (by omega)
      rw [← this, Int.add_emod_self]
    rw [e] at hm
    have hge : ¬ toU64 D % 2 ^ n < 2 ^ (n - 1) := by
      intro hlt
      have : ((toU64 D % 2 ^ n : Nat) : Int) < ((2 ^ (n - 1) : Nat) : Int) := Int.ofNat_lt.mpr hlt
      rw [hm, hcast] at this
      omega
    rw [if_neg hge, hm]
    omega

theorem EXTEND_IO_INT_SIGN_spec (n d : Nat) (hn1 : 1 ≤ n) (hn : n ≤ 64) (hd : d < 2 ^ n) :
    EXTEND_IO_INT_SIGN (toI64 d) n = sval n d := by
  unfold EXTEND_IO_INT_SIGN sval IO_SIZE_BITS
  by_cases h64 : n = 64
  · subst h64
    rw [if_pos rfl]
    unfold toI64
    have h1 : d % 2 ^ 64 = d := Nat.mod_eq_of_lt hd
    rw [h1]
  · rw [if_neg h64]
    have hd64 : d < 2 ^ 64 := lt_of_lt_of_le hd (Nat.pow_le_pow_right (by decide) hn)
    rw [toU64_toI64 d hd64, Nat.shiftLeft_eq]
    have hNQ : 2 ^ n * 2 ^ (64 - n) = 2 ^ 64 := by
      rw [← Nat.pow_add]; congr 1; omega
    have hPQ : 2 ^ (n - 1) * 2 ^ (64 - n) = 2 ^ 63 := by
      rw [← Nat.pow_add]; congr 1; omega
    have hQ : 0 < 2 ^ (64 - n) := Nat.two_pow_pos _
    have hlt : d * 2 ^ (64 - n) < 2 ^ 64 := by
      rw [← hNQ]; exact Nat.mul_lt_mul_of_pos_right hd hQ
    rw [Nat.mod_eq_of_lt hlt]
    unfold toI64
    rw [Nat.mod_eq_of_lt hlt]
    have hQi : ((2 : Int) ^ (64 - n)) ≠ 0 := by positivity
    by_cases hp : d < 2 ^ (n - 1)
    · have : d * 2 ^ (64 - n) < 2 ^ 63 := by
        rw [← hPQ]; exact Nat.mul_lt_mul_of_pos_right hp hQ
      rw [if_pos this, if_pos hp]
      push_cast
      exact Int.mul_ediv_cancel _ hQi
    · have : ¬ d * 2 ^ (64 - n) < 2 ^ 63 := by
        rw [← hPQ]
        intro hh
        exact hp (Nat.lt_of_mul_lt_mul_right hh)
      rw [if_neg this, if_neg hp]
      have e : (((d * 2 ^ (64 - n) : Nat) : Int) - 2 ^ 64) = ((d : Int) - 2 ^ n) * 2 ^ (64 - n) := by
        have : ((2 : Int) ^ 64) = 2 ^ n * 2 ^ (64 - n) := by exact_mod_cast hNQ.symm
        rw [this]; push_cast; ring
      rw [e]
      exact Int.mul_ediv_cancel _ hQi

theorem sval_range (n x : Nat) (hn1 : 1 ≤ n) (hx : x < 2 ^ n) :
    -(2 ^ (n - 1) : Int) ≤ sval n x ∧ sval n x < 2 ^ (n - 1) := by
  have hN : (2 : Nat) ^ n = 2 * 2 ^ (n - 1) := by
    have : n = (n - 1) + 1 := by omega
    conv_lhs => rw [this, Nat.pow_succ]
    ring
  have hNi : (2 : Int) ^ n = 2 * 2 ^ (n - 1) := by exact_mod_cast hN
  have hcast : ((2 ^ (n - 1) : Nat) : Int) = 2 ^ (n - 1) := by push_cast; rfl
  unfold sval
  split
  · rename_i h
    have : ((x : Nat) : Int) < ((2 ^ (n - 1) : Nat) : Int) := Int.ofNat_lt.mpr h
    rw [hcast] at this
    constructor <;> omega
  · rename_i h
    have h2 : ((2 ^ (n - 1) : Nat) : Int) ≤ (x : Int) := Int.ofNat_le.mpr (by omega)
    have h3 : ((x : Nat) : Int) < ((2 * 2 ^ (n - 1) : Nat) : Int) := Int.ofNat_lt.mpr (by omega)
    rw [hcast] at h2
    push_cast at h3
    constructor <;> omega

/-- The `n`-bit pattern of the two's-complement value of an `n`-bit pattern is the pattern. -/
theorem toU64_sval_mod (n x : Nat) (hn : n ≤ 64) (hx : x < 2 ^ n) :
    toU64 (sval n x) % 2 ^ n = x := by
  have hm := toU64_mod (sval n x) n hn
  have e : sval n x % 2 ^ n = (x : Int) := by
    unfold sval
    have hxi : ((x : Nat) : Int) < 2 ^ n := by exact_mod_cast hx
    split
    · exact Int.emod_eq_of_lt (by omega) hxi
    · rw [Int.sub_emod, Int.emod_self, Int.sub_zero, Int.emod_emod]
      exact Int.emod_eq_of_lt (by omega) hxi
  rw [e] at hm
  exact Int.ofNat_inj.mp hm

theorem atWidth_cons (n x : Nat) (rest : List Nat) :
    atWidth n (x :: rest) = (x, n) :: atWidth n rest := rfl

theorem totalBits_atWidth (n : Nat) (xs : List Nat) : totalBits (atWidth n xs) = n * xs.length := by
  induction xs with
  | nil => rfl
  | cons x rest ih =>
    rw [atWidth_cons, totalBits_cons, ih, List.length_cons]
    simp only [Nat.mul_succ]
    omega

/-- Reading one value at the head of a stream of values: end-of-stream test, read, macro. -/
theorem read_head (inb : bit_file_buffer_t) (n x : Nat) (tail : List Bool) (hin : inb.RdWF)
    (hn1 : 1 ≤ n) (hn : n ≤ 64) (hx : x < 2 ^ n) (hb : inb.rdBits = toBits n x ++ tail) :
    (EndOfBitFileBuffer inb).1 = 0 ∧
    (ReadSingleValueFromBitFileBuffer (EndOfBitFileBuffer inb).2 n).1 = ((n : Int), x) ∧
    (ReadSingleValueFromBitFileBuffer (EndOfBitFileBuffer inb).2 n).2.RdWF ∧
    (ReadSingleValueFromBitFileBuffer (EndOfBitFileBuffer inb).2 n).2.rdBits = tail ∧
    LOG_ON_ERROR_AND_RETURN (n : Int) n = none := by
  obtain ⟨e1, e2, e3, -, -⟩ := EndOfBitFileBuffer_spec inb hin
  have hne : inb.rdBits ≠ [] := by
    intro h
    have := congrArg List.length h
    rw [hb, List.length_append, toBits_length, List.length_nil] at this
    omega
  rw [if_neg hne] at e1
  obtain ⟨r1, r2, r3, -, -⟩ := ReadSingleValueFromBitFileBuffer_spec (EndOfBitFileBuffer inb).2 n e2
    hn (by rw [e3, hb, List.length_append, toBits_length]; omega)
  have ht := take_append_len (toBits n x) tail n 0 (toBits_length _ _)
  have hd := drop_append_len (toBits n x) tail n 0 (toBits_length _ _)
  rw [Nat.add_zero, List.take_zero, List.append_nil] at ht
  rw [Nat.add_zero, List.drop_zero] at hd
  rw [e3, hb, ht, valBits_toBits, Nat.mod_eq_of_lt hx] at r1
  rw [e3, hb, hd] at r3
  exact ⟨e1, r1, r2, r3, LOG_ON_ERROR_AND_RETURN_ok n (by omega)⟩

/-- The end-of-stream test on an input without unread bits. -/
theorem read_end (inb : bit_file_buffer_t) (hin : inb.RdWF) (hb : inb.rdBits = []) :
    (EndOfBitFileBuffer inb).1 ≠ 0 ∧ (EndOfBitFileBuffer inb).2.RdWF ∧
    (EndOfBitFileBuffer inb).2.rdBits = [] := by
  obtain ⟨e1, e2, e3, -, -⟩ := EndOfBitFileBuffer_spec inb hin
  rw [if_pos hb] at e1
  exact ⟨by rw [e1]; decide, e2, by rw [e3, hb]⟩

theorem shift_bound (n : Nat) (hn1 : 1 ≤ n) (hn : n < 64) :
    toI64 ((1 <<< (n - 1)) % 2 ^ 64) = 2 ^ (n - 1) ∧
    wrapI64 (toI64 ((1 <<< (n - 1)) % 2 ^ 64) - 1) = 2 ^ (n - 1) - 1 := by
  have hlt : 2 ^ (n - 1) < 2 ^ 63 := Nat.pow_lt_pow_right (by decide) (by omega)
  have h1 : toI64 ((1 <<< (n - 1)) % 2 ^ 64) = ((2 ^ (n - 1) : Nat) : Int) := by
    rw [Nat.one_shiftLeft, Nat.mod_eq_of_lt (by omega), toI64_small _ hlt]
  have hc : ((2 ^ (n - 1) : Nat) : Int) = 2 ^ (n - 1) := by push_cast; rfl
  have hp : (0 : Int) < 2 ^ (n - 1) := by positivity
  have hlt' : ((2 ^ (n - 1) : Nat) : Int) < ((2 ^ 63 : Nat) : Int) := Int.ofNat_lt.mpr hlt
  rw [hc] at hlt' h1
  refine ⟨h1, ?_⟩
  rw [h1]
  apply wrapI64_of_range
  · omega
  · push_cast at hlt'; omega

theorem EncodeDifferentialLoop_spec (opts : options_t) (hn1 : 1 ≤ opts.value_size_bits)
    (hn : opts.value_size_bits ≤ 64) :
    ∀ (xs : List Nat) (fuel : Nat) (inb outb : bit_file_buffer_t) (last : Int),
    inb.RdWF → outb.WrWF → inb.rdBits = valuesBits (atWidth opts.value_size_bits xs) →
    (∀ x ∈ xs, x < 2 ^ opts.value_size_bits) →
    outb.Room (opts.value_size_bits * xs.length) → xs.length < fuel →
    (opts.value_size_bits < 64 → 0 ≤ last ∧ last < 2 ^ 63) →
    (EncodeDifferentialLoop fuel inb outb opts last).1
      = (if opts.value_size_bits = 64 ∨ diffsInRange opts.value_size_bits last xs then NO_ERROR
         else ERROR_INVALID_VALUE) ∧
    (opts.value_size_bits = 64 ∨ diffsInRange opts.value_size_bits last xs →
      (EncodeDifferentialLoop fuel inb outb opts last).2.2.WrWF ∧
      (EncodeDifferentialLoop fuel inb outb opts last).2.2.wrBits
        = outb.wrBits ++ valuesBits (diffCode opts.value_size_bits last xs) ∧
      (EncodeDifferentialLoop fuel inb outb opts last).2.2.file_buffer.type
        = outb.file_buffer.type) := by
  intro xs
  induction xs with
  | nil =>
    intro fuel inb outb last hin hout hb _ _ hf _
    obtain ⟨f, rfl⟩ : ∃ f, fuel = f + 1 := ⟨fuel - 1, by omega⟩
    obtain ⟨e1, -, -⟩ := read_end inb hin hb
    unfold EncodeDifferentialLoop
    simp only [e1, ne_eq, not_false_eq_true, if_true, diffsInRange, or_true, diffCode, valuesBits,
      List.map_nil, List.flatten_nil, List.append_nil]
    exact ⟨trivial, fun _ => ⟨hout, trivial, trivial⟩⟩
  | cons x rest ih =>
    intro fuel inb outb last hin hout hb hx hroom hf hlast
    obtain ⟨f, rfl⟩ : ∃ f, fuel = f + 1 := ⟨fuel - 1, by omega⟩
    rw [atWidth_cons, valuesBits_cons] at hb
    have hx0 := hx x (List.mem_cons_self _ _)
    obtain ⟨e1, r1, r2, r3, hlog⟩ := read_head inb opts.value_size_bits x _ hin hn1 hn hx0 hb
    rw [List.length_cons, Nat.mul_succ] at hroom
    obtain ⟨w1, w2, w3, w4, -, -, -⟩ := WriteSingleValueToBitFileBuffer_spec outb
      (toU64 (wrapI64 (toI64 x - last))) opts.value_size_bits hout hn
      (Room_mono outb _ _ (by omega) hroom)
    have hroom' : (WriteSingleValueToBitFileBuffer outb (toU64 (wrapI64 (toI64 x - last)))
        opts.value_size_bits).2.Room (opts.value_size_bits * rest.length) := by
      apply Room_of_wrBits outb _ _ _ w4 w3
      rw [toBits_length, Nat.add_comm]; exact hroom
    have hx64 : x < 2 ^ 64 := lt_of_lt_of_le hx0 (Nat.pow_le_pow_right (by decide) hn)
    have hrec := ih f _ _ (toI64 x) r2 w2 r3 (fun y hy => hx y (List.mem_cons_of_mem _ hy)) hroom'
      (by simp only [List.length_cons] at hf; omega)
      (by
        intro h64
        have : x < 2 ^ 63 := lt_of_lt_of_le hx0 (Nat.pow_le_pow_right (by decide) (by omega))
        rw [toI64_small x this]
        omega)
    unfold EncodeDifferentialLoop
    simp only [e1, ne_eq, not_true_eq_false, if_false, r1, hlog, IO_SIZE_BITS]
    by_cases h64 : opts.value_size_bits = 64
    · simp only [h64, not_true_eq_false, false_and, if_false, true_or, if_true, forall_true_left]
      simp only [h64, true_or, if_true, forall_true_left] at hrec w1 w3 w4
      rw [h64] at hlog
      simp only [w1, hlog]
      refine ⟨hrec.1, hrec.2.1, ?_, by rw [hrec.2.2.2, w4]⟩
      rw [hrec.2.2.1, w3, diffCode, valuesBits_cons, List.append_assoc]
    · have hlt : opts.value_size_bits < 64 := by omega
      obtain ⟨b1, b2⟩ := shift_bound opts.value_size_bits hn1 hlt
      have hx63 : x < 2 ^ 63 := lt_of_lt_of_le hx0 (Nat.pow_le_pow_right (by decide) (by omega))
      have hxi : toI64 x = (x : Int) := toI64_small x hx63
      have hl := hlast hlt
      have hxc : ((x : Nat) : Int) < 2 ^ 63 := by exact_mod_cast hx63
      have hd : wrapI64 ((x : Int) - last) = (x : Int) - last := by
        apply wrapI64_of_range <;> omega
      rw [b1] at b2
      rw [hxi, hd] at hrec w1 w2 w3 w4
      simp only [h64, false_or] at hrec ⊢
      simp only [not_false_eq_true, true_and, b1, b2, hd, hxi]
      by_cases hg : (x : Int) - last < -(2 ^ (opts.value_size_bits - 1))
          ∨ (x : Int) - last > 2 ^ (opts.value_size_bits - 1) - 1
      · have hnr : ¬ diffsInRange opts.value_size_bits last (x :: rest) := by
          unfold diffsInRange
          intro hh
          omega
        simp only [hg, if_true, hnr, if_false, false_imp_iff, and_true]
      · have hr : diffsInRange opts.value_size_bits last (x :: rest)
            ↔ diffsInRange opts.value_size_bits (x : Int) rest := by
          conv_lhs => unfold diffsInRange
          constructor
          · exact fun h => h.2
          · exact fun h => ⟨by omega, h⟩
        simp only [hg, if_false, w1, hlog, hr]
        refine ⟨hrec.1, fun h => ?_⟩
        obtain ⟨i1, i2, i3⟩ := hrec.2 h
        refine ⟨i1, ?_, by rw [i3, w4]⟩
        rw [i2, w3, diffCode, valuesBits_cons, List.append_assoc, hxi, hd]

theorem pow_pred_bound (n : Nat) (hn1 : 1 ≤ n) (hn : n ≤ 64) :
    (2 : Int) ^ (n - 1) ≤ 2 ^ 63 ∧ (0 : Int) < 2 ^ (n - 1) := by
  have h : 2 ^ (n - 1) ≤ 2 ^ 63 := Nat.pow_le_pow_right (by decide) (by omega)
  have h2 : ((2 ^ (n - 1) : Nat) : Int) ≤ ((2 ^ 63 : Nat) : Int) := Int.ofNat_le.mpr h
  push_cast at h2
  exact ⟨h2, by positivity⟩

theorem DecodeDifferentialLoop_spec (opts : options_t) (hn1 : 1 ≤ opts.value_size_bits)
    (hn : opts.value_size_bits ≤ 64) :
    ∀ (xs : List Nat) (fuel : Nat) (inb outb : bit_file_buffer_t) (last : Int),
    inb.RdWF → outb.WrWF →
    inb.rdBits = valuesBits (diffCode opts.value_size_bits last xs) →
    (∀ x ∈ xs, x < 2 ^ opts.value_size_bits) →
    outb.Room (opts.value_size_bits * xs.length) → xs.length < fuel →
    (opts.value_size_bits < 64 → 0 ≤ last ∧ last < 2 ^ 63) →
    (opts.value_size_bits = 64 ∨ diffsInRange opts.value_size_bits last xs) →
    (DecodeDifferentialLoop fuel inb outb opts last).1 = NO_ERROR ∧
    (DecodeDifferentialLoop fuel inb outb opts last).2.2.WrWF ∧
    (DecodeDifferentialLoop fuel inb outb opts last).2.2.wrBits
      = outb.wrBits ++ valuesBits (atWidth opts.value_size_bits xs) ∧
    (DecodeDifferentialLoop fuel inb outb opts last).2.2.file_buffer.type
      = outb.file_buffer.type := by
  intro xs
  induction xs with
  | nil =>
    intro fuel inb outb last hin hout hb _ _ hf _ _
    obtain ⟨f, rfl⟩ : ∃ f, fuel = f + 1 := ⟨fuel - 1, by omega⟩
    obtain ⟨e1, -, -⟩ := read_end inb hin hb
    unfold DecodeDifferentialLoop
    simp only [e1, ne_eq, not_false_eq_true, if_true, atWidth, valuesBits,
      List.map_nil, List.flatten_nil, List.append_nil]
    exact ⟨trivial, hout, trivial, trivial⟩
  | cons x rest ih =>
    intro fuel inb outb last hin hout hb hx hroom hf hlast hrange
    obtain ⟨f, rfl⟩ : ∃ f, fuel = f + 1 := ⟨fuel - 1, by omega⟩
    have hx0 := hx x (List.mem_cons_self _ _)
    have hx64 : x < 2 ^ 64 := lt_of_lt_of_le hx0 (Nat.pow_le_pow_right (by decide) hn)
    obtain ⟨p1, p2⟩ := pow_pred_bound opts.value_size_bits hn1 hn
    -- the difference that the encoder wrote
    obtain ⟨D, hD⟩ : ∃ D : Int, D = wrapI64 (toI64 x - last) := ⟨_, rfl⟩
    have hDr : -(2 ^ (opts.value_size_bits - 1) : Int) ≤ D ∧ D < 2 ^ (opts.value_size_bits - 1) := by
      by_cases h64 : opts.value_size_bits = 64
      · have := wrapI64_range (toI64 x - last)
        rw [← hD] at this
        rw [h64]
        exact this
      · have hlt : opts.value_size_bits < 64 := by omega
        have hx63 : x < 2 ^ 63 :=
          lt_of_lt_of_le hx0 (Nat.pow_le_pow_right (by decide) (by omega))
        have hxi : toI64 x = (x : Int) := toI64_small x hx63
        have hxc : ((x : Nat) : Int) < 2 ^ 63 := by exact_mod_cast hx63
        have hl := hlast hlt
        have hd : wrapI64 ((x : Int) - last) = (x : Int) - last := by
          apply wrapI64_of_range <;> omega
        rw [hxi, hd] at hD
        rcases hrange with h | h
        · exact absurd h h64
        · unfold diffsInRange at h
          rw [hD]
          constructor <;> omega
    have hrange' : opts.value_size_bits = 64 ∨ diffsInRange opts.value_size_bits (toI64 x) rest := by
      by_cases h64 : opts.value_size_bits = 64
      · exact Or.inl h64
      · rcases hrange with h | h
        · exact Or.inl h
        · right
          have hx63 : x < 2 ^ 63 :=
            lt_of_lt_of_le hx0 (Nat.pow_le_pow_right (by decide) (by omega))
          rw [toI64_small x hx63]
          unfold diffsInRange at h
          exact h.2
    rw [diffCode, valuesBits_cons] at hb
    simp only [] at hb
    rw [← hD, ← toBits_mod opts.value_size_bits opts.value_size_bits (toU64 D) (Nat.le_refl _)] at hb
    have hdlt : toU64 D % 2 ^ opts.value_size_bits < 2 ^ opts.value_size_bits :=
      Nat.mod_lt _ (Nat.two_pow_pos _)
    obtain ⟨e1, r1, r2, r3, hlog⟩ := read_head inb opts.value_size_bits _ _ hin hn1 hn hdlt hb
    have hext := EXTEND_IO_INT_SIGN_spec opts.value_size_bits _ hn1 hn hdlt
    rw [sval_of_mod D opts.value_size_bits hn1 hn hDr.1 hDr.2] at hext
    have hxr := toI64_range x
    have hval : wrapI64 (D + last) = toI64 x := by
      rw [hD]; exact wrapI64_add_sub (toI64 x) last hxr.1 hxr.2
    rw [List.length_cons, Nat.mul_succ] at hroom
    obtain ⟨w1, w2, w3, w4, -, -, -⟩ := WriteSingleValueToBitFileBuffer_spec outb
      x opts.value_size_bits hout hn (Room_mono outb _ _ (by omega) hroom)
    have hroom' : (WriteSingleValueToBitFileBuffer outb x opts.value_size_bits).2.Room
        (opts.value_size_bits * rest.length) := by
      apply Room_of_wrBits outb _ _ _ w4 w3
      rw [toBits_length, Nat.add_comm]; exact hroom
    have hrec := ih f _ _ (toI64 x) r2 w2 r3 (fun y hy => hx y (List.mem_cons_of_mem _ hy)) hroom'
      (by simp only [List.length_cons] at hf; omega)
      (by
        intro h64
        have : x < 2 ^ 63 := lt_of_lt_of_le hx0 (Nat.pow_le_pow_right (by decide) (by omega))
        rw [toI64_small x this]
        omega)
      hrange'
    unfold DecodeDifferentialLoop
    simp only [e1, ne_eq, not_true_eq_false, if_false, r1, hlog, hext, hval, toU64_toI64 x hx64, w1]
    obtain ⟨i1, i2, i3, i4⟩ := hrec
    refine ⟨i1, i2, ?_, by rw [i4, w4]⟩
    rw [i3, w3, atWidth_cons, valuesBits_cons, List.append_assoc]

theorem log2_step (t : Nat) (h : 2 ≤ t) : Nat.log2 t = Nat.log2 (t / 2) + 1 := by
  rw [Nat.log2]
  simp [h]

theorem log2_small (t : Nat) (h : t < 2) : Nat.log2 t = 0 := by
  rw [Nat.log2]
  simp
  omega

theorem prefixLengthLoop_eq : ∀ (fuel t acc : Nat), t < 2 ^ (fuel + 1) →
    prefixLengthLoop fuel t acc = acc + Nat.log2 t := by
  intro fuel
  induction fuel with
  | zero =>
    intro t acc ht
    simp only [prefixLengthLoop]
    rw [log2_small t (by simpa using ht)]
    rfl
  | succ fuel ih =>
    intro t acc ht
    simp only [prefixLengthLoop, Nat.shiftRight_eq_div_pow, Nat.pow_one]
    by_cases h : t / 2 ≠ 0
    · rw [if_pos h]
      have h2 : 2 ≤ t := by omega
      rw [ih (t / 2) (acc + 1) (by rw [Nat.pow_succ] at ht; omega), log2_step t h2]
      omega
    · rw [if_neg h]
      rw [log2_small t (by omega)]
      rfl

theorem log2_bounds (w : Nat) (h1 : 1 ≤ w) (h2 : w < 2 ^ 64) :
    2 ^ Nat.log2 w ≤ w ∧ w < 2 ^ (Nat.log2 w + 1) ∧ Nat.log2 w ≤ 63 := by
  refine ⟨Nat.log2_self_le (by omega), Nat.lt_log2_self, ?_⟩
  have := (Nat.log2_lt (n := w) (k := 64) (by omega)).mpr h2
  omega

theorem uegBits_length (u : Nat) : (uegBits u).length = 2 * Nat.log2 (u + 1) + 1 := by
  simp only [uegBits, List.length_append, List.length_replicate, toBits_length]
  omega

theorem EncodeUEGCodeword_spec (u : Nat) (outb : bit_file_buffer_t) (hu : u + 1 < 2 ^ 64)
    (hout : outb.WrWF) (hroom : outb.Room (uegBits u).length) :
    (EncodeUEGCodeword u outb).1 = NO_ERROR ∧
    (EncodeUEGCodeword u outb).2.WrWF ∧
    (EncodeUEGCodeword u outb).2.wrBits = outb.wrBits ++ uegBits u ∧
    (EncodeUEGCodeword u outb).2.file_buffer.type = outb.file_buffer.type := by
  obtain ⟨-, -, l3⟩ := log2_bounds (u + 1) (by omega) hu
  rw [uegBits_length] at hroom
  have hp : prefixLengthLoop 64 (u + 1) 0 = Nat.log2 (u + 1) := by
    rw [prefixLengthLoop_eq 64 (u + 1) 0 (by omega), Nat.zero_add]
  obtain ⟨w1, w2, w3, w4, -, -, -⟩ := WriteSingleValueToBitFileBuffer_spec outb 0
    (Nat.log2 (u + 1)) hout (by omega) (Room_mono outb _ _ (by omega) hroom)
  have hroom' : (WriteSingleValueToBitFileBuffer outb 0 (Nat.log2 (u + 1))).2.Room
      (1 + Nat.log2 (u + 1)) := by
    apply Room_of_wrBits outb _ _ _ w4 w3
    rw [toBits_length]
    exact Room_mono outb _ _ (by omega) hroom
  obtain ⟨v1, v2, v3, v4, -, -, -⟩ := WriteSingleValueToBitFileBuffer_spec _ (u + 1)
    (1 + Nat.log2 (u + 1)) w2 (by omega) hroom'
  have hl1 := LOG_ON_ERROR_AND_RETURN_ok (Nat.log2 (u + 1)) (by omega)
  have hl2 := LOG_ON_ERROR_AND_RETURN_ok (1 + Nat.log2 (u + 1)) (by omega)
  unfold EncodeUEGCodeword
  simp only [Nat.mod_eq_of_lt hu, hp, w1, hl1]
  have hc : ((1 + Nat.log2 (u + 1) : Nat) : Int) = 1 + (Nat.log2 (u + 1) : Int) := by push_cast; rfl
  rw [hc] at v1 hl2
  simp only [v1, hl2]
  refine ⟨trivial, v2, ?_, by rw [v4, w4]⟩
  rw [v3, w3, toBits_zero_val, List.append_assoc, uegBits, Nat.add_comm 1]

theorem segIndex_bound (v : Int) (h0 : -(2 ^ 63 : Int) < v) (h1 : v < 2 ^ 63) :
    segIndex v + 1 < 2 ^ 64 := by
  unfold segIndex
  split <;> omega

theorem EncodeSEGCodeword_eq (v : Int) (outb : bit_file_buffer_t)
    (h0 : -(2 ^ 63 : Int) < v) (h1 : v < 2 ^ 63) :
    EncodeSEGCodeword v outb = EncodeUEGCodeword (segIndex v) outb := by
  have hn : v.natAbs < 2 ^ 63 := by omega
  have hpos : v > 0 → 1 ≤ v.natAbs := by omega
  obtain ⟨a, ha⟩ : ∃ a, a = v.natAbs := ⟨_, rfl⟩
  rw [← ha] at hn hpos
  have e1 : (2 * a + 2 ^ 64 - 1) % 2 ^ 64 = 2 * a - 1 ∨ ¬ v > 0 := by
    by_cases hv : v > 0
    · left
      have := hpos hv
      omega
    · exact Or.inr hv
  have e2 : (2 * a) % 2 ^ 64 = 2 * a := by omega
  have e3 : a % 2 ^ 64 = a := by omega
  unfold EncodeSEGCodeword segIndex IO_ABS
  rw [← ha, e3]
  by_cases hv : v > 0
  · rw [if_pos hv, if_pos hv]
    rcases e1 with e | e
    · rw [e]
    · exact absurd hv e
  · rw [if_neg hv, if_neg hv, e2]

theorem sval_safe (n x : Nat) (hn1 : 1 ≤ n) (hn : n ≤ 64) (hx : x < 2 ^ n)
    (h64 : n = 64 → x ≠ 2 ^ 63) : -(2 ^ 63 : Int) < sval n x ∧ sval n x < 2 ^ 63 := by
  by_cases h : n = 64
  · subst h
    have := h64 rfl
    unfold sval
    split <;> omega
  · obtain ⟨s1, s2⟩ := sval_range n x hn1 hx
    have hp : 2 ^ (n - 1) ≤ 2 ^ 62 := Nat.pow_le_pow_right (by decide) (by omega)
    have hp' : ((2 ^ (n - 1) : Nat) : Int) ≤ ((2 ^ 62 : Nat) : Int) := Int.ofNat_le.mpr hp
    push_cast at hp'
    constructor <;> omega

theorem segIndex_sval_bound (n x : Nat) (hn1 : 1 ≤ n) (hn : n ≤ 64) (hx : x < 2 ^ n)
    (h64 : n = 64 → x ≠ 2 ^ 63) :
    segIndex (sval n x) + 1 < 2 ^ 64 ∧
    Nat.log2 (segIndex (sval n x) + 1) < (if n + 1 > 64 then 64 else n + 1) := by
  obtain ⟨s1, s2⟩ := sval_safe n x hn1 hn hx h64
  have hb := segIndex_bound _ s1 s2
  refine ⟨hb, ?_⟩
  rw [Nat.log2_lt (by omega)]
  by_cases h : n = 64
  · rw [if_pos (by omega)]; exact hb
  · rw [if_neg (by omega)]
    obtain ⟨r1, r2⟩ := sval_range n x hn1 hx
    have hN : (2 : Nat) ^ (n + 1) = 4 * 2 ^ (n - 1) := by
      have : n + 1 = (n - 1) + 2 := by omega
      rw [this, Nat.pow_add]; ring
    have hc : ((2 ^ (n - 1) : Nat) : Int) = 2 ^ (n - 1) := by push_cast; rfl
    have hpos : 1 ≤ 2 ^ (n - 1) := Nat.one_le_two_pow
    rw [hN]
    rw [← hc] at r1 r2
    unfold segIndex
    split <;> omega

theorem testBit_top (w p : Nat) (h1 : 2 ^ p ≤ w) (h2 : w < 2 ^ (p + 1)) : w.testBit p = true := by
  rw [Nat.testBit_to_div_mod]
  have : w / 2 ^ p = 1 := by
    apply Nat.div_eq_of_lt_le
    · rw [Nat.one_mul]; exact h1
    · rw [Nat.pow_succ] at h2; omega
  rw [this]
  decide

theorem DecodeUEGPrefixLoop_spec : ∀ (z fuel max : Nat) (inb : bit_file_buffer_t) (p : Nat)
    (tail : List Bool), inb.RdWF → inb.rdBits = List.replicate z false ++ true :: tail →
    p + z < max → z + 1 < fuel →
    (DecodeUEGPrefixLoop fuel max inb p 0).1 = none ∧
    (DecodeUEGPrefixLoop fuel max inb p 0).2.1 = p + z ∧
    (DecodeUEGPrefixLoop fuel max inb p 0).2.2.1 = 1 ∧
    (DecodeUEGPrefixLoop fuel max inb p 0).2.2.2.RdWF ∧
    (DecodeUEGPrefixLoop fuel max inb p 0).2.2.2.rdBits = tail := by
  intro z
  induction z with
  | zero =>
    intro fuel max inb p tail hin hb hp hf
    obtain ⟨f, rfl⟩ : ∃ f, fuel = f + 2 := ⟨fuel - 2, by omega⟩
    have hb' : inb.rdBits = toBits 1 1 ++ tail := by rw [hb]; rfl
    obtain ⟨e1, r1, r2, r3, hlog⟩ := read_head inb 1 1 tail hin (by decide) (by decide)
      (by decide) hb'
    unfold DecodeUEGPrefixLoop
    simp only [if_true, e1, ne_eq, not_true_eq_false, if_false, r1, hlog, Nat.cast_one]
    have hl : LOG_ON_ERROR_AND_RETURN 1 1 = none := hlog
    simp only [hl, Nat.one_ne_zero, if_false]
    rw [if_neg (by omega)]
    unfold DecodeUEGPrefixLoop
    simp only [Nat.one_ne_zero, if_false, Nat.add_zero]
    exact ⟨trivial, trivial, trivial, r2, r3⟩
  | succ z ih =>
    intro fuel max inb p tail hin hb hp hf
    obtain ⟨f, rfl⟩ : ∃ f, fuel = f + 1 := ⟨fuel - 1, by omega⟩
    have hb' : inb.rdBits = toBits 1 0 ++ (List.replicate z false ++ true :: tail) := by
      rw [hb]; rfl
    obtain ⟨e1, r1, r2, r3, hlog⟩ := read_head inb 1 0 _ hin (by decide) (by decide)
      (by decide) hb'
    have hl : LOG_ON_ERROR_AND_RETURN 1 1 = none := hlog
    obtain ⟨i1, i2, i3, i4, i5⟩ := ih f max _ (p + 1) tail r2 r3 (by omega) (by omega)
    unfold DecodeUEGPrefixLoop
    simp only [if_true, e1, ne_eq, not_true_eq_false, if_false, r1, Nat.cast_one, hl]
    rw [if_neg (by omega)]
    refine ⟨i1, ?_, i3, i4, i5⟩
    rw [i2]; omega

theorem DecodeUEGCodeword_spec (u max : Nat) (inb : bit_file_buffer_t) (tail : List Bool)
    (hin : inb.RdWF) (hb : inb.rdBits = uegBits u ++ tail) (hu : u + 1 < 2 ^ 64)
    (hmax : Nat.log2 (u + 1) < max) :
    (DecodeUEGCodeword max inb).1 = NO_ERROR ∧
    (DecodeUEGCodeword max inb).2.1 = u ∧
    (DecodeUEGCodeword max inb).2.2.1 = 0 ∧
    (DecodeUEGCodeword max inb).2.2.2.RdWF ∧
    (DecodeUEGCodeword max inb).2.2.2.rdBits = tail := by
  obtain ⟨l1, l2, l3⟩ := log2_bounds (u + 1) (by omega) hu
  obtain ⟨p, hp⟩ : ∃ p, p = Nat.log2 (u + 1) := ⟨_, rfl⟩
  rw [← hp] at l1 l2 l3 hmax
  have htop := testBit_top (u + 1) p l1 l2
  have hb' : inb.rdBits = List.replicate p false ++ true :: (toBits p (u + 1) ++ tail) := by
    rw [hb, uegBits, ← hp, toBits, htop, List.append_assoc]
    rfl
  obtain ⟨q1, q2, q3, q4, q5⟩ := DecodeUEGPrefixLoop_spec p (max + 1) max inb 0 _ hin hb'
    (by omega) (by omega)
  rw [Nat.zero_add] at q2
  obtain ⟨e1, e2, e3, -, -⟩ := EndOfBitFileBuffer_spec _ q4
  have he : ¬ ((EndOfBitFileBuffer (DecodeUEGPrefixLoop (max + 1) max inb 0 0).2.2.2).1 ≠ 0
      ∧ p ≠ 0) := by
    rintro ⟨h1, h2⟩
    rw [e1, q5] at h1
    have hne : toBits p (u + 1) ++ tail ≠ [] := by
      intro h
      have := congrArg List.length h
      rw [List.length_append, toBits_length, List.length_nil] at this
      omega
    rw [if_neg hne] at h1
    exact h1 rfl
  obtain ⟨r1, r2, r3, -, -⟩ := ReadSingleValueFromBitFileBuffer_spec _ p e2 (by omega)
    (by rw [e3, q5, List.length_append, toBits_length]; omega)
  have ht := take_append_len (toBits p (u + 1)) tail p 0 (toBits_length _ _)
  have hd := drop_append_len (toBits p (u + 1)) tail p 0 (toBits_length _ _)
  rw [Nat.add_zero, List.take_zero, List.append_nil] at ht
  rw [Nat.add_zero, List.drop_zero] at hd
  rw [e3, q5, ht, valBits_toBits] at r1
  rw [e3, q5, hd] at r3
  have hlog := LOG_ON_ERROR_AND_RETURN_ok p (by omega)
  have hmod : (u + 1) % 2 ^ p = u + 1 - 2 ^ p := by
    rw [Nat.mod_eq_sub_mod l1]
    exact Nat.mod_eq_of_lt (by rw [Nat.pow_succ] at l2; omega)
  have hp64 : 2 ^ p < 2 ^ 64 := Nat.pow_lt_pow_right (by decide) (by omega)
  have hval : ((u + 1) % 2 ^ p ||| (1 <<< p) % 2 ^ 64) = u + 1 := by
    rw [Nat.one_shiftLeft, Nat.mod_eq_of_lt hp64, Nat.lor_comm,
      or_eq_add (2 ^ p) _ p (Nat.mod_self _) (Nat.mod_lt _ (Nat.two_pow_pos p)), hmod]
    omega
  have hfin : (u + 1 + 2 ^ 64 - 1) % 2 ^ 64 = u := by omega
  unfold DecodeUEGCodeword
  simp only [q1, q2, he, if_false, r1, hlog, hval, hfin]
  exact ⟨trivial, trivial, trivial, r2, r3⟩

theorem DecodeSEGCodeword_spec (v : Int) (n : Nat) (inb : bit_file_buffer_t) (tail : List Bool)
    (hin : inb.RdWF) (hb : inb.rdBits = uegBits (segIndex v) ++ tail)
    (h0 : -(2 ^ 63 : Int) < v) (h1 : v < 2 ^ 63)
    (hmax : Nat.log2 (segIndex v + 1) < (if n + 1 > 64 then 64 else n + 1)) :
    (DecodeSEGCodeword n inb).1 = NO_ERROR ∧
    (DecodeSEGCodeword n inb).2.1 = v ∧
    (DecodeSEGCodeword n inb).2.2.1 = 0 ∧
    (DecodeSEGCodeword n inb).2.2.2.RdWF ∧
    (DecodeSEGCodeword n inb).2.2.2.rdBits = tail := by
  have hu := segIndex_bound v h0 h1
  obtain ⟨d1, d2, d3, d4, d5⟩ := DecodeUEGCodeword_spec (segIndex v)
    (if n + 1 > 64 then 64 else n + 1) inb tail hin hb hu hmax
  unfold DecodeSEGCodeword
  simp only [IO_SIZE_BITS, d1, d2, d3, ne_eq, not_true_eq_false, or_self, if_false,
    Nat.and_one_is_mod]
  have hm : (segIndex v + 1) % 2 ^ 64 = segIndex v + 1 := Nat.mod_eq_of_lt hu
  rw [hm]
  by_cases hv : v > 0
  · have hs : segIndex v = 2 * v.natAbs - 1 := by unfold segIndex; rw [if_pos hv]
    have hodd : ¬ (segIndex v % 2 = 0) := by rw [hs]; omega
    have hhalf : (segIndex v + 1) / 2 = v.natAbs := by rw [hs]; omega
    rw [if_neg hodd, hhalf, toI64_small _ (by omega)]
    refine ⟨rfl, ?_, rfl, d4, d5⟩
    show ((v.natAbs : Nat) : Int) = v
    omega
  · have hs : segIndex v = 2 * v.natAbs := by unfold segIndex; rw [if_neg hv]
    have heven : segIndex v % 2 = 0 := by rw [hs]; omega
    have hhalf : (segIndex v + 1) / 2 = v.natAbs := by rw [hs]; omega
    rw [if_pos heven, hhalf, toI64_small _ (by omega)]
    refine ⟨rfl, ?_, rfl, d4, d5⟩
    show wrapI64 (-((v.natAbs : Nat) : Int)) = v
    rw [wrapI64_of_range _ (by omega) (by omega)]
    omega

theorem segCode_cons (n x : Nat) (rest : List Nat) :
    segCode n (x :: rest) = uegBits (segIndex (sval n x)) ++ segCode n rest := rfl

theorem uegBits_ne_nil (u : Nat) : uegBits u ≠ [] := by
  intro h
  have := congrArg List.length h
  rw [uegBits_length, List.length_nil] at this
  omega

theorem EncodeSEG_spec (opts : options_t) (hn1 : 1 ≤ opts.value_size_bits)
    (hn : opts.value_size_bits ≤ 64) :
    ∀ (xs : List Nat) (fuel : Nat) (inb outb : bit_file_buffer_t),
    inb.RdWF → outb.WrWF → inb.rdBits = valuesBits (atWidth opts.value_size_bits xs) →
    (∀ x ∈ xs, x < 2 ^ opts.value_size_bits ∧ (opts.value_size_bits = 64 → x ≠ 2 ^ 63)) →
    outb.Room (segCode opts.value_size_bits xs).length → xs.length < fuel →
    (EncodeSEG fuel inb outb opts).1 = NO_ERROR ∧
    (EncodeSEG fuel inb outb opts).2.2.WrWF ∧
    (EncodeSEG fuel inb outb opts).2.2.wrBits = outb.wrBits ++ segCode opts.value_size_bits xs ∧
    (EncodeSEG fuel inb outb opts).2.2.file_buffer.type = outb.file_buffer.type := by
  intro xs
  induction xs with
  | nil =>
    intro fuel inb outb hin hout hb _ _ hf
    obtain ⟨f, rfl⟩ : ∃ f, fuel = f + 1 := ⟨fuel - 1, by omega⟩
    obtain ⟨e1, -, -⟩ := read_end inb hin hb
    unfold EncodeSEG
    simp only [e1, ne_eq, not_false_eq_true, if_true, segCode, List.append_nil]
    exact ⟨trivial, hout, trivial, trivial⟩
  | cons x rest ih =>
    intro fuel inb outb hin hout hb hx hroom hf
    obtain ⟨f, rfl⟩ : ∃ f, fuel = f + 1 := ⟨fuel - 1, by omega⟩
    rw [atWidth_cons, valuesBits_cons] at hb
    obtain ⟨hx0, hx1⟩ := hx x (List.mem_cons_self _ _)
    obtain ⟨e1, r1, r2, r3, hlog⟩ := read_head inb opts.value_size_bits x _ hin hn1 hn hx0 hb
    have hext := EXTEND_IO_INT_SIGN_spec opts.value_size_bits x hn1 hn hx0
    obtain ⟨s1, s2⟩ := sval_safe opts.value_size_bits x hn1 hn hx0 hx1
    rw [segCode_cons, List.length_append] at hroom
    obtain ⟨c1, c2, c3, c4⟩ := EncodeUEGCodeword_spec (segIndex (sval opts.value_size_bits x)) outb
      (segIndex_bound _ s1 s2) hout (Room_mono outb _ _ (by omega) hroom)
    have hroom' : (EncodeUEGCodeword (segIndex (sval opts.value_size_bits x)) outb).2.Room
        (segCode opts.value_size_bits rest).length := Room_of_wrBits outb _ _ _ c4 c3 hroom
    obtain ⟨i1, i2, i3, i4⟩ := ih f _ _ r2 c2 r3 (fun y hy => hx y (List.mem_cons_of_mem _ hy))
      hroom' (by simp only [List.length_cons] at hf; omega)
    unfold EncodeSEG
    simp only [e1, ne_eq, not_true_eq_false, if_false, r1, hlog, hext,
      EncodeSEGCodeword_eq _ _ s1 s2, c1]
    refine ⟨i1, i2, ?_, by rw [i4, c4]⟩
    rw [i3, c3, segCode_cons, List.append_assoc]

theorem DecodeSEG_spec (opts : options_t) (hn1 : 1 ≤ opts.value_size_bits)
    (hn : opts.value_size_bits ≤ 64) :
    ∀ (xs : List Nat) (fuel : Nat) (inb outb : bit_file_buffer_t),
    inb.RdWF → outb.WrWF → inb.rdBits = segCode opts.value_size_bits xs →
    (∀ x ∈ xs, x < 2 ^ opts.value_size_bits ∧ (opts.value_size_bits = 64 → x ≠ 2 ^ 63)) →
    outb.Room (opts.value_size_bits * xs.length) → xs.length < fuel →
    (DecodeSEG fuel inb outb opts).1 = NO_ERROR ∧
    (DecodeSEG fuel inb outb opts).2.2.WrWF ∧
    (DecodeSEG fuel inb outb opts).2.2.wrBits
      = outb.wrBits ++ valuesBits (atWidth opts.value_size_bits xs) ∧
    (DecodeSEG fuel inb outb opts).2.2.file_buffer.type = outb.file_buffer.type := by
  intro xs
  induction xs with
  | nil =>
    intro fuel inb outb hin hout hb _ _ hf
    obtain ⟨f, rfl⟩ : ∃ f, fuel = f + 1 := ⟨fuel - 1, by omega⟩
    obtain ⟨e1, -, -⟩ := read_end inb hin hb
    unfold DecodeSEG
    simp only [e1, ne_eq, not_false_eq_true, if_true, atWidth, valuesBits, List.map_nil,
      List.flatten_nil, List.append_nil]
    exact ⟨trivial, hout, trivial, trivial⟩
  | cons x rest ih =>
    intro fuel inb outb hin hout hb hx hroom hf
    obtain ⟨f, rfl⟩ : ∃ f, fuel = f + 1 := ⟨fuel - 1, by omega⟩
    rw [segCode_cons] at hb
    obtain ⟨hx0, hx1⟩ := hx x (List.mem_cons_self _ _)
    obtain ⟨e1, e2, e3, -, -⟩ := EndOfBitFileBuffer_spec inb hin
    have hne : inb.rdBits ≠ [] := by
      rw [hb]
      intro h
      exact uegBits_ne_nil _ (List.append_eq_nil.mp h).1
    rw [if_neg hne] at e1
    obtain ⟨s1, s2⟩ := sval_safe opts.value_size_bits x hn1 hn hx0 hx1
    obtain ⟨-, hmax⟩ := segIndex_sval_bound opts.value_size_bits x hn1 hn hx0 hx1
    obtain ⟨d1, d2, d3, d4, d5⟩ := DecodeSEGCodeword_spec (sval opts.value_size_bits x)
      opts.value_size_bits (EndOfBitFileBuffer inb).2 _ e2 (by rw [e3, hb]) s1 s2 hmax
    rw [List.length_cons, Nat.mul_succ] at hroom
    obtain ⟨w1, w2, w3, w4, -, -, -⟩ := WriteSingleValueToBitFileBuffer_spec outb
      (toU64 (sval opts.value_size_bits x)) opts.value_size_bits hout hn
      (Room_mono outb _ _ (by omega) hroom)
    have hroom' : (WriteSingleValueToBitFileBuffer outb (toU64 (sval opts.value_size_bits x))
        opts.value_size_bits).2.Room (opts.value_size_bits * rest.length) := by
      apply Room_of_wrBits outb _ _ _ w4 w3
      rw [toBits_length, Nat.add_comm]; exact hroom
    have hlog := LOG_ON_ERROR_AND_RETURN_ok opts.value_size_bits (by omega)
    obtain ⟨i1, i2, i3, i4⟩ := ih f _ _ d4 w2 d5 (fun y hy => hx y (List.mem_cons_of_mem _ hy))
      hroom' (by simp only [List.length_cons] at hf; omega)
    unfold DecodeSEG
    simp only [e1, ne_eq, not_true_eq_false, if_false, d1, d2, d3, w1, hlog]
    refine ⟨i1, i2, ?_, by rw [i4, w4]⟩
    rw [i3, w3, atWidth_cons, valuesBits_cons, List.append_assoc,
      ← toBits_mod opts.value_size_bits opts.value_size_bits _ (Nat.le_refl _),
      toU64_sval_mod opts.value_size_bits x hn hx0]

theorem segCode_length_le (n : Nat) (xs : List Nat)
    (hx : ∀ x ∈ xs, segIndex (sval n x) + 1 < 2 ^ 64) :
    (segCode n xs).length ≤ 127 * xs.length := by
  induction xs with
  | nil => simp [segCode]
  | cons x rest ih =>
    rw [segCode_cons, List.length_append, uegBits_length, List.length_cons]
    have := ih (fun y hy => hx y (List.mem_cons_of_mem _ hy))
    obtain ⟨-, -, l3⟩ := log2_bounds (segIndex (sval n x) + 1) (by omega)
      (hx x (List.mem_cons_self _ _))
    omega

theorem list_length_two {α : Type} (l : List α) (h : l.length = 2) : ∃ a b, l = [a, b] := by
  match l, h with
  | [a, b], _ => exact ⟨a, b, rfl⟩

theorem list_length_four {α : Type} (l : List α) (h : l.length = 4) :
    ∃ a b c d, l = [a, b, c, d] := by
  match l, h with
  | [a, b, c, d], _ => exact ⟨a, b, c, d, rfl⟩

theorem toRange_of_lt (x : Nat) (h : x < 2 ^ 16) : toRange (x : Int) = x := by
  unfold toRange
  omega

theorem InitModel_WF (m : bac_model_t) (h : m.Shaped) :
    (InitModel m).WF ∧ (InitModel m).symbol_to_index = [1, 2] ∧
    (InitModel m).cumulative_symbol_frequencies = [3, 2, 1, 0] := by
  obtain ⟨s2i, i2s, fr, cu⟩ := m
  obtain ⟨h1, h2, h3, h4⟩ := h
  obtain ⟨a1, a2, e1⟩ := list_length_two _ h1
  obtain ⟨b1, b2, b3, b4, e2⟩ := list_length_four _ h2
  obtain ⟨c1, c2, c3, c4, e3⟩ := list_length_four _ h3
  obtain ⟨d1, d2, d3, d4, e4⟩ := list_length_four _ h4
  simp only at e1 e2 e3 e4
  subst e1 e2 e3 e4
  have hm : InitModel ⟨[a1, a2], [b1, b2, b3, b4], [c1, c2, c3, c4], [d1, d2, d3, d4]⟩
      = ⟨[1, 2], [b1, 0, 1, b4], [0, 1, 1, 1], [3, 2, 1, 0]⟩ := by
    simp only [InitModel, InitModelSymbols, InitModelFrequencies, NUMBER_OF_SYMBOLS,
      TOTAL_NUMBER_OF_SYMBOLS]
    rfl
  rw [hm]
  refine ⟨⟨1, 1, 1, b1, b4, by decide, by decide, by decide, by decide, rfl, rfl,
    Or.inl ⟨rfl, rfl⟩⟩, rfl, rfl⟩

theorem toRange_half (x : Nat) (h : x < 2 ^ 16) : toRange (((x : Int) + 1) / 2) = (x + 1) / 2 := by
  unfold toRange
  omega

theorem halveFrequencies_eq (s2i : List Nat) (i2s : List Int) (f1 f2 f3 : Nat) (cu : List Nat)
    (hcu : cu.length = 4) (h : f1 + f2 + f3 < 2 ^ 16) :
    halveFrequencies (TOTAL_NUMBER_OF_SYMBOLS + 1) ⟨s2i, i2s, [0, f1, f2, f3], cu⟩ 0
      = ⟨s2i, i2s, [0, (f1 + 1) / 2, (f2 + 1) / 2, (f3 + 1) / 2],
          [(f1 + 1) / 2 + (f2 + 1) / 2 + (f3 + 1) / 2, (f2 + 1) / 2 + (f3 + 1) / 2,
            (f3 + 1) / 2, 0]⟩ := by
  obtain ⟨d1, d2, d3, d4, e4⟩ := list_length_four _ hcu
  subst e4
  have t1 := toRange_half f1 (by omega)
  have t2 := toRange_half f2 (by omega)
  have t3 := toRange_half f3 (by omega)
  have t0 : toRange ((((0 : Nat) : Int) + 1) / 2) = 0 := by decide
  simp only [halveFrequencies, TOTAL_NUMBER_OF_SYMBOLS, NUMBER_OF_SYMBOLS, List.getD_cons_succ,
    List.getD_cons_zero, List.set_cons_succ, List.set_cons_zero, t1, t2, t3, t0, Nat.zero_add,
    Nat.add_zero]
  have m1 : (f3 + 1) / 2 % 2 ^ 16 = (f3 + 1) / 2 := by omega
  have m2 : ((f3 + 1) / 2 + (f2 + 1) / 2) % 2 ^ 16 = (f2 + 1) / 2 + (f3 + 1) / 2 := by omega
  have m3 : ((f2 + 1) / 2 + (f3 + 1) / 2 + (f1 + 1) / 2) % 2 ^ 16
      = (f1 + 1) / 2 + (f2 + 1) / 2 + (f3 + 1) / 2 := by omega
  simp only [m1, m2, m3]

theorem findPosition_one (f1 f2 f3 : Nat) (h : 1 ≤ f1) :
    findPosition (TOTAL_NUMBER_OF_SYMBOLS + 2) [0, f1, f2, f3] 1 = 1 := by
  have : ¬ f1 = 0 := by omega
  simp [findPosition, TOTAL_NUMBER_OF_SYMBOLS, NUMBER_OF_SYMBOLS, this]

theorem findPosition_two_eq (f1 f3 : Nat) (h : 1 ≤ f1) :
    findPosition (TOTAL_NUMBER_OF_SYMBOLS + 2) [0, f1, f1, f3] 2 = 1 := by
  have : ¬ f1 = 0 := by omega
  have e : (2 + 2 ^ 64 - 1) % 2 ^ 64 = 1 := by decide
  simp [findPosition, TOTAL_NUMBER_OF_SYMBOLS, NUMBER_OF_SYMBOLS, this, e]

theorem findPosition_two_ne (f1 f2 f3 : Nat) (h : f2 ≠ f1) :
    findPosition (TOTAL_NUMBER_OF_SYMBOLS + 2) [0, f1, f2, f3] 2 = 2 := by
  simp [findPosition, TOTAL_NUMBER_OF_SYMBOLS, NUMBER_OF_SYMBOLS, h]

/-- The part of `UpdateModel` after the halving, on a well-formed model with a total below
`MAX_FREQUENCY`. -/
theorem UpdateModelPosition_WF (s2i : List Nat) (i2s : List Int) (f1 f2 f3 : Nat) (index : Nat)
    (h1 : 1 ≤ f1) (h2 : 1 ≤ f2) (h3 : 1 ≤ f3) (hs : f1 + f2 + f3 < MAX_FREQUENCY)
    (hidx : index = 1 ∨ index = 2)
    (hsym : (s2i = [1, 2] ∧ ∃ u v, i2s = [u, 0, 1, v]) ∨ (s2i = [2, 1] ∧ ∃ u v, i2s = [u, 1, 0, v])) :
    (UpdateModelPosition ⟨s2i, i2s, [0, f1, f2, f3], [f1 + f2 + f3, f2 + f3, f3, 0]⟩ index).WF := by
  obtain ⟨m1, hm1⟩ : ∃ m1 : bac_model_t,
    m1 = ⟨s2i, i2s, [0, f1, f2, f3], [f1 + f2 + f3, f2 + f3, f3, 0]⟩ := ⟨_, rfl⟩
  rw [← hm1]
  unfold UpdateModelPosition
  obtain ⟨i, hi⟩ : ∃ i, i = findPosition (TOTAL_NUMBER_OF_SYMBOLS + 2) m1.symbol_frequencies index :=
    ⟨_, rfl⟩
  simp only []
  rw [← hi]
  obtain ⟨m2, hm2⟩ : ∃ m2 : bac_model_t, m2 = if i < index then
        { m1 with
          index_to_symbol := (m1.index_to_symbol.set i (m1.index_to_symbol.getD index 0)).set
            index (m1.index_to_symbol.getD i 0)
          symbol_to_index := (m1.symbol_to_index.set (m1.index_to_symbol.getD i 0).toNat
            index).set (m1.index_to_symbol.getD index 0).toNat i }
      else m1 := ⟨_, rfl⟩
  rw [← hm2]
  have hM : MAX_FREQUENCY = 16383 := by decide
  rw [hM] at hs
  subst hm1
  simp only at hi
  rcases hidx with hx | hx
  · -- index 1: the position is 1
    subst hx
    have hi1 : i = 1 := by rw [hi]; exact findPosition_one f1 f2 f3 h1
    subst hi1
    rw [if_neg (by decide)] at hm2
    subst hm2
    simp only [incrementCumulative, List.getD_cons_succ, List.getD_cons_zero, List.set_cons_succ,
      List.set_cons_zero]
    have e1 : (f1 + 1) % 2 ^ 16 = f1 + 1 := by omega
    have e2 : (f1 + f2 + f3 + 1) % 2 ^ 16 = (f1 + 1) + f2 + f3 := by omega
    rw [e1, e2]
    rcases hsym with ⟨a, u, v, b⟩ | ⟨a, u, v, b⟩
    · exact ⟨f1 + 1, f2, f3, u, v, by omega, h2, h3, by rw [hM]; omega, rfl, rfl,
        Or.inl ⟨a, b⟩⟩
    · exact ⟨f1 + 1, f2, f3, u, v, by omega, h2, h3, by rw [hM]; omega, rfl, rfl,
        Or.inr ⟨a, b⟩⟩
  · subst hx
    by_cases heq : f2 = f1
    · -- index 2 with equal frequencies: the position is 1 and the symbols are exchanged
      subst heq
      have hi1 : i = 1 := by rw [hi]; exact findPosition_two_eq f2 f3 h2
      subst hi1
      rw [if_pos (by decide)] at hm2
      subst hm2
      simp only [incrementCumulative, List.getD_cons_succ, List.getD_cons_zero,
        List.set_cons_succ, List.set_cons_zero]
      have e1 : (f2 + 1) % 2 ^ 16 = f2 + 1 := by omega
      have e2 : (f2 + f2 + f3 + 1) % 2 ^ 16 = (f2 + 1) + f2 + f3 := by omega
      rw [e1, e2]
      rcases hsym with ⟨a, u, v, b⟩ | ⟨a, u, v, b⟩
      · subst a b
        refine ⟨f2 + 1, f2, f3, u, v, by omega, h2, h3, by rw [hM]; omega, rfl, rfl, Or.inr ?_⟩
        simp [List.getD, List.set]
      · subst a b
        refine ⟨f2 + 1, f2, f3, u, v, by omega, h2, h3, by rw [hM]; omega, rfl, rfl, Or.inl ?_⟩
        simp [List.getD, List.set]
    · -- index 2 with different frequencies: the position is 2
      have hi2 : i = 2 := by rw [hi]; exact findPosition_two_ne f1 f2 f3 heq
      subst hi2
      rw [if_neg (by decide)] at hm2
      subst hm2
      simp only [incrementCumulative, List.getD_cons_succ, List.getD_cons_zero,
        List.set_cons_succ, List.set_cons_zero]
      have e1 : (f2 + 1) % 2 ^ 16 = f2 + 1 := by omega
      have e2 : (f1 + f2 + f3 + 1) % 2 ^ 16 = f1 + (f2 + 1) + f3 := by omega
      have e3 : (f2 + f3 + 1) % 2 ^ 16 = (f2 + 1) + f3 := by omega
      rw [e1, e2, e3]
      rcases hsym with ⟨a, u, v, b⟩ | ⟨a, u, v, b⟩
      · exact ⟨f1, f2 + 1, f3, u, v, h1, by omega, h3, by rw [hM]; omega, rfl, rfl,
          Or.inl ⟨a, b⟩⟩
      · exact ⟨f1, f2 + 1, f3, u, v, h1, by omega, h3, by rw [hM]; omega, rfl, rfl,
          Or.inr ⟨a, b⟩⟩

theorem UpdateModel_WF (m : bac_model_t) (h : m.WF) (index : Nat)
    (hidx : index = 1 ∨ index = 2) : (UpdateModel m index).WF := by
  obtain ⟨f1, f2, f3, u, v, h1, h2, h3, hs, hf, hc, hsym⟩ := h
  obtain ⟨s2i, i2s, fr, cu⟩ := m
  simp only at hf hc hsym
  subst hf hc
  have hM : MAX_FREQUENCY = 16383 := by decide
  have hsym' : (s2i = [1, 2] ∧ ∃ u v, i2s = [u, 0, 1, v]) ∨
      (s2i = [2, 1] ∧ ∃ u v, i2s = [u, 1, 0, v]) := by
    rcases hsym with ⟨a, b⟩ | ⟨a, b⟩
    · exact Or.inl ⟨a, u, v, b⟩
    · exact Or.inr ⟨a, u, v, b⟩
  by_cases hmax : f1 + f2 + f3 = MAX_FREQUENCY
  · have hh := halveFrequencies_eq s2i i2s f1 f2 f3 [f1 + f2 + f3, f2 + f3, f3, 0] rfl
      (by rw [hM] at hs; omega)
    have hstep := UpdateModelPosition_WF s2i i2s ((f1 + 1) / 2) ((f2 + 1) / 2) ((f3 + 1) / 2)
      index (by omega) (by omega) (by omega) (by rw [hM] at hs ⊢; omega) hidx hsym'
    unfold UpdateModel
    rw [if_pos (by simpa using hmax), hh]
    exact hstep
  · have hstep := UpdateModelPosition_WF s2i i2s f1 f2 f3 index h1 h2 h3 (by omega) hidx hsym'
    unfold UpdateModel
    rw [if_neg (by simpa using hmax)]
    exact hstep

theorem bac_constants : QUARTER_RANGE_BORDER = 16384 ∧ HALF_RANGE_BORDER = 32768 ∧
    THREE_QUARTERS_RANGE_BORDER = 49152 ∧ MAX_RANGE = 65535 ∧ MAX_FREQUENCY = 16383 ∧
    RANGE_BITS = 16 ∧ EOF_SYMBOL_INDEX = 3 := by decide

theorem div_step (R a b c : Nat) (hc : 0 < c) (hab : b < a) (hR : c ≤ R) :
    R * b / c + 1 ≤ R * a / c := by
  have h1 : R * b + c ≤ R * a := by
    have : R * (b + 1) ≤ R * a := Nat.mul_le_mul_left R hab
    rw [Nat.mul_add, Nat.mul_one] at this
    omega
  calc R * b / c + 1 = (R * b + c) / c := (Nat.add_div_right _ hc).symm
    _ ≤ R * a / c := Nat.div_le_div_right h1

theorem div_le_self_of_le (R a c : Nat) (hc : 0 < c) (hac : a ≤ c) : R * a / c ≤ R := by
  calc R * a / c ≤ R * c / c := Nat.div_le_div_right (Nat.mul_le_mul_left R hac)
    _ = R := Nat.mul_div_cancel _ hc

/-- The adjacent cumulative frequencies `b < a` of an index of a well-formed model. -/
theorem WF_cum (m : bac_model_t) (hm : m.WF) (index : Nat) (h1 : 1 ≤ index) (h3 : index ≤ 3) :
    m.cumulative_symbol_frequencies.getD index 0 < m.cumulative_symbol_frequencies.getD (index - 1) 0 ∧
    m.cumulative_symbol_frequencies.getD (index - 1) 0 ≤ m.cumulative_symbol_frequencies.getD 0 0 ∧
    0 < m.cumulative_symbol_frequencies.getD 0 0 ∧
    m.cumulative_symbol_frequencies.getD 0 0 ≤ 16383 := by
  obtain ⟨f1, f2, f3, u, v, g1, g2, g3, hs, hf, hc, -⟩ := hm
  rw [bac_constants.2.2.2.2.1] at hs
  rw [hc]
  have : index = 1 ∨ index = 2 ∨ index = 3 := by omega
  rcases this with h | h | h <;> subst h <;> simp [List.getD] <;> omega

theorem RangeOK_width (lo hi : Nat) (h : RangeOK lo hi) :
    lo ≤ hi ∧ hi ≤ 65535 ∧ 16384 < hi - lo + 1 := by
  obtain ⟨h1, h2, h3, h4⟩ := h
  obtain ⟨c1, c2, c3, c4, -⟩ := bac_constants
  simp only [c1, c2, c3, c4] at h1 h2 h3 h4
  omega

theorem narrow_facts (m : bac_model_t) (hm : m.WF) (lo hi index : Nat) (hr : RangeOK lo hi)
    (h1 : 1 ≤ index) (h3 : index ≤ 3) :
    lo ≤ (narrowPure m.cumulative_symbol_frequencies lo hi index).1 ∧
    (narrowPure m.cumulative_symbol_frequencies lo hi index).1
      ≤ (narrowPure m.cumulative_symbol_frequencies lo hi index).2 ∧
    (narrowPure m.cumulative_symbol_frequencies lo hi index).2 ≤ hi := by
  obtain ⟨w1, w2, w3, w4⟩ := WF_cum m hm index h1 h3
  obtain ⟨r1, r2, r3⟩ := RangeOK_width lo hi hr
  have d1 := div_step (hi - lo + 1) _ _ _ w3 w1 (by omega)
  have d2 := div_le_self_of_le (hi - lo + 1) _ _ w3 w2
  simp only [narrowPure]
  obtain ⟨X, hX⟩ : ∃ X, X = (hi - lo + 1) *
    m.cumulative_symbol_frequencies.getD (index - 1) 0 / m.cumulative_symbol_frequencies.getD 0 0 :=
    ⟨_, rfl⟩
  obtain ⟨Y, hY⟩ : ∃ Y, Y = (hi - lo + 1) *
    m.cumulative_symbol_frequencies.getD index 0 / m.cumulative_symbol_frequencies.getD 0 0 :=
    ⟨_, rfl⟩
  rw [← hX] at d1 d2 ⊢
  rw [← hY] at d1 ⊢
  omega

theorem narrowRange_eq (m : bac_model_t) (hm : m.WF) (c : bac_coder_t) (index : Nat)
    (hr : RangeOK c.start_range c.end_range) (h1 : 1 ≤ index) (h3 : index ≤ 3) :
    narrowRange m c index = { c with
      start_range := (narrowPure m.cumulative_symbol_frequencies c.start_range c.end_range index).1
      end_range := (narrowPure m.cumulative_symbol_frequencies c.start_range c.end_range index).2 } := by
  obtain ⟨w1, w2, w3, w4⟩ := WF_cum m hm index h1 h3
  obtain ⟨r1, r2, r3⟩ := RangeOK_width _ _ hr
  have d1 := div_step (c.end_range - c.start_range + 1) _ _ _ w3 w1 (by omega)
  have d2 := div_le_self_of_le (c.end_range - c.start_range + 1) _ _ w3 w2
  have hR : (toU64 ((c.end_range : Int) - c.start_range) + 1) % 2 ^ 64
      = c.end_range - c.start_range + 1 := by
    unfold toU64; omega
  have hmul : ∀ x, x ≤ 16383 → ((c.end_range - c.start_range + 1) * x) % 2 ^ 64
      = (c.end_range - c.start_range + 1) * x := by
    intro x hx
    apply Nat.mod_eq_of_lt
    calc (c.end_range - c.start_range + 1) * x ≤ 65536 * 16383 :=
          Nat.mul_le_mul (by omega) hx
      _ < 2 ^ 64 := by decide
  unfold narrowRange
  simp only [hR, hmul _ (le_trans w2 w4), hmul _ (le_trans (le_of_lt w1) (le_trans w2 w4)),
    narrowPure]
  obtain ⟨X, hX⟩ : ∃ X, X = (c.end_range - c.start_range + 1) *
    m.cumulative_symbol_frequencies.getD (index - 1) 0 / m.cumulative_symbol_frequencies.getD 0 0 :=
    ⟨_, rfl⟩
  obtain ⟨Y, hY⟩ : ∃ Y, Y = (c.end_range - c.start_range + 1) *
    m.cumulative_symbol_frequencies.getD index 0 / m.cumulative_symbol_frequencies.getD 0 0 :=
    ⟨_, rfl⟩
  rw [← hX] at d1 d2 ⊢
  rw [← hY] at d1 ⊢
  have e1 : toRange ((c.start_range : Int) + ((X % 2 ^ 16 : Nat) : Int) - 1)
      = c.start_range + X - 1 := by
    unfold toRange; omega
  have e2 : toRange ((c.start_range : Int) + ((Y % 2 ^ 16 : Nat) : Int)) = c.start_range + Y := by
    unfold toRange; omega
  rw [e1, e2]

/-- The cumulative frequency that `DecodeSymbol` computes from a value inside the range of the
symbol at `index` lies between the cumulative frequencies of that symbol. -/
theorem decode_frequency (R a b c0 t : Nat) (hc : 0 < c0) (hR : 0 < R)
    (h1 : R * b / c0 + 1 ≤ t) (h2 : t ≤ R * a / c0) :
    b ≤ (t * c0 - 1) / R ∧ (t * c0 - 1) / R < a := by
  have k1 : R * b < t * c0 := (Nat.div_lt_iff_lt_mul hc).mp (by omega)
  have k2 : t * c0 ≤ R * a := (Nat.le_div_iff_mul_le hc).mp h2
  constructor
  · apply (Nat.le_div_iff_mul_le hR).mpr
    rw [Nat.mul_comm]
    omega
  · apply (Nat.div_lt_iff_lt_mul hR).mpr
    rw [Nat.mul_comm a R]
    omega

theorem decode_index (m : bac_model_t) (hm : m.WF) (c : bac_coder_t) (index : Nat)
    (hr : RangeOK c.start_range c.end_range) (h1 : 1 ≤ index) (h3 : index ≤ 3)
    (hv1 : (narrowPure m.cumulative_symbol_frequencies c.start_range c.end_range index).1
      ≤ c.current_value)
    (hv2 : c.current_value
      ≤ (narrowPure m.cumulative_symbol_frequencies c.start_range c.end_range index).2) :
    findSymbolIndex (TOTAL_NUMBER_OF_SYMBOLS + 1) m.cumulative_symbol_frequencies
      (((((toU64 ((c.current_value : Int) - c.start_range) + 1) % 2 ^ 64 *
        m.cumulative_symbol_frequencies.getD 0 0) % 2 ^ 64 + 2 ^ 64 - 1) % 2 ^ 64 /
        ((toU64 ((c.end_range : Int) - c.start_range) + 1) % 2 ^ 64)) % 2 ^ 16) 1 = index := by
  obtain ⟨w1, w2, w3, w4⟩ := WF_cum m hm index h1 h3
  obtain ⟨r1, r2, r3⟩ := RangeOK_width _ _ hr
  have d1 := div_step (c.end_range - c.start_range + 1) _ _ _ w3 w1 (by omega)
  have d2 := div_le_self_of_le (c.end_range - c.start_range + 1) _ _ w3 w2
  simp only [narrowPure] at hv1 hv2
  obtain ⟨t, ht⟩ : ∃ t, t = c.current_value - c.start_range + 1 := ⟨_, rfl⟩
  have ht1 : (c.end_range - c.start_range + 1) * m.cumulative_symbol_frequencies.getD index 0 /
      m.cumulative_symbol_frequencies.getD 0 0 + 1 ≤ t := by
    obtain ⟨Y, hY⟩ : ∃ Y, Y = (c.end_range - c.start_range + 1) *
      m.cumulative_symbol_frequencies.getD index 0 / m.cumulative_symbol_frequencies.getD 0 0 :=
      ⟨_, rfl⟩
    rw [← hY] at hv1 ⊢
    omega
  have ht2 : t ≤ (c.end_range - c.start_range + 1) *
      m.cumulative_symbol_frequencies.getD (index - 1) 0 /
      m.cumulative_symbol_frequencies.getD 0 0 := by
    obtain ⟨X, hX⟩ : ∃ X, X = (c.end_range - c.start_range + 1) *
      m.cumulative_symbol_frequencies.getD (index - 1) 0 /
      m.cumulative_symbol_frequencies.getD 0 0 := ⟨_, rfl⟩
    obtain ⟨Y, hY⟩ : ∃ Y, Y = (c.end_range - c.start_range + 1) *
      m.cumulative_symbol_frequencies.getD index 0 / m.cumulative_symbol_frequencies.getD 0 0 :=
      ⟨_, rfl⟩
    rw [← hX] at hv2 d1 ⊢
    rw [← hY] at hv1 d1
    omega
  have htR : 1 ≤ t ∧ t ≤ c.end_range - c.start_range + 1 := ⟨by omega, le_trans ht2 d2⟩
  have hvlo : c.start_range ≤ c.current_value := le_trans (Nat.le_add_right _ _) hv1
  obtain ⟨q1, q2⟩ := decode_frequency _ _ _ _ t w3 (by omega) ht1 ht2
  clear d1 d2 hv1 hv2 ht1 ht2
  have hR : (toU64 ((c.end_range : Int) - c.start_range) + 1) % 2 ^ 64
      = c.end_range - c.start_range + 1 := by
    clear q1 q2
    unfold toU64; omega
  have hT : (toU64 ((c.current_value : Int) - c.start_range) + 1) % 2 ^ 64 = t := by
    clear q1 q2
    unfold toU64; omega
  have htc : t * m.cumulative_symbol_frequencies.getD 0 0 ≤ 65536 * 16383 :=
    Nat.mul_le_mul (by omega) w4
  have htc1 : 1 ≤ t * m.cumulative_symbol_frequencies.getD 0 0 :=
    Nat.mul_pos (by omega) w3
  have hmul : ((t * m.cumulative_symbol_frequencies.getD 0 0) % 2 ^ 64 + 2 ^ 64 - 1) % 2 ^ 64
      = t * m.cumulative_symbol_frequencies.getD 0 0 - 1 := by
    obtain ⟨z, hz⟩ : ∃ z, z = t * m.cumulative_symbol_frequencies.getD 0 0 := ⟨_, rfl⟩
    rw [← hz] at htc htc1 ⊢
    clear q1 q2
    omega
  rw [hT, hR, hmul]
  obtain ⟨F, hF⟩ : ∃ F, F = (t * m.cumulative_symbol_frequencies.getD 0 0 - 1) /
    (c.end_range - c.start_range + 1) := ⟨_, rfl⟩
  rw [← hF] at q1 q2 ⊢
  have hF16 : F % 2 ^ 16 = F := by
    clear hF hmul htc htc1 hT hR
    omega
  rw [hF16]
  clear hF hmul htc htc1 hT hR hF16 w1 w2 w3 w4
  obtain ⟨f1, f2, f3, u, v, g1, g2, g3, hs, hf, hc, -⟩ := hm
  rw [hc] at q1 q2 ⊢
  have : index = 1 ∨ index = 2 ∨ index = 3 := by omega
  rcases this with h | h | h
  · subst h
    have q1' : f2 + f3 ≤ F := q1
    simp [findSymbolIndex, TOTAL_NUMBER_OF_SYMBOLS, NUMBER_OF_SYMBOLS]
    omega
  · subst h
    have q1' : f3 ≤ F := q1
    have q2' : F < f2 + f3 := q2
    simp [findSymbolIndex, TOTAL_NUMBER_OF_SYMBOLS, NUMBER_OF_SYMBOLS, q2']
    omega
  · subst h
    have q2' : F < f3 := q2
    have q3' : F < f2 + f3 := by omega
    simp [findSymbolIndex, TOTAL_NUMBER_OF_SYMBOLS, NUMBER_OF_SYMBOLS, q2', q3']

theorem shiftBase_le (lo hi : Nat) (sh : bac_shift_t) (h : shiftOf lo hi = some sh)
    (hlh : lo ≤ hi) (hhi : hi ≤ 65535) :
    shiftBase sh ≤ lo ∧ 2 * (hi - shiftBase sh) + 1 ≤ 65535 ∧
    (shiftBase sh = 0 ∨ shiftBase sh = 32768 ∨ shiftBase sh = 16384) := by
  obtain ⟨c1, c2, c3, -⟩ := bac_constants
  unfold shiftOf at h
  rw [c1, c2, c3] at h
  have e1 : shiftBase .lower = 0 := rfl
  have e2 : shiftBase .upper = 32768 := by decide
  have e3 : shiftBase .middle = 16384 := by decide
  by_cases h1 : hi < 32768
  · rw [if_pos h1] at h
    cases h
    rw [e1]
    omega
  · rw [if_neg h1] at h
    by_cases h2 : lo ≥ 32768
    · rw [if_pos h2] at h
      cases h
      rw [e2]
      omega
    · rw [if_neg h2] at h
      by_cases h3 : lo ≥ 16384 ∧ hi < 49152
      · rw [if_pos h3] at h
        cases h
        rw [e3]
        omega
      · rw [if_neg h3] at h
        cases h

theorem shiftOf_none (lo hi : Nat) (h : shiftOf lo hi = none) (hhi : hi ≤ 65535) :
    RangeOK lo hi := by
  obtain ⟨c1, c2, c3, c4, -⟩ := bac_constants
  unfold shiftOf at h
  unfold RangeOK
  rw [c1, c2, c3] at h
  rw [c1, c2, c3, c4]
  by_cases h1 : hi < 32768
  · rw [if_pos h1] at h; cases h
  · rw [if_neg h1] at h
    by_cases h2 : lo ≥ 32768
    · rw [if_pos h2] at h; cases h
    · rw [if_neg h2] at h
      by_cases h3 : lo ≥ 16384 ∧ hi < 49152
      · rw [if_pos h3] at h; cases h
      · omega

theorem shiftOf_width (lo hi : Nat) (sh : bac_shift_t) (h : shiftOf lo hi = some sh)
    (hlh : lo ≤ hi) (hhi : hi ≤ 65535) : hi - lo + 1 ≤ 32768 := by
  obtain ⟨c1, c2, c3, -⟩ := bac_constants
  unfold shiftOf at h
  rw [c1, c2, c3] at h
  by_cases h1 : hi < 32768
  · omega
  · rw [if_neg h1] at h
    by_cases h2 : lo ≥ 32768
    · omega
    · rw [if_neg h2] at h
      by_cases h3 : lo ≥ 16384 ∧ hi < 49152
      · omega
      · rw [if_neg h3] at h; cases h

/-- Renormalisation of a non-empty range ends, within the fuel, in a range between two
symbols. -/
theorem renormTrace_spec : ∀ (fuel lo hi : Nat), lo ≤ hi → hi ≤ 65535 →
    65536 < (hi - lo + 1) * 2 ^ fuel →
    RangeOK (renormTrace fuel lo hi).2.1 (renormTrace fuel lo hi).2.2 ∧
    (renormTrace fuel lo hi).1.length < fuel := by
  intro fuel
  induction fuel with
  | zero =>
    intro lo hi h1 h2 h3
    omega
  | succ fuel ih =>
    intro lo hi h1 h2 h3
    unfold renormTrace
    cases hs : shiftOf lo hi with
    | none =>
      simp only [List.length_nil]
      exact ⟨shiftOf_none lo hi hs h2, by omega⟩
    | some sh =>
      obtain ⟨b1, b2, b3⟩ := shiftBase_le lo hi sh hs h1 h2
      have hw := shiftOf_width lo hi sh hs h1 h2
      have hp : (hi - lo + 1) * 2 ^ (fuel + 1) = 2 * (hi - lo + 1) * 2 ^ fuel := by
        rw [Nat.pow_succ]; ring
      have e : 2 * (hi - shiftBase sh) + 1 - 2 * (lo - shiftBase sh) + 1 = 2 * (hi - lo + 1) := by
        omega
      obtain ⟨i1, i2⟩ := ih (2 * (lo - shiftBase sh)) (2 * (hi - shiftBase sh) + 1) (by omega) b2
        (by rw [e, ← hp]; exact h3)
      simp only [List.length_cons]
      exact ⟨i1, by omega⟩

theorem insertAfterFirst_ne_nil (p : Nat) (X : List Bool) (h : X ≠ []) :
    insertAfterFirst p X ≠ [] := by
  cases X with
  | nil => exact absurd rfl h
  | cons c r => simp [insertAfterFirst]

theorem insertAfterFirst_length (p : Nat) (X : List Bool) (h : X ≠ []) :
    (insertAfterFirst p X).length = X.length + p := by
  cases X with
  | nil => exact absurd rfl h
  | cons c r => simp [insertAfterFirst]; omega

theorem insertAfterFirst_zero (X : List Bool) : insertAfterFirst 0 X = X := by
  cases X with
  | nil => rfl
  | cons c r => simp [insertAfterFirst]

theorem insertAfterFirst_succ (p : Nat) (X : List Bool) :
    insertAfterFirst p (insertAfterFirst 1 X) = insertAfterFirst (p + 1) X := by
  cases X with
  | nil => rfl
  | cons c r =>
    simp only [insertAfterFirst, List.replicate_one, List.singleton_append]
    congr 1
    rw [List.replicate_succ', List.append_assoc]
    rfl

theorem applyShifts_ne_nil (t : List bac_shift_t) (X : List Bool) (h : X ≠ []) :
    applyShifts t X ≠ [] := by
  induction t with
  | nil => exact h
  | cons sh r ih =>
    cases sh
    · simp [applyShifts]
    · simp [applyShifts]
    · exact insertAfterFirst_ne_nil 1 _ ih

theorem applyShifts_length (t : List bac_shift_t) (X : List Bool) (h : X ≠ []) :
    (applyShifts t X).length = X.length + t.length := by
  induction t with
  | nil => rfl
  | cons sh r ih =>
    cases sh
    · simp only [applyShifts, List.length_cons, ih]; omega
    · simp only [applyShifts, List.length_cons, ih]; omega
    · simp only [applyShifts, List.length_cons]
      rw [insertAfterFirst_length 1 _ (applyShifts_ne_nil r X h), ih]
      omega

/-- What the encoder writes during a sequence of renormalisation cases, followed by a stream
that starts after the pending bits, is the decoder's view with the pending bits inserted. -/
theorem emitShifts_apply (t : List bac_shift_t) : ∀ (p : Nat) (X : List Bool), X ≠ [] →
    (emitShifts t p).1 ++ insertAfterFirst (emitShifts t p).2 X
      = insertAfterFirst p (applyShifts t X) := by
  induction t with
  | nil => intro p X _; rfl
  | cons sh r ih =>
    intro p X hX
    cases sh
    · simp only [emitShifts, applyShifts]
      rw [List.cons_append, List.append_assoc, ih 0 X hX, insertAfterFirst_zero]
      rfl
    · simp only [emitShifts, applyShifts]
      rw [List.cons_append, List.append_assoc, ih 0 X hX, insertAfterFirst_zero]
      rfl
    · simp only [emitShifts, applyShifts]
      rw [ih (p + 1) X hX, insertAfterFirst_succ]

theorem take_pad : ∀ (W : List Bool) (n k : Nat), n ≤ k →
    (W ++ List.replicate k false).take n = (W ++ List.replicate n false).take n := by
  intro W
  induction W with
  | nil =>
    intro n k h
    simp only [List.nil_append, List.take_replicate, Nat.min_self, Nat.min_eq_left h]
  | cons c r ih =>
    intro n k h
    cases n with
    | zero => rfl
    | succ n =>
      simp only [List.cons_append, List.take_succ_cons]
      rw [ih n k (by omega), ih n (n + 1) (by omega)]

theorem window_lt (n : Nat) (W : List Bool) : window n W < 2 ^ n := by
  unfold window
  have h := valBits_lt ((W ++ List.replicate n false).take n)
  rw [List.length_take, List.length_append, List.length_replicate,
    Nat.min_eq_left (by omega)] at h
  exact h

theorem window_cons (n : Nat) (b : Bool) (W : List Bool) :
    window (n + 1) (b :: W) = (if b then 1 else 0) * 2 ^ n + window n W := by
  unfold window
  rw [List.cons_append, List.take_succ_cons, valBits_cons, take_pad W n (n + 1) (by omega)]
  have hl : ((W ++ List.replicate n false).take n).length = n := by
    rw [List.length_take, List.length_append, List.length_replicate]
    omega
  rw [hl]

theorem getD_pad (W : List Bool) (n k : Nat) (h : n < k) :
    (W ++ List.replicate k false)[n]? = some (W.getD n false) := by
  by_cases hn : n < W.length
  · rw [List.getElem?_append_left hn, List.getD_eq_getElem?_getD, List.getElem?_eq_getElem hn]
    rfl
  · have h1 : W.getD n false = false := by
      rw [List.getD_eq_getElem?_getD, List.getElem?_eq_none (by omega)]
      rfl
    have hlt : n - W.length < k := by omega
    rw [h1, List.getElem?_append_right (by omega), List.getElem?_replicate, if_pos hlt]

theorem window_snoc (n : Nat) (W : List Bool) :
    window (n + 1) W = 2 * window n W + (if W.getD n false then 1 else 0) := by
  unfold window
  rw [List.take_succ, getD_pad W n (n + 1) (by omega), take_pad W n (n + 1) (by omega)]
  simp only [Option.toList]
  rw [valBits_append_singleton]

theorem applyShifts_cons (sh : bac_shift_t) (r : List bac_shift_t) (X : List Bool) :
    applyShifts (sh :: r) X = applyShifts [sh] (applyShifts r X) := by
  cases sh <;> rfl

/-- One renormalisation case in the decoder's view: the window after the case is twice the
window before it, less the base of the case, plus the bit that enters on the right. -/
theorem shift_stream (sh : bac_shift_t) (X : List Bool) (hX : X ≠ []) :
    shiftBase sh ≤ window 16 (applyShifts [sh] X) ∧
    window 16 X = 2 * (window 16 (applyShifts [sh] X) - shiftBase sh)
      + (if (applyShifts [sh] X).getD 16 false then 1 else 0) ∧
    (applyShifts [sh] X).drop 17 = X.drop 16 ∧
    (applyShifts [sh] X).length = X.length + 1 := by
  have e2 : shiftBase .upper = 32768 := by decide
  have e3 : shiftBase .middle = 16384 := by decide
  cases sh
  · simp only [applyShifts, shiftBase]
    rw [window_cons 15, window_snoc 15 X]
    simp
  · simp only [applyShifts, e2]
    rw [window_cons 15, window_snoc 15 X]
    simp
  · cases X with
    | nil => exact absurd rfl hX
    | cons c r =>
      simp only [applyShifts, insertAfterFirst, e3, List.replicate_one, List.singleton_append]
      rw [window_cons 15, window_cons 14, window_cons 15, window_snoc 14 r]
      cases c <;> simp <;> omega

theorem trace_window : ∀ (fuel lo hi : Nat) (X : List Bool), lo ≤ hi → hi ≤ 65535 → X ≠ [] →
    (renormTrace fuel lo hi).2.1 ≤ window 16 X → window 16 X ≤ (renormTrace fuel lo hi).2.2 →
    lo ≤ window 16 (applyShifts (renormTrace fuel lo hi).1 X) ∧
    window 16 (applyShifts (renormTrace fuel lo hi).1 X) ≤ hi := by
  intro fuel
  induction fuel with
  | zero =>
    intro lo hi X _ _ _ h1 h2
    exact ⟨h1, h2⟩
  | succ fuel ih =>
    intro lo hi X hlh hhi hX h1 h2
    unfold renormTrace at h1 h2 ⊢
    cases hs : shiftOf lo hi with
    | none =>
      rw [hs] at h1 h2
      exact ⟨h1, h2⟩
    | some sh =>
      rw [hs] at h1 h2
      simp only at h1 h2 ⊢
      obtain ⟨b1, b2, b3⟩ := shiftBase_le lo hi sh hs hlh hhi
      obtain ⟨i1, i2⟩ := ih _ _ X (by omega) b2 hX h1 h2
      rw [applyShifts_cons]
      obtain ⟨s1, s2, -, -⟩ := shift_stream sh _ (applyShifts_ne_nil _ X hX)
      rw [s2] at i1 i2
      constructor
      · split at i1 <;> omega
      · split at i2 <;> omega

theorem firstIndex_range (m : bac_model_t) (hm : m.WF) (bits : List Bool) :
    1 ≤ firstIndex m bits ∧ firstIndex m bits ≤ 3 ∧
    (bits ≠ [] → firstIndex m bits = 1 ∨ firstIndex m bits = 2) := by
  obtain ⟨f1, f2, f3, u, v, -, -, -, -, -, -, hsym⟩ := hm
  cases bits with
  | nil =>
    have e : firstIndex ⟨m.symbol_to_index, m.index_to_symbol, m.symbol_frequencies,
        m.cumulative_symbol_frequencies⟩ [] = 3 := rfl
    exact ⟨by rw [e]; decide, by rw [e], fun h => absurd rfl h⟩
  | cons b rest =>
    simp only [firstIndex]
    rcases hsym with ⟨a, -⟩ | ⟨a, -⟩ <;> rw [a] <;> cases b <;> simp

theorem finishBits_window (lo hi : Nat) (h : RangeOK lo hi) :
    finishBits lo ≠ [] ∧ (finishBits lo).length = 2 ∧
    lo ≤ window 16 (finishBits lo) ∧ window 16 (finishBits lo) ≤ hi := by
  obtain ⟨h1, h2, h3, h4⟩ := h
  obtain ⟨c1, c2, c3, c4, -⟩ := bac_constants
  simp only [c1, c2, c3, c4] at h1 h2 h3 h4
  unfold finishBits
  rw [c1]
  by_cases hq : lo < 16384
  · rw [if_pos hq]
    have : window 16 [false, true] = 16384 := by decide
    rw [this]
    exact ⟨by simp, rfl, by omega, by omega⟩
  · rw [if_neg hq]
    have : window 16 [true, false] = 32768 := by decide
    rw [this]
    exact ⟨by simp, rfl, by omega, by omega⟩

/-- The fuel of the renormalisation loops is enough after the range was narrowed. -/
theorem narrow_fuel (lo hi : Nat) (_h : lo ≤ hi) : 65536 < (hi - lo + 1) * 2 ^ (RANGE_BITS + 1) := by
  have : 2 ^ (RANGE_BITS + 1) = 131072 := by decide
  rw [this]
  omega

/-- The code of a bit sequence from a well-formed model and a range between two symbols has
at least two bits, and its 16-bit window lies in the range of the first symbol. -/
theorem bacStream_spec (adaptive : Int) : ∀ (bits : List Bool) (m : bac_model_t) (lo hi : Nat),
    m.WF → RangeOK lo hi →
    2 ≤ (bacStream adaptive m lo hi bits).length ∧
    (narrowPure m.cumulative_symbol_frequencies lo hi (firstIndex m bits)).1
      ≤ window 16 (bacStream adaptive m lo hi bits) ∧
    window 16 (bacStream adaptive m lo hi bits)
      ≤ (narrowPure m.cumulative_symbol_frequencies lo hi (firstIndex m bits)).2 := by
  intro bits
  induction bits with
  | nil =>
    intro m lo hi hm hr
    obtain ⟨n1, n2, n3⟩ := narrow_facts m hm lo hi EOF_SYMBOL_INDEX hr (by decide) (by decide)
    obtain ⟨r1, r2, r3⟩ := RangeOK_width lo hi hr
    obtain ⟨t1, t2⟩ := renormTrace_spec (RANGE_BITS + 1) _ _ n2 (by omega) (narrow_fuel _ _ n2)
    obtain ⟨f1, f2, f3, f4⟩ := finishBits_window _ _ t1
    obtain ⟨w1, w2⟩ := trace_window (RANGE_BITS + 1) _ _ _ n2 (by omega) f1 f3 f4
    simp only [bacStream, firstIndex]
    refine ⟨?_, w1, w2⟩
    rw [applyShifts_length _ _ f1, f2]
    omega
  | cons b rest ih =>
    intro m lo hi hm hr
    obtain ⟨x1, x2, x3⟩ := firstIndex_range m hm (b :: rest)
    have hidx := x3 (by simp)
    simp only [firstIndex] at x1 x2 hidx
    obtain ⟨n1, n2, n3⟩ := narrow_facts m hm lo hi _ hr x1 x2
    obtain ⟨r1, r2, r3⟩ := RangeOK_width lo hi hr
    obtain ⟨t1, t2⟩ := renormTrace_spec (RANGE_BITS + 1) _ _ n2 (by omega) (narrow_fuel _ _ n2)
    have hm' : (if adaptive ≠ 0 then UpdateModel m
        (m.symbol_to_index.getD (if b then 1 else 0) 0) else m).WF := by
      split
      · exact UpdateModel_WF m hm _ hidx
      · exact hm
    obtain ⟨i1, i2, i3⟩ := ih _ _ _ hm' t1
    obtain ⟨y1, y2, -⟩ := firstIndex_range _ hm' rest
    obtain ⟨k1, k2, k3⟩ := narrow_facts _ hm' _ _ _ t1 y1 y2
    have hne : bacStream adaptive (if adaptive ≠ 0 then UpdateModel m
        (m.symbol_to_index.getD (if b then 1 else 0) 0) else m)
        (renormTrace (RANGE_BITS + 1)
          (narrowPure m.cumulative_symbol_frequencies lo hi
            (m.symbol_to_index.getD (if b then 1 else 0) 0)).1
          (narrowPure m.cumulative_symbol_frequencies lo hi
            (m.symbol_to_index.getD (if b then 1 else 0) 0)).2).2.1
        (renormTrace (RANGE_BITS + 1)
          (narrowPure m.cumulative_symbol_frequencies lo hi
            (m.symbol_to_index.getD (if b then 1 else 0) 0)).1
          (narrowPure m.cumulative_symbol_frequencies lo hi
            (m.symbol_to_index.getD (if b then 1 else 0) 0)).2).2.2 rest ≠ [] := by
      intro h
      rw [h] at i1
      simp at i1
    obtain ⟨w1, w2⟩ := trace_window (RANGE_BITS + 1) _ _ _ n2 (by omega) hne
      (le_trans k1 i2) (le_trans i3 k3)
    simp only [bacStream, firstIndex]
    refine ⟨?_, w1, w2⟩
    rw [applyShifts_length _ _ hne]
    omega

theorem toBits_ones (k : Nat) (h : k ≤ 64) : toBits k (2 ^ 64 - 1) = List.replicate k true := by
  induction k with
  | zero => rfl
  | succ k ih =>
    simp only [toBits, List.replicate_succ]
    rw [ih (by omega), Nat.testBit_two_pow_sub_one]
    simp
    omega

/-- The bits of the two patterns of `OutputNextBits`. -/
theorem toBits_pattern (b : Bool) (k : Nat) (h : k ≤ 64) :
    toBits k (if b then 2 ^ 64 - 1 else 0) = List.replicate k b := by
  cases b
  · simp only [Bool.false_eq_true, if_false]; exact toBits_zero_val k
  · simp only [if_true]; exact toBits_ones k h

theorem OutputPendingBits_spec (b : Bool) : ∀ (fuel : Nat) (c : bac_coder_t)
    (out : bit_file_buffer_t), out.WrWF → out.Room c.next_bits → c.next_bits + 64 ≤ 64 * fuel →
    (OutputPendingBits fuel (if b then 2 ^ 64 - 1 else 0) c out).1 = none ∧
    (OutputPendingBits fuel (if b then 2 ^ 64 - 1 else 0) c out).2.1 = { c with next_bits := 0 } ∧
    (OutputPendingBits fuel (if b then 2 ^ 64 - 1 else 0) c out).2.2.WrWF ∧
    (OutputPendingBits fuel (if b then 2 ^ 64 - 1 else 0) c out).2.2.wrBits
      = out.wrBits ++ List.replicate c.next_bits (!b) ∧
    (OutputPendingBits fuel (if b then 2 ^ 64 - 1 else 0) c out).2.2.file_buffer.type
      = out.file_buffer.type := by
  intro fuel
  induction fuel with
  | zero => intro c out _ _ h; omega
  | succ fuel ih =>
    intro c out hout hroom hf
    unfold OutputPendingBits
    by_cases hz : c.next_bits = 0
    · simp only [hz, ne_eq, not_true_eq_false, if_false, List.replicate_zero, List.append_nil]
      refine ⟨trivial, ?_, hout, trivial, trivial⟩
      cases c
      simp only at hz
      subst hz
      rfl
    · have hinv : 2 ^ 64 - 1 - (if b then 2 ^ 64 - 1 else 0) = if (!b) then 2 ^ 64 - 1 else 0 := by
        cases b <;> simp
      obtain ⟨k, hk⟩ : ∃ k, k = if c.next_bits > IO_SIZE_BITS then IO_SIZE_BITS else c.next_bits :=
        ⟨_, rfl⟩
      have hk64 : k ≤ 64 ∧ k ≤ c.next_bits ∧ (c.next_bits ≤ 64 → k = c.next_bits) ∧ 1 ≤ k ∧
          (64 < c.next_bits → k = 64) := by
        rw [hk]; unfold IO_SIZE_BITS; split <;> omega
      obtain ⟨w1, w2, w3, w4, -, -, -⟩ := WriteSingleValueToBitFileBuffer_spec out
        (if (!b) then 2 ^ 64 - 1 else 0) k hout hk64.1 (Room_mono out _ _ hk64.2.1 hroom)
      rw [toBits_pattern (!b) k hk64.1] at w3
      have hlog := LOG_ON_ERROR_AND_RETURN_ok k (by omega)
      have hroom' : (WriteSingleValueToBitFileBuffer out (if (!b) then 2 ^ 64 - 1 else 0) k).2.Room
          (c.next_bits - k) := by
        apply Room_of_wrBits out _ _ _ w4 w3
        rw [List.length_replicate]
        have : k + (c.next_bits - k) = c.next_bits := by omega
        rw [this]; exact hroom
      have hfuel : c.next_bits - k + 64 ≤ 64 * fuel := by
        obtain ⟨k1, k2, k3, k4, k5⟩ := hk64
        clear w1 w2 w3 w4 hlog hroom' hk hinv
        omega
      obtain ⟨i1, i2, i3, i4, i5⟩ := ih { c with next_bits := c.next_bits - k } _ w2 hroom'
        hfuel
      simp only [hz, ne_eq, not_false_eq_true, if_true, hinv, ← hk, w1, hlog]
      refine ⟨i1, i2, i3, ?_, by rw [i5, w4]⟩
      rw [i4, w3, List.append_assoc, ← List.replicate_add]
      congr 2
      simp only
      omega

theorem OutputNextBits_spec (b : Bool) (c : bac_coder_t) (out : bit_file_buffer_t)
    (hout : out.WrWF) (hroom : out.Room (1 + c.next_bits)) :
    (OutputNextBits (if b then 1 else 0) c out).1 = NO_ERROR ∧
    (OutputNextBits (if b then 1 else 0) c out).2.1 = { c with next_bits := 0 } ∧
    (OutputNextBits (if b then 1 else 0) c out).2.2.WrWF ∧
    (OutputNextBits (if b then 1 else 0) c out).2.2.wrBits
      = out.wrBits ++ b :: List.replicate c.next_bits (!b) ∧
    (OutputNextBits (if b then 1 else 0) c out).2.2.file_buffer.type = out.file_buffer.type := by
  have hpat : (if (if b then (1 : Int) else 0) ≠ 0 then toU64 (-1) else 0)
      = if b then 2 ^ 64 - 1 else 0 := by
    cases b
    · simp
    · simp only [if_true]; rw [if_pos (by decide)]; decide
  obtain ⟨w1, w2, w3, w4, -, -, -⟩ := WriteSingleValueToBitFileBuffer_spec out
    (if b then 2 ^ 64 - 1 else 0) 1 hout (by decide) (Room_mono out _ _ (by omega) hroom)
  rw [toBits_pattern b 1 (by decide)] at w3
  have hroom' : (WriteSingleValueToBitFileBuffer out (if b then 2 ^ 64 - 1 else 0) 1).2.Room
      c.next_bits := by
    apply Room_of_wrBits out _ _ _ w4 w3
    rw [List.length_replicate]; exact hroom
  obtain ⟨p1, p2, p3, p4, p5⟩ := OutputPendingBits_spec b (c.next_bits / IO_SIZE_BITS + 2) c _
    w2 hroom' (by unfold IO_SIZE_BITS; omega)
  have hlog : LOG_ON_ERROR_AND_RETURN 1 1 = none := LOG_ON_ERROR_AND_RETURN_ok 1 (by decide)
  have w1' : (WriteSingleValueToBitFileBuffer out (if b then 2 ^ 64 - 1 else 0) 1).1 = 1 := w1
  unfold OutputNextBits
  simp only [hpat, w1', hlog, p1, p2]
  refine ⟨trivial, trivial, p3, ?_, by rw [p5, w4]⟩
  rw [p4, w3, List.append_assoc]
  rfl

theorem toRange_sub (x B : Nat) (h : B ≤ x) (hx : x ≤ 65535) : toRange ((x : Int) - B) = x - B := by
  unfold toRange; omega

theorem toRange_double (x : Nat) (hx : 2 * x + 1 ≤ 65535) :
    toRange (2 * (x : Int)) = 2 * x ∧ toRange (2 * (x : Int) + 1) = 2 * x + 1 := by
  unfold toRange; omega

theorem shiftOf_lower (lo hi : Nat) (h : hi < HALF_RANGE_BORDER) :
    shiftOf lo hi = some .lower := by
  unfold shiftOf; rw [if_pos h]

theorem shiftOf_upper (lo hi : Nat) (h1 : ¬ hi < HALF_RANGE_BORDER)
    (h2 : lo ≥ HALF_RANGE_BORDER) : shiftOf lo hi = some .upper := by
  unfold shiftOf; rw [if_neg h1, if_pos h2]

theorem shiftOf_middle (lo hi : Nat) (h1 : ¬ hi < HALF_RANGE_BORDER)
    (h2 : ¬ lo ≥ HALF_RANGE_BORDER)
    (h3 : lo ≥ QUARTER_RANGE_BORDER ∧ hi < THREE_QUARTERS_RANGE_BORDER) :
    shiftOf lo hi = some .middle := by
  unfold shiftOf; rw [if_neg h1, if_neg h2, if_pos h3]

theorem shiftOf_stop (lo hi : Nat) (h1 : ¬ hi < HALF_RANGE_BORDER)
    (h2 : ¬ lo ≥ HALF_RANGE_BORDER)
    (h3 : ¬ (lo ≥ QUARTER_RANGE_BORDER ∧ hi < THREE_QUARTERS_RANGE_BORDER)) :
    shiftOf lo hi = none := by
  unfold shiftOf; rw [if_neg h1, if_neg h2, if_neg h3]

theorem renormTrace_some (fuel lo hi : Nat) (sh : bac_shift_t) (h : shiftOf lo hi = some sh) :
    renormTrace (fuel + 1) lo hi
      = (sh :: (renormTrace fuel (2 * (lo - shiftBase sh)) (2 * (hi - shiftBase sh) + 1)).1,
         (renormTrace fuel (2 * (lo - shiftBase sh)) (2 * (hi - shiftBase sh) + 1)).2) := by
  conv_lhs => unfold renormTrace
  rw [h]

theorem renormTrace_none (fuel lo hi : Nat) (h : shiftOf lo hi = none) :
    renormTrace (fuel + 1) lo hi = ([], lo, hi) := by
  conv_lhs => unfold renormTrace
  rw [h]

theorem double_width (lo hi B : Nat) (h1 : B ≤ lo) (h2 : lo ≤ hi) :
    2 * (hi - B) + 1 - 2 * (lo - B) + 1 = 2 * (hi - lo + 1) := by omega

theorem EncodeRenormalize_spec : ∀ (fuel lo hi p v g : Nat) (out : bit_file_buffer_t),
    lo ≤ hi → hi ≤ 65535 → 65536 < (hi - lo + 1) * 2 ^ fuel → out.WrWF →
    out.Room (emitShifts (renormTrace fuel lo hi).1 p).1.length → p + fuel < 2 ^ 64 →
    (EncodeRenormalize fuel ⟨lo, hi, p, v, g⟩ out).1 = NO_ERROR ∧
    (EncodeRenormalize fuel ⟨lo, hi, p, v, g⟩ out).2.1
      = ⟨(renormTrace fuel lo hi).2.1, (renormTrace fuel lo hi).2.2,
         (emitShifts (renormTrace fuel lo hi).1 p).2, v, g⟩ ∧
    (EncodeRenormalize fuel ⟨lo, hi, p, v, g⟩ out).2.2.WrWF ∧
    (EncodeRenormalize fuel ⟨lo, hi, p, v, g⟩ out).2.2.wrBits
      = out.wrBits ++ (emitShifts (renormTrace fuel lo hi).1 p).1 ∧
    (EncodeRenormalize fuel ⟨lo, hi, p, v, g⟩ out).2.2.file_buffer.type
      = out.file_buffer.type := by
  intro fuel
  induction fuel with
  | zero => intro lo hi p v g out h1 h2 h3; omega
  | succ fuel ih =>
    intro lo hi p v g out hlh hhi hfuel hout hroom hp
    have hpow : (hi - lo + 1) * 2 ^ (fuel + 1) = 2 * (hi - lo + 1) * 2 ^ fuel := by
      rw [Nat.pow_succ]; ring
    rw [hpow] at hfuel
    obtain ⟨c1, c2, c3, -⟩ := bac_constants
    unfold EncodeRenormalize
    simp only []
    by_cases k1 : hi < HALF_RANGE_BORDER
    · -- lower half
      have hs := shiftOf_lower lo hi k1
      obtain ⟨b1, b2, -⟩ := shiftBase_le lo hi _ hs hlh hhi
      rw [renormTrace_some fuel lo hi _ hs] at hroom ⊢
      have e0 : shiftBase .lower = 0 := rfl
      rw [e0] at hroom b2 ⊢
      simp only [Nat.sub_zero, emitShifts, List.length_cons, List.length_append,
        List.length_replicate] at hroom b2 ⊢
      have hspec := OutputNextBits_spec false ⟨lo, hi, p, v, g⟩ out hout
        (Room_mono out _ (1 + p) (by omega) hroom)
      simp only [Bool.false_eq_true, if_false, Bool.not_false] at hspec
      obtain ⟨o1, o2, o3, o4, o5⟩ := hspec
      obtain ⟨d1, d2⟩ := toRange_double hi b2
      obtain ⟨d3, -⟩ := toRange_double lo (by omega)
      have hroom' : (OutputNextBits 0 ⟨lo, hi, p, v, g⟩ out).2.2.Room
          (emitShifts (renormTrace fuel (2 * lo) (2 * hi + 1)).1 0).1.length := by
        apply Room_of_wrBits out _ _ _ o5 o4
        simp only [List.length_cons, List.length_replicate]
        exact Room_mono out _ _ (by omega) hroom
      obtain ⟨i1, i2, i3, i4, i5⟩ := ih (2 * lo) (2 * hi + 1) 0 v g _ (by omega) b2
        (by
          have := double_width lo hi 0 (by omega) hlh
          simp only [Nat.sub_zero] at this
          rw [this]; exact hfuel) o3 hroom' (by omega)
      simp only [k1, if_true, o1, ne_eq, not_true_eq_false, if_false, o2, doubleRange, d1, d2, d3]
      refine ⟨i1, i2, i3, ?_, by rw [i5, o5]⟩
      rw [i4, o4, List.append_assoc]
      rfl
    · by_cases k2 : lo ≥ HALF_RANGE_BORDER
      · -- upper half
        have hs := shiftOf_upper lo hi k1 k2
        obtain ⟨b1, b2, -⟩ := shiftBase_le lo hi _ hs hlh hhi
        rw [renormTrace_some fuel lo hi _ hs] at hroom ⊢
        have e0 : shiftBase .upper = HALF_RANGE_BORDER := rfl
        rw [e0] at hroom b1 b2 ⊢
        simp only [emitShifts, List.length_cons, List.length_append,
          List.length_replicate] at hroom ⊢
        have hspec := OutputNextBits_spec true ⟨lo, hi, p, v, g⟩ out hout
          (Room_mono out _ (1 + p) (by omega) hroom)
        simp only [if_true, Bool.not_true] at hspec
        obtain ⟨o1, o2, o3, o4, o5⟩ := hspec
        have s1 := toRange_sub lo HALF_RANGE_BORDER b1 (by omega)
        have s2 := toRange_sub hi HALF_RANGE_BORDER (by omega) hhi
        obtain ⟨d1, d2⟩ := toRange_double (hi - HALF_RANGE_BORDER) b2
        obtain ⟨d3, -⟩ := toRange_double (lo - HALF_RANGE_BORDER) (by omega)
        have hroom' : (OutputNextBits 1 ⟨lo, hi, p, v, g⟩ out).2.2.Room
            (emitShifts (renormTrace fuel (2 * (lo - HALF_RANGE_BORDER))
              (2 * (hi - HALF_RANGE_BORDER) + 1)).1 0).1.length := by
          apply Room_of_wrBits out _ _ _ o5 o4
          simp only [List.length_cons, List.length_replicate]
          exact Room_mono out _ _ (by omega) hroom
        obtain ⟨i1, i2, i3, i4, i5⟩ := ih (2 * (lo - HALF_RANGE_BORDER))
          (2 * (hi - HALF_RANGE_BORDER) + 1) 0 v g _ (by omega) b2
          (by rw [double_width lo hi _ b1 hlh]; exact hfuel) o3 hroom' (by omega)
        simp only [k1, if_false, k2, if_true, o1, ne_eq, not_true_eq_false, o2, doubleRange,
          s1, s2, d1, d2, d3]
        refine ⟨i1, i2, i3, ?_, by rw [i5, o5]⟩
        rw [i4, o4, List.append_assoc]
        rfl
      · by_cases k3 : lo ≥ QUARTER_RANGE_BORDER ∧ hi < THREE_QUARTERS_RANGE_BORDER
        · -- middle half
          have hs := shiftOf_middle lo hi k1 k2 k3
          obtain ⟨b1, b2, -⟩ := shiftBase_le lo hi _ hs hlh hhi
          rw [renormTrace_some fuel lo hi _ hs] at hroom ⊢
          have e0 : shiftBase .middle = QUARTER_RANGE_BORDER := rfl
          rw [e0] at hroom b1 b2 ⊢
          simp only [emitShifts] at hroom ⊢
          have s1 := toRange_sub lo QUARTER_RANGE_BORDER b1 (by omega)
          have s2 := toRange_sub hi QUARTER_RANGE_BORDER (by omega) hhi
          obtain ⟨d1, d2⟩ := toRange_double (hi - QUARTER_RANGE_BORDER) b2
          obtain ⟨d3, -⟩ := toRange_double (lo - QUARTER_RANGE_BORDER) (by omega)
          have hp1 : (p + 1) % 2 ^ 64 = p + 1 := Nat.mod_eq_of_lt (by omega)
          obtain ⟨i1, i2, i3, i4, i5⟩ := ih (2 * (lo - QUARTER_RANGE_BORDER))
            (2 * (hi - QUARTER_RANGE_BORDER) + 1) (p + 1) v g out (by omega) b2
            (by rw [double_width lo hi _ b1 hlh]; exact hfuel) hout hroom (by omega)
          simp only [k1, if_false, k2, k3, and_self, if_true, doubleRange, s1, s2, d1, d2, d3, hp1]
          exact ⟨i1, i2, i3, i4, i5⟩
        · have hs := shiftOf_stop lo hi k1 k2 k3
          rw [renormTrace_none fuel lo hi hs]
          simp only [k1, if_false, k2, k3, emitShifts, List.append_nil]
          exact ⟨trivial, trivial, hout, trivial, trivial⟩

theorem emitShifts_pending (t : List bac_shift_t) : ∀ p, (emitShifts t p).2 ≤ p + t.length := by
  induction t with
  | nil => intro p; simp [emitShifts]
  | cons sh r ih =>
    intro p
    cases sh
    · simp only [emitShifts, List.length_cons]; have := ih 0; omega
    · simp only [emitShifts, List.length_cons]; have := ih 0; omega
    · simp only [emitShifts, List.length_cons]; have := ih (p + 1); omega

theorem EncodeSymbol_spec (m : bac_model_t) (hm : m.WF) (c : bac_coder_t) (index : Nat)
    (out : bit_file_buffer_t) (hr : RangeOK c.start_range c.end_range)
    (h1 : 1 ≤ index) (h3 : index ≤ 3) (hout : out.WrWF)
    (hroom : out.Room (emitShifts (renormTrace (RANGE_BITS + 1)
      (narrowPure m.cumulative_symbol_frequencies c.start_range c.end_range index).1
      (narrowPure m.cumulative_symbol_frequencies c.start_range c.end_range index).2).1
      c.next_bits).1.length)
    (hp : c.next_bits + (RANGE_BITS + 1) < 2 ^ 64) :
    (EncodeSymbol index m c out).1 = NO_ERROR ∧
    (EncodeSymbol index m c out).2.1
      = ⟨(renormTrace (RANGE_BITS + 1)
            (narrowPure m.cumulative_symbol_frequencies c.start_range c.end_range index).1
            (narrowPure m.cumulative_symbol_frequencies c.start_range c.end_range index).2).2.1,
         (renormTrace (RANGE_BITS + 1)
            (narrowPure m.cumulative_symbol_frequencies c.start_range c.end_range index).1
            (narrowPure m.cumulative_symbol_frequencies c.start_range c.end_range index).2).2.2,
         (emitShifts (renormTrace (RANGE_BITS + 1)
            (narrowPure m.cumulative_symbol_frequencies c.start_range c.end_range index).1
            (narrowPure m.cumulative_symbol_frequencies c.start_range c.end_range index).2).1
            c.next_bits).2,
         c.current_value, c.after_eof_bits⟩ ∧
    (EncodeSymbol index m c out).2.2.WrWF ∧
    (EncodeSymbol index m c out).2.2.wrBits
      = out.wrBits ++ (emitShifts (renormTrace (RANGE_BITS + 1)
            (narrowPure m.cumulative_symbol_frequencies c.start_range c.end_range index).1
            (narrowPure m.cumulative_symbol_frequencies c.start_range c.end_range index).2).1
            c.next_bits).1 ∧
    (EncodeSymbol index m c out).2.2.file_buffer.type = out.file_buffer.type := by
  obtain ⟨n1, n2, n3⟩ := narrow_facts m hm _ _ index hr h1 h3
  obtain ⟨r1, r2, r3⟩ := RangeOK_width _ _ hr
  have hn := narrowRange_eq m hm c index hr h1 h3
  unfold EncodeSymbol
  rw [hn]
  exact EncodeRenormalize_spec (RANGE_BITS + 1) _ _ c.next_bits c.current_value c.after_eof_bits
    out n2 (by omega) (narrow_fuel _ _ n2) hout hroom hp

theorem FinishEncoding_spec (c : bac_coder_t) (out : bit_file_buffer_t) (hout : out.WrWF)
    (hroom : out.Room (c.next_bits + 2)) (hp : c.next_bits + 1 < 2 ^ 64) :
    (FinishEncoding c out).1 = NO_ERROR ∧
    (FinishEncoding c out).2.2.WrWF ∧
    (FinishEncoding c out).2.2.wrBits
      = out.wrBits ++ insertAfterFirst c.next_bits (finishBits c.start_range) ∧
    (FinishEncoding c out).2.2.file_buffer.type = out.file_buffer.type := by
  have hp1 : (c.next_bits + 1) % 2 ^ 64 = c.next_bits + 1 := Nat.mod_eq_of_lt hp
  unfold FinishEncoding finishBits
  rw [hp1]
  by_cases hq : c.start_range < QUARTER_RANGE_BORDER
  · have hspec := OutputNextBits_spec false { c with next_bits := c.next_bits + 1 } out hout
      (Room_mono out _ _ (by simp only; omega) hroom)
    simp only [Bool.false_eq_true, if_false, Bool.not_false] at hspec
    obtain ⟨o1, -, o3, o4, o5⟩ := hspec
    simp only [hq, if_true]
    refine ⟨o1, o3, ?_, o5⟩
    rw [o4]
    simp only [insertAfterFirst, Bool.not_false, List.replicate_succ']
  · have hspec := OutputNextBits_spec true { c with next_bits := c.next_bits + 1 } out hout
      (Room_mono out _ _ (by simp only; omega) hroom)
    simp only [if_true, Bool.not_true] at hspec
    obtain ⟨o1, -, o3, o4, o5⟩ := hspec
    simp only [hq, if_false]
    refine ⟨o1, o3, ?_, o5⟩
    rw [o4]
    simp only [insertAfterFirst, Bool.not_true, List.replicate_succ']

theorem head_bit (b : Bool) (rest : List Bool) :
    b :: rest = toBits 1 (if b then 1 else 0) ++ rest := by
  cases b <;> rfl

theorem insertAfterFirst_length_add (p : Nat) (X : List Bool) (h : X ≠ []) :
    (insertAfterFirst p X).length = p + X.length := by
  rw [insertAfterFirst_length p X h]; omega

/-- The encoder writes the code of the remaining input, with the pending bits inserted after
its first bit. -/
theorem EncodeBACLoop_spec (opts : options_t) : ∀ (bits : List Bool) (fuel : Nat)
    (m : bac_model_t) (c : bac_coder_t) (inb out : bit_file_buffer_t),
    m.WF → RangeOK c.start_range c.end_range → inb.RdWF → inb.rdBits = bits → out.WrWF →
    out.Room (c.next_bits + (bacStream opts.adaptive m c.start_range c.end_range bits).length) →
    bits.length < fuel → c.next_bits + 17 * (bits.length + 2) < 2 ^ 64 →
    (EncodeBACLoop fuel m c inb out opts).1 = NO_ERROR ∧
    (EncodeBACLoop fuel m c inb out opts).2.2.WrWF ∧
    (EncodeBACLoop fuel m c inb out opts).2.2.wrBits
      = out.wrBits ++ insertAfterFirst c.next_bits
          (bacStream opts.adaptive m c.start_range c.end_range bits) ∧
    (EncodeBACLoop fuel m c inb out opts).2.2.file_buffer.type = out.file_buffer.type := by
  have h17 : RANGE_BITS + 1 = 17 := by decide
  intro bits
  induction bits with
  | nil =>
    intro fuel m c inb out hm hr hin hb hout hroom hf hp
    obtain ⟨f, rfl⟩ : ∃ f, fuel = f + 1 := ⟨fuel - 1, by simp at hf; omega⟩
    obtain ⟨e1, -, -⟩ := read_end inb hin hb
    obtain ⟨n1, n2, n3⟩ := narrow_facts m hm _ _ EOF_SYMBOL_INDEX hr (by decide) (by decide)
    obtain ⟨r1, r2, r3⟩ := RangeOK_width _ _ hr
    obtain ⟨t1, t2⟩ := renormTrace_spec (RANGE_BITS + 1) _ _ n2 (by omega) (narrow_fuel _ _ n2)
    obtain ⟨q1, q2, -, -⟩ := finishBits_window _ _ t1
    have hkey := emitShifts_apply (renormTrace (RANGE_BITS + 1)
      (narrowPure m.cumulative_symbol_frequencies c.start_range c.end_range EOF_SYMBOL_INDEX).1
      (narrowPure m.cumulative_symbol_frequencies c.start_range c.end_range EOF_SYMBOL_INDEX).2).1
      c.next_bits _ q1
    have hpend := emitShifts_pending (renormTrace (RANGE_BITS + 1)
      (narrowPure m.cumulative_symbol_frequencies c.start_range c.end_range EOF_SYMBOL_INDEX).1
      (narrowPure m.cumulative_symbol_frequencies c.start_range c.end_range EOF_SYMBOL_INDEX).2).1
      c.next_bits
    have hlen := congrArg List.length hkey
    rw [List.length_append, insertAfterFirst_length_add _ _ q1,
      insertAfterFirst_length_add _ _ (applyShifts_ne_nil _ _ q1), q2] at hlen
    simp only [bacStream] at hroom ⊢
    obtain ⟨s1, s2, s3, s4, s5⟩ := EncodeSymbol_spec m hm c EOF_SYMBOL_INDEX out hr (by decide)
      (by decide) hout (Room_mono out _ _ (by omega) hroom) (by rw [h17]; omega)
    have hroom' : (EncodeSymbol EOF_SYMBOL_INDEX m c out).2.2.Room
        ((EncodeSymbol EOF_SYMBOL_INDEX m c out).2.1.next_bits + 2) := by
      apply Room_of_wrBits out _ _ _ s5 s4
      rw [s2]
      exact Room_mono out _ _ (by simp only; omega) hroom
    have t2' := Nat.lt_of_lt_of_le t2 (Nat.le_of_eq h17)
    obtain ⟨g1, g2, g3, g4⟩ := FinishEncoding_spec (EncodeSymbol EOF_SYMBOL_INDEX m c out).2.1
      _ s3 hroom' (by rw [s2]; simp only; omega)
    unfold EncodeBACLoop
    have e1' : ¬ (EndOfBitFileBuffer inb).1 = 0 := e1
    have hne0 : ¬ (NO_ERROR ≠ NO_ERROR) := fun h => h rfl
    simp only [e1', if_false, s1, hne0]
    refine ⟨g1, g2, ?_, by rw [g4, s5]⟩
    rw [g3, s4, List.append_assoc]
    rw [s2]
    simp only
    rw [hkey]
  | cons b rest ih =>
    intro fuel m c inb out hm hr hin hb hout hroom hf hp
    obtain ⟨f, rfl⟩ : ∃ f, fuel = f + 1 := ⟨fuel - 1, by omega⟩
    rw [head_bit b rest] at hb
    obtain ⟨e1, r1, r2, r3, hlog⟩ := read_head inb 1 (if b then 1 else 0) rest hin (by decide)
      (by decide) (by cases b <;> decide) hb
    have hlog' : LOG_ON_ERROR_AND_RETURN 1 1 = none := hlog
    have hlog2 : LOG_ON_ERROR_AND_RETURN ((1 : Nat) : Int) 1 = none := hlog
    obtain ⟨x1, x2, x3⟩ := firstIndex_range m hm (b :: rest)
    have hidx := x3 (by simp)
    simp only [firstIndex] at x1 x2 hidx
    obtain ⟨n1, n2, n3⟩ := narrow_facts m hm _ _ _ hr x1 x2
    obtain ⟨w1, w2, w3⟩ := RangeOK_width _ _ hr
    obtain ⟨t1, t2⟩ := renormTrace_spec (RANGE_BITS + 1) _ _ n2 (by omega) (narrow_fuel _ _ n2)
    have hm' : (if opts.adaptive ≠ 0 then UpdateModel m
        (m.symbol_to_index.getD (if b then 1 else 0) 0) else m).WF := by
      split
      · exact UpdateModel_WF m hm _ hidx
      · exact hm
    obtain ⟨y1, -, -⟩ := bacStream_spec opts.adaptive rest _ _ _ hm' t1
    have hne : bacStream opts.adaptive (if opts.adaptive ≠ 0 then UpdateModel m
        (m.symbol_to_index.getD (if b then 1 else 0) 0) else m)
        (renormTrace (RANGE_BITS + 1)
          (narrowPure m.cumulative_symbol_frequencies c.start_range c.end_range
            (m.symbol_to_index.getD (if b then 1 else 0) 0)).1
          (narrowPure m.cumulative_symbol_frequencies c.start_range c.end_range
            (m.symbol_to_index.getD (if b then 1 else 0) 0)).2).2.1
        (renormTrace (RANGE_BITS + 1)
          (narrowPure m.cumulative_symbol_frequencies c.start_range c.end_range
            (m.symbol_to_index.getD (if b then 1 else 0) 0)).1
          (narrowPure m.cumulative_symbol_frequencies c.start_range c.end_range
            (m.symbol_to_index.getD (if b then 1 else 0) 0)).2).2.2 rest ≠ [] := by
      intro h
      rw [h] at y1
      simp at y1
    have hkey := emitShifts_apply (renormTrace (RANGE_BITS + 1)
      (narrowPure m.cumulative_symbol_frequencies c.start_range c.end_range
        (m.symbol_to_index.getD (if b then 1 else 0) 0)).1
      (narrowPure m.cumulative_symbol_frequencies c.start_range c.end_range
        (m.symbol_to_index.getD (if b then 1 else 0) 0)).2).1 c.next_bits _ hne
    have hpend := emitShifts_pending (renormTrace (RANGE_BITS + 1)
      (narrowPure m.cumulative_symbol_frequencies c.start_range c.end_range
        (m.symbol_to_index.getD (if b then 1 else 0) 0)).1
      (narrowPure m.cumulative_symbol_frequencies c.start_range c.end_range
        (m.symbol_to_index.getD (if b then 1 else 0) 0)).2).1 c.next_bits
    have hlen := congrArg List.length hkey
    rw [List.length_append, insertAfterFirst_length_add _ _ hne,
      insertAfterFirst_length_add _ _ (applyShifts_ne_nil _ _ hne)] at hlen
    simp only [bacStream] at hroom ⊢
    obtain ⟨s1, s2, s3, s4, s5⟩ := EncodeSymbol_spec m hm c
      (m.symbol_to_index.getD (if b then 1 else 0) 0) out hr x1 x2 hout
      (Room_mono out _ _ (by omega) hroom) (by rw [h17]; omega)
    have hroom' : (EncodeSymbol (m.symbol_to_index.getD (if b then 1 else 0) 0) m c out).2.2.Room
        ((EncodeSymbol (m.symbol_to_index.getD (if b then 1 else 0) 0) m c out).2.1.next_bits +
          (bacStream opts.adaptive (if opts.adaptive ≠ 0 then UpdateModel m
            (m.symbol_to_index.getD (if b then 1 else 0) 0) else m)
            (EncodeSymbol (m.symbol_to_index.getD (if b then 1 else 0) 0) m c out).2.1.start_range
            (EncodeSymbol (m.symbol_to_index.getD (if b then 1 else 0) 0) m c out).2.1.end_range
            rest).length) := by
      apply Room_of_wrBits out _ _ _ s5 s4
      rw [s2]
      exact Room_mono out _ _ (by simp only; omega) hroom
    have t2' := Nat.lt_of_lt_of_le t2 (Nat.le_of_eq h17)
    have hrec := ih f _ (EncodeSymbol (m.symbol_to_index.getD (if b then 1 else 0) 0) m c out).2.1
      _ _ hm' (by rw [s2]; exact t1) r2 r3 s3 hroom'
      (by simp only [List.length_cons] at hf; omega)
      (by rw [s2]; simp only [List.length_cons] at hp ⊢; omega)
    obtain ⟨i1, i2, i3, i4⟩ := hrec
    unfold EncodeBACLoop
    have hne0 : ¬ (NO_ERROR ≠ NO_ERROR) := fun h => h rfl
    simp only [e1, if_true, r1, hlog', hlog2, s1, hne0, if_false]
    refine ⟨i1, i2, ?_, by rw [i4, s5]⟩
    rw [i3, s4, List.append_assoc, s2]
    simp only
    rw [hkey]

theorem toBits_one_bit (b : Bool) : toBits 1 (if b then 1 else 0) = [b] := by
  cases b <;> rfl

theorem drop_getD (W : List Bool) (k : Nat) (h : k < W.length) :
    W.drop k = W.getD k false :: W.drop (k + 1) := by
  rw [List.getD_eq_getElem?_getD, List.getElem?_eq_getElem h]
  exact List.drop_eq_getElem_cons h

theorem getD_beyond (W : List Bool) (k : Nat) (h : W.length ≤ k) : W.getD k false = false := by
  rw [List.getD_eq_getElem?_getD, List.getElem?_eq_none h]
  rfl

/-- One call of `ReadBitSpecial` when the input holds the stream `W` from position `k` on: it
yields the bit at position `k`, which is a zero bit beyond the end of the stream, where the
count of allowed bits after the end is decremented. -/
theorem ReadBitSpecial_spec (c : bac_coder_t) (inb : bit_file_buffer_t) (W : List Bool) (k : Nat)
    (hin : inb.RdWF) (hb : inb.rdBits = W.drop k)
    (hg : k < W.length ∨ 0 < c.after_eof_bits) :
    (ReadBitSpecial c inb).1 = NO_ERROR ∧
    (ReadBitSpecial c inb).2.1 = (if W.getD k false then 1 else 0) ∧
    (ReadBitSpecial c inb).2.2.1 = { c with after_eof_bits :=
      if k < W.length then c.after_eof_bits else c.after_eof_bits - 1 } ∧
    (ReadBitSpecial c inb).2.2.2.RdWF ∧
    (ReadBitSpecial c inb).2.2.2.rdBits = W.drop (k + 1) := by
  by_cases hk : k < W.length
  · have hb' : inb.rdBits = toBits 1 (if W.getD k false then 1 else 0) ++ W.drop (k + 1) := by
      rw [hb, drop_getD W k hk, toBits_one_bit]
      rfl
    obtain ⟨e1, r1, r2, r3, hlog⟩ := read_head inb 1 (if W.getD k false then 1 else 0) _ hin
      (by decide) (by decide) (by split <;> decide) hb'
    have hlog' : LOG_ON_ERROR_AND_RETURN ((1 : Nat) : Int) 1 = none := hlog
    unfold ReadBitSpecial
    have e1' : ¬ (EndOfBitFileBuffer inb).1 ≠ 0 := fun h => h e1
    simp only [e1', if_false, r1, hlog', hk, if_true]
    exact ⟨trivial, trivial, trivial, r2, r3⟩
  · have hnil : W.drop k = [] := List.drop_eq_nil_of_le (by omega)
    have hnil' : W.drop (k + 1) = [] := List.drop_eq_nil_of_le (by omega)
    rw [hnil] at hb
    obtain ⟨e1, e2, e3⟩ := read_end inb hin hb
    have hpos : c.after_eof_bits > 0 := by
      rcases hg with h | h
      · exact absurd h hk
      · exact h
    unfold ReadBitSpecial
    simp only [e1, ne_eq, not_false_eq_true, if_true, hpos, hk, if_false,
      getD_beyond W k (by omega), Bool.false_eq_true]
    exact ⟨trivial, trivial, trivial, e2, by rw [e3, hnil']⟩

/-- The loop of `StartDecoding` fills the value with the first 16 bits of the stream, padded
with zero bits. -/
theorem StartDecodingLoop_spec (W : List Bool) (hW : 2 ≤ W.length) :
    ∀ (n k : Nat) (c : bac_coder_t) (inb : bit_file_buffer_t), n + k = 16 → inb.RdWF →
    inb.rdBits = W.drop k → c.current_value = window k W →
    c.after_eof_bits + (k - min k W.length) = 14 →
    (StartDecodingLoop n c inb).1 = NO_ERROR ∧
    (StartDecodingLoop n c inb).2.1 = { c with current_value := window 16 W
                                               after_eof_bits := min 16 W.length - 2 } ∧
    (StartDecodingLoop n c inb).2.2.RdWF ∧
    (StartDecodingLoop n c inb).2.2.rdBits = W.drop 16 := by
  intro n
  induction n with
  | zero =>
    intro k c inb hk hin hb hv hg
    have hk' : k = 16 := by omega
    subst hk'
    unfold StartDecodingLoop
    refine ⟨rfl, ?_, hin, hb⟩
    obtain ⟨lo, hi, p, v, g⟩ := c
    simp only at hv hg ⊢
    rw [hv]
    congr 1
    omega
  | succ n ih =>
    intro k c inb hk hin hb hv hg
    obtain ⟨r1, r2, r3, r4, r5⟩ := ReadBitSpecial_spec c inb W k hin hb (by omega)
    have hlt := window_lt k W
    have hpow : 2 ^ k ≤ 2 ^ 15 := Nat.pow_le_pow_right (by decide) (by omega)
    have hstate : shiftInBit (ReadBitSpecial c inb).2.2.1 (ReadBitSpecial c inb).2.1
        = { c with current_value := window (k + 1) W
                   after_eof_bits :=
                     if k < W.length then c.after_eof_bits else c.after_eof_bits - 1 } := by
      rw [r2, r3, window_snoc]
      unfold shiftInBit
      simp only [hv]
      congr 1
      unfold toRange
      split <;> omega
    obtain ⟨i1, i2, i3, i4⟩ := ih (k + 1)
      (shiftInBit (ReadBitSpecial c inb).2.2.1 (ReadBitSpecial c inb).2.1)
      (ReadBitSpecial c inb).2.2.2 (by omega) r4 r5
      (by rw [hstate]) (by rw [hstate]; simp only; split <;> omega)
    unfold StartDecodingLoop
    have hne0 : ¬ (NO_ERROR ≠ NO_ERROR) := fun h => h rfl
    simp only [r1, hne0, if_false]
    refine ⟨i1, ?_, i3, i4⟩
    rw [i2, hstate]

theorem StartDecoding_spec (c : bac_coder_t) (inb : bit_file_buffer_t) (W : List Bool)
    (hW : 2 ≤ W.length) (hin : inb.RdWF) (hb : inb.rdBits = W) :
    (StartDecoding c inb).1 = NO_ERROR ∧
    (StartDecoding c inb).2.1
      = ⟨0, MAX_RANGE, c.next_bits, window 16 W, min 16 W.length - 2⟩ ∧
    (StartDecoding c inb).2.2.RdWF ∧
    (StartDecoding c inb).2.2.rdBits = W.drop 16 := by
  obtain ⟨i1, i2, i3, i4⟩ := StartDecodingLoop_spec W hW RANGE_BITS 0
    { c with current_value := 0, after_eof_bits := RANGE_BITS - 2 } inb rfl hin
    (by rw [hb]; rfl) rfl
    (by show RANGE_BITS - 2 + (0 - min 0 W.length) = 14; rw [Nat.zero_sub]; rfl)
  unfold StartDecoding
  have hne0 : ¬ (NO_ERROR ≠ NO_ERROR) := fun h => h rfl
  simp only [i1, hne0, if_false, i2]
  exact ⟨trivial, trivial, i3, i4⟩

/-- One iteration of the renormalisation loop of `DecodeSymbol` that takes the case `sh`,
after the subtraction of the base of the case. -/
theorem decode_shift_step (sh : bac_shift_t) (lo hi p : Nat) (X : List Bool)
    (inb : bit_file_buffer_t) (hs : shiftOf lo hi = some sh) (hlh : lo ≤ hi) (hhi : hi ≤ 65535)
    (hX : 2 ≤ X.length) (hin : inb.RdWF) (hb : inb.rdBits = (applyShifts [sh] X).drop 16) :
    (ReadBitSpecial (doubleRange ⟨lo - shiftBase sh, hi - shiftBase sh, p,
        window 16 (applyShifts [sh] X) - shiftBase sh,
        min 16 (applyShifts [sh] X).length - 2⟩) inb).1 = NO_ERROR ∧
    shiftInBit (ReadBitSpecial (doubleRange ⟨lo - shiftBase sh, hi - shiftBase sh, p,
        window 16 (applyShifts [sh] X) - shiftBase sh,
        min 16 (applyShifts [sh] X).length - 2⟩) inb).2.2.1
      (ReadBitSpecial (doubleRange ⟨lo - shiftBase sh, hi - shiftBase sh, p,
        window 16 (applyShifts [sh] X) - shiftBase sh,
        min 16 (applyShifts [sh] X).length - 2⟩) inb).2.1
      = ⟨2 * (lo - shiftBase sh), 2 * (hi - shiftBase sh) + 1, p, window 16 X,
         min 16 X.length - 2⟩ ∧
    (ReadBitSpecial (doubleRange ⟨lo - shiftBase sh, hi - shiftBase sh, p,
        window 16 (applyShifts [sh] X) - shiftBase sh,
        min 16 (applyShifts [sh] X).length - 2⟩) inb).2.2.2.RdWF ∧
    (ReadBitSpecial (doubleRange ⟨lo - shiftBase sh, hi - shiftBase sh, p,
        window 16 (applyShifts [sh] X) - shiftBase sh,
        min 16 (applyShifts [sh] X).length - 2⟩) inb).2.2.2.rdBits = X.drop 16 := by
  have hXne : X ≠ [] := by
    intro h
    rw [h] at hX
    simp at hX
  obtain ⟨b1, b2, -⟩ := shiftBase_le lo hi sh hs hlh hhi
  obtain ⟨s1, s2, s3, s4⟩ := shift_stream sh X hXne
  obtain ⟨r1, r2, r3, r4, r5⟩ := ReadBitSpecial_spec (doubleRange ⟨lo - shiftBase sh,
    hi - shiftBase sh, p, window 16 (applyShifts [sh] X) - shiftBase sh,
    min 16 (applyShifts [sh] X).length - 2⟩) inb (applyShifts [sh] X) 16 hin hb
    (by simp only [doubleRange]; omega)
  obtain ⟨d1, d2⟩ := toRange_double (hi - shiftBase sh) b2
  obtain ⟨d3, -⟩ := toRange_double (lo - shiftBase sh) (by omega)
  have hlt := window_lt 16 X
  refine ⟨r1, ?_, r4, by rw [r5, s3]⟩
  rw [r2, r3]
  unfold shiftInBit
  simp only [doubleRange, d1, d2, d3]
  rw [s2]
  rw [s2] at hlt
  obtain ⟨v, hv⟩ : ∃ v, v = window 16 (applyShifts [sh] X) - shiftBase sh := ⟨_, rfl⟩
  rw [← hv] at hlt ⊢
  have hval : toRange (2 * (v : Int)
      + (((if (applyShifts [sh] X).getD 16 false = true then 1 else 0) % 2 ^ 16 : Nat) : Int))
      = 2 * v + (if (applyShifts [sh] X).getD 16 false = true then 1 else 0) := by
    unfold toRange
    split <;> omega
  rw [hval]
  have hg : (if 16 < (applyShifts [sh] X).length then min 16 (applyShifts [sh] X).length - 2
      else min 16 (applyShifts [sh] X).length - 2 - 1) = min 16 X.length - 2 := by
    split <;> omega
  rw [hg]

/-- The renormalisation loop of `DecodeSymbol` on a stream that the encoder's renormalisation
from the same range produces: it follows the same cases and is left with the stream `X`. -/
theorem DecodeRenormalize_spec : ∀ (fuel lo hi p : Nat) (X : List Bool) (inb : bit_file_buffer_t),
    lo ≤ hi → hi ≤ 65535 → (renormTrace fuel lo hi).1.length < fuel → 2 ≤ X.length →
    inb.RdWF → inb.rdBits = (applyShifts (renormTrace fuel lo hi).1 X).drop 16 →
    (DecodeRenormalize fuel ⟨lo, hi, p, window 16 (applyShifts (renormTrace fuel lo hi).1 X),
      min 16 (applyShifts (renormTrace fuel lo hi).1 X).length - 2⟩ inb).1 = NO_ERROR ∧
    (DecodeRenormalize fuel ⟨lo, hi, p, window 16 (applyShifts (renormTrace fuel lo hi).1 X),
      min 16 (applyShifts (renormTrace fuel lo hi).1 X).length - 2⟩ inb).2.1
      = ⟨(renormTrace fuel lo hi).2.1, (renormTrace fuel lo hi).2.2, p, window 16 X,
         min 16 X.length - 2⟩ ∧
    (DecodeRenormalize fuel ⟨lo, hi, p, window 16 (applyShifts (renormTrace fuel lo hi).1 X),
      min 16 (applyShifts (renormTrace fuel lo hi).1 X).length - 2⟩ inb).2.2.RdWF ∧
    (DecodeRenormalize fuel ⟨lo, hi, p, window 16 (applyShifts (renormTrace fuel lo hi).1 X),
      min 16 (applyShifts (renormTrace fuel lo hi).1 X).length - 2⟩ inb).2.2.rdBits
      = X.drop 16 := by
  intro fuel
  induction fuel with
  | zero => intro lo hi p X inb _ _ h; exact absurd h (Nat.not_lt_zero _)
  | succ fuel ih =>
    intro lo hi p X inb hlh hhi hlen hX hin hb
    have hXne : X ≠ [] := by
      intro h
      rw [h] at hX
      simp at hX
    have hne0 : ¬ (NO_ERROR ≠ NO_ERROR) := fun h => h rfl
    have step : ∀ sh, shiftOf lo hi = some sh →
        (match (some (⟨lo - shiftBase sh, hi - shiftBase sh, p,
            window 16 (applyShifts (renormTrace (fuel + 1) lo hi).1 X) - shiftBase sh,
            min 16 (applyShifts (renormTrace (fuel + 1) lo hi).1 X).length - 2⟩ : bac_coder_t)
            : Option bac_coder_t) with
          | none => (NO_ERROR, (⟨lo, hi, p,
              window 16 (applyShifts (renormTrace (fuel + 1) lo hi).1 X),
              min 16 (applyShifts (renormTrace (fuel + 1) lo hi).1 X).length - 2⟩ : bac_coder_t),
              inb)
          | some c1 =>
            if (ReadBitSpecial (doubleRange c1) inb).1 ≠ NO_ERROR then
              ((ReadBitSpecial (doubleRange c1) inb).1, (ReadBitSpecial (doubleRange c1) inb).2.2.1,
                (ReadBitSpecial (doubleRange c1) inb).2.2.2)
            else DecodeRenormalize fuel
              (shiftInBit (ReadBitSpecial (doubleRange c1) inb).2.2.1
                (ReadBitSpecial (doubleRange c1) inb).2.1)
              (ReadBitSpecial (doubleRange c1) inb).2.2.2) =
        DecodeRenormalize fuel ⟨2 * (lo - shiftBase sh), 2 * (hi - shiftBase sh) + 1, p,
          window 16 (applyShifts (renormTrace fuel (2 * (lo - shiftBase sh))
            (2 * (hi - shiftBase sh) + 1)).1 X),
          min 16 (applyShifts (renormTrace fuel (2 * (lo - shiftBase sh))
            (2 * (hi - shiftBase sh) + 1)).1 X).length - 2⟩
          (ReadBitSpecial (doubleRange ⟨lo - shiftBase sh, hi - shiftBase sh, p,
            window 16 (applyShifts (renormTrace (fuel + 1) lo hi).1 X) - shiftBase sh,
            min 16 (applyShifts (renormTrace (fuel + 1) lo hi).1 X).length - 2⟩) inb).2.2.2 ∧
        (ReadBitSpecial (doubleRange ⟨lo - shiftBase sh, hi - shiftBase sh, p,
            window 16 (applyShifts (renormTrace (fuel + 1) lo hi).1 X) - shiftBase sh,
            min 16 (applyShifts (renormTrace (fuel + 1) lo hi).1 X).length - 2⟩) inb).2.2.2.RdWF ∧
        (ReadBitSpecial (doubleRange ⟨lo - shiftBase sh, hi - shiftBase sh, p,
            window 16 (applyShifts (renormTrace (fuel + 1) lo hi).1 X) - shiftBase sh,
            min 16 (applyShifts (renormTrace (fuel + 1) lo hi).1 X).length - 2⟩) inb).2.2.2.rdBits
          = (applyShifts (renormTrace fuel (2 * (lo - shiftBase sh))
            (2 * (hi - shiftBase sh) + 1)).1 X).drop 16 := by
      intro sh hs
      rw [renormTrace_some fuel lo hi sh hs] at hb ⊢
      simp only at hb ⊢
      rw [applyShifts_cons] at hb ⊢
      have hl := applyShifts_length (renormTrace fuel (2 * (lo - shiftBase sh))
        (2 * (hi - shiftBase sh) + 1)).1 X hXne
      obtain ⟨q1, q2, q3, q4⟩ := decode_shift_step sh lo hi p _ inb hs hlh hhi (by omega) hin hb
      simp only [q1, hne0, if_false, q2]
      exact ⟨trivial, q3, q4⟩
    have finish : ∀ sh, shiftOf lo hi = some sh →
        (DecodeRenormalize fuel ⟨2 * (lo - shiftBase sh), 2 * (hi - shiftBase sh) + 1, p,
          window 16 (applyShifts (renormTrace fuel (2 * (lo - shiftBase sh))
            (2 * (hi - shiftBase sh) + 1)).1 X),
          min 16 (applyShifts (renormTrace fuel (2 * (lo - shiftBase sh))
            (2 * (hi - shiftBase sh) + 1)).1 X).length - 2⟩
          (ReadBitSpecial (doubleRange ⟨lo - shiftBase sh, hi - shiftBase sh, p,
            window 16 (applyShifts (renormTrace (fuel + 1) lo hi).1 X) - shiftBase sh,
            min 16 (applyShifts (renormTrace (fuel + 1) lo hi).1 X).length - 2⟩) inb).2.2.2).1
          = NO_ERROR ∧
        (DecodeRenormalize fuel ⟨2 * (lo - shiftBase sh), 2 * (hi - shiftBase sh) + 1, p,
          window 16 (applyShifts (renormTrace fuel (2 * (lo - shiftBase sh))
            (2 * (hi - shiftBase sh) + 1)).1 X),
          min 16 (applyShifts (renormTrace fuel (2 * (lo - shiftBase sh))
            (2 * (hi - shiftBase sh) + 1)).1 X).length - 2⟩
          (ReadBitSpecial (doubleRange ⟨lo - shiftBase sh, hi - shiftBase sh, p,
            window 16 (applyShifts (renormTrace (fuel + 1) lo hi).1 X) - shiftBase sh,
            min 16 (applyShifts (renormTrace (fuel + 1) lo hi).1 X).length - 2⟩) inb).2.2.2).2.1
          = ⟨(renormTrace (fuel + 1) lo hi).2.1, (renormTrace (fuel + 1) lo hi).2.2, p,
             window 16 X, min 16 X.length - 2⟩ ∧
        (DecodeRenormalize fuel ⟨2 * (lo - shiftBase sh), 2 * (hi - shiftBase sh) + 1, p,
          window 16 (applyShifts (renormTrace fuel (2 * (lo - shiftBase sh))
            (2 * (hi - shiftBase sh) + 1)).1 X),
          min 16 (applyShifts (renormTrace fuel (2 * (lo - shiftBase sh))
            (2 * (hi - shiftBase sh) + 1)).1 X).length - 2⟩
          (ReadBitSpecial (doubleRange ⟨lo - shiftBase sh, hi - shiftBase sh, p,
            window 16 (applyShifts (renormTrace (fuel + 1) lo hi).1 X) - shiftBase sh,
            min 16 (applyShifts (renormTrace (fuel + 1) lo hi).1 X).length - 2⟩) inb).2.2.2).2.2.RdWF ∧
        (DecodeRenormalize fuel ⟨2 * (lo - shiftBase sh), 2 * (hi - shiftBase sh) + 1, p,
          window 16 (applyShifts (renormTrace fuel (2 * (lo - shiftBase sh))
            (2 * (hi - shiftBase sh) + 1)).1 X),
          min 16 (applyShifts (renormTrace fuel (2 * (lo - shiftBase sh))
            (2 * (hi - shiftBase sh) + 1)).1 X).length - 2⟩
          (ReadBitSpecial (doubleRange ⟨lo - shiftBase sh, hi - shiftBase sh, p,
            window 16 (applyShifts (renormTrace (fuel + 1) lo hi).1 X) - shiftBase sh,
            min 16 (applyShifts (renormTrace (fuel + 1) lo hi).1 X).length - 2⟩) inb).2.2.2).2.2.rdBits
          = X.drop 16 := by
      intro sh hs
      obtain ⟨-, t2, t3⟩ := step sh hs
      obtain ⟨b1, b2, -⟩ := shiftBase_le lo hi sh hs hlh hhi
      have hlen' : (renormTrace fuel (2 * (lo - shiftBase sh))
          (2 * (hi - shiftBase sh) + 1)).1.length < fuel := by
        rw [renormTrace_some fuel lo hi sh hs] at hlen
        simp only [List.length_cons] at hlen
        omega
      have := ih (2 * (lo - shiftBase sh)) (2 * (hi - shiftBase sh) + 1) p X _ (by omega) b2
        hlen' hX t2 t3
      have e2 : (renormTrace (fuel + 1) lo hi).2 = (renormTrace fuel (2 * (lo - shiftBase sh))
          (2 * (hi - shiftBase sh) + 1)).2 := by
        rw [renormTrace_some fuel lo hi sh hs]
      rw [e2]
      exact this
    have hsplit : ∀ sh, shiftOf lo hi = some sh →
        applyShifts (renormTrace (fuel + 1) lo hi).1 X
          = applyShifts [sh] (applyShifts (renormTrace fuel (2 * (lo - shiftBase sh))
            (2 * (hi - shiftBase sh) + 1)).1 X) := by
      intro sh hs
      rw [renormTrace_some fuel lo hi sh hs]
      exact applyShifts_cons _ _ _
    obtain ⟨c1, c2, c3, -⟩ := bac_constants
    unfold DecodeRenormalize
    simp only []
    by_cases k1 : hi < HALF_RANGE_BORDER
    · have hs := shiftOf_lower lo hi k1
      have st := (step _ hs).1
      have fi := finish _ hs
      have e0 : shiftBase .lower = 0 := rfl
      rw [e0] at st fi
      simp only [Nat.sub_zero] at st fi
      simp only [k1, if_true]
      rw [st]
      exact fi
    · by_cases k2 : lo ≥ HALF_RANGE_BORDER
      · have hs := shiftOf_upper lo hi k1 k2
        have st := (step _ hs).1
        have fi := finish _ hs
        obtain ⟨b1, b2, -⟩ := shiftBase_le lo hi _ hs hlh hhi
        obtain ⟨s1, -, -, -⟩ := shift_stream .upper (applyShifts (renormTrace fuel
          (2 * (lo - shiftBase .upper)) (2 * (hi - shiftBase .upper) + 1)).1 X)
          (applyShifts_ne_nil _ X hXne)
        rw [← hsplit _ hs] at s1
        have hw := window_lt 16 (applyShifts (renormTrace (fuel + 1) lo hi).1 X)
        have e0 : shiftBase .upper = HALF_RANGE_BORDER := rfl
        rw [e0] at st fi b1 s1
        have u1 := toRange_sub lo HALF_RANGE_BORDER b1 (by omega)
        have u2 := toRange_sub hi HALF_RANGE_BORDER (by omega) hhi
        have u3 := toRange_sub (window 16 (applyShifts (renormTrace (fuel + 1) lo hi).1 X))
          HALF_RANGE_BORDER s1 (by omega)
        simp only [k1, if_false, k2, if_true, u1, u2, u3]
        dsimp only at st
        rw [st]
        exact fi
      · by_cases k3 : lo ≥ QUARTER_RANGE_BORDER ∧ hi < THREE_QUARTERS_RANGE_BORDER
        · have hs := shiftOf_middle lo hi k1 k2 k3
          have st := (step _ hs).1
          have fi := finish _ hs
          obtain ⟨b1, b2, -⟩ := shiftBase_le lo hi _ hs hlh hhi
          obtain ⟨s1, -, -, -⟩ := shift_stream .middle (applyShifts (renormTrace fuel
            (2 * (lo - shiftBase .middle)) (2 * (hi - shiftBase .middle) + 1)).1 X)
            (applyShifts_ne_nil _ X hXne)
          rw [← hsplit _ hs] at s1
          have hw := window_lt 16 (applyShifts (renormTrace (fuel + 1) lo hi).1 X)
          have e0 : shiftBase .middle = QUARTER_RANGE_BORDER := rfl
          rw [e0] at st fi b1 s1
          have u1 := toRange_sub lo QUARTER_RANGE_BORDER b1 (by omega)
          have u2 := toRange_sub hi QUARTER_RANGE_BORDER (by omega) hhi
          have u3 := toRange_sub (window 16 (applyShifts (renormTrace (fuel + 1) lo hi).1 X))
            QUARTER_RANGE_BORDER s1 (by omega)
          simp only [k1, if_false, k2, k3, and_self, if_true, u1, u2, u3]
          dsimp only at st
          rw [st]
          exact fi
        · have hs := shiftOf_stop lo hi k1 k2 k3
          rw [renormTrace_none fuel lo hi hs]
          simp only [k1, if_false, k2, k3, applyShifts]
          exact ⟨trivial, trivial, hin, by
            rw [renormTrace_none fuel lo hi hs] at hb; exact hb⟩

/-- The decoder's step on a stream that begins with the code of the symbol at `index`: it
finds `index` and is left with the stream `X` that follows the code. -/
theorem DecodeSymbol_spec (m : bac_model_t) (hm : m.WF) (c : bac_coder_t) (index : Nat)
    (X : List Bool) (inb : bit_file_buffer_t)
    (hr : RangeOK c.start_range c.end_range) (h1 : 1 ≤ index) (h3 : index ≤ 3)
    (hX : 2 ≤ X.length)
    (hv : c.current_value = window 16 (applyShifts (renormTrace (RANGE_BITS + 1)
      (narrowPure m.cumulative_symbol_frequencies c.start_range c.end_range index).1
      (narrowPure m.cumulative_symbol_frequencies c.start_range c.end_range index).2).1 X))
    (hg : c.after_eof_bits = min 16 (applyShifts (renormTrace (RANGE_BITS + 1)
      (narrowPure m.cumulative_symbol_frequencies c.start_range c.end_range index).1
      (narrowPure m.cumulative_symbol_frequencies c.start_range c.end_range index).2).1 X).length
      - 2)
    (hv1 : (narrowPure m.cumulative_symbol_frequencies c.start_range c.end_range index).1
      ≤ c.current_value)
    (hv2 : c.current_value
      ≤ (narrowPure m.cumulative_symbol_frequencies c.start_range c.end_range index).2)
    (hin : inb.RdWF)
    (hb : inb.rdBits = (applyShifts (renormTrace (RANGE_BITS + 1)
      (narrowPure m.cumulative_symbol_frequencies c.start_range c.end_range index).1
      (narrowPure m.cumulative_symbol_frequencies c.start_range c.end_range index).2).1 X).drop
      16) :
    (DecodeSymbol m c inb).1 = NO_ERROR ∧
    (DecodeSymbol m c inb).2.1 = index ∧
    (DecodeSymbol m c inb).2.2.1
      = ⟨(renormTrace (RANGE_BITS + 1)
            (narrowPure m.cumulative_symbol_frequencies c.start_range c.end_range index).1
            (narrowPure m.cumulative_symbol_frequencies c.start_range c.end_range index).2).2.1,
         (renormTrace (RANGE_BITS + 1)
            (narrowPure m.cumulative_symbol_frequencies c.start_range c.end_range index).1
            (narrowPure m.cumulative_symbol_frequencies c.start_range c.end_range index).2).2.2,
         c.next_bits, window 16 X, min 16 X.length - 2⟩ ∧
    (DecodeSymbol m c inb).2.2.2.RdWF ∧
    (DecodeSymbol m c inb).2.2.2.rdBits = X.drop 16 := by
  obtain ⟨n1, n2, n3⟩ := narrow_facts m hm _ _ index hr h1 h3
  obtain ⟨r1, r2, r3⟩ := RangeOK_width _ _ hr
  obtain ⟨-, t2⟩ := renormTrace_spec (RANGE_BITS + 1) _ _ n2 (by omega) (narrow_fuel _ _ n2)
  have hidx := decode_index m hm c index hr h1 h3 hv1 hv2
  have hn := narrowRange_eq m hm c index hr h1 h3
  obtain ⟨i1, i2, i3, i4⟩ := DecodeRenormalize_spec (RANGE_BITS + 1) _ _ c.next_bits X inb n2
    (by omega) t2 hX hin hb
  unfold DecodeSymbol
  simp only []
  rw [hidx, hn, hv, hg]
  exact ⟨i1, rfl, i2, i3, i4⟩

/-- The index tables of a well-formed model are inverse to each other on the two bits. -/
theorem symbol_inverse (m : bac_model_t) (hm : m.WF) (b : Bool) :
    toU64 (m.index_to_symbol.getD (m.symbol_to_index.getD (if b then 1 else 0) 0) 0)
      = (if b then 1 else 0) := by
  obtain ⟨f1, f2, f3, u, v, -, -, -, -, -, -, hsym⟩ := hm
  rcases hsym with ⟨h1, h2⟩ | ⟨h1, h2⟩ <;> rw [h1, h2] <;> cases b <;> rfl

/-- The loop of `DecodeBAC` on the code of a bit sequence writes the sequence. -/
theorem DecodeBACLoop_spec (opts : options_t) : ∀ (bits : List Bool) (fuel : Nat)
    (m : bac_model_t) (c : bac_coder_t) (inb out : bit_file_buffer_t),
    m.WF → RangeOK c.start_range c.end_range →
    c.current_value = window 16 (bacStream opts.adaptive m c.start_range c.end_range bits) →
    c.after_eof_bits
      = min 16 (bacStream opts.adaptive m c.start_range c.end_range bits).length - 2 →
    inb.RdWF →
    inb.rdBits = (bacStream opts.adaptive m c.start_range c.end_range bits).drop 16 →
    out.WrWF → out.Room bits.length → bits.length < fuel →
    (DecodeBACLoop fuel m c inb out opts).1 = NO_ERROR ∧
    (DecodeBACLoop fuel m c inb out opts).2.2.WrWF ∧
    (DecodeBACLoop fuel m c inb out opts).2.2.wrBits = out.wrBits ++ bits ∧
    (DecodeBACLoop fuel m c inb out opts).2.2.file_buffer.type = out.file_buffer.type := by
  intro bits
  induction bits with
  | nil =>
    intro fuel m c inb out hm hr hv hg hin hb hout hroom hf
    obtain ⟨f, rfl⟩ : ∃ f, fuel = f + 1 := ⟨fuel - 1, by simp at hf; omega⟩
    obtain ⟨n1, n2, n3⟩ := narrow_facts m hm _ _ EOF_SYMBOL_INDEX hr (by decide) (by decide)
    obtain ⟨r1, r2, r3⟩ := RangeOK_width _ _ hr
    obtain ⟨t1, t2⟩ := renormTrace_spec (RANGE_BITS + 1) _ _ n2 (by omega) (narrow_fuel _ _ n2)
    obtain ⟨q1, q2, -, -⟩ := finishBits_window _ _ t1
    obtain ⟨-, y2, y3⟩ := bacStream_spec opts.adaptive [] m _ _ hm hr
    have hfi : firstIndex m [] = EOF_SYMBOL_INDEX := rfl
    rw [hfi, ← hv] at y2 y3
    simp only [bacStream] at hv hg hb
    obtain ⟨d1, d2, -, -, -⟩ := DecodeSymbol_spec m hm c EOF_SYMBOL_INDEX _ inb hr (by decide)
      (by decide) (by rw [q2]) hv hg y2 y3 hin hb
    unfold DecodeBACLoop
    have hne0 : ¬ (NO_ERROR ≠ NO_ERROR) := fun h => h rfl
    simp only [d1, hne0, if_false, d2, if_true, List.append_nil]
    exact ⟨trivial, hout, trivial, trivial⟩
  | cons b rest ih =>
    intro fuel m c inb out hm hr hv hg hin hb hout hroom hf
    obtain ⟨f, rfl⟩ : ∃ f, fuel = f + 1 := ⟨fuel - 1, by omega⟩
    obtain ⟨x1, x2, x3⟩ := firstIndex_range m hm (b :: rest)
    have hidx := x3 (by simp)
    obtain ⟨-, y2, y3⟩ := bacStream_spec opts.adaptive (b :: rest) m _ _ hm hr
    rw [← hv] at y2 y3
    simp only [firstIndex] at x1 x2 hidx y2 y3
    obtain ⟨n1, n2, n3⟩ := narrow_facts m hm _ _ _ hr x1 x2
    obtain ⟨w1, w2, w3⟩ := RangeOK_width _ _ hr
    obtain ⟨t1, t2⟩ := renormTrace_spec (RANGE_BITS + 1) _ _ n2 (by omega) (narrow_fuel _ _ n2)
    have hm' : (if opts.adaptive ≠ 0 then UpdateModel m
        (m.symbol_to_index.getD (if b then 1 else 0) 0) else m).WF := by
      split
      · exact UpdateModel_WF m hm _ hidx
      · exact hm
    obtain ⟨z1, -, -⟩ := bacStream_spec opts.adaptive rest _ _ _ hm' t1
    simp only [bacStream] at hv hg hb
    obtain ⟨d1, d2, d3, d4, d5⟩ := DecodeSymbol_spec m hm c
      (m.symbol_to_index.getD (if b then 1 else 0) 0) _ inb hr x1 x2 z1 hv hg y2 y3 hin hb
    have hsym := symbol_inverse m hm b
    simp only [List.length_cons] at hroom hf
    obtain ⟨v1, v2, v3, v4, -⟩ := WriteSingleValueToBitFileBuffer_spec out (if b then 1 else 0) 1
      hout (by decide) (Room_mono out _ _ (by omega) hroom)
    rw [toBits_one_bit] at v3
    have hlog : LOG_ON_ERROR_AND_RETURN ((1 : Nat) : Int) 1 = none :=
      LOG_ON_ERROR_AND_RETURN_ok 1 (by decide)
    have hroom' : (WriteSingleValueToBitFileBuffer out (if b then 1 else 0) 1).2.Room
        rest.length := by
      apply Room_of_wrBits out _ _ _ v4 v3
      exact Room_mono out _ _ (by simp only [List.length_singleton]; omega) hroom
    have hrec := ih f (if opts.adaptive ≠ 0 then UpdateModel m
        (m.symbol_to_index.getD (if b then 1 else 0) 0) else m)
      (DecodeSymbol m c inb).2.2.1 (DecodeSymbol m c inb).2.2.2
      (WriteSingleValueToBitFileBuffer out (if b then 1 else 0) 1).2 hm'
      (by rw [d3]; exact t1) (by rw [d3]) (by rw [d3]) d4 (by rw [d5, d3]) v2 hroom' (by omega)
    obtain ⟨i1, i2, i3, i4⟩ := hrec
    have hne3 : ¬ (m.symbol_to_index.getD (if b then 1 else 0) 0 = EOF_SYMBOL_INDEX) := by
      have e3 : EOF_SYMBOL_INDEX = 3 := rfl
      rw [e3]
      omega
    unfold DecodeBACLoop
    have hne0 : ¬ (NO_ERROR ≠ NO_ERROR) := fun h => h rfl
    simp only [d1, hne0, if_false, d2, hne3, hsym, v1, hlog]
    refine ⟨i1, i2, ?_, by rw [i4, v4]⟩
    rw [i3, v3, List.append_assoc]
    rfl

/-- The code of a bit sequence has at most 16 bits for each source bit and 18 bits for the end
of the message. -/
theorem bacStream_length_le (adaptive : Int) : ∀ (bits : List Bool) (m : bac_model_t)
    (lo hi : Nat), m.WF → RangeOK lo hi →
    (bacStream adaptive m lo hi bits).length ≤ 16 * bits.length + 18 := by
  have h17 : RANGE_BITS + 1 = 17 := by decide
  intro bits
  induction bits with
  | nil =>
    intro m lo hi hm hr
    obtain ⟨n1, n2, n3⟩ := narrow_facts m hm _ _ EOF_SYMBOL_INDEX hr (by decide) (by decide)
    obtain ⟨r1, r2, r3⟩ := RangeOK_width _ _ hr
    obtain ⟨t1, t2⟩ := renormTrace_spec (RANGE_BITS + 1) _ _ n2 (by omega) (narrow_fuel _ _ n2)
    obtain ⟨q1, q2, -, -⟩ := finishBits_window _ _ t1
    have t2' := Nat.lt_of_lt_of_le t2 (Nat.le_of_eq h17)
    simp only [bacStream, List.length_nil]
    rw [applyShifts_length _ _ q1, q2]
    omega
  | cons b rest ih =>
    intro m lo hi hm hr
    obtain ⟨x1, x2, x3⟩ := firstIndex_range m hm (b :: rest)
    have hidx := x3 (by simp)
    simp only [firstIndex] at x1 x2 hidx
    obtain ⟨n1, n2, n3⟩ := narrow_facts m hm _ _ _ hr x1 x2
    obtain ⟨w1, w2, w3⟩ := RangeOK_width _ _ hr
    obtain ⟨t1, t2⟩ := renormTrace_spec (RANGE_BITS + 1) _ _ n2 (by omega) (narrow_fuel _ _ n2)
    have hm' : (if adaptive ≠ 0 then UpdateModel m
        (m.symbol_to_index.getD (if b then 1 else 0) 0) else m).WF := by
      split
      · exact UpdateModel_WF m hm _ hidx
      · exact hm
    obtain ⟨z1, -, -⟩ := bacStream_spec adaptive rest _ _ _ hm' t1
    have hne : bacStream adaptive (if adaptive ≠ 0 then UpdateModel m
        (m.symbol_to_index.getD (if b then 1 else 0) 0) else m)
        (renormTrace (RANGE_BITS + 1)
          (narrowPure m.cumulative_symbol_frequencies lo hi
            (m.symbol_to_index.getD (if b then 1 else 0) 0)).1
          (narrowPure m.cumulative_symbol_frequencies lo hi
            (m.symbol_to_index.getD (if b then 1 else 0) 0)).2).2.1
        (renormTrace (RANGE_BITS + 1)
          (narrowPure m.cumulative_symbol_frequencies lo hi
            (m.symbol_to_index.getD (if b then 1 else 0) 0)).1
          (narrowPure m.cumulative_symbol_frequencies lo hi
            (m.symbol_to_index.getD (if b then 1 else 0) 0)).2).2.2 rest ≠ [] := by
      intro h
      rw [h] at z1
      simp at z1
    have hi' := ih _ _ _ hm' t1
    have t2' := Nat.lt_of_lt_of_le t2 (Nat.le_of_eq h17)
    simp only [bacStream, List.length_cons]
    rw [applyShifts_length _ _ hne]
    omega

theorem InitModel_eq (m : bac_model_t) (h : m.Shaped) :
    InitModel m = ⟨[1, 2], [m.index_to_symbol.getD 0 0, 0, 1, m.index_to_symbol.getD 3 0],
      [0, 1, 1, 1], [3, 2, 1, 0]⟩ := by
  obtain ⟨s2i, i2s, fr, cu⟩ := m
  obtain ⟨h1, h2, h3, h4⟩ := h
  obtain ⟨a1, a2, e1⟩ := list_length_two _ h1
  obtain ⟨b1, b2, b3, b4, e2⟩ := list_length_four _ h2
  obtain ⟨c1, c2, c3, c4, e3⟩ := list_length_four _ h3
  obtain ⟨d1, d2, d3, d4, e4⟩ := list_length_four _ h4
  simp only at e1 e2 e3 e4
  subst e1 e2 e3 e4
  simp only [InitModel, InitModelSymbols, InitModelFrequencies, NUMBER_OF_SYMBOLS,
    TOTAL_NUMBER_OF_SYMBOLS]
  rfl

/-- The part of `UpdateModel` after the halving neither reads nor writes the entries 0 and 3 of
`index_to_symbol`. -/
theorem UpdateModelPosition_ends (s2i : List Nat) (u v u' v' a b : Int) (f1 f2 f3 : Nat)
    (cu : List Nat) (index : Nat) (h1 : 1 ≤ f1) (hidx : index = 1 ∨ index = 2) :
    UpdateModelPosition ⟨s2i, [u', a, b, v'], [0, f1, f2, f3], cu⟩ index
      = { UpdateModelPosition ⟨s2i, [u, a, b, v], [0, f1, f2, f3], cu⟩ index with
          index_to_symbol :=
            ((UpdateModelPosition ⟨s2i, [u, a, b, v], [0, f1, f2, f3], cu⟩
              index).index_to_symbol.set 0 u').set 3 v' } := by
  unfold UpdateModelPosition
  simp only []
  rcases hidx with hx | hx
  · subst hx
    rw [findPosition_one f1 f2 f3 h1]
    simp only [Nat.lt_irrefl, if_false, List.set_cons_succ, List.set_cons_zero]
  · subst hx
    by_cases heq : f2 = f1
    · subst heq
      rw [findPosition_two_eq f2 f3 h1]
      have h12 : (1 : Nat) < 2 := by decide
      simp only [h12, if_true, List.getD_cons_succ, List.getD_cons_zero, List.set_cons_succ,
        List.set_cons_zero]
    · rw [findPosition_two_ne f1 f2 f3 heq]
      simp only [Nat.lt_irrefl, if_false, List.set_cons_succ, List.set_cons_zero]

theorem UpdateModel_ends (m : bac_model_t) (h : m.WF) (u' v' : Int) (index : Nat)
    (hidx : index = 1 ∨ index = 2) :
    UpdateModel { m with index_to_symbol := (m.index_to_symbol.set 0 u').set 3 v' } index
      = { UpdateModel m index with
          index_to_symbol := ((UpdateModel m index).index_to_symbol.set 0 u').set 3 v' } := by
  obtain ⟨f1, f2, f3, u, v, h1, h2, h3, hs, hf, hc, hsym⟩ := h
  obtain ⟨s2i, i2s, fr, cu⟩ := m
  simp only at hf hc hsym
  subst hf hc
  have hM : MAX_FREQUENCY = 16383 := by decide
  obtain ⟨a, b, hi2s⟩ : ∃ a b, i2s = [u, a, b, v] := by
    rcases hsym with ⟨-, e⟩ | ⟨-, e⟩
    · exact ⟨0, 1, e⟩
    · exact ⟨1, 0, e⟩
  subst hi2s
  simp only [List.set_cons_succ, List.set_cons_zero]
  unfold UpdateModel
  simp only [List.getD_cons_zero]
  by_cases hmax : f1 + f2 + f3 = MAX_FREQUENCY
  · rw [if_pos hmax, if_pos hmax]
    rw [halveFrequencies_eq s2i [u', a, b, v'] f1 f2 f3 [f1 + f2 + f3, f2 + f3, f3, 0] rfl
        (by rw [hM] at hs; omega),
      halveFrequencies_eq s2i [u, a, b, v] f1 f2 f3 [f1 + f2 + f3, f2 + f3, f3, 0] rfl
        (by rw [hM] at hs; omega)]
    exact UpdateModelPosition_ends s2i u v u' v' a b _ _ _ _ index (by omega) hidx
  · rw [if_neg hmax, if_neg hmax]
    exact UpdateModelPosition_ends s2i u v u' v' a b _ _ _ _ index h1 hidx

/-- The code of a bit sequence does not depend on the entries 0 and 3 of `index_to_symbol`,
which `InitModel` leaves as they are. -/
theorem bacStream_ends (adaptive : Int) (u' v' : Int) : ∀ (bits : List Bool) (m : bac_model_t)
    (lo hi : Nat), m.WF →
    bacStream adaptive { m with index_to_symbol := (m.index_to_symbol.set 0 u').set 3 v' }
      lo hi bits = bacStream adaptive m lo hi bits := by
  intro bits
  induction bits with
  | nil => intro m lo hi _; rfl
  | cons b rest ih =>
    intro m lo hi hm
    obtain ⟨x1, x2, x3⟩ := firstIndex_range m hm (b :: rest)
    have hidx := x3 (by simp)
    simp only [firstIndex] at hidx
    simp only [bacStream]
    by_cases ha : adaptive = 0
    · simp only [ha, ne_eq, not_true_eq_false, if_false]
      rw [← ha]
      exact congrArg _ (ih m _ _ hm)
    · simp only [ne_eq, ha, not_false_eq_true, if_true]
      rw [UpdateModel_ends m hm u' v' _ hidx]
      exact congrArg _ (ih _ _ _ (UpdateModel_WF m hm _ hidx))

theorem bacStream_InitModel (adaptive : Int) (m m' : bac_model_t) (h : m.Shaped) (h' : m'.Shaped)
    (lo hi : Nat) (bits : List Bool) :
    bacStream adaptive (InitModel m') lo hi bits = bacStream adaptive (InitModel m) lo hi bits := by
  obtain ⟨w, -, -⟩ := InitModel_WF m h
  obtain ⟨u', hu⟩ : ∃ u', u' = m'.index_to_symbol.getD 0 0 := ⟨_, rfl⟩
  obtain ⟨v', hv⟩ : ∃ v', v' = m'.index_to_symbol.getD 3 0 := ⟨_, rfl⟩
  have e : InitModel m' = { InitModel m with
      index_to_symbol := ((InitModel m).index_to_symbol.set 0 u').set 3 v' } := by
    rw [InitModel_eq m h, InitModel_eq m' h', hu, hv]
    rfl
  rw [e]
  exact bacStream_ends adaptive _ _ bits _ lo hi w

/-- C1: values written with `WriteSingleValueToBitFileBuffer` at widths between 1 and 64 to a
freshly initialised memory-only bit buffer of any capacity are, after the flip to reading mode,
returned by `ReadSingleValueFromBitFileBuffer` at the same widths in the same order: every call
returns its width as count and the written value modulo `2 ^ width`. The total number of bits
need not be a multiple of 8 and the buffer may have to grow; it is bounded only by the largest
capacity that `ResizeBuffer` accepts. -/
theorem C1_single_value_round_trip (stray : List Nat) (cap : Nat) (fb : file_buffer_t)
    (vs : List (Nat × Nat))
    (hinit : InitFileBufferInMemory stray FBM_WRITING cap = .ok fb)
    (hw : ∀ p ∈ vs, 1 ≤ p.2 ∧ p.2 ≤ 64) (hroom : totalBits vs ≤ 4 * MAX_USABLE_SIZE) :
    (writeValues (InitBitFileBuffer fb) vs).1 = vs.map (fun p => (p.2 : Int)) ∧
    (SetBitFileBufferMode (writeValues (InitBitFileBuffer fb) vs).2 FBM_READING).1 = NO_ERROR ∧
    (readValues (SetBitFileBufferMode (writeValues (InitBitFileBuffer fb) vs).2 FBM_READING).2
        (vs.map Prod.snd)).1 = vs.map (fun p => ((p.2 : Int), p.1 % 2 ^ p.2)) := by
  obtain ⟨w1, s1, s2, s3⟩ := write_flip_spec stray cap fb vs hinit (fun p hp => (hw p hp).2) hroom
  obtain ⟨r1, -, -⟩ := readValues_spec vs _ [] s2 (fun p hp => (hw p hp).2)
    (by rw [s3, List.append_nil])
  exact ⟨w1, s1, r1⟩

/-- C1 at a buffer of capacity 1 and 19 bits in three values: the buffer grows and the last
byte is fractional. -/
theorem C1_single_value_round_trip_witness :
    (readValues (SetBitFileBufferMode (writeValues (InitBitFileBuffer
        { base_file := { input := [], output := [] },
          io_buffer := { buffer := [0], buffer_size := 1, buffer_start := 0, buffer_end := -1,
                         stray := [] },
          mode := FBM_WRITING, type := FBT_MEMORY })
        [(5, 3), (0x1FF, 9), (0xABC, 7)]).2 FBM_READING).2 [3, 9, 7]).1
      = [(3, 5), (9, 0x1FF), (7, 0x3C)] :=
  (C1_single_value_round_trip [] 1 _ [(5, 3), (0x1FF, 9), (0xABC, 7)] rfl (by decide)
    (by decide)).2.2

/-- C8: `WriteSingleValueToBitFileBuffer` at a width `n` of at most 64 returns `n` and appends
to the written bit stream exactly the `n` low-order bits of the value, most significant first
(the bit at position `i` of the appended bits is bit `n - 1 - i` of the value); writing the
bytes `0x80, 0x40` with `WriteBitFileBuffer` at 16 bits and writing the value `0x8040` at
width 16 give the same return value and the same buffer state. -/
theorem C8_write_single_value_msb_first (b : bit_file_buffer_t) (v n : Nat) (hwf : b.WrWF)
    (hn : n ≤ 64) (hroom : b.Room n) :
    (WriteSingleValueToBitFileBuffer b v n).1 = n ∧
    (WriteSingleValueToBitFileBuffer b v n).2.WrWF ∧
    (∃ bits : List Bool, bits.length = n ∧
      (∀ i, i < n → bits[i]? = some (v.testBit (n - 1 - i))) ∧
      (WriteSingleValueToBitFileBuffer b v n).2.wrBits = b.wrBits ++ bits) ∧
    WriteBitFileBuffer b [0x80, 0x40] 16 = WriteSingleValueToBitFileBuffer b 0x8040 16 := by
  obtain ⟨w1, w2, w3, -, -, -, -⟩ := WriteSingleValueToBitFileBuffer_spec b v n hwf hn hroom
  refine ⟨w1, w2, ⟨toBits n v, toBits_length _ _, fun i hi => toBits_getElem? n v i hi, w3⟩, ?_⟩
  unfold WriteSingleValueToBitFileBuffer
  rw [if_neg (by decide)]
  congr 1

/-- C8 at a fresh file-backed buffer of capacity 2, value `0x8040`, width 16. -/
theorem C8_write_single_value_msb_first_witness :
    (WriteSingleValueToBitFileBuffer (InitBitFileBuffer
        { base_file := { input := [], output := [] },
          io_buffer := { buffer := [0, 0], buffer_size := 2, buffer_start := 0, buffer_end := -1,
                         stray := [] },
          mode := FBM_WRITING, type := FBT_FILE }) 0x8040 16).1 = 16 :=
  (C8_write_single_value_msb_first _ 0x8040 16 (by decide) (by decide) (by decide)).1

/-- C9: in reading mode `EndOfBitFileBuffer` returns true exactly when no unread bit remains,
that is when the underlying byte stream is at its end, the primary byte is fully consumed
(`used_bits = 8`) and the carryover is empty (`extra_used_bits = 0`). Consequently, after
writing `m` bits to a fresh memory-only buffer and flipping it to reading mode, it returns
false after reading `k < m` bits and true after reading all `m` bits. -/
theorem C9_end_of_bit_file_buffer (b : bit_file_buffer_t) (hwf : b.RdWF) :
    ((EndOfBitFileBuffer b).1 ≠ 0 ↔
      (b.file_buffer.remaining = [] ∧ b.used_bits = 8 ∧ b.extra_used_bits = 0)) ∧
    ((EndOfBitFileBuffer b).1 ≠ 0 ↔ b.rdBits = []) ∧
    (EndOfBitFileBuffer b).2.rdBits = b.rdBits ∧
    ∀ (stray : List Nat) (cap : Nat) (fb : file_buffer_t) (vs : List (Nat × Nat))
      (ws : List Nat),
      InitFileBufferInMemory stray FBM_WRITING cap = .ok fb →
      (∀ p ∈ vs, p.2 ≤ 64) → totalBits vs ≤ 4 * MAX_USABLE_SIZE →
      (∀ n ∈ ws, n ≤ 64) → ws.sum ≤ totalBits vs →
      (EndOfBitFileBuffer (readValues (SetBitFileBufferMode
        (writeValues (InitBitFileBuffer fb) vs).2 FBM_READING).2 ws).2).1
        = (if ws.sum = totalBits vs then 1 else 0) := by
  obtain ⟨e1, -, e3, -, -⟩ := EndOfBitFileBuffer_spec b hwf
  have hnil := rdBits_eq_nil b hwf.2.2.1
  have hiff : (EndOfBitFileBuffer b).1 ≠ 0 ↔ b.rdBits = [] := by
    rw [e1]
    by_cases h : b.rdBits = []
    · simp [h]
    · simp [h]
  refine ⟨hiff.trans hnil, hiff, e3, ?_⟩
  intro stray cap fb vs ws hinit hw hroom hws hsum
  obtain ⟨-, -, s2, s3⟩ := write_flip_spec stray cap fb vs hinit hw hroom
  obtain ⟨-, r2, r3⟩ := readValues_drop ws _ s2 hws
    (by rw [s3, valuesBits_length]; exact hsum)
  obtain ⟨q1, -, -, -, -⟩ := EndOfBitFileBuffer_spec _ r2
  rw [q1, r3, s3]
  have hl := valuesBits_length vs
  by_cases h : ws.sum = totalBits vs
  · rw [if_pos h, if_pos]
    rw [h, ← hl, List.drop_length]
  · rw [if_neg h, if_neg]
    intro hd
    have := congrArg List.length hd
    rw [List.length_drop, hl, List.length_nil] at this
    omega

/-- C9 at a reading buffer with three unread bits in the primary byte. -/
theorem C9_end_of_bit_file_buffer_witness :
    (EndOfBitFileBuffer
      { file_buffer :=
          { base_file := { input := [], output := [] },
            io_buffer := { buffer := [0], buffer_size := 1, buffer_start := 0, buffer_end := -1,
                           stray := [] },
            mode := FBM_READING, type := FBT_MEMORY },
        byte_buffer := 5, used_bits := 5, extra_byte_buffer := 0, extra_used_bits := 0 }).2.rdBits
      = [true, false, true] :=
  (C9_end_of_bit_file_buffer _ (by decide)).2.2.1

/-- C10: on a file buffer in reading mode with remaining content `s`, `ReadFileBuffer` with a
size `n ≤ MAX_USABLE_SIZE` returns `min n |s|`, copies the first `min n |s|` bytes of `s` in
order and leaves the rest of `s` as remaining content, for every capacity of the internal
buffer (a well-formed buffer has a capacity of at least 1). -/
theorem C10_read_file_buffer (fb : file_buffer_t) (n : Nat) (hm : fb.mode = FBM_READING)
    (hwf : fb.io_buffer.WF) (hn : n ≤ MAX_USABLE_SIZE) :
    (ReadFileBuffer fb n).1.1 = ((min n fb.remaining.length : Nat) : Int) ∧
    (ReadFileBuffer fb n).1.2 = fb.remaining.take (min n fb.remaining.length) ∧
    (ReadFileBuffer fb n).2.remaining = fb.remaining.drop (min n fb.remaining.length) ∧
    (ReadFileBuffer fb n).2.io_buffer.WF ∧ (ReadFileBuffer fb n).2.mode = FBM_READING := by
  obtain ⟨h1, h2, h3, -, h5, -, -⟩ := ReadFileBuffer_correct fb n hm hwf hn
  have ht : fb.remaining.take (min n fb.remaining.length) = fb.remaining.take n := by
    rcases Nat.le_total n fb.remaining.length with h | h
    · rw [Nat.min_eq_left h]
    · rw [Nat.min_eq_right h, List.take_length, List.take_of_length_le h]
  have hd : fb.remaining.drop (min n fb.remaining.length) = fb.remaining.drop n := by
    rcases Nat.le_total n fb.remaining.length with h | h
    · rw [Nat.min_eq_left h]
    · rw [Nat.min_eq_right h, List.drop_length, List.drop_of_length_le h]
  rw [h1, ht, hd]
  exact ⟨rfl, rfl, h5, h2, by rw [h3, hm]⟩

/-- C10 at a file-backed buffer of capacity 2 that holds `1, 2` with `3, 4, 5` unread in the
handle, reading 4 bytes. -/
theorem C10_read_file_buffer_witness :
    (ReadFileBuffer
      { base_file := { input := [3, 4, 5], output := [] },
        io_buffer := { buffer := [1, 2], buffer_size := 2, buffer_start := 0, buffer_end := 1,
                       stray := [] },
        mode := FBM_READING, type := FBT_FILE } 4).1.2 = [1, 2, 3, 4] :=
  (C10_read_file_buffer _ 4 rfl (by decide) (by decide)).2.1

/-- C7 fails for `m = 0`: teardown of a file-backed bit buffer in writing mode to which
nothing was written leaves one byte `0x00` in the handle, not zero bytes. -/
theorem C7_teardown_of_empty_buffer_writes_a_byte :
    InitFileBuffer [] { input := [], output := [] } FBM_WRITING 4
      = .ok { base_file := { input := [], output := [] },
              io_buffer := { buffer := [0, 0, 0, 0], buffer_size := 4, buffer_start := 0,
                             buffer_end := -1, stray := [] },
              mode := FBM_WRITING, type := FBT_FILE } ∧
    (teardown (InitBitFileBuffer
        { base_file := { input := [], output := [] },
          io_buffer := { buffer := [0, 0, 0, 0], buffer_size := 4, buffer_start := 0,
                         buffer_end := -1, stray := [] },
          mode := FBM_WRITING, type := FBT_FILE })).output = [0] := by
  constructor
  · rfl
  · decide

/-- C5 as stated fails: at `value_size_bits = 8` the one-byte input `0x80` is a sequence of one
8-bit value, yet `EncodeDifferential` returns `ERROR_INVALID_VALUE`, because the value is read
without sign extension and the difference `128 - 0` exceeds the checked range `-128 .. 127`. -/
theorem C5_differential_rejects_0x80 :
    (EncodeDifferential 2 (exampleInput [0x80] 1) (exampleTemp 1)
      { SetDefaultOptions with value_size_bits := 8 }).1 = ERROR_INVALID_VALUE ∧
    (EncodeDifferential 2 (exampleInput [0x80] 1) (exampleTemp 1)
      { SetDefaultOptions with value_size_bits := 8 }).1 ≠ NO_ERROR := by
  constructor <;> decide

/-- C5 (amended): for a width `n` between 1 and 64 and an input that is a sequence `xs` of
`n`-bit values, `EncodeDifferential` returns `NO_ERROR` exactly when `n = 64` or every
difference between a value (read as an unsigned number) and its predecessor (0 for the first)
lies in `-2 ^ (n - 1) .. 2 ^ (n - 1) - 1`; otherwise it returns `ERROR_INVALID_VALUE`. In the
first case `DecodeDifferential` applied to the bit stream that the encoder produced returns
`NO_ERROR` and writes exactly the input. -/
theorem C5_differential_round_trip_in_range (opts : options_t) (xs : List Nat)
    (inb mid dinb outb : bit_file_buffer_t)
    (hn1 : 1 ≤ opts.value_size_bits) (hn : opts.value_size_bits ≤ 64)
    (hx : ∀ x ∈ xs, x < 2 ^ opts.value_size_bits)
    (hin : inb.RdWF) (hb : inb.rdBits = valuesBits (atWidth opts.value_size_bits xs))
    (hmid : mid.WrWF) (hmroom : mid.Room (opts.value_size_bits * xs.length))
    (hdin : dinb.RdWF)
    (hout : outb.WrWF) (horoom : outb.Room (opts.value_size_bits * xs.length)) :
    ((opts.value_size_bits = 64 ∨ diffsInRange opts.value_size_bits 0 xs) →
      (EncodeDifferential (xs.length + 1) inb mid opts).1 = NO_ERROR ∧
      (mid.wrBits ++ dinb.rdBits = (EncodeDifferential (xs.length + 1) inb mid opts).2.2.wrBits →
        (DecodeDifferential (xs.length + 1) dinb outb opts).1 = NO_ERROR ∧
        (DecodeDifferential (xs.length + 1) dinb outb opts).2.2.wrBits
          = outb.wrBits ++ inb.rdBits)) ∧
    (¬ (opts.value_size_bits = 64 ∨ diffsInRange opts.value_size_bits 0 xs) →
      (EncodeDifferential (xs.length + 1) inb mid opts).1 = ERROR_INVALID_VALUE) := by
  have henc := EncodeDifferentialLoop_spec opts hn1 hn xs (xs.length + 1) inb mid 0 hin hmid hb hx
    hmroom (Nat.lt_succ_self _) (fun _ => ⟨le_refl _, by decide⟩)
  unfold EncodeDifferential DecodeDifferential
  constructor
  · intro hr
    obtain ⟨e1, e2⟩ := henc
    rw [if_pos hr] at e1
    obtain ⟨e3, e4, -⟩ := e2 hr
    refine ⟨e1, fun hd => ?_⟩
    rw [e4] at hd
    have hd' := List.append_cancel_left hd
    obtain ⟨d1, -, d3, -⟩ := DecodeDifferentialLoop_spec opts hn1 hn xs (xs.length + 1) dinb outb 0
      hdin hout hd' hx horoom (Nat.lt_succ_self _) (fun _ => ⟨le_refl _, by decide⟩) hr
    exact ⟨d1, by rw [d3, hb]⟩
  · intro hr
    rw [henc.1, if_neg hr]

/-- C5 (amended) at width 8 on the bytes `5, 7, 6, 9`: the encoder writes to a temporary
memory buffer of capacity 1, which is handed over to the decoder. -/
theorem C5_differential_round_trip_in_range_witness :
    (DecodeDifferential 5
      (handOver (EncodeDifferential 5 (exampleInput [5, 7, 6, 9] 2) (exampleTemp 1)
        { SetDefaultOptions with value_size_bits := 8 }).2.2)
      (exampleOutput 2) { SetDefaultOptions with value_size_bits := 8 }).2.2.wrBits
      = (exampleOutput 2).wrBits ++ (exampleInput [5, 7, 6, 9] 2).rdBits :=
  (((C5_differential_round_trip_in_range { SetDefaultOptions with value_size_bits := 8 }
      [5, 7, 6, 9] (exampleInput [5, 7, 6, 9] 2) (exampleTemp 1)
      (handOver (EncodeDifferential 5 (exampleInput [5, 7, 6, 9] 2) (exampleTemp 1)
        { SetDefaultOptions with value_size_bits := 8 }).2.2)
      (exampleOutput 2)
      (by decide) (by decide) (by decide) (by decide) (by decide) (by decide) (by decide)
      (by decide) (by decide) (by decide)).1 (by decide)).2 (by decide)).2

/-- C4: for every width `n` between 1 and 64 and every sequence of `n`-bit two's-complement
values, the value `-2 ^ 63` at `n = 64` excepted (so in particular for all values `v` for which
`|v| + 1` is representable as an `n`-bit two's-complement number), `EncodeSEG` returns
`NO_ERROR`, and `DecodeSEG` at the same width applied to the bit stream that the encoder
produced returns `NO_ERROR` and writes the same sequence of `n`-bit values. -/
theorem C4_seg_round_trip (opts : options_t) (xs : List Nat)
    (inb mid dinb outb : bit_file_buffer_t)
    (hn1 : 1 ≤ opts.value_size_bits) (hn : opts.value_size_bits ≤ 64)
    (hx : ∀ x ∈ xs, x < 2 ^ opts.value_size_bits ∧ (opts.value_size_bits = 64 → x ≠ 2 ^ 63))
    (hin : inb.RdWF) (hb : inb.rdBits = valuesBits (atWidth opts.value_size_bits xs))
    (hmid : mid.WrWF) (hmroom : mid.Room (127 * xs.length))
    (hdin : dinb.RdWF)
    (hdb : mid.wrBits ++ dinb.rdBits = (EncodeSEG (xs.length + 1) inb mid opts).2.2.wrBits)
    (hout : outb.WrWF) (horoom : outb.Room (opts.value_size_bits * xs.length)) :
    (EncodeSEG (xs.length + 1) inb mid opts).1 = NO_ERROR ∧
    (DecodeSEG (xs.length + 1) dinb outb opts).1 = NO_ERROR ∧
    (DecodeSEG (xs.length + 1) dinb outb opts).2.2.wrBits = outb.wrBits ++ inb.rdBits := by
  have hlen := segCode_length_le opts.value_size_bits xs (fun x hx' =>
    (segIndex_sval_bound opts.value_size_bits x hn1 hn (hx x hx').1 (hx x hx').2).1)
  obtain ⟨e1, -, e3, -⟩ := EncodeSEG_spec opts hn1 hn xs (xs.length + 1) inb mid hin hmid hb hx
    (Room_mono mid _ _ hlen hmroom) (Nat.lt_succ_self _)
  rw [e3] at hdb
  obtain ⟨d1, -, d3, -⟩ := DecodeSEG_spec opts hn1 hn xs (xs.length + 1) dinb outb hdin hout
    (List.append_cancel_left hdb) hx horoom (Nat.lt_succ_self _)
  exact ⟨e1, d1, by rw [d3, hb]⟩

/-- C4 at width 8 on the bytes `5, 2, 0xFF, 3` (the values 5, 2, -1, 3): the encoder writes to
a temporary memory buffer of capacity 1, which is handed over to the decoder. -/
theorem C4_seg_round_trip_witness :
    (DecodeSEG 5
      (handOver (EncodeSEG 5 (exampleInput [5, 2, 0xFF, 3] 2) (exampleTemp 1)
        { SetDefaultOptions with value_size_bits := 8 }).2.2)
      (exampleOutput 2) { SetDefaultOptions with value_size_bits := 8 }).2.2.wrBits
      = (exampleOutput 2).wrBits ++ (exampleInput [5, 2, 0xFF, 3] 2).rdBits :=
  (C4_seg_round_trip { SetDefaultOptions with value_size_bits := 8 }
      [5, 2, 0xFF, 3] (exampleInput [5, 2, 0xFF, 3] 2) (exampleTemp 1)
      (handOver (EncodeSEG 5 (exampleInput [5, 2, 0xFF, 3] 2) (exampleTemp 1)
        { SetDefaultOptions with value_size_bits := 8 }).2.2)
      (exampleOutput 2)
      (by decide) (by decide) (by decide) (by decide) (by decide) (by decide) (by decide)
      (by decide) (by decide) (by decide) (by decide)).2.2

/-- At width 64 the pattern `0x8000000000000000` (the value `-2 ^ 63`) does not survive the
signed exponential-Golomb round trip: the encoder writes the single bit `1`, the codeword of
0, and the decoder writes 64 zero bits. -/
theorem seg_most_negative_value_64 :
    (EncodeSEG 2 (exampleInput [0x80, 0, 0, 0, 0, 0, 0, 0] 8) (exampleTemp 1)
      { SetDefaultOptions with value_size_bits := 64 }).2.2.wrBits = [true] ∧
    (DecodeSEG 2
      (handOver (EncodeSEG 2 (exampleInput [0x80, 0, 0, 0, 0, 0, 0, 0] 8) (exampleTemp 1)
        { SetDefaultOptions with value_size_bits := 64 }).2.2)
      (exampleOutput 8) { SetDefaultOptions with value_size_bits := 64 }).2.2.wrBits
      = List.replicate 64 false := by
  constructor <;> decide

/-- C3 fails on the two-byte input `0x41 0x00`: `EncodeLZMH` returns `NO_ERROR` and writes the
20 bits `00 01000001 00 00000000` (two literals); `DecodeLZMH` on exactly these bits returns
`NO_ERROR` but writes the single byte `0x41`, because its loop ends as soon as the input is at
its end and the bits left in `code_sym` are all zero. -/
theorem C3_lzmh_drops_trailing_zero_literal :
    (encodeLZMH 3 (exampleInput [0x41, 0x00] 4) (exampleTemp 1)).1 = NO_ERROR ∧
    (encodeLZMH 3 (exampleInput [0x41, 0x00] 4) (exampleTemp 1)).2.2.wrBits
      = toBits 10 0x41 ++ toBits 10 0x00 ∧
    (decodeLZMH 60 (handOver (encodeLZMH 3 (exampleInput [0x41, 0x00] 4) (exampleTemp 1)).2.2)
      (exampleOutput 4)).1 = NO_ERROR ∧
    (decodeLZMH 60 (handOver (encodeLZMH 3 (exampleInput [0x41, 0x00] 4) (exampleTemp 1)).2.2)
      (exampleOutput 4)).2.2.wrBits = bytesBits [0x41] ∧
    (teardown (decodeLZMH 60
      (handOver (encodeLZMH 3 (exampleInput [0x41, 0x00] 4) (exampleTemp 1)).2.2)
      (exampleOutput 4)).2.2).output = [0x41] := by
  refine ⟨?_, ?_, ?_, ?_, ?_⟩ <;> decide

/-- C2: for every bit sequence in the input buffer (the empty one included) and every value of
the `adaptive` option, `EncodeBAC` returns `NO_ERROR`, and `DecodeBAC` on exactly the bits that
`EncodeBAC` wrote returns `NO_ERROR` and writes exactly the input bits. The `static` model
arrays and coder variables hold arbitrary values at entry; the output buffers have room (at
most 16 bits for each input bit and 18 bits for the end of the message), the loops have an
iteration for each input bit and one more, and the input is short enough for the count of
pending bits not to wrap around. -/
theorem C2_bac_round_trip (opts : options_t) (emodel dmodel : bac_model_t)
    (ecoder dcoder : bac_coder_t) (inb mid dinb outb : bit_file_buffer_t) (fuel : Nat)
    (hem : emodel.Shaped) (hdm : dmodel.Shaped)
    (hin : inb.RdWF) (hlen : 17 * (inb.rdBits.length + 2) < 2 ^ 64)
    (hmid : mid.WrWF) (hmroom : mid.Room (16 * inb.rdBits.length + 18))
    (hdin : dinb.RdWF)
    (hdb : mid.wrBits ++ dinb.rdBits = (EncodeBAC fuel emodel ecoder inb mid opts).2.2.wrBits)
    (hout : outb.WrWF) (horoom : outb.Room inb.rdBits.length)
    (hfuel : inb.rdBits.length < fuel) :
    (EncodeBAC fuel emodel ecoder inb mid opts).1 = NO_ERROR ∧
    (DecodeBAC fuel dmodel dcoder dinb outb opts).1 = NO_ERROR ∧
    (DecodeBAC fuel dmodel dcoder dinb outb opts).2.2.wrBits = outb.wrBits ++ inb.rdBits := by
  obtain ⟨we, -, -⟩ := InitModel_WF emodel hem
  obtain ⟨wd, -, -⟩ := InitModel_WF dmodel hdm
  have hmodel := bacStream_InitModel opts.adaptive emodel dmodel hem hdm 0 MAX_RANGE inb.rdBits
  have hr : RangeOK 0 MAX_RANGE := by
    unfold RangeOK
    decide
  have hl := bacStream_length_le opts.adaptive inb.rdBits (InitModel emodel) 0 MAX_RANGE we hr
  obtain ⟨y1, -, -⟩ := bacStream_spec opts.adaptive inb.rdBits (InitModel emodel) 0 MAX_RANGE we hr
  obtain ⟨e1, -, e3, -⟩ := EncodeBACLoop_spec opts inb.rdBits fuel (InitModel emodel)
    (StartEncoding ecoder) inb mid we hr hin rfl hmid
    (Room_mono mid _ _ (by simp only [StartEncoding]; omega) hmroom) hfuel
    (by simp only [StartEncoding]; omega)
  have e3' : (EncodeBAC fuel emodel ecoder inb mid opts).2.2.wrBits = mid.wrBits ++
      bacStream opts.adaptive (InitModel emodel) 0 MAX_RANGE inb.rdBits := by
    unfold EncodeBAC
    rw [e3]
    simp only [StartEncoding, insertAfterFirst_zero]
  rw [e3'] at hdb
  have hdb' := List.append_cancel_left hdb
  rw [← hmodel] at hdb' y1
  obtain ⟨s1, s2, s3, s4⟩ := StartDecoding_spec dcoder dinb _ y1 hdin hdb'
  obtain ⟨d1, -, d3, -⟩ := DecodeBACLoop_spec opts inb.rdBits fuel (InitModel dmodel)
    (StartDecoding dcoder dinb).2.1 (StartDecoding dcoder dinb).2.2 outb wd
    (by rw [s2]; exact hr) (by rw [s2]) (by rw [s2]) s3 (by rw [s4, s2]) hout horoom hfuel
  have hne0 : ¬ (NO_ERROR ≠ NO_ERROR) := fun h => h rfl
  refine ⟨e1, ?_, ?_⟩
  · unfold DecodeBAC
    simp only [s1, hne0, if_false]
    exact d1
  · unfold DecodeBAC
    simp only [s1, hne0, if_false]
    exact d3

/-- C2 on the three bytes `0x00 0xFF 0x55` with adaptive coding, as the first calls in a
process: the encoder writes to a temporary memory buffer, which is handed over to the
decoder. -/
theorem C2_bac_round_trip_witness :
    (EncodeBAC 25 zeroModel zeroCoder (exampleInput [0x00, 0xFF, 0x55] 4) (exampleTemp 1)
      { SetDefaultOptions with adaptive := 1 }).1 = NO_ERROR ∧
    (DecodeBAC 25 zeroModel zeroCoder
      (handOver (EncodeBAC 25 zeroModel zeroCoder (exampleInput [0x00, 0xFF, 0x55] 4)
        (exampleTemp 1) { SetDefaultOptions with adaptive := 1 }).2.2)
      (exampleOutput 4) { SetDefaultOptions with adaptive := 1 }).1 = NO_ERROR ∧
    (DecodeBAC 25 zeroModel zeroCoder
      (handOver (EncodeBAC 25 zeroModel zeroCoder (exampleInput [0x00, 0xFF, 0x55] 4)
        (exampleTemp 1) { SetDefaultOptions with adaptive := 1 }).2.2)
      (exampleOutput 4) { SetDefaultOptions with adaptive := 1 }).2.2.wrBits
      = (exampleOutput 4).wrBits ++ (exampleInput [0x00, 0xFF, 0x55] 4).rdBits :=
  C2_bac_round_trip { SetDefaultOptions with adaptive := 1 } zeroModel zeroModel zeroCoder
    zeroCoder (exampleInput [0x00, 0xFF, 0x55] 4) (exampleTemp 1)
    (handOver (EncodeBAC 25 zeroModel zeroCoder (exampleInput [0x00, 0xFF, 0x55] 4)
      (exampleTemp 1) { SetDefaultOptions with adaptive := 1 }).2.2)
    (exampleOutput 4) 25
    (by decide) (by decide) (by decide) (by decide) (by decide) (by decide) (by decide)
    (by decide) (by decide) (by decide) (by decide)

/-- C11 fails when the input is larger than the free space of the internal buffer: on a fresh
file-backed buffer of capacity 4 in writing mode, `WriteFileBuffer` with the five bytes
`1, 2, 3, 4, 5` returns 0, not 5, and only `1, 2, 3, 4` reach the handle; the fifth byte is in
neither the handle nor the live window. With three bytes in the buffer, writing two more
returns -3. A write that fits returns its size. -/
theorem C11_write_file_buffer_beyond_free_space :
    (WriteFileBuffer (exampleFileBuffer { input := [], output := [] } FBM_WRITING 4)
      [1, 2, 3, 4, 5] 5).1 = 0 ∧
    (WriteFileBuffer (exampleFileBuffer { input := [], output := [] } FBM_WRITING 4)
      [1, 2, 3, 4, 5] 5).2.base_file.output = [1, 2, 3, 4] ∧
    (WriteFileBuffer (exampleFileBuffer { input := [], output := [] } FBM_WRITING 4)
      [1, 2, 3, 4, 5] 5).2.io_buffer.live = [] ∧
    (WriteFileBuffer (WriteFileBuffer
      (exampleFileBuffer { input := [], output := [] } FBM_WRITING 4) [1, 2, 3] 3).2
      [4, 5] 2).1 = -3 ∧
    (WriteFileBuffer (WriteFileBuffer
      (exampleFileBuffer { input := [], output := [] } FBM_WRITING 4) [1, 2, 3] 3).2
      [4, 5] 2).2.written = [1, 2, 3, 4] ∧
    (WriteFileBuffer (exampleFileBuffer { input := [], output := [] } FBM_WRITING 4)
      [1, 2, 3, 4] 4).1 = 4 := by
  refine ⟨?_, ?_, ?_, ?_, ?_, ?_⟩ <;> decide

/-- C13 fails for a file-backed buffer with a live byte: after one byte `7` was written to a
fresh file-backed buffer of capacity 4, `FlushFileBuffer` passes the byte to the handle, which
accepts it, and empties the live window, yet it returns 0; on the buffer with an empty live
window it returns 1. On a memory-only buffer it returns `ERROR_FILE_IO`. -/
theorem C13_flush_file_buffer_reports_failure :
    (FlushFileBuffer (WriteFileBuffer
      (exampleFileBuffer { input := [], output := [] } FBM_WRITING 4) [7] 1).2).1 = 0 ∧
    (FlushFileBuffer (WriteFileBuffer
      (exampleFileBuffer { input := [], output := [] } FBM_WRITING 4) [7] 1).2).2.base_file.output
      = [7] ∧
    (FlushFileBuffer (WriteFileBuffer
      (exampleFileBuffer { input := [], output := [] } FBM_WRITING 4) [7] 1).2).2.io_buffer.live
      = [] ∧
    (FlushFileBuffer (exampleFileBuffer { input := [], output := [] } FBM_WRITING 4)).1 = 1 ∧
    (FlushFileBuffer (exampleMemoryBuffer FBM_WRITING 4)).1 = ERROR_FILE_IO := by
  refine ⟨?_, ?_, ?_, ?_, ?_⟩ <;> decide

/-- C14 fails when the live window does not start at offset 0: after `1, 2, 3` were written to
a fresh byte buffer of capacity 4 and one byte was read, the live window is `2, 3` at offsets 1
and 2; `WriteBuffer` with the two bytes `9, 9` returns 2, but the live window becomes two bytes
of the memory behind the `buffer_t` object, followed by `9, 9`, instead of `2, 3, 9, 9`. -/
theorem C14_write_buffer_compaction (stray : List Nat) :
    (ReadBuffer (WriteBuffer (exampleBuffer stray 4) [1, 2, 3] 3).2 1).2.live = [2, 3] ∧
    (ReadBuffer (WriteBuffer (exampleBuffer stray 4) [1, 2, 3] 3).2 1).2.buffer_start = 1 ∧
    (WriteBuffer (ReadBuffer (WriteBuffer (exampleBuffer stray 4) [1, 2, 3] 3).2 1).2
      [9, 9] 2).1 = 2 ∧
    (WriteBuffer (ReadBuffer (WriteBuffer (exampleBuffer stray 4) [1, 2, 3] 3).2 1).2
      [9, 9] 2).2.live = [stray.getD 32 0, stray.getD 33 0, 9, 9] ∧
    (WriteBuffer (ReadBuffer (WriteBuffer (exampleBuffer [] 4) [1, 2, 3] 3).2 1).2
      [9, 9] 2).2.live = [0, 0, 9, 9] := by
  have h0 : exampleBuffer stray 4 = ⟨[0, 0, 0, 0], 4, 0, -1, stray⟩ := rfl
  have h1 : WriteBuffer ⟨[0, 0, 0, 0], 4, 0, -1, stray⟩ [1, 2, 3] 3
      = (3, ⟨[1, 2, 3, 0], 4, 0, 2, stray⟩) := by
    simp [WriteBuffer, GetUsedBufferSize, GetBufferSize, toU64, MAX_USABLE_SIZE, SIZE_MAX, memcpy]
  have h2 : ReadBuffer ⟨[1, 2, 3, 0], 4, 0, 2, stray⟩ 1
      = ((1, [1]), ⟨[1, 2, 3, 0], 4, 1, 2, stray⟩) := by
    simp [ReadBuffer, PeekBuffer, GetUsedBufferSize, MAX_USABLE_SIZE, SIZE_MAX]
  have h3 : WriteBuffer ⟨[1, 2, 3, 0], 4, 1, 2, stray⟩ [9, 9] 2
      = (2, ⟨[stray.getD 32 0, stray.getD 33 0, 9, 9], 4, 0, 3, stray⟩) := by
    simp [WriteBuffer, GetUsedBufferSize, GetBufferSize, toU64, MAX_USABLE_SIZE, SIZE_MAX, memcpy,
      strayBytes, SIZEOF_BUFFER_T, List.range, List.range.loop]
  rw [h0, h1, h2, h3]
  exact ⟨rfl, rfl, rfl, rfl, by decide⟩

theorem toU64_min (a : Int) (n : Nat) (ha : 0 ≤ a) (ha2 : a < 2 ^ 63) (hn : n < 2 ^ 63) :
    ((toU64 (if a < (n : Int) then a else (n : Int)) : Nat) : Int) = min a n := by
  unfold toU64
  split <;> omega

/-- The numeric effect of `WriteBuffer` on a buffer within its bounds. -/
theorem WriteBuffer_count (b : buffer_t) (input : List Nat) (n : Nat) (hb : b.Bounds)
    (hs : b.buffer_size ≤ MAX_USABLE_SIZE) (hn : n ≤ MAX_USABLE_SIZE) :
    (WriteBuffer b input n).2.Bounds ∧
    (WriteBuffer b input n).2.buffer_size = b.buffer_size ∧
    (WriteBuffer b input n).1 = min ((b.buffer_size : Int) - GetUsedBufferSize b) n ∧
    GetUsedBufferSize (WriteBuffer b input n).2
      = GetUsedBufferSize b + (WriteBuffer b input n).1 := by
  obtain ⟨buf, cap, st, en, stray⟩ := b
  obtain ⟨h1, h2, h3⟩ := hb
  have hM := MAX_USABLE_SIZE_eq
  simp only at h1 h2 h3 hs
  have hmin := toU64_min ((cap : Int) - (en - st + 1)) n (by omega) (by omega) (by omega)
  obtain ⟨m, hm⟩ : ∃ m : Nat, m = toU64 (if (cap : Int) - (en - st + 1) < (n : Int)
      then (cap : Int) - (en - st + 1) else (n : Int)) := ⟨_, rfl⟩
  rw [← hm] at hmin
  have hen : toU64 en = if en = -1 then 2 ^ 64 - 1 else en.toNat := by
    unfold toU64
    split <;> omega
  unfold WriteBuffer
  simp only [GetUsedBufferSize, GetBufferSize, ← hm]
  rw [if_neg (by omega)]
  by_cases hc : (toU64 en + m) % 2 ^ 64 ≥ cap
  · simp only [hc, if_true, buffer_t.Bounds]
    refine ⟨⟨le_refl _, by omega, by omega⟩, trivial, hmin, by omega⟩
  · simp only [hc, if_false, buffer_t.Bounds]
    have hlt : en + (m : Int) < cap := by
      rw [hen] at hc
      split at hc <;> omega
    refine ⟨⟨h1, by omega, by omega⟩, trivial, hmin, by omega⟩

/-- The numeric effect of `ReadBuffer` on a buffer within its bounds. -/
theorem ReadBuffer_count (b : buffer_t) (n : Nat) (hb : b.Bounds) :
    (ReadBuffer b n).2.Bounds ∧
    (ReadBuffer b n).2.buffer_size = b.buffer_size ∧
    (n ≤ MAX_USABLE_SIZE → (ReadBuffer b n).1.1 = min (GetUsedBufferSize b) n ∧
      GetUsedBufferSize (ReadBuffer b n).2 = GetUsedBufferSize b - (ReadBuffer b n).1.1) := by
  obtain ⟨buf, cap, st, en, stray⟩ := b
  obtain ⟨h1, h2, h3⟩ := hb
  simp only at h1 h2 h3
  have hE : ERROR_VALUE_LARGER_THAN_USABLE_SIZE = -2 := rfl
  unfold ReadBuffer PeekBuffer
  simp only [GetUsedBufferSize, hE]
  by_cases hn : n > MAX_USABLE_SIZE
  · simp only [hn, if_true, buffer_t.Bounds]
    refine ⟨?_, ?_, fun h => absurd hn (by omega)⟩
    · rw [if_neg (by decide)]
      exact ⟨h1, h2, h3⟩
    · rw [if_neg (by decide)]
  · simp only [hn, if_false, buffer_t.Bounds]
    by_cases hlt : en - st + 1 < (n : Int)
    · simp only [hlt, if_true]
      by_cases hp : en - st + 1 > 0
      · simp only [hp, if_true]
        exact ⟨⟨by omega, by omega, h3⟩, trivial, fun _ => ⟨by omega, by omega⟩⟩
      · simp only [hp, if_false]
        exact ⟨⟨h1, h2, h3⟩, trivial, fun _ => ⟨by omega, by omega⟩⟩
    · simp only [hlt, if_false]
      by_cases hp : (n : Int) > 0
      · simp only [hp, if_true]
        exact ⟨⟨by omega, by omega, h3⟩, trivial, fun _ => ⟨by omega, by omega⟩⟩
      · simp only [hp, if_false]
        exact ⟨⟨h1, h2, h3⟩, trivial, fun _ => ⟨by omega, by omega⟩⟩

theorem InitBuffer_bounds (stray : List Nat) (cap : Nat) (b : buffer_t)
    (h : InitBuffer stray cap = .ok b) :
    b.Bounds ∧ b.buffer_size = cap ∧ 0 < cap ∧ b.buffer_size ≤ MAX_USABLE_SIZE ∧
    GetUsedBufferSize b = 0 := by
  unfold InitBuffer at h
  by_cases h0 : cap ≤ 0
  · rw [if_pos h0] at h; cases h
  · rw [if_neg h0] at h
    by_cases h1 : cap > MAX_USABLE_SIZE
    · rw [if_pos h1] at h; cases h
    · rw [if_neg h1] at h
      cases h
      refine ⟨⟨le_refl _, ?_, ?_⟩, rfl, by omega, by simp only [ClearBuffer]; omega, rfl⟩
      · simp only [ClearBuffer]; omega
      · simp only [ClearBuffer]; omega

theorem ResizeBuffer_bounds (b : buffer_t) (new_size : Nat) (hb : b.Bounds)
    (hs : b.buffer_size ≤ MAX_USABLE_SIZE) (hu : GetUsedBufferSize b ≤ new_size) :
    (ResizeBuffer b new_size).2.Bounds ∧
    (ResizeBuffer b new_size).2.buffer_size ≤ MAX_USABLE_SIZE ∧
    GetUsedBufferSize (ResizeBuffer b new_size).2 = GetUsedBufferSize b := by
  obtain ⟨h1, h2, h3⟩ := hb
  unfold GetUsedBufferSize at hu ⊢
  unfold ResizeBuffer
  by_cases h0 : new_size ≤ 0
  · simp only [h0, if_true]
    exact ⟨⟨h1, h2, h3⟩, hs, trivial⟩
  · by_cases hm : new_size > MAX_USABLE_SIZE
    · simp only [h0, if_false, hm, if_true]
      exact ⟨⟨h1, h2, h3⟩, hs, trivial⟩
    · simp only [h0, if_false, hm, buffer_t.Bounds]
      exact ⟨⟨le_refl _, by omega, by omega⟩, by omega, by omega⟩

theorem RefillBuffer_bounds {σ : Type} (b : buffer_t) (f : Option (refill_function_t σ))
    (ci : σ) (hb : b.Bounds)
    (hf : ∀ g, f = some g → ∀ (max_bytes : Nat) (c : σ), (g max_bytes c).1.1 ≤ max_bytes) :
    (RefillBuffer b f ci).2.1.Bounds ∧
    (RefillBuffer b f ci).2.1.buffer_size = b.buffer_size := by
  obtain ⟨h1, h2, h3⟩ := hb
  unfold RefillBuffer
  simp only [GetUsedBufferSize]
  cases f with
  | none =>
    simp only [buffer_t.Bounds]
    exact ⟨⟨le_refl _, by omega, by omega⟩, trivial⟩
  | some g =>
    have hg := hf g rfl (b.buffer_size - (b.buffer_end - b.buffer_start + 1).toNat) ci
    simp only []
    by_cases hp : (g (b.buffer_size - (b.buffer_end - b.buffer_start + 1).toNat) ci).1.1 > 0
    · simp only [hp, if_true, buffer_t.Bounds]
      exact ⟨⟨le_refl _, by omega, by omega⟩, trivial⟩
    · simp only [hp, if_false, buffer_t.Bounds]
      exact ⟨⟨le_refl _, by omega, by omega⟩, trivial⟩

theorem FlushBuffer_bounds {σ : Type} (b : buffer_t) (f : Option (flush_function_t σ))
    (ci : σ) (hb : b.Bounds)
    (hf : ∀ g, f = some g → ∀ (bytes : List Nat) (c : σ), (g bytes c).1 ≤ bytes.length) :
    (FlushBuffer b f ci).2.1.Bounds ∧
    (FlushBuffer b f ci).2.1.buffer_size = b.buffer_size := by
  obtain ⟨h1, h2, h3⟩ := hb
  unfold FlushBuffer
  simp only [GetUsedBufferSize]
  cases f with
  | none => exact ⟨⟨h1, h2, h3⟩, rfl⟩
  | some g =>
    simp only []
    by_cases hu : b.buffer_end - b.buffer_start + 1 > 0
    · have hg := hf g rfl ((b.buffer.drop b.buffer_start.toNat).take
        (b.buffer_end - b.buffer_start + 1).toNat) ci
      have hl : ((b.buffer.drop b.buffer_start.toNat).take
          (b.buffer_end - b.buffer_start + 1).toNat).length
          ≤ (b.buffer_end - b.buffer_start + 1).toNat := by
        rw [List.length_take]
        exact Nat.min_le_left _ _
      simp only [hu, if_true]
      by_cases hp : (g ((b.buffer.drop b.buffer_start.toNat).take
          (b.buffer_end - b.buffer_start + 1).toNat) ci).1 > 0
      · simp only [hp, if_true, buffer_t.Bounds]
        exact ⟨⟨by omega, by omega, h3⟩, trivial⟩
      · simp only [hp, if_false]
        exact ⟨⟨h1, h2, h3⟩, trivial⟩
    · simp only [hu, if_false]
      exact ⟨⟨h1, h2, h3⟩, trivial⟩

theorem WriteBuffer_bounds (b : buffer_t) (input : List Nat) (n : Nat) (hb : b.Bounds)
    (hs : b.buffer_size ≤ MAX_USABLE_SIZE) :
    (WriteBuffer b input n).2.Bounds ∧
    (WriteBuffer b input n).2.buffer_size = b.buffer_size := by
  by_cases hn : n ≤ MAX_USABLE_SIZE
  · obtain ⟨w1, w2, -, -⟩ := WriteBuffer_count b input n hb hs hn
    exact ⟨w1, w2⟩
  · unfold WriteBuffer
    simp only []
    rw [if_pos (by omega)]
    exact ⟨hb, rfl⟩

theorem runOps_used : ∀ (ops : List buffer_op) (b : buffer_t), b.Bounds →
    b.buffer_size ≤ MAX_USABLE_SIZE → (∀ op ∈ ops, op.size ≤ MAX_USABLE_SIZE) →
    (runOps b ops).2.2.Bounds ∧ (runOps b ops).2.2.buffer_size = b.buffer_size ∧
    GetUsedBufferSize (runOps b ops).2.2
      = GetUsedBufferSize b + (runOps b ops).1 - (runOps b ops).2.1 := by
  intro ops
  induction ops with
  | nil =>
    intro b hb _ _
    exact ⟨hb, rfl, by simp only [runOps]; omega⟩
  | cons op rest ih =>
    intro b hb hs hops
    have hop := hops op (List.mem_cons_self _ _)
    have hrest : ∀ o ∈ rest, o.size ≤ MAX_USABLE_SIZE :=
      fun o ho => hops o (List.mem_cons_of_mem _ ho)
    cases op with
    | write input n =>
      obtain ⟨w1, w2, -, w4⟩ := WriteBuffer_count b input n hb hs hop
      obtain ⟨i1, i2, i3⟩ := ih _ w1 (by rw [w2]; exact hs) hrest
      simp only [runOps]
      exact ⟨i1, by rw [i2, w2], by rw [i3, w4]; omega⟩
    | read n =>
      obtain ⟨w1, w2, w3⟩ := ReadBuffer_count b n hb
      obtain ⟨-, w4⟩ := w3 hop
      obtain ⟨i1, i2, i3⟩ := ih _ w1 (by rw [w2]; exact hs) hrest
      simp only [runOps]
      exact ⟨i1, by rw [i2, w2], by rw [i3, w4]; omega⟩

/-- C15: for a byte buffer as `InitBuffer` returns it and any sequence of `WriteBuffer` and
`ReadBuffer` calls with sizes of at most `MAX_USABLE_SIZE`, `GetUsedBufferSize` of the final
buffer equals the sum of the counts returned by the writes minus the sum of the counts
returned by the reads; after `ClearBuffer` it is 0. -/
theorem C15_used_size_is_writes_minus_reads (stray : List Nat) (cap : Nat) (b : buffer_t)
    (ops : List buffer_op) (hinit : InitBuffer stray cap = .ok b)
    (hops : ∀ op ∈ ops, op.size ≤ MAX_USABLE_SIZE) :
    GetUsedBufferSize (runOps b ops).2.2 = (runOps b ops).1 - (runOps b ops).2.1 ∧
    GetUsedBufferSize (ClearBuffer (runOps b ops).2.2) = 0 := by
  obtain ⟨i1, -, -, i4, i5⟩ := InitBuffer_bounds stray cap b hinit
  obtain ⟨-, -, r3⟩ := runOps_used ops b i1 i4 hops
  refine ⟨by rw [r3, i5]; omega, rfl⟩

/-- C15 at a buffer of capacity 4: a write of 3 bytes, a read of 2, a write of 5 bytes of which
3 fit (the window is compacted), a read of 6 of which 4 are there. -/
theorem C15_used_size_is_writes_minus_reads_witness :
    GetUsedBufferSize (runOps (exampleBuffer [] 4)
      [.write [1, 2, 3] 3, .read 2, .write [4, 5, 6, 7, 8] 5, .read 6]).2.2
      = (runOps (exampleBuffer [] 4)
          [.write [1, 2, 3] 3, .read 2, .write [4, 5, 6, 7, 8] 5, .read 6]).1
        - (runOps (exampleBuffer [] 4)
          [.write [1, 2, 3] 3, .read 2, .write [4, 5, 6, 7, 8] 5, .read 6]).2.1 :=
  (C15_used_size_is_writes_minus_reads [] 4 (exampleBuffer [] 4)
    [.write [1, 2, 3] 3, .read 2, .write [4, 5, 6, 7, 8] 5, .read 6] rfl
    (by decide)).1

/-- C16: every operation of the byte buffer keeps `0 ≤ start ≤ end + 1 ≤ capacity`, where the
used size is `end - start + 1`: a buffer that `InitBuffer` returns is within the bounds, and
from a buffer within the bounds `ClearBuffer`, `ResizeBuffer` with a new capacity of at least
the used size, `RefillBuffer` with a producer that returns at most the offered maximum,
`FlushBuffer` with a consumer that returns at most the offered count, `ReadBuffer` and
`WriteBuffer` give a buffer within the bounds (`PeekBuffer` does not change the buffer). The
capacity is at most `MAX_USABLE_SIZE`, as `InitBuffer` and `ResizeBuffer` enforce. -/
theorem C16_byte_buffer_bounds (b : buffer_t) (hb : b.Bounds)
    (hs : b.buffer_size ≤ MAX_USABLE_SIZE) :
    (∀ (stray : List Nat) (cap : Nat) (b0 : buffer_t), InitBuffer stray cap = .ok b0 →
      b0.Bounds ∧ b0.buffer_size ≤ MAX_USABLE_SIZE) ∧
    (ClearBuffer b).Bounds ∧
    (∀ new_size : Nat, GetUsedBufferSize b ≤ new_size →
      (ResizeBuffer b new_size).2.Bounds ∧
      (ResizeBuffer b new_size).2.buffer_size ≤ MAX_USABLE_SIZE) ∧
    (∀ (σ : Type) (f : Option (refill_function_t σ)) (ci : σ),
      (∀ g, f = some g → ∀ (max_bytes : Nat) (c : σ), (g max_bytes c).1.1 ≤ max_bytes) →
      (RefillBuffer b f ci).2.1.Bounds ∧
      (RefillBuffer b f ci).2.1.buffer_size = b.buffer_size) ∧
    (∀ (σ : Type) (f : Option (flush_function_t σ)) (ci : σ),
      (∀ g, f = some g → ∀ (bytes : List Nat) (c : σ), (g bytes c).1 ≤ bytes.length) →
      (FlushBuffer b f ci).2.1.Bounds ∧
      (FlushBuffer b f ci).2.1.buffer_size = b.buffer_size) ∧
    (∀ output_size : Nat, (ReadBuffer b output_size).2.Bounds ∧
      (ReadBuffer b output_size).2.buffer_size = b.buffer_size) ∧
    (∀ (input : List Nat) (input_size : Nat), (WriteBuffer b input input_size).2.Bounds ∧
      (WriteBuffer b input input_size).2.buffer_size = b.buffer_size) ∧
    GetUsedBufferSize b = b.buffer_end - b.buffer_start + 1 ∧
    0 ≤ GetUsedBufferSize b ∧ GetUsedBufferSize b ≤ b.buffer_size := by
  refine ⟨?_, ?_, ?_, ?_, ?_, ?_, ?_, rfl, ?_, ?_⟩
  · intro stray cap b0 h
    obtain ⟨i1, -, -, i4, -⟩ := InitBuffer_bounds stray cap b0 h
    exact ⟨i1, i4⟩
  · obtain ⟨h1, h2, h3⟩ := hb
    exact ⟨le_refl _, by simp only [ClearBuffer]; omega, by simp only [ClearBuffer]; omega⟩
  · intro new_size hu
    obtain ⟨r1, r2, -⟩ := ResizeBuffer_bounds b new_size hb hs hu
    exact ⟨r1, r2⟩
  · intro σ f ci hf
    exact RefillBuffer_bounds b f ci hb hf
  · intro σ f ci hf
    exact FlushBuffer_bounds b f ci hb hf
  · intro n
    obtain ⟨r1, r2, -⟩ := ReadBuffer_count b n hb
    exact ⟨r1, r2⟩
  · intro input n
    exact WriteBuffer_bounds b input n hb hs
  · obtain ⟨h1, h2, h3⟩ := hb
    unfold GetUsedBufferSize
    omega
  · obtain ⟨h1, h2, h3⟩ := hb
    unfold GetUsedBufferSize
    omega

/-- C16 at a buffer of capacity 4 that holds `2, 3` at the offsets 1 and 2: the bounds hold
after a write of two bytes. -/
theorem C16_byte_buffer_bounds_witness :
    (WriteBuffer (⟨[1, 2, 3, 0], 4, 1, 2, []⟩ : buffer_t) [9, 9] 2).2.Bounds :=
  ((C16_byte_buffer_bounds (⟨[1, 2, 3, 0], 4, 1, 2, []⟩ : buffer_t) (by decide)
    (by decide)).2.2.2.2.2.2.1 [9, 9] 2).1

theorem used_eq_live (b : buffer_t) (h : b.WF) : GetUsedBufferSize b = (b.live.length : Int) := by
  have hl := live_length b h
  obtain ⟨h1, h2, h3, h4, h5, h6⟩ := h
  simp only [GetUsedBufferSize] at hl ⊢
  omega

theorem live_le_size (b : buffer_t) (h : b.WF) : b.live.length ≤ b.buffer_size := by
  have hl := live_length b h
  obtain ⟨h1, h2, h3, h4, h5, h6⟩ := h
  simp only [GetUsedBufferSize] at hl
  omega

theorem take_take_drop (l : List Nat) (w m r : Nat) (hm : m ≤ r) :
    (l.drop w).take m ++ (l.drop (w + m)).take (r - m) = (l.drop w).take r := by
  have e : l.drop (w + m) = (l.drop w).drop m := by rw [List.drop_drop, Nat.add_comm]
  rw [e]
  have hr : r = m + (r - m) := by omega
  conv_rhs => rw [hr, List.take_add]

/-- The loop of `WriteFileBuffer` on a memory-only buffer whose live window starts at offset 0
and which is not full: it stores the rest of the input and doubles the capacity each time the
buffer is found full. -/
theorem WriteFileBufferLoop_memory : ∀ (fuel : Nat) (fb : file_buffer_t) (input : List Nat)
    (n written : Nat) (ret : Int),
    fb.type = FBT_MEMORY → fb.io_buffer.WF → fb.io_buffer.buffer_start = 0 →
    fb.io_buffer.live.length < fb.io_buffer.buffer_size →
    written < n → n ≤ input.length → 2 * (fb.io_buffer.live.length + (n - written)) ≤ MAX_USABLE_SIZE →
    n - written < fuel →
    (WriteFileBufferLoop fuel fb input n written ret).1 = n ∧
    (WriteFileBufferLoop fuel fb input n written ret).2.io_buffer.WF ∧
    (WriteFileBufferLoop fuel fb input n written ret).2.io_buffer.buffer_start = 0 ∧
    (WriteFileBufferLoop fuel fb input n written ret).2.io_buffer.live
      = fb.io_buffer.live ++ (input.drop written).take (n - written) ∧
    (∃ j, (WriteFileBufferLoop fuel fb input n written ret).2.io_buffer.buffer_size
      = fb.io_buffer.buffer_size * 2 ^ j) ∧
    (WriteFileBufferLoop fuel fb input n written ret).2.base_file = fb.base_file ∧
    (WriteFileBufferLoop fuel fb input n written ret).2.mode = fb.mode ∧
    (WriteFileBufferLoop fuel fb input n written ret).2.type = fb.type := by
  intro fuel
  induction fuel with
  | zero => intro fb input n written ret _ _ _ _ _ _ _ hf; omega
  | succ fuel ih =>
    intro fb input n written ret ht hwf hs hfree hw hin hmax hf
    have hM := MAX_USABLE_SIZE_eq
    have hle := live_le_size fb.io_buffer hwf
    obtain ⟨w1, w2, w3, w4, w5⟩ := WriteBuffer_spec fb.io_buffer (input.drop written) (n - written)
      hwf (Or.inl hs) (by omega) (by rw [List.length_drop]; omega)
    obtain ⟨m, hm⟩ : ∃ m, m = min (fb.io_buffer.buffer_size - fb.io_buffer.live.length)
      (n - written) := ⟨_, rfl⟩
    rw [← hm] at w1 w3 w5
    have hm1 : m ≤ n - written := by rw [hm]; exact Nat.min_le_right _ _
    have hm2 : m ≤ fb.io_buffer.buffer_size - fb.io_buffer.live.length := by
      rw [hm]; exact Nat.min_le_left _ _
    have hm0 : 0 < m := by rw [hm]; exact Nat.lt_min.mpr ⟨by omega, by omega⟩
    have hm3 : m = n - written ∨ m = fb.io_buffer.buffer_size - fb.io_buffer.live.length := by
      rcases Nat.le_total (fb.io_buffer.buffer_size - fb.io_buffer.live.length) (n - written)
        with hkl | hkl
      · right; rw [hm]; exact Nat.min_eq_left hkl
      · left; rw [hm]; exact Nat.min_eq_right hkl
    have hs1 := w5 (Or.inl hs)
    unfold WriteFileBufferLoop
    have hrem : n - written > 0 := by omega
    simp only [hrem, if_true, w1]
    by_cases hall : m = n - written
    · have hc : ¬ (((m : Nat) : Int) ≠ ((n - written : Nat) : Int) ∧ ((m : Nat) : Int) > 0) := by
        rw [hall]; intro h; exact h.1 rfl
      simp only [hc, if_false]
      refine ⟨by rw [hall]; omega, w2, hs1, by rw [w3, hall], ⟨0, by rw [w4]; simp⟩, ?_, ?_, ?_⟩
        <;> trivial
    · have hmf : m = fb.io_buffer.buffer_size - fb.io_buffer.live.length := by
        rcases hm3 with h | h
        · exact absurd h hall
        · exact h
      have hc1 : ((m : Nat) : Int) ≠ ((n - written : Nat) : Int) := by omega
      have hc2 : ((m : Nat) : Int) > 0 := by omega
      have hl1 : (WriteBuffer fb.io_buffer (input.drop written) (n - written)).2.live.length
          = fb.io_buffer.buffer_size := by
        rw [w3, List.length_append, List.length_take, List.length_drop]
        omega
      obtain ⟨r1, r2, r3, r4, r5⟩ := ResizeBuffer_spec
        (WriteBuffer fb.io_buffer (input.drop written) (n - written)).2
        (2 * fb.io_buffer.buffer_size) w2 (by omega) (by omega) (by omega)
      have htm : ¬ (fb.type = FBT_FILE) := by rw [ht]; decide
      have hz : RESIZE_BUFFER { fb with io_buffer :=
            (WriteBuffer fb.io_buffer (input.drop written) (n - written)).2 }
          = ((ResizeBuffer (WriteBuffer fb.io_buffer (input.drop written) (n - written)).2
              (2 * fb.io_buffer.buffer_size)).1,
             { fb with io_buffer := (ResizeBuffer
               (WriteBuffer fb.io_buffer (input.drop written) (n - written)).2
               (2 * fb.io_buffer.buffer_size)).2 }) := by
        unfold RESIZE_BUFFER
        simp only [GetBufferSize, w4]
      have hne0 : ¬ ((0 : Int) ≠ NO_ERROR) := fun h => h rfl
      rw [if_pos ⟨hc1, hc2⟩]
      simp only [htm, if_false, hz, r1, hne0, Int.toNat_ofNat]
      obtain ⟨i1, i2, i3, i4, ⟨j, i5⟩, i6, i7, i8⟩ := ih
        { fb with io_buffer := (ResizeBuffer
          (WriteBuffer fb.io_buffer (input.drop written) (n - written)).2
          (2 * fb.io_buffer.buffer_size)).2 } input n (written + m) ((m : Nat) : Int) ht r2 r4
        (by dsimp only; rw [r3, r5, hl1]; omega) (by omega) hin
        (by dsimp only; rw [r3, hl1]; omega) (by omega)
      dsimp only at i4 i5 i6 i7 i8
      refine ⟨i1, i2, i3, ?_, ⟨j + 1, ?_⟩, i6, i7, i8⟩
      · rw [i4, r3, w3, List.append_assoc]
        congr 1
        have e : n - (written + m) = (n - written) - m := by omega
        rw [e]
        exact take_take_drop input written m (n - written) hm1
      · rw [i5, r5, Nat.pow_succ]
        ring

/-- C `WriteFileBuffer` on a memory-only buffer in writing mode whose live window starts at
offset 0: it returns `n`, appends the `n` input bytes to the live window, and the capacity
afterwards is the capacity before multiplied by a power of two. -/
theorem WriteFileBuffer_memory_grows (fb : file_buffer_t) (input : List Nat) (n : Nat)
    (ht : fb.type = FBT_MEMORY) (hmode : fb.mode = FBM_WRITING) (hwf : fb.io_buffer.WF)
    (hs : fb.io_buffer.buffer_start = 0) (hcap : 0 < fb.io_buffer.buffer_size)
    (hin : n ≤ input.length) (hmax : 2 * (fb.io_buffer.live.length + n) ≤ MAX_USABLE_SIZE) :
    (WriteFileBuffer fb input n).1 = n ∧
    (WriteFileBuffer fb input n).2.io_buffer.WF ∧
    (WriteFileBuffer fb input n).2.io_buffer.buffer_start = 0 ∧
    (WriteFileBuffer fb input n).2.io_buffer.live = fb.io_buffer.live ++ input.take n ∧
    (∃ j, (WriteFileBuffer fb input n).2.io_buffer.buffer_size
      = fb.io_buffer.buffer_size * 2 ^ j) ∧
    (WriteFileBuffer fb input n).2.mode = FBM_WRITING ∧
    (WriteFileBuffer fb input n).2.type = FBT_MEMORY := by
  have hM := MAX_USABLE_SIZE_eq
  have hle := live_le_size fb.io_buffer hwf
  have hu := used_eq_live fb.io_buffer hwf
  have hm0 : ¬ (fb.mode ≠ FBM_WRITING) := fun h => h hmode
  have hn0 : ¬ (n > MAX_USABLE_SIZE) := by omega
  have htm : ¬ (fb.type = FBT_FILE) := by rw [ht]; decide
  unfold WriteFileBuffer
  simp only [hm0, hn0, if_false, hu, GetBufferSize, htm]
  by_cases hfull : fb.io_buffer.live.length = fb.io_buffer.buffer_size
  · obtain ⟨r1, r2, r3, r4, r5⟩ := ResizeBuffer_spec fb.io_buffer
      (2 * fb.io_buffer.buffer_size) hwf (by omega) (by omega) (by omega)
    have hz : RESIZE_BUFFER fb
        = ((ResizeBuffer fb.io_buffer (2 * fb.io_buffer.buffer_size)).1,
           { fb with io_buffer := (ResizeBuffer fb.io_buffer
               (2 * fb.io_buffer.buffer_size)).2 }) := rfl
    have hne0 : ¬ ((0 : Int) ≠ NO_ERROR) := fun h => h rfl
    have hf : ((fb.io_buffer.live.length : Nat) : Int) = ((fb.io_buffer.buffer_size : Nat) : Int) := by
      rw [hfull]
    simp only [hf, if_true, hz, r1, hne0, if_false]
    by_cases hn : n = 0
    · subst hn
      unfold WriteFileBufferLoop
      simp only [Nat.sub_self, gt_iff_lt, Nat.lt_irrefl, if_false, List.take_zero,
        List.append_nil]
      exact ⟨by simp, r2, r4, r3, ⟨1, by rw [r5]; ring⟩, hmode, ht⟩
    · obtain ⟨i1, i2, i3, i4, ⟨j, i5⟩, i6, i7, i8⟩ := WriteFileBufferLoop_memory (n + 1)
        { fb with io_buffer := (ResizeBuffer fb.io_buffer (2 * fb.io_buffer.buffer_size)).2 }
        input n 0 0 ht r2 r4 (by dsimp only; rw [r3, r5]; omega) (by omega) hin
        (by dsimp only; rw [r3]; omega) (by omega)
      dsimp only at i4 i5 i7 i8
      refine ⟨i1, i2, i3, ?_, ⟨j + 1, ?_⟩, by rw [i7, hmode], by rw [i8, ht]⟩
      · rw [i4, r3]; rfl
      · rw [i5, r5, Nat.pow_succ]; ring
  · have hf : ¬ (((fb.io_buffer.live.length : Nat) : Int)
        = ((fb.io_buffer.buffer_size : Nat) : Int)) := by omega
    simp only [hf, if_false]
    by_cases hn : n = 0
    · subst hn
      unfold WriteFileBufferLoop
      simp only [Nat.sub_self, gt_iff_lt, Nat.lt_irrefl, if_false, List.take_zero,
        List.append_nil]
      exact ⟨by simp, hwf, hs, trivial, ⟨0, by simp⟩, hmode, ht⟩
    · obtain ⟨i1, i2, i3, i4, ⟨j, i5⟩, i6, i7, i8⟩ := WriteFileBufferLoop_memory (n + 1)
        fb input n 0 0 ht hwf hs (by omega) (by omega) hin (by omega) (by omega)
      exact ⟨i1, i2, i3, by rw [i4]; rfl, ⟨j, i5⟩, by rw [i7, hmode], by rw [i8, ht]⟩

/-- C12 (evaluation of the code at the failing input): a memory-only buffer of capacity 4 in
writing mode takes the bytes 1, 2, 3; after one byte is read from it (mode switched to reading
and back) it is a memory-only buffer in writing mode with the live window 2, 3. Writing the two
bytes 9, 9 to it returns 2 and leaves the capacity 4, but the live window afterwards is
0, 0, 9, 9 and not 2, 3, 9, 9. -/
theorem C12_memory_write_after_partial_read :
    (readBetweenWrites (WriteFileBuffer (exampleMemoryBuffer FBM_WRITING 4) [1, 2, 3] 3).2 1).type
      = FBT_MEMORY ∧
    (readBetweenWrites (WriteFileBuffer (exampleMemoryBuffer FBM_WRITING 4) [1, 2, 3] 3).2 1).mode
      = FBM_WRITING ∧
    (readBetweenWrites (WriteFileBuffer (exampleMemoryBuffer FBM_WRITING 4) [1, 2, 3] 3).2
      1).io_buffer.live = [2, 3] ∧
    (WriteFileBuffer (readBetweenWrites
      (WriteFileBuffer (exampleMemoryBuffer FBM_WRITING 4) [1, 2, 3] 3).2 1) [9, 9] 2).1 = 2 ∧
    GetFileBufferSize (WriteFileBuffer (readBetweenWrites
      (WriteFileBuffer (exampleMemoryBuffer FBM_WRITING 4) [1, 2, 3] 3).2 1) [9, 9] 2).2 = 4 ∧
    (WriteFileBuffer (readBetweenWrites
      (WriteFileBuffer (exampleMemoryBuffer FBM_WRITING 4) [1, 2, 3] 3).2 1)
      [9, 9] 2).2.io_buffer.live = [0, 0, 9, 9] ∧
    (WriteFileBuffer (readBetweenWrites
      (WriteFileBuffer (exampleMemoryBuffer FBM_WRITING 4) [1, 2, 3] 3).2 1)
      [9, 9] 2).2.io_buffer.live ≠ [2, 3] ++ [9, 9] := by
  refine ⟨?_, ?_, ?_, ?_, ?_, ?_, ?_⟩ <;> decide

theorem diffsInRange_iff (n : Nat) : ∀ (xs : List Nat) (last : Int),
    diffsInRange n last xs ↔
      ∀ d ∈ deltas last xs, -(2 ^ (n - 1) : Int) ≤ d ∧ d ≤ 2 ^ (n - 1) - 1 := by
  intro xs
  induction xs with
  | nil => intro last; simp [diffsInRange, deltas]
  | cons x rest ih =>
    intro last
    simp only [diffsInRange, deltas, List.mem_cons, forall_eq_or_imp, ih]

theorem toU64_wrapI64 (v : Int) : toU64 (wrapI64 v) = toU64 v := by
  unfold wrapI64
  exact toU64_toI64 _ (toU64_lt v)

theorem toBits_toU64 (n : Nat) (hn : n ≤ 64) (v : Int) :
    toBits n (toU64 v) = toBits n (twosComplement n v) := by
  rw [← toBits_mod n n (toU64 v) (le_refl n)]
  congr 1
  have h := toU64_mod v n hn
  have h0 : 0 ≤ v % (2 ^ n : Int) := Int.emod_nonneg _ (by positivity)
  unfold twosComplement
  omega

theorem diffCode_bits (n : Nat) (hn : n < 64) : ∀ (xs : List Nat) (last : Int),
    (∀ x ∈ xs, x < 2 ^ n) →
    valuesBits (diffCode n last xs)
      = valuesBits ((deltas last xs).map (fun d => (twosComplement n d, n))) := by
  intro xs
  induction xs with
  | nil => intro last _; rfl
  | cons x rest ih =>
    intro last hx
    have hxn : x < 2 ^ n := hx x (List.mem_cons_self _ _)
    have hpow : 2 ^ n ≤ 2 ^ 63 := Nat.pow_le_pow_right (by decide) (by omega)
    have e : toI64 x = (x : Int) := toI64_small x (by omega)
    have ih' := ih (x : Int) (fun y hy => hx y (List.mem_cons_of_mem _ hy))
    simp only [valuesBits, diffCode, deltas, List.map_cons, List.flatten_cons, e] at ih' ⊢
    rw [ih', toU64_wrapI64, toBits_toU64 n (by omega)]

/-- The loop of `EncodeDifferential` at an input that is at its end. -/
theorem EncodeDifferentialLoop_end (fuel : Nat) (inb outb : bit_file_buffer_t) (opts : options_t)
    (last : Int) (hin : inb.RdWF) (hb : inb.rdBits = []) :
    (EncodeDifferentialLoop (fuel + 1) inb outb opts last).1 = NO_ERROR ∧
    (EncodeDifferentialLoop (fuel + 1) inb outb opts last).2.2 = outb := by
  obtain ⟨e1, -, -⟩ := read_end inb hin hb
  unfold EncodeDifferentialLoop
  simp only [e1, ne_eq, not_false_eq_true, if_true, and_self]

theorem valuesBits_width_zero (l : List Nat) (f : Nat → Nat) :
    valuesBits (l.map (fun x => (f x, 0))) = [] := by
  induction l with
  | nil => rfl
  | cons x rest ih =>
    simp only [valuesBits, List.map_cons, List.flatten_cons, toBits, List.nil_append] at ih ⊢
    exact ih

theorem valuesBits_width_zero_int (l : List Int) (f : Int → Nat) :
    valuesBits (l.map (fun x => (f x, 0))) = [] := by
  induction l with
  | nil => rfl
  | cons x rest ih =>
    simp only [valuesBits, List.map_cons, List.flatten_cons, toBits, List.nil_append] at ih ⊢
    exact ih

theorem deltas_zero : ∀ (xs : List Nat), (∀ x ∈ xs, x < 1) → ∀ d ∈ deltas 0 xs, d = 0 := by
  intro xs
  induction xs with
  | nil => intro _ d hd; simp [deltas] at hd
  | cons x rest ih =>
    intro hx d hd
    have hx0 : x = 0 := by have := hx x (List.mem_cons_self _ _); omega
    subst hx0
    simp only [deltas, List.mem_cons] at hd
    rcases hd with h | h
    · rw [h]; rfl
    · exact ih (fun y hy => hx y (List.mem_cons_of_mem _ hy)) d h

/-- C17: for a width `n < 64` and an input that is a sequence `xs` of `n`-bit values (empty at
width 0), `EncodeDifferential` returns `ERROR_INVALID_VALUE` if and only if some difference
between a value, read as an unsigned number, and its predecessor (0 for the first) lies outside
`-2 ^ (n - 1) .. 2 ^ (n - 1) - 1`; otherwise it returns `NO_ERROR` and appends to the output
each difference as an `n`-bit two's-complement pattern. -/
theorem C17_differential_range_check (opts : options_t) (xs : List Nat)
    (inb outb : bit_file_buffer_t)
    (hn : opts.value_size_bits < 64) (hn0 : opts.value_size_bits = 0 → xs = [])
    (hx : ∀ x ∈ xs, x < 2 ^ opts.value_size_bits)
    (hin : inb.RdWF) (hb : inb.rdBits = valuesBits (atWidth opts.value_size_bits xs))
    (hout : outb.WrWF) (hroom : outb.Room (opts.value_size_bits * xs.length)) :
    ((EncodeDifferential (xs.length + 1) inb outb opts).1 = ERROR_INVALID_VALUE ↔
      ∃ d ∈ deltas 0 xs, d < -(2 ^ (opts.value_size_bits - 1) : Int) ∨
        2 ^ (opts.value_size_bits - 1) - 1 < d) ∧
    ((¬ ∃ d ∈ deltas 0 xs, d < -(2 ^ (opts.value_size_bits - 1) : Int) ∨
        2 ^ (opts.value_size_bits - 1) - 1 < d) →
      (EncodeDifferential (xs.length + 1) inb outb opts).1 = NO_ERROR ∧
      (EncodeDifferential (xs.length + 1) inb outb opts).2.2.wrBits
        = outb.wrBits ++ valuesBits ((deltas 0 xs).map
            (fun d => (twosComplement opts.value_size_bits d, opts.value_size_bits)))) := by
  have hrange : (¬ ∃ d ∈ deltas 0 xs, d < -(2 ^ (opts.value_size_bits - 1) : Int) ∨
      2 ^ (opts.value_size_bits - 1) - 1 < d) ↔ diffsInRange opts.value_size_bits 0 xs := by
    rw [diffsInRange_iff]
    constructor
    · intro h d hd
      by_contra hc
      exact h ⟨d, hd, by omega⟩
    · rintro h ⟨d, hd, hc⟩
      have := h d hd
      omega
  by_cases hz : opts.value_size_bits = 0
  · have hxs := hn0 hz
    subst hxs
    obtain ⟨e1, e2⟩ := EncodeDifferentialLoop_end 0 inb outb opts 0 hin hb
    unfold EncodeDifferential
    simp only [List.length_nil, Nat.zero_add, deltas, List.not_mem_nil, false_and, exists_false,
      iff_false, not_false_eq_true, true_implies, e1, e2, List.map_nil, valuesBits,
      List.flatten_nil, List.append_nil, and_self, and_true]
    decide
  · obtain ⟨e1, e2⟩ := EncodeDifferentialLoop_spec opts (by omega) (by omega) xs (xs.length + 1)
      inb outb 0 hin hout hb hx hroom (Nat.lt_succ_self _) (fun _ => ⟨le_refl _, by decide⟩)
    have h64 : ¬ (opts.value_size_bits = 64) := by omega
    simp only [h64, false_or] at e1 e2
    unfold EncodeDifferential
    constructor
    · constructor
      · intro h
        by_contra hc
        rw [e1, if_pos (hrange.mp hc)] at h
        exact absurd h (by decide)
      · intro h
        rw [e1, if_neg (fun hd => (hrange.mpr hd) h)]
    · intro h
      have hd := hrange.mp h
      obtain ⟨-, e4, -⟩ := e2 hd
      rw [e1, if_pos hd, e4, diffCode_bits opts.value_size_bits hn xs 0 hx]
      exact ⟨rfl, rfl⟩

/-- C17 at width 4 on the values 3, 9, 2, 0 (the bytes 0x39, 0x20): the differences
3, 6, -7, -2 are in range, the encoder returns `NO_ERROR` and writes them as 4-bit
two's-complement patterns; the theorem is applied with all its hypotheses evaluated. -/
theorem C17_differential_range_check_witness :
    (EncodeDifferential 5 (exampleInput [0x39, 0x20] 2) (exampleTemp 1)
      { SetDefaultOptions with value_size_bits := 4 }).1 = NO_ERROR ∧
    (EncodeDifferential 5 (exampleInput [0x39, 0x20] 2) (exampleTemp 1)
      { SetDefaultOptions with value_size_bits := 4 }).2.2.wrBits
      = (exampleTemp 1).wrBits ++ valuesBits ((deltas 0 [3, 9, 2, 0]).map
          (fun d => (twosComplement 4 d, 4))) :=
  (C17_differential_range_check { SetDefaultOptions with value_size_bits := 4 } [3, 9, 2, 0]
    (exampleInput [0x39, 0x20] 2) (exampleTemp 1) (by decide) (by decide) (by decide)
    (by decide) (by decide) (by decide) (by decide)).2 (by decide)

theorem segIndex_segValue (u : Nat) : segIndex (segValue u) = u := by
  unfold segIndex segValue
  split <;> split <;> omega

theorem segValue_bounds (u : Nat) (hu : u + 1 < 2 ^ 64) :
    -(2 ^ 63 : Int) < segValue u ∧ segValue u < 2 ^ 63 := by
  unfold segValue
  split <;> omega

theorem uegStream_cons (u : Nat) (us : List Nat) :
    uegStream (u :: us) = uegBits u ++ uegStream us := by
  simp [uegStream]

/-- The codeword of `u`: a run of `Nat.log2 (u + 1)` zero bits, the delimiter bit 1 and as many
residual bits as there are zero bits. -/
theorem uegBits_shape (u : Nat) :
    uegBits u = List.replicate (Nat.log2 (u + 1)) false ++
      true :: toBits (Nat.log2 (u + 1)) (u + 1) := by
  have htop := testBit_top (u + 1) (Nat.log2 (u + 1)) (Nat.log2_self_le (by omega))
    Nat.lt_log2_self
  rw [uegBits, toBits, htop]

theorem codeword_bound (u n : Nat) (h : Nat.log2 (u + 1) < segZeroLimit n) :
    u + 1 < 2 ^ 64 := by
  have h1 : u + 1 < 2 ^ (Nat.log2 (u + 1) + 1) := Nat.lt_log2_self
  have h2 : Nat.log2 (u + 1) + 1 ≤ 64 := by
    unfold segZeroLimit IO_SIZE_BITS at h
    split at h <;> omega
  exact Nat.lt_of_lt_of_le h1 (Nat.pow_le_pow_right (by decide) h2)

/-- C `DecodeSEG` over a run of codewords followed by `tail`: it decodes the codewords, writes
their values and continues at `tail`. -/
theorem DecodeSEG_codewords (opts : options_t) (hn : opts.value_size_bits ≤ 64)
    (tail : List Bool) (fuel : Nat) :
    ∀ (us : List Nat) (inb outb : bit_file_buffer_t),
    inb.RdWF → outb.WrWF → inb.rdBits = uegStream us ++ tail →
    (∀ u ∈ us, Nat.log2 (u + 1) < segZeroLimit opts.value_size_bits) →
    outb.Room (opts.value_size_bits * us.length) →
    ∃ inb' outb', inb'.RdWF ∧ inb'.rdBits = tail ∧ outb'.WrWF ∧
      outb'.wrBits = outb.wrBits ++
        valuesBits (us.map (fun u => (toU64 (segValue u), opts.value_size_bits))) ∧
      (us = [] → inb' = inb ∧ outb' = outb) ∧
      DecodeSEG (us.length + fuel) inb outb opts = DecodeSEG fuel inb' outb' opts := by
  intro us
  induction us with
  | nil =>
    intro inb outb hin hout hb _ _
    refine ⟨inb, outb, hin, by rw [hb]; rfl, hout, by simp [valuesBits], fun _ => ⟨rfl, rfl⟩, ?_⟩
    rw [List.length_nil, Nat.zero_add]
  | cons u rest ih =>
    intro inb outb hin hout hb hus hroom
    rw [uegStream_cons, List.append_assoc] at hb
    have hu := hus u (List.mem_cons_self _ _)
    have hu64 := codeword_bound u _ hu
    obtain ⟨e1, e2, e3, -, -⟩ := EndOfBitFileBuffer_spec inb hin
    have hne : inb.rdBits ≠ [] := by
      rw [hb]
      intro h
      exact uegBits_ne_nil _ (List.append_eq_nil.mp h).1
    rw [if_neg hne] at e1
    obtain ⟨v0, v1⟩ := segValue_bounds u hu64
    obtain ⟨d1, d2, d3, d4, d5⟩ := DecodeSEGCodeword_spec (segValue u)
      opts.value_size_bits (EndOfBitFileBuffer inb).2 (uegStream rest ++ tail) e2
      (by rw [e3, hb, segIndex_segValue]) v0 v1
      (by rw [segIndex_segValue]; exact hu)
    rw [List.length_cons, Nat.mul_succ] at hroom
    obtain ⟨w1, w2, w3, w4, -, -, -⟩ := WriteSingleValueToBitFileBuffer_spec outb
      (toU64 (segValue u)) opts.value_size_bits hout hn
      (Room_mono outb _ _ (by omega) hroom)
    have hroom' : (WriteSingleValueToBitFileBuffer outb (toU64 (segValue u))
        opts.value_size_bits).2.Room (opts.value_size_bits * rest.length) := by
      apply Room_of_wrBits outb _ _ _ w4 w3
      rw [toBits_length, Nat.add_comm]; exact hroom
    have hlog := LOG_ON_ERROR_AND_RETURN_ok opts.value_size_bits (by omega)
    obtain ⟨inb', outb', i1, i2, i3, i4, -, i6⟩ := ih _ _ d4 w2 d5
      (fun y hy => hus y (List.mem_cons_of_mem _ hy)) hroom'
    refine ⟨inb', outb', i1, i2, i3, ?_, fun h => absurd h (List.cons_ne_nil _ _), ?_⟩
    · rw [i4, w3, List.map_cons, valuesBits_cons, List.append_assoc]
    · rw [← i6, List.length_cons, Nat.add_right_comm]
      conv_lhs => unfold DecodeSEG
      simp only [e1, ne_eq, not_true_eq_false, if_false, d1, d2, d3, w1, hlog]

/-- The prefix loop of `DecodeUEGCodeword` on a run of zero bits that reaches the limit. -/
theorem DecodeUEGPrefixLoop_overrun : ∀ (z fuel max : Nat) (inb : bit_file_buffer_t) (p : Nat)
    (rest : List Bool), inb.RdWF → inb.rdBits = List.replicate (z + 1) false ++ rest →
    p + (z + 1) = max → z < fuel →
    (DecodeUEGPrefixLoop fuel max inb p 0).1 = some ERROR_INVALID_FORMAT := by
  intro z
  induction z with
  | zero =>
    intro fuel max inb p rest hin hb hp hf
    obtain ⟨f, rfl⟩ : ∃ f, fuel = f + 1 := ⟨fuel - 1, by omega⟩
    have hb' : inb.rdBits = toBits 1 0 ++ rest := by rw [hb]; rfl
    obtain ⟨e1, r1, r2, r3, hlog⟩ := read_head inb 1 0 _ hin (by decide) (by decide)
      (by decide) hb'
    have hl : LOG_ON_ERROR_AND_RETURN 1 1 = none := hlog
    unfold DecodeUEGPrefixLoop
    simp only [if_true, e1, ne_eq, not_true_eq_false, if_false, r1, Nat.cast_one, hl]
    rw [if_pos (by omega)]
  | succ z ih =>
    intro fuel max inb p rest hin hb hp hf
    obtain ⟨f, rfl⟩ : ∃ f, fuel = f + 1 := ⟨fuel - 1, by omega⟩
    have hb' : inb.rdBits = toBits 1 0 ++ (List.replicate (z + 1) false ++ rest) := by
      rw [hb]; rfl
    obtain ⟨e1, r1, r2, r3, hlog⟩ := read_head inb 1 0 _ hin (by decide) (by decide)
      (by decide) hb'
    have hl : LOG_ON_ERROR_AND_RETURN 1 1 = none := hlog
    have i1 := ih f max _ (p + 1) rest r2 r3 (by omega) (by omega)
    unfold DecodeUEGPrefixLoop
    simp only [if_true, e1, ne_eq, not_true_eq_false, if_false, r1, Nat.cast_one, hl]
    rw [if_neg (by omega)]
    exact i1

/-- The prefix loop of `DecodeUEGCodeword` on a run of zero bits below the limit at which the
input ends. -/
theorem DecodeUEGPrefixLoop_eos : ∀ (z fuel max : Nat) (inb : bit_file_buffer_t) (p : Nat),
    inb.RdWF → inb.rdBits = List.replicate z false →
    p + z < max → z < fuel →
    (DecodeUEGPrefixLoop fuel max inb p 0).1 = none ∧
    (DecodeUEGPrefixLoop fuel max inb p 0).2.1 = p + z ∧
    (DecodeUEGPrefixLoop fuel max inb p 0).2.2.2.RdWF ∧
    (DecodeUEGPrefixLoop fuel max inb p 0).2.2.2.rdBits = [] := by
  intro z
  induction z with
  | zero =>
    intro fuel max inb p hin hb hp hf
    obtain ⟨f, rfl⟩ : ∃ f, fuel = f + 1 := ⟨fuel - 1, by omega⟩
    obtain ⟨e1, e2, e3⟩ := read_end inb hin hb
    unfold DecodeUEGPrefixLoop
    simp only [if_true, e1, ne_eq, not_false_eq_true]
    exact ⟨trivial, rfl, e2, e3⟩
  | succ z ih =>
    intro fuel max inb p hin hb hp hf
    obtain ⟨f, rfl⟩ : ∃ f, fuel = f + 1 := ⟨fuel - 1, by omega⟩
    have hb' : inb.rdBits = toBits 1 0 ++ List.replicate z false := by
      rw [hb]; rfl
    obtain ⟨e1, r1, r2, r3, hlog⟩ := read_head inb 1 0 _ hin (by decide) (by decide)
      (by decide) hb'
    have hl : LOG_ON_ERROR_AND_RETURN 1 1 = none := hlog
    obtain ⟨i1, i2, i3, i4⟩ := ih f max _ (p + 1) r2 r3 (by omega) (by omega)
    unfold DecodeUEGPrefixLoop
    simp only [if_true, e1, ne_eq, not_true_eq_false, if_false, r1, Nat.cast_one, hl]
    rw [if_neg (by omega)]
    exact ⟨i1, by rw [i2]; omega, i3, i4⟩

theorem log2_le_iff (w n : Nat) (hw : w ≠ 0) : Nat.log2 w ≤ n ↔ w < 2 ^ (n + 1) := by
  rw [← Nat.log2_lt hw]; omega

theorem segZeroLimit_pos (n : Nat) : 0 < segZeroLimit n := by
  unfold segZeroLimit IO_SIZE_BITS
  split <;> omega

/-- C `DecodeSEG` at a run of zero bits that reaches the limit: format error. -/
theorem DecodeSEG_overrun (opts : options_t) (fuel : Nat) (inb outb : bit_file_buffer_t)
    (rest : List Bool) (hin : inb.RdWF)
    (hb : inb.rdBits = List.replicate (segZeroLimit opts.value_size_bits) false ++ rest) :
    (DecodeSEG (fuel + 1) inb outb opts).1 = ERROR_INVALID_FORMAT ∧
    (DecodeSEG (fuel + 1) inb outb opts).2.2 = outb := by
  have hpos := segZeroLimit_pos opts.value_size_bits
  obtain ⟨z, hz⟩ : ∃ z, segZeroLimit opts.value_size_bits = z + 1 :=
    ⟨segZeroLimit opts.value_size_bits - 1, by omega⟩
  obtain ⟨e1, e2, e3, -, -⟩ := EndOfBitFileBuffer_spec inb hin
  have hne : inb.rdBits ≠ [] := by
    rw [hb, hz]
    intro h
    have := congrArg List.length h
    simp at this
  rw [if_neg hne] at e1
  have hp := DecodeUEGPrefixLoop_overrun z (segZeroLimit opts.value_size_bits + 1)
    (segZeroLimit opts.value_size_bits) (EndOfBitFileBuffer inb).2 0 rest e2
    (by rw [e3, hb, hz]) (by omega) (by omega)
  have hd : (DecodeSEGCodeword opts.value_size_bits (EndOfBitFileBuffer inb).2).1
      = ERROR_INVALID_FORMAT := by
    unfold DecodeSEGCodeword DecodeUEGCodeword
    unfold segZeroLimit at hp
    simp only [hp]
    rw [if_pos (Or.inl (by decide))]
  unfold DecodeSEG
  simp only [e1, ne_eq, not_true_eq_false, if_false, hd]
  rw [if_pos (by decide)]
  exact ⟨rfl, rfl⟩

/-- C `DecodeSEG` at an input that is at its end. -/
theorem DecodeSEG_end (opts : options_t) (fuel : Nat) (inb outb : bit_file_buffer_t)
    (hin : inb.RdWF) (hb : inb.rdBits = []) :
    (DecodeSEG (fuel + 1) inb outb opts).1 = NO_ERROR ∧
    (DecodeSEG (fuel + 1) inb outb opts).2.2 = outb := by
  obtain ⟨e1, -, -⟩ := read_end inb hin hb
  unfold DecodeSEG
  simp only [e1, ne_eq, not_false_eq_true, if_true, and_self]

/-- C `DecodeSEG` at a run of zero bits below the limit at which the input ends: a clean end
of the stream. -/
theorem DecodeSEG_eos (opts : options_t) (fuel : Nat) (inb outb : bit_file_buffer_t) (k : Nat)
    (hin : inb.RdWF) (hb : inb.rdBits = List.replicate k false)
    (hk : k < segZeroLimit opts.value_size_bits) :
    (DecodeSEG (fuel + 1) inb outb opts).1 = NO_ERROR ∧
    (DecodeSEG (fuel + 1) inb outb opts).2.2 = outb := by
  by_cases hk0 : k = 0
  · subst hk0
    exact DecodeSEG_end opts fuel inb outb hin hb
  obtain ⟨e1, e2, e3, -, -⟩ := EndOfBitFileBuffer_spec inb hin
  have hne : inb.rdBits ≠ [] := by
    rw [hb]
    intro h
    have := congrArg List.length h
    simp at this
    exact hk0 this
  rw [if_neg hne] at e1
  obtain ⟨p1, p2, p3, p4⟩ := DecodeUEGPrefixLoop_eos k (segZeroLimit opts.value_size_bits + 1)
    (segZeroLimit opts.value_size_bits) (EndOfBitFileBuffer inb).2 0 e2
    (by rw [e3, hb]) (by omega) (by omega)
  rw [Nat.zero_add] at p2
  obtain ⟨q1, -, -⟩ := read_end _ p3 p4
  have hd : (DecodeSEGCodeword opts.value_size_bits (EndOfBitFileBuffer inb).2).1 = NO_ERROR ∧
      (DecodeSEGCodeword opts.value_size_bits (EndOfBitFileBuffer inb).2).2.2.1 = 1 := by
    have hc : (EndOfBitFileBuffer (DecodeUEGPrefixLoop (segZeroLimit opts.value_size_bits + 1)
        (segZeroLimit opts.value_size_bits) (EndOfBitFileBuffer inb).2 0 0).2.2.2).1 ≠ 0 ∧ k ≠ 0 :=
      ⟨q1, hk0⟩
    have hu : DecodeUEGCodeword (segZeroLimit opts.value_size_bits) (EndOfBitFileBuffer inb).2
        = (NO_ERROR, 0, 1, (EndOfBitFileBuffer (DecodeUEGPrefixLoop
            (segZeroLimit opts.value_size_bits + 1) (segZeroLimit opts.value_size_bits)
            (EndOfBitFileBuffer inb).2 0 0).2.2.2).2) := by
      unfold DecodeUEGCodeword
      simp only [p1, p2]
      rw [if_pos hc]
    unfold segZeroLimit at hu
    unfold DecodeSEGCodeword
    simp only [hu]
    rw [if_pos (Or.inr (by decide))]
    exact ⟨rfl, rfl⟩
  unfold DecodeSEG
  simp only [e1, ne_eq, not_true_eq_false, if_false, hd.1, hd.2]
  rw [if_pos (by decide)]
  exact ⟨rfl, rfl⟩

/-- C18: at a width `n < 64`, after any run of accepted codewords, `DecodeSEG` returns
`ERROR_INVALID_FORMAT` when the next codeword starts with a run of `n + 1` zero bits, whatever
follows; and it accepts every stream of codewords whose runs of leading zero bits have length
at most `n` (the codeword of `u` being `Nat.log2 (u + 1)` zero bits, the delimiter bit 1 and as
many residual bits): it returns `NO_ERROR` and writes the signed value of each codeword at
width `n`. -/
theorem C18_seg_zero_run_limit (opts : options_t) (us : List Nat) (rest : List Bool)
    (inb outb : bit_file_buffer_t)
    (hn : opts.value_size_bits < 64)
    (hus : ∀ u ∈ us, Nat.log2 (u + 1) ≤ opts.value_size_bits)
    (hin : inb.RdWF) (hout : outb.WrWF)
    (hroom : outb.Room (opts.value_size_bits * us.length)) :
    (inb.rdBits = uegStream us ++ (List.replicate (opts.value_size_bits + 1) false ++ rest) →
      (DecodeSEG (us.length + 1) inb outb opts).1 = ERROR_INVALID_FORMAT) ∧
    (inb.rdBits = uegStream us →
      (DecodeSEG (us.length + 1) inb outb opts).1 = NO_ERROR ∧
      (DecodeSEG (us.length + 1) inb outb opts).2.2.wrBits = outb.wrBits ++
        valuesBits (us.map (fun u => (toU64 (segValue u), opts.value_size_bits)))) ∧
    (∀ u, uegBits u = List.replicate (Nat.log2 (u + 1)) false ++
      true :: toBits (Nat.log2 (u + 1)) (u + 1)) := by
  have hlim : segZeroLimit opts.value_size_bits = opts.value_size_bits + 1 := by
    unfold segZeroLimit IO_SIZE_BITS
    rw [if_neg (by omega)]
  have hus' : ∀ u ∈ us, Nat.log2 (u + 1) < segZeroLimit opts.value_size_bits := by
    intro u hu
    have := hus u hu
    omega
  refine ⟨fun hb => ?_, fun hb => ?_, uegBits_shape⟩
  · obtain ⟨inb', outb', i1, i2, -, -, -, i6⟩ := DecodeSEG_codewords opts (by omega)
      (List.replicate (opts.value_size_bits + 1) false ++ rest) 1 us inb outb hin hout hb
      hus' hroom
    rw [i6]
    exact (DecodeSEG_overrun opts 0 inb' outb' rest i1 (by rw [i2, hlim])).1
  · obtain ⟨inb', outb', i1, i2, -, i4, -, i6⟩ := DecodeSEG_codewords opts (by omega)
      [] 1 us inb outb hin hout (by rw [hb, List.append_nil]) hus' hroom
    rw [i6]
    obtain ⟨e1, e2⟩ := DecodeSEG_end opts 0 inb' outb' i1 i2
    exact ⟨e1, by rw [e2, i4]⟩

/-- C18 at width 4: the byte 0x9B holds the codewords of 0, 5, 0, 0, whose zero runs have the
lengths 0, 2, 0, 0, and is accepted; followed by the byte 0x04, which starts with a run of
five zero bits, it is rejected. -/
theorem C18_seg_zero_run_limit_witness :
    ((DecodeSEG 5 (exampleInput [0x9B] 1) (exampleOutput 1)
        { SetDefaultOptions with value_size_bits := 4 }).1 = NO_ERROR ∧
      (DecodeSEG 5 (exampleInput [0x9B] 1) (exampleOutput 1)
        { SetDefaultOptions with value_size_bits := 4 }).2.2.wrBits = (exampleOutput 1).wrBits ++
        valuesBits ([0, 5, 0, 0].map (fun u => (toU64 (segValue u), 4)))) ∧
    (DecodeSEG 5 (exampleInput [0x9B, 0x04] 1) (exampleOutput 1)
      { SetDefaultOptions with value_size_bits := 4 }).1 = ERROR_INVALID_FORMAT :=
  ⟨(C18_seg_zero_run_limit { SetDefaultOptions with value_size_bits := 4 } [0, 5, 0, 0] []
      (exampleInput [0x9B] 1) (exampleOutput 1) (by decide)
      (fun u hu => (log2_le_iff (u + 1) 4 (Nat.succ_ne_zero u)).mpr
        ((by decide : ∀ u ∈ [0, 5, 0, 0], u + 1 < 2 ^ (4 + 1)) u hu))
      (by decide) (by decide) (by decide)).2.1
      ((by decide : (exampleInput [0x9B] 1).rdBits
          = [true, false, false, true, true, false, true, true]).trans
        (by simp [uegStream, uegBits, Nat.log2, toBits]; decide)),
   (C18_seg_zero_run_limit { SetDefaultOptions with value_size_bits := 4 } [0, 5, 0, 0]
      [true, false, false]
      (exampleInput [0x9B, 0x04] 1) (exampleOutput 1) (by decide)
      (fun u hu => (log2_le_iff (u + 1) 4 (Nat.succ_ne_zero u)).mpr
        ((by decide : ∀ u ∈ [0, 5, 0, 0], u + 1 < 2 ^ (4 + 1)) u hu))
      (by decide) (by decide) (by decide)).1
      ((by decide : (exampleInput [0x9B, 0x04] 1).rdBits
          = [true, false, false, true, true, false, true, true,
             false, false, false, false, false, true, false, false]).trans
        (by simp [uegStream, uegBits, Nat.log2, toBits]; decide))⟩

/-- C19 (counterexample): at width 4 the encoder turns the byte 0x00 (the values 0, 0) into
the codewords `1`, `1`, which reach the file as the byte 0xC0, that is followed by 6 zero bits
of padding; `DecodeSEG` on that byte returns `ERROR_INVALID_FORMAT`, not `NO_ERROR`. -/
theorem C19_padding_rejected_at_width_4 :
    (EncodeSEG 3 (exampleInput [0x00] 1) (exampleOutput 1)
      { SetDefaultOptions with value_size_bits := 4 }).1 = NO_ERROR ∧
    (teardown (EncodeSEG 3 (exampleInput [0x00] 1) (exampleOutput 1)
      { SetDefaultOptions with value_size_bits := 4 }).2.2).output = [0xC0] ∧
    (exampleInput [0xC0] 1).rdBits = uegStream [0, 0] ++ List.replicate 6 false ∧
    (DecodeSEG 3 (exampleInput [0xC0] 1) (exampleOutput 1)
      { SetDefaultOptions with value_size_bits := 4 }).1 = ERROR_INVALID_FORMAT ∧
    ERROR_INVALID_FORMAT ≠ NO_ERROR := by
  refine ⟨by decide, by decide, ?_, by decide, by decide⟩
  exact (by decide : (exampleInput [0xC0] 1).rdBits
      = [true, true, false, false, false, false, false, false]).trans
    (by simp [uegStream, uegBits, Nat.log2, toBits])

/-- C19 (amended): for a width `n ≤ 64`, a stream `s` of codewords that are accepted at the
width `n` and a number `k` of zero bits after it: `DecodeSEG` on `s` returns `NO_ERROR`; if `k`
is below the limit of the zero run (`n + 1`, or 64 at `n = 64`), `DecodeSEG` on `s` followed by
`k` zero bits returns `NO_ERROR` and writes exactly what it writes for `s` alone; if `k`
reaches the limit, it returns `ERROR_INVALID_FORMAT` (having written the same values). -/
theorem C19_seg_padding_below_limit (opts : options_t) (us : List Nat) (k : Nat)
    (inb pinb outb : bit_file_buffer_t)
    (hn : opts.value_size_bits ≤ 64)
    (hus : ∀ u ∈ us, Nat.log2 (u + 1) < segZeroLimit opts.value_size_bits)
    (hin : inb.RdWF) (hb : inb.rdBits = uegStream us)
    (hpin : pinb.RdWF) (hpb : pinb.rdBits = uegStream us ++ List.replicate k false)
    (hout : outb.WrWF) (hroom : outb.Room (opts.value_size_bits * us.length)) :
    (DecodeSEG (us.length + 1) inb outb opts).1 = NO_ERROR ∧
    (DecodeSEG (us.length + 1) inb outb opts).2.2.wrBits = outb.wrBits ++
      valuesBits (us.map (fun u => (toU64 (segValue u), opts.value_size_bits))) ∧
    (DecodeSEG (us.length + 1) pinb outb opts).2.2.wrBits
      = (DecodeSEG (us.length + 1) inb outb opts).2.2.wrBits ∧
    (k < segZeroLimit opts.value_size_bits →
      (DecodeSEG (us.length + 1) pinb outb opts).1 = NO_ERROR) ∧
    (segZeroLimit opts.value_size_bits ≤ k →
      (DecodeSEG (us.length + 1) pinb outb opts).1 = ERROR_INVALID_FORMAT) := by
  obtain ⟨inb', outb', i1, i2, -, i4, -, i6⟩ := DecodeSEG_codewords opts hn
    [] 1 us inb outb hin hout (by rw [hb, List.append_nil]) hus hroom
  obtain ⟨pinb', poutb', j1, j2, -, j4, -, j6⟩ := DecodeSEG_codewords opts hn
    (List.replicate k false) 1 us pinb outb hpin hout hpb hus hroom
  obtain ⟨e1, e2⟩ := DecodeSEG_end opts 0 inb' outb' i1 i2
  rw [i6, j6, e1, e2, i4]
  by_cases hk : k < segZeroLimit opts.value_size_bits
  · obtain ⟨f1, f2⟩ := DecodeSEG_eos opts 0 pinb' poutb' k j1 j2 hk
    rw [f1, f2, j4]
    exact ⟨rfl, rfl, rfl, fun _ => rfl, fun h => absurd hk (by omega)⟩
  · have hsplit : List.replicate k false
        = List.replicate (segZeroLimit opts.value_size_bits) false
          ++ List.replicate (k - segZeroLimit opts.value_size_bits) false := by
      rw [← List.replicate_add]
      congr 1
      omega
    obtain ⟨f1, f2⟩ := DecodeSEG_overrun opts 0 pinb' poutb' _ j1 (by rw [j2]; exact hsplit)
    rw [f1, f2, j4]
    exact ⟨rfl, rfl, rfl, fun h => absurd h hk, fun _ => rfl⟩

/-- C19 (amended) at width 8: the encoder turns the byte 0x00 into the codeword `1`, which
reaches the file as the byte 0x80, that is followed by 7 zero bits of padding; the decoder
returns `NO_ERROR` on it and writes what it writes for the codeword alone. -/
theorem C19_seg_padding_below_limit_witness :
    (DecodeSEG 2 (exampleInput [0x80] 1) (exampleOutput 1)
      { SetDefaultOptions with value_size_bits := 8 }).1 = NO_ERROR ∧
    (DecodeSEG 2 (exampleInput [0x80] 1) (exampleOutput 1)
      { SetDefaultOptions with value_size_bits := 8 }).2.2.wrBits
      = (DecodeSEG 2 (handOver (EncodeSEG 2 (exampleInput [0x00] 1) (exampleTemp 1)
          { SetDefaultOptions with value_size_bits := 8 }).2.2) (exampleOutput 1)
          { SetDefaultOptions with value_size_bits := 8 }).2.2.wrBits :=
  ⟨(C19_seg_padding_below_limit { SetDefaultOptions with value_size_bits := 8 } [0] 7
      (handOver (EncodeSEG 2 (exampleInput [0x00] 1) (exampleTemp 1)
        { SetDefaultOptions with value_size_bits := 8 }).2.2)
      (exampleInput [0x80] 1) (exampleOutput 1) (by decide)
      (fun u hu => Nat.lt_succ_of_le ((log2_le_iff (u + 1) 8 (Nat.succ_ne_zero u)).mpr
        ((by decide : ∀ u ∈ [0], u + 1 < 2 ^ (8 + 1)) u hu)))
      (by decide)
      ((by decide : (handOver (EncodeSEG 2 (exampleInput [0x00] 1) (exampleTemp 1)
          { SetDefaultOptions with value_size_bits := 8 }).2.2).rdBits = [true]).trans
        (by simp [uegStream, uegBits, Nat.log2, toBits]))
      (by decide)
      ((by decide : (exampleInput [0x80] 1).rdBits
          = [true, false, false, false, false, false, false, false]).trans
        (by simp [uegStream, uegBits, Nat.log2, toBits]))
      (by decide) (by decide)).2.2.2.1 (by decide),
   (C19_seg_padding_below_limit { SetDefaultOptions with value_size_bits := 8 } [0] 7
      (handOver (EncodeSEG 2 (exampleInput [0x00] 1) (exampleTemp 1)
        { SetDefaultOptions with value_size_bits := 8 }).2.2)
      (exampleInput [0x80] 1) (exampleOutput 1) (by decide)
      (fun u hu => Nat.lt_succ_of_le ((log2_le_iff (u + 1) 8 (Nat.succ_ne_zero u)).mpr
        ((by decide : ∀ u ∈ [0], u + 1 < 2 ^ (8 + 1)) u hu)))
      (by decide)
      ((by decide : (handOver (EncodeSEG 2 (exampleInput [0x00] 1) (exampleTemp 1)
          { SetDefaultOptions with value_size_bits := 8 }).2.2).rdBits = [true]).trans
        (by simp [uegStream, uegBits, Nat.log2, toBits]))
      (by decide)
      ((by decide : (exampleInput [0x80] 1).rdBits
          = [true, false, false, false, false, false, false, false]).trans
        (by simp [uegStream, uegBits, Nat.log2, toBits]))
      (by decide) (by decide)).2.2.1⟩

theorem getD_padded (W : List Bool) (K k : Nat) :
    (W ++ List.replicate K false).getD k false = W.getD k false := by
  by_cases h : k < W.length
  · rw [List.getD_eq_getElem?_getD, List.getD_eq_getElem?_getD, List.getElem?_append_left h]
  · rw [getD_beyond W k (by omega), List.getD_eq_getElem?_getD,
      List.getElem?_append_right (by omega)]
    by_cases h2 : k - W.length < K
    · rw [List.getElem?_replicate_of_lt h2]; rfl
    · rw [List.getElem?_eq_none (by rw [List.length_replicate]; omega)]; rfl

theorem rdBits_head (l : List Bool) (h : l ≠ []) :
    ∃ x tail, x < 2 ^ 1 ∧ l = toBits 1 x ++ tail := by
  cases l with
  | nil => exact absurd rfl h
  | cons b tail =>
    refine ⟨if b then 1 else 0, tail, by split <;> decide, ?_⟩
    rw [toBits_one_bit]; rfl

/-- C `ReadBitSpecial` in any state of a well-formed input: it takes at most the first bit
from the input; it returns `ERROR_INVALID_FORMAT` exactly when the input is at its end and
no synthetic zero bit is left, and `NO_ERROR` otherwise. -/
theorem ReadBitSpecial_any (c : bac_coder_t) (inb : bit_file_buffer_t) (hin : inb.RdWF) :
    (ReadBitSpecial c inb).2.2.2.RdWF ∧
    (ReadBitSpecial c inb).2.2.2.rdBits = inb.rdBits.drop 1 ∧
    ((ReadBitSpecial c inb).1 = ERROR_INVALID_FORMAT ↔
      inb.rdBits = [] ∧ c.after_eof_bits = 0) ∧
    ((ReadBitSpecial c inb).1 = ERROR_INVALID_FORMAT ∨ (ReadBitSpecial c inb).1 = NO_ERROR) := by
  by_cases hb : inb.rdBits = []
  · obtain ⟨e1, e2, e3⟩ := read_end inb hin hb
    by_cases ha : c.after_eof_bits > 0
    · have hr : ReadBitSpecial c inb
          = (NO_ERROR, 0, { c with after_eof_bits := c.after_eof_bits - 1 },
             (EndOfBitFileBuffer inb).2) := by
        unfold ReadBitSpecial
        simp only [e1, ne_eq, not_false_eq_true, if_true, ha]
      rw [hr]
      refine ⟨e2, by rw [e3, hb]; rfl, ?_, Or.inr rfl⟩
      constructor
      · intro h
        have h' : NO_ERROR = ERROR_INVALID_FORMAT := h
        exact absurd h' (by decide)
      · rintro ⟨-, h⟩; omega
    · have hr : ReadBitSpecial c inb = (ERROR_INVALID_FORMAT, 0, c, (EndOfBitFileBuffer inb).2) := by
        unfold ReadBitSpecial
        simp only [e1, ne_eq, not_false_eq_true, if_true, ha, if_false]
      rw [hr]
      exact ⟨e2, by rw [e3, hb]; rfl, ⟨fun _ => ⟨hb, by omega⟩, fun _ => rfl⟩, Or.inl rfl⟩
  · obtain ⟨r1, -, -, r4, r5⟩ := ReadBitSpecial_spec c inb inb.rdBits 0 hin rfl
      (Or.inl (List.length_pos.mpr hb))
    refine ⟨r4, r5, ?_, Or.inr r1⟩
    constructor
    · intro h; rw [r1] at h; exact absurd h (by decide)
    · rintro ⟨h, -⟩; exact absurd h hb

theorem ReadBitSpecial_mono (c : bac_coder_t) (inb : bit_file_buffer_t) (hin : inb.RdWF) :
    (ReadBitSpecial c inb).2.2.2.RdWF ∧
    (ReadBitSpecial c inb).2.2.2.rdBits.length ≤ inb.rdBits.length := by
  obtain ⟨h1, h2, -, -⟩ := ReadBitSpecial_any c inb hin
  exact ⟨h1, by rw [h2, List.length_drop]; omega⟩

theorem StartDecodingLoop_mono : ∀ (n : Nat) (c : bac_coder_t) (inb : bit_file_buffer_t),
    inb.RdWF →
    (StartDecodingLoop n c inb).2.2.RdWF ∧
    (StartDecodingLoop n c inb).2.2.rdBits.length ≤ inb.rdBits.length := by
  intro n
  induction n with
  | zero => intro c inb hin; exact ⟨hin, le_refl _⟩
  | succ n ih =>
    intro c inb hin
    obtain ⟨r1, r2⟩ := ReadBitSpecial_mono c inb hin
    unfold StartDecodingLoop
    dsimp only
    split
    · exact ⟨r1, r2⟩
    · obtain ⟨i1, i2⟩ := ih (shiftInBit (ReadBitSpecial c inb).2.2.1 (ReadBitSpecial c inb).2.1)
        _ r1
      exact ⟨i1, le_trans i2 r2⟩

theorem DecodeRenormalize_mono : ∀ (fuel : Nat) (c : bac_coder_t) (inb : bit_file_buffer_t),
    inb.RdWF →
    (DecodeRenormalize fuel c inb).2.2.RdWF ∧
    (DecodeRenormalize fuel c inb).2.2.rdBits.length ≤ inb.rdBits.length := by
  intro fuel
  induction fuel with
  | zero => intro c inb hin; exact ⟨hin, le_refl _⟩
  | succ fuel ih =>
    intro c inb hin
    unfold DecodeRenormalize
    dsimp only
    split
    · exact ⟨hin, le_refl _⟩
    · rename_i c1 _
      obtain ⟨r1, r2⟩ := ReadBitSpecial_mono (doubleRange c1) inb hin
      split
      · exact ⟨r1, r2⟩
      · obtain ⟨i1, i2⟩ := ih (shiftInBit (ReadBitSpecial (doubleRange c1) inb).2.2.1
          (ReadBitSpecial (doubleRange c1) inb).2.1) _ r1
        exact ⟨i1, le_trans i2 r2⟩

theorem DecodeSymbol_mono (m : bac_model_t) (c : bac_coder_t) (inb : bit_file_buffer_t)
    (hin : inb.RdWF) :
    (DecodeSymbol m c inb).2.2.2.RdWF ∧
    (DecodeSymbol m c inb).2.2.2.rdBits.length ≤ inb.rdBits.length := by
  unfold DecodeSymbol
  exact DecodeRenormalize_mono _ _ inb hin

theorem DecodeBACLoop_mono (opts : options_t) : ∀ (fuel : Nat) (m : bac_model_t)
    (c : bac_coder_t) (inb outb : bit_file_buffer_t), inb.RdWF →
    (DecodeBACLoop fuel m c inb outb opts).2.1.RdWF ∧
    (DecodeBACLoop fuel m c inb outb opts).2.1.rdBits.length ≤ inb.rdBits.length := by
  intro fuel
  induction fuel with
  | zero => intro m c inb outb hin; exact ⟨hin, le_refl _⟩
  | succ fuel ih =>
    intro m c inb outb hin
    obtain ⟨d1, d2⟩ := DecodeSymbol_mono m c inb hin
    unfold DecodeBACLoop
    dsimp only
    split
    · exact ⟨d1, d2⟩
    · split
      · exact ⟨d1, d2⟩
      · split
        · exact ⟨d1, d2⟩
        · obtain ⟨i1, i2⟩ := ih
            (if opts.adaptive ≠ 0 then UpdateModel m (DecodeSymbol m c inb).2.1 else m)
            (DecodeSymbol m c inb).2.2.1 _
            (WriteSingleValueToBitFileBuffer outb
              (toU64 (m.index_to_symbol.getD (DecodeSymbol m c inb).2.1 0)) 1).2 d1
          exact ⟨i1, le_trans i2 d2⟩

/-- Two calls of `ReadBitSpecial`, one at position `k` of the stream `W` and one at the same
position of `W` followed by `K ≥ 15` zero bits, while fewer than 14 bits have been requested
after the end of `W`: both return `NO_ERROR` and the same bit. -/
theorem ReadBitSpecial_sim (W : List Bool) (K k : Nat) (c : bac_coder_t) (a : Nat)
    (inb pinb : bit_file_buffer_t) (hK : 15 ≤ K) (hin : inb.RdWF) (hpin : pinb.RdWF)
    (hb : inb.rdBits = W.drop k) (hpb : pinb.rdBits = (W ++ List.replicate K false).drop k)
    (hg : c.after_eof_bits + (k - W.length) = 14) (hk : k < W.length + 14) :
    (ReadBitSpecial c inb).1 = NO_ERROR ∧
    (ReadBitSpecial { c with after_eof_bits := a } pinb).1 = NO_ERROR ∧
    (ReadBitSpecial { c with after_eof_bits := a } pinb).2.1 = (ReadBitSpecial c inb).2.1 ∧
    (ReadBitSpecial { c with after_eof_bits := a } pinb).2.2.1
      = { (ReadBitSpecial c inb).2.2.1 with after_eof_bits := a } ∧
    (ReadBitSpecial c inb).2.2.2.RdWF ∧
    (ReadBitSpecial { c with after_eof_bits := a } pinb).2.2.2.RdWF ∧
    (ReadBitSpecial c inb).2.2.2.rdBits = W.drop (k + 1) ∧
    (ReadBitSpecial { c with after_eof_bits := a } pinb).2.2.2.rdBits
      = (W ++ List.replicate K false).drop (k + 1) ∧
    (ReadBitSpecial c inb).2.2.1.after_eof_bits + (k + 1 - W.length) = 14 := by
  have hlen : (W ++ List.replicate K false).length = W.length + K := by
    rw [List.length_append, List.length_replicate]
  obtain ⟨r1, r2, r3, r4, r5⟩ := ReadBitSpecial_spec c inb W k hin hb (by omega)
  obtain ⟨p1, p2, p3, p4, p5⟩ := ReadBitSpecial_spec { c with after_eof_bits := a } pinb
    (W ++ List.replicate K false) k hpin hpb (Or.inl (by omega))
  refine ⟨r1, p1, ?_, ?_, r4, p4, r5, p5, ?_⟩
  · rw [r2, p2, getD_padded]
  · rw [r3, p3, if_pos (by omega)]
  · rw [r3]
    dsimp only
    split <;> omega

/-- The call of `ReadBitSpecial` after 14 bits have been requested after the end of `W`
returns `ERROR_INVALID_FORMAT`; the same call on `W` followed by `K ≥ 15` zero bits leaves
at most `K - 15` of them. -/
theorem ReadBitSpecial_exhausted (W : List Bool) (K k : Nat) (c c' : bac_coder_t)
    (inb pinb : bit_file_buffer_t) (hK : 15 ≤ K) (hin : inb.RdWF) (hpin : pinb.RdWF)
    (hb : inb.rdBits = W.drop k) (hpb : pinb.rdBits = (W ++ List.replicate K false).drop k)
    (hg : c.after_eof_bits + (k - W.length) = 14) (hk : k = W.length + 14) :
    (ReadBitSpecial c inb).1 = ERROR_INVALID_FORMAT ∧
    (ReadBitSpecial c' pinb).2.2.2.RdWF ∧
    (ReadBitSpecial c' pinb).2.2.2.rdBits.length + 15 ≤ K := by
  obtain ⟨-, -, r3, -⟩ := ReadBitSpecial_any c inb hin
  obtain ⟨p1, p2, -, -⟩ := ReadBitSpecial_any c' pinb hpin
  refine ⟨r3.mpr ⟨by rw [hb]; exact List.drop_eq_nil_of_le (by omega), by omega⟩, p1, ?_⟩
  rw [p2, hpb, List.drop_drop, List.length_drop, List.length_append, List.length_replicate]
  omega

/-- The loop of `StartDecoding` on `W` and on `W` followed by `K ≥ 15` zero bits: either both
runs stay in step, or the run on `W` returns `ERROR_INVALID_FORMAT` and the other run has
used at least 15 of the zero bits. -/
theorem StartDecodingLoop_sim (W : List Bool) (K : Nat) (hK : 15 ≤ K) :
    ∀ (n k : Nat) (c : bac_coder_t) (a : Nat) (inb pinb : bit_file_buffer_t),
    inb.RdWF → pinb.RdWF → inb.rdBits = W.drop k →
    pinb.rdBits = (W ++ List.replicate K false).drop k →
    c.after_eof_bits + (k - W.length) = 14 → k ≤ W.length + 14 →
    ((StartDecodingLoop n c inb).1 = NO_ERROR ∧
      (StartDecodingLoop n { c with after_eof_bits := a } pinb).1 = NO_ERROR ∧
      (StartDecodingLoop n { c with after_eof_bits := a } pinb).2.1
        = { (StartDecodingLoop n c inb).2.1 with after_eof_bits := a } ∧
      (StartDecodingLoop n c inb).2.2.RdWF ∧
      (StartDecodingLoop n { c with after_eof_bits := a } pinb).2.2.RdWF ∧
      ∃ k', k' ≤ W.length + 14 ∧
        (StartDecodingLoop n c inb).2.2.rdBits = W.drop k' ∧
        (StartDecodingLoop n { c with after_eof_bits := a } pinb).2.2.rdBits
          = (W ++ List.replicate K false).drop k' ∧
        (StartDecodingLoop n c inb).2.1.after_eof_bits + (k' - W.length) = 14) ∨
    ((StartDecodingLoop n c inb).1 = ERROR_INVALID_FORMAT ∧
      (StartDecodingLoop n { c with after_eof_bits := a } pinb).2.2.rdBits.length + 15 ≤ K) := by
  intro n
  induction n with
  | zero =>
    intro k c a inb pinb hin hpin hb hpb hg hk
    left
    exact ⟨rfl, rfl, rfl, hin, hpin, k, hk, hb, hpb, hg⟩
  | succ n ih =>
    intro k c a inb pinb hin hpin hb hpb hg hk
    by_cases hk' : k < W.length + 14
    · obtain ⟨r1, p1, e1, e2, r4, p4, r5, p5, g⟩ := ReadBitSpecial_sim W K k c a inb pinb hK
        hin hpin hb hpb hg hk'
      have hne0 : ¬ (NO_ERROR ≠ NO_ERROR) := fun h => h rfl
      have hl : StartDecodingLoop (n + 1) c inb = StartDecodingLoop n
          (shiftInBit (ReadBitSpecial c inb).2.2.1 (ReadBitSpecial c inb).2.1)
          (ReadBitSpecial c inb).2.2.2 := by
        conv_lhs => unfold StartDecodingLoop
        simp only [r1, hne0, if_false]
      have hr : StartDecodingLoop (n + 1) { c with after_eof_bits := a } pinb
          = StartDecodingLoop n
          { shiftInBit (ReadBitSpecial c inb).2.2.1 (ReadBitSpecial c inb).2.1
            with after_eof_bits := a }
          (ReadBitSpecial { c with after_eof_bits := a } pinb).2.2.2 := by
        conv_lhs => unfold StartDecodingLoop
        simp only [p1, hne0, if_false, e1, e2]
        rfl
      rw [hl, hr]
      exact ih (k + 1) _ a _ _ r4 p4 r5 p5 g (by omega)
    · obtain ⟨r1, p1, p2⟩ := ReadBitSpecial_exhausted W K k c { c with after_eof_bits := a }
        inb pinb hK hin hpin hb hpb hg (by omega)
      right
      constructor
      · unfold StartDecodingLoop
        simp only [r1]
        rw [if_pos (by decide)]
      · obtain ⟨m1, m2⟩ := StartDecodingLoop_mono (n + 1) { c with after_eof_bits := a } pinb hpin
        unfold StartDecodingLoop
        dsimp only
        split
        · exact p2
        · obtain ⟨i1, i2⟩ := StartDecodingLoop_mono n
            (shiftInBit (ReadBitSpecial { c with after_eof_bits := a } pinb).2.2.1
              (ReadBitSpecial { c with after_eof_bits := a } pinb).2.1) _ p1
          omega

/-- One iteration of the renormalisation loop of `DecodeSymbol`, for a coder state and for
the same state with another count of synthetic zero bits: the same case is taken. -/
theorem DecodeRenormalize_unfold (fuel : Nat) (c : bac_coder_t) (a : Nat)
    (inb pinb : bit_file_buffer_t) :
    ∃ s : Option bac_coder_t,
      (∀ c1, s = some c1 → c1.after_eof_bits = c.after_eof_bits) ∧
      DecodeRenormalize (fuel + 1) c inb
        = (match s with
           | none => (NO_ERROR, c, inb)
           | some c1 =>
             if (ReadBitSpecial (doubleRange c1) inb).1 ≠ NO_ERROR then
               ((ReadBitSpecial (doubleRange c1) inb).1,
                (ReadBitSpecial (doubleRange c1) inb).2.2.1,
                (ReadBitSpecial (doubleRange c1) inb).2.2.2)
             else DecodeRenormalize fuel
               (shiftInBit (ReadBitSpecial (doubleRange c1) inb).2.2.1
                 (ReadBitSpecial (doubleRange c1) inb).2.1)
               (ReadBitSpecial (doubleRange c1) inb).2.2.2) ∧
      DecodeRenormalize (fuel + 1) { c with after_eof_bits := a } pinb
        = (match s with
           | none => (NO_ERROR, { c with after_eof_bits := a }, pinb)
           | some c1 =>
             if (ReadBitSpecial { doubleRange c1 with after_eof_bits := a } pinb).1 ≠ NO_ERROR then
               ((ReadBitSpecial { doubleRange c1 with after_eof_bits := a } pinb).1,
                (ReadBitSpecial { doubleRange c1 with after_eof_bits := a } pinb).2.2.1,
                (ReadBitSpecial { doubleRange c1 with after_eof_bits := a } pinb).2.2.2)
             else DecodeRenormalize fuel
               (shiftInBit (ReadBitSpecial { doubleRange c1 with after_eof_bits := a } pinb).2.2.1
                 (ReadBitSpecial { doubleRange c1 with after_eof_bits := a } pinb).2.1)
               (ReadBitSpecial { doubleRange c1 with after_eof_bits := a } pinb).2.2.2) := by
  by_cases h1 : c.end_range < HALF_RANGE_BORDER
  · refine ⟨some c, fun c1 h => by cases h; rfl, ?_, ?_⟩
    · conv_lhs => unfold DecodeRenormalize
      simp only [h1, if_true]
    · conv_lhs => unfold DecodeRenormalize
      simp only [h1, if_true]
      rfl
  · by_cases h2 : c.start_range ≥ HALF_RANGE_BORDER
    · refine ⟨some { c with
          current_value := toRange ((c.current_value : Int) - HALF_RANGE_BORDER)
          start_range := toRange ((c.start_range : Int) - HALF_RANGE_BORDER)
          end_range := toRange ((c.end_range : Int) - HALF_RANGE_BORDER) },
        fun c1 h => by cases h; rfl, ?_, ?_⟩
      · conv_lhs => unfold DecodeRenormalize
        simp only [h1, if_false, h2, if_true]
      · conv_lhs => unfold DecodeRenormalize
        simp only [h1, if_false, h2, if_true]
        rfl
    · by_cases h3 : c.start_range ≥ QUARTER_RANGE_BORDER ∧
          c.end_range < THREE_QUARTERS_RANGE_BORDER
      · refine ⟨some { c with
            current_value := toRange ((c.current_value : Int) - QUARTER_RANGE_BORDER)
            start_range := toRange ((c.start_range : Int) - QUARTER_RANGE_BORDER)
            end_range := toRange ((c.end_range : Int) - QUARTER_RANGE_BORDER) },
          fun c1 h => by cases h; rfl, ?_, ?_⟩
        · conv_lhs => unfold DecodeRenormalize
          simp only [h1, if_false, h2, h3, and_self, if_true]
        · conv_lhs => unfold DecodeRenormalize
          simp only [h1, if_false, h2, h3, and_self, if_true]
          rfl
      · refine ⟨none, (fun c1 h => by cases h), ?_, ?_⟩
        · conv_lhs => unfold DecodeRenormalize
          simp only [h1, if_false, h2, h3]
        · conv_lhs => unfold DecodeRenormalize
          simp only [h1, if_false, h2, h3]

/-- The renormalisation loop of `DecodeSymbol` on `W` and on `W` followed by `K ≥ 15` zero
bits: either both runs stay in step, or the run on `W` returns `ERROR_INVALID_FORMAT` and the
other run has used at least 15 of the zero bits. -/
theorem DecodeRenormalize_sim (W : List Bool) (K : Nat) (hK : 15 ≤ K) :
    ∀ (fuel k : Nat) (c : bac_coder_t) (a : Nat) (inb pinb : bit_file_buffer_t),
    inb.RdWF → pinb.RdWF → inb.rdBits = W.drop k →
    pinb.rdBits = (W ++ List.replicate K false).drop k →
    c.after_eof_bits + (k - W.length) = 14 → k ≤ W.length + 14 →
    ((DecodeRenormalize fuel c inb).1
        = (DecodeRenormalize fuel { c with after_eof_bits := a } pinb).1 ∧
      (DecodeRenormalize fuel c inb).1 ≠ ERROR_INVALID_FORMAT ∧
      (DecodeRenormalize fuel { c with after_eof_bits := a } pinb).2.1
        = { (DecodeRenormalize fuel c inb).2.1 with after_eof_bits := a } ∧
      (DecodeRenormalize fuel c inb).2.2.RdWF ∧
      (DecodeRenormalize fuel { c with after_eof_bits := a } pinb).2.2.RdWF ∧
      ∃ k', k' ≤ W.length + 14 ∧
        (DecodeRenormalize fuel c inb).2.2.rdBits = W.drop k' ∧
        (DecodeRenormalize fuel { c with after_eof_bits := a } pinb).2.2.rdBits
          = (W ++ List.replicate K false).drop k' ∧
        (DecodeRenormalize fuel c inb).2.1.after_eof_bits + (k' - W.length) = 14) ∨
    ((DecodeRenormalize fuel c inb).1 = ERROR_INVALID_FORMAT ∧
      (DecodeRenormalize fuel { c with after_eof_bits := a } pinb).2.2.rdBits.length + 15 ≤ K) := by
  intro fuel
  induction fuel with
  | zero =>
    intro k c a inb pinb hin hpin hb hpb hg hk
    left
    exact ⟨rfl, (show OUT_OF_FUEL ≠ ERROR_INVALID_FORMAT by decide), rfl, hin, hpin, k, hk, hb,
      hpb, hg⟩
  | succ fuel ih =>
    intro k c a inb pinb hin hpin hb hpb hg hk
    obtain ⟨s, hs, hl, hr⟩ := DecodeRenormalize_unfold fuel c a inb pinb
    rw [hl, hr]
    cases s with
    | none =>
      left
      exact ⟨rfl, (show NO_ERROR ≠ ERROR_INVALID_FORMAT by decide), rfl, hin, hpin, k, hk, hb,
        hpb, hg⟩
    | some c1 =>
      have ha : (doubleRange c1).after_eof_bits = c.after_eof_bits := hs c1 rfl
      dsimp only
      by_cases hk' : k < W.length + 14
      · obtain ⟨r1, p1, e1, e2, r4, p4, r5, p5, g⟩ := ReadBitSpecial_sim W K k (doubleRange c1)
          a inb pinb hK hin hpin hb hpb (by rw [ha]; exact hg) hk'
        have hne0 : ¬ (NO_ERROR ≠ NO_ERROR) := fun h => h rfl
        rw [r1, p1, if_neg hne0, if_neg hne0, e1, e2]
        exact ih (k + 1) _ a _ _ r4 p4 r5 p5 g (by omega)
      · obtain ⟨r1, p1, p2⟩ := ReadBitSpecial_exhausted W K k (doubleRange c1)
          { doubleRange c1 with after_eof_bits := a }
          inb pinb hK hin hpin hb hpb (by rw [ha]; exact hg) (by omega)
        right
        constructor
        · rw [r1, if_pos (by decide)]
        · split
          · exact p2
          · obtain ⟨i1, i2⟩ := DecodeRenormalize_mono fuel
              (shiftInBit (ReadBitSpecial { doubleRange c1 with after_eof_bits := a } pinb).2.2.1
                (ReadBitSpecial { doubleRange c1 with after_eof_bits := a } pinb).2.1) _ p1
            exact Nat.le_trans (Nat.add_le_add_right i2 15) p2

/-- C `DecodeSymbol` on `W` and on `W` followed by `K ≥ 15` zero bits. -/
theorem DecodeSymbol_sim (W : List Bool) (K : Nat) (hK : 15 ≤ K) (m : bac_model_t)
    (k : Nat) (c : bac_coder_t) (a : Nat) (inb pinb : bit_file_buffer_t)
    (hin : inb.RdWF) (hpin : pinb.RdWF) (hb : inb.rdBits = W.drop k)
    (hpb : pinb.rdBits = (W ++ List.replicate K false).drop k)
    (hg : c.after_eof_bits + (k - W.length) = 14) (hk : k ≤ W.length + 14) :
    (DecodeSymbol m { c with after_eof_bits := a } pinb).2.1 = (DecodeSymbol m c inb).2.1 ∧
    (((DecodeSymbol m c inb).1 = (DecodeSymbol m { c with after_eof_bits := a } pinb).1 ∧
      (DecodeSymbol m c inb).1 ≠ ERROR_INVALID_FORMAT ∧
      (DecodeSymbol m { c with after_eof_bits := a } pinb).2.2.1
        = { (DecodeSymbol m c inb).2.2.1 with after_eof_bits := a } ∧
      (DecodeSymbol m c inb).2.2.2.RdWF ∧
      (DecodeSymbol m { c with after_eof_bits := a } pinb).2.2.2.RdWF ∧
      ∃ k', k' ≤ W.length + 14 ∧
        (DecodeSymbol m c inb).2.2.2.rdBits = W.drop k' ∧
        (DecodeSymbol m { c with after_eof_bits := a } pinb).2.2.2.rdBits
          = (W ++ List.replicate K false).drop k' ∧
        (DecodeSymbol m c inb).2.2.1.after_eof_bits + (k' - W.length) = 14) ∨
    ((DecodeSymbol m c inb).1 = ERROR_INVALID_FORMAT ∧
      (DecodeSymbol m { c with after_eof_bits := a } pinb).2.2.2.rdBits.length + 15 ≤ K)) := by
  refine ⟨rfl, ?_⟩
  exact DecodeRenormalize_sim W K hK (RANGE_BITS + 1) k
    (narrowRange m c (DecodeSymbol m c inb).2.1) a inb pinb hin hpin hb hpb hg hk

theorem DecodeBACLoop_rest (opts : options_t) (fuel : Nat) (m : bac_model_t)
    (c : bac_coder_t) (inb outb : bit_file_buffer_t) (hin : inb.RdWF) :
    (DecodeBACLoop (fuel + 1) m c inb outb opts).2.1.rdBits.length
      ≤ (DecodeSymbol m c inb).2.2.2.rdBits.length := by
  obtain ⟨d1, d2⟩ := DecodeSymbol_mono m c inb hin
  unfold DecodeBACLoop
  dsimp only
  split
  · exact le_refl _
  · split
    · exact le_refl _
    · split
      · exact le_refl _
      · exact (DecodeBACLoop_mono opts fuel _ _ _ _ d1).2

/-- The loop of `DecodeBAC` on `W` and on `W` followed by `K ≥ 15` zero bits, with the same
model and the same output buffer: either both runs return the same value, which is not
`ERROR_INVALID_FORMAT`, and the same output buffer, having requested the same number of bits,
at most 14 of them after the end of `W`; or the run on `W` returns `ERROR_INVALID_FORMAT` and
the other run has used at least 15 of the zero bits. -/
theorem DecodeBACLoop_sim (W : List Bool) (K : Nat) (hK : 15 ≤ K) (opts : options_t) :
    ∀ (fuel k : Nat) (m : bac_model_t) (c : bac_coder_t) (a : Nat)
      (inb pinb outb : bit_file_buffer_t),
    inb.RdWF → pinb.RdWF → inb.rdBits = W.drop k →
    pinb.rdBits = (W ++ List.replicate K false).drop k →
    c.after_eof_bits + (k - W.length) = 14 → k ≤ W.length + 14 →
    outb.WrWF → outb.Room fuel →
    ((DecodeBACLoop fuel m c inb outb opts).1
        = (DecodeBACLoop fuel m { c with after_eof_bits := a } pinb outb opts).1 ∧
      (DecodeBACLoop fuel m c inb outb opts).1 ≠ ERROR_INVALID_FORMAT ∧
      (DecodeBACLoop fuel m c inb outb opts).2.2
        = (DecodeBACLoop fuel m { c with after_eof_bits := a } pinb outb opts).2.2 ∧
      ∃ k', k' ≤ W.length + 14 ∧
        (DecodeBACLoop fuel m c inb outb opts).2.1.rdBits = W.drop k' ∧
        (DecodeBACLoop fuel m { c with after_eof_bits := a } pinb outb opts).2.1.rdBits
          = (W ++ List.replicate K false).drop k') ∨
    ((DecodeBACLoop fuel m c inb outb opts).1 = ERROR_INVALID_FORMAT ∧
      (DecodeBACLoop fuel m { c with after_eof_bits := a } pinb outb opts).2.1.rdBits.length + 15
        ≤ K) := by
  intro fuel
  induction fuel with
  | zero =>
    intro k m c a inb pinb outb hin hpin hb hpb hg hk hout hroom
    left
    exact ⟨rfl, (show OUT_OF_FUEL ≠ ERROR_INVALID_FORMAT by decide), rfl, k, hk, hb, hpb⟩
  | succ fuel ih =>
    intro k m c a inb pinb outb hin hpin hb hpb hg hk hout hroom
    obtain ⟨hidx, hd⟩ := DecodeSymbol_sim W K hK m k c a inb pinb hin hpin hb hpb hg hk
    rcases hd with ⟨d1, d2, d3, d4, d5, k', hk', d6, d7, d8⟩ | ⟨d1, d2⟩
    · by_cases e0 : (DecodeSymbol m c inb).1 ≠ NO_ERROR
      · have e0' : (DecodeSymbol m { c with after_eof_bits := a } pinb).1 ≠ NO_ERROR := by
          rw [← d1]; exact e0
        have hl : DecodeBACLoop (fuel + 1) m c inb outb opts
            = ((DecodeSymbol m c inb).1, (DecodeSymbol m c inb).2.2.2, outb) := by
          conv_lhs => unfold DecodeBACLoop
          dsimp only
          rw [if_pos e0]
        have hr : DecodeBACLoop (fuel + 1) m { c with after_eof_bits := a } pinb outb opts
            = ((DecodeSymbol m { c with after_eof_bits := a } pinb).1,
               (DecodeSymbol m { c with after_eof_bits := a } pinb).2.2.2, outb) := by
          conv_lhs => unfold DecodeBACLoop
          dsimp only
          rw [if_pos e0']
        rw [hl, hr]
        left
        exact ⟨d1, d2, rfl, k', hk', d6, d7⟩
      · have e0' : ¬ ((DecodeSymbol m { c with after_eof_bits := a } pinb).1 ≠ NO_ERROR) := by
          rw [← d1]; exact e0
        by_cases e1 : (DecodeSymbol m c inb).2.1 = EOF_SYMBOL_INDEX
        · have e1' : (DecodeSymbol m { c with after_eof_bits := a } pinb).2.1
              = EOF_SYMBOL_INDEX := by rw [hidx]; exact e1
          have hl : DecodeBACLoop (fuel + 1) m c inb outb opts
              = (NO_ERROR, (DecodeSymbol m c inb).2.2.2, outb) := by
            conv_lhs => unfold DecodeBACLoop
            dsimp only
            rw [if_neg e0, if_pos e1]
          have hr : DecodeBACLoop (fuel + 1) m { c with after_eof_bits := a } pinb outb opts
              = (NO_ERROR, (DecodeSymbol m { c with after_eof_bits := a } pinb).2.2.2, outb) := by
            conv_lhs => unfold DecodeBACLoop
            dsimp only
            rw [if_neg e0', if_pos e1']
          rw [hl, hr]
          left
          exact ⟨rfl, (show NO_ERROR ≠ ERROR_INVALID_FORMAT by decide), rfl, k', hk', d6, d7⟩
        · have e1' : ¬ ((DecodeSymbol m { c with after_eof_bits := a } pinb).2.1
              = EOF_SYMBOL_INDEX) := by rw [hidx]; exact e1
          obtain ⟨w1, w2, w3, w4, -, -, -⟩ := WriteSingleValueToBitFileBuffer_spec outb
            (toU64 (m.index_to_symbol.getD (DecodeSymbol m c inb).2.1 0)) 1 hout (by decide)
            (Room_mono outb _ _ (by omega) hroom)
          have hroom' : (WriteSingleValueToBitFileBuffer outb
              (toU64 (m.index_to_symbol.getD (DecodeSymbol m c inb).2.1 0)) 1).2.Room fuel := by
            apply Room_of_wrBits outb _ _ _ w4 w3
            rw [toBits_length, Nat.add_comm]; exact hroom
          have hlog : LOG_ON_ERROR_AND_RETURN ((1 : Nat) : Int) 1 = none :=
            LOG_ON_ERROR_AND_RETURN_ok 1 (by decide)
          have hl : DecodeBACLoop (fuel + 1) m c inb outb opts
              = DecodeBACLoop fuel
                (if opts.adaptive ≠ 0 then UpdateModel m (DecodeSymbol m c inb).2.1 else m)
                (DecodeSymbol m c inb).2.2.1 (DecodeSymbol m c inb).2.2.2
                (WriteSingleValueToBitFileBuffer outb
                  (toU64 (m.index_to_symbol.getD (DecodeSymbol m c inb).2.1 0)) 1).2 opts := by
            conv_lhs => unfold DecodeBACLoop
            dsimp only
            rw [if_neg e0, if_neg e1]
            simp only [w1, hlog]
          have hr : DecodeBACLoop (fuel + 1) m { c with after_eof_bits := a } pinb outb opts
              = DecodeBACLoop fuel
                (if opts.adaptive ≠ 0 then UpdateModel m (DecodeSymbol m c inb).2.1 else m)
                { (DecodeSymbol m c inb).2.2.1 with after_eof_bits := a }
                (DecodeSymbol m { c with after_eof_bits := a } pinb).2.2.2
                (WriteSingleValueToBitFileBuffer outb
                  (toU64 (m.index_to_symbol.getD (DecodeSymbol m c inb).2.1 0)) 1).2 opts := by
            conv_lhs => unfold DecodeBACLoop
            dsimp only
            rw [if_neg e0', if_neg e1']
            simp only [hidx, w1, hlog, d3]
          rw [hl, hr]
          exact ih k' _ _ a _ _ _ d4 d5 d6 d7 d8 hk' w2 hroom'
    · right
      constructor
      · unfold DecodeBACLoop
        simp only [d1]
        rw [if_pos (by decide)]
      · exact Nat.le_trans (Nat.add_le_add_right
          (DecodeBACLoop_rest opts fuel m { c with after_eof_bits := a } pinb outb hpin) 15) d2

/-- The loop of `StartDecoding` on an input that has fewer bits left than the loop requests,
the synthetic zero bits counted in: it returns `ERROR_INVALID_FORMAT`. -/
theorem StartDecodingLoop_short : ∀ (n : Nat) (c : bac_coder_t) (inb : bit_file_buffer_t),
    inb.RdWF → inb.rdBits.length + c.after_eof_bits < n →
    (StartDecodingLoop n c inb).1 = ERROR_INVALID_FORMAT := by
  intro n
  induction n with
  | zero => intro c inb _ h; omega
  | succ n ih =>
    intro c inb hin h
    obtain ⟨r1, r2, r3, r4⟩ := ReadBitSpecial_any c inb hin
    by_cases hf : (ReadBitSpecial c inb).1 = ERROR_INVALID_FORMAT
    · unfold StartDecodingLoop
      simp only [hf]
      rw [if_pos (by decide)]
    · have hok : (ReadBitSpecial c inb).1 = NO_ERROR := by
        rcases r4 with h4 | h4
        · exact absurd h4 hf
        · exact h4
      have hne0 : ¬ (NO_ERROR ≠ NO_ERROR) := fun h => h rfl
      have ha : (ReadBitSpecial c inb).2.2.1.after_eof_bits
          = if inb.rdBits = [] then c.after_eof_bits - 1 else c.after_eof_bits := by
        by_cases hb : inb.rdBits = []
        · obtain ⟨e1, -, -⟩ := read_end inb hin hb
          have hpos : c.after_eof_bits > 0 := by
            by_contra hc
            exact hf (r3.mpr ⟨hb, by omega⟩)
          rw [if_pos hb]
          unfold ReadBitSpecial
          simp only [e1, ne_eq, not_false_eq_true, if_true, hpos]
        · obtain ⟨-, -, q3, -, -⟩ := ReadBitSpecial_spec c inb inb.rdBits 0 hin rfl
            (Or.inl (List.length_pos.mpr hb))
          rw [if_neg hb, q3, if_pos (List.length_pos.mpr hb)]
      unfold StartDecodingLoop
      simp only [hok, hne0, if_false]
      apply ih _ _ r1
      rw [r2, List.length_drop]
      show _ + (ReadBitSpecial c inb).2.2.1.after_eof_bits < n
      rw [ha]
      by_cases hb : inb.rdBits = []
      · have hpos : c.after_eof_bits > 0 := by
          by_contra hc
          exact hf (r3.mpr ⟨hb, by omega⟩)
        rw [if_pos hb]
        rw [hb] at h ⊢
        simp only [List.length_nil] at h ⊢
        omega
      · rw [if_neg hb]
        have := List.length_pos.mpr hb
        omega

/-- C `DecodeBAC` on `W` and on `W` followed by `K ≥ 15` zero bits, with the same model and
the same output buffer: either both runs return the same value, which is not
`ERROR_INVALID_FORMAT`, and the same output buffer, having requested the same number of bits,
at most 14 of them after the end of `W`; or the run on `W` returns `ERROR_INVALID_FORMAT` and
the other run has used at least 15 of the zero bits. -/
theorem DecodeBAC_sim (W : List Bool) (K : Nat) (hK : 15 ≤ K) (opts : options_t) (fuel : Nat)
    (model : bac_model_t) (coder : bac_coder_t) (inb pinb outb : bit_file_buffer_t)
    (hin : inb.RdWF) (hpin : pinb.RdWF) (hb : inb.rdBits = W)
    (hpb : pinb.rdBits = W ++ List.replicate K false)
    (hout : outb.WrWF) (hroom : outb.Room fuel) :
    ((DecodeBAC fuel model coder inb outb opts).1
        = (DecodeBAC fuel model coder pinb outb opts).1 ∧
      (DecodeBAC fuel model coder inb outb opts).1 ≠ ERROR_INVALID_FORMAT ∧
      (DecodeBAC fuel model coder inb outb opts).2.2
        = (DecodeBAC fuel model coder pinb outb opts).2.2 ∧
      ∃ k', k' ≤ W.length + 14 ∧
        (DecodeBAC fuel model coder inb outb opts).2.1.rdBits = W.drop k' ∧
        (DecodeBAC fuel model coder pinb outb opts).2.1.rdBits
          = (W ++ List.replicate K false).drop k') ∨
    ((DecodeBAC fuel model coder inb outb opts).1 = ERROR_INVALID_FORMAT ∧
      (DecodeBAC fuel model coder pinb outb opts).2.1.rdBits.length + 15 ≤ K) := by
  obtain ⟨c0, hc0⟩ : ∃ c0 : bac_coder_t,
      c0 = { coder with current_value := 0, after_eof_bits := RANGE_BITS - 2 } := ⟨_, rfl⟩
  have hc0' : { c0 with after_eof_bits := RANGE_BITS - 2 } = c0 := by rw [hc0]
  have hsim := StartDecodingLoop_sim W K hK RANGE_BITS 0 c0 (RANGE_BITS - 2) inb pinb hin hpin
    (by rw [hb]; rfl) (by rw [hpb]; rfl)
    (by rw [hc0, Nat.zero_sub]; rfl) (by omega)
  rw [hc0'] at hsim
  obtain ⟨pm1, pm2⟩ := StartDecodingLoop_mono RANGE_BITS c0 pinb hpin
  have hne0 : ¬ (NO_ERROR ≠ NO_ERROR) := fun h => h rfl
  have hR : DecodeBAC fuel model coder inb outb opts
      = (if (StartDecodingLoop RANGE_BITS c0 inb).1 ≠ NO_ERROR then
          ((StartDecodingLoop RANGE_BITS c0 inb).1, (StartDecodingLoop RANGE_BITS c0 inb).2.2,
            outb)
        else DecodeBACLoop fuel (InitModel model)
          { (StartDecodingLoop RANGE_BITS c0 inb).2.1 with
            start_range := 0, end_range := MAX_RANGE }
          (StartDecodingLoop RANGE_BITS c0 inb).2.2 outb opts) := by
    unfold DecodeBAC StartDecoding
    rw [← hc0]
    dsimp only
    by_cases h : (StartDecodingLoop RANGE_BITS c0 inb).1 ≠ NO_ERROR
    · simp only [if_pos h]
    · simp only [if_neg h, if_neg hne0]
  have hP : DecodeBAC fuel model coder pinb outb opts
      = (if (StartDecodingLoop RANGE_BITS c0 pinb).1 ≠ NO_ERROR then
          ((StartDecodingLoop RANGE_BITS c0 pinb).1, (StartDecodingLoop RANGE_BITS c0 pinb).2.2,
            outb)
        else DecodeBACLoop fuel (InitModel model)
          { (StartDecodingLoop RANGE_BITS c0 pinb).2.1 with
            start_range := 0, end_range := MAX_RANGE }
          (StartDecodingLoop RANGE_BITS c0 pinb).2.2 outb opts) := by
    unfold DecodeBAC StartDecoding
    rw [← hc0]
    dsimp only
    by_cases h : (StartDecodingLoop RANGE_BITS c0 pinb).1 ≠ NO_ERROR
    · simp only [if_pos h]
    · simp only [if_neg h, if_neg hne0]
  rw [hR, hP]
  rcases hsim with ⟨s1, s2, s3, s4, s5, k', hk', s6, s7, s8⟩ | ⟨s1, s2⟩
  · rw [s1, s2, if_neg hne0, if_neg hne0, s3]
    exact DecodeBACLoop_sim W K hK opts fuel k' (InitModel model)
      { (StartDecodingLoop RANGE_BITS c0 inb).2.1 with start_range := 0, end_range := MAX_RANGE }
      (RANGE_BITS - 2) _ _ outb s4 s5 s6 s7 s8 hk' hout hroom
  · right
    constructor
    · rw [s1, if_pos (by decide)]
    · split
      · exact s2
      · exact Nat.le_trans (Nat.add_le_add_right
          (DecodeBACLoop_mono opts fuel _ _ _ outb pm1).2 15) s2

/-- C `DecodeBAC` on a stream of fewer than two bits returns `ERROR_INVALID_FORMAT`. -/
theorem DecodeBAC_short (opts : options_t) (fuel : Nat) (model : bac_model_t)
    (coder : bac_coder_t) (inb outb : bit_file_buffer_t) (hin : inb.RdWF)
    (hlen : inb.rdBits.length < 2) :
    (DecodeBAC fuel model coder inb outb opts).1 = ERROR_INVALID_FORMAT := by
  have hs := StartDecodingLoop_short RANGE_BITS
    { coder with current_value := 0, after_eof_bits := RANGE_BITS - 2 } inb hin
    (by show inb.rdBits.length + (RANGE_BITS - 2) < RANGE_BITS
        have : RANGE_BITS = 16 := rfl
        omega)
  have hne : ERROR_INVALID_FORMAT ≠ NO_ERROR := by decide
  unfold DecodeBAC StartDecoding
  simp only [hs, hne, ne_eq, not_false_eq_true, if_true]

/-- C20: `DecodeBAC` on a stream `W` is compared with `DecodeBAC` on `W` followed by `K ≥ 15`
zero bits, from the same model, coder state and output buffer; the second run shows how many
bits the decoder requests. `DecodeBAC` on `W` returns `ERROR_INVALID_FORMAT` exactly when the
decoder requests more than `|W| + 14` bits, that is when the second run leaves fewer than
`K - 14` of the zero bits unread. If it requests at most 14 bits after the end of `W`, these
are supplied as zeros: the run on `W` returns the same value and the same output buffer as the
run on the stream with the zero bits. A stream of fewer than two bits, the empty stream
included, gives `ERROR_INVALID_FORMAT`. For a single call, `ReadBitSpecial` returns
`ERROR_INVALID_FORMAT` exactly when the input is at its end and the count of synthetic zero
bits that are left is 0; at the end of the input with a positive count it returns `NO_ERROR`
and the bit 0 and decrements the count. -/
theorem C20_bac_synthetic_zero_budget (opts : options_t) (fuel : Nat) (model : bac_model_t)
    (coder : bac_coder_t) (W : List Bool) (K : Nat) (inb pinb outb : bit_file_buffer_t)
    (hK : 15 ≤ K) (hin : inb.RdWF) (hb : inb.rdBits = W)
    (hpin : pinb.RdWF) (hpb : pinb.rdBits = W ++ List.replicate K false)
    (hout : outb.WrWF) (hroom : outb.Room fuel) :
    ((DecodeBAC fuel model coder inb outb opts).1 = ERROR_INVALID_FORMAT ↔
      (DecodeBAC fuel model coder pinb outb opts).2.1.rdBits.length + 14 < K) ∧
    (K ≤ (DecodeBAC fuel model coder pinb outb opts).2.1.rdBits.length + 14 →
      (DecodeBAC fuel model coder inb outb opts).1
        = (DecodeBAC fuel model coder pinb outb opts).1 ∧
      (DecodeBAC fuel model coder inb outb opts).2.2
        = (DecodeBAC fuel model coder pinb outb opts).2.2) ∧
    (W.length < 2 → (DecodeBAC fuel model coder inb outb opts).1 = ERROR_INVALID_FORMAT) ∧
    (∀ (c : bac_coder_t) (b : bit_file_buffer_t), b.RdWF →
      (((ReadBitSpecial c b).1 = ERROR_INVALID_FORMAT ↔
          b.rdBits = [] ∧ c.after_eof_bits = 0) ∧
        (b.rdBits = [] → 0 < c.after_eof_bits →
          (ReadBitSpecial c b).1 = NO_ERROR ∧ (ReadBitSpecial c b).2.1 = 0 ∧
          (ReadBitSpecial c b).2.2.1
            = { c with after_eof_bits := c.after_eof_bits - 1 }))) := by
  have hlen : ∀ k', k' ≤ W.length + 14 →
      K ≤ ((W ++ List.replicate K false).drop k').length + 14 := by
    intro k' hk'
    rw [List.length_drop, List.length_append, List.length_replicate]
    omega
  have hsim := DecodeBAC_sim W K hK opts fuel model coder inb pinb outb hin hpin hb hpb hout
    hroom
  refine ⟨?_, ?_, ?_, ?_⟩
  · rcases hsim with ⟨s1, s2, s3, k', hk', s4, s5⟩ | ⟨s1, s2⟩
    · have := hlen k' hk'
      rw [← s5] at this
      constructor
      · intro h; exact absurd h s2
      · intro h; omega
    · exact ⟨fun _ => by omega, fun _ => s1⟩
  · intro h
    rcases hsim with ⟨s1, s2, s3, k', hk', s4, s5⟩ | ⟨s1, s2⟩
    · exact ⟨s1, s3⟩
    · omega
  · intro h
    exact DecodeBAC_short opts fuel model coder inb outb hin (by rw [hb]; exact h)
  · intro c b hbw
    obtain ⟨-, -, r3, -⟩ := ReadBitSpecial_any c b hbw
    refine ⟨r3, fun he hpos => ?_⟩
    obtain ⟨q1, q2, q3, -, -⟩ := ReadBitSpecial_spec c b [] 0 hbw (by rw [he]; rfl)
      (Or.inr hpos)
    exact ⟨q1, q2, q3⟩

/-- C20 on two streams, with the default options and the `static` variables at program
start. The bytes 0xA0, 0xC1 are the code of the byte 0xA5: the decoder requests exactly 14
bits after the end and returns what it returns on the stream followed by 16 zero bits. The
byte 0xA0 alone is a truncated stream: the decoder requests more than 14 bits after the end
and returns `ERROR_INVALID_FORMAT`. -/
theorem C20_bac_synthetic_zero_budget_witness :
    ((DecodeBAC 9 zeroModel zeroCoder (exampleInput [0xA0, 0xC1] 1) (exampleOutput 1)
        SetDefaultOptions).1
      = (DecodeBAC 9 zeroModel zeroCoder (exampleInput [0xA0, 0xC1, 0, 0] 1) (exampleOutput 1)
        SetDefaultOptions).1 ∧
     (DecodeBAC 9 zeroModel zeroCoder (exampleInput [0xA0, 0xC1] 1) (exampleOutput 1)
        SetDefaultOptions).2.2
      = (DecodeBAC 9 zeroModel zeroCoder (exampleInput [0xA0, 0xC1, 0, 0] 1) (exampleOutput 1)
        SetDefaultOptions).2.2) ∧
    (DecodeBAC 9 zeroModel zeroCoder (exampleInput [0xA0] 1) (exampleOutput 1)
      SetDefaultOptions).1 = ERROR_INVALID_FORMAT :=
  ⟨(C20_bac_synthetic_zero_budget SetDefaultOptions 9 zeroModel zeroCoder
      [true, false, true, false, false, false, false, false,
       true, true, false, false, false, false, false, true] 16
      (exampleInput [0xA0, 0xC1] 1) (exampleInput [0xA0, 0xC1, 0, 0] 1) (exampleOutput 1)
      (by decide) (by decide) (by decide) (by decide) (by decide) (by decide)
      (by decide)).2.1 (by decide),
   (C20_bac_synthetic_zero_budget SetDefaultOptions 9 zeroModel zeroCoder
      [true, false, true, false, false, false, false, false] 16
      (exampleInput [0xA0] 1) (exampleInput [0xA0, 0, 0] 1) (exampleOutput 1)
      (by decide) (by decide) (by decide) (by decide) (by decide) (by decide)
      (by decide)).1.mpr (by decide)⟩

/-- C24 (evaluation of the code at the failing input): a bit buffer in reading mode over the
file bytes 0xA5, 0x5A, from which `ReadBitFileBuffer` can read. `SetBitFileBufferMode` with
`FBM_WRITING` returns `ERROR_INVALID_MODE` and leaves both shift registers unchanged, but
`GetFileBufferMode` of the underlying file buffer is `FBM_WRITING` afterwards, and a following
`ReadBitFileBuffer` returns `ERROR_INVALID_MODE`. -/
theorem C24_rejected_flip_changes_the_mode :
    GetFileBufferMode (exampleInput [0xA5, 0x5A] 2).file_buffer = FBM_READING ∧
    (ReadBitFileBuffer (exampleInput [0xA5, 0x5A] 2) 8).1 = (8, [0xA5]) ∧
    (SetBitFileBufferMode (exampleInput [0xA5, 0x5A] 2) FBM_WRITING).1 = ERROR_INVALID_MODE ∧
    (SetBitFileBufferMode (exampleInput [0xA5, 0x5A] 2) FBM_WRITING).2.byte_buffer
      = (exampleInput [0xA5, 0x5A] 2).byte_buffer ∧
    (SetBitFileBufferMode (exampleInput [0xA5, 0x5A] 2) FBM_WRITING).2.used_bits
      = (exampleInput [0xA5, 0x5A] 2).used_bits ∧
    (SetBitFileBufferMode (exampleInput [0xA5, 0x5A] 2) FBM_WRITING).2.extra_byte_buffer
      = (exampleInput [0xA5, 0x5A] 2).extra_byte_buffer ∧
    (SetBitFileBufferMode (exampleInput [0xA5, 0x5A] 2) FBM_WRITING).2.extra_used_bits
      = (exampleInput [0xA5, 0x5A] 2).extra_used_bits ∧
    GetFileBufferMode (SetBitFileBufferMode (exampleInput [0xA5, 0x5A] 2)
      FBM_WRITING).2.file_buffer = FBM_WRITING ∧
    (ReadBitFileBuffer (SetBitFileBufferMode (exampleInput [0xA5, 0x5A] 2) FBM_WRITING).2 8).1
      = (ERROR_INVALID_MODE, []) := by
  refine ⟨?_, ?_, ?_, ?_, ?_, ?_, ?_, ?_, ?_⟩ <;> decide

/-- C26 (evaluation of the code at two failing inputs). First: a buffer over the file byte
0xA5 from which 5 bits were read has the 3 unread bits 1, 0, 1; a request of 5 bits returns 3
but stores no output byte. Second: after 11 bits (the byte 0xA5 and the bits 1, 0, 1) were
written to a memory-only buffer, the buffer flipped to reading and 4 bits read, the 7 unread
bits 0, 1, 0, 1, 1, 0, 1 are split between the primary register and the carryover; a request
of 8 bits returns 7 and stores the byte 0xAA, whose first 7 bits are 1, 0, 1, 0, 1, 0, 1, and
not the byte 0x5A. -/
theorem C26_short_read_output :
    (ReadBitFileBuffer (exampleInput [0xA5] 1) 5).2.rdBits = [true, false, true] ∧
    (ReadBitFileBuffer (ReadBitFileBuffer (exampleInput [0xA5] 1) 5).2 5).1 = (3, []) ∧
    (ReadBitFileBuffer (SetBitFileBufferMode
      (WriteBitFileBuffer (exampleTemp 4) [0xA5, 0xA0] 11).2 FBM_READING).2 4).2.rdBits
      = [false, true, false, true, true, false, true] ∧
    (ReadBitFileBuffer (ReadBitFileBuffer (SetBitFileBufferMode
      (WriteBitFileBuffer (exampleTemp 4) [0xA5, 0xA0] 11).2 FBM_READING).2 4).2 8).1
      = (7, [0xAA]) ∧
    toBits 8 0xAA = [true, false, true, false, true, false, true, false] ∧
    toBits 8 0x5A = [false, true, false, true, true, false, true, false] := by
  refine ⟨?_, ?_, ?_, ?_, ?_, ?_⟩ <;> decide

/-- C27 (evaluation of the code at failing inputs): `bacon` and `segment` are not stage names,
yet `GetEncoder` returns the entries of `bac` and `seg` for them; `columns` and `adaptive2` are
not option names, yet `OptionNameExists` is true for them. A name that is cut short is not
found. -/
theorem C27_lookup_accepts_longer_names :
    cstr "bacon" ∉ GetEncoderNames ∧
    GetEncoder (cstr "bacon") = some { encoder := some .EncodeBAC, decoder := some .DecodeBAC } ∧
    cstr "segment" ∉ GetEncoderNames ∧
    GetEncoder (cstr "segment") = some { encoder := some .EncodeSEG, decoder := some .DecodeSEG } ∧
    cstr "columns" ∉ GetOptionNames ∧ OptionNameExists (cstr "columns") = 1 ∧
    cstr "adaptive2" ∉ GetOptionNames ∧ OptionNameExists (cstr "adaptive2") = 1 ∧
    GetEncoder (cstr "ba") = none ∧ OptionNameExists (cstr "colum") = 0 := by
  refine ⟨?_, ?_, ?_, ?_, ?_, ?_, ?_, ?_, ?_, ?_⟩ <;> decide

/-- C28: the names of the stage table and of the option table are strictly ascending in
bytewise order (as lists of characters, and as `strncmp` over the whole strings sees them);
for every entry of either table the lookup by the name of the entry returns that entry;
`GetEncoder` for `aggregate` has a null decoder and for `copy` has the same function as
encoder and as decoder. -/
theorem C28_tables_sorted_and_lookup_finds :
    List.Pairwise (fun a b : List Nat => a < b) GetEncoderNames ∧
    List.Pairwise (fun a b : List Nat => a < b) GetOptionNames ∧
    List.Pairwise (fun a b : List Nat => strncmp a b (strlen a + 1) < 0) GetEncoderNames ∧
    List.Pairwise (fun a b : List Nat => strncmp a b (strlen a + 1) < 0) GetOptionNames ∧
    (∀ e ∈ encoders_decoders,
      FindEncoder e.name = some e ∧ GetEncoder e.name = some e.encoder_decoder) ∧
    (∀ o ∈ option_descriptions,
      FindOptionDescription o.name = some o ∧ OptionNameExists o.name = 1) ∧
    GetEncoder (cstr "aggregate") = some { encoder := some .Aggregate, decoder := none } ∧
    GetEncoder (cstr "copy") = some { encoder := some .Copy, decoder := some .Copy } ∧
    GetEncoderNames = [cstr "aggregate", cstr "bac", cstr "copy", cstr "csv", cstr "diff",
      cstr "lzmh", cstr "normalize", cstr "seg"] ∧
    GetOptionNames = [cstr "adaptive", cstr "blocksize", cstr "column",
      cstr "normalization_factor", cstr "num_decimal_places", cstr "num_values",
      cstr "separator_char", cstr "valuesize"] := by
  refine ⟨?_, ?_, ?_, ?_, ?_, ?_, ?_, ?_, ?_, ?_⟩ <;> decide

theorem cstr_aggregate : cstr "aggregate" = [97, 103, 103, 114, 101, 103, 97, 116, 101] := by
  decide
theorem cstr_bac : cstr "bac" = [98, 97, 99] := by decide
theorem cstr_copy : cstr "copy" = [99, 111, 112, 121] := by decide
theorem cstr_csv : cstr "csv" = [99, 115, 118] := by decide
theorem cstr_diff : cstr "diff" = [100, 105, 102, 102] := by decide
theorem cstr_lzmh : cstr "lzmh" = [108, 122, 109, 104] := by decide
theorem cstr_normalize : cstr "normalize" = [110, 111, 114, 109, 97, 108, 105, 122, 101] := by
  decide
theorem cstr_seg : cstr "seg" = [115, 101, 103] := by decide
theorem cstr_adaptive : cstr "adaptive" = [97, 100, 97, 112, 116, 105, 118, 101] := by decide
theorem cstr_blocksize : cstr "blocksize" = [98, 108, 111, 99, 107, 115, 105, 122, 101] := by
  decide
theorem cstr_column : cstr "column" = [99, 111, 108, 117, 109, 110] := by decide
theorem cstr_normalization_factor : cstr "normalization_factor"
    = [110, 111, 114, 109, 97, 108, 105, 122, 97, 116, 105, 111, 110, 95, 102, 97, 99, 116,
       111, 114] := by decide
theorem cstr_num_decimal_places : cstr "num_decimal_places"
    = [110, 117, 109, 95, 100, 101, 99, 105, 109, 97, 108, 95, 112, 108, 97, 99, 101, 115] := by
  decide
theorem cstr_num_values : cstr "num_values"
    = [110, 117, 109, 95, 118, 97, 108, 117, 101, 115] := by decide
theorem cstr_separator_char : cstr "separator_char"
    = [115, 101, 112, 97, 114, 97, 116, 111, 114, 95, 99, 104, 97, 114] := by decide
theorem cstr_valuesize : cstr "valuesize" = [118, 97, 108, 117, 101, 115, 105, 122, 101] := by
  decide

/-- What `bsearch` returns is an element of the array for which the comparison function
returns 0. -/
theorem bsearchLoop_some {α : Type} (compar : List Nat → α → Int) (key : List Nat)
    (base : List α) : ∀ (fuel l u : Nat) (p : α),
    bsearchLoop compar key base fuel l u = some p → p ∈ base ∧ compar key p = 0 := by
  intro fuel
  induction fuel with
  | zero => intro l u p h; simp [bsearchLoop] at h
  | succ fuel ih =>
    intro l u p h
    unfold bsearchLoop at h
    split at h
    · dsimp only at h
      split at h
      · exact absurd h (by simp)
      · rename_i q hq
        split at h
        · exact ih _ _ p h
        · split at h
          · exact ih _ _ p h
          · have hp : q = p := Option.some.inj h
            subst hp
            refine ⟨List.get?_mem hq, ?_⟩
            omega
    · exact absurd h (by simp)

theorem strlen_eq_length : ∀ (t : List Nat), (∀ c ∈ t, c ≠ 0) → strlen t = t.length := by
  intro t
  induction t with
  | nil => intro _; rfl
  | cons c t ih =>
    intro h
    have hc : c ≠ 0 := h c (List.mem_cons_self _ _)
    simp only [strlen, hc, if_false, List.length_cons]
    rw [ih (fun x hx => h x (List.mem_cons_of_mem _ hx))]

/-- C `strncmp` over the length of its second argument returns 0 exactly when the second
argument is a prefix of the first. -/
theorem strncmp_eq_zero_iff : ∀ (t s : List Nat), (∀ c ∈ t, c ≠ 0) →
    (strncmp s t t.length = 0 ↔ t <+: s) := by
  intro t
  induction t with
  | nil => intro s _; simp [strncmp]
  | cons c t ih =>
    intro s h
    have hc : c ≠ 0 := h c (List.mem_cons_self _ _)
    have ih' := fun s' => ih s' (fun x hx => h x (List.mem_cons_of_mem _ hx))
    cases s with
    | nil =>
      simp only [List.length_cons, strncmp, List.headD_nil, List.headD_cons]
      rw [if_pos (fun e => hc e.symm)]
      constructor
      · intro e; omega
      · intro e; simp at e
    | cons a s =>
      simp only [List.length_cons, strncmp, List.headD_cons, List.tail_cons]
      by_cases hac : a = c
      · subst hac
        rw [if_neg (fun e => e rfl), if_neg hc, ih' s]
        constructor
        · intro e; exact (List.prefix_cons_inj a).mpr e
        · intro e; exact (List.prefix_cons_inj a).mp e
      · rw [if_pos hac]
        constructor
        · intro e; omega
        · intro e
          have := List.cons_prefix_cons.mp e
          exact absurd this.1.symm hac

theorem encoder_names_nonzero : ∀ e ∈ encoders_decoders, ∀ c ∈ e.name, c ≠ 0 := by decide

theorem option_names_nonzero : ∀ o ∈ option_descriptions, ∀ c ∈ o.name, c ≠ 0 := by decide

/-- The lookup of a string that starts with the name of a stage finds that stage. -/
theorem FindEncoder_of_prefix : ∀ e ∈ encoders_decoders, ∀ rest : List Nat,
    FindEncoder (e.name ++ rest) = some e := by
  intro e he rest
  simp only [encoders_decoders, List.mem_cons, List.mem_singleton, List.not_mem_nil,
    or_false] at he
  rcases he with h | h | h | h | h | h | h | h <;> subst h <;>
    simp [FindEncoder, bsearch, bsearchLoop, encoders_decoders, num_encoders,
      CompareEncoderNames, strncmp, strlen, cstr_aggregate, cstr_bac, cstr_copy, cstr_csv,
      cstr_diff, cstr_lzmh, cstr_normalize, cstr_seg]

/-- The lookup of a string that starts with the name of an option finds that option. -/
theorem FindOptionDescription_of_prefix : ∀ o ∈ option_descriptions, ∀ rest : List Nat,
    FindOptionDescription (o.name ++ rest) = some o := by
  intro o ho rest
  simp only [option_descriptions, List.mem_cons, List.mem_singleton, List.not_mem_nil,
    or_false] at ho
  rcases ho with h | h | h | h | h | h | h | h <;> subst h <;>
    simp [FindOptionDescription, bsearch, bsearchLoop, option_descriptions, num_options,
      CompareOptionNames, strncmp, strlen, cstr_adaptive, cstr_blocksize, cstr_column,
      cstr_normalization_factor, cstr_num_decimal_places, cstr_num_values,
      cstr_separator_char, cstr_valuesize]

/-- C `GetEncoder` returns a stage exactly for the strings that start with the name of a
stage, and then the stage with that name. -/
theorem GetEncoder_eq_some_iff (name : List Nat) (d : enc_dec_t) :
    GetEncoder name = some d ↔
      ∃ e ∈ encoders_decoders, e.name <+: name ∧ e.encoder_decoder = d := by
  constructor
  · intro h
    unfold GetEncoder at h
    split at h
    · exact absurd h (by simp)
    · rename_i e he
      obtain ⟨h1, h2⟩ := bsearchLoop_some _ _ _ _ _ _ _ he
      have hz := encoder_names_nonzero e h1
      unfold CompareEncoderNames at h2
      rw [strlen_eq_length _ hz] at h2
      exact ⟨e, h1, (strncmp_eq_zero_iff e.name name hz).mp h2, Option.some.inj h⟩
  · rintro ⟨e, he, ⟨rest, hr⟩, hd⟩
    unfold GetEncoder
    rw [← hr, FindEncoder_of_prefix e he rest]
    dsimp only
    rw [hd]

/-- C `OptionNameExists` is true exactly for the strings that start with the name of an
option. -/
theorem OptionNameExists_iff (name : List Nat) :
    OptionNameExists name = 1 ↔ ∃ o ∈ option_descriptions, o.name <+: name := by
  constructor
  · intro h
    unfold OptionNameExists at h
    split at h
    · rename_i hne
      cases hf : FindOptionDescription name with
      | none => exact absurd hf hne
      | some o =>
        obtain ⟨h1, h2⟩ := bsearchLoop_some _ _ _ _ _ _ _ hf
        have hz := option_names_nonzero o h1
        unfold CompareOptionNames at h2
        rw [strlen_eq_length _ hz] at h2
        exact ⟨o, h1, (strncmp_eq_zero_iff o.name name hz).mp h2⟩
    · exact absurd h (by decide)
  · rintro ⟨o, ho, ⟨rest, hr⟩⟩
    unfold OptionNameExists
    rw [← hr, FindOptionDescription_of_prefix o ho rest]
    simp

/-- The code of the empty bit sequence from the initial model and the full range: the bit of
the end-of-message symbol and the two bits of `FinishEncoding`. -/
theorem bacStream_empty (adaptive : Int) (m : bac_model_t) (h : m.Shaped) :
    bacStream adaptive (InitModel m) 0 MAX_RANGE [] = [false, false, true] := by
  have e1 : narrowPure [3, 2, 1, 0] 0 MAX_RANGE EOF_SYMBOL_INDEX = (0, 21844) := by decide
  have e2 : renormTrace (RANGE_BITS + 1) 0 21844 = ([bac_shift_t.lower], 0, 43689) := by decide
  rw [InitModel_eq m h]
  simp only [bacStream, e1, e2]
  rfl

/-- The loop of `DecodeBAC` on the code of the empty bit sequence leaves the output buffer
as it is. -/
theorem DecodeBACLoop_empty (opts : options_t) (fuel : Nat) (m : bac_model_t) (c : bac_coder_t)
    (inb out : bit_file_buffer_t) (hm : m.WF) (hr : RangeOK c.start_range c.end_range)
    (hv : c.current_value = window 16 (bacStream opts.adaptive m c.start_range c.end_range []))
    (hg : c.after_eof_bits
      = min 16 (bacStream opts.adaptive m c.start_range c.end_range []).length - 2)
    (hin : inb.RdWF)
    (hb : inb.rdBits = (bacStream opts.adaptive m c.start_range c.end_range []).drop 16)
    (hf : 0 < fuel) :
    (DecodeBACLoop fuel m c inb out opts).1 = NO_ERROR ∧
    (DecodeBACLoop fuel m c inb out opts).2.2 = out := by
  obtain ⟨f, rfl⟩ : ∃ f, fuel = f + 1 := ⟨fuel - 1, by omega⟩
  obtain ⟨n1, n2, n3⟩ := narrow_facts m hm _ _ EOF_SYMBOL_INDEX hr (by decide) (by decide)
  obtain ⟨r1, r2, r3⟩ := RangeOK_width _ _ hr
  obtain ⟨t1, t2⟩ := renormTrace_spec (RANGE_BITS + 1) _ _ n2 (by omega) (narrow_fuel _ _ n2)
  obtain ⟨q1, q2, -, -⟩ := finishBits_window _ _ t1
  obtain ⟨-, y2, y3⟩ := bacStream_spec opts.adaptive [] m _ _ hm hr
  have hfi : firstIndex m [] = EOF_SYMBOL_INDEX := rfl
  rw [hfi, ← hv] at y2 y3
  simp only [bacStream] at hv hg hb
  obtain ⟨d1, d2, -, -, -⟩ := DecodeSymbol_spec m hm c EOF_SYMBOL_INDEX _ inb hr (by decide)
    (by decide) (by rw [q2]) hv hg y2 y3 hin hb
  unfold DecodeBACLoop
  have hne0 : ¬ (NO_ERROR ≠ NO_ERROR) := fun h => h rfl
  simp only [d1, hne0, if_false, d2, if_true]
  exact ⟨trivial, trivial⟩

/-- The frequencies after the part of `UpdateModel` that follows the halving: the frequency
at the position that `findPosition` returns is incremented. -/
theorem UpdateModelPosition_frequencies (m1 : bac_model_t) (index : Nat) :
    (UpdateModelPosition m1 index).symbol_frequencies
      = m1.symbol_frequencies.set
          (findPosition (TOTAL_NUMBER_OF_SYMBOLS + 2) m1.symbol_frequencies index)
          ((m1.symbol_frequencies.getD
            (findPosition (TOTAL_NUMBER_OF_SYMBOLS + 2) m1.symbol_frequencies index) 0 + 1)
            % 2 ^ 16) := by
  unfold UpdateModelPosition
  dsimp only
  split <;> rfl

theorem UpdateModelPosition_sorted (s2i : List Nat) (i2s : List Int) (f1 f2 f3 : Nat)
    (cu : List Nat) (index : Nat)
    (h1 : 1 ≤ f1) (hs : f1 + f2 + f3 < MAX_FREQUENCY) (h21 : f2 ≤ f1) (h32 : f3 ≤ f2)
    (hidx : index = 1 ∨ index = 2) :
    (UpdateModelPosition ⟨s2i, i2s, [0, f1, f2, f3], cu⟩ index).Sorted := by
  have hM : MAX_FREQUENCY = 16383 := by decide
  rw [hM] at hs
  unfold bac_model_t.Sorted
  rw [UpdateModelPosition_frequencies]
  dsimp only
  rcases hidx with hx | hx
  · subst hx
    rw [findPosition_one f1 f2 f3 h1]
    simp only [List.getD_cons_succ, List.getD_cons_zero, List.set_cons_succ, List.set_cons_zero]
    omega
  · subst hx
    by_cases heq : f2 = f1
    · subst heq
      rw [findPosition_two_eq f2 f3 h1]
      simp only [List.getD_cons_succ, List.getD_cons_zero, List.set_cons_succ,
        List.set_cons_zero]
      omega
    · rw [findPosition_two_ne f1 f2 f3 heq]
      simp only [List.getD_cons_succ, List.getD_cons_zero, List.set_cons_succ,
        List.set_cons_zero]
      omega

/-- C `UpdateModel` for the index of a source symbol keeps the model well formed and its
frequencies non-increasing in the index. -/
theorem UpdateModel_sorted (m : bac_model_t) (h : m.WF) (hsorted : m.Sorted) (index : Nat)
    (hidx : index = 1 ∨ index = 2) : (UpdateModel m index).WF ∧ (UpdateModel m index).Sorted := by
  refine ⟨UpdateModel_WF m h index hidx, ?_⟩
  obtain ⟨f1, f2, f3, u, v, h1, h2, h3, hs, hf, hc, hsym⟩ := h
  obtain ⟨s2i, i2s, fr, cu⟩ := m
  simp only at hf hc hsym
  subst hf hc
  have hM : MAX_FREQUENCY = 16383 := by decide
  obtain ⟨g1, g2⟩ := hsorted
  simp only [List.getD_cons_succ, List.getD_cons_zero] at g1 g2
  by_cases hmax : f1 + f2 + f3 = MAX_FREQUENCY
  · have hh := halveFrequencies_eq s2i i2s f1 f2 f3 [f1 + f2 + f3, f2 + f3, f3, 0] rfl
      (by rw [hM] at hs; omega)
    unfold UpdateModel
    rw [if_pos (by simpa using hmax), hh]
    exact UpdateModelPosition_sorted s2i i2s ((f1 + 1) / 2) ((f2 + 1) / 2) ((f3 + 1) / 2) _
      index (by omega) (by rw [hM] at hs ⊢; omega) (by omega) (by omega) hidx
  · unfold UpdateModel
    rw [if_neg (by simpa using hmax)]
    exact UpdateModelPosition_sorted s2i i2s f1 f2 f3 _ index h1 (by omega) g1 g2 hidx

theorem updates_sorted : ∀ (ks : List Nat) (m : bac_model_t), m.WF → m.Sorted →
    (∀ k ∈ ks, k = 1 ∨ k = 2) →
    (ks.foldl UpdateModel m).WF ∧ (ks.foldl UpdateModel m).Sorted := by
  intro ks
  induction ks with
  | nil => intro m h1 h2 _; exact ⟨h1, h2⟩
  | cons k rest ih =>
    intro m h1 h2 hk
    obtain ⟨u1, u2⟩ := UpdateModel_sorted m h1 h2 k (hk k (List.mem_cons_self _ _))
    exact ih (UpdateModel m k) u1 u2 (fun x hx => hk x (List.mem_cons_of_mem _ hx))

theorem WF_total (m : bac_model_t) (h : m.WF) :
    m.cumulative_symbol_frequencies.getD 0 0 ≤ MAX_FREQUENCY ∧
    m.cumulative_symbol_frequencies.getD 0 0
      = m.symbol_frequencies.getD 1 0 + m.symbol_frequencies.getD 2 0
        + m.symbol_frequencies.getD 3 0 ∧
    1 ≤ m.symbol_frequencies.getD 3 0 := by
  obtain ⟨f1, f2, f3, u, v, h1, h2, h3, hs, hf, hc, -⟩ := h
  rw [hf, hc]
  exact ⟨hs, rfl, h3⟩

/-- C21: on the empty input, for either value of the `adaptive` option and arbitrary contents
of the `static` variables at entry, `EncodeBAC` returns `NO_ERROR` and writes the three bits
0, 0, 1: the bit 0 that coding the end-of-message symbol emits and the two bits 0, 1 of
`FinishEncoding`. `DecodeBAC` on these three bits returns `NO_ERROR` and leaves the output
buffer as it is. -/
theorem C21_bac_empty_input (opts : options_t) (emodel dmodel : bac_model_t)
    (ecoder dcoder : bac_coder_t) (inb mid dinb outb : bit_file_buffer_t) (fuel : Nat)
    (hem : emodel.Shaped) (hdm : dmodel.Shaped)
    (hin : inb.RdWF) (hb : inb.rdBits = [])
    (hmid : mid.WrWF) (hmroom : mid.Room 3)
    (hdin : dinb.RdWF) (hdb : dinb.rdBits = [false, false, true])
    (hfuel : 0 < fuel) :
    (EncodeBAC fuel emodel ecoder inb mid opts).1 = NO_ERROR ∧
    (EncodeBAC fuel emodel ecoder inb mid opts).2.2.wrBits
      = mid.wrBits ++ [false, false, true] ∧
    (EncodeSymbol EOF_SYMBOL_INDEX (InitModel emodel) (StartEncoding ecoder) mid).2.2.wrBits
      = mid.wrBits ++ [false] ∧
    (DecodeBAC fuel dmodel dcoder dinb outb opts).1 = NO_ERROR ∧
    (DecodeBAC fuel dmodel dcoder dinb outb opts).2.2 = outb := by
  obtain ⟨we, -, hcum⟩ := InitModel_WF emodel hem
  obtain ⟨wd, -, -⟩ := InitModel_WF dmodel hdm
  have hse := bacStream_empty opts.adaptive emodel hem
  have hsd := bacStream_empty opts.adaptive dmodel hdm
  have hr : RangeOK 0 MAX_RANGE := by
    unfold RangeOK
    decide
  obtain ⟨e1, -, e3, -⟩ := EncodeBACLoop_spec opts [] fuel (InitModel emodel)
    (StartEncoding ecoder) inb mid we hr hin hb hmid
    (by simp only [StartEncoding]; rw [hse]; exact hmroom) hfuel
    (by simp only [StartEncoding]; decide)
  have e3' : (EncodeBAC fuel emodel ecoder inb mid opts).2.2.wrBits
      = mid.wrBits ++ [false, false, true] := by
    unfold EncodeBAC
    rw [e3]
    simp only [StartEncoding, insertAfterFirst_zero, hse]
  obtain ⟨s1, s2, s3, s4⟩ := StartDecoding_spec dcoder dinb
    (bacStream opts.adaptive (InitModel dmodel) 0 MAX_RANGE []) (by rw [hsd]; decide) hdin
    (by rw [hsd, hdb])
  obtain ⟨d1, d2⟩ := DecodeBACLoop_empty opts fuel (InitModel dmodel)
    (StartDecoding dcoder dinb).2.1 (StartDecoding dcoder dinb).2.2 outb wd
    (by rw [s2]; exact hr) (by rw [s2]) (by rw [s2]) s3 (by rw [s4, s2]) hfuel
  have hne0 : ¬ (NO_ERROR ≠ NO_ERROR) := fun h => h rfl
  refine ⟨e1, e3', ?_, ?_, ?_⟩
  · have e1 : narrowPure [3, 2, 1, 0] 0 MAX_RANGE EOF_SYMBOL_INDEX = (0, 21844) := by decide
    have e2 : renormTrace (RANGE_BITS + 1) 0 21844 = ([bac_shift_t.lower], 0, 43689) := by
      decide
    have hk : (emitShifts (renormTrace (RANGE_BITS + 1)
        (narrowPure (InitModel emodel).cumulative_symbol_frequencies
          (StartEncoding ecoder).start_range (StartEncoding ecoder).end_range
          EOF_SYMBOL_INDEX).1
        (narrowPure (InitModel emodel).cumulative_symbol_frequencies
          (StartEncoding ecoder).start_range (StartEncoding ecoder).end_range
          EOF_SYMBOL_INDEX).2).1 (StartEncoding ecoder).next_bits).1 = [false] := by
      rw [hcum]
      simp only [StartEncoding, e1, e2]
      rfl
    obtain ⟨-, -, -, y4, -⟩ := EncodeSymbol_spec (InitModel emodel) we (StartEncoding ecoder)
      EOF_SYMBOL_INDEX mid hr (by decide) (by decide) hmid
      (by rw [hk]; exact Room_mono mid _ _ (by decide) hmroom)
      (by simp only [StartEncoding]; decide)
    rw [y4, hk]
  · unfold DecodeBAC
    simp only [s1, hne0, if_false]
    exact d1
  · unfold DecodeBAC
    simp only [s1, hne0, if_false]
    exact d2

/-- C21 with the default options and the `static` variables at program start: the encoder
reads an empty file and writes to a temporary memory buffer, which is handed over to the
decoder. -/
theorem C21_bac_empty_input_witness :
    (EncodeBAC 1 zeroModel zeroCoder (exampleInput [] 1) (exampleTemp 1)
      SetDefaultOptions).2.2.wrBits = (exampleTemp 1).wrBits ++ [false, false, true] ∧
    (DecodeBAC 1 zeroModel zeroCoder
      (handOver (EncodeBAC 1 zeroModel zeroCoder (exampleInput [] 1) (exampleTemp 1)
        SetDefaultOptions).2.2) (exampleOutput 1) SetDefaultOptions).1 = NO_ERROR ∧
    (DecodeBAC 1 zeroModel zeroCoder
      (handOver (EncodeBAC 1 zeroModel zeroCoder (exampleInput [] 1) (exampleTemp 1)
        SetDefaultOptions).2.2) (exampleOutput 1) SetDefaultOptions).2.2 = exampleOutput 1 :=
  ⟨(C21_bac_empty_input SetDefaultOptions zeroModel zeroModel zeroCoder zeroCoder
      (exampleInput [] 1) (exampleTemp 1)
      (handOver (EncodeBAC 1 zeroModel zeroCoder (exampleInput [] 1) (exampleTemp 1)
        SetDefaultOptions).2.2) (exampleOutput 1) 1
      (by decide) (by decide) (by decide) (by decide) (by decide) (by decide) (by decide)
      (by decide) (by decide)).2.1,
   (C21_bac_empty_input SetDefaultOptions zeroModel zeroModel zeroCoder zeroCoder
      (exampleInput [] 1) (exampleTemp 1)
      (handOver (EncodeBAC 1 zeroModel zeroCoder (exampleInput [] 1) (exampleTemp 1)
        SetDefaultOptions).2.2) (exampleOutput 1) 1
      (by decide) (by decide) (by decide) (by decide) (by decide) (by decide) (by decide)
      (by decide) (by decide)).2.2.2⟩

/-- C22: after `InitModel` and after every sequence of `UpdateModel` calls for the indices 1
and 2 (the indices of the two source symbols), whatever the `static` arrays held before, the
total frequency `cumulative_symbol_frequencies[0]` is at most `MAX_FREQUENCY` and is the sum
of the three frequencies, and the frequencies are non-increasing in the index:
`freq[1] ≥ freq[2] ≥ freq[3] ≥ 1`. -/
theorem C22_bac_model_capped_and_sorted (m0 : bac_model_t) (ks : List Nat) (hm : m0.Shaped)
    (hks : ∀ k ∈ ks, k = 1 ∨ k = 2) :
    (ks.foldl UpdateModel (InitModel m0)).cumulative_symbol_frequencies.getD 0 0
      ≤ MAX_FREQUENCY ∧
    (ks.foldl UpdateModel (InitModel m0)).cumulative_symbol_frequencies.getD 0 0
      = (ks.foldl UpdateModel (InitModel m0)).symbol_frequencies.getD 1 0
        + (ks.foldl UpdateModel (InitModel m0)).symbol_frequencies.getD 2 0
        + (ks.foldl UpdateModel (InitModel m0)).symbol_frequencies.getD 3 0 ∧
    (ks.foldl UpdateModel (InitModel m0)).symbol_frequencies.getD 2 0
      ≤ (ks.foldl UpdateModel (InitModel m0)).symbol_frequencies.getD 1 0 ∧
    (ks.foldl UpdateModel (InitModel m0)).symbol_frequencies.getD 3 0
      ≤ (ks.foldl UpdateModel (InitModel m0)).symbol_frequencies.getD 2 0 ∧
    1 ≤ (ks.foldl UpdateModel (InitModel m0)).symbol_frequencies.getD 3 0 := by
  obtain ⟨w, -, -⟩ := InitModel_WF m0 hm
  have hs : (InitModel m0).Sorted := by
    rw [InitModel_eq m0 hm]
    unfold bac_model_t.Sorted
    dsimp only
    decide
  obtain ⟨u1, u2, u3⟩ := updates_sorted ks (InitModel m0) w hs hks
  obtain ⟨t1, t2, t3⟩ := WF_total _ u1
  exact ⟨t1, t2, u2, u3, t3⟩

/-- C22 on the model arrays at program start and the updates for the indices 1, 2, 2, 2, 1. -/
theorem C22_bac_model_capped_and_sorted_witness :
    ([1, 2, 2, 2, 1].foldl UpdateModel (InitModel zeroModel)).cumulative_symbol_frequencies.getD
      0 0 ≤ MAX_FREQUENCY ∧
    ([1, 2, 2, 2, 1].foldl UpdateModel (InitModel zeroModel)).symbol_frequencies.getD 2 0
      ≤ ([1, 2, 2, 2, 1].foldl UpdateModel (InitModel zeroModel)).symbol_frequencies.getD 1 0 :=
  ⟨(C22_bac_model_capped_and_sorted zeroModel [1, 2, 2, 2, 1] (by decide) (by decide)).1,
   (C22_bac_model_capped_and_sorted zeroModel [1, 2, 2, 2, 1] (by decide) (by decide)).2.2.1⟩

/-- C23: for every value `v` with `-2 ^ 63 < v < 2 ^ 63` (in particular every sign-extended
`n`-bit value with `n ≤ 63`), with `u = 2 |v| - 1` for `v > 0` and `u = 2 |v|` otherwise and
`p = ⌊log2 (u + 1)⌋`, that is `2 ^ p ≤ u + 1 < 2 ^ (p + 1)`: `EncodeSEGCodeword` returns
`NO_ERROR` and appends `p` zero bits and the `p + 1` bits of `u + 1`, in all `2 p + 1` bits.
The values 0, 1, -1, 2, -2 give `1`, `010`, `011`, `00100`, `00101`. -/
theorem C23_seg_codeword (v : Int) (outb : bit_file_buffer_t)
    (h0 : -(2 ^ 63 : Int) < v) (h1 : v < 2 ^ 63)
    (hout : outb.WrWF) (hroom : outb.Room 127) :
    segIndex v = (if v > 0 then 2 * v.natAbs - 1 else 2 * v.natAbs) ∧
    2 ^ Nat.log2 (segIndex v + 1) ≤ segIndex v + 1 ∧
    segIndex v + 1 < 2 ^ (Nat.log2 (segIndex v + 1) + 1) ∧
    (EncodeSEGCodeword v outb).1 = NO_ERROR ∧
    (EncodeSEGCodeword v outb).2.wrBits
      = outb.wrBits ++ (List.replicate (Nat.log2 (segIndex v + 1)) false
          ++ toBits (Nat.log2 (segIndex v + 1) + 1) (segIndex v + 1)) ∧
    (List.replicate (Nat.log2 (segIndex v + 1)) false
      ++ toBits (Nat.log2 (segIndex v + 1) + 1) (segIndex v + 1)).length
      = 2 * Nat.log2 (segIndex v + 1) + 1 ∧
    (EncodeSEGCodeword 0 (exampleOutput 1)).2.wrBits = [true] ∧
    (EncodeSEGCodeword 1 (exampleOutput 1)).2.wrBits = [false, true, false] ∧
    (EncodeSEGCodeword (-1) (exampleOutput 1)).2.wrBits = [false, true, true] ∧
    (EncodeSEGCodeword 2 (exampleOutput 1)).2.wrBits = [false, false, true, false, false] ∧
    (EncodeSEGCodeword (-2) (exampleOutput 1)).2.wrBits
      = [false, false, true, false, true] := by
  have hu := segIndex_bound v h0 h1
  obtain ⟨l1, l2, l3⟩ := log2_bounds (segIndex v + 1) (by omega) hu
  have hlen := uegBits_length (segIndex v)
  obtain ⟨c1, -, c3, -⟩ := EncodeUEGCodeword_spec (segIndex v) outb hu hout
    (Room_mono outb _ _ (by rw [hlen]; omega) hroom)
  rw [← EncodeSEGCodeword_eq v outb h0 h1] at c1 c3
  refine ⟨rfl, l1, l2, c1, c3, hlen, ?_, ?_, ?_, ?_, ?_⟩ <;> decide

/-- C23 at the value -3 (the 4-bit pattern 1101 sign-extended) with an output to a file:
the theorem is applied with its hypotheses evaluated. -/
theorem C23_seg_codeword_witness :
    (EncodeSEGCodeword (-3) (exampleOutput 1)).1 = NO_ERROR ∧
    (EncodeSEGCodeword (-3) (exampleOutput 1)).2.wrBits
      = (exampleOutput 1).wrBits ++ (List.replicate (Nat.log2 (segIndex (-3) + 1)) false
          ++ toBits (Nat.log2 (segIndex (-3) + 1) + 1) (segIndex (-3) + 1)) :=
  ⟨(C23_seg_codeword (-3) (exampleOutput 1) (by decide) (by decide) (by decide)
      (by decide)).2.2.2.1,
   (C23_seg_codeword (-3) (exampleOutput 1) (by decide) (by decide) (by decide)
      (by decide)).2.2.2.2.1⟩

/-- C30: for a width `n` between 1 and 64 and an input that is a sequence `xs` of `n`-bit
values, whenever `EncodeDifferential` returns `NO_ERROR`, `DecodeDifferential` at the same
width applied to the bits that the encoder wrote returns `NO_ERROR` and writes exactly the
input bits. -/
theorem C30_differential_decodes_what_was_encoded (opts : options_t) (xs : List Nat)
    (inb mid dinb outb : bit_file_buffer_t)
    (hn1 : 1 ≤ opts.value_size_bits) (hn : opts.value_size_bits ≤ 64)
    (hx : ∀ x ∈ xs, x < 2 ^ opts.value_size_bits)
    (hin : inb.RdWF) (hb : inb.rdBits = valuesBits (atWidth opts.value_size_bits xs))
    (hmid : mid.WrWF) (hmroom : mid.Room (opts.value_size_bits * xs.length))
    (henc : (EncodeDifferential (xs.length + 1) inb mid opts).1 = NO_ERROR)
    (hdin : dinb.RdWF)
    (hdb : mid.wrBits ++ dinb.rdBits
      = (EncodeDifferential (xs.length + 1) inb mid opts).2.2.wrBits)
    (hout : outb.WrWF) (horoom : outb.Room (opts.value_size_bits * xs.length)) :
    (DecodeDifferential (xs.length + 1) dinb outb opts).1 = NO_ERROR ∧
    (DecodeDifferential (xs.length + 1) dinb outb opts).2.2.wrBits
      = outb.wrBits ++ inb.rdBits := by
  obtain ⟨e1, e2⟩ := EncodeDifferentialLoop_spec opts hn1 hn xs (xs.length + 1) inb mid 0 hin
    hmid hb hx hmroom (Nat.lt_succ_self _) (fun _ => ⟨le_refl _, by decide⟩)
  unfold EncodeDifferential at henc hdb
  have hr : opts.value_size_bits = 64 ∨ diffsInRange opts.value_size_bits 0 xs := by
    by_contra hc
    rw [e1, if_neg hc] at henc
    exact absurd henc (by decide)
  obtain ⟨-, e4, -⟩ := e2 hr
  rw [e4] at hdb
  obtain ⟨d1, -, d3, -⟩ := DecodeDifferentialLoop_spec opts hn1 hn xs (xs.length + 1) dinb outb
    0 hdin hout (List.append_cancel_left hdb) hx horoom (Nat.lt_succ_self _)
    (fun _ => ⟨le_refl _, by decide⟩) hr
  unfold DecodeDifferential
  exact ⟨d1, by rw [d3, hb]⟩

/-- C30 at width 16 on the bytes 0x01, 0x00, 0x00, 0xFF (the values 256 and 255, the
differences 256 and -1): the encoder writes to a temporary memory buffer, which is handed over
to the decoder. -/
theorem C30_differential_decodes_what_was_encoded_witness :
    (DecodeDifferential 3
      (handOver (EncodeDifferential 3 (exampleInput [0x01, 0x00, 0x00, 0xFF] 2) (exampleTemp 1)
        { SetDefaultOptions with value_size_bits := 16 }).2.2)
      (exampleOutput 2) { SetDefaultOptions with value_size_bits := 16 }).1 = NO_ERROR ∧
    (DecodeDifferential 3
      (handOver (EncodeDifferential 3 (exampleInput [0x01, 0x00, 0x00, 0xFF] 2) (exampleTemp 1)
        { SetDefaultOptions with value_size_bits := 16 }).2.2)
      (exampleOutput 2) { SetDefaultOptions with value_size_bits := 16 }).2.2.wrBits
      = (exampleOutput 2).wrBits ++ (exampleInput [0x01, 0x00, 0x00, 0xFF] 2).rdBits :=
  C30_differential_decodes_what_was_encoded { SetDefaultOptions with value_size_bits := 16 }
    [256, 255] (exampleInput [0x01, 0x00, 0x00, 0xFF] 2) (exampleTemp 1)
    (handOver (EncodeDifferential 3 (exampleInput [0x01, 0x00, 0x00, 0xFF] 2) (exampleTemp 1)
      { SetDefaultOptions with value_size_bits := 16 }).2.2)
    (exampleOutput 2)
    (by decide) (by decide) (by decide) (by decide) (by decide) (by decide) (by decide)
    (by decide) (by decide) (by decide) (by decide) (by decide)

/-! ## Short reads at the end of a bit buffer -/

theorem SetBitFileBufferMode_reading_state (b : bit_file_buffer_t) (hwf : b.WrWF) :
    SetBitFileBufferMode b FBM_READING = (NO_ERROR,
      { b with file_buffer := { b.file_buffer with mode := FBM_READING }
               extra_byte_buffer := b.byte_buffer
               extra_used_bits := b.used_bits
               used_bits := 8 }) := by
  obtain ⟨m1, m2, m3, m4, m5, m6⟩ := hwf
  unfold SetBitFileBufferMode SetFileBufferMode
  simp [GetFileBufferMode, m1, MAX_USED_BITS, NO_ERROR]

theorem ReadBitFileBufferBytewise_at_end (b : bit_file_buffer_t) (k : Nat) (hwf : b.RdWF)
    (hb : b.rdBits = []) (hk0 : 0 < k) (hk : k ≤ 8) :
    (ReadBitFileBufferBytewise b k).1 = ((0 : Int), 0) := by
  obtain ⟨m1, m2, m3, m4⟩ := hwf
  obtain ⟨r1, r2, r3⟩ := (rdBits_eq_nil b m3).mp hb
  have hM := MAX_USABLE_SIZE_eq
  obtain ⟨c1, -⟩ := ReadFileBuffer_correct b.file_buffer 1 m1 m2 (by omega)
  rw [r1] at c1
  simp only [List.length_nil, Nat.min_zero, List.take_nil] at c1
  unfold ReadBitFileBufferBytewise
  have hold : (MAX_USED_BITS + 256 - b.used_bits) % 256 = 0 := by
    rw [r2]; rfl
  rw [hold, if_neg (by simp only [MAX_USED_BITS]; omega), if_pos hk0]
  have hne : ¬ (((0 : Nat) : Int) = 1) := by omega
  simp only [c1, hne, if_false, r3, Nat.lt_irrefl, gt_iff_lt]
  rfl

/-- At the end of the stream every read returns 0. -/
theorem ReadBitFileBuffer_at_end (b : bit_file_buffer_t) (hwf : b.RdWF) (hb : b.rdBits = [])
    (n : Nat) : (ReadBitFileBuffer b n).1.1 = 0 := by
  unfold ReadBitFileBuffer
  simp only [GetFileBufferMode, MAX_USED_BITS]
  rw [if_neg (by simp [hwf.1])]
  by_cases h8 : n / 8 = 0
  · rw [h8]
    simp only [ReadBitFileBufferFull]
    by_cases hr : n % 8 > 0
    · rw [if_pos hr]
      have hs := ReadBitFileBufferBytewise_at_end b (n % 8) hwf hb hr (by omega)
      simp only [hs]
      rw [if_pos (by omega)]
      simp
    · rw [if_neg hr]
      simp only
      omega
  · obtain ⟨k, hk⟩ : ∃ k, n / 8 = k + 1 := ⟨n / 8 - 1, by omega⟩
    rw [hk]
    have hs := ReadBitFileBufferBytewise_at_end b 8 hwf hb (by omega) (by omega)
    simp only [ReadBitFileBufferFull, MAX_USED_BITS, hs]
    rw [if_pos (by decide)]
    simp

/-- A request of 8 bits when fewer than 8 bits are left, all of them in the carryover byte:
the bits left are returned in the high bits of the output byte, zero bits below them. -/
theorem ReadBitFileBuffer_short_carryover (b : bit_file_buffer_t) (hwf : b.RdWF)
    (hu : b.used_bits = 8) (h0 : 0 < b.rdBits.length) (h8 : b.rdBits.length < 8) :
    (ReadBitFileBuffer b 8).1
      = ((b.rdBits.length : Int), [valBits b.rdBits * 2 ^ (8 - b.rdBits.length)]) ∧
    (ReadBitFileBuffer b 8).2.RdWF ∧ (ReadBitFileBuffer b 8).2.rdBits = [] := by
  obtain ⟨m1, m2, m3, m4⟩ := hwf
  have hM := MAX_USABLE_SIZE_eq
  obtain ⟨c1, c2, c3, c4, c5, c6, c7⟩ := ReadFileBuffer_correct b.file_buffer 1 m1 m2 (by omega)
  have hrd : b.rdBits = bytesBits b.file_buffer.remaining ++
      toBits b.extra_used_bits (b.extra_byte_buffer / 2 ^ (8 - b.extra_used_bits)) := by
    rw [rdBits_eq, hu]
    simp only [Nat.sub_self, toBits, List.nil_append]
  have hlen : b.rdBits.length = 8 * b.file_buffer.remaining.length + b.extra_used_bits := by
    rw [hrd, List.length_append, bytesBits_length, toBits_length]
  have hrem : b.file_buffer.remaining = [] := by
    cases hr : b.file_buffer.remaining with
    | nil => rfl
    | cons y t => rw [hr] at hlen; simp only [List.length_cons] at hlen; omega
  rw [hrem] at c1 c5 hlen hrd
  simp only [List.length_nil, Nat.min_zero, List.take_nil, List.drop_nil, Nat.mul_zero,
    Nat.zero_add, bytesBits, List.nil_append] at c1 c5 hlen hrd
  obtain ⟨e, he⟩ : ∃ e, e = b.extra_used_bits := ⟨_, rfl⟩
  rw [← he] at hlen hrd
  have hw : ReadBitFileBufferBytewise b 8 = (((e : Int),
        ((b.extra_byte_buffer >>> (8 - e)) % 256) % 2 ^ e),
      { b with file_buffer := (ReadFileBuffer b.file_buffer 1).2
               byte_buffer := (b.extra_byte_buffer >>> (8 - e)) % 256
               used_bits := 8
               extra_used_bits := 0 }) := by
    unfold ReadBitFileBufferBytewise
    have hold : (MAX_USED_BITS + 256 - b.used_bits) % 256 = 0 := by
      rw [hu]; rfl
    rw [hold, if_neg (by simp only [MAX_USED_BITS]; omega), if_pos (by decide)]
    have hne : ¬ (((0 : Nat) : Int) = 1) := by omega
    have hpos : 0 < e := by omega
    have hgt : e < (8 + 256 - 0) % 256 := by omega
    have he8 : (8 + 256 - e) % 256 = 8 - e := by omega
    have e1 : 8 - (8 - e) = e := by omega
    have e2 : 8 - e - (8 - e) = 0 := by omega
    have e3 : (8 - e + e) % 256 = 8 := by omega
    simp only [c1, hne, if_false, MAX_USED_BITS, Nat.lt_irrefl, gt_iff_lt,
      ReadBitFileBufferBytewiseTail, ← he, and_mask]
    rw [if_pos hpos, if_pos hgt, he8, e1, e2, e3, Nat.shiftRight_zero, Nat.zero_or]
    simp
  have h256 : (256 : Nat) = 2 ^ 8 := by norm_num
  have hval : ((b.extra_byte_buffer >>> (8 - e)) % 256) % 2 ^ e = valBits b.rdBits := by
    rw [hrd, valBits_toBits, Nat.shiftRight_eq_div_pow, h256,
      Nat.mod_mod_of_dvd _ (Nat.pow_dvd_pow 2 (by omega : e ≤ 8))]
  rw [hval] at hw
  have hlt := valBits_lt b.rdBits
  have hp : 2 ^ b.rdBits.length * 2 ^ (8 - b.rdBits.length) = 256 := by
    rw [← Nat.pow_add]
    have : b.rdBits.length + (8 - b.rdBits.length) = 8 := by omega
    rw [this]
  have hsh : (valBits b.rdBits <<< (8 - b.rdBits.length)) % 256
      = valBits b.rdBits * 2 ^ (8 - b.rdBits.length) := by
    rw [Nat.shiftLeft_eq]
    apply Nat.mod_eq_of_lt
    rw [← hp]
    exact Nat.mul_lt_mul_of_pos_right hlt (Nat.two_pow_pos _)
  have hres : ReadBitFileBuffer b 8 = (((b.rdBits.length : Int),
        [valBits b.rdBits * 2 ^ (8 - b.rdBits.length)]),
      { b with file_buffer := (ReadFileBuffer b.file_buffer 1).2
               byte_buffer := (b.extra_byte_buffer >>> (8 - e)) % 256
               used_bits := 8
               extra_used_bits := 0 }) := by
    unfold ReadBitFileBuffer
    simp only [GetFileBufferMode, MAX_USED_BITS]
    rw [if_neg (by simp [m1])]
    have hne : (e : Int) ≠ ((8 : Nat) : Int) := by omega
    simp only [Nat.div_self (by decide : 0 < 8), ReadBitFileBufferFull, MAX_USED_BITS, hw]
    rw [if_pos hne]
    simp only [List.nil_append, Nat.zero_mul, Nat.cast_zero, Int.zero_add]
    have e4 : ((8 : Nat) : Int) - (e : Int) = ((8 - e : Nat) : Int) := by omega
    rw [e4, Int.toNat_ofNat, ← hlen, hsh]
  rw [hres]
  refine ⟨rfl, ⟨by rw [c3]; exact m1, c2, by dsimp only; omega, by dsimp only; omega⟩, ?_⟩
  rw [rdBits_eq_nil _ (by dsimp only; omega)]
  exact ⟨by dsimp only; rw [c5], rfl, rfl⟩

/-- C25: on a fresh memory-only bit buffer of any capacity, writing the three high bits of an
input byte `x` returns 3, the flip to reading returns `NO_ERROR`, and `ReadBitFileBuffer` with a
request of 8 bits then returns 3 and stores one output byte `y` whose top three bits are the
three bits written and whose low five bits are 0. After that `EndOfBitFileBuffer` returns 1 and
every further read, of any size, before or after the end test, returns 0. -/
theorem C25_three_bits_then_short_read (stray : List Nat) (cap : Nat) (fb : file_buffer_t)
    (x : Nat) (hinit : InitFileBufferInMemory stray FBM_WRITING cap = .ok fb) :
    (WriteBitFileBuffer (InitBitFileBuffer fb) [x] 3).1 = 3 ∧
    (SetBitFileBufferMode (WriteBitFileBuffer (InitBitFileBuffer fb) [x] 3).2 FBM_READING).1
      = NO_ERROR ∧
    (ReadBitFileBuffer
      (SetBitFileBufferMode (WriteBitFileBuffer (InitBitFileBuffer fb) [x] 3).2 FBM_READING).2
      8).1.1 = 3 ∧
    (∃ y, (ReadBitFileBuffer
        (SetBitFileBufferMode (WriteBitFileBuffer (InitBitFileBuffer fb) [x] 3).2 FBM_READING).2
        8).1.2 = [y] ∧
      toBits 8 y = (toBits 8 x).take 3 ++ [false, false, false, false, false]) ∧
    (EndOfBitFileBuffer (ReadBitFileBuffer
      (SetBitFileBufferMode (WriteBitFileBuffer (InitBitFileBuffer fb) [x] 3).2 FBM_READING).2
      8).2).1 = 1 ∧
    (∀ n, (ReadBitFileBuffer (ReadBitFileBuffer
      (SetBitFileBufferMode (WriteBitFileBuffer (InitBitFileBuffer fb) [x] 3).2 FBM_READING).2
      8).2 n).1.1 = 0) ∧
    (∀ n, (ReadBitFileBuffer (EndOfBitFileBuffer (ReadBitFileBuffer
      (SetBitFileBufferMode (WriteBitFileBuffer (InitBitFileBuffer fb) [x] 3).2 FBM_READING).2
      8).2).2 n).1.1 = 0) := by
  obtain ⟨f1, f2, f3, f4⟩ := fresh_memory_writing stray cap fb hinit
  obtain ⟨w1, w2, w3, w4, -⟩ := WriteBitFileBuffer_spec (InitBitFileBuffer fb) [x] 3 f1
    (f4 3 (by rw [MAX_USABLE_SIZE_eq]; decide)) (Nat.le_refl 1)
  obtain ⟨s1, s2, s3, -⟩ := SetBitFileBufferMode_reading_spec _ w2 (by rw [w4, f3])
  have hu : (SetBitFileBufferMode (WriteBitFileBuffer (InitBitFileBuffer fb) [x] 3).2
      FBM_READING).2.used_bits = 8 := by
    rw [SetBitFileBufferMode_reading_state _ w2]
  have hbits : (SetBitFileBufferMode (WriteBitFileBuffer (InitBitFileBuffer fb) [x] 3).2
      FBM_READING).2.rdBits = (toBits 8 x).take 3 := by
    rw [s3, w3, f2]
    simp only [bytesBits, List.nil_append, List.append_nil]
  have hl : (SetBitFileBufferMode (WriteBitFileBuffer (InitBitFileBuffer fb) [x] 3).2
      FBM_READING).2.rdBits.length = 3 := by
    rw [hbits, List.length_take, toBits_length]; rfl
  obtain ⟨r1, r2, r3⟩ := ReadBitFileBuffer_short_carryover _ s2 hu (by omega) (by omega)
  obtain ⟨e1, e2, e3, -, -⟩ := EndOfBitFileBuffer_spec _ r2
  rw [if_pos r3] at e1
  rw [hl, hbits] at r1
  refine ⟨w1, s1, by rw [r1]; rfl, ⟨_, by rw [r1], ?_⟩, e1,
    ReadBitFileBuffer_at_end _ r2 r3, ReadBitFileBuffer_at_end _ e2 (by rw [e3, r3])⟩
  have hp := toBits_shift_pad (valBits ((toBits 8 x).take 3)) 3 (by decide)
  rw [Nat.add_zero] at hp
  have ht := toBits_valBits ((toBits 8 x).take 3)
  rw [List.length_take, toBits_length] at ht
  have h38 : min 3 8 = 3 := rfl
  rw [h38] at ht
  rw [hp, ht]
  rfl

/-- C25 at a memory-only buffer of capacity 4 and the input byte `0xBF`, whose three high bits
are 1, 0, 1: the byte read is `0xA0`. -/
theorem C25_three_bits_then_short_read_witness :
    InitFileBufferInMemory [] FBM_WRITING 4 = .ok
      { base_file := { input := [], output := [] },
        io_buffer := { buffer := [0, 0, 0, 0], buffer_size := 4, buffer_start := 0,
                       buffer_end := -1, stray := [] },
        mode := FBM_WRITING, type := FBT_MEMORY } ∧
    (ReadBitFileBuffer (SetBitFileBufferMode (WriteBitFileBuffer (exampleTemp 4) [0xBF] 3).2
      FBM_READING).2 8).1.1 = 3 ∧
    (∃ y, (ReadBitFileBuffer (SetBitFileBufferMode (WriteBitFileBuffer (exampleTemp 4) [0xBF]
        3).2 FBM_READING).2 8).1.2 = [y] ∧
      toBits 8 y = [true, false, true, false, false, false, false, false]) ∧
    (ReadBitFileBuffer (SetBitFileBufferMode (WriteBitFileBuffer (exampleTemp 4) [0xBF] 3).2
      FBM_READING).2 8).1.2 = [0xA0] :=
  ⟨rfl, (C25_three_bits_then_short_read [] 4 _ 0xBF rfl).2.2.1,
    (C25_three_bits_then_short_read [] 4 _ 0xBF rfl).2.2.2.1, by decide⟩

/-! ## Aggregation -/

theorem bytesBits_inj : ∀ (a b : List Nat), (∀ x ∈ a, x < 256) → (∀ x ∈ b, x < 256) →
    bytesBits a = bytesBits b → a = b
  | [], b, _, _, h => ((bytesBits_eq_nil b).mp h.symm).symm
  | _ :: _, [], _, _, h => (bytesBits_eq_nil _).mp h
  | x :: a, y :: b, ha, hb, h => by
    simp only [bytesBits] at h
    have hl : (toBits 8 x).length = (toBits 8 y).length := by rw [toBits_length, toBits_length]
    obtain ⟨h1, h2⟩ := List.append_inj h hl
    have hx := valBits_toBits 8 x
    have hy := valBits_toBits 8 y
    rw [h1, hy] at hx
    have h256 : (2 : Nat) ^ 8 = 256 := by norm_num
    rw [h256] at hx
    have hx1 := ha x (List.mem_cons_self _ _)
    have hy1 := hb y (List.mem_cons_self _ _)
    have hxy : x = y := by omega
    rw [hxy, bytesBits_inj a b (fun z hz => ha z (List.mem_cons_of_mem _ hz))
      (fun z hz => hb z (List.mem_cons_of_mem _ hz)) h2]

theorem groupSums_nil (fadd : List Nat → List Nat → List Nat) (n : Nat) (hn : 1 ≤ n) :
    groupSums fadd n [] = [] := by
  unfold groupSums
  have : ([] : List (List Nat)).length + n - 1 = n - 1 := by simp
  rw [this, Nat.div_eq_of_lt (by omega)]
  rfl

theorem groupSums_length (fadd : List Nat → List Nat → List Nat) (n : Nat)
    (vs : List (List Nat)) : (groupSums fadd n vs).length = (vs.length + n - 1) / n := by
  unfold groupSums
  rw [List.length_map, List.length_range]

/-- The first group is the sum of the first `n` values; the other groups are those of the
values after them. -/
theorem groupSums_step (fadd : List Nat → List Nat → List Nat) (n : Nat) (hn : 1 ≤ n)
    (vs : List (List Nat)) (hvs : vs ≠ []) :
    groupSums fadd n vs = (vs.take n).foldl fadd floatZero :: groupSums fadd n (vs.drop n) := by
  have hpos : 0 < vs.length := List.length_pos.mpr hvs
  have hG : (vs.length + n - 1) / n = ((vs.drop n).length + n - 1) / n + 1 := by
    rw [List.length_drop]
    by_cases hle : n ≤ vs.length
    · have : vs.length + n - 1 = (vs.length - n + n - 1) + n := by omega
      rw [this, Nat.add_div_right _ (by omega)]
    · have e1 : vs.length - n + n - 1 = n - 1 := by omega
      rw [e1, Nat.div_eq_of_lt (by omega : n - 1 < n)]
      have e2 : vs.length + n - 1 = (vs.length - 1) + n := by omega
      rw [e2, Nat.add_div_right _ (by omega), Nat.div_eq_of_lt (by omega)]
  unfold groupSums
  rw [hG, List.range_succ_eq_map, List.map_cons, List.map_map]
  congr 1
  · simp only [Nat.zero_mul, List.drop_zero, Nat.zero_add, Nat.one_mul, Nat.sub_zero]
    by_cases hle : n ≤ vs.length
    · rw [Nat.min_eq_left hle]
    · rw [Nat.min_eq_right (by omega), List.take_of_length_le (Nat.le_refl _),
        List.take_of_length_le (by omega)]
  · apply List.map_congr_left
    intro j _
    simp only [Function.comp, List.drop_drop, List.length_drop]
    have a1 : (j + 1) * n = n + j * n := by rw [Nat.succ_mul]; omega
    have a2 : (j + 1 + 1) * n = n + j * n + n := by rw [Nat.succ_mul, a1]
    have a3 : Nat.succ j = j + 1 := rfl
    rw [a3, a1, a2]
    obtain ⟨p, hp⟩ : ∃ p, p = j * n := ⟨_, rfl⟩
    rw [← hp]
    have : min (n + p + n) vs.length - (n + p) = min (n + p) (vs.length - n) - p := by omega
    rw [this]

theorem AggregateGroup_spec (fadd : List Nat → List Nat → List Nat) :
    ∀ (k : Nat) (inb : bit_file_buffer_t) (vs : List (List Nat)) (sum : List Nat),
    inb.RdWF → inb.rdBits = bytesBits vs.flatten →
    (∀ v ∈ vs, v.length = 4 ∧ ∀ x ∈ v, x < 256) → (0 < k → vs ≠ []) →
    (AggregateGroup fadd k inb sum).1 = none ∧
    (AggregateGroup fadd k inb sum).2.1 = (vs.take k).foldl fadd sum ∧
    (AggregateGroup fadd k inb sum).2.2.RdWF ∧
    (AggregateGroup fadd k inb sum).2.2.rdBits = bytesBits (vs.drop k).flatten := by
  intro k
  induction k with
  | zero =>
    intro inb vs sum hin hb _ _
    exact ⟨rfl, rfl, hin, hb⟩
  | succ k ih =>
    intro inb vs sum hin hb hvs hne
    cases vs with
    | nil => exact absurd rfl (hne (Nat.succ_pos _))
    | cons v rest =>
      obtain ⟨hv4, hv256⟩ := hvs v (List.mem_cons_self _ _)
      have hrest : ∀ w ∈ rest, w.length = 4 ∧ ∀ x ∈ w, x < 256 :=
        fun w hw => hvs w (List.mem_cons_of_mem _ hw)
      have hlv : (bytesBits v).length = 32 := by rw [bytesBits_length, hv4]
      rw [List.flatten_cons, bytesBits_append] at hb
      obtain ⟨r1, r2, r3, r4, r5, r6, -, -⟩ := ReadBitFileBuffer_spec inb 32 hin
        (by rw [hb, List.length_append, hlv]; omega)
      have ht : inb.rdBits.take 32 = bytesBits v := by
        rw [hb]
        have := take_append_len (bytesBits v) (bytesBits rest.flatten) 32 0 hlv
        rw [Nat.add_zero, List.take_zero, List.append_nil] at this
        exact this
      have hd : inb.rdBits.drop 32 = bytesBits rest.flatten := by
        rw [hb]
        have := drop_append_len (bytesBits v) (bytesBits rest.flatten) 32 0 hlv
        rw [Nat.add_zero, List.drop_zero] at this
        exact this
      rw [ht] at r4
      rw [hd] at r6
      have hz : 8 * ((32 + 7) / 8) - 32 = 0 := by decide
      rw [hz, List.replicate_zero, List.append_nil] at r4
      have hout : (ReadBitFileBuffer inb 32).1.2 = v := bytesBits_inj _ _ r3 hv256 r4
      obtain ⟨e1, e2, e3, -, -⟩ := EndOfBitFileBuffer_spec _ r5
      rw [r6] at e1 e3
      have hlog := LOG_ON_ERROR_AND_RETURN_ok 32 (by norm_num)
      have h84 : 8 * 4 = 32 := rfl
      have hstep : AggregateGroup fadd (k + 1) inb sum
          = if (EndOfBitFileBuffer (ReadBitFileBuffer inb 32).2).1 ≠ 0
            then (none, fadd sum v, (EndOfBitFileBuffer (ReadBitFileBuffer inb 32).2).2)
            else AggregateGroup fadd k (EndOfBitFileBuffer (ReadBitFileBuffer inb 32).2).2
              (fadd sum v) := by
        conv_lhs => unfold AggregateGroup
        simp only [h84, r1, hlog, hout]
      rw [hstep]
      cases rest with
      | nil =>
        have he : (EndOfBitFileBuffer (ReadBitFileBuffer inb 32).2).1 ≠ 0 := by
          rw [e1]; simp [bytesBits]
        rw [if_pos he]
        refine ⟨rfl, ?_, e2, ?_⟩
        · simp
        · rw [e3]; simp
      | cons w rest' =>
        have hw4 := (hrest w (List.mem_cons_self _ _)).1
        have hnn : bytesBits (w :: rest').flatten ≠ [] := by
          intro h
          have := congrArg List.length h
          rw [List.flatten_cons, bytesBits_append, List.length_append, bytesBits_length, hw4] at this
          simp at this
        have he : ¬ ((EndOfBitFileBuffer (ReadBitFileBuffer inb 32).2).1 ≠ 0) := by
          rw [e1, if_neg hnn]; decide
        rw [if_neg he]
        obtain ⟨i1, i2, i3, i4⟩ := ih _ (w :: rest') (fadd sum v) e2 e3 hrest
          (fun _ => List.cons_ne_nil _ _)
        refine ⟨i1, ?_, i3, ?_⟩
        · rw [i2]; rfl
        · rw [i4]; rfl

theorem foldl_fadd_length (fadd : List Nat → List Nat → List Nat)
    (hfadd : ∀ a b, (fadd a b).length = 4) :
    ∀ (l : List (List Nat)) (sum : List Nat), sum.length = 4 → (l.foldl fadd sum).length = 4
  | [], _, h => h
  | v :: l, sum, _ => foldl_fadd_length fadd hfadd l (fadd sum v) (hfadd sum v)

theorem Aggregate_spec (fadd : List Nat → List Nat → List Nat) (opts : options_t)
    (hfadd : ∀ a b, (fadd a b).length = 4) (hn : 1 ≤ opts.num_values) :
    ∀ (fuel : Nat) (inb outb : bit_file_buffer_t) (vs : List (List Nat)),
    inb.RdWF → inb.rdBits = bytesBits vs.flatten →
    (∀ v ∈ vs, v.length = 4 ∧ ∀ x ∈ v, x < 256) → outb.WrWF →
    outb.Room (32 * ((vs.length + opts.num_values - 1) / opts.num_values)) →
    (vs.length + opts.num_values - 1) / opts.num_values < fuel →
    (Aggregate fadd fuel inb outb opts).1 = NO_ERROR ∧
    (Aggregate fadd fuel inb outb opts).2.1.RdWF ∧
    (Aggregate fadd fuel inb outb opts).2.1.rdBits = [] ∧
    (Aggregate fadd fuel inb outb opts).2.2.WrWF ∧
    (Aggregate fadd fuel inb outb opts).2.2.wrBits
      = outb.wrBits ++ bytesBits (groupSums fadd opts.num_values vs).flatten ∧
    (Aggregate fadd fuel inb outb opts).2.2.file_buffer.type = outb.file_buffer.type := by
  intro fuel
  induction fuel with
  | zero => intro inb outb vs _ _ _ _ _ hf; exact absurd hf (Nat.not_lt_zero _)
  | succ fuel ih =>
    intro inb outb vs hin hb hvs hout hroom hf
    obtain ⟨e1, e2, e3, -, -⟩ := EndOfBitFileBuffer_spec inb hin
    cases hvs0 : vs with
    | nil =>
      rw [hvs0] at hb
      have hnil : inb.rdBits = [] := by rw [hb]; rfl
      have he : (EndOfBitFileBuffer inb).1 ≠ 0 := by rw [e1, if_pos hnil]; decide
      have hstep : Aggregate fadd (fuel + 1) inb outb opts
          = (NO_ERROR, (EndOfBitFileBuffer inb).2, outb) := by
        conv_lhs => unfold Aggregate
        simp only [he, ne_eq, not_false_eq_true, if_true]
      rw [hstep, groupSums_nil fadd _ hn]
      exact ⟨rfl, e2, by rw [e3, hnil], hout, by simp [bytesBits], rfl⟩
    | cons v rest =>
      have hne : vs ≠ [] := by rw [hvs0]; exact List.cons_ne_nil _ _
      rw [← hvs0]
      have hv4 : v.length = 4 := (hvs v (by rw [hvs0]; exact List.mem_cons_self _ _)).1
      have hnn : inb.rdBits ≠ [] := by
        intro h
        have := congrArg List.length h
        rw [hb, hvs0, List.flatten_cons, bytesBits_append, List.length_append, bytesBits_length,
          hv4] at this
        simp at this
      have he : ¬ ((EndOfBitFileBuffer inb).1 ≠ 0) := by rw [e1, if_neg hnn]; decide
      obtain ⟨g1, g2, g3, g4⟩ := AggregateGroup_spec fadd opts.num_values
        (EndOfBitFileBuffer inb).2 vs floatZero e2 (by rw [e3, hb]) hvs (fun _ => hne)
      obtain ⟨S, hS⟩ : ∃ S, S = (vs.take opts.num_values).foldl fadd floatZero := ⟨_, rfl⟩
      rw [← hS] at g2
      have hS4 : S.length = 4 := by
        rw [hS]; exact foldl_fadd_length fadd hfadd _ _ rfl
      have hstepG := groupSums_step fadd opts.num_values hn vs hne
      rw [← hS] at hstepG
      have hG : (vs.length + opts.num_values - 1) / opts.num_values
          = ((vs.drop opts.num_values).length + opts.num_values - 1) / opts.num_values + 1 := by
        rw [← groupSums_length fadd, ← groupSums_length fadd, hstepG, List.length_cons]
      rw [hG] at hroom hf
      obtain ⟨G, hG0⟩ : ∃ G, G
          = ((vs.drop opts.num_values).length + opts.num_values - 1) / opts.num_values :=
        ⟨_, rfl⟩
      rw [← hG0] at hroom hf
      obtain ⟨w1, w2, w3, w4, -, -, -⟩ := WriteBitFileBuffer_spec outb S 32 hout
        (Room_mono outb _ _ (by omega) hroom) (by rw [hS4])
      have htake : (bytesBits S).take 32 = bytesBits S :=
        List.take_of_length_le (by rw [bytesBits_length, hS4])
      rw [htake] at w3
      have hlog := LOG_ON_ERROR_AND_RETURN_ok 32 (by norm_num)
      have h84 : 8 * 4 = 32 := rfl
      have hstep : Aggregate fadd (fuel + 1) inb outb opts
          = Aggregate fadd fuel
              (AggregateGroup fadd opts.num_values (EndOfBitFileBuffer inb).2 floatZero).2.2
              (WriteBitFileBuffer outb S 32).2 opts := by
        conv_lhs => unfold Aggregate
        simp only [he, if_false, h84, g1, g2, w1, hlog]
      rw [hstep]
      obtain ⟨i1, i2, i3, i4, i5, i6⟩ := ih _ _ (vs.drop opts.num_values) g3 g4
        (fun w hw => hvs w (List.mem_of_mem_drop hw)) w2
        (by
          apply Room_of_wrBits outb _ _ _ w4 w3
          rw [bytesBits_length, hS4, ← hG0]
          exact Room_mono outb _ _ (by omega) hroom)
        (by rw [← hG0]; omega)
      refine ⟨i1, i2, i3, i4, ?_, by rw [i6, w4]⟩
      rw [i5, w3, hstepG, List.flatten_cons, bytesBits_append, List.append_assoc]

theorem drop_take_indices (vs : List (List Nat)) (lo c : Nat) (h : lo + c ≤ vs.length) :
    (vs.drop lo).take c = (List.range c).map (fun i => vs.getD (lo + i) []) := by
  apply List.ext_getElem?
  intro i
  by_cases hi : i < c
  · rw [List.getElem?_take_of_lt hi, List.getElem?_drop, List.getElem?_map,
      List.getElem?_range hi, Option.map_some', List.getD_eq_getElem?_getD,
      List.getElem?_eq_getElem (by omega : lo + i < vs.length)]
    rfl
  · rw [List.getElem?_eq_none (by rw [List.length_take]; omega),
      List.getElem?_eq_none (by rw [List.length_map, List.length_range]; omega)]

/-- The number of groups is the quotient of the number of values by the group size, rounded
up. -/
theorem ceil_div_bounds (k n : Nat) (hn : 1 ≤ n) :
    k ≤ n * ((k + n - 1) / n) ∧ n * ((k + n - 1) / n) < k + n := by
  have h1 := Nat.div_add_mod (k + n - 1) n
  have h2 := Nat.mod_lt (k + n - 1) (by omega : n > 0)
  obtain ⟨P, hP⟩ : ∃ P, P = n * ((k + n - 1) / n) := ⟨_, rfl⟩
  rw [← hP] at h1 ⊢
  omega

theorem groupSums_getElem (fadd : List Nat → List Nat → List Nat) (n : Nat)
    (vs : List (List Nat)) (j : Nat) (hj : j < (vs.length + n - 1) / n) :
    (groupSums fadd n vs)[j]? = some (((List.range (min ((j + 1) * n) vs.length - j * n)).map
      (fun i => vs.getD (j * n + i) [])).foldl fadd floatZero) := by
  unfold groupSums
  rw [List.getElem?_map, List.getElem?_range hj, Option.map_some']
  have hle : j * n + (min ((j + 1) * n) vs.length - j * n) ≤ vs.length := by
    have a1 : (j + 1) * n = j * n + n := Nat.succ_mul j n
    rw [a1]
    rcases Nat.eq_zero_or_pos n with h0 | h0
    · rw [h0] at hj; simp at hj
    · have hb := (ceil_div_bounds vs.length n h0).2
      have hm : n * (j + 1) ≤ n * ((vs.length + n - 1) / n) := Nat.mul_le_mul_left n hj
      have a2 : n * (j + 1) = j * n + n := by rw [Nat.mul_comm, Nat.succ_mul]
      rw [a2] at hm
      obtain ⟨p, hp⟩ : ∃ p, p = j * n := ⟨_, rfl⟩
      rw [← hp] at hm ⊢
      omega
  rw [drop_take_indices vs _ _ hle]

/-- C29: for a group size `num_values` of at least 1 and an input that consists of `k` values
of 32 bits each, `Aggregate` (with the addition of `float` values as a parameter `fadd`)
returns `NO_ERROR` and writes exactly the values of `groupSums`: there are `⌈k / num_values⌉`
of them, and the value of index `j` is the sum from the left, starting from 0, of the inputs
with the indices `j * num_values` to `min ((j + 1) * num_values) k - 1`, so that a last group
with fewer values is written as the sum of the values that are there. -/
theorem C29_aggregate_group_sums (fadd : List Nat → List Nat → List Nat) (opts : options_t)
    (vs : List (List Nat)) (inb outb : bit_file_buffer_t) (fuel : Nat)
    (hfadd : ∀ a b, (fadd a b).length = 4)
    (hn : 1 ≤ opts.num_values)
    (hvs : ∀ v ∈ vs, v.length = 4 ∧ ∀ x ∈ v, x < 256)
    (hin : inb.RdWF) (hb : inb.rdBits = bytesBits vs.flatten)
    (hout : outb.WrWF)
    (hroom : outb.Room (32 * ((vs.length + opts.num_values - 1) / opts.num_values)))
    (hfuel : (vs.length + opts.num_values - 1) / opts.num_values < fuel) :
    (Aggregate fadd fuel inb outb opts).1 = NO_ERROR ∧
    (Aggregate fadd fuel inb outb opts).2.2.wrBits
      = outb.wrBits ++ bytesBits (groupSums fadd opts.num_values vs).flatten ∧
    (groupSums fadd opts.num_values vs).length
      = (vs.length + opts.num_values - 1) / opts.num_values ∧
    vs.length ≤ opts.num_values * ((vs.length + opts.num_values - 1) / opts.num_values) ∧
    opts.num_values * ((vs.length + opts.num_values - 1) / opts.num_values)
      < vs.length + opts.num_values ∧
    (∀ s ∈ groupSums fadd opts.num_values vs, s.length = 4) ∧
    ∀ j, j < (vs.length + opts.num_values - 1) / opts.num_values →
      (groupSums fadd opts.num_values vs)[j]?
        = some (((List.range (min ((j + 1) * opts.num_values) vs.length
              - j * opts.num_values)).map
            (fun i => vs.getD (j * opts.num_values + i) [])).foldl fadd floatZero) := by
  obtain ⟨a1, -, -, -, a5, -⟩ := Aggregate_spec fadd opts hfadd hn fuel inb outb vs hin hb hvs
    hout hroom hfuel
  obtain ⟨c1, c2⟩ := ceil_div_bounds vs.length opts.num_values hn
  refine ⟨a1, a5, groupSums_length _ _ _, c1, c2, ?_,
    fun j hj => groupSums_getElem fadd opts.num_values vs j hj⟩
  intro s hs
  unfold groupSums at hs
  obtain ⟨j, -, hj⟩ := List.mem_map.mp hs
  rw [← hj]
  exact foldl_fadd_length fadd hfadd _ _ rfl

/-- C29 at five values in groups of two, with the bytewise sum modulo 256 in the place of the
addition: three values are written, the last one the fifth input alone. -/
theorem C29_aggregate_group_sums_witness :
    (Aggregate exampleAdd 4
      (exampleInput [1, 0, 0, 0, 2, 0, 0, 0, 3, 0, 0, 0, 4, 0, 0, 0, 5, 0, 0, 9] 3)
      (exampleOutput 2) { SetDefaultOptions with num_values := 2 }).1 = NO_ERROR ∧
    (Aggregate exampleAdd 4
      (exampleInput [1, 0, 0, 0, 2, 0, 0, 0, 3, 0, 0, 0, 4, 0, 0, 0, 5, 0, 0, 9] 3)
      (exampleOutput 2) { SetDefaultOptions with num_values := 2 }).2.2.wrBits
      = (exampleOutput 2).wrBits ++ bytesBits (groupSums exampleAdd 2
          [[1, 0, 0, 0], [2, 0, 0, 0], [3, 0, 0, 0], [4, 0, 0, 0], [5, 0, 0, 9]]).flatten ∧
    groupSums exampleAdd 2 [[1, 0, 0, 0], [2, 0, 0, 0], [3, 0, 0, 0], [4, 0, 0, 0], [5, 0, 0, 9]]
      = [[3, 0, 0, 0], [7, 0, 0, 0], [5, 0, 0, 9]] :=
  ⟨(C29_aggregate_group_sums exampleAdd { SetDefaultOptions with num_values := 2 }
      [[1, 0, 0, 0], [2, 0, 0, 0], [3, 0, 0, 0], [4, 0, 0, 0], [5, 0, 0, 9]]
      (exampleInput [1, 0, 0, 0, 2, 0, 0, 0, 3, 0, 0, 0, 4, 0, 0, 0, 5, 0, 0, 9] 3)
      (exampleOutput 2) 4 (fun _ _ => rfl) (by decide) (by decide) (by decide) (by decide)
      (by decide) (by decide) (by decide)).1,
   (C29_aggregate_group_sums exampleAdd { SetDefaultOptions with num_values := 2 }
      [[1, 0, 0, 0], [2, 0, 0, 0], [3, 0, 0, 0], [4, 0, 0, 0], [5, 0, 0, 9]]
      (exampleInput [1, 0, 0, 0, 2, 0, 0, 0, 3, 0, 0, 0, 4, 0, 0, 0, 5, 0, 0, 9] 3)
      (exampleOutput 2) 4 (fun _ _ => rfl) (by decide) (by decide) (by decide) (by decide)
      (by decide) (by decide) (by decide)).2.1,
   by decide⟩

/-- C31 (evaluation of the code at the failing input): on an input of exactly 403 bytes, the
size of the ring buffer, here 403 times the byte 0x41, `EncodeLZMH` returns `NO_ERROR`, reads
the whole input and writes no bit at all: no literal and no back-reference is emitted. -/
theorem C31_lzmh_403_bytes_encode_to_nothing :
    (List.replicate 403 0x41).length = INTERN_BUFFER_LENGTH ∧
    (encodeLZMH 5 (exampleInput (List.replicate 403 0x41) 8) (exampleOutput 4)).1 = NO_ERROR ∧
    (encodeLZMH 5 (exampleInput (List.replicate 403 0x41) 8) (exampleOutput 4)).2.1.rdBits
      = [] ∧
    (encodeLZMH 5 (exampleInput (List.replicate 403 0x41) 8) (exampleOutput 4)).2.2.wrBits
      = [] ∧
    (encodeLZMH 5 (exampleInput (List.replicate 403 0x41) 8) (exampleOutput 4)).2.2
      = exampleOutput 4 := by
  refine ⟨?_, ?_, ?_, ?_, ?_⟩ <;> decide

/-- C32 (evaluation of the code at the failing input): the 23 bytes 0x41, 0x42, 0x43 and 20
more bytes 0x43 are encoded as three literals of 10 bits and a back-reference of 20 bits
(offset 1, length 20), 50 bits in all; the file receives them in 7 bytes, with 6 zero bits of
padding. `DecodeLZMH` on the 50 bits writes the 23 bytes; on the same bits followed by the 6
zero bits it writes the 23 bytes and one more byte 0x00. -/
theorem C32_lzmh_padding_adds_a_byte :
    (encodeLZMH 5 (exampleInput ([0x41, 0x42, 0x43] ++ List.replicate 20 0x43) 8)
      (exampleTemp 4)).1 = NO_ERROR ∧
    (encodeLZMH 5 (exampleInput ([0x41, 0x42, 0x43] ++ List.replicate 20 0x43) 8)
      (exampleTemp 4)).2.2.wrBits
      = toBits 10 0x41 ++ toBits 10 0x42 ++ toBits 10 0x43 ++ (toBits 10 0x100 ++ toBits 10 0x301) ∧
    (teardown (encodeLZMH 5 (exampleInput ([0x41, 0x42, 0x43] ++ List.replicate 20 0x43) 8)
      (exampleOutput 4)).2.2).output = [16, 68, 33, 13, 0, 192, 64] ∧
    (exampleInput [16, 68, 33, 13, 0, 192, 64] 4).rdBits
      = toBits 10 0x41 ++ toBits 10 0x42 ++ toBits 10 0x43 ++ (toBits 10 0x100 ++ toBits 10 0x301)
        ++ List.replicate 6 false ∧
    (decodeLZMH 5 (handOver (encodeLZMH 5
      (exampleInput ([0x41, 0x42, 0x43] ++ List.replicate 20 0x43) 8) (exampleTemp 4)).2.2)
      (exampleOutput 4)).1 = NO_ERROR ∧
    (teardown (decodeLZMH 5 (handOver (encodeLZMH 5
      (exampleInput ([0x41, 0x42, 0x43] ++ List.replicate 20 0x43) 8) (exampleTemp 4)).2.2)
      (exampleOutput 4)).2.2).output = [0x41, 0x42, 0x43] ++ List.replicate 20 0x43 ∧
    (decodeLZMH 5 (exampleInput [16, 68, 33, 13, 0, 192, 64] 4) (exampleOutput 4)).1
      = NO_ERROR ∧
    (teardown (decodeLZMH 5 (exampleInput [16, 68, 33, 13, 0, 192, 64] 4)
      (exampleOutput 4)).2.2).output = [0x41, 0x42, 0x43] ++ List.replicate 20 0x43 ++ [0x00] := by
  refine ⟨?_, ?_, ?_, ?_, ?_, ?_, ?_, ?_⟩ <;> decide

/-- C33 (evaluation of the code at the failing input): on an empty input `DecodeLZMH` returns
`NO_ERROR` and writes the byte 0x00. -/
theorem C33_lzmh_decodes_empty_input_to_a_byte :
    (exampleInput [] 1).rdBits = [] ∧
    (decodeLZMH 2 (exampleInput [] 1) (exampleOutput 4)).1 = NO_ERROR ∧
    (decodeLZMH 2 (exampleInput [] 1) (exampleOutput 4)).2.2.wrBits = bytesBits [0x00] ∧
    (teardown (decodeLZMH 2 (exampleInput [] 1) (exampleOutput 4)).2.2).output = [0x00] := by
  refine ⟨?_, ?_, ?_, ?_⟩ <;> decide

/-- C40 (evaluation of the code at the failing input): a file-backed bit buffer in writing
mode, the byte 0xFF written, `FlushBitFileBuffer`, the byte 0x00 written, teardown. The flush
sends the byte 0xFF to the file and sets `used_bits` to 0 but leaves 0xFF in `byte_buffer`, so
the file receives 0xFF 0xFF; without the flush it receives 0xFF 0x00. After 3 or 11 bits the
flush sends only the whole bytes and the file is the same with and without the flush. -/
theorem C40_flush_at_byte_boundary_changes_the_stream :
    (FlushBitFileBuffer (WriteBitFileBuffer (exampleOutput 4) [0xFF] 8).2).2.file_buffer.base_file.output
      = [0xFF] ∧
    (FlushBitFileBuffer (WriteBitFileBuffer (exampleOutput 4) [0xFF] 8).2).2.used_bits = 0 ∧
    (FlushBitFileBuffer (WriteBitFileBuffer (exampleOutput 4) [0xFF] 8).2).2.byte_buffer = 0xFF ∧
    (teardown (WriteBitFileBuffer
      (FlushBitFileBuffer (WriteBitFileBuffer (exampleOutput 4) [0xFF] 8).2).2 [0x00] 8).2).output
      = [0xFF, 0xFF] ∧
    (teardown (WriteBitFileBuffer (WriteBitFileBuffer (exampleOutput 4) [0xFF] 8).2
      [0x00] 8).2).output = [0xFF, 0x00] ∧
    (FlushBitFileBuffer (WriteBitFileBuffer (exampleOutput 4) [0xAB, 0xE0] 11).2).2.file_buffer.base_file.output
      = [0xAB] ∧
    (teardown (WriteBitFileBuffer
      (FlushBitFileBuffer (WriteBitFileBuffer (exampleOutput 4) [0xAB, 0xE0] 11).2).2
      [0x00] 8).2).output
      = (teardown (WriteBitFileBuffer (WriteBitFileBuffer (exampleOutput 4) [0xAB, 0xE0] 11).2
          [0x00] 8).2).output := by
  refine ⟨?_, ?_, ?_, ?_, ?_, ?_, ?_⟩ <;> decide

/-! ## Aggregation with a group size of 0 -/

theorem Room_of_file (b : bit_file_buffer_t) (h : b.file_buffer.type = FBT_FILE) (n : Nat) :
    b.Room n := by
  intro hm
  rw [h] at hm
  exact absurd hm (by decide)

/-- With `num_values = 0` and an input that is not at its end, an iteration of the outer loop
of `Aggregate` reads nothing and writes the sum 0: the loop never ends on a file-backed
output. -/
theorem Aggregate_zero_num_values (fadd : List Nat → List Nat → List Nat) (opts : options_t)
    (h0 : opts.num_values = 0) :
    ∀ (fuel : Nat) (inb outb : bit_file_buffer_t), inb.RdWF → inb.rdBits ≠ [] → outb.WrWF →
    outb.file_buffer.type = FBT_FILE →
    (Aggregate fadd fuel inb outb opts).1 = OUT_OF_FUEL ∧
    (Aggregate fadd fuel inb outb opts).2.1.rdBits = inb.rdBits ∧
    (Aggregate fadd fuel inb outb opts).2.2.wrBits
      = outb.wrBits ++ List.replicate (32 * fuel) false := by
  intro fuel
  induction fuel with
  | zero =>
    intro inb outb _ _ _ _
    exact ⟨rfl, rfl, by simp [Aggregate]⟩
  | succ fuel ih =>
    intro inb outb hin hne hout ht
    obtain ⟨e1, e2, e3, -, -⟩ := EndOfBitFileBuffer_spec inb hin
    have he : ¬ ((EndOfBitFileBuffer inb).1 ≠ 0) := by rw [e1, if_neg hne]; decide
    obtain ⟨w1, w2, w3, w4, -, -, -⟩ := WriteBitFileBuffer_spec outb floatZero 32 hout
      (Room_of_file outb ht 32) (by decide)
    have hz : (bytesBits floatZero).take 32 = List.replicate 32 false := by decide
    rw [hz] at w3
    have hlog := LOG_ON_ERROR_AND_RETURN_ok 32 (by norm_num)
    have h84 : 8 * 4 = 32 := rfl
    have hstep : Aggregate fadd (fuel + 1) inb outb opts
        = Aggregate fadd fuel (EndOfBitFileBuffer inb).2
            (WriteBitFileBuffer outb floatZero 32).2 opts := by
      conv_lhs => unfold Aggregate
      simp only [he, if_false, h84, h0, AggregateGroup, w1, hlog]
    rw [hstep]
    obtain ⟨i1, i2, i3⟩ := ih _ _ e2 (by rw [e3]; exact hne) w2 (by rw [w4]; exact ht)
    refine ⟨i1, by rw [i2, e3], ?_⟩
    rw [i3, w3, List.append_assoc, ← List.replicate_add]
    congr 2
    omega

/-! ## The model of the arithmetic coder: the end-of-message symbol and the halving -/

theorem UpdateModelPosition_eof (s2i : List Nat) (i2s : List Int) (f1 f2 f3 : Nat)
    (cu : List Nat) (index : Nat) (h1 : 1 ≤ f1) (hidx : index = 1 ∨ index = 2) :
    (UpdateModelPosition ⟨s2i, i2s, [0, f1, f2, f3], cu⟩ index).symbol_frequencies.getD 3 0
      = f3 := by
  rw [UpdateModelPosition_frequencies]
  dsimp only
  rcases hidx with hx | hx
  · subst hx
    rw [findPosition_one f1 f2 f3 h1]
    simp only [List.getD_cons_succ, List.getD_cons_zero, List.set_cons_succ, List.set_cons_zero]
  · subst hx
    by_cases heq : f2 = f1
    · subst heq
      rw [findPosition_two_eq f2 f3 h1]
      simp only [List.getD_cons_succ, List.getD_cons_zero, List.set_cons_succ,
        List.set_cons_zero]
    · rw [findPosition_two_ne f1 f2 f3 heq]
      simp only [List.getD_cons_succ, List.getD_cons_zero, List.set_cons_succ,
        List.set_cons_zero]

/-- C `UpdateModel` for the index of a source symbol leaves the frequency of the
end-of-message symbol at 1. -/
theorem UpdateModel_eof (m : bac_model_t) (h : m.WF) (he : m.symbol_frequencies.getD 3 0 = 1)
    (index : Nat) (hidx : index = 1 ∨ index = 2) :
    (UpdateModel m index).symbol_frequencies.getD 3 0 = 1 := by
  obtain ⟨f1, f2, f3, u, v, h1, h2, h3, hs, hf, hc, hsym⟩ := h
  obtain ⟨s2i, i2s, fr, cu⟩ := m
  simp only at hf hc hsym he
  subst hf hc
  simp only [List.getD_cons_succ, List.getD_cons_zero] at he
  subst he
  have hM : MAX_FREQUENCY = 16383 := by decide
  by_cases hmax : f1 + f2 + 1 = MAX_FREQUENCY
  · have hh := halveFrequencies_eq s2i i2s f1 f2 1 [f1 + f2 + 1, f2 + 1, 1, 0] rfl
      (by rw [hM] at hs; omega)
    unfold UpdateModel
    rw [if_pos (by simpa using hmax), hh]
    exact UpdateModelPosition_eof s2i i2s ((f1 + 1) / 2) ((f2 + 1) / 2) ((1 + 1) / 2) _ index
      (by omega) hidx
  · unfold UpdateModel
    rw [if_neg (by simpa using hmax)]
    exact UpdateModelPosition_eof s2i i2s f1 f2 1 _ index h1 hidx

theorem updates_eof : ∀ (ks : List Nat) (m : bac_model_t), m.WF →
    m.symbol_frequencies.getD 3 0 = 1 → (∀ k ∈ ks, k = 1 ∨ k = 2) →
    (ks.foldl UpdateModel m).WF ∧ (ks.foldl UpdateModel m).symbol_frequencies.getD 3 0 = 1 := by
  intro ks
  induction ks with
  | nil => intro m h1 h2 _; exact ⟨h1, h2⟩
  | cons k rest ih =>
    intro m h1 h2 hk
    have hk1 := hk k (List.mem_cons_self _ _)
    exact ih (UpdateModel m k) (UpdateModel_WF m h1 k hk1) (UpdateModel_eof m h1 h2 k hk1)
      (fun x hx => hk x (List.mem_cons_of_mem _ hx))

/-- What a well-formed model with the frequency 1 for the end-of-message symbol looks like. -/
theorem WF_fields (m : bac_model_t) (h : m.WF) (he : m.symbol_frequencies.getD 3 0 = 1) :
    m.Shaped ∧
    m.symbol_frequencies.getD 0 0 = 0 ∧
    (∀ i, 1 ≤ i → i ≤ 3 → 1 ≤ m.symbol_frequencies.getD i 0) ∧
    (∀ i, i ≤ 3 → m.cumulative_symbol_frequencies.getD i 0
      = (((List.range 4).filter (fun j => i < j)).map
          (fun j => m.symbol_frequencies.getD j 0)).sum) ∧
    m.cumulative_symbol_frequencies.getD 3 0 = 0 ∧
    m.cumulative_symbol_frequencies.getD 0 0
      = m.symbol_frequencies.getD 1 0 + m.symbol_frequencies.getD 2 0
        + m.symbol_frequencies.getD 3 0 ∧
    (∀ s, s < 2 → 1 ≤ m.symbol_to_index.getD s 0 ∧ m.symbol_to_index.getD s 0 ≤ 2 ∧
      m.index_to_symbol.getD (m.symbol_to_index.getD s 0) 0 = (s : Int)) ∧
    (∀ i, 1 ≤ i → i ≤ 2 → 0 ≤ m.index_to_symbol.getD i 0 ∧ m.index_to_symbol.getD i 0 < 2 ∧
      m.symbol_to_index.getD (m.index_to_symbol.getD i 0).toNat 0 = i) := by
  obtain ⟨f1, f2, f3, u, v, h1, h2, h3, hs, hf, hc, hsym⟩ := h
  obtain ⟨s2i, i2s, fr, cu⟩ := m
  simp only at hf hc hsym he
  subst hf hc
  simp only [List.getD_cons_succ, List.getD_cons_zero] at he
  subst he
  have hsh : (⟨s2i, i2s, [0, f1, f2, 1], [f1 + f2 + 1, f2 + 1, 1, 0]⟩ : bac_model_t).Shaped := by
    rcases hsym with ⟨a, b⟩ | ⟨a, b⟩ <;> subst a b <;> exact ⟨rfl, rfl, rfl, rfl⟩
  refine ⟨hsh, rfl, ?_, ?_, rfl, rfl, ?_, ?_⟩
  · intro i i1 i3
    have : i = 1 ∨ i = 2 ∨ i = 3 := by omega
    rcases this with e | e | e <;> subst e <;> simp [List.getD] <;> omega
  · intro i i3
    have : i = 0 ∨ i = 1 ∨ i = 2 ∨ i = 3 := by omega
    rcases this with e | e | e | e <;> subst e <;>
      simp [List.getD, List.range, List.range.loop, List.filter] <;> omega
  · intro s hs2
    have : s = 0 ∨ s = 1 := by omega
    rcases hsym with ⟨a, b⟩ | ⟨a, b⟩ <;> subst a b <;> rcases this with e | e <;> subst e <;>
      simp [List.getD]
  · intro i i1 i2
    have : i = 1 ∨ i = 2 := by omega
    rcases hsym with ⟨a, b⟩ | ⟨a, b⟩ <;> subst a b <;> rcases this with e | e <;> subst e <;>
      simp [List.getD]

/-- C36: after `InitModel` and after every sequence of `UpdateModel` calls for the indices 1
and 2, whatever the `static` arrays held before, the model is well formed: the arrays keep
their sizes; `freq[0] = 0` and `freq[i] ≥ 1` for `i` from 1 to 3; `cum[i]` is the sum of
`freq[j]` over `j > i`, so `cum[3] = 0` and `cum[0]` is the total; `symbol_to_index` maps the
source symbols 0 and 1 to the indices 1 and 2 and `index_to_symbol` maps them back, each the
inverse of the other; the end-of-message symbol has the index 3, which no source symbol is
moved to, and its frequency is 1. -/
theorem C36_bac_model_well_formed (m0 : bac_model_t) (ks : List Nat) (hm : m0.Shaped)
    (hks : ∀ k ∈ ks, k = 1 ∨ k = 2) :
    (ks.foldl UpdateModel (InitModel m0)).Shaped ∧
    (ks.foldl UpdateModel (InitModel m0)).symbol_frequencies.getD 0 0 = 0 ∧
    (∀ i, 1 ≤ i → i ≤ 3 → 1 ≤ (ks.foldl UpdateModel (InitModel m0)).symbol_frequencies.getD i 0) ∧
    (∀ i, i ≤ 3 → (ks.foldl UpdateModel (InitModel m0)).cumulative_symbol_frequencies.getD i 0
      = (((List.range 4).filter (fun j => i < j)).map
          (fun j => (ks.foldl UpdateModel (InitModel m0)).symbol_frequencies.getD j 0)).sum) ∧
    (ks.foldl UpdateModel (InitModel m0)).cumulative_symbol_frequencies.getD 3 0 = 0 ∧
    (ks.foldl UpdateModel (InitModel m0)).cumulative_symbol_frequencies.getD 0 0
      = (ks.foldl UpdateModel (InitModel m0)).symbol_frequencies.getD 1 0
        + (ks.foldl UpdateModel (InitModel m0)).symbol_frequencies.getD 2 0
        + (ks.foldl UpdateModel (InitModel m0)).symbol_frequencies.getD 3 0 ∧
    (∀ s, s < NUMBER_OF_SYMBOLS →
      1 ≤ (ks.foldl UpdateModel (InitModel m0)).symbol_to_index.getD s 0 ∧
      (ks.foldl UpdateModel (InitModel m0)).symbol_to_index.getD s 0 ≤ NUMBER_OF_SYMBOLS ∧
      (ks.foldl UpdateModel (InitModel m0)).index_to_symbol.getD
        ((ks.foldl UpdateModel (InitModel m0)).symbol_to_index.getD s 0) 0 = (s : Int)) ∧
    (∀ i, 1 ≤ i → i ≤ NUMBER_OF_SYMBOLS →
      0 ≤ (ks.foldl UpdateModel (InitModel m0)).index_to_symbol.getD i 0 ∧
      (ks.foldl UpdateModel (InitModel m0)).index_to_symbol.getD i 0 < NUMBER_OF_SYMBOLS ∧
      (ks.foldl UpdateModel (InitModel m0)).symbol_to_index.getD
        ((ks.foldl UpdateModel (InitModel m0)).index_to_symbol.getD i 0).toNat 0 = i) ∧
    EOF_SYMBOL_INDEX = 3 ∧
    (ks.foldl UpdateModel (InitModel m0)).symbol_frequencies.getD EOF_SYMBOL_INDEX 0 = 1 := by
  obtain ⟨w, -, -⟩ := InitModel_WF m0 hm
  have he : (InitModel m0).symbol_frequencies.getD 3 0 = 1 := by
    rw [InitModel_eq m0 hm]; rfl
  obtain ⟨u1, u2⟩ := updates_eof ks (InitModel m0) w he hks
  obtain ⟨a1, a2, a3, a4, a5, a6, a7, a8⟩ := WF_fields _ u1 u2
  exact ⟨a1, a2, a3, a4, a5, a6, a7, a8, rfl, u2⟩

/-- C36 on the model arrays at program start and the updates for the indices 2, 2, 1, 2. -/
theorem C36_bac_model_well_formed_witness :
    ([2, 2, 1, 2].foldl UpdateModel (InitModel zeroModel)).Shaped ∧
    ([2, 2, 1, 2].foldl UpdateModel (InitModel zeroModel)).symbol_frequencies.getD
      EOF_SYMBOL_INDEX 0 = 1 :=
  ⟨(C36_bac_model_well_formed zeroModel [2, 2, 1, 2] (by decide) (by decide)).1,
   (C36_bac_model_well_formed zeroModel [2, 2, 1, 2] (by decide) (by decide)).2.2.2.2.2.2.2.2.2⟩

/-- C39 (evaluation of the code at the failing input): the option table accepts the values
from 0 to `SIZE_MAX` for `num_values`. With `num_values = 0` and an input of one value, for
every bound on the number of iterations the outer loop of `Aggregate` is still running when the
bound is reached: every iteration leaves the input as it is and writes 32 zero bits. -/
theorem C39_aggregate_zero_group_size_never_ends :
    (FindOptionDescription (cstr "num_values")).map (fun o => (o.type, o.min_value, o.max_value))
      = some (option_type_t.OT_SIZE, 0, SIZE_MAX) ∧
    ∀ fuel : Nat,
      (Aggregate exampleAdd fuel (exampleInput [1, 0, 0, 0] 3) (exampleOutput 2)
        { SetDefaultOptions with num_values := 0 }).1 = OUT_OF_FUEL ∧
      (Aggregate exampleAdd fuel (exampleInput [1, 0, 0, 0] 3) (exampleOutput 2)
        { SetDefaultOptions with num_values := 0 }).2.1.rdBits
        = (exampleInput [1, 0, 0, 0] 3).rdBits ∧
      (Aggregate exampleAdd fuel (exampleInput [1, 0, 0, 0] 3) (exampleOutput 2)
        { SetDefaultOptions with num_values := 0 }).2.2.wrBits
        = List.replicate (32 * fuel) false := by
  refine ⟨by decide, fun fuel => ?_⟩
  have h := Aggregate_zero_num_values exampleAdd { SetDefaultOptions with num_values := 0 } rfl
    fuel (exampleInput [1, 0, 0, 0] 3) (exampleOutput 2) (by decide) (by decide) (by decide)
    (by decide)
  have hw : (exampleOutput 2).wrBits = [] := by decide
  rw [hw, List.nil_append] at h
  exact h

/-! ## The interval of the arithmetic decoder on arbitrary input bits -/

theorem DecodeRenormalize_stop (fuel : Nat) (c : bac_coder_t) (inb : bit_file_buffer_t)
    (hs : shiftOf c.start_range c.end_range = none) :
    DecodeRenormalize (fuel + 1) c inb = (NO_ERROR, c, inb) := by
  unfold shiftOf at hs
  by_cases h1 : c.end_range < HALF_RANGE_BORDER
  · rw [if_pos h1] at hs; cases hs
  · rw [if_neg h1] at hs
    by_cases h2 : c.start_range ≥ HALF_RANGE_BORDER
    · rw [if_pos h2] at hs; cases hs
    · rw [if_neg h2] at hs
      by_cases h3 : c.start_range ≥ QUARTER_RANGE_BORDER ∧
          c.end_range < THREE_QUARTERS_RANGE_BORDER
      · rw [if_pos h3] at hs; cases hs
      · unfold DecodeRenormalize
        simp only [h1, h2, h3, if_false]

theorem DecodeRenormalize_shift (fuel lo hi p v g : Nat) (inb : bit_file_buffer_t)
    (sh : bac_shift_t) (hs : shiftOf lo hi = some sh) (hlv : lo ≤ v) (hvh : v ≤ hi)
    (hhi : hi ≤ 65535) :
    DecodeRenormalize (fuel + 1) ⟨lo, hi, p, v, g⟩ inb
      = if (ReadBitSpecial ⟨2 * (lo - shiftBase sh), 2 * (hi - shiftBase sh) + 1, p,
            v - shiftBase sh, g⟩ inb).1 ≠ NO_ERROR then
          ((ReadBitSpecial ⟨2 * (lo - shiftBase sh), 2 * (hi - shiftBase sh) + 1, p,
              v - shiftBase sh, g⟩ inb).1,
           (ReadBitSpecial ⟨2 * (lo - shiftBase sh), 2 * (hi - shiftBase sh) + 1, p,
              v - shiftBase sh, g⟩ inb).2.2.1,
           (ReadBitSpecial ⟨2 * (lo - shiftBase sh), 2 * (hi - shiftBase sh) + 1, p,
              v - shiftBase sh, g⟩ inb).2.2.2)
        else DecodeRenormalize fuel
          (shiftInBit (ReadBitSpecial ⟨2 * (lo - shiftBase sh), 2 * (hi - shiftBase sh) + 1, p,
              v - shiftBase sh, g⟩ inb).2.2.1
            (ReadBitSpecial ⟨2 * (lo - shiftBase sh), 2 * (hi - shiftBase sh) + 1, p,
              v - shiftBase sh, g⟩ inb).2.1)
          (ReadBitSpecial ⟨2 * (lo - shiftBase sh), 2 * (hi - shiftBase sh) + 1, p,
              v - shiftBase sh, g⟩ inb).2.2.2 := by
  obtain ⟨b1, b2, -⟩ := shiftBase_le lo hi sh hs (le_trans hlv hvh) hhi
  obtain ⟨d1, d2⟩ := toRange_double (hi - shiftBase sh) b2
  obtain ⟨d3, -⟩ := toRange_double (lo - shiftBase sh) (by omega)
  have hdr : doubleRange ⟨lo - shiftBase sh, hi - shiftBase sh, p, v - shiftBase sh, g⟩
      = ⟨2 * (lo - shiftBase sh), 2 * (hi - shiftBase sh) + 1, p, v - shiftBase sh, g⟩ := by
    unfold doubleRange
    simp only [d2, d3]
  rw [← hdr]
  obtain ⟨c1, c2, c3, -⟩ := bac_constants
  have e1 : shiftBase .lower = 0 := rfl
  have e2 : shiftBase .upper = 32768 := by decide
  have e3 : shiftBase .middle = 16384 := by decide
  unfold shiftOf at hs
  by_cases h1 : hi < HALF_RANGE_BORDER
  · rw [if_pos h1] at hs
    cases hs
    conv_lhs => unfold DecodeRenormalize
    simp only [h1, if_true, e1, Nat.sub_zero]
  · rw [if_neg h1] at hs
    by_cases h2 : lo ≥ HALF_RANGE_BORDER
    · rw [if_pos h2] at hs
      cases hs
      rw [c2] at h1 h2
      conv_lhs => unfold DecodeRenormalize
      simp only [c2, h1, h2, if_true, if_false, e2,
        toRange_sub lo 32768 h2 (by omega), toRange_sub hi 32768 (by omega) hhi,
        toRange_sub v 32768 (by omega) (by omega)]
    · rw [if_neg h2] at hs
      by_cases h3 : lo ≥ QUARTER_RANGE_BORDER ∧ hi < THREE_QUARTERS_RANGE_BORDER
      · rw [if_pos h3] at hs
        cases hs
        rw [c2] at h1 h2
        rw [c1, c3] at h3
        conv_lhs => unfold DecodeRenormalize
        simp only [c1, c2, c3, h1, h2, h3, and_self, if_true, if_false, e3,
          toRange_sub lo 16384 h3.1 (by omega), toRange_sub hi 16384 (by omega) hhi,
          toRange_sub v 16384 (by omega) (by omega)]
      · rw [if_neg h3] at hs; cases hs

/-- The renormalisation loop of `DecodeSymbol` on any input: it ends within its bound, with
`NO_ERROR` when the input and the allowance of bits after its end suffice; then the range
straddles the centre, is not inside the middle half, and holds the current value. -/
theorem DecodeRenormalize_inv : ∀ (fuel lo hi p v g : Nat) (inb : bit_file_buffer_t),
    lo ≤ v → v ≤ hi → hi ≤ 65535 → 65536 < (hi - lo + 1) * 2 ^ fuel → inb.RdWF →
    (DecodeRenormalize fuel ⟨lo, hi, p, v, g⟩ inb).2.2.RdWF ∧
    ((DecodeRenormalize fuel ⟨lo, hi, p, v, g⟩ inb).1 = NO_ERROR ∨
      (DecodeRenormalize fuel ⟨lo, hi, p, v, g⟩ inb).1 = ERROR_INVALID_FORMAT) ∧
    ((DecodeRenormalize fuel ⟨lo, hi, p, v, g⟩ inb).1 = NO_ERROR →
      RangeOK (DecodeRenormalize fuel ⟨lo, hi, p, v, g⟩ inb).2.1.start_range
        (DecodeRenormalize fuel ⟨lo, hi, p, v, g⟩ inb).2.1.end_range ∧
      (DecodeRenormalize fuel ⟨lo, hi, p, v, g⟩ inb).2.1.start_range
        ≤ (DecodeRenormalize fuel ⟨lo, hi, p, v, g⟩ inb).2.1.current_value ∧
      (DecodeRenormalize fuel ⟨lo, hi, p, v, g⟩ inb).2.1.current_value
        ≤ (DecodeRenormalize fuel ⟨lo, hi, p, v, g⟩ inb).2.1.end_range) ∧
    (fuel ≤ inb.rdBits.length + g + 1 →
      (DecodeRenormalize fuel ⟨lo, hi, p, v, g⟩ inb).1 = NO_ERROR) := by
  intro fuel
  induction fuel with
  | zero => intro lo hi p v g inb h1 h2 h3 h4; omega
  | succ fuel ih =>
    intro lo hi p v g inb hlv hvh hhi hfuel hin
    cases hs : shiftOf lo hi with
    | none =>
      rw [DecodeRenormalize_stop fuel ⟨lo, hi, p, v, g⟩ inb hs]
      exact ⟨hin, Or.inl rfl, fun _ => ⟨shiftOf_none lo hi hs hhi, hlv, hvh⟩, fun _ => rfl⟩
    | some sh =>
      rw [DecodeRenormalize_shift fuel lo hi p v g inb sh hs hlv hvh hhi]
      obtain ⟨b1, b2, b3⟩ := shiftBase_le lo hi sh hs (le_trans hlv hvh) hhi
      have hw := shiftOf_width lo hi sh hs (le_trans hlv hvh) hhi
      have hpow : (hi - lo + 1) * 2 ^ (fuel + 1) = 2 * (hi - lo + 1) * 2 ^ fuel := by
        rw [Nat.pow_succ]; ring
      rw [hpow] at hfuel
      have hf1 : 1 ≤ fuel := by
        rcases Nat.eq_zero_or_pos fuel with h0 | h0
        · rw [h0] at hfuel; omega
        · exact h0
      obtain ⟨B, hB⟩ : ∃ B, B = shiftBase sh := ⟨_, rfl⟩
      rw [← hB] at b1 b2 b3 ⊢
      by_cases hav : 0 < inb.rdBits.length ∨ 0 < g
      · obtain ⟨q1, q2, q3, q4, q5⟩ := ReadBitSpecial_spec
          ⟨2 * (lo - B), 2 * (hi - B) + 1, p, v - B, g⟩ inb inb.rdBits 0 hin rfl hav
        obtain ⟨b, hb, hbe⟩ : ∃ b, b ≤ 1 ∧ (if inb.rdBits.getD 0 false then 1 else 0) = b := by
          by_cases hx : inb.rdBits.getD 0 false = true
          · exact ⟨1, le_refl _, by rw [if_pos hx]⟩
          · exact ⟨0, by omega, by rw [if_neg hx]⟩
        rw [hbe] at q2
        obtain ⟨g', hg'⟩ : ∃ g', g' = (if 0 < inb.rdBits.length then g else g - 1) := ⟨_, rfl⟩
        rw [← hg'] at q3
        have hne0 : ¬ (NO_ERROR ≠ NO_ERROR) := fun h => h rfl
        rw [q1, if_neg hne0, q2, q3]
        have hsh : shiftInBit ⟨2 * (lo - B), 2 * (hi - B) + 1, p, v - B, g'⟩ b
            = ⟨2 * (lo - B), 2 * (hi - B) + 1, p, 2 * (v - B) + b, g'⟩ := by
          unfold shiftInBit
          have : toRange (2 * ((v - B : Nat) : Int) + ((b % 2 ^ 16 : Nat) : Int))
              = 2 * (v - B) + b := by
            unfold toRange; omega
          simp only [this]
        rw [hsh]
        have hwid : 2 * (hi - B) + 1 - 2 * (lo - B) + 1 = 2 * (hi - lo + 1) := by omega
        obtain ⟨i1, i2, i3, i4⟩ := ih (2 * (lo - B)) (2 * (hi - B) + 1) p (2 * (v - B) + b) g'
          (ReadBitSpecial ⟨2 * (lo - B), 2 * (hi - B) + 1, p, v - B, g⟩ inb).2.2.2
          (by omega) (by omega) b2 (by rw [hwid]; exact hfuel) q4
        refine ⟨i1, i2, i3, fun hsuf => i4 ?_⟩
        rw [q5, List.length_drop, hg']
        split <;> omega
      · obtain ⟨r1, -, r3, -⟩ := ReadBitSpecial_any
          ⟨2 * (lo - B), 2 * (hi - B) + 1, p, v - B, g⟩ inb hin
        have hnil : inb.rdBits = [] := by
          cases hr : inb.rdBits with
          | nil => rfl
          | cons x t => rw [hr] at hav; simp at hav
        have hg0 : g = 0 := by omega
        have herr := r3.mpr ⟨hnil, hg0⟩
        rw [herr, if_pos (by decide)]
        refine ⟨r1, Or.inr rfl, fun h => ?_, fun hsuf => ?_⟩
        · have h' : ERROR_INVALID_FORMAT = NO_ERROR := h
          exact absurd h' (by decide)
        rw [hnil] at hsuf
        simp only [List.length_nil] at hsuf
        omega

/-- A value inside the range lies in the sub-range of exactly one of the three indices. -/
theorem value_index (m : bac_model_t) (hm : m.WF) (lo hi v : Nat) (hr : RangeOK lo hi)
    (hv1 : lo ≤ v) (hv2 : v ≤ hi) :
    ∃ index, 1 ≤ index ∧ index ≤ 3 ∧
      (narrowPure m.cumulative_symbol_frequencies lo hi index).1 ≤ v ∧
      v ≤ (narrowPure m.cumulative_symbol_frequencies lo hi index).2 := by
  obtain ⟨r1, r2, r3⟩ := RangeOK_width lo hi hr
  obtain ⟨f1, f2, f3, u, w, g1, g2, g3, hs, hf, hc, -⟩ := hm
  rw [hc]
  have hT : 0 < f1 + f2 + f3 := by omega
  have hfull : (hi - lo + 1) * (f1 + f2 + f3) / (f1 + f2 + f3) = hi - lo + 1 :=
    Nat.mul_div_cancel _ hT
  obtain ⟨A1, hA1⟩ : ∃ A1, A1 = (hi - lo + 1) * (f2 + f3) / (f1 + f2 + f3) := ⟨_, rfl⟩
  obtain ⟨A2, hA2⟩ : ∃ A2, A2 = (hi - lo + 1) * f3 / (f1 + f2 + f3) := ⟨_, rfl⟩
  by_cases c3 : v - lo < A2
  · refine ⟨3, by omega, le_refl _, ?_, ?_⟩
    · simp only [narrowPure, List.getD_cons_succ, List.getD_cons_zero, Nat.mul_zero,
        Nat.zero_div, Nat.add_zero]
      exact hv1
    · simp only [narrowPure, List.getD_cons_succ, List.getD_cons_zero, ← hA2]
      omega
  · by_cases c2 : v - lo < A1
    · refine ⟨2, by omega, by omega, ?_, ?_⟩
      · simp only [narrowPure, List.getD_cons_succ, List.getD_cons_zero, ← hA2]
        omega
      · simp only [narrowPure, List.getD_cons_succ, List.getD_cons_zero, ← hA1]
        omega
    · refine ⟨1, le_refl _, by omega, ?_, ?_⟩
      · simp only [narrowPure, List.getD_cons_succ, List.getD_cons_zero, ← hA1]
        omega
      · simp only [narrowPure, List.getD_cons_succ, List.getD_cons_zero, Nat.sub_self, hfull]
        omega

/-- C `DecodeSymbol` on any input bits, from a range between two symbols that holds the
current value: the decoded index is 1, 2 or 3, the call returns `NO_ERROR` or
`ERROR_INVALID_FORMAT`, and `NO_ERROR` when 16 bits are left, the allowance included; after
`NO_ERROR` the range is again one between two symbols and holds the current value. -/
theorem DecodeSymbol_inv (m : bac_model_t) (hm : m.WF) (c : bac_coder_t)
    (inb : bit_file_buffer_t) (hr : RangeOK c.start_range c.end_range)
    (hv1 : c.start_range ≤ c.current_value) (hv2 : c.current_value ≤ c.end_range)
    (hin : inb.RdWF) :
    1 ≤ (DecodeSymbol m c inb).2.1 ∧ (DecodeSymbol m c inb).2.1 ≤ 3 ∧
    (narrowPure m.cumulative_symbol_frequencies c.start_range c.end_range
      (DecodeSymbol m c inb).2.1).1 ≤ c.current_value ∧
    c.current_value ≤ (narrowPure m.cumulative_symbol_frequencies c.start_range c.end_range
      (DecodeSymbol m c inb).2.1).2 ∧
    (DecodeSymbol m c inb).2.2.2.RdWF ∧
    ((DecodeSymbol m c inb).1 = NO_ERROR ∨ (DecodeSymbol m c inb).1 = ERROR_INVALID_FORMAT) ∧
    ((DecodeSymbol m c inb).1 = NO_ERROR →
      RangeOK (DecodeSymbol m c inb).2.2.1.start_range (DecodeSymbol m c inb).2.2.1.end_range ∧
      (DecodeSymbol m c inb).2.2.1.start_range ≤ (DecodeSymbol m c inb).2.2.1.current_value ∧
      (DecodeSymbol m c inb).2.2.1.current_value ≤ (DecodeSymbol m c inb).2.2.1.end_range) ∧
    (RANGE_BITS ≤ inb.rdBits.length + c.after_eof_bits → (DecodeSymbol m c inb).1 = NO_ERROR) := by
  obtain ⟨index, h1, h3, w1, w2⟩ := value_index m hm _ _ _ hr hv1 hv2
  obtain ⟨n1, n2, n3⟩ := narrow_facts m hm _ _ index hr h1 h3
  obtain ⟨r1, r2, r3⟩ := RangeOK_width _ _ hr
  have hidx := decode_index m hm c index hr h1 h3 w1 w2
  have hn := narrowRange_eq m hm c index hr h1 h3
  obtain ⟨lo, hi, p, v, g⟩ := c
  simp only at hr hv1 hv2 w1 w2 n1 n2 n3 r1 r2 r3 hidx hn ⊢
  obtain ⟨i1, i2, i3, i4⟩ := DecodeRenormalize_inv (RANGE_BITS + 1)
    (narrowPure m.cumulative_symbol_frequencies lo hi index).1
    (narrowPure m.cumulative_symbol_frequencies lo hi index).2 p v g inb w1 w2 (by omega)
    (narrow_fuel _ _ n2) hin
  have hd : DecodeSymbol m ⟨lo, hi, p, v, g⟩ inb
      = ((DecodeRenormalize (RANGE_BITS + 1)
            ⟨(narrowPure m.cumulative_symbol_frequencies lo hi index).1,
             (narrowPure m.cumulative_symbol_frequencies lo hi index).2, p, v, g⟩ inb).1,
          index,
         (DecodeRenormalize (RANGE_BITS + 1)
            ⟨(narrowPure m.cumulative_symbol_frequencies lo hi index).1,
             (narrowPure m.cumulative_symbol_frequencies lo hi index).2, p, v, g⟩ inb).2.1,
         (DecodeRenormalize (RANGE_BITS + 1)
            ⟨(narrowPure m.cumulative_symbol_frequencies lo hi index).1,
             (narrowPure m.cumulative_symbol_frequencies lo hi index).2, p, v, g⟩ inb).2.2) := by
    unfold DecodeSymbol
    simp only []
    rw [hidx, hn]
  rw [hd]
  refine ⟨h1, h3, w1, w2, i1, i2, i3, fun h => i4 ?_⟩
  have : RANGE_BITS = 16 := rfl
  omega

theorem toRange_le (x : Int) : toRange x ≤ 65535 := by
  unfold toRange
  omega

/-- The loop of `StartDecoding` on any input bits. -/
theorem StartDecodingLoop_inv : ∀ (n : Nat) (c : bac_coder_t) (inb : bit_file_buffer_t),
    inb.RdWF → c.current_value ≤ 65535 →
    (StartDecodingLoop n c inb).2.2.RdWF ∧
    ((StartDecodingLoop n c inb).1 = NO_ERROR ∨
      (StartDecodingLoop n c inb).1 = ERROR_INVALID_FORMAT) ∧
    ((StartDecodingLoop n c inb).1 = NO_ERROR →
      (StartDecodingLoop n c inb).2.1.current_value ≤ 65535) := by
  intro n
  induction n with
  | zero =>
    intro c inb hin hv
    exact ⟨hin, Or.inl rfl, fun _ => hv⟩
  | succ n ih =>
    intro c inb hin hv
    obtain ⟨r1, -, -, r4⟩ := ReadBitSpecial_any c inb hin
    by_cases hf : (ReadBitSpecial c inb).1 = ERROR_INVALID_FORMAT
    · unfold StartDecodingLoop
      simp only [hf]
      rw [if_pos (by decide)]
      refine ⟨r1, Or.inr rfl, fun h => ?_⟩
      have h' : ERROR_INVALID_FORMAT = NO_ERROR := h
      exact absurd h' (by decide)
    · have hok : (ReadBitSpecial c inb).1 = NO_ERROR := by
        rcases r4 with h4 | h4
        · exact absurd h4 hf
        · exact h4
      have hne0 : ¬ (NO_ERROR ≠ NO_ERROR) := fun h => h rfl
      unfold StartDecodingLoop
      simp only [hok, hne0, if_false]
      have hs : (shiftInBit (ReadBitSpecial c inb).2.2.1
          (ReadBitSpecial c inb).2.1).current_value ≤ 65535 := by
        unfold shiftInBit
        dsimp only
        exact toRange_le _
      exact ih _ _ r1 hs

/-- C `StartDecoding` on any input bits: it fails with `ERROR_INVALID_FORMAT` or returns
`NO_ERROR` with the full range and a current value inside it. -/
theorem StartDecoding_inv (c : bac_coder_t) (inb : bit_file_buffer_t) (hin : inb.RdWF) :
    (StartDecoding c inb).2.2.RdWF ∧
    ((StartDecoding c inb).1 = NO_ERROR ∨ (StartDecoding c inb).1 = ERROR_INVALID_FORMAT) ∧
    ((StartDecoding c inb).1 = NO_ERROR →
      (StartDecoding c inb).2.1.start_range = 0 ∧
      (StartDecoding c inb).2.1.end_range = MAX_RANGE ∧
      (StartDecoding c inb).2.1.current_value ≤ MAX_RANGE) := by
  obtain ⟨l1, l2, l3⟩ := StartDecodingLoop_inv RANGE_BITS
    { c with current_value := 0, after_eof_bits := RANGE_BITS - 2 } inb hin (Nat.zero_le _)
  have hne0 : ¬ (NO_ERROR ≠ NO_ERROR) := fun h => h rfl
  rcases l2 with hok | herr
  · unfold StartDecoding
    simp only [hok, hne0, if_false]
    exact ⟨l1, Or.inl trivial, fun _ => ⟨trivial, trivial, l3 hok⟩⟩
  · unfold StartDecoding
    simp only [herr]
    rw [if_pos (by decide)]
    refine ⟨l1, Or.inr herr, fun h => ?_⟩
    rw [herr] at h
    exact absurd h (by decide)

/-- C37: under a well-formed model (its total is at most `MAX_FREQUENCY`) the interval of the
coder is kept between two symbols, `RangeOK`: `start_range < HALF_RANGE_BORDER ≤ end_range` and
not both `start_range ≥ QUARTER_RANGE_BORDER` and `end_range < THREE_QUARTERS_RANGE_BORDER`.
This holds after `StartEncoding`, after every `EncodeSymbol` (which returns `NO_ERROR` when the
output has room), after every `StartDecoding` that returns `NO_ERROR` and after every
`DecodeSymbol` that returns `NO_ERROR`, whatever the input bits are; the decoder also keeps
`start_range ≤ current_value ≤ end_range`. Such an interval is wider than
`QUARTER_RANGE_BORDER`, which is above the total frequency, so the sub-interval of each of the
three indices is not empty. The decoder calls return `NO_ERROR` or `ERROR_INVALID_FORMAT`, and
`NO_ERROR` when enough bits are left. -/
theorem C37_bac_interval_invariant (m : bac_model_t) (hm : m.WF) :
    (∀ c0 : bac_coder_t,
      RangeOK (StartEncoding c0).start_range (StartEncoding c0).end_range) ∧
    (∀ (c : bac_coder_t) (index : Nat) (out : bit_file_buffer_t),
      RangeOK c.start_range c.end_range → 1 ≤ index → index ≤ 3 → out.WrWF →
      out.Room (emitShifts (renormTrace (RANGE_BITS + 1)
        (narrowPure m.cumulative_symbol_frequencies c.start_range c.end_range index).1
        (narrowPure m.cumulative_symbol_frequencies c.start_range c.end_range index).2).1
        c.next_bits).1.length →
      c.next_bits + (RANGE_BITS + 1) < 2 ^ 64 →
      (EncodeSymbol index m c out).1 = NO_ERROR ∧
      RangeOK (EncodeSymbol index m c out).2.1.start_range
        (EncodeSymbol index m c out).2.1.end_range) ∧
    (∀ (c0 : bac_coder_t) (inb : bit_file_buffer_t), inb.RdWF →
      ((StartDecoding c0 inb).1 = NO_ERROR ∨ (StartDecoding c0 inb).1 = ERROR_INVALID_FORMAT) ∧
      (2 ≤ inb.rdBits.length → (StartDecoding c0 inb).1 = NO_ERROR) ∧
      ((StartDecoding c0 inb).1 = NO_ERROR →
        RangeOK (StartDecoding c0 inb).2.1.start_range (StartDecoding c0 inb).2.1.end_range ∧
        (StartDecoding c0 inb).2.1.start_range ≤ (StartDecoding c0 inb).2.1.current_value ∧
        (StartDecoding c0 inb).2.1.current_value ≤ (StartDecoding c0 inb).2.1.end_range)) ∧
    (∀ (c : bac_coder_t) (inb : bit_file_buffer_t),
      RangeOK c.start_range c.end_range → c.start_range ≤ c.current_value →
      c.current_value ≤ c.end_range → inb.RdWF →
      ((DecodeSymbol m c inb).1 = NO_ERROR ∨ (DecodeSymbol m c inb).1 = ERROR_INVALID_FORMAT) ∧
      (RANGE_BITS ≤ inb.rdBits.length + c.after_eof_bits → (DecodeSymbol m c inb).1 = NO_ERROR) ∧
      ((DecodeSymbol m c inb).1 = NO_ERROR →
        RangeOK (DecodeSymbol m c inb).2.2.1.start_range (DecodeSymbol m c inb).2.2.1.end_range ∧
        (DecodeSymbol m c inb).2.2.1.start_range ≤ (DecodeSymbol m c inb).2.2.1.current_value ∧
        (DecodeSymbol m c inb).2.2.1.current_value ≤ (DecodeSymbol m c inb).2.2.1.end_range)) ∧
    (∀ lo hi : Nat, RangeOK lo hi →
      lo < HALF_RANGE_BORDER ∧ HALF_RANGE_BORDER ≤ hi ∧
      ¬ (lo ≥ QUARTER_RANGE_BORDER ∧ hi < THREE_QUARTERS_RANGE_BORDER) ∧
      QUARTER_RANGE_BORDER < hi - lo + 1 ∧
      m.cumulative_symbol_frequencies.getD 0 0 < QUARTER_RANGE_BORDER ∧
      ∀ index, 1 ≤ index → index ≤ 3 →
        1 ≤ m.symbol_frequencies.getD index 0 ∧
        lo ≤ (narrowPure m.cumulative_symbol_frequencies lo hi index).1 ∧
        (narrowPure m.cumulative_symbol_frequencies lo hi index).1
          ≤ (narrowPure m.cumulative_symbol_frequencies lo hi index).2 ∧
        (narrowPure m.cumulative_symbol_frequencies lo hi index).2 ≤ hi ∧
        ∀ c : bac_coder_t, c.start_range = lo → c.end_range = hi →
          (narrowRange m c index).start_range
            = (narrowPure m.cumulative_symbol_frequencies lo hi index).1 ∧
          (narrowRange m c index).end_range
            = (narrowPure m.cumulative_symbol_frequencies lo hi index).2) := by
  obtain ⟨c1, c2, c3, c4, c5, c6, -⟩ := bac_constants
  refine ⟨fun c0 => ?_, fun c index out hr h1 h3 hout hroom hp => ?_, fun c0 inb hin => ?_,
    fun c inb hr hv1 hv2 hin => ?_, fun lo hi hr => ?_⟩
  · unfold StartEncoding RangeOK
    rw [c1, c2, c3, c4]
    dsimp only
    omega
  · obtain ⟨n1, n2, n3⟩ := narrow_facts m hm _ _ index hr h1 h3
    obtain ⟨r1, r2, r3⟩ := RangeOK_width _ _ hr
    obtain ⟨t1, -⟩ := renormTrace_spec (RANGE_BITS + 1) _ _ n2 (by omega) (narrow_fuel _ _ n2)
    obtain ⟨e1, e2, -, -, -⟩ := EncodeSymbol_spec m hm c index out hr h1 h3 hout hroom hp
    rw [e2]
    exact ⟨e1, t1⟩
  · obtain ⟨-, s2, s3⟩ := StartDecoding_inv c0 inb hin
    refine ⟨s2, fun h2 => (StartDecoding_spec c0 inb inb.rdBits h2 hin rfl).1, fun hok => ?_⟩
    obtain ⟨a1, a2, a3⟩ := s3 hok
    rw [a1, a2]
    refine ⟨?_, Nat.zero_le _, a3⟩
    unfold RangeOK
    rw [c1, c2, c3, c4]
    omega
  · obtain ⟨-, -, -, -, -, d6, d7, d8⟩ := DecodeSymbol_inv m hm c inb hr hv1 hv2 hin
    exact ⟨d6, d8, d7⟩
  · obtain ⟨r1, r2, r3⟩ := RangeOK_width lo hi hr
    obtain ⟨w1, w2, w3, w4⟩ := WF_cum m hm 1 (le_refl _) (by decide)
    have hr' := hr
    obtain ⟨g1, g2, g3, g4⟩ := hr
    refine ⟨g1, g2, ?_, by rw [c1]; exact r3, by rw [c1]; omega, fun index h1 h3 => ?_⟩
    · rw [c1, c3] at g4 ⊢
      omega
    · obtain ⟨n1, n2, n3⟩ := narrow_facts m hm lo hi index hr' h1 h3
      refine ⟨?_, n1, n2, n3, fun c hs he => ?_⟩
      · obtain ⟨f1, f2, f3, u, v, k1, k2, k3, -, hf, -, -⟩ := hm
        rw [hf]
        have : index = 1 ∨ index = 2 ∨ index = 3 := by omega
        rcases this with e | e | e <;> subst e <;> simp [List.getD] <;> omega
      · have hn := narrowRange_eq m hm c index (by rw [hs, he]; exact hr') h1 h3
        rw [hn, hs, he]
        exact ⟨rfl, rfl⟩

/-- C37 on the model after `InitModel`: the range after `StartEncoding` and after the coding
of the index 1. -/
theorem C37_bac_interval_invariant_witness :
    RangeOK (StartEncoding zeroCoder).start_range (StartEncoding zeroCoder).end_range ∧
    RangeOK (EncodeSymbol 1 ⟨[1, 2], [0, 0, 1, 0], [0, 1, 1, 1], [3, 2, 1, 0]⟩
        (StartEncoding zeroCoder) (exampleOutput 1)).2.1.start_range
      (EncodeSymbol 1 ⟨[1, 2], [0, 0, 1, 0], [0, 1, 1, 1], [3, 2, 1, 0]⟩
        (StartEncoding zeroCoder) (exampleOutput 1)).2.1.end_range :=
  ⟨(C37_bac_interval_invariant ⟨[1, 2], [0, 0, 1, 0], [0, 1, 1, 1], [3, 2, 1, 0]⟩
      ⟨1, 1, 1, 0, 0, by decide, by decide, by decide, by decide, rfl, rfl,
        Or.inl ⟨rfl, rfl⟩⟩).1 zeroCoder,
   ((C37_bac_interval_invariant ⟨[1, 2], [0, 0, 1, 0], [0, 1, 1, 1], [3, 2, 1, 0]⟩
      ⟨1, 1, 1, 0, 0, by decide, by decide, by decide, by decide, rfl, rfl,
        Or.inl ⟨rfl, rfl⟩⟩).2.1 (StartEncoding zeroCoder) 1 (exampleOutput 1) (by decide)
      (by decide) (by decide) (by decide) (by decide) (by decide)).2⟩

/-! ## LZMH: the iterations of the encoder -/

set_option maxHeartbeats 4000000 in
/-- The body of the main loop of `EncodeLZMH` in terms of the parts of an iteration. -/
theorem EncodeLZMHLoop_body (fuel : Nat) (s : lzmh_encoder_t) :
    EncodeLZMHLoop (fuel + 1) s
      = if (EndOfBitFileBuffer s.in_bit_buf).1 = 0 ∨ s.internBufferWrite ≠ s.internBufferRead then
          (match LOG_ON_ERROR_AND_RETURN
              (WriteSingleValueToBitFileBuffer
                (lzCoded { s with in_bit_buf := (EndOfBitFileBuffer s.in_bit_buf).2 }).1.out_bit_buf
                ((lzCoded { s with in_bit_buf := (EndOfBitFileBuffer s.in_bit_buf).2 }).2.2 >>>
                  (CODE_BUFFER -
                    (lzCoded { s with in_bit_buf := (EndOfBitFileBuffer s.in_bit_buf).2 }).2.1).toNat)
                (toU64 (lzCoded { s with in_bit_buf := (EndOfBitFileBuffer s.in_bit_buf).2 }).2.1)).1
              (toU64 (lzCoded { s with in_bit_buf := (EndOfBitFileBuffer s.in_bit_buf).2 }).2.1) with
           | some ret =>
             (ret, (encodeStep { s with in_bit_buf := (EndOfBitFileBuffer s.in_bit_buf).2 }).2)
           | none =>
             match (encodeStep { s with in_bit_buf := (EndOfBitFileBuffer s.in_bit_buf).2 }).1 with
             | some ret =>
               (ret, (encodeStep { s with in_bit_buf := (EndOfBitFileBuffer s.in_bit_buf).2 }).2)
             | none => EncodeLZMHLoop fuel
                 (encodeStep { s with in_bit_buf := (EndOfBitFileBuffer s.in_bit_buf).2 }).2)
        else (NO_ERROR, { s with in_bit_buf := (EndOfBitFileBuffer s.in_bit_buf).2 }) := by
  rw [EncodeLZMHLoop]
  dsimp only
  by_cases hc : (EndOfBitFileBuffer s.in_bit_buf).1 = 0 ∨ s.internBufferWrite ≠ s.internBufferRead
  · rw [if_pos hc, if_pos hc]
    cases hX : LOG_ON_ERROR_AND_RETURN
        (WriteSingleValueToBitFileBuffer
          (lzCoded { s with in_bit_buf := (EndOfBitFileBuffer s.in_bit_buf).2 }).1.out_bit_buf
          ((lzCoded { s with in_bit_buf := (EndOfBitFileBuffer s.in_bit_buf).2 }).2.2 >>>
            (CODE_BUFFER -
              (lzCoded { s with in_bit_buf := (EndOfBitFileBuffer s.in_bit_buf).2 }).2.1).toNat)
          (toU64 (lzCoded { s with in_bit_buf := (EndOfBitFileBuffer s.in_bit_buf).2 }).2.1)).1
        (toU64 (lzCoded { s with in_bit_buf := (EndOfBitFileBuffer s.in_bit_buf).2 }).2.1) with
    | none =>
      have hs : encodeStep { s with in_bit_buf := (EndOfBitFileBuffer s.in_bit_buf).2 }
          = fillBufferNext (INTERN_BUFFER_LENGTH + 1)
              { (lzCoded { s with in_bit_buf := (EndOfBitFileBuffer s.in_bit_buf).2 }).1 with
                out_bit_buf := (WriteSingleValueToBitFileBuffer
                  (lzCoded { s with in_bit_buf := (EndOfBitFileBuffer s.in_bit_buf).2 }).1.out_bit_buf
                  ((lzCoded { s with in_bit_buf := (EndOfBitFileBuffer s.in_bit_buf).2 }).2.2 >>>
                    (CODE_BUFFER -
                      (lzCoded { s with in_bit_buf := (EndOfBitFileBuffer s.in_bit_buf).2 }).2.1).toNat)
                  (toU64 (lzCoded { s with in_bit_buf := (EndOfBitFileBuffer s.in_bit_buf).2 }).2.1)).2
                internBufferHistory := lzHistory
                  { (lzCoded { s with in_bit_buf := (EndOfBitFileBuffer s.in_bit_buf).2 }).1 with
                    out_bit_buf := (WriteSingleValueToBitFileBuffer
                      (lzCoded { s with in_bit_buf := (EndOfBitFileBuffer s.in_bit_buf).2 }).1.out_bit_buf
                      ((lzCoded { s with in_bit_buf := (EndOfBitFileBuffer s.in_bit_buf).2 }).2.2 >>>
                        (CODE_BUFFER -
                          (lzCoded { s with in_bit_buf := (EndOfBitFileBuffer s.in_bit_buf).2 }).2.1).toNat)
                      (toU64 (lzCoded
                        { s with in_bit_buf := (EndOfBitFileBuffer s.in_bit_buf).2 }).2.1)).2 } } := by
        unfold encodeStep
        simp only [hX]
      rw [hs]
      exact (congrArg (fun x : Option Int => (match x with
        | some ret => (ret, _)
        | none => _ : Int × lzmh_encoder_t)) hX).trans rfl
    | some ret =>
      have hs : encodeStep { s with in_bit_buf := (EndOfBitFileBuffer s.in_bit_buf).2 }
          = (some ret,
              { (lzCoded { s with in_bit_buf := (EndOfBitFileBuffer s.in_bit_buf).2 }).1 with
                out_bit_buf := (WriteSingleValueToBitFileBuffer
                  (lzCoded { s with in_bit_buf := (EndOfBitFileBuffer s.in_bit_buf).2 }).1.out_bit_buf
                  ((lzCoded { s with in_bit_buf := (EndOfBitFileBuffer s.in_bit_buf).2 }).2.2 >>>
                    (CODE_BUFFER -
                      (lzCoded { s with in_bit_buf := (EndOfBitFileBuffer s.in_bit_buf).2 }).2.1).toNat)
                  (toU64 (lzCoded
                    { s with in_bit_buf := (EndOfBitFileBuffer s.in_bit_buf).2 }).2.1)).2 }) := by
        unfold encodeStep
        simp only [hX]
      rw [hs]
      exact (congrArg (fun x : Option Int => (match x with
        | some ret => (ret, _)
        | none => _ : Int × lzmh_encoder_t)) hX).trans rfl
  · rw [if_neg hc, if_neg hc]

/-- The main loop of `EncodeLZMH` runs `encodeStep` while its condition holds. -/
theorem EncodeLZMHLoop_step (fuel : Nat) (s : lzmh_encoder_t) :
    EncodeLZMHLoop (fuel + 1) s
      = if (EndOfBitFileBuffer s.in_bit_buf).1 = 0 ∨ s.internBufferWrite ≠ s.internBufferRead then
          (match (encodeStep { s with in_bit_buf := (EndOfBitFileBuffer s.in_bit_buf).2 }).1 with
           | some ret =>
             (ret, (encodeStep { s with in_bit_buf := (EndOfBitFileBuffer s.in_bit_buf).2 }).2)
           | none => EncodeLZMHLoop fuel
               (encodeStep { s with in_bit_buf := (EndOfBitFileBuffer s.in_bit_buf).2 }).2)
        else (NO_ERROR, { s with in_bit_buf := (EndOfBitFileBuffer s.in_bit_buf).2 }) := by
  rw [EncodeLZMHLoop_body]
  by_cases hc : (EndOfBitFileBuffer s.in_bit_buf).1 = 0 ∨ s.internBufferWrite ≠ s.internBufferRead
  · rw [if_pos hc, if_pos hc]
    cases hX : LOG_ON_ERROR_AND_RETURN
        (WriteSingleValueToBitFileBuffer
          (lzCoded { s with in_bit_buf := (EndOfBitFileBuffer s.in_bit_buf).2 }).1.out_bit_buf
          ((lzCoded { s with in_bit_buf := (EndOfBitFileBuffer s.in_bit_buf).2 }).2.2 >>>
            (CODE_BUFFER -
              (lzCoded { s with in_bit_buf := (EndOfBitFileBuffer s.in_bit_buf).2 }).2.1).toNat)
          (toU64 (lzCoded { s with in_bit_buf := (EndOfBitFileBuffer s.in_bit_buf).2 }).2.1)).1
        (toU64 (lzCoded { s with in_bit_buf := (EndOfBitFileBuffer s.in_bit_buf).2 }).2.1) with
    | none => rfl
    | some ret =>
      have hs : (encodeStep { s with in_bit_buf := (EndOfBitFileBuffer s.in_bit_buf).2 }).1
          = some ret := by
        unfold encodeStep
        simp only [hX]
      simp only [hs]
  · rw [if_neg hc, if_neg hc]

theorem EncodeLZMH_start (fuel : Nat) (internBuffer : List Nat) (list : List HUFFLIST)
    (in_bit_buf out_bit_buf : bit_file_buffer_t)
    (h : (fillBufferFirst (INTERN_BUFFER_LENGTH + 1)
      { in_bit_buf := in_bit_buf, out_bit_buf := out_bit_buf,
        offsets := [0, 0, 0, 0],
        list := list.map (fun h => { h with count := 0 }),
        internBuffer := internBuffer,
        internBufferWrite := 0, internBufferRead := 0, internBufferHistory := 0 }).1 = none) :
    EncodeLZMH fuel internBuffer list in_bit_buf out_bit_buf
      = ((EncodeLZMHLoop fuel (encodeStart internBuffer list in_bit_buf out_bit_buf)).1,
         (EncodeLZMHLoop fuel (encodeStart internBuffer list in_bit_buf out_bit_buf)).2.in_bit_buf,
         (EncodeLZMHLoop fuel (encodeStart internBuffer list in_bit_buf out_bit_buf)).2.out_bit_buf) := by
  unfold EncodeLZMH encodeStart
  simp only [h]

/-! ## LZMH: the history search of the encoder -/

theorem getPosInBufferUp_eq : ∀ (fuel : Nat) (pos : Int), (pos < 0 → -pos ≤ fuel) →
    getPosInBufferUp fuel pos 403 = if pos < 0 then pos % 403 else pos := by
  intro fuel
  induction fuel with
  | zero =>
    intro pos h
    have : ¬ pos < 0 := by
      intro hn
      have := h hn
      omega
    rw [if_neg this]
    rfl
  | succ fuel ih =>
    intro pos h
    unfold getPosInBufferUp
    by_cases hn : pos < 0
    · rw [if_pos hn, if_pos hn]
      have h1 := h hn
      rw [ih (pos + ((403 : Nat) : Int)) (by intro h2; push_cast at h1 ⊢; omega)]
      push_cast
      split <;> omega
    · rw [if_neg hn, if_neg hn]

theorem getPosInBufferDown_eq : ∀ (fuel : Nat) (pos : Int), 0 ≤ pos → pos < 403 * (fuel + 1) →
    getPosInBufferDown fuel pos 403 = pos % 403 := by
  intro fuel
  induction fuel with
  | zero =>
    intro pos h0 h1
    unfold getPosInBufferDown
    omega
  | succ fuel ih =>
    intro pos h0 h1
    unfold getPosInBufferDown
    by_cases hn : pos ≥ ((403 : Nat) : Int)
    · rw [if_pos hn]
      push_cast at hn h1
      rw [ih (pos - ((403 : Nat) : Int)) (by push_cast; omega) (by push_cast; omega)]
      push_cast
      omega
    · rw [if_neg hn]
      push_cast at hn
      omega

/-- C `getPosInBuffer` for the ring buffer of the encoder is the remainder modulo its size. -/
theorem getPosInBuffer_eq (pos : Int) : getPosInBuffer pos INTERN_BUFFER_LENGTH = ringPos pos := by
  have hN : INTERN_BUFFER_LENGTH = 403 := rfl
  unfold getPosInBuffer ringPos
  obtain ⟨n, hn1, hn2, hn3⟩ : ∃ n : Nat, n = pos.natAbs ∧ pos ≤ (n : Int) ∧ -pos ≤ (n : Int) :=
    ⟨pos.natAbs, rfl, Int.le_natAbs, by
      have := @Int.le_natAbs (-pos)
      rwa [Int.natAbs_neg] at this⟩
  rw [hN, ← hn1, getPosInBufferUp_eq (n + 1) pos (by intro h; push_cast; omega)]
  by_cases hn : pos < 0
  · rw [if_pos hn, getPosInBufferDown_eq _ _ (by omega) (by push_cast; omega)]
    push_cast
    congr 1
    omega
  · rw [if_neg hn, getPosInBufferDown_eq _ _ (by omega) (by push_cast; omega)]
    push_cast
    rfl

theorem ringPos_of_lt (read : Nat) (h : read < 403) : ringPos (read : Int) = read := by
  unfold ringPos
  have hN : INTERN_BUFFER_LENGTH = 403 := rfl
  rw [hN]
  push_cast
  omega

/-- The length of the longest prefix of `s, s + 1, ...` (`n` numbers) on which `p` holds. -/
theorem takeWhile_range_spec (p : Nat → Bool) : ∀ (n s : Nat),
    ((List.range' s n).takeWhile p).length ≤ n ∧
    (∀ j, j < ((List.range' s n).takeWhile p).length → p (s + j) = true) ∧
    (((List.range' s n).takeWhile p).length < n →
      p (s + ((List.range' s n).takeWhile p).length) = false) := by
  intro n
  induction n with
  | zero =>
    intro s
    simp
  | succ n ih =>
    intro s
    obtain ⟨i1, i2, i3⟩ := ih (s + 1)
    rw [List.range'_succ]
    by_cases hp : p s = true
    · rw [List.takeWhile_cons_of_pos hp, List.length_cons]
      refine ⟨by omega, ?_, ?_⟩
      · intro j hj
        rcases Nat.eq_zero_or_pos j with h0 | h0
        · rw [h0]; exact hp
        · have := i2 (j - 1) (by omega)
          have e : s + 1 + (j - 1) = s + j := by omega
          rw [e] at this
          exact this
      · intro hk
        have := i3 (by omega)
        have e : s + 1 + ((List.range' (s + 1) n).takeWhile p).length
            = s + (((List.range' (s + 1) n).takeWhile p).length + 1) := by omega
        rw [e] at this
        exact this
    · rw [List.takeWhile_cons_of_neg hp, List.length_nil]
      refine ⟨by omega, fun j hj => by omega, fun _ => ?_⟩
      simpa using hp

/-- The three properties that determine the length of the match at the offset `o`. -/
theorem matchCount_spec (buf : List Nat) (read o cap : Nat) :
    matchCount buf read o cap ≤ cap ∧
    (∀ j, j < matchCount buf read o cap →
      buf.getD (ringPos ((read : Int) + j - o)) 0 = buf.getD (ringPos ((read : Int) + j)) 0) ∧
    (matchCount buf read o cap < cap →
      buf.getD (ringPos ((read : Int) + (matchCount buf read o cap : Nat) - o)) 0
        ≠ buf.getD (ringPos ((read : Int) + (matchCount buf read o cap : Nat))) 0) := by
  obtain ⟨h1, h2, h3⟩ := takeWhile_range_spec (fun j =>
    decide (buf.getD (ringPos ((read : Int) + j - o)) 0
      = buf.getD (ringPos ((read : Int) + j)) 0)) cap 0
  rw [← List.range_eq_range'] at h1 h2 h3
  unfold matchCount
  refine ⟨h1, fun j hj => ?_, fun hk => ?_⟩
  · have := h2 j hj
    rw [Nat.zero_add] at this
    exact of_decide_eq_true this
  · have := h3 hk
    rw [Nat.zero_add] at this
    exact of_decide_eq_false this

/-- A number with the three properties is the length of the match. -/
theorem matchCount_unique (buf : List Nat) (read o cap L : Nat) (h1 : L ≤ cap)
    (h2 : ∀ j, j < L →
      buf.getD (ringPos ((read : Int) + j - o)) 0 = buf.getD (ringPos ((read : Int) + j)) 0)
    (h3 : L < cap →
      buf.getD (ringPos ((read : Int) + (L : Nat) - o)) 0
        ≠ buf.getD (ringPos ((read : Int) + (L : Nat))) 0) :
    matchCount buf read o cap = L := by
  obtain ⟨m1, m2, m3⟩ := matchCount_spec buf read o cap
  rcases Nat.lt_trichotomy (matchCount buf read o cap) L with h | h | h
  · exact absurd (h2 _ h) (m3 (by omega))
  · exact h
  · exact absurd (m2 _ h) (h3 (by omega))

/-- The inner loop of the history search counts on from `len` to the end of the match. -/
theorem matchLength_spec (buf : List Nat) (read o cap : Nat) :
    ∀ (fuel len : Nat), cap < fuel + len → len ≤ cap →
    (∀ j, j < len →
      buf.getD (ringPos ((read : Int) + j - o)) 0 = buf.getD (ringPos ((read : Int) + j)) 0) →
    matchLength fuel buf read (o : Int) (cap : Int) (len : Int)
      = ((matchCount buf read o cap : Nat) : Int) := by
  intro fuel
  induction fuel with
  | zero =>
    intro len hf hl _
    omega
  | succ fuel ih =>
    intro len hf hl hj
    unfold matchLength
    rw [getPosInBuffer_eq, getPosInBuffer_eq]
    have e1 : (read : Int) - (o : Int) + (len : Int) = (read : Int) + (len : Nat) - o := by omega
    rw [e1]
    by_cases hc : (len : Int) < (cap : Int) ∧
        buf.getD (ringPos ((read : Int) + (len : Nat) - o)) 0
          = buf.getD (ringPos ((read : Int) + (len : Nat))) 0
    · rw [if_pos hc]
      have hlt : len < cap := by omega
      have := ih (len + 1) (by omega) (by omega) (fun j hj' => by
        rcases Nat.lt_succ_iff_lt_or_eq.mp hj' with h | h
        · exact hj j h
        · rw [h]; exact hc.2)
      rw [← this]
      push_cast
      rfl
    · rw [if_neg hc]
      congr 1
      symm
      apply matchCount_unique buf read o cap len hl hj
      intro hlt heq
      exact hc ⟨by omega, heq⟩

theorem foldl_max_le : ∀ (l : List Nat) (a b : Nat), a ≤ b → (∀ x ∈ l, x ≤ b) →
    l.foldl max a ≤ b
  | [], _, _, h, _ => h
  | x :: l, a, b, h, hl => foldl_max_le l (max a x) b
      (Nat.max_le.mpr ⟨h, hl x (List.mem_cons_self _ _)⟩)
      (fun y hy => hl y (List.mem_cons_of_mem _ hy))

theorem le_foldl_max : ∀ (l : List Nat) (a : Nat), a ≤ l.foldl max a ∧ ∀ x ∈ l, x ≤ l.foldl max a
  | [], a => ⟨le_refl _, fun x hx => by cases hx⟩
  | y :: l, a => by
    obtain ⟨h1, h2⟩ := le_foldl_max l (max a y)
    refine ⟨le_trans (Nat.le_max_left a y) h1, fun x hx => ?_⟩
    rcases List.mem_cons.mp hx with h | h
    · rw [h]; exact le_trans (Nat.le_max_right a y) h1
    · exact h2 x h

/-- A bound of all lengths that is 2 or one of the lengths is the longest match. -/
theorem bestMatch_eq (buf : List Nat) (read mo cap b : Nat) (h2 : 2 ≤ b)
    (hall : ∀ o, 1 ≤ o → o ≤ mo → matchCount buf read o cap ≤ b)
    (hex : b = 2 ∨ ∃ o, 1 ≤ o ∧ o ≤ mo ∧ matchCount buf read o cap = b) :
    bestMatch buf read mo cap = b := by
  unfold bestMatch
  apply Nat.le_antisymm
  · apply foldl_max_le _ _ _ h2
    intro x hx
    obtain ⟨k, hk, rfl⟩ := List.mem_map.mp hx
    exact hall (k + 1) (by omega) (by have := List.mem_range.mp hk; omega)
  · obtain ⟨g1, g2⟩ := le_foldl_max
      ((List.range mo).map (fun k => matchCount buf read (k + 1) cap)) 2
    rcases hex with h | ⟨o, o1, o2, ho⟩
    · rw [h]; exact g1
    · rw [← ho]
      apply g2
      apply List.mem_map.mpr
      exact ⟨o - 1, List.mem_range.mpr (by omega), by
        have : o - 1 + 1 = o := by omega
        rw [this]⟩

/-- The quick check of the history search fails only at an offset whose match is not longer
than the best one so far. -/
theorem quick_check_of_longer (buf : List Nat) (read off cap bl : Nat) (hread : read < 403)
    (h : bl < matchCount buf read off cap) :
    buf.getD (ringPos ((read : Int) - (off : Int))) 0 = buf.getD read 0 ∧
    buf.getD (ringPos ((read : Int) - (off : Int) + (bl : Int))) 0
      = buf.getD (ringPos ((read : Int) + (bl : Int))) 0 := by
  obtain ⟨_, m2, _⟩ := matchCount_spec buf read off cap
  have a := m2 0 (by omega)
  have b := m2 bl h
  have e0 : (read : Int) + ((0 : Nat) : Int) - (off : Int) = (read : Int) - (off : Int) := by
    push_cast; omega
  have e1 : (read : Int) + ((0 : Nat) : Int) = (read : Int) := by push_cast; omega
  have e2 : (read : Int) + (bl : Int) - (off : Int) = (read : Int) - (off : Int) + (bl : Int) := by
    omega
  rw [e0, e1, ringPos_of_lt read hread] at a
  rw [e2] at b
  exact ⟨a, b⟩

/-- The outer loop of the history search: the best length is the longest match over the
offsets seen, and the best offset is the smallest offset with a match of that length. -/
theorem searchHistory_spec (buf : List Nat) (read mo cap : Nat) (hread : read < 403)
    (hcap : cap ≤ 274) :
    ∀ (fuel off bl bo : Nat), mo < fuel + off → 1 ≤ off → 2 ≤ bl →
    (∀ o, 1 ≤ o → o < off → o ≤ mo → matchCount buf read o cap ≤ bl) →
    (bl = 2 ∧ bo = 0 ∨
      (3 ≤ bl ∧ 1 ≤ bo ∧ bo ≤ mo ∧ matchCount buf read bo cap = bl ∧
        ∀ o, 1 ≤ o → o < bo → matchCount buf read o cap < bl)) →
    ∃ bl1 bo1 : Nat,
      searchHistory fuel buf read (mo : Int) (cap : Int) (off : Int) (bl : Int) (bo : Int)
        = ((bl1 : Int), (bo1 : Int)) ∧ 2 ≤ bl1 ∧
      (∀ o, 1 ≤ o → o ≤ mo → matchCount buf read o cap ≤ bl1) ∧
      (bl1 = 2 ∧ bo1 = 0 ∨
        (3 ≤ bl1 ∧ 1 ≤ bo1 ∧ bo1 ≤ mo ∧ matchCount buf read bo1 cap = bl1 ∧
          ∀ o, 1 ≤ o → o < bo1 → matchCount buf read o cap < bl1)) := by
  intro fuel
  induction fuel with
  | zero =>
    intro off bl bo hf ho hb hall hbest
    exact ⟨bl, bo, rfl, hb, fun o o1 o2 => hall o o1 (by omega) o2, hbest⟩
  | succ fuel ih =>
    intro off bl bo hf ho hb hall hbest
    unfold searchHistory
    by_cases c1 : (off : Int) ≤ (mo : Int) ∧ (bl : Int) < (cap : Int)
    · rw [if_pos c1]
      have hom : off ≤ mo := by omega
      have hbc : bl < cap := by omega
      have hoff : (off : Int) + 1 = ((off + 1 : Nat) : Int) := by push_cast; rfl
      rw [getPosInBuffer_eq, getPosInBuffer_eq, getPosInBuffer_eq, hoff]
      by_cases c2 : buf.getD (ringPos ((read : Int) - (off : Int))) 0 = buf.getD read 0 ∧
          buf.getD (ringPos ((read : Int) - (off : Int) + (bl : Int))) 0
            = buf.getD (ringPos ((read : Int) + (bl : Int))) 0
      · rw [if_pos c2]
        have hml : matchLength (LZ_MAX_LENGTH + 1) buf read (off : Int) (cap : Int) 1
            = ((matchCount buf read off cap : Nat) : Int) := by
          have := matchLength_spec buf read off cap 275 1 (by omega) (by omega) (fun j hj => by
            have hj0 : j = 0 := by omega
            rw [hj0]
            have e0 : (read : Int) + ((0 : Nat) : Int) - (off : Int)
                = (read : Int) - (off : Int) := by push_cast; omega
            have e1 : (read : Int) + ((0 : Nat) : Int) = (read : Int) := by push_cast; omega
            rw [e0, e1, ringPos_of_lt read hread]
            exact c2.1)
          rw [← this]
          rfl
        dsimp only
        rw [hml]
        by_cases c3 : ((matchCount buf read off cap : Nat) : Int) > (bl : Int)
        · rw [if_pos c3]
          have hgt : bl < matchCount buf read off cap := by omega
          apply ih (off + 1) (matchCount buf read off cap) off (by omega) (by omega) (by omega)
          · intro o o1 o2 o3
            rcases Nat.lt_succ_iff_lt_or_eq.mp o2 with h | h
            · exact le_trans (hall o o1 h o3) (by omega)
            · rw [h]
          · right
            refine ⟨by omega, ho, hom, rfl, fun o o1 o2 => ?_⟩
            exact lt_of_le_of_lt (hall o o1 o2 (by omega)) hgt
        · rw [if_neg c3]
          have hle : matchCount buf read off cap ≤ bl := by omega
          apply ih (off + 1) bl bo (by omega) (by omega) hb
          · intro o o1 o2 o3
            rcases Nat.lt_succ_iff_lt_or_eq.mp o2 with h | h
            · exact hall o o1 h o3
            · rw [h]; exact hle
          · exact hbest
      · rw [if_neg c2]
        have hle : matchCount buf read off cap ≤ bl := by
          by_contra hn
          exact c2 (quick_check_of_longer buf read off cap bl hread (by omega))
        apply ih (off + 1) bl bo (by omega) (by omega) hb
        · intro o o1 o2 o3
          rcases Nat.lt_succ_iff_lt_or_eq.mp o2 with h | h
          · exact hall o o1 h o3
          · rw [h]; exact hle
        · exact hbest
    · rw [if_neg c1]
      refine ⟨bl, bo, rfl, hb, fun o o1 o2 => ?_, hbest⟩
      by_cases h : o < off
      · exact hall o o1 h o2
      · have : cap ≤ bl := by omega
        exact le_trans (matchCount_spec buf read o cap).1 this

/-- The filling of the ring buffer moves neither the read cursor nor the start of the
history. -/
theorem fillBufferNext_fields : ∀ (fuel : Nat) (s : lzmh_encoder_t),
    (fillBufferNext fuel s).2.internBufferRead = s.internBufferRead ∧
    (fillBufferNext fuel s).2.internBufferHistory = s.internBufferHistory := by
  intro fuel
  induction fuel with
  | zero => intro s; exact ⟨rfl, rfl⟩
  | succ fuel ih =>
    intro s
    unfold fillBufferNext
    dsimp only
    split
    · split
      · exact ⟨rfl, rfl⟩
      · exact ih _
    · exact ⟨rfl, rfl⟩

theorem fillBufferFirst_fields : ∀ (fuel : Nat) (s : lzmh_encoder_t),
    (fillBufferFirst fuel s).2.internBufferRead = s.internBufferRead ∧
    (fillBufferFirst fuel s).2.internBufferHistory = s.internBufferHistory := by
  intro fuel
  induction fuel with
  | zero => intro s; exact ⟨rfl, rfl⟩
  | succ fuel ih =>
    intro s
    unfold fillBufferFirst
    dsimp only
    split
    · split
      · exact ⟨rfl, rfl⟩
      · exact ih _
    · exact ⟨rfl, rfl⟩

/-- The main loop of `EncodeLZMH` starts with the read cursor and the history at 0. -/
theorem encodeStart_fields (internBuffer : List Nat) (list : List HUFFLIST)
    (inb outb : bit_file_buffer_t) :
    (encodeStart internBuffer list inb outb).internBufferRead = 0 ∧
    (encodeStart internBuffer list inb outb).internBufferHistory = 0 := by
  unfold encodeStart
  dsimp only
  exact fillBufferFirst_fields _ _

/-- The limit of the offsets is a number up to 128. -/
theorem lzMaxOffset_nat (s : lzmh_encoder_t)
    (hh : s.internBufferHistory = 0 → s.internBufferRead ≤ LZ_MAX_OFFSET) :
    lzMaxOffset s = (((lzMaxOffset s).toNat : Nat) : Int) ∧
    (lzMaxOffset s).toNat ≤ LZ_MAX_OFFSET := by
  have h128 : LZ_MAX_OFFSET = 128 := rfl
  rw [h128] at hh ⊢
  obtain ⟨k, hk, hk2⟩ : ∃ k : Nat, lzMaxOffset s = (k : Int) ∧ k ≤ 128 := by
    unfold lzMaxOffset
    by_cases h : s.internBufferHistory ≠ 0
    · rw [if_pos h]; exact ⟨128, rfl, le_refl _⟩
    · rw [if_neg h]
      have := hh (not_not.mp h)
      exact ⟨s.internBufferRead % 256, rfl, by omega⟩
  rw [hk]
  exact ⟨by simp, by simpa using hk2⟩

/-- The limit of the lengths is a number up to 274. -/
theorem lzMaxLength_nat (s : lzmh_encoder_t) :
    lzMaxLength s = (((lzMaxLength s).toNat : Nat) : Int) ∧
    (lzMaxLength s).toNat ≤ LZ_MAX_LENGTH := by
  have h274 : LZ_MAX_LENGTH = 274 := rfl
  have h403 : INTERN_BUFFER_LENGTH = 403 := rfl
  obtain ⟨k, hk, hk2⟩ : ∃ k : Nat, lzMaxLength s = (k : Int) ∧ k ≤ 274 := by
    unfold lzMaxLength
    rw [h274, h403]
    split
    · refine ⟨_, rfl, ?_⟩
      split <;> omega
    · split
      · refine ⟨_, rfl, ?_⟩
        split <;> omega
      · exact ⟨274, rfl, le_refl _⟩
  rw [hk, h274]
  exact ⟨by simp, by simpa using hk2⟩

/-- The history search of an iteration finds the longest match and the smallest offset that
has it. -/
theorem lzBest_spec (s : lzmh_encoder_t) (hr : s.internBufferRead < INTERN_BUFFER_LENGTH)
    (hh : s.internBufferHistory = 0 → s.internBufferRead ≤ LZ_MAX_OFFSET) :
    ∃ bl bo : Nat, lzBest s = ((bl : Int), (bo : Int)) ∧ 2 ≤ bl ∧
      bl = bestMatch s.internBuffer s.internBufferRead (lzMaxOffset s).toNat
        (lzMaxLength s).toNat ∧
      (∀ o, 1 ≤ o → o ≤ (lzMaxOffset s).toNat →
        matchCount s.internBuffer s.internBufferRead o (lzMaxLength s).toNat ≤ bl) ∧
      (bl = 2 ∧ bo = 0 ∨
        (3 ≤ bl ∧ 1 ≤ bo ∧ bo ≤ (lzMaxOffset s).toNat ∧
          matchCount s.internBuffer s.internBufferRead bo (lzMaxLength s).toNat = bl ∧
          ∀ o, 1 ≤ o → o < bo →
            matchCount s.internBuffer s.internBufferRead o (lzMaxLength s).toNat < bl)) := by
  obtain ⟨o1, o2⟩ := lzMaxOffset_nat s hh
  obtain ⟨l1, l2⟩ := lzMaxLength_nat s
  have h128 : LZ_MAX_OFFSET = 128 := rfl
  have h274 : LZ_MAX_LENGTH = 274 := rfl
  rw [h128] at o2
  rw [h274] at l2
  obtain ⟨bl, bo, hs, hb, hall, hbest⟩ := searchHistory_spec s.internBuffer s.internBufferRead
    (lzMaxOffset s).toNat (lzMaxLength s).toNat hr l2 129 1 2 0 (by omega) (le_refl _)
    (le_refl _) (fun o a b _ => by omega) (Or.inl ⟨rfl, rfl⟩)
  refine ⟨bl, bo, ?_, hb, ?_, hall, hbest⟩
  · unfold lzBest
    rw [o1, l1]
    exact hs
  · symm
    apply bestMatch_eq _ _ _ _ _ hb hall
    rcases hbest with h | h
    · exact Or.inl h.1
    · exact Or.inr ⟨bo, h.2.1, h.2.2.1, h.2.2.2.1⟩

/-- The coding of a back-reference: the symbol list stays, the read cursor moves on by the
length of the match, and the code is the code of the offset followed by that of the length. -/
theorem lzCoded_backreference (s : lzmh_encoder_t) (h : (lzBest s).1 ≥ 3) :
    (lzCoded s).1.list = s.list ∧
    (lzCoded s).1.internBufferHistory = s.internBufferHistory ∧
    (lzCoded s).1.offsets = (encodeOffset s.offsets (lzBest s).2 0 0).1 ∧
    (lzCoded s).1.internBufferRead
      = (if s.internBufferRead + (lzBest s).1.toNat ≥ INTERN_BUFFER_LENGTH
         then s.internBufferRead + (lzBest s).1.toNat - INTERN_BUFFER_LENGTH
         else s.internBufferRead + (lzBest s).1.toNat) ∧
    (lzCoded s).2 = encodeLength (lzBest s).1 (encodeOffset s.offsets (lzBest s).2 0 0).2.1
      (encodeOffset s.offsets (lzBest s).2 0 0).2.2 := by
  unfold lzCoded
  rw [if_pos h]
  exact ⟨rfl, rfl, rfl, rfl, rfl⟩

/-- The coding of a literal: the offsets stay, the read cursor moves on by one byte, and the
symbol list is the one after the coding of the byte at the read cursor. -/
theorem lzCoded_literal (s : lzmh_encoder_t) (h : ¬ (lzBest s).1 ≥ 3) :
    (lzCoded s).1.offsets = s.offsets ∧
    (lzCoded s).1.internBufferHistory = s.internBufferHistory ∧
    (lzCoded s).1.list = lzLiteralList s.list (s.internBuffer.getD s.internBufferRead 0) ∧
    (lzCoded s).1.internBufferRead
      = (if s.internBufferRead + 1 ≥ INTERN_BUFFER_LENGTH
         then s.internBufferRead + 1 - INTERN_BUFFER_LENGTH else s.internBufferRead + 1) ∧
    (lzCoded s).2.1 = toI8 (0 +
      (if (searchSymbol (HUFF_LIST_LENGTH + 1) s.list
            (s.internBuffer.getD s.internBufferRead 0) 0).2.1 < TREE_LENGHT
       then ((tree.getD (searchSymbol (HUFF_LIST_LENGTH + 1) s.list
            (s.internBuffer.getD s.internBufferRead 0) 0).2.1 default).length : Int)
       else ((HUFF_BYTE_LENGTH + 2 : Nat) : Int))) := by
  unfold lzCoded
  rw [if_neg h]
  dsimp only
  split
  · exact ⟨rfl, rfl, rfl, rfl, rfl⟩
  · exact ⟨rfl, rfl, rfl, rfl, rfl⟩

/-- An iteration that does not return keeps the read cursor inside the ring buffer and, while
the history starts at 0, within the first 128 bytes. -/
theorem encodeStep_inv (s : lzmh_encoder_t) (hr : s.internBufferRead < INTERN_BUFFER_LENGTH)
    (hh : s.internBufferHistory = 0 → s.internBufferRead ≤ LZ_MAX_OFFSET)
    (hn : (encodeStep s).1 = none) :
    (encodeStep s).2.internBufferRead < INTERN_BUFFER_LENGTH ∧
    ((encodeStep s).2.internBufferHistory = 0 →
      (encodeStep s).2.internBufferRead ≤ LZ_MAX_OFFSET) := by
  have h128 : LZ_MAX_OFFSET = 128 := rfl
  have h403 : INTERN_BUFFER_LENGTH = 403 := rfl
  have hread : (lzCoded s).1.internBufferRead < 403 := by
    by_cases h : (lzBest s).1 ≥ 3
    · obtain ⟨bl, bo, hs, hb, _, hall, hbest⟩ := lzBest_spec s hr hh
      have hcap := (lzMaxLength_nat s).2
      have h274 : LZ_MAX_LENGTH = 274 := rfl
      rw [h274] at hcap
      have hbl : bl ≤ 274 := by
        rcases hbest with h2 | h2
        · omega
        · rw [← h2.2.2.2.1]
          exact le_trans (matchCount_spec _ _ _ _).1 hcap
      rw [(lzCoded_backreference s h).2.2.2.1, hs, h403]
      rw [h403] at hr
      dsimp only
      rw [Int.toNat_ofNat]
      split <;> omega
    · rw [(lzCoded_literal s h).2.2.2.1, h403]
      rw [h403] at hr
      split <;> omega
  unfold encodeStep at hn ⊢
  dsimp only at hn ⊢
  cases hX : LOG_ON_ERROR_AND_RETURN
      (WriteSingleValueToBitFileBuffer (lzCoded s).1.out_bit_buf
        ((lzCoded s).2.2 >>> (CODE_BUFFER - (lzCoded s).2.1).toNat) (toU64 (lzCoded s).2.1)).1
      (toU64 (lzCoded s).2.1) with
  | some ret =>
    rw [hX] at hn
    exact absurd hn (by simp)
  | none =>
    dsimp only
    obtain ⟨f1, f2⟩ := fillBufferNext_fields (INTERN_BUFFER_LENGTH + 1)
      { (lzCoded s).1 with
        out_bit_buf := (WriteSingleValueToBitFileBuffer (lzCoded s).1.out_bit_buf
          ((lzCoded s).2.2 >>> (CODE_BUFFER - (lzCoded s).2.1).toNat)
          (toU64 (lzCoded s).2.1)).2
        internBufferHistory := lzHistory { (lzCoded s).1 with
          out_bit_buf := (WriteSingleValueToBitFileBuffer (lzCoded s).1.out_bit_buf
            ((lzCoded s).2.2 >>> (CODE_BUFFER - (lzCoded s).2.1).toNat)
            (toU64 (lzCoded s).2.1)).2 } }
    rw [f1, f2]
    dsimp only
    rw [h403, h128]
    refine ⟨hread, ?_⟩
    unfold lzHistory
    dsimp only
    rw [h403, h128]
    split
    · split <;> omega
    · split <;> omega

/-! ## LZMH: the symbol list -/

theorem getD_set_eq {α : Type} (l : List α) (i : Nat) (a d : α) (h : i < l.length) :
    (l.set i a).getD i d = a := by
  rw [List.getD_eq_getElem?_getD, List.getElem?_set, if_pos rfl, if_pos h]
  rfl

theorem getD_set_ne {α : Type} (l : List α) (i j : Nat) (a d : α) (h : i ≠ j) :
    (l.set i a).getD j d = l.getD j d := by
  rw [List.getD_eq_getElem?_getD, List.getElem?_set, if_neg h, List.getD_eq_getElem?_getD]

theorem default_count : (default : HUFFLIST).count = 0 := rfl

/-- The entries of a list that is split in two, by position. -/
theorem getD_append_split {α : Type} (P t : List α) (d : α) :
    (∀ j, j < P.length → ∃ h : j < P.length, (P ++ t).getD j d = P[j]) ∧
    (∀ n, (P ++ t).getD (P.length + n) d = t.getD n d) := by
  refine ⟨fun j hj => ⟨hj, ?_⟩, fun n => ?_⟩
  · rw [List.getD_eq_getElem?_getD, List.getElem?_append_left hj, List.getElem?_eq_getElem hj]
    rfl
  · rw [List.getD_eq_getElem?_getD, List.getElem?_append_right (by omega),
      List.getD_eq_getElem?_getD]
    congr 2
    omega

/-- The occupied prefix ends at the first entry that is not occupied. -/
theorem occupiedPrefix_split (list : List HUFFLIST) :
    ∃ t, occupiedPrefix list ++ t = list ∧
      (∀ h ∈ occupiedPrefix list, h.count > 0) ∧
      ¬ (list.getD (occupiedPrefix list).length default).count > 0 := by
  unfold occupiedPrefix
  induction list with
  | nil =>
    refine ⟨[], rfl, fun h hh => absurd hh (List.not_mem_nil _), ?_⟩
    intro h
    exact absurd h (by decide)
  | cons x l ih =>
    obtain ⟨t, h1, h2, h3⟩ := ih
    by_cases hx : x.count > 0
    · have hd : List.takeWhile (fun h : HUFFLIST => decide (h.count > 0)) (x :: l)
          = x :: List.takeWhile (fun h : HUFFLIST => decide (h.count > 0)) l := by
        simp [List.takeWhile_cons, hx]
      rw [hd]
      refine ⟨t, by rw [List.cons_append, h1], fun h hh => ?_, ?_⟩
      · rcases List.mem_cons.mp hh with e | e
        · rw [e]; exact hx
        · exact h2 h e
      · rw [List.length_cons, List.getD_cons_succ]
        exact h3
    · have hd : List.takeWhile (fun h : HUFFLIST => decide (h.count > 0)) (x :: l) = [] := by
        simp [List.takeWhile_cons, hx]
      rw [hd]
      refine ⟨x :: l, rfl, fun h hh => absurd hh (List.not_mem_nil _), ?_⟩
      rw [List.length_nil, List.getD_cons_zero]
      exact hx

/-- The occupied prefix has `k` entries when the first `k` entries are occupied and the entry
`k` is not. -/
theorem occupiedPrefix_length (list : List HUFFLIST) (k : Nat)
    (h1 : ∀ j, j < k → (list.getD j default).count > 0)
    (h2 : ¬ (list.getD k default).count > 0) :
    (occupiedPrefix list).length = k := by
  obtain ⟨t, e, p1, p2⟩ := occupiedPrefix_split list
  obtain ⟨s1, _⟩ := getD_append_split (occupiedPrefix list) t default
  rw [e] at s1
  rcases Nat.lt_trichotomy (occupiedPrefix list).length k with h | h | h
  · exact absurd (h1 _ h) p2
  · exact h
  · obtain ⟨hk, ek⟩ := s1 k h
    rw [ek] at h2
    exact absurd (p1 _ (List.getElem_mem _)) h2

/-- The condition on the symbol list, by positions. -/
theorem HuffInv_iff (list : List HUFFLIST) :
    HuffInv list ↔ HuffIdx list (occupiedPrefix list).length := by
  obtain ⟨t, e, p1, p2⟩ := occupiedPrefix_split list
  obtain ⟨s1, s2⟩ := getD_append_split (occupiedPrefix list) t default
  rw [e] at s1 s2
  have hdrop : list.drop (occupiedPrefix list).length = t := by
    have := List.drop_left (occupiedPrefix list) t
    rw [e] at this
    exact this
  have hlen : (occupiedPrefix list).length ≤ list.length := by
    conv_rhs => rw [← e]
    rw [List.length_append]
    omega
  unfold HuffInv HuffIdx
  rw [hdrop]
  constructor
  · rintro ⟨a1, a2, a3, a4, a5⟩
    refine ⟨a1, a1 ▸ hlen, fun j hj => ?_, fun a b hab hb => ?_, fun j hj => ?_,
      fun a b hab hb => ?_⟩
    · obtain ⟨n, rfl⟩ : ∃ n, j = (occupiedPrefix list).length + n :=
        ⟨j - (occupiedPrefix list).length, by omega⟩
      rw [s2 n]
      by_cases hn : n < t.length
      · rw [List.getD_eq_getElem _ _ hn]
        exact a2 _ (List.getElem_mem _)
      · rw [List.getD_eq_getElem?_getD, List.getElem?_eq_none (by omega)]
        rfl
    · obtain ⟨ha, ea⟩ := s1 a (by omega)
      obtain ⟨hb', eb⟩ := s1 b hb
      rw [ea, eb]
      have := List.pairwise_iff_getElem.mp a3 a b (by rw [List.length_map]; exact ha)
        (by rw [List.length_map]; exact hb') hab
      rw [List.getElem_map, List.getElem_map] at this
      exact this
    · obtain ⟨hj', ej⟩ := s1 j hj
      rw [ej]
      exact a4 _ (List.getElem_mem _)
    · obtain ⟨ha, ea⟩ := s1 a (by omega)
      obtain ⟨hb', eb⟩ := s1 b hb
      rw [ea, eb]
      have := List.pairwise_iff_getElem.mp a5 a b (by rw [List.length_map]; exact ha)
        (by rw [List.length_map]; exact hb') hab
      rw [List.getElem_map, List.getElem_map] at this
      exact this
  · rintro ⟨a1, _, a2, a3, a4, a5⟩
    refine ⟨a1, fun h hh => ?_, ?_, fun h hh => ?_, ?_⟩
    · obtain ⟨n, hn, rfl⟩ := List.mem_iff_getElem.mp hh
      have := a2 ((occupiedPrefix list).length + n) (by omega)
      rw [s2 n, List.getD_eq_getElem _ _ hn] at this
      exact this
    · apply List.pairwise_iff_getElem.mpr
      intro a b ha hb hab
      rw [List.length_map] at ha hb
      rw [List.getElem_map, List.getElem_map]
      obtain ⟨_, ea⟩ := s1 a ha
      obtain ⟨_, eb⟩ := s1 b hb
      rw [← ea, ← eb]
      exact a3 a b hab hb
    · obtain ⟨n, hn, rfl⟩ := List.mem_iff_getElem.mp hh
      obtain ⟨_, en⟩ := s1 n hn
      rw [← en]
      exact a4 n hn
    · apply List.pairwise_iff_getElem.mpr
      intro a b ha hb hab
      rw [List.length_map] at ha hb
      rw [List.getElem_map, List.getElem_map]
      obtain ⟨_, ea⟩ := s1 a ha
      obtain ⟨_, eb⟩ := s1 b hb
      rw [← ea, ← eb]
      exact a5 a b hab hb

/-- The condition on the symbol list follows from the condition by positions, for any `k`. -/
theorem HuffInv_of_HuffIdx (list : List HUFFLIST) (k : Nat) (h : HuffIdx list k) :
    HuffInv list ∧ (occupiedPrefix list).length = k := by
  have hk : (occupiedPrefix list).length = k :=
    occupiedPrefix_length list k (fun j hj => by have := (h.2.2.2.2.1 j hj).1; omega)
      (by rw [h.2.2.1 k (le_refl _)]; decide)
  refine ⟨(HuffInv_iff list).mpr ?_, hk⟩
  rw [hk]
  exact h

/-- The `Bubble Sort` loop of `EncodeLZMH`: it goes down from `p` over the entries with a
count below `bl`, leaves all counts as they are and moves the symbols of the entries it
passes one position up. -/
theorem bubbleSymbols_spec (bl : Int) : ∀ (fuel : Nat) (list : List HUFFLIST) (p : Nat),
    p < fuel → p < list.length →
    (bubbleSymbols fuel list p bl).2 ≤ p ∧
    (bubbleSymbols fuel list p bl).1.length = list.length ∧
    (∀ j, ((bubbleSymbols fuel list p bl).1.getD j default).count
      = (list.getD j default).count) ∧
    (∀ j, (bubbleSymbols fuel list p bl).2 ≤ j → j < p → bl > (list.getD j default).count) ∧
    ((bubbleSymbols fuel list p bl).2 > 0 →
      ¬ bl > (list.getD ((bubbleSymbols fuel list p bl).2 - 1) default).count) ∧
    (∀ j, (bubbleSymbols fuel list p bl).2 < j → j ≤ p →
      ((bubbleSymbols fuel list p bl).1.getD j default).symbol
        = (list.getD (j - 1) default).symbol) ∧
    (∀ j, j ≤ (bubbleSymbols fuel list p bl).2 ∨ p < j →
      ((bubbleSymbols fuel list p bl).1.getD j default).symbol
        = (list.getD j default).symbol) := by
  intro fuel
  induction fuel with
  | zero => intro list p hf; omega
  | succ fuel ih =>
    intro list p hf hp
    unfold bubbleSymbols
    by_cases c : p > 0 ∧ bl > (list.getD (p - 1) default).count
    · rw [if_pos c]
      obtain ⟨r1, r2, r3, r4, r5, r6, r7⟩ := ih
        (list.set p { list.getD p default with symbol := (list.getD (p - 1) default).symbol })
        (p - 1) (by omega) (by rw [List.length_set]; omega)
      have hc1 : ∀ j, ((list.set p { list.getD p default with
          symbol := (list.getD (p - 1) default).symbol }).getD j default).count
          = (list.getD j default).count := by
        intro j
        by_cases hj : p = j
        · rw [← hj, getD_set_eq _ _ _ _ hp]
        · rw [getD_set_ne _ _ _ _ _ hj]
      have hs1 : ∀ j, p ≠ j → ((list.set p { list.getD p default with
          symbol := (list.getD (p - 1) default).symbol }).getD j default).symbol
          = (list.getD j default).symbol := by
        intro j hj
        rw [getD_set_ne _ _ _ _ _ hj]
      have hsp : ((list.set p { list.getD p default with
          symbol := (list.getD (p - 1) default).symbol }).getD p default).symbol
          = (list.getD (p - 1) default).symbol := by
        rw [getD_set_eq _ _ _ _ hp]
      refine ⟨by omega, by rw [r2, List.length_set], fun j => by rw [r3 j, hc1 j],
        fun j j1 j2 => ?_, fun h => ?_, fun j j1 j2 => ?_, fun j hj => ?_⟩
      · by_cases hj : j < p - 1
        · have := r4 j j1 hj
          rw [hc1 j] at this
          exact this
        · have e : j = p - 1 := by omega
          rw [e]
          exact c.2
      · have := r5 h
        rw [hc1] at this
        exact this
      · by_cases hj : j ≤ p - 1
        · rw [r6 j j1 hj, hs1 (j - 1) (by omega)]
        · have e : j = p := by omega
          rw [e, r7 p (Or.inr (by omega)), hsp]
      · rw [r7 j (by omega), hs1 j (by omega)]
    · rw [if_neg c]
      refine ⟨le_refl _, rfl, fun j => rfl, fun j j1 j2 => by omega, fun h hb => c ⟨h, hb⟩,
        fun j j1 j2 => by omega, fun j _ => rfl⟩

/-- The symbol search of `EncodeLZMH` on a list that satisfies the condition: it ends at the
first occupied entry that holds the symbol, or at the end of the occupied entries. -/
theorem searchSymbol_cases (list : List HUFFLIST) (k i : Nat) (h : HuffIdx list k) :
    ∀ (fuel len : Nat), HUFF_LIST_LENGTH < fuel + len → len ≤ k →
    (∀ j, j < len → (list.getD j default).symbol ≠ i) →
    (∃ q, q < k ∧ (list.getD q default).symbol = i ∧
      searchSymbol fuel list i len
        = if (list.getD q default).count < ((1 <<< 16 : Nat) : Int) - 1 then
            ((bubbleSymbols (HUFF_LIST_LENGTH + 1) list q
                ((list.getD q default).count + 1)).1.set
              (bubbleSymbols (HUFF_LIST_LENGTH + 1) list q ((list.getD q default).count + 1)).2
              { symbol := i, count := (list.getD q default).count + 1 },
             q,
             (bubbleSymbols (HUFF_LIST_LENGTH + 1) list q ((list.getD q default).count + 1)).2)
          else (list, q, q)) ∨
    ((∀ j, j < k → (list.getD j default).symbol ≠ i) ∧
      searchSymbol fuel list i len = (list, HUFF_SYMBOL_NOT_FOUND, k)) := by
  obtain ⟨h1, h2, h3, h4, h5, h6⟩ := h
  intro fuel
  induction fuel with
  | zero => intro len hf hl; omega
  | succ fuel ih =>
    intro len hf hl hne
    unfold searchSymbol
    by_cases hlk : len < k
    · have c : len < HUFF_LIST_LENGTH ∧ (list.getD len default).count > 0 :=
        ⟨by omega, by have := (h5 len hlk).1; omega⟩
      rw [if_pos c]
      by_cases hs : (list.getD len default).symbol = i
      · rw [if_pos hs]
        exact Or.inl ⟨len, hlk, hs, rfl⟩
      · rw [if_neg hs]
        apply ih (len + 1) (by omega) (by omega)
        intro j hj
        rcases Nat.lt_succ_iff_lt_or_eq.mp hj with e | e
        · exact hne j e
        · rw [e]; exact hs
    · have e : len = k := by omega
      have c : ¬ (len < HUFF_LIST_LENGTH ∧ (list.getD len default).count > 0) :=
        fun c => by have := h3 len (by omega); omega
      rw [if_neg c, e]
      exact Or.inr ⟨fun j hj => hne j (by omega), rfl⟩

theorem hufflist_eq (x y : HUFFLIST) (h1 : x.symbol = y.symbol) (h2 : x.count = y.count) :
    x = y := by
  cases x; cases y
  simp only [HUFFLIST.mk.injEq]
  exact ⟨h1, h2⟩

/-- Distinct positions of the occupied entries hold distinct symbols. -/
theorem HuffIdx_inj (list : List HUFFLIST) (k : Nat) (h : HuffIdx list k) (a b : Nat)
    (ha : a < k) (hb : b < k)
    (hs : (list.getD a default).symbol = (list.getD b default).symbol) : a = b := by
  rcases Nat.lt_trichotomy a b with e | e | e
  · exact absurd hs (h.2.2.2.1 a b e hb)
  · exact e
  · exact absurd hs.symm (h.2.2.2.1 b a e ha)

/-- The occupied entries of a list that satisfies the condition, by position. -/
theorem mem_occupiedPrefix (list : List HUFFLIST) (k : Nat) (h : HuffIdx list k) (x : HUFFLIST) :
    x ∈ occupiedPrefix list ↔ ∃ j, j < k ∧ list.getD j default = x := by
  obtain ⟨_, hk⟩ := HuffInv_of_HuffIdx list k h
  obtain ⟨t, e, _, _⟩ := occupiedPrefix_split list
  obtain ⟨s1, _⟩ := getD_append_split (occupiedPrefix list) t default
  rw [e] at s1
  constructor
  · intro hx
    obtain ⟨n, hn, rfl⟩ := List.mem_iff_getElem.mp hx
    obtain ⟨_, en⟩ := s1 n hn
    exact ⟨n, by omega, en⟩
  · rintro ⟨j, hj, rfl⟩
    obtain ⟨hj', ej⟩ := s1 j (by omega)
    rw [ej]
    exact List.getElem_mem _

/-- The symbol list after the coding of a literal whose symbol is in the list at the position
`q` with a count below `2 ^ 16 - 1`: the entry moves up to the position `p`, before the entries
with the same count, with its count incremented. -/
theorem bubbled_HuffIdx (list : List HUFFLIST) (k i q : Nat) (h : HuffIdx list k) (hq : q < k)
    (hs : (list.getD q default).symbol = i) (hc : (list.getD q default).count < 65535) :
    ∃ p, p ≤ q ∧
      p = (bubbleSymbols (HUFF_LIST_LENGTH + 1) list q ((list.getD q default).count + 1)).2 ∧
      HuffIdx ((bubbleSymbols (HUFF_LIST_LENGTH + 1) list q
        ((list.getD q default).count + 1)).1.set p
        { symbol := i, count := (list.getD q default).count + 1 }) k ∧
      ((bubbleSymbols (HUFF_LIST_LENGTH + 1) list q
        ((list.getD q default).count + 1)).1.set p
        { symbol := i, count := (list.getD q default).count + 1 }).getD p default
        = { symbol := i, count := (list.getD q default).count + 1 } ∧
      (∀ j, p < j → j ≤ q →
        ((bubbleSymbols (HUFF_LIST_LENGTH + 1) list q
          ((list.getD q default).count + 1)).1.set p
          { symbol := i, count := (list.getD q default).count + 1 }).getD j default
          = list.getD (j - 1) default) ∧
      (∀ j, j < p ∨ q < j →
        ((bubbleSymbols (HUFF_LIST_LENGTH + 1) list q
          ((list.getD q default).count + 1)).1.set p
          { symbol := i, count := (list.getD q default).count + 1 }).getD j default
          = list.getD j default) := by
  have h48 : HUFF_LIST_LENGTH = 48 := rfl
  have hinj := HuffIdx_inj list k h
  obtain ⟨h1, h2, h3, h4, h5, h6⟩ := h
  rw [h48] at h1 h2
  obtain ⟨b1, b2, b3, b4, b5, b6, b7⟩ := bubbleSymbols_spec ((list.getD q default).count + 1)
    (HUFF_LIST_LENGTH + 1) list q (by rw [h48]; omega) (by omega)
  obtain ⟨B, hB⟩ : ∃ B, B = bubbleSymbols (HUFF_LIST_LENGTH + 1) list q
    ((list.getD q default).count + 1) := ⟨_, rfl⟩
  rw [← hB] at b1 b2 b3 b4 b5 b6 b7 ⊢
  obtain ⟨c, hcq⟩ : ∃ c, c = (list.getD q default).count := ⟨_, rfl⟩
  rw [← hcq] at b4 b5 hc ⊢
  have hp : B.2 < B.1.length := by omega
  -- the counts of the entries passed
  have hrun : ∀ j, B.2 ≤ j → j ≤ q → (list.getD j default).count = c := by
    intro j j1 j2
    rcases Nat.lt_or_ge j q with e | e
    · have u1 := b4 j j1 e
      have u2 := h6 j q e hq
      omega
    · have e2 : j = q := by omega
      rw [e2, hcq]
  -- the entries of the new list
  have g0 : (B.1.set B.2 ({ symbol := i, count := c + 1 } : HUFFLIST)).getD B.2 default
      = { symbol := i, count := c + 1 } := getD_set_eq _ _ _ _ hp
  have g1 : ∀ j, B.2 < j → j ≤ q →
      (B.1.set B.2 ({ symbol := i, count := c + 1 } : HUFFLIST)).getD j default
        = list.getD (j - 1) default := by
    intro j j1 j2
    rw [getD_set_ne _ _ _ _ _ (by omega)]
    apply hufflist_eq
    · exact b6 j j1 j2
    · rw [b3 j, hrun j (by omega) j2, hrun (j - 1) (by omega) (by omega)]
  have g2 : ∀ j, j < B.2 ∨ q < j →
      (B.1.set B.2 ({ symbol := i, count := c + 1 } : HUFFLIST)).getD j default
        = list.getD j default := by
    intro j hj
    rw [getD_set_ne _ _ _ _ _ (by omega)]
    apply hufflist_eq
    · exact b7 j (by omega)
    · exact b3 j
  refine ⟨B.2, b1, rfl, ⟨?_, ?_, ?_, ?_, ?_, ?_⟩, g0, g1, g2⟩
  · rw [List.length_set, b2, h1, h48]
  · rw [h48]; exact h2
  · intro j hj
    rw [g2 j (by omega)]
    exact h3 j hj
  · -- distinct symbols: the new list holds the old entries in another order
    have hperm : ∀ j, j < k → ∃ j', j' < k ∧
        ((B.1.set B.2 ({ symbol := i, count := c + 1 } : HUFFLIST)).getD j default).symbol
          = (list.getD j' default).symbol ∧
        j' = (if j = B.2 then q else if B.2 < j ∧ j ≤ q then j - 1 else j) := by
      intro j hj
      by_cases e1 : j = B.2
      · refine ⟨q, hq, ?_, by rw [if_pos e1]⟩
        rw [e1, g0, hs]
      · by_cases e2 : B.2 < j ∧ j ≤ q
        · refine ⟨j - 1, by omega, ?_, by rw [if_neg e1, if_pos e2]⟩
          rw [g1 j e2.1 e2.2]
        · refine ⟨j, hj, ?_, by rw [if_neg e1, if_neg e2]⟩
          rw [g2 j (by omega)]
    intro a b hab hb hsym
    obtain ⟨a', a1, a2, a3⟩ := hperm a (by omega)
    obtain ⟨b', b1', b2', b3'⟩ := hperm b hb
    rw [a2, b2'] at hsym
    have := hinj a' b' a1 b1' hsym
    rw [a3, b3'] at this
    split_ifs at this <;> omega
  · intro j hj
    by_cases e1 : j = B.2
    · rw [e1, g0]
      have := h5 q hq
      rw [← hcq] at this
      dsimp only
      norm_num at this ⊢
      omega
    · by_cases e2 : B.2 < j ∧ j ≤ q
      · rw [g1 j e2.1 e2.2]
        exact h5 (j - 1) (by omega)
      · rw [g2 j (by omega)]
        exact h5 j hj
  · intro a b hab hb
    have hcnt : ∀ j, j < k → j ≠ B.2 →
        ((B.1.set B.2 ({ symbol := i, count := c + 1 } : HUFFLIST)).getD j default).count
          = (list.getD j default).count := by
      intro j hj hne
      rw [getD_set_ne _ _ _ _ _ (by omega), b3 j]
    by_cases ea : a = B.2
    · rw [ea, g0, hcnt b hb (by omega)]
      dsimp only
      rcases Nat.lt_or_ge q b with e | e
      · have := h6 q b e hb
        omega
      · have := hrun b (by omega) e
        omega
    · by_cases eb : b = B.2
      · rw [eb, g0, hcnt a (by omega) ea]
        dsimp only
        have u1 := b5 (by omega)
        rcases Nat.lt_or_ge a (B.2 - 1) with e | e
        · have := h6 a (B.2 - 1) e (by omega)
          omega
        · have e2 : a = B.2 - 1 := by omega
          rw [e2]
          omega
      · rw [hcnt a (by omega) ea, hcnt b hb eb]
        exact h6 a b hab hb

/-- The symbol list after a new symbol was added behind the occupied entries. -/
theorem appended_HuffIdx (list : List HUFFLIST) (k i : Nat) (h : HuffIdx list k)
    (hk : k < HUFF_LIST_LENGTH) (hne : ∀ j, j < k → (list.getD j default).symbol ≠ i) :
    HuffIdx (list.set k { symbol := i, count := 1 }) (k + 1) := by
  have h48 : HUFF_LIST_LENGTH = 48 := rfl
  obtain ⟨h1, h2, h3, h4, h5, h6⟩ := h
  have g0 : (list.set k ({ symbol := i, count := 1 } : HUFFLIST)).getD k default
      = { symbol := i, count := 1 } := getD_set_eq _ _ _ _ (by omega)
  have g1 : ∀ j, j ≠ k → (list.set k ({ symbol := i, count := 1 } : HUFFLIST)).getD j default
      = list.getD j default := fun j hj => getD_set_ne _ _ _ _ _ (by omega)
  refine ⟨by rw [List.length_set, h1], by omega, fun j hj => ?_, fun a b hab hb => ?_,
    fun j hj => ?_, fun a b hab hb => ?_⟩
  · rw [g1 j (by omega)]
    exact h3 j (by omega)
  · by_cases e : b = k
    · rw [e, g0, g1 a (by omega)]
      exact hne a (by omega)
    · rw [g1 a (by omega), g1 b e]
      exact h4 a b hab (by omega)
  · by_cases e : j = k
    · rw [e, g0]
      dsimp only
      norm_num
    · rw [g1 j e]
      exact h5 j (by omega)
  · by_cases e : b = k
    · rw [e, g0, g1 a (by omega)]
      exact (h5 a (by omega)).1
    · rw [g1 a (by omega), g1 b e]
      exact h6 a b hab (by omega)

/-- The symbol list after the coding of a literal, in the four cases of the search. -/
theorem lzLiteralList_cases (list : List HUFFLIST) (k i : Nat) (h : HuffIdx list k) :
    (∃ q p, q < k ∧ p ≤ q ∧ (list.getD q default).symbol = i ∧
      (list.getD q default).count < 65535 ∧
      HuffIdx (lzLiteralList list i) k ∧
      (lzLiteralList list i).getD p default
        = { symbol := i, count := (list.getD q default).count + 1 } ∧
      (∀ j, p < j → j ≤ q → (lzLiteralList list i).getD j default = list.getD (j - 1) default) ∧
      (∀ j, j < p ∨ q < j → (lzLiteralList list i).getD j default = list.getD j default)) ∨
    (∃ q, q < k ∧ (list.getD q default).symbol = i ∧ (list.getD q default).count = 65535 ∧
      lzLiteralList list i = list) ∨
    ((∀ j, j < k → (list.getD j default).symbol ≠ i) ∧ k < HUFF_LIST_LENGTH ∧
      lzLiteralList list i = list.set k { symbol := i, count := 1 } ∧
      HuffIdx (lzLiteralList list i) (k + 1)) ∨
    ((∀ j, j < k → (list.getD j default).symbol ≠ i) ∧ k = HUFF_LIST_LENGTH ∧
      lzLiteralList list i = list) := by
  have h48 : HUFF_LIST_LENGTH = 48 := rfl
  have hnf : HUFF_SYMBOL_NOT_FOUND = 65535 := rfl
  have e16 : (((1 <<< 16 : Nat) : Int) - 1) = 65535 := rfl
  have hk48 : k ≤ 48 := h.2.1
  rcases searchSymbol_cases list k i h (HUFF_LIST_LENGTH + 1) 0 (by omega) (by omega)
    (fun j hj => by omega) with ⟨q, hq, hs, hf⟩ | ⟨hnone, hf⟩
  · rw [e16] at hf
    by_cases hc : (list.getD q default).count < 65535
    · left
      rw [if_pos hc] at hf
      obtain ⟨p, p1, p2, p3, p4, p5, p6⟩ := bubbled_HuffIdx list k i q h hq hs hc
      have hl : lzLiteralList list i
          = (bubbleSymbols (HUFF_LIST_LENGTH + 1) list q
              ((list.getD q default).count + 1)).1.set p
              { symbol := i, count := (list.getD q default).count + 1 } := by
        unfold lzLiteralList
        dsimp only
        rw [hf, p2]
        dsimp only
        rw [if_neg]
        rw [hnf]
        omega
      rw [hl]
      exact ⟨q, p, hq, p1, hs, hc, p3, p4, p5, p6⟩
    · right; left
      rw [if_neg hc] at hf
      have := (h.2.2.2.2.1 q hq).2
      have e2 : ((2 : Int) ^ 16 - 1) = 65535 := by norm_num
      rw [e2] at this
      refine ⟨q, hq, hs, by omega, ?_⟩
      unfold lzLiteralList
      dsimp only
      rw [hf]
      dsimp only
      rw [if_neg]
      rw [hnf]
      omega
  · by_cases hk : k < HUFF_LIST_LENGTH
    · right; right; left
      have hl : lzLiteralList list i = list.set k { symbol := i, count := 1 } := by
        unfold lzLiteralList
        dsimp only
        rw [hf]
        dsimp only
        rw [if_pos ⟨rfl, hk⟩]
      refine ⟨hnone, hk, hl, ?_⟩
      rw [hl]
      exact appended_HuffIdx list k i h hk hnone
    · right; right; right
      refine ⟨hnone, by omega, ?_⟩
      unfold lzLiteralList
      dsimp only
      rw [hf]
      dsimp only
      rw [if_neg (fun c => hk c.2)]

/-- The literal coding of `EncodeLZMH` keeps the condition on the symbol list: the count of the
symbol coded grows by one, unless it is `2 ^ 16 - 1` already or the symbol is not in a list that
is full, and the other symbols keep their counts. -/
theorem lzLiteralList_inv (list : List HUFFLIST) (i : Nat) (h : HuffInv list) :
    HuffInv (lzLiteralList list i) ∧
    (∀ c, ({ symbol := i, count := c } : HUFFLIST) ∈ occupiedPrefix list → c < 2 ^ 16 - 1 →
      ({ symbol := i, count := c + 1 } : HUFFLIST) ∈ occupiedPrefix (lzLiteralList list i) ∧
      (occupiedPrefix (lzLiteralList list i)).length = (occupiedPrefix list).length) ∧
    (∀ c, ({ symbol := i, count := c } : HUFFLIST) ∈ occupiedPrefix list → ¬ c < 2 ^ 16 - 1 →
      lzLiteralList list i = list) ∧
    ((∀ x ∈ occupiedPrefix list, x.symbol ≠ i) →
      (occupiedPrefix list).length < HUFF_LIST_LENGTH →
      ({ symbol := i, count := 1 } : HUFFLIST) ∈ occupiedPrefix (lzLiteralList list i) ∧
      (occupiedPrefix (lzLiteralList list i)).length = (occupiedPrefix list).length + 1) ∧
    ((∀ x ∈ occupiedPrefix list, x.symbol ≠ i) →
      ¬ (occupiedPrefix list).length < HUFF_LIST_LENGTH → lzLiteralList list i = list) ∧
    (∀ x : HUFFLIST, x.symbol ≠ i →
      (x ∈ occupiedPrefix list ↔ x ∈ occupiedPrefix (lzLiteralList list i))) := by
  have e2 : ((2 : Int) ^ 16 - 1) = 65535 := by norm_num
  rw [e2]
  obtain ⟨k, hk⟩ : ∃ k, k = (occupiedPrefix list).length := ⟨_, rfl⟩
  have hidx : HuffIdx list k := by rw [hk]; exact (HuffInv_iff list).mp h
  rw [← hk]
  have hmem := mem_occupiedPrefix list k hidx
  have hinj := HuffIdx_inj list k hidx
  -- the entry that holds the symbol `i`
  have hat : ∀ q c, q < k → (list.getD q default).symbol = i →
      ({ symbol := i, count := c } : HUFFLIST) ∈ occupiedPrefix list →
      c = (list.getD q default).count := by
    intro q c hq hs hc
    obtain ⟨j, hj, ej⟩ := (hmem _).mp hc
    have : j = q := hinj j q hj hq (by rw [ej, hs])
    rw [← this, ej]
  have hno : ∀ c, (∀ j, j < k → (list.getD j default).symbol ≠ i) →
      ¬ ({ symbol := i, count := c } : HUFFLIST) ∈ occupiedPrefix list := by
    intro c hnone hc
    obtain ⟨j, hj, ej⟩ := (hmem _).mp hc
    exact hnone j hj (by rw [ej])
  rcases lzLiteralList_cases list k i hidx with ⟨q, p, hq, hp, hs, hc, hI, g0, g1, g2⟩ |
    ⟨q, hq, hs, hc, hl⟩ | ⟨hnone, hk48, hl, hI⟩ | ⟨hnone, hk48, hl⟩
  · obtain ⟨hinv, hlen⟩ := HuffInv_of_HuffIdx _ k hI
    have hmem' := mem_occupiedPrefix _ k hI
    refine ⟨hinv, fun c hc1 _ => ⟨?_, hlen⟩, fun c hc1 hc2 => ?_, fun hx _ => ?_, fun hx _ => ?_,
      fun x hx => ?_⟩
    · rw [hat q c hq hs hc1]
      exact (hmem' _).mpr ⟨p, by omega, g0⟩
    · rw [hat q c hq hs hc1] at hc2
      exact absurd hc hc2
    · exact absurd hs (hx _ ((hmem _).mpr ⟨q, hq, rfl⟩))
    · exact absurd hs (hx _ ((hmem _).mpr ⟨q, hq, rfl⟩))
    · rw [hmem x, hmem' x]
      constructor
      · rintro ⟨j, hj, ej⟩
        have hjq : j ≠ q := fun e => hx (by rw [← ej, e, hs])
        by_cases e : j < p ∨ q < j
        · exact ⟨j, hj, by rw [g2 j e, ej]⟩
        · refine ⟨j + 1, by omega, ?_⟩
          rw [g1 (j + 1) (by omega) (by omega)]
          exact ej
      · rintro ⟨j, hj, ej⟩
        have hjp : j ≠ p := fun e => hx (by rw [← ej, e, g0])
        by_cases e : j < p ∨ q < j
        · exact ⟨j, hj, by rw [← g2 j e, ej]⟩
        · exact ⟨j - 1, by omega, by rw [← g1 j (by omega) (by omega), ej]⟩
  · rw [hl]
    refine ⟨h, fun c hc1 hc2 => ?_, fun _ _ _ => rfl, fun hx _ => ?_, fun _ _ => rfl,
      fun x _ => Iff.rfl⟩
    · rw [hat q c hq hs hc1] at hc2
      omega
    · exact absurd hs (hx _ ((hmem _).mpr ⟨q, hq, rfl⟩))
  · obtain ⟨hinv, hlen⟩ := HuffInv_of_HuffIdx _ (k + 1) hI
    have hmem' := mem_occupiedPrefix _ (k + 1) hI
    have g0 : (lzLiteralList list i).getD k default = { symbol := i, count := 1 } := by
      rw [hl]
      exact getD_set_eq _ _ _ _ (by rw [hidx.1]; exact hk48)
    have g1 : ∀ j, j ≠ k → (lzLiteralList list i).getD j default = list.getD j default := by
      intro j hj
      rw [hl]
      exact getD_set_ne _ _ _ _ _ (by omega)
    refine ⟨hinv, fun c hc1 _ => absurd hc1 (hno c hnone),
      fun c hc1 _ => absurd hc1 (hno c hnone),
      fun _ _ => ⟨(hmem' _).mpr ⟨k, by omega, g0⟩, hlen⟩, fun _ hn => absurd hk48 hn,
      fun x hx => ?_⟩
    rw [hmem x, hmem' x]
    constructor
    · rintro ⟨j, hj, ej⟩
      exact ⟨j, by omega, by rw [g1 j (by omega), ej]⟩
    · rintro ⟨j, hj, ej⟩
      have hjk : j ≠ k := fun e => hx (by rw [← ej, e, g0])
      exact ⟨j, by omega, by rw [← g1 j hjk, ej]⟩
  · rw [hl]
    exact ⟨h, fun c hc1 _ => absurd hc1 (hno c hnone), fun _ _ _ => rfl,
      fun _ hn => absurd hk48 (by omega), fun _ _ => rfl, fun x _ => Iff.rfl⟩

/-- The filling of the ring buffer leaves the symbol list as it is. -/
theorem fillBufferNext_list : ∀ (fuel : Nat) (s : lzmh_encoder_t),
    (fillBufferNext fuel s).2.list = s.list := by
  intro fuel
  induction fuel with
  | zero => intro s; rfl
  | succ fuel ih =>
    intro s
    unfold fillBufferNext
    dsimp only
    split
    · split
      · rfl
      · exact ih _
    · rfl

theorem fillBufferFirst_list : ∀ (fuel : Nat) (s : lzmh_encoder_t),
    (fillBufferFirst fuel s).2.list = s.list := by
  intro fuel
  induction fuel with
  | zero => intro s; rfl
  | succ fuel ih =>
    intro s
    unfold fillBufferFirst
    dsimp only
    split
    · split
      · rfl
      · exact ih _
    · rfl

/-- A list of `HUFF_LIST_LENGTH` entries without an occupied entry satisfies the condition. -/
theorem HuffInv_of_free (list : List HUFFLIST) (hl : list.length = HUFF_LIST_LENGTH)
    (h0 : ∀ x ∈ list, x.count = 0) : HuffInv list := by
  apply (HuffInv_of_HuffIdx list 0 ?_).1
  refine ⟨hl, Nat.zero_le _, fun j _ => ?_, fun a b _ hb => by omega, fun j hj => by omega,
    fun a b _ hb => by omega⟩
  by_cases hj : j < list.length
  · rw [List.getD_eq_getElem _ _ hj, h0 _ (List.getElem_mem _)]
  · rw [List.getD_eq_getElem?_getD, List.getElem?_eq_none (by omega)]
    rfl

/-- The main loop of `EncodeLZMH` starts with a symbol list that satisfies the condition. -/
theorem encodeStart_list (internBuffer : List Nat) (list : List HUFFLIST)
    (inb outb : bit_file_buffer_t) (hl : list.length = HUFF_LIST_LENGTH) :
    HuffInv (encodeStart internBuffer list inb outb).list := by
  unfold encodeStart
  dsimp only
  rw [fillBufferFirst_list]
  dsimp only
  apply HuffInv_of_free
  · rw [List.length_map, hl]
  · intro x hx
    obtain ⟨y, _, rfl⟩ := List.mem_map.mp hx
    rfl

/-- The symbol list after an iteration of the main loop of `EncodeLZMH`: as before after a
back-reference, and the list after the coding of the byte at the read cursor after a
literal. -/
theorem encodeStep_list (s : lzmh_encoder_t) :
    (encodeStep s).2.list
      = if (lzBest s).1 ≥ 3 then s.list
        else lzLiteralList s.list (s.internBuffer.getD s.internBufferRead 0) := by
  have hc : (lzCoded s).1.list
      = if (lzBest s).1 ≥ 3 then s.list
        else lzLiteralList s.list (s.internBuffer.getD s.internBufferRead 0) := by
    by_cases h : (lzBest s).1 ≥ 3
    · rw [if_pos h]; exact (lzCoded_backreference s h).1
    · rw [if_neg h]; exact (lzCoded_literal s h).2.2.1
  rw [← hc]
  unfold encodeStep
  dsimp only
  cases hX : LOG_ON_ERROR_AND_RETURN
      (WriteSingleValueToBitFileBuffer (lzCoded s).1.out_bit_buf
        ((lzCoded s).2.2 >>> (CODE_BUFFER - (lzCoded s).2.1).toNat) (toU64 (lzCoded s).2.1)).1
      (toU64 (lzCoded s).2.1) with
  | some ret => rfl
  | none =>
    dsimp only
    rw [fillBufferNext_list]

/-! ## LZMH: the symbol list of the decoder -/

theorem dropCode_list (s : lzmh_decoder_t) (n : Nat) : (dropCode s n).list = s.list := rfl

theorem copyMatch_list : ∀ (n : Nat) (s : lzmh_decoder_t) (offset : Int),
    (copyMatch n s offset).2.list = s.list := by
  intro n
  induction n with
  | zero => intro s offset; rfl
  | succ n ih =>
    intro s offset
    unfold copyMatch
    dsimp only
    split
    · rfl
    · exact ih _ _

theorem fillCode_list : ∀ (fuel : Nat) (s : lzmh_decoder_t),
    (fillCode fuel s).2.list = s.list := by
  intro fuel
  induction fuel with
  | zero => intro s; rfl
  | succ fuel ih =>
    intro s
    unfold fillCode
    dsimp only
    split
    · split
      · rfl
      · exact ih _
    · rfl

/-- The symbol list after an item of `DecodeLZMH`: as before, or changed by a list literal,
or changed by a byte code. -/
theorem decodeItem_list (s : lzmh_decoder_t) :
    (decodeItem s).2.list = s.list ∨
    (s.code_sym &&& 0x80000000 ≠ 0 ∧ lzTreeIndex s ≠ TREE_LENGHT ∧
      (decodeItem s).2.list = lzTreeList s.list (lzTreeIndex s)) ∨
    (¬ s.code_sym &&& 0x80000000 ≠ 0 ∧ s.code_sym &&& 0x40000000 = 0 ∧
      (decodeItem s).2.list = lzByteList s.list (lzByteSymbol s)) := by
  unfold decodeItem
  by_cases h1 : s.code_sym &&& 0x80000000 ≠ 0
  · rw [if_pos h1]
    dsimp only
    by_cases h2 : findTreeCode (TREE_LENGHT + 1) 0 s.code_sym s.code_length = TREE_LENGHT
    · rw [if_pos h2]
      exact Or.inl rfl
    · rw [if_neg h2]
      split
      · exact Or.inl rfl
      · right; left
        refine ⟨h1, h2, ?_⟩
        unfold lzTreeList lzTreeIndex dropCode
        dsimp only
        split <;> rfl
  · rw [if_neg h1]
    by_cases h2 : s.code_sym &&& 0x40000000 = 0
    · rw [if_pos h2]
      dsimp only
      split
      · exact Or.inl rfl
      · right; right
        refine ⟨h1, h2, ?_⟩
        unfold lzByteList lzByteSymbol dropCode
        dsimp only
        split <;> rfl
    · rw [if_neg h2]
      left
      rw [copyMatch_list]
      simp only [apply_ite Prod.fst, apply_ite lzmh_decoder_t.list, dropCode_list, ite_self]

theorem ext_getD {α : Type} (l1 l2 : List α) (d : α) (hl : l1.length = l2.length)
    (h : ∀ j, l1.getD j d = l2.getD j d) : l1 = l2 := by
  apply List.ext_getElem hl
  intro n h1 h2
  have := h n
  rw [List.getD_eq_getElem _ _ h1, List.getD_eq_getElem _ _ h2] at this
  exact this

/-- The two `Bubble Sort` loops that move symbols only are the same loop. -/
theorem bubbleSymbolsDecoder_eq : ∀ (fuel : Nat) (list : List HUFFLIST) (i : Nat) (length : Int),
    bubbleSymbolsDecoder fuel list i length = bubbleSymbols fuel list i length := by
  intro fuel
  induction fuel with
  | zero => intro list i length; rfl
  | succ fuel ih =>
    intro list i length
    unfold bubbleSymbolsDecoder bubbleSymbols
    rw [ih]

/-- The `Bubble Sort` loop of the prefix-code branch of `DecodeLZMH`: it goes down from `p` over
the entries with a count below `offset` and moves the entries it passes one position up. -/
theorem bubbleEntries_spec (offset : Int) : ∀ (fuel : Nat) (list : List HUFFLIST) (p : Nat),
    p < fuel → p < list.length →
    (bubbleEntries fuel list p offset).2 ≤ p ∧
    (bubbleEntries fuel list p offset).1.length = list.length ∧
    (∀ j, (bubbleEntries fuel list p offset).2 ≤ j → j < p →
      offset > (list.getD j default).count) ∧
    ((bubbleEntries fuel list p offset).2 > 0 →
      ¬ offset > (list.getD ((bubbleEntries fuel list p offset).2 - 1) default).count) ∧
    (∀ j, (bubbleEntries fuel list p offset).2 < j → j ≤ p →
      (bubbleEntries fuel list p offset).1.getD j default = list.getD (j - 1) default) ∧
    (∀ j, j ≤ (bubbleEntries fuel list p offset).2 ∨ p < j →
      (bubbleEntries fuel list p offset).1.getD j default = list.getD j default) := by
  intro fuel
  induction fuel with
  | zero => intro list p hf; omega
  | succ fuel ih =>
    intro list p hf hp
    unfold bubbleEntries
    by_cases c : p > 0 ∧ offset > (list.getD (p - 1) default).count
    · rw [if_pos c]
      obtain ⟨r1, r2, r4, r5, r6, r7⟩ := ih (list.set p (list.getD (p - 1) default))
        (p - 1) (by omega) (by rw [List.length_set]; omega)
      have hs1 : ∀ j, p ≠ j → (list.set p (list.getD (p - 1) default)).getD j default
          = list.getD j default := fun j hj => getD_set_ne _ _ _ _ _ hj
      have hsp : (list.set p (list.getD (p - 1) default)).getD p default
          = list.getD (p - 1) default := getD_set_eq _ _ _ _ hp
      refine ⟨by omega, by rw [r2, List.length_set], fun j j1 j2 => ?_, fun h => ?_,
        fun j j1 j2 => ?_, fun j hj => ?_⟩
      · by_cases hj : j < p - 1
        · have := r4 j j1 hj
          rw [hs1 j (by omega)] at this
          exact this
        · have e : j = p - 1 := by omega
          rw [e]
          exact c.2
      · have := r5 h
        rw [hs1 _ (by omega)] at this
        exact this
      · by_cases hj : j ≤ p - 1
        · rw [r6 j j1 hj, hs1 (j - 1) (by omega)]
        · have e : j = p := by omega
          rw [e, r7 p (Or.inr (by omega)), hsp]
      · rw [r7 j (by omega), hs1 j (by omega)]
    · rw [if_neg c]
      exact ⟨le_refl _, rfl, fun j j1 j2 => by omega, fun h hb => c ⟨h, hb⟩,
        fun j j1 j2 => by omega, fun j _ => rfl⟩

/-- The search loop of the prefix-code branch of `DecodeLZMH` on a list that satisfies the
condition: it ends at the occupied entry that holds the symbol, or at the end of the occupied
entries. -/
theorem findSymbol_cases (list : List HUFFLIST) (k i : Nat) (h : HuffIdx list k) :
    ∀ (fuel len : Nat), HUFF_LIST_LENGTH < fuel + len → len ≤ k →
    (∀ j, j < len → (list.getD j default).symbol ≠ i) →
    (∃ q, q < k ∧ (list.getD q default).symbol = i ∧ findSymbol fuel list i len = q) ∨
    ((∀ j, j < k → (list.getD j default).symbol ≠ i) ∧ findSymbol fuel list i len = k) := by
  obtain ⟨h1, h2, h3, h4, h5, h6⟩ := h
  intro fuel
  induction fuel with
  | zero => intro len hf hl; omega
  | succ fuel ih =>
    intro len hf hl hne
    unfold findSymbol
    by_cases hlk : len < k
    · by_cases hs : (list.getD len default).symbol = i
      · rw [if_neg (fun c => c.2.2 hs)]
        exact Or.inl ⟨len, hlk, hs, rfl⟩
      · rw [if_pos ⟨by omega, by have := (h5 len hlk).1; omega, hs⟩]
        apply ih (len + 1) (by omega) (by omega)
        intro j hj
        rcases Nat.lt_succ_iff_lt_or_eq.mp hj with e | e
        · exact hne j e
        · rw [e]; exact hs
    · have e : len = k := by omega
      rw [if_neg (fun c => by have := h3 len (by omega); omega), e]
      exact Or.inr ⟨fun j hj => hne j (by omega), rfl⟩

/-- The symbol list after the coding of a literal whose symbol is in the list. -/
theorem lzLiteralList_at (list : List HUFFLIST) (k i q : Nat) (h : HuffIdx list k) (hq : q < k)
    (hs : (list.getD q default).symbol = i) :
    lzLiteralList list i
      = if (list.getD q default).count < 65535 then
          (bubbleSymbols (HUFF_LIST_LENGTH + 1) list q ((list.getD q default).count + 1)).1.set
            (bubbleSymbols (HUFF_LIST_LENGTH + 1) list q ((list.getD q default).count + 1)).2
            { symbol := i, count := (list.getD q default).count + 1 }
        else list := by
  have h48 : HUFF_LIST_LENGTH = 48 := rfl
  have hnf : HUFF_SYMBOL_NOT_FOUND = 65535 := rfl
  have e16 : (((1 <<< 16 : Nat) : Int) - 1) = 65535 := rfl
  have hk48 : k ≤ 48 := h.2.1
  rcases searchSymbol_cases list k i h (HUFF_LIST_LENGTH + 1) 0 (by omega) (by omega)
    (fun j hj => by omega) with ⟨q0, hq0, hs0, hf⟩ | ⟨hnone, hf⟩
  · have e : q0 = q := HuffIdx_inj list k h q0 q hq0 hq (by rw [hs0, hs])
    rw [e, e16] at hf
    unfold lzLiteralList
    dsimp only
    rw [hf]
    by_cases hc : (list.getD q default).count < 65535
    · rw [if_pos hc, if_pos hc]
      dsimp only
      rw [if_neg]
      rw [hnf]
      omega
    · rw [if_neg hc, if_neg hc]
      dsimp only
      rw [if_neg]
      rw [hnf]
      omega
  · exact absurd hs (hnone q hq)

/-- The symbol list after the coding of a literal whose symbol is not in the list. -/
theorem lzLiteralList_absent (list : List HUFFLIST) (k i : Nat) (h : HuffIdx list k)
    (hnone : ∀ j, j < k → (list.getD j default).symbol ≠ i) :
    lzLiteralList list i
      = if k < HUFF_LIST_LENGTH then list.set k { symbol := i, count := 1 } else list := by
  have h48 : HUFF_LIST_LENGTH = 48 := rfl
  rcases searchSymbol_cases list k i h (HUFF_LIST_LENGTH + 1) 0 (by omega) (by omega)
    (fun j hj => by omega) with ⟨q0, hq0, hs0, _⟩ | ⟨_, hf⟩
  · exact absurd hs0 (hnone q0 hq0)
  · unfold lzLiteralList
    dsimp only
    rw [hf]
    dsimp only
    by_cases hk : k < HUFF_LIST_LENGTH
    · rw [if_pos ⟨rfl, hk⟩, if_pos hk]
    · rw [if_neg (fun c => hk c.2), if_neg hk]

/-- A list literal that names an occupied entry changes the symbol list of the decoder as the
coding of the symbol of that entry changes the list of the encoder. -/
theorem lzTreeList_eq (list : List HUFFLIST) (k idx : Nat) (h : HuffIdx list k) (hidx : idx < k)
    (h256 : (list.getD idx default).symbol < 256) :
    lzTreeList list idx = lzLiteralList list (list.getD idx default).symbol := by
  have e16 : (((1 <<< 16 : Nat) : Int) - 1) = 65535 := rfl
  rw [lzLiteralList_at list k _ idx h hidx rfl]
  unfold lzTreeList
  rw [e16]
  by_cases hc : (list.getD idx default).count < 65535
  · rw [if_pos hc, if_pos hc]
    dsimp only
    rw [bubbleSymbolsDecoder_eq, Nat.mod_eq_of_lt h256]
    have h1 := (h.2.2.2.2.1 idx hidx).1
    obtain ⟨c, hcq⟩ : ∃ c, c = (list.getD idx default).count := ⟨_, rfl⟩
    rw [← hcq] at hc h1 ⊢
    have e : (((c + 1).toNat % 2 ^ 16 : Nat) : Int) = c + 1 := by omega
    rw [e]
  · rw [if_neg hc, if_neg hc]

/-- A byte code changes the symbol list of the decoder as the coding of its symbol changes the
list of the encoder. -/
theorem lzByteList_eq (list : List HUFFLIST) (k i : Nat) (h : HuffIdx list k) (hi : i < 256) :
    lzByteList list i = lzLiteralList list i := by
  have h48 : HUFF_LIST_LENGTH = 48 := rfl
  have e16 : (((1 <<< 16 : Nat) : Int) - 1) = 65535 := rfl
  have hk48 : k ≤ 48 := h.2.1
  have hlen : list.length = 48 := h.1
  unfold lzByteList
  dsimp only
  rw [e16, Nat.mod_eq_of_lt hi]
  rcases findSymbol_cases list k i h (HUFF_LIST_LENGTH + 1) 0 (by omega) (by omega)
    (fun j hj => by omega) with ⟨q, hq, hs, hf⟩ | ⟨hnone, hf⟩
  · rw [hf, lzLiteralList_at list k i q h hq hs]
    by_cases hc : (list.getD q default).count < 65535
    · rw [if_pos ⟨by omega, hc⟩, if_pos hc]
      obtain ⟨b1, b2, b3, b4, b5, b6, b7⟩ := bubbleSymbols_spec
        ((list.getD q default).count + 1) (HUFF_LIST_LENGTH + 1) list q (by omega) (by omega)
      obtain ⟨d1, d2, d4, d5, d6, d7⟩ := bubbleEntries_spec
        ((list.getD q default).count + 1) (HUFF_LIST_LENGTH + 1) list q (by omega) (by omega)
      obtain ⟨B, hB⟩ : ∃ B, B = bubbleSymbols (HUFF_LIST_LENGTH + 1) list q
        ((list.getD q default).count + 1) := ⟨_, rfl⟩
      obtain ⟨D, hD⟩ : ∃ D, D = bubbleEntries (HUFF_LIST_LENGTH + 1) list q
        ((list.getD q default).count + 1) := ⟨_, rfl⟩
      rw [← hB] at b1 b2 b3 b4 b5 b6 b7 ⊢
      rw [← hD] at d1 d2 d4 d5 d6 d7 ⊢
      obtain ⟨c, hcq⟩ : ∃ c, c = (list.getD q default).count := ⟨_, rfl⟩
      rw [← hcq] at b4 b5 d4 d5 hc ⊢
      have hpos : D.2 = B.2 := by
        rcases Nat.lt_trichotomy D.2 B.2 with e | e | e
        · exact absurd (d4 (B.2 - 1) (by omega) (by omega)) (b5 (by omega))
        · exact e
        · exact absurd (b4 (D.2 - 1) (by omega) (by omega)) (d5 (by omega))
      have hrun : ∀ j, B.2 ≤ j → j ≤ q → (list.getD j default).count = c := by
        intro j j1 j2
        rcases Nat.lt_or_ge j q with e | e
        · have u1 := b4 j j1 e
          have u2 := h.2.2.2.2.2 j q e hq
          omega
        · have e2 : j = q := by omega
          rw [e2, hcq]
      rw [hpos]
      apply ext_getD _ _ default (by rw [List.length_set, List.length_set, d2, b2])
      intro j
      by_cases e0 : j = B.2
      · rw [e0, getD_set_eq _ _ _ _ (by omega), getD_set_eq _ _ _ _ (by omega)]
      · rw [getD_set_ne _ _ _ _ _ (by omega), getD_set_ne _ _ _ _ _ (by omega)]
        by_cases e1 : B.2 < j ∧ j ≤ q
        · rw [d6 j (by omega) e1.2]
          apply hufflist_eq
          · rw [b6 j e1.1 e1.2]
          · rw [b3 j, hrun j (by omega) e1.2, hrun (j - 1) (by omega) (by omega)]
        · rw [d7 j (by omega)]
          apply hufflist_eq
          · rw [b7 j (by omega)]
          · rw [b3 j]
    · rw [if_neg (fun c => hc c.2), if_neg hc]
  · rw [hf, lzLiteralList_absent list k i h hnone]
    by_cases hk : k < HUFF_LIST_LENGTH
    · have hz : (list.getD k default).count = 0 := h.2.2.1 k (le_refl _)
      rw [if_pos ⟨hk, by rw [hz]; decide⟩, if_pos hk, hz]
      obtain ⟨d1, d2, d4, d5, d6, d7⟩ := bubbleEntries_spec (0 + 1) (HUFF_LIST_LENGTH + 1)
        list k (by omega) (by omega)
      obtain ⟨D, hD⟩ : ∃ D, D = bubbleEntries (HUFF_LIST_LENGTH + 1) list k (0 + 1) := ⟨_, rfl⟩
      rw [← hD] at d1 d2 d4 d5 d6 d7 ⊢
      have hpos : D.2 = k := by
        rcases Nat.lt_or_ge D.2 k with e | e
        · have u1 := d4 (k - 1) (by omega) (by omega)
          have u2 := (h.2.2.2.2.1 (k - 1) (by omega)).1
          omega
        · omega
      have hD1 : D.1 = list := by
        apply ext_getD _ _ default d2
        intro j
        by_cases e : j ≤ D.2
        · exact d7 j (Or.inl e)
        · exact d7 j (Or.inr (by omega))
      rw [hpos, hD1]
      rfl
    · rw [if_neg (fun c => hk c.1), if_neg hk]

theorem lzByteSymbol_lt (s : lzmh_decoder_t) : lzByteSymbol s < 256 := by
  unfold lzByteSymbol
  have e : (1 <<< HUFF_BYTE_LENGTH) - 1 = 255 := rfl
  rw [e]
  exact Nat.lt_succ_of_le Nat.and_le_right

/-- The coding of a symbol below 256 keeps the symbols of the list below 256. -/
theorem lzLiteralList_symbols (list : List HUFFLIST) (i : Nat) (h : HuffInv list) (hi : i < 256)
    (h256 : ∀ x ∈ occupiedPrefix list, x.symbol < 256) :
    ∀ x ∈ occupiedPrefix (lzLiteralList list i), x.symbol < 256 := by
  intro x hx
  by_cases e : x.symbol = i
  · rw [e]; exact hi
  · exact h256 x (((lzLiteralList_inv list i h).2.2.2.2.2 x e).mpr hx)

/-- The `do` loop of `DecodeLZMH` starts with a symbol list that satisfies the condition and
has no occupied entry. -/
theorem decodeStart_list (internBuffer : List Nat) (list : List HUFFLIST)
    (inb outb : bit_file_buffer_t) (hl : list.length = HUFF_LIST_LENGTH) :
    HuffInv (decodeStart internBuffer list inb outb).list ∧
    occupiedPrefix (decodeStart internBuffer list inb outb).list = [] := by
  unfold decodeStart
  dsimp only
  have hidx : HuffIdx (list.map (fun h => { h with count := 0 })) 0 := by
    refine ⟨by rw [List.length_map, hl], Nat.zero_le _, fun j _ => ?_, fun a b _ hb => by omega,
      fun j hj => by omega, fun a b _ hb => by omega⟩
    by_cases hj : j < (list.map (fun h : HUFFLIST => { h with count := 0 })).length
    · rw [List.getD_eq_getElem _ _ hj, List.getElem_map]
    · rw [List.getD_eq_getElem?_getD, List.getElem?_eq_none (by omega)]
      rfl
  obtain ⟨a, b⟩ := HuffInv_of_HuffIdx _ 0 hidx
  exact ⟨a, List.length_eq_zero.mp b⟩

/-- An item of `DecodeLZMH` keeps the condition on the symbol list, and the list is the one the
encoder has after the same item, when a list literal names an occupied entry. -/
theorem decodeItem_inv (s : lzmh_decoder_t) (h : HuffInv s.list)
    (h256 : ∀ x ∈ occupiedPrefix s.list, x.symbol < 256)
    (hocc : s.code_sym &&& 0x80000000 ≠ 0 → lzTreeIndex s ≠ TREE_LENGHT →
      lzTreeIndex s < (occupiedPrefix s.list).length) :
    HuffInv (decodeItem s).2.list ∧
    (∀ x ∈ occupiedPrefix (decodeItem s).2.list, x.symbol < 256) ∧
    ((decodeItem s).2.list = s.list ∨
      (s.code_sym &&& 0x80000000 ≠ 0 ∧ lzTreeIndex s ≠ TREE_LENGHT ∧
        (decodeItem s).2.list
          = lzLiteralList s.list (s.list.getD (lzTreeIndex s) default).symbol) ∨
      (¬ s.code_sym &&& 0x80000000 ≠ 0 ∧ s.code_sym &&& 0x40000000 = 0 ∧
        (decodeItem s).2.list = lzLiteralList s.list (lzByteSymbol s))) := by
  have hidx := (HuffInv_iff s.list).mp h
  rcases decodeItem_list s with e | ⟨e1, e2, e3⟩ | ⟨e1, e2, e3⟩
  · rw [e]
    exact ⟨h, h256, Or.inl rfl⟩
  · have hlt := hocc e1 e2
    have hsym : (s.list.getD (lzTreeIndex s) default).symbol < 256 :=
      h256 _ ((mem_occupiedPrefix s.list _ hidx _).mpr ⟨_, hlt, rfl⟩)
    rw [lzTreeList_eq s.list _ _ hidx hlt hsym] at e3
    rw [e3]
    exact ⟨(lzLiteralList_inv s.list _ h).1, lzLiteralList_symbols s.list _ h hsym h256,
      Or.inr (Or.inl ⟨e1, e2, rfl⟩)⟩
  · rw [lzByteList_eq s.list _ _ hidx (lzByteSymbol_lt s)] at e3
    rw [e3]
    exact ⟨(lzLiteralList_inv s.list _ h).1,
      lzLiteralList_symbols s.list _ h (lzByteSymbol_lt s) h256,
      Or.inr (Or.inr ⟨e1, e2, rfl⟩)⟩

/-- C35: the condition `HuffInv` on the symbol list (48 entries; the occupied entries form a
prefix, hold pairwise distinct symbols, have counts from 1 to `2 ^ 16 - 1` and are sorted by
non-increasing count) in `EncodeLZMH` and in `DecodeLZMH`.
Encoder: the main loop starts with a list that satisfies the condition; an iteration leaves
the list as it is (back-reference) or codes the byte at the read cursor (literal); the coding
of a literal keeps the condition, adds one to the count of the symbol, unless the count is
`2 ^ 16 - 1` or the symbol is not in a full list, and leaves the other symbols with their
counts.
Decoder: the `do` loop starts with a list that satisfies the condition; an item keeps the
condition, and changes the list as the encoder does, when it is not a list literal that names
a free entry.
Evaluation of the code at the failing input: `DecodeLZMH` on the two bytes 0x00 and 0x38, that
is the literal 0x00 as a byte code (bits 00 and 00000000), the list literal of the entry 1
(bits 1110) and two bits of padding, with the symbols of the uninitialised local list all 0.
After the first literal the only occupied entry is (0, 1) and the condition holds. The second
literal names the entry 1, which is free: the decoder writes the stale symbol 0 of that entry
and makes the entry (0, 1), so that the two occupied entries hold the same symbol and the
condition fails; the run returns `NO_ERROR` with the output 0x00, 0x00. With the stale symbols
all 0x41 the bytes 0x10 and 0x78 (byte code of 0x41, then the list literal of the entry 1)
give the entries (0x41, 1) twice. -/
theorem C35_decoder_list_literal_at_free_entry :
    (∀ (internBuffer : List Nat) (list : List HUFFLIST) (inb outb : bit_file_buffer_t),
      list.length = HUFF_LIST_LENGTH → HuffInv (encodeStart internBuffer list inb outb).list) ∧
    (∀ s : lzmh_encoder_t, (encodeStep s).2.list
      = if (lzBest s).1 ≥ 3 then s.list
        else lzLiteralList s.list (s.internBuffer.getD s.internBufferRead 0)) ∧
    (∀ (list : List HUFFLIST) (i : Nat), HuffInv list →
      HuffInv (lzLiteralList list i) ∧
      (∀ c, ({ symbol := i, count := c } : HUFFLIST) ∈ occupiedPrefix list → c < 2 ^ 16 - 1 →
        ({ symbol := i, count := c + 1 } : HUFFLIST) ∈ occupiedPrefix (lzLiteralList list i) ∧
        (occupiedPrefix (lzLiteralList list i)).length = (occupiedPrefix list).length) ∧
      (∀ c, ({ symbol := i, count := c } : HUFFLIST) ∈ occupiedPrefix list → ¬ c < 2 ^ 16 - 1 →
        lzLiteralList list i = list) ∧
      ((∀ x ∈ occupiedPrefix list, x.symbol ≠ i) →
        (occupiedPrefix list).length < HUFF_LIST_LENGTH →
        ({ symbol := i, count := 1 } : HUFFLIST) ∈ occupiedPrefix (lzLiteralList list i) ∧
        (occupiedPrefix (lzLiteralList list i)).length = (occupiedPrefix list).length + 1) ∧
      ((∀ x ∈ occupiedPrefix list, x.symbol ≠ i) →
        ¬ (occupiedPrefix list).length < HUFF_LIST_LENGTH → lzLiteralList list i = list) ∧
      (∀ x : HUFFLIST, x.symbol ≠ i →
        (x ∈ occupiedPrefix list ↔ x ∈ occupiedPrefix (lzLiteralList list i)))) ∧
    (∀ (internBuffer : List Nat) (list : List HUFFLIST) (inb outb : bit_file_buffer_t),
      list.length = HUFF_LIST_LENGTH →
      HuffInv (decodeStart internBuffer list inb outb).list ∧
      occupiedPrefix (decodeStart internBuffer list inb outb).list = []) ∧
    (∀ (fuel : Nat) (s : lzmh_decoder_t), (fillCode fuel s).2.list = s.list) ∧
    (∀ s : lzmh_decoder_t, HuffInv s.list →
      (∀ x ∈ occupiedPrefix s.list, x.symbol < 256) →
      (s.code_sym &&& 0x80000000 ≠ 0 → lzTreeIndex s ≠ TREE_LENGHT →
        lzTreeIndex s < (occupiedPrefix s.list).length) →
      HuffInv (decodeItem s).2.list ∧
      (∀ x ∈ occupiedPrefix (decodeItem s).2.list, x.symbol < 256) ∧
      ((decodeItem s).2.list = s.list ∨
        (s.code_sym &&& 0x80000000 ≠ 0 ∧ lzTreeIndex s ≠ TREE_LENGHT ∧
          (decodeItem s).2.list
            = lzLiteralList s.list (s.list.getD (lzTreeIndex s) default).symbol) ∨
        (¬ s.code_sym &&& 0x80000000 ≠ 0 ∧ s.code_sym &&& 0x40000000 = 0 ∧
          (decodeItem s).2.list = lzLiteralList s.list (lzByteSymbol s)))) ∧
    ((exampleInput [0x00, 0x38] 2).rdBits
        = toBits 2 0 ++ toBits 8 0x00 ++ toBits 4 0xE ++ [false, false] ∧
      HuffInv (decodeStart (zeroBytes LZ_MAX_OFFSET) zeroList (exampleInput [0x00, 0x38] 2)
        (exampleOutput 4)).list ∧
      HuffInv (DecodeLZMHLoop 1 (decodeStart (zeroBytes LZ_MAX_OFFSET) zeroList
        (exampleInput [0x00, 0x38] 2) (exampleOutput 4))).2.list ∧
      occupiedPrefix (DecodeLZMHLoop 1 (decodeStart (zeroBytes LZ_MAX_OFFSET) zeroList
        (exampleInput [0x00, 0x38] 2) (exampleOutput 4))).2.list = [⟨0, 1⟩] ∧
      lzTreeIndex (fillCode 256 (DecodeLZMHLoop 1 (decodeStart (zeroBytes LZ_MAX_OFFSET) zeroList
        (exampleInput [0x00, 0x38] 2) (exampleOutput 4))).2).2 = 1 ∧
      (DecodeLZMHLoop 2 (decodeStart (zeroBytes LZ_MAX_OFFSET) zeroList
        (exampleInput [0x00, 0x38] 2) (exampleOutput 4))).1 = NO_ERROR ∧
      occupiedPrefix (DecodeLZMHLoop 2 (decodeStart (zeroBytes LZ_MAX_OFFSET) zeroList
        (exampleInput [0x00, 0x38] 2) (exampleOutput 4))).2.list = [⟨0, 1⟩, ⟨0, 1⟩] ∧
      ¬ HuffInv (DecodeLZMHLoop 2 (decodeStart (zeroBytes LZ_MAX_OFFSET) zeroList
        (exampleInput [0x00, 0x38] 2) (exampleOutput 4))).2.list ∧
      (decodeLZMH 2 (exampleInput [0x00, 0x38] 2) (exampleOutput 4)).1 = NO_ERROR ∧
      (teardown (decodeLZMH 2 (exampleInput [0x00, 0x38] 2) (exampleOutput 4)).2.2).output
        = [0x00, 0x00] ∧
      occupiedPrefix (DecodeLZMHLoop 1 (decodeStart (zeroBytes LZ_MAX_OFFSET)
        (List.replicate HUFF_LIST_LENGTH ⟨0x41, 0⟩) (exampleInput [0x10, 0x78] 2)
        (exampleOutput 4))).2.list = [⟨0x41, 1⟩] ∧
      occupiedPrefix (DecodeLZMHLoop 2 (decodeStart (zeroBytes LZ_MAX_OFFSET)
        (List.replicate HUFF_LIST_LENGTH ⟨0x41, 0⟩) (exampleInput [0x10, 0x78] 2)
        (exampleOutput 4))).2.list = [⟨0x41, 1⟩, ⟨0x41, 1⟩] ∧
      ¬ HuffInv (DecodeLZMHLoop 2 (decodeStart (zeroBytes LZ_MAX_OFFSET)
        (List.replicate HUFF_LIST_LENGTH ⟨0x41, 0⟩) (exampleInput [0x10, 0x78] 2)
        (exampleOutput 4))).2.list) := by
  refine ⟨encodeStart_list, encodeStep_list, lzLiteralList_inv, decodeStart_list, fillCode_list,
    decodeItem_inv, ?_⟩
  refine ⟨?_, ?_, ?_, ?_, ?_, ?_, ?_, ?_, ?_, ?_, ?_, ?_, ?_⟩ <;> decide

/-! ## LZMH: the bits of a coded item -/

theorem toI8_small (x : Int) (h0 : -128 ≤ x) (h1 : x < 128) : toI8 x = x := by
  unfold toI8
  omega

theorem mul_pow_lt (Q lb m : Nat) (hQ : Q < 2 ^ lb) (h : lb + m ≤ 31) : Q * 2 ^ m < 2 ^ 31 := by
  have h1 : Q * 2 ^ m < 2 ^ lb * 2 ^ m := Nat.mul_lt_mul_of_pos_right hQ (Nat.two_pow_pos m)
  rw [← Nat.pow_add] at h1
  exact lt_of_lt_of_le h1 (Nat.pow_le_pow_right (by decide) h)

/-- The `int` expression `n << m` as an unsigned 64-bit value, when it does not reach the sign
bit. -/
theorem shlInt_value (n m : Nat) (h : n * 2 ^ m < 2 ^ 31) :
    toU64 (shlInt (n : Int) (m : Int)) = n * 2 ^ m := by
  have h32 : n * 2 ^ m % 2 ^ 32 = n * 2 ^ m := Nat.mod_eq_of_lt (by omega)
  unfold shlInt toI32
  rw [Int.toNat_ofNat, Int.toNat_ofNat, Nat.shiftLeft_eq, h32, h32, if_pos h]
  rw [toU64_of_nonneg _ (Int.ofNat_nonneg _) (by exact_mod_cast (by omega : n * 2 ^ m < 2 ^ 64)),
    Int.toNat_ofNat]

/-- Two codes that are put one behind the other at the head of the 32-bit code buffer. -/
theorem code_join (P Q la lb : Nat) (hl : la + lb ≤ 32) (hQ : Q < 2 ^ lb) :
    ((P * 2 ^ (32 - la)) ||| (Q * 2 ^ (32 - (la + lb)))) >>> (32 - (la + lb))
      = P * 2 ^ lb + Q := by
  have e : 2 ^ (32 - la) = 2 ^ lb * 2 ^ (32 - (la + lb)) := by
    rw [← Nat.pow_add]
    congr 1
    omega
  have hb : Q * 2 ^ (32 - (la + lb)) < 2 ^ (32 - la) := by
    rw [e]
    exact Nat.mul_lt_mul_of_pos_right hQ (Nat.two_pow_pos _)
  rw [or_eq_add _ _ (32 - la) (Nat.mul_mod_left _ _) hb, Nat.shiftRight_eq_div_pow, e,
    ← Nat.mul_assoc, ← Nat.add_mul, Nat.mul_div_cancel _ (Nat.two_pow_pos _)]

/-- The offset part of a back-reference: the recent offsets of the bit grammar, and a code
`P` of `la` bits, the prefix of the bit grammar, at the head of the code buffer. -/
theorem encodeOffset_spec (offsets : List Int) (bo : Nat) (h1 : 1 ≤ bo) (h2 : bo ≤ 128) :
    ∃ la P : Nat,
      encodeOffset offsets (bo : Int) 0 0
        = (grammarRecent offsets bo, (la : Int), P * 2 ^ (32 - la)) ∧
      4 ≤ la ∧ la ≤ 10 ∧ P * 2 ^ (32 - la) < 2 ^ 31 ∧
      toBits la P = grammarOffset offsets bo := by
  unfold encodeOffset grammarRecent grammarOffset
  dsimp only
  by_cases c0 : offsets.getD 0 0 = (bo : Int)
  · rw [if_pos c0, if_pos c0, if_pos c0]
    refine ⟨4, 6, ?_, by omega, by omega, by norm_num, by decide⟩
    have e1 : toI8 (0 + 4) = ((4 : Nat) : Int) := by decide
    have e2 : toU64 (shlInt 0x06 ((CODE_BUFFER : Int) - toI8 (0 + 4))) = 6 * 2 ^ (32 - 4) := by
      decide
    rw [e2, e1, Nat.zero_or]
  · rw [if_neg c0, if_neg c0, if_neg c0]
    by_cases c1 : offsets.getD 1 0 = (bo : Int)
    · rw [if_pos c1, if_pos c1, if_pos c1]
      refine ⟨5, 14, ?_, by omega, by omega, by norm_num, by decide⟩
      have e1 : toI8 (0 + 5) = ((5 : Nat) : Int) := by decide
      have e2 : toU64 (shlInt 0x0E ((CODE_BUFFER : Int) - toI8 (0 + 5)))
          = 14 * 2 ^ (32 - 5) := by decide
      rw [e2, e1, Nat.zero_or]
    · rw [if_neg c1, if_neg c1, if_neg c1]
      by_cases c2 : offsets.getD 2 0 = (bo : Int)
      · rw [if_pos c2, if_pos c2, if_pos c2]
        refine ⟨6, 30, ?_, by omega, by omega, by norm_num, by decide⟩
        have e1 : toI8 (0 + 6) = ((6 : Nat) : Int) := by decide
        have e2 : toU64 (shlInt 0x1E ((CODE_BUFFER : Int) - toI8 (0 + 6)))
            = 30 * 2 ^ (32 - 6) := by decide
        rw [e2, e1, Nat.zero_or]
      · rw [if_neg c2, if_neg c2, if_neg c2]
        have e1 : toI8 (0 + 6) = ((6 : Nat) : Int) := by decide
        have e10 : toI8 (0 + 10) = ((10 : Nat) : Int) := by decide
        by_cases c3 : offsets.getD 3 0 = (bo : Int)
        · rw [if_pos c3, if_pos c3]
          refine ⟨6, 31, ?_, by omega, by omega, by norm_num, by decide⟩
          have e2 : toU64 (shlInt 0x1F ((CODE_BUFFER : Int) - toI8 (0 + 6)))
              = 31 * 2 ^ (32 - 6) := by decide
          rw [e2, e1, Nat.zero_or]
        · rw [if_neg c3, if_neg c3]
          have eo : 0x100 ||| ((bo : Int) - 1).toNat = 256 + (bo - 1) := by
            have : ((bo : Int) - 1).toNat = bo - 1 := by omega
            rw [this]
            exact or_eq_add 256 (bo - 1) 8 (by decide) (by norm_num; omega)
          have es : (CODE_BUFFER : Int) - toI8 (0 + 10) = ((22 : Nat) : Int) := by decide
          refine ⟨10, 256 + (bo - 1), ?_, by omega, by omega, ?_, ?_⟩
          · rw [eo, es, shlInt_value _ _ (mul_pow_lt _ 9 22 (by norm_num; omega) (by omega)),
              e10, Nat.zero_or]
          · exact mul_pow_lt _ 9 22 (by norm_num; omega) (by omega)
          · have := toBits_mul_add 3 7 2 (bo - 1) (by norm_num; omega)
            have e : 2 * 2 ^ 7 + (bo - 1) = 256 + (bo - 1) := by norm_num
            rw [e] at this
            rw [this]
            rfl

/-- The length part of a back-reference: a code `Q` of `lb` bits, the length of the bit
grammar, behind the `la` bits that the code buffer holds. -/
theorem encodeLength_spec (bl la c : Nat) (h3 : 3 ≤ bl) (h274 : bl ≤ 274) (hla4 : 4 ≤ la)
    (hla : la ≤ 10) :
    ∃ lb Q : Nat,
      encodeLength (bl : Int) (la : Int) c
        = (((la + lb : Nat) : Int), c ||| (Q * 2 ^ (32 - (la + lb)))) ∧
      lb ≤ 10 ∧ Q < 2 ^ lb ∧ toBits lb Q = grammarLength bl := by
  have hcb : CODE_BUFFER = 32 := rfl
  unfold encodeLength grammarLength
  dsimp only
  by_cases c0 : (bl : Int) < 11
  · have c0' : bl < 11 := by omega
    rw [if_pos c0, if_pos c0']
    refine ⟨4, bl - 3, ?_, by omega, by norm_num; omega, ?_⟩
    · have e1 : toI8 ((la : Int) + 4) = ((la + 4 : Nat) : Int) := by
        rw [toI8_small _ (by omega) (by omega)]
        push_cast
        rfl
      have e2 : (bl : Int) - 3 = ((bl - 3 : Nat) : Int) := by omega
      have e3 : (CODE_BUFFER : Int) - ((la + 4 : Nat) : Int) = ((32 - (la + 4) : Nat) : Int) := by
        rw [hcb]
        omega
      rw [e1, e2, e3, shlInt_value _ _ (mul_pow_lt _ 3 _ (by norm_num; omega) (by omega))]
    · have := toBits_mul_add 1 3 0 (bl - 3) (by norm_num; omega)
      rw [Nat.zero_mul, Nat.zero_add] at this
      rw [this]
      rfl
  · have c0' : ¬ bl < 11 := by omega
    rw [if_neg c0, if_neg c0']
    by_cases c1 : (bl : Int) < 19
    · have c1' : bl < 19 := by omega
      rw [if_pos c1, if_pos c1']
      have eo : 0x10 ||| ((bl : Int) - 11).toNat = 16 + (bl - 11) := by
        have : ((bl : Int) - 11).toNat = bl - 11 := by omega
        rw [this]
        exact or_eq_add 16 (bl - 11) 4 (by decide) (by norm_num; omega)
      refine ⟨5, 16 + (bl - 11), ?_, by omega, by norm_num; omega, ?_⟩
      · have e1 : toI8 ((la : Int) + 5) = ((la + 5 : Nat) : Int) := by
          rw [toI8_small _ (by omega) (by omega)]
          push_cast
          rfl
        have e3 : (CODE_BUFFER : Int) - ((la + 5 : Nat) : Int)
            = ((32 - (la + 5) : Nat) : Int) := by
          rw [hcb]
          omega
        rw [e1, eo, e3, shlInt_value _ _ (mul_pow_lt _ 5 _ (by norm_num; omega) (by omega))]
      · have := toBits_mul_add 2 3 2 (bl - 11) (by norm_num; omega)
        have e : 2 * 2 ^ 3 + (bl - 11) = 16 + (bl - 11) := by norm_num
        rw [e] at this
        rw [this]
        rfl
    · have c1' : ¬ bl < 19 := by omega
      rw [if_neg c1, if_neg c1']
      have eo : 0x300 ||| ((bl : Int) - 19).toNat = 768 + (bl - 19) := by
        have : ((bl : Int) - 19).toNat = bl - 19 := by omega
        rw [this]
        exact or_eq_add 768 (bl - 19) 8 (by decide) (by norm_num; omega)
      refine ⟨10, 768 + (bl - 19), ?_, by omega, by norm_num; omega, ?_⟩
      · have e1 : toI8 ((la : Int) + 10) = ((la + 10 : Nat) : Int) := by
          rw [toI8_small _ (by omega) (by omega)]
          push_cast
          rfl
        have e3 : (CODE_BUFFER : Int) - ((la + 10 : Nat) : Int)
            = ((32 - (la + 10) : Nat) : Int) := by
          rw [hcb]
          omega
        rw [e1, eo, e3, shlInt_value _ _ (mul_pow_lt _ 10 _ (by norm_num; omega) (by omega))]
      · have := toBits_mul_add 2 8 3 (bl - 19) (by norm_num; omega)
        have e : 3 * 2 ^ 8 + (bl - 19) = 768 + (bl - 19) := by norm_num
        rw [e] at this
        rw [this]
        rfl

/-- The code of a back-reference: its bits are the prefix and the length of the bit grammar,
at most 20 bits. -/
theorem backreference_code (offsets : List Int) (bl bo : Nat) (h3 : 3 ≤ bl) (h274 : bl ≤ 274)
    (h1 : 1 ≤ bo) (h2 : bo ≤ 128) :
    ∃ n : Nat,
      (encodeLength (bl : Int) (encodeOffset offsets (bo : Int) 0 0).2.1
        (encodeOffset offsets (bo : Int) 0 0).2.2).1 = (n : Int) ∧
      n ≤ 20 ∧
      toBits n ((encodeLength (bl : Int) (encodeOffset offsets (bo : Int) 0 0).2.1
          (encodeOffset offsets (bo : Int) 0 0).2.2).2 >>> ((CODE_BUFFER : Int) - (n : Int)).toNat)
        = grammarOffset offsets bo ++ grammarLength bl ∧
      (encodeOffset offsets (bo : Int) 0 0).1 = grammarRecent offsets bo := by
  have hcb : CODE_BUFFER = 32 := rfl
  obtain ⟨la, P, ho, a1, a2, a3, a4⟩ := encodeOffset_spec offsets bo h1 h2
  obtain ⟨lb, Q, hl, b1, b2, b3⟩ := encodeLength_spec bl la (P * 2 ^ (32 - la)) h3 h274 a1 a2
  rw [ho]
  dsimp only
  rw [hl]
  dsimp only
  refine ⟨la + lb, rfl, by omega, ?_, rfl⟩
  have e : ((CODE_BUFFER : Int) - ((la + lb : Nat) : Int)).toNat = 32 - (la + lb) := by
    rw [hcb]
    omega
  rw [e, code_join P Q la lb (by omega) b2, toBits_mul_add la lb P Q b2, a4, b3]

/-- The filling of the ring buffer leaves the output and the recent offsets as they are, and
stores bytes only. -/
theorem fillBufferNext_out : ∀ (fuel : Nat) (s : lzmh_encoder_t),
    (fillBufferNext fuel s).2.out_bit_buf = s.out_bit_buf ∧
    (fillBufferNext fuel s).2.offsets = s.offsets ∧
    ((∀ x ∈ s.internBuffer, x < 256) → ∀ x ∈ (fillBufferNext fuel s).2.internBuffer, x < 256) := by
  intro fuel
  induction fuel with
  | zero => intro s; exact ⟨rfl, rfl, fun h => h⟩
  | succ fuel ih =>
    intro s
    unfold fillBufferNext
    dsimp only
    split
    · split
      · exact ⟨rfl, rfl, fun h => h⟩
      · obtain ⟨i1, i2, i3⟩ := ih
          { s with
            in_bit_buf := (ReadSingleValueFromBitFileBuffer (EndOfBitFileBuffer s.in_bit_buf).2 8).2
            internBuffer := s.internBuffer.set s.internBufferWrite
              ((ReadSingleValueFromBitFileBuffer (EndOfBitFileBuffer s.in_bit_buf).2 8).1.2 % 256)
            internBufferWrite :=
              if s.internBufferWrite + 1 ≥ INTERN_BUFFER_LENGTH
              then s.internBufferWrite + 1 - INTERN_BUFFER_LENGTH
              else s.internBufferWrite + 1 }
        refine ⟨i1, i2, fun h => i3 (fun x hx => ?_)⟩
        rcases List.mem_or_eq_of_mem_set hx with e | e
        · exact h x e
        · rw [e]
          exact Nat.mod_lt _ (by decide)
    · exact ⟨rfl, rfl, fun h => h⟩

theorem fillBufferFirst_out : ∀ (fuel : Nat) (s : lzmh_encoder_t),
    (fillBufferFirst fuel s).2.out_bit_buf = s.out_bit_buf ∧
    (fillBufferFirst fuel s).2.offsets = s.offsets ∧
    ((∀ x ∈ s.internBuffer, x < 256) →
      ∀ x ∈ (fillBufferFirst fuel s).2.internBuffer, x < 256) := by
  intro fuel
  induction fuel with
  | zero => intro s; exact ⟨rfl, rfl, fun h => h⟩
  | succ fuel ih =>
    intro s
    unfold fillBufferFirst
    dsimp only
    split
    · split
      · exact ⟨rfl, rfl, fun h => h⟩
      · obtain ⟨i1, i2, i3⟩ := ih
          { s with
            in_bit_buf := (ReadSingleValueFromBitFileBuffer (EndOfBitFileBuffer s.in_bit_buf).2 8).2
            internBuffer := s.internBuffer.set s.internBufferWrite
              ((ReadSingleValueFromBitFileBuffer (EndOfBitFileBuffer s.in_bit_buf).2 8).1.2 % 256)
            internBufferWrite := s.internBufferWrite + 1 }
        refine ⟨i1, i2, fun h => i3 (fun x hx => ?_)⟩
        rcases List.mem_or_eq_of_mem_set hx with e | e
        · exact h x e
        · rw [e]
          exact Nat.mod_lt _ (by decide)
    · exact ⟨rfl, rfl, fun h => h⟩

/-- The main loop of `EncodeLZMH` starts with the output buffer and the ring buffer of bytes
that it was given, and with the recent offsets 0. -/
theorem encodeStart_out (internBuffer : List Nat) (list : List HUFFLIST)
    (inb outb : bit_file_buffer_t) :
    (encodeStart internBuffer list inb outb).out_bit_buf = outb ∧
    (encodeStart internBuffer list inb outb).offsets = [0, 0, 0, 0] ∧
    ((∀ x ∈ internBuffer, x < 256) →
      ∀ x ∈ (encodeStart internBuffer list inb outb).internBuffer, x < 256) := by
  unfold encodeStart
  dsimp only
  obtain ⟨f1, f2, f3⟩ := fillBufferFirst_out (INTERN_BUFFER_LENGTH + 1)
    { in_bit_buf := inb, out_bit_buf := outb, offsets := [0, 0, 0, 0],
      list := list.map (fun h => { h with count := 0 }),
      internBuffer := internBuffer,
      internBufferWrite := 0, internBufferRead := 0, internBufferHistory := 0 }
  exact ⟨f1, f2, f3⟩

/-- The coding of an item leaves the output buffer and the ring buffer as they are. -/
theorem lzCoded_out (s : lzmh_encoder_t) :
    (lzCoded s).1.out_bit_buf = s.out_bit_buf ∧ (lzCoded s).1.internBuffer = s.internBuffer := by
  unfold lzCoded
  split
  · exact ⟨rfl, rfl⟩
  · dsimp only
    split <;> exact ⟨rfl, rfl⟩

theorem toU64_natCast (n : Nat) (h : n < 2 ^ 64) : toU64 (n : Int) = n := by
  rw [toU64_of_nonneg _ (Int.ofNat_nonneg _) (by exact_mod_cast h), Int.toNat_ofNat]

/-- An iteration of the main loop writes the code of its item: the `n` bits at the head of
the code buffer. -/
theorem encodeStep_write (s : lzmh_encoder_t) (n : Nat) (hn : (lzCoded s).2.1 = (n : Int))
    (hn20 : n ≤ 20) (hout : s.out_bit_buf.WrWF) (hroom : s.out_bit_buf.Room 20) :
    (encodeStep s).2.out_bit_buf.wrBits
      = s.out_bit_buf.wrBits
        ++ toBits n ((lzCoded s).2.2 >>> ((CODE_BUFFER : Int) - (n : Int)).toNat) ∧
    (encodeStep s).2.out_bit_buf.WrWF ∧
    (encodeStep s).2.offsets = (lzCoded s).1.offsets := by
  obtain ⟨hco, -⟩ := lzCoded_out s
  obtain ⟨w1, w2, w3, -, -, -, -⟩ := WriteSingleValueToBitFileBuffer_spec s.out_bit_buf
    ((lzCoded s).2.2 >>> ((CODE_BUFFER : Int) - (n : Int)).toNat) n hout (by omega)
    (Room_mono _ 20 n hn20 hroom)
  have hlog := LOG_ON_ERROR_AND_RETURN_ok n (by omega)
  unfold encodeStep
  dsimp only
  rw [hn, hco, toU64_natCast n (by omega), w1, hlog]
  dsimp only
  obtain ⟨f1, f2, f3⟩ := fillBufferNext_out (INTERN_BUFFER_LENGTH + 1)
    { (lzCoded s).1 with
      out_bit_buf := (WriteSingleValueToBitFileBuffer s.out_bit_buf
        ((lzCoded s).2.2 >>> ((CODE_BUFFER : Int) - (n : Int)).toNat) n).2
      internBufferHistory := lzHistory { (lzCoded s).1 with
        out_bit_buf := (WriteSingleValueToBitFileBuffer s.out_bit_buf
          ((lzCoded s).2.2 >>> ((CODE_BUFFER : Int) - (n : Int)).toNat) n).2 } }
  rw [f1, f2]
  exact ⟨w3, w2, rfl⟩

/-- The codes of the code table, as `EncodeLZMH` forms them in the code buffer: the bits of
the entry; they start with `1` and are 4 to 8 bits long. -/
theorem tree_code : ∀ q, q < TREE_LENGHT →
    toI8 (0 + ((tree.getD q default).length : Int)) = (((tree.getD q default).length : Nat) : Int) ∧
    4 ≤ (tree.getD q default).length ∧ (tree.getD q default).length ≤ 8 ∧
    toBits (tree.getD q default).length
      (toU64 (shlInt ((tree.getD q default).code : Int)
        ((CODE_BUFFER : Int) - toI8 (0 + ((tree.getD q default).length : Int))))
        >>> ((CODE_BUFFER : Int) - (((tree.getD q default).length : Nat) : Int)).toNat)
      = grammarListCode q ∧
    (grammarListCode q).head? = some true := by
  decide

/-- The byte code of a literal, as `EncodeLZMH` forms it in the code buffer. -/
theorem byte_code (byte : Nat) (h : byte < 256) :
    toI8 (0 + ((HUFF_BYTE_LENGTH + 2 : Nat) : Int)) = ((10 : Nat) : Int) ∧
    toBits 10 (toU64 (shlInt (byte : Int)
      ((CODE_BUFFER : Int) - toI8 (0 + ((HUFF_BYTE_LENGTH + 2 : Nat) : Int))))
      >>> ((CODE_BUFFER : Int) - ((10 : Nat) : Int)).toNat) = grammarByte byte := by
  have e1 : toI8 (0 + ((HUFF_BYTE_LENGTH + 2 : Nat) : Int)) = ((10 : Nat) : Int) := by decide
  have e2 : (CODE_BUFFER : Int) - ((10 : Nat) : Int) = ((22 : Nat) : Int) := by decide
  refine ⟨e1, ?_⟩
  rw [e1, e2, shlInt_value byte 22 (mul_pow_lt byte 8 22 (by norm_num; omega) (by omega)),
    Int.toNat_ofNat, Nat.shiftRight_eq_div_pow, Nat.mul_div_cancel _ (Nat.two_pow_pos _)]
  have := toBits_mul_add 2 8 0 byte (by norm_num; omega)
  rw [Nat.zero_mul, Nat.zero_add] at this
  rw [this]
  rfl

/-- An iteration of the main loop keeps a ring buffer of bytes. -/
theorem encodeStep_bytes (s : lzmh_encoder_t) (h : ∀ x ∈ s.internBuffer, x < 256) :
    ∀ x ∈ (encodeStep s).2.internBuffer, x < 256 := by
  obtain ⟨-, hci⟩ := lzCoded_out s
  unfold encodeStep
  dsimp only
  cases hX : LOG_ON_ERROR_AND_RETURN
      (WriteSingleValueToBitFileBuffer (lzCoded s).1.out_bit_buf
        ((lzCoded s).2.2 >>> (CODE_BUFFER - (lzCoded s).2.1).toNat) (toU64 (lzCoded s).2.1)).1
      (toU64 (lzCoded s).2.1) with
  | some ret =>
    dsimp only
    rw [hci]
    exact h
  | none =>
    dsimp only
    apply (fillBufferNext_out _ _).2.2
    dsimp only
    rw [hci]
    exact h

/-- The code of a literal: the list code of the entry that holds the byte, when that is one
of the first `TREE_LENGHT` entries, and the byte code otherwise. -/
theorem literal_code (s : lzmh_encoder_t) (h : ¬ (lzBest s).1 ≥ 3) (hinv : HuffInv s.list)
    (hbyte : s.internBuffer.getD s.internBufferRead 0 < 256) :
    ∃ n : Nat, (lzCoded s).2.1 = (n : Int) ∧ n ≤ 10 ∧
      (∀ q, q < (occupiedPrefix s.list).length → q < TREE_LENGHT →
        (s.list.getD q default).symbol = s.internBuffer.getD s.internBufferRead 0 →
        toBits n ((lzCoded s).2.2 >>> ((CODE_BUFFER : Int) - (n : Int)).toNat)
          = grammarListCode q) ∧
      ((∀ q, q < (occupiedPrefix s.list).length → q < TREE_LENGHT →
          (s.list.getD q default).symbol ≠ s.internBuffer.getD s.internBufferRead 0) →
        toBits n ((lzCoded s).2.2 >>> ((CODE_BUFFER : Int) - (n : Int)).toNat)
          = grammarByte (s.internBuffer.getD s.internBufferRead 0)) := by
  have h48 : HUFF_LIST_LENGTH = 48 := rfl
  have h19 : TREE_LENGHT = 19 := rfl
  have hidx := (HuffInv_iff s.list).mp hinv
  have hk48 : (occupiedPrefix s.list).length ≤ 48 := hidx.2.1
  have hinj := HuffIdx_inj s.list _ hidx
  obtain ⟨byte, hb⟩ : ∃ b, b = s.internBuffer.getD s.internBufferRead 0 := ⟨_, rfl⟩
  obtain ⟨m, hm⟩ : ∃ m, m = (searchSymbol (HUFF_LIST_LENGTH + 1) s.list byte 0).2.1 := ⟨_, rfl⟩
  have hcoded : (lzCoded s).2
      = if m < TREE_LENGHT then
          (toI8 (0 + ((tree.getD m default).length : Int)),
            toU64 (shlInt ((tree.getD m default).code : Int)
              ((CODE_BUFFER : Int) - toI8 (0 + ((tree.getD m default).length : Int)))))
        else
          (toI8 (0 + ((HUFF_BYTE_LENGTH + 2 : Nat) : Int)),
            toU64 (shlInt (byte : Int)
              ((CODE_BUFFER : Int) - toI8 (0 + ((HUFF_BYTE_LENGTH + 2 : Nat) : Int))))) := by
    rw [hm, hb]
    unfold lzCoded
    rw [if_neg h]
    dsimp only
    split <;> rfl
  have hmf : (m < TREE_LENGHT → m < (occupiedPrefix s.list).length ∧
        (s.list.getD m default).symbol = byte) ∧
      (¬ m < TREE_LENGHT → ∀ q, q < (occupiedPrefix s.list).length → q < TREE_LENGHT →
        (s.list.getD q default).symbol ≠ byte) := by
    rcases searchSymbol_cases s.list _ byte hidx (HUFF_LIST_LENGTH + 1) 0 (by omega) (by omega)
      (fun j hj => by omega) with ⟨q0, hq0, hs0, hf⟩ | ⟨hnone, hf⟩
    · have e : m = q0 := by
        rw [hm, hf]
        split <;> rfl
      rw [e]
      refine ⟨fun _ => ⟨hq0, hs0⟩, fun hn q q1 q2 q3 => ?_⟩
      have := hinj q q0 q1 hq0 (by rw [q3, hs0])
      omega
    · have e : m = HUFF_SYMBOL_NOT_FOUND := by rw [hm, hf]
      rw [e]
      exact ⟨fun hlt => absurd hlt (by decide), fun _ q q1 _ => hnone q q1⟩
  rw [← hb] at hbyte ⊢
  rw [hcoded]
  by_cases c : m < TREE_LENGHT
  · obtain ⟨t1, t2, t3, t4, -⟩ := tree_code m c
    obtain ⟨m1, m2⟩ := hmf.1 c
    rw [if_pos c]
    dsimp only
    refine ⟨(tree.getD m default).length, t1, by omega, fun q q1 q2 q3 => ?_, fun hn => ?_⟩
    · have e : q = m := hinj q m q1 m1 (by rw [q3, m2])
      rw [e]
      exact t4
    · exact absurd m2 (hn m m1 c)
  · obtain ⟨e1, e2⟩ := byte_code byte hbyte
    rw [if_neg c]
    dsimp only
    refine ⟨10, e1, by omega, fun q q1 q2 q3 => ?_, fun _ => e2⟩
    exact absurd q3 (hmf.2 c q q1 q2)

/-- C34: an iteration of the main loop of `EncodeLZMH`, in a state `s` with the read cursor
inside the ring buffer and, while the history starts at 0, within its first 128 bytes (the loop
starts in such a state and every iteration that does not return leads to one; the loop runs
the iteration `encodeStep`). With `mo` the limit of the offsets, `cap` the limit of the
lengths and `matchCount ... o cap` the number of leading bytes of the look-ahead, at most
`cap`, that equal the byte of the ring buffer `o` positions before them: `mo` is at most 128
and `cap` at most 274; the search ends with `bestlength` the greatest of 2 and the match
lengths of the offsets 1 to `mo`; when it is 3 or more, `bestoffset` is the smallest offset
with a match of that length, between 1 and 128, and `bestlength` is at most 274; `bestlength`
is 3 or more exactly when an offset from 1 to `mo` has a match of 3 or more bytes; then the
item coded is a back-reference (the code of the offset and of the length, the read cursor
moves on by `bestlength`, the symbol list stays); otherwise it is one literal (the byte at
the read cursor enters the symbol list, the read cursor moves on by one, the offsets stay).
The bits that the iteration appends to a well-formed output buffer with room for 20 bits are
those of the bit grammar: for a back-reference the prefix `grammarOffset` of `bestoffset`
(`0110`, `01110`, `011110`, `011111` for one of the four recent offsets, `010` and the 7 bits
of `bestoffset - 1` otherwise) followed by `grammarLength` of `bestlength`, and the recent
offsets become `grammarRecent`; for a literal, with a symbol list that satisfies `HuffInv` and
a ring buffer of bytes (both kept by every iteration and true at the start), the list code
of the entry that holds the byte when it is one of the first 19 entries, which starts with `1`
and has 4 to 8 bits, and the byte code `00` with the 8 bits of the byte otherwise. -/
theorem C34_history_search (s : lzmh_encoder_t) (mo cap : Nat)
    (hr : s.internBufferRead < INTERN_BUFFER_LENGTH)
    (hh : s.internBufferHistory = 0 → s.internBufferRead ≤ LZ_MAX_OFFSET)
    (hmo : mo = (lzMaxOffset s).toNat) (hcap : cap = (lzMaxLength s).toNat) :
    (lzMaxOffset s = (mo : Int) ∧ mo ≤ 128 ∧ lzMaxLength s = (cap : Int) ∧ cap ≤ 274) ∧
    ((lzBest s).1 = ((bestMatch s.internBuffer s.internBufferRead mo cap : Nat) : Int) ∧
      2 ≤ bestMatch s.internBuffer s.internBufferRead mo cap ∧
      (∀ o, 1 ≤ o → o ≤ mo → matchCount s.internBuffer s.internBufferRead o cap
        ≤ bestMatch s.internBuffer s.internBufferRead mo cap) ∧
      (bestMatch s.internBuffer s.internBufferRead mo cap = 2 ∨
        ∃ o, 1 ≤ o ∧ o ≤ mo ∧ matchCount s.internBuffer s.internBufferRead o cap
          = bestMatch s.internBuffer s.internBufferRead mo cap)) ∧
    ((lzBest s).1 ≥ 3 → ∃ bo : Nat, (lzBest s).2 = (bo : Int) ∧ 1 ≤ bo ∧ bo ≤ mo ∧ bo ≤ 128 ∧
      (lzBest s).1 ≤ 274 ∧
      matchCount s.internBuffer s.internBufferRead bo cap
        = bestMatch s.internBuffer s.internBufferRead mo cap ∧
      ∀ o, 1 ≤ o → o < bo → matchCount s.internBuffer s.internBufferRead o cap
        < bestMatch s.internBuffer s.internBufferRead mo cap) ∧
    ((lzBest s).1 ≥ 3 ↔
      ∃ o, 1 ≤ o ∧ o ≤ mo ∧ 3 ≤ matchCount s.internBuffer s.internBufferRead o cap) ∧
    ((lzBest s).1 ≥ 3 →
      (lzCoded s).1.list = s.list ∧
      (lzCoded s).1.offsets = (encodeOffset s.offsets (lzBest s).2 0 0).1 ∧
      (lzCoded s).1.internBufferRead
        = (s.internBufferRead + (lzBest s).1.toNat) % INTERN_BUFFER_LENGTH ∧
      (lzCoded s).2 = encodeLength (lzBest s).1 (encodeOffset s.offsets (lzBest s).2 0 0).2.1
        (encodeOffset s.offsets (lzBest s).2 0 0).2.2) ∧
    (¬ (lzBest s).1 ≥ 3 →
      (lzCoded s).1.offsets = s.offsets ∧
      (lzCoded s).1.list = lzLiteralList s.list (s.internBuffer.getD s.internBufferRead 0) ∧
      (lzCoded s).1.internBufferRead = (s.internBufferRead + 1) % INTERN_BUFFER_LENGTH ∧
      (lzCoded s).2.1 = toI8 (0 +
        (if (searchSymbol (HUFF_LIST_LENGTH + 1) s.list
              (s.internBuffer.getD s.internBufferRead 0) 0).2.1 < TREE_LENGHT
         then ((tree.getD (searchSymbol (HUFF_LIST_LENGTH + 1) s.list
              (s.internBuffer.getD s.internBufferRead 0) 0).2.1 default).length : Int)
         else ((HUFF_BYTE_LENGTH + 2 : Nat) : Int)))) ∧
    ((encodeStep s).1 = none →
      (encodeStep s).2.internBufferRead < INTERN_BUFFER_LENGTH ∧
      ((encodeStep s).2.internBufferHistory = 0 →
        (encodeStep s).2.internBufferRead ≤ LZ_MAX_OFFSET)) ∧
    (∀ internBuffer list inb outb,
      (encodeStart internBuffer list inb outb).internBufferRead = 0 ∧
      (encodeStart internBuffer list inb outb).internBufferHistory = 0) ∧
    (∀ fuel (t : lzmh_encoder_t), EncodeLZMHLoop (fuel + 1) t
      = if (EndOfBitFileBuffer t.in_bit_buf).1 = 0 ∨ t.internBufferWrite ≠ t.internBufferRead
        then
          (match (encodeStep { t with in_bit_buf := (EndOfBitFileBuffer t.in_bit_buf).2 }).1 with
           | some ret =>
             (ret, (encodeStep { t with in_bit_buf := (EndOfBitFileBuffer t.in_bit_buf).2 }).2)
           | none => EncodeLZMHLoop fuel
               (encodeStep { t with in_bit_buf := (EndOfBitFileBuffer t.in_bit_buf).2 }).2)
        else (NO_ERROR, { t with in_bit_buf := (EndOfBitFileBuffer t.in_bit_buf).2 })) ∧
    (s.out_bit_buf.WrWF → s.out_bit_buf.Room 20 → (lzBest s).1 ≥ 3 →
      (encodeStep s).2.out_bit_buf.wrBits
        = s.out_bit_buf.wrBits
          ++ (grammarOffset s.offsets (lzBest s).2.toNat ++ grammarLength (lzBest s).1.toNat) ∧
      (encodeStep s).2.offsets = grammarRecent s.offsets (lzBest s).2.toNat ∧
      (encodeStep s).2.out_bit_buf.WrWF) ∧
    (s.out_bit_buf.WrWF → s.out_bit_buf.Room 20 → ¬ (lzBest s).1 ≥ 3 → HuffInv s.list →
      (∀ x ∈ s.internBuffer, x < 256) →
      (∀ q, q < (occupiedPrefix s.list).length → q < TREE_LENGHT →
        (s.list.getD q default).symbol = s.internBuffer.getD s.internBufferRead 0 →
        (encodeStep s).2.out_bit_buf.wrBits = s.out_bit_buf.wrBits ++ grammarListCode q) ∧
      ((∀ q, q < (occupiedPrefix s.list).length → q < TREE_LENGHT →
          (s.list.getD q default).symbol ≠ s.internBuffer.getD s.internBufferRead 0) →
        (encodeStep s).2.out_bit_buf.wrBits
          = s.out_bit_buf.wrBits ++ grammarByte (s.internBuffer.getD s.internBufferRead 0)) ∧
      (encodeStep s).2.offsets = s.offsets ∧
      (encodeStep s).2.out_bit_buf.WrWF) ∧
    (∀ q, q < TREE_LENGHT →
      (grammarListCode q).head? = some true ∧
      4 ≤ (grammarListCode q).length ∧ (grammarListCode q).length ≤ 8) ∧
    ((HuffInv s.list → HuffInv (encodeStep s).2.list) ∧
      ((∀ x ∈ s.internBuffer, x < 256) → ∀ x ∈ (encodeStep s).2.internBuffer, x < 256)) ∧
    (∀ (internBuffer : List Nat) (list : List HUFFLIST) (inb outb : bit_file_buffer_t),
      (encodeStart internBuffer list inb outb).out_bit_buf = outb ∧
      (encodeStart internBuffer list inb outb).offsets = [0, 0, 0, 0] ∧
      (list.length = HUFF_LIST_LENGTH → HuffInv (encodeStart internBuffer list inb outb).list) ∧
      ((∀ x ∈ internBuffer, x < 256) →
        ∀ x ∈ (encodeStart internBuffer list inb outb).internBuffer, x < 256)) := by
  have h128 : LZ_MAX_OFFSET = 128 := rfl
  have h274 : LZ_MAX_LENGTH = 274 := rfl
  have h403 : INTERN_BUFFER_LENGTH = 403 := rfl
  obtain ⟨o1, o2⟩ := lzMaxOffset_nat s hh
  obtain ⟨l1, l2⟩ := lzMaxLength_nat s
  obtain ⟨bl, bo, hs, hb, hbm, hall, hbest⟩ := lzBest_spec s hr hh
  rw [← hmo] at o1 o2 hbm hall hbest
  rw [← hcap] at l1 l2 hbm hall hbest
  rw [h128] at o2
  rw [h274] at l2
  have hbl : bl ≤ 274 := by
    rcases hbest with h2 | h2
    · omega
    · rw [← h2.2.2.2.1]
      exact le_trans (matchCount_spec _ _ _ _).1 l2
  have hs1 : (lzBest s).1 = (bl : Int) := by rw [hs]
  have hs2 : (lzBest s).2 = (bo : Int) := by rw [hs]
  refine ⟨⟨o1, o2, l1, l2⟩, ⟨?_, ?_, ?_, ?_⟩, ?_, ?_, ?_, ?_, encodeStep_inv s hr hh,
    encodeStart_fields, fun fuel t => EncodeLZMHLoop_step fuel t, ?_, ?_, ?_, ⟨?_, ?_⟩, ?_⟩
  · rw [hs1, hbm]
  · rw [← hbm]; exact hb
  · rw [← hbm]; exact hall
  · rw [← hbm]
    rcases hbest with h | h
    · exact Or.inl h.1
    · exact Or.inr ⟨bo, h.2.1, h.2.2.1, h.2.2.2.1⟩
  · intro h3
    rw [hs1] at h3 ⊢
    rw [← hbm]
    rcases hbest with h | h
    · omega
    · exact ⟨bo, hs2, h.2.1, h.2.2.1, le_trans h.2.2.1 o2, by omega, h.2.2.2.1, h.2.2.2.2⟩
  · rw [hs1]
    constructor
    · intro h3
      rcases hbest with h | h
      · omega
      · exact ⟨bo, h.2.1, h.2.2.1, by rw [h.2.2.2.1]; exact h.1⟩
    · rintro ⟨o, a, b, c⟩
      have := hall o a b
      omega
  · intro h3
    obtain ⟨c1, _, c3, c4, c5⟩ := lzCoded_backreference s h3
    refine ⟨c1, c3, ?_, c5⟩
    rw [c4, hs1, h403, Int.toNat_ofNat]
    rw [h403] at hr
    split <;> omega
  · intro h3
    obtain ⟨c1, _, c3, c4, c5⟩ := lzCoded_literal s h3
    refine ⟨c1, c3, ?_, c5⟩
    rw [c4, h403]
    rw [h403] at hr
    split <;> omega
  · intro hout hroom h3
    rw [hs1] at h3
    rcases hbest with hb2 | ⟨b1, b2, b3, b4, _⟩
    · omega
    · obtain ⟨n, n1, n2, n3, n4⟩ := backreference_code s.offsets bl bo b1 hbl b2
        (le_trans b3 o2)
      have h3' : (lzBest s).1 ≥ 3 := by rw [hs1]; exact h3
      obtain ⟨_, _, c3, _, c5⟩ := lzCoded_backreference s h3'
      rw [hs1, hs2] at c5
      rw [hs2] at c3
      obtain ⟨w1, w2, w3⟩ := encodeStep_write s n (by rw [c5]; exact n1) (by omega) hout hroom
      rw [hs1, hs2, Int.toNat_ofNat, Int.toNat_ofNat]
      refine ⟨?_, by rw [w3, c3, n4], w2⟩
      rw [w1, c5, n3]
  · intro hout hroom h3 hinv hbytes
    have hbyte : s.internBuffer.getD s.internBufferRead 0 < 256 := by
      by_cases hlt : s.internBufferRead < s.internBuffer.length
      · rw [List.getD_eq_getElem _ _ hlt]
        exact hbytes _ (List.getElem_mem _)
      · rw [List.getD_eq_getElem?_getD, List.getElem?_eq_none (by omega)]
        decide
    obtain ⟨n, n1, n2, n3, n4⟩ := literal_code s h3 hinv hbyte
    obtain ⟨w1, w2, w3⟩ := encodeStep_write s n n1 (by omega) hout hroom
    refine ⟨fun q q1 q2 q3 => ?_, fun hn => ?_, by rw [w3, (lzCoded_literal s h3).1], w2⟩
    · rw [w1, n3 q q1 q2 q3]
    · rw [w1, n4 hn]
  · intro q hq
    obtain ⟨_, t2, t3, _, t5⟩ := tree_code q hq
    refine ⟨t5, ?_, ?_⟩
    · unfold grammarListCode
      rw [toBits_length]
      exact t2
    · unfold grammarListCode
      rw [toBits_length]
      exact t3
  · intro hinv
    rw [encodeStep_list]
    split
    · exact hinv
    · exact (lzLiteralList_inv s.list _ hinv).1
  · exact encodeStep_bytes s
  · intro internBuffer list inb outb
    obtain ⟨e1, e2, e3⟩ := encodeStart_out internBuffer list inb outb
    exact ⟨e1, e2, encodeStart_list internBuffer list inb outb, e3⟩

/-- C34 on the second iteration of the main loop for the input `AAAAA`: the first iteration
has written the byte code of the literal 0x41; the second finds the match of length 4 at the
offset 1 and writes the back-reference, `010` and the 7 bits of 0, then `0` and the 3 bits of
1. -/
theorem C34_history_search_witness :
    (lzBest (encodeStep (encodeStart (zeroBytes INTERN_BUFFER_LENGTH) zeroList
        (exampleInput [0x41, 0x41, 0x41, 0x41, 0x41] 8) (exampleOutput 4))).2).1
      = ((bestMatch (encodeStep (encodeStart (zeroBytes INTERN_BUFFER_LENGTH) zeroList
        (exampleInput [0x41, 0x41, 0x41, 0x41, 0x41] 8) (exampleOutput 4))).2.internBuffer
          (encodeStep (encodeStart (zeroBytes INTERN_BUFFER_LENGTH) zeroList
        (exampleInput [0x41, 0x41, 0x41, 0x41, 0x41] 8) (exampleOutput 4))).2.internBufferRead
          1 4 : Nat) : Int) ∧
    (encodeStep (encodeStep (encodeStart (zeroBytes INTERN_BUFFER_LENGTH) zeroList
        (exampleInput [0x41, 0x41, 0x41, 0x41, 0x41] 8) (exampleOutput 4))).2).2.out_bit_buf.wrBits
      = (encodeStep (encodeStart (zeroBytes INTERN_BUFFER_LENGTH) zeroList
        (exampleInput [0x41, 0x41, 0x41, 0x41, 0x41] 8) (exampleOutput 4))).2.out_bit_buf.wrBits
        ++ (grammarOffset (encodeStep (encodeStart (zeroBytes INTERN_BUFFER_LENGTH) zeroList
        (exampleInput [0x41, 0x41, 0x41, 0x41, 0x41] 8) (exampleOutput 4))).2.offsets
            (lzBest (encodeStep (encodeStart (zeroBytes INTERN_BUFFER_LENGTH) zeroList
        (exampleInput [0x41, 0x41, 0x41, 0x41, 0x41] 8) (exampleOutput 4))).2).2.toNat
          ++ grammarLength (lzBest (encodeStep (encodeStart (zeroBytes INTERN_BUFFER_LENGTH) zeroList
        (exampleInput [0x41, 0x41, 0x41, 0x41, 0x41] 8) (exampleOutput 4))).2).1.toNat) ∧
    (encodeStep (encodeStart (zeroBytes INTERN_BUFFER_LENGTH) zeroList
        (exampleInput [0x41, 0x41, 0x41, 0x41, 0x41] 8) (exampleOutput 4))).2.out_bit_buf.wrBits ++ (grammarOffset (encodeStep (encodeStart (zeroBytes INTERN_BUFFER_LENGTH) zeroList
        (exampleInput [0x41, 0x41, 0x41, 0x41, 0x41] 8) (exampleOutput 4))).2.offsets
        (lzBest (encodeStep (encodeStart (zeroBytes INTERN_BUFFER_LENGTH) zeroList
        (exampleInput [0x41, 0x41, 0x41, 0x41, 0x41] 8) (exampleOutput 4))).2).2.toNat
        ++ grammarLength (lzBest (encodeStep (encodeStart (zeroBytes INTERN_BUFFER_LENGTH) zeroList
        (exampleInput [0x41, 0x41, 0x41, 0x41, 0x41] 8) (exampleOutput 4))).2).1.toNat)
      = toBits 2 0 ++ toBits 8 0x41 ++ ([false, true, false] ++ toBits 7 0
          ++ ([false] ++ toBits 3 1)) :=
  have h := C34_history_search (encodeStep (encodeStart (zeroBytes INTERN_BUFFER_LENGTH) zeroList
        (exampleInput [0x41, 0x41, 0x41, 0x41, 0x41] 8) (exampleOutput 4))).2 1 4
    (by decide) (by decide) (by decide) (by decide)
  ⟨h.2.1.1, (h.2.2.2.2.2.2.2.2.2.1 (by decide) (by decide) (by decide)).1, by decide⟩

end DataCompressor
